import Mathlib

/-!
# slinky: expression IR, evaluator, simplifier, bounds inference and pipeline builder

A shallow embedding of the slinky pipeline compiler:

* `symbol_map` and `scoped_value` (src/src/evaluate.h),
* the expression and statement evaluator (src/src/evaluate.cc),
* the default `node_mutator` traversal (src/src/node_mutator.h),
* the `simplifier` and `can_prove` (src/src/simplify.cc),
* the `pipeline_builder` and the scheduling loop of `build_pipeline` (src/src/pipeline.cc),
* the `bounds_inferrer` and `infer_bounds` (src/src/infer_bounds.cc),
* `parallel_for` of the thread pool (src/base/thread_pool.h),
* `copy`, `compute_padding` and `optimize_copy_dims` on buffers (src/src/buffer.cc).

Expressions are immutable trees.  `index_t` is a signed 64-bit integer: values
are modelled as `Int`, and every `+`, `-`, `*` and `abs` performed by the
program is followed by an explicit two's-complement reduction (`wrap`).

The simplifier re-enters itself on rule replacements and on rule predicates,
so its embedding takes a recursion budget (`fuel`): `none` means the budget ran
out, never that the program failed.
-/

namespace slinky

/-! ## index_t arithmetic -/

/-- Smallest `index_t` (`std::numeric_limits<index_t>::min()`). -/
def index_t_min : Int := -9223372036854775808

/-- Largest `index_t` (`std::numeric_limits<index_t>::max()`). -/
def index_t_max : Int := 9223372036854775807

/-- A value is representable as a signed 64-bit `index_t`. -/
def fits_index_t (v : Int) : Prop := index_t_min ≤ v ∧ v ≤ index_t_max

instance (v : Int) : Decidable (fits_index_t v) := by
  unfold fits_index_t; exact inferInstance

/-- Two's-complement reduction of a mathematical integer to the 64-bit signed range:
what a 64-bit machine leaves in the register after `+`, `-` or `*`. -/
def wrap (v : Int) : Int := (v + 9223372036854775808) % 18446744073709551616 - 9223372036854775808

/-- Modelled from the spec: `euclidean_div` is declared in a header that is not part of the
sources at hand.  The spec fixes the quotient for a positive divisor: the remainder is not
negative.  For any other divisor the spec says nothing: there the model takes 0 for the
divisor 0 and goes on with Euclidean rounding for a negative divisor, reduced to `index_t`
(the quotient of `INT64_MIN` and `-1` does not fit).  The theorems on `div` below take a
positive divisor. -/
def euclidean_div (a b : Int) : Int :=
  if 0 < b then a / b else if b = 0 then 0 else wrap (a / b)

/-- Modelled from the spec: `euclidean_mod`, the remainder that goes with `euclidean_div`: not
negative and below the divisor when the divisor is positive.  For any other divisor the spec
says nothing: there the model takes 0 for the divisor 0 and the remainder of Euclidean
rounding for a negative divisor. -/
def euclidean_mod (a b : Int) : Int := if b = 0 then 0 else a % b

/-- A C++ `bool` converted to `index_t`. -/
def bool_to_index (b : Bool) : Int := if b then 1 else 0

/-! ## symbol_map (evaluate.h) -/

/-- The type `symbol_map<T>`: a vector of optional values indexed by symbol id. -/
abbrev symbol_map (T : Type) := List (Option T)

/-- The method `symbol_map::lookup`: unset outside the populated range. -/
def symbol_map.lookup {T : Type} (m : symbol_map T) (name : Nat) : Option T :=
  if name < m.length then (m.getD name none) else none

/-- The effect of `symbol_map::set` on the map (the returned previous value is `lookup`).
Setting a value beyond the end grows the vector to `max(2 * size, name + 1)`; clearing an
entry beyond the end changes nothing. -/
def symbol_map.set {T : Type} (m : symbol_map T) (name : Nat) (value : Option T) : symbol_map T :=
  match value with
  | some v =>
    if name < m.length then List.set m name (some v)
    else List.set (m ++ List.replicate (Nat.max (m.length * 2) (name + 1) - m.length) none) name (some v)
  | none => if name < m.length then List.set m name none else m

/-! ## Expressions (spec section 3; node_mutator.h lists the same variants) -/

/-- The closed set of intrinsics that a `call` node may name. -/
inductive intrinsic where
  | abs
  | positive_infinity
  | negative_infinity
  | indeterminate
  | buffer_rank
  | buffer_elem_size
  | buffer_base
  | buffer_size_bytes
  | buffer_min
  | buffer_max
  | buffer_extent
  | buffer_stride
  | buffer_fold_factor
  | buffer_at
  deriving DecidableEq, Repr

/-- Expression nodes.  The constructors `var` and `let_` stand for the C++ classes `variable`
and `let`, whose names are reserved words here. -/
inductive expr where
  | var (sym : Nat)
  | wildcard (sym : Nat)
  | constant (value : Int)
  | let_ (sym : Nat) (value : expr) (body : expr)
  | add (a b : expr)
  | sub (a b : expr)
  | mul (a b : expr)
  | div (a b : expr)
  | mod (a b : expr)
  | min (a b : expr)
  | max (a b : expr)
  | equal (a b : expr)
  | not_equal (a b : expr)
  | less (a b : expr)
  | less_equal (a b : expr)
  | logical_and (a b : expr)
  | logical_or (a b : expr)
  | logical_not (x : expr)
  | select (condition true_value false_value : expr)
  | call (fn : intrinsic) (args : List expr)
  deriving Repr

/-- The helper `is_constant`: the value of a `constant` node, nothing for any other node. -/
def is_constant : expr → Option Int
  | .constant v => some v
  | _ => none

mutual
/-- Structural comparison of two expressions (the comparison the matcher uses for a
variable that is already bound). -/
def expr.beq : expr → expr → Bool
  | .var s, e =>
    match e with
    | .var t => s == t
    | _ => false
  | .wildcard s, e =>
    match e with
    | .wildcard t => s == t
    | _ => false
  | .constant s, e =>
    match e with
    | .constant t => s == t
    | _ => false
  | .let_ s v b, e =>
    match e with
    | .let_ t w c => s == t && expr.beq v w && expr.beq b c
    | _ => false
  | .add a b, e =>
    match e with
    | .add c d => expr.beq a c && expr.beq b d
    | _ => false
  | .sub a b, e =>
    match e with
    | .sub c d => expr.beq a c && expr.beq b d
    | _ => false
  | .mul a b, e =>
    match e with
    | .mul c d => expr.beq a c && expr.beq b d
    | _ => false
  | .div a b, e =>
    match e with
    | .div c d => expr.beq a c && expr.beq b d
    | _ => false
  | .mod a b, e =>
    match e with
    | .mod c d => expr.beq a c && expr.beq b d
    | _ => false
  | .min a b, e =>
    match e with
    | .min c d => expr.beq a c && expr.beq b d
    | _ => false
  | .max a b, e =>
    match e with
    | .max c d => expr.beq a c && expr.beq b d
    | _ => false
  | .equal a b, e =>
    match e with
    | .equal c d => expr.beq a c && expr.beq b d
    | _ => false
  | .not_equal a b, e =>
    match e with
    | .not_equal c d => expr.beq a c && expr.beq b d
    | _ => false
  | .less a b, e =>
    match e with
    | .less c d => expr.beq a c && expr.beq b d
    | _ => false
  | .less_equal a b, e =>
    match e with
    | .less_equal c d => expr.beq a c && expr.beq b d
    | _ => false
  | .logical_and a b, e =>
    match e with
    | .logical_and c d => expr.beq a c && expr.beq b d
    | _ => false
  | .logical_or a b, e =>
    match e with
    | .logical_or c d => expr.beq a c && expr.beq b d
    | _ => false
  | .logical_not a, e =>
    match e with
    | .logical_not c => expr.beq a c
    | _ => false
  | .select a b c, e =>
    match e with
    | .select d f g => expr.beq a d && expr.beq b f && expr.beq c g
    | _ => false
  | .call f as, e =>
    match e with
    | .call g bs => decide (f = g) && expr.beq_list as bs
    | _ => false
/-- Structural comparison of two argument lists. -/
def expr.beq_list : List expr → List expr → Bool
  | [], bs =>
    match bs with
    | [] => true
    | _ :: _ => false
  | a :: as, bs =>
    match bs with
    | [] => false
    | b :: bs => expr.beq a b && expr.beq_list as bs
end

mutual
/-- Number of nodes of an expression. -/
def expr.size : expr → Nat
  | .var _ => 1
  | .wildcard _ => 1
  | .constant _ => 1
  | .let_ _ v b => 1 + expr.size v + expr.size b
  | .add a b => 1 + expr.size a + expr.size b
  | .sub a b => 1 + expr.size a + expr.size b
  | .mul a b => 1 + expr.size a + expr.size b
  | .div a b => 1 + expr.size a + expr.size b
  | .mod a b => 1 + expr.size a + expr.size b
  | .min a b => 1 + expr.size a + expr.size b
  | .max a b => 1 + expr.size a + expr.size b
  | .equal a b => 1 + expr.size a + expr.size b
  | .not_equal a b => 1 + expr.size a + expr.size b
  | .less a b => 1 + expr.size a + expr.size b
  | .less_equal a b => 1 + expr.size a + expr.size b
  | .logical_and a b => 1 + expr.size a + expr.size b
  | .logical_or a b => 1 + expr.size a + expr.size b
  | .logical_not a => 1 + expr.size a
  | .select a b c => 1 + expr.size a + expr.size b + expr.size c
  | .call _ as => 1 + expr.size_list as
/-- Number of nodes of an argument list. -/
def expr.size_list : List expr → Nat
  | [] => 0
  | a :: as => expr.size a + expr.size_list as
end

/-! ## Buffers (the collaborator interface of spec section 6.3) -/

/-- One dimension of a raw buffer: inclusive bounds, stride in bytes, fold factor. -/
structure dim where
  min : Int
  max : Int
  stride : Int
  fold_factor : Int
  deriving DecidableEq, Repr

/-- The method `dim::extent`: the number of indices in `[min, max]`, computed in `index_t`. -/
def dim.extent (d : dim) : Int := wrap (d.max - d.min + 1)

/-- A raw buffer descriptor; its rank is the number of dims. -/
structure raw_buffer where
  base : Int
  elem_size : Int
  dims : List dim
  deriving DecidableEq, Repr

/-- The buffer runtime seen from the evaluator.  A buffer-valued variable holds a pointer
(an `index_t`); `deref` gives the descriptor the pointer refers to (`none` for a null or
dangling pointer).  `size_bytes` and `flat_offset_bytes` are the two layout queries the
evaluator calls; their definitions belong to the buffer runtime and are kept abstract. -/
structure buffer_runtime where
  deref : Int → Option raw_buffer
  size_bytes : raw_buffer → Int
  flat_offset_bytes : dim → Int → Int

/-! ## The evaluator (evaluate.cc) -/

/-- The type `eval_context`: symbol id to value. -/
abbrev eval_context := symbol_map Int

/-- The function `evaluator::eval_buffer_metadata`, after the buffer argument was evaluated to
the pointer `p`. -/
def eval_buffer_metadata (rt : buffer_runtime) (fn : intrinsic) (p : Int) : Option Int :=
  match rt.deref p with
  | none => none
  | some buf =>
    match fn with
    | .buffer_rank => some (Int.ofNat buf.dims.length)
    | .buffer_elem_size => some buf.elem_size
    | .buffer_base => some buf.base
    | .buffer_size_bytes => some (rt.size_bytes buf)
    | _ => none

/-- The function `evaluator::eval_dim_metadata`, after both arguments were evaluated: `p` is
the buffer pointer and `d` the dimension. -/
def eval_dim_metadata (rt : buffer_runtime) (fn : intrinsic) (p d : Int) : Option Int :=
  match rt.deref p with
  | none => none
  | some buf =>
    if d < 0 then none
    else
      match buf.dims.get? d.toNat with
      | none => none
      | some dm =>
        match fn with
        | .buffer_min => some dm.min
        | .buffer_max => some dm.max
        | .buffer_extent => some dm.extent
        | .buffer_stride => some dm.stride
        | .buffer_fold_factor => some dm.fold_factor
        | _ => none

/-- The loop of `evaluator::eval_buffer_at`: add the flat byte offset of each index. -/
def eval_buffer_at_offsets (rt : buffer_runtime) : List dim → List Int → Int → Option Int
  | _, [], acc => some acc
  | [], _ :: _, _ => none
  | d :: ds, i :: is, acc => eval_buffer_at_offsets rt ds is (wrap (acc + rt.flat_offset_bytes d i))

/-- The function `evaluator::visit(const call*)` once the arguments have been evaluated.
The infinities and `indeterminate` abort; so does a wrong number of arguments. -/
def eval_call (rt : buffer_runtime) (fn : intrinsic) (args : List Int) : Option Int :=
  match fn, args with
  | .abs, [v] => some (wrap (Int.ofNat v.natAbs))
  | .buffer_rank, [p] => eval_buffer_metadata rt fn p
  | .buffer_elem_size, [p] => eval_buffer_metadata rt fn p
  | .buffer_base, [p] => eval_buffer_metadata rt fn p
  | .buffer_size_bytes, [p] => eval_buffer_metadata rt fn p
  | .buffer_min, [p, d] => eval_dim_metadata rt fn p d
  | .buffer_max, [p, d] => eval_dim_metadata rt fn p d
  | .buffer_extent, [p, d] => eval_dim_metadata rt fn p d
  | .buffer_stride, [p, d] => eval_dim_metadata rt fn p d
  | .buffer_fold_factor, [p, d] => eval_dim_metadata rt fn p d
  | .buffer_at, p :: idx =>
    match rt.deref p with
    | none => none
    | some buf => eval_buffer_at_offsets rt buf.dims idx buf.base
  | _, _ => none

mutual
/-- The function `evaluator::eval_expr`: the value of an expression in a context, `none` when
the C++ evaluator aborts (unset variable, infinity, bad buffer access). -/
def eval_expr (rt : buffer_runtime) : expr → eval_context → Option Int
  | .var s, ctx => ctx.lookup s
  | .wildcard s, ctx => ctx.lookup s
  | .constant v, _ => some v
  | .let_ s v b, ctx =>
    match eval_expr rt v ctx with
    | none => none
    | some x => eval_expr rt b (ctx.set s (some x))
  | .add a b, ctx =>
    match eval_expr rt a ctx, eval_expr rt b ctx with
    | some x, some y => some (wrap (x + y))
    | _, _ => none
  | .sub a b, ctx =>
    match eval_expr rt a ctx, eval_expr rt b ctx with
    | some x, some y => some (wrap (x - y))
    | _, _ => none
  | .mul a b, ctx =>
    match eval_expr rt a ctx, eval_expr rt b ctx with
    | some x, some y => some (wrap (x * y))
    | _, _ => none
  | .div a b, ctx =>
    match eval_expr rt a ctx, eval_expr rt b ctx with
    | some x, some y => some (euclidean_div x y)
    | _, _ => none
  | .mod a b, ctx =>
    match eval_expr rt a ctx, eval_expr rt b ctx with
    | some x, some y => some (euclidean_mod x y)
    | _, _ => none
  | .min a b, ctx =>
    match eval_expr rt a ctx, eval_expr rt b ctx with
    | some x, some y => some (Min.min x y)
    | _, _ => none
  | .max a b, ctx =>
    match eval_expr rt a ctx, eval_expr rt b ctx with
    | some x, some y => some (Max.max x y)
    | _, _ => none
  | .equal a b, ctx =>
    match eval_expr rt a ctx, eval_expr rt b ctx with
    | some x, some y => some (bool_to_index (decide (x = y)))
    | _, _ => none
  | .not_equal a b, ctx =>
    match eval_expr rt a ctx, eval_expr rt b ctx with
    | some x, some y => some (bool_to_index (decide (x ≠ y)))
    | _, _ => none
  | .less a b, ctx =>
    match eval_expr rt a ctx, eval_expr rt b ctx with
    | some x, some y => some (bool_to_index (decide (x < y)))
    | _, _ => none
  | .less_equal a b, ctx =>
    match eval_expr rt a ctx, eval_expr rt b ctx with
    | some x, some y => some (bool_to_index (decide (x ≤ y)))
    | _, _ => none
  | .logical_and a b, ctx =>
    match eval_expr rt a ctx with
    | none => none
    | some x =>
      if x = 0 then some 0
      else
        match eval_expr rt b ctx with
        | none => none
        | some y => some (bool_to_index (decide (y ≠ 0)))
  | .logical_or a b, ctx =>
    match eval_expr rt a ctx with
    | none => none
    | some x =>
      if x ≠ 0 then some 1
      else
        match eval_expr rt b ctx with
        | none => none
        | some y => some (bool_to_index (decide (y ≠ 0)))
  | .logical_not a, ctx =>
    match eval_expr rt a ctx with
    | none => none
    | some x => some (bool_to_index (decide (x = 0)))
  | .select c t f, ctx =>
    match eval_expr rt c ctx with
    | none => none
    | some x => if x ≠ 0 then eval_expr rt t ctx else eval_expr rt f ctx
  | .call fn args, ctx =>
    match eval_expr_list rt args ctx with
    | none => none
    | some vs => eval_call rt fn vs
/-- The values of the arguments of a call, in order. -/
def eval_expr_list (rt : buffer_runtime) : List expr → eval_context → Option (List Int)
  | [], _ => some []
  | a :: as, ctx =>
    match eval_expr rt a ctx, eval_expr_list rt as ctx with
    | some v, some vs => some (v :: vs)
    | _, _ => none
end

/-- The function `evaluate(const expr&, eval_context&)`. -/
def evaluate (rt : buffer_runtime) (e : expr) (ctx : eval_context) : Option Int :=
  eval_expr rt e ctx

/-! ## Pattern matching and substitution (spec section 4.2) -/

/-- The type `std::map<symbol_id, expr>` of bindings found by the matcher. -/
abbrev bindings := List (Nat × expr)

/-- The binding of a symbol, if any. -/
def bindings.find (m : bindings) (s : Nat) : Option expr := List.lookup s m

/-- Bind the pattern symbol `s` to `e`; a symbol that is already bound must be bound to a
structurally equal expression. -/
def match_bind (s : Nat) (e : expr) (m : bindings) : Option bindings :=
  match m.find s with
  | some b => if expr.beq b e then some m else none
  | none => some ((s, e) :: m)

/-- Try `first`; when it fails, try `second` (both orderings of a commutative operator). -/
def match_either (first second : Option bindings) : Option bindings :=
  match first with
  | some m => some m
  | none => second

mutual
/-- Modelled from the spec: `match` lives in substitute.cc, which is not part of the sources
at hand.  Spec 4.2: structural match; a `wildcard(s)` or `variable(s)` in the pattern binds
`s` to the subexpression, rejecting conflicting rebindings; `constant` patterns match only
equal constants; commutative operators match both orderings on failure of the first.
The first argument is the pattern. -/
def match_ : expr → expr → bindings → Option bindings
  | .var s, e, m => match_bind s e m
  | .wildcard s, e, m => match_bind s e m
  | .constant v, e, m =>
    match e with
    | .constant w => if v = w then some m else none
    | _ => none
  | .let_ s pv pb, e, m =>
    match e with
    | .let_ t v b =>
      if s = t then
        match match_ pv v m with
        | some m1 => match_ pb b m1
        | none => none
      else none
    | _ => none
  | .add pa pb, e, m =>
    match e with
    | .add a b =>
      match_either
        (match match_ pa a m with
         | some m1 => match_ pb b m1
         | none => none)
        (match match_ pa b m with
         | some m1 => match_ pb a m1
         | none => none)
    | _ => none
  | .sub pa pb, e, m =>
    match e with
    | .sub a b =>
      match match_ pa a m with
      | some m1 => match_ pb b m1
      | none => none
    | _ => none
  | .mul pa pb, e, m =>
    match e with
    | .mul a b =>
      match_either
        (match match_ pa a m with
         | some m1 => match_ pb b m1
         | none => none)
        (match match_ pa b m with
         | some m1 => match_ pb a m1
         | none => none)
    | _ => none
  | .div pa pb, e, m =>
    match e with
    | .div a b =>
      match match_ pa a m with
      | some m1 => match_ pb b m1
      | none => none
    | _ => none
  | .mod pa pb, e, m =>
    match e with
    | .mod a b =>
      match match_ pa a m with
      | some m1 => match_ pb b m1
      | none => none
    | _ => none
  | .min pa pb, e, m =>
    match e with
    | .min a b =>
      match_either
        (match match_ pa a m with
         | some m1 => match_ pb b m1
         | none => none)
        (match match_ pa b m with
         | some m1 => match_ pb a m1
         | none => none)
    | _ => none
  | .max pa pb, e, m =>
    match e with
    | .max a b =>
      match_either
        (match match_ pa a m with
         | some m1 => match_ pb b m1
         | none => none)
        (match match_ pa b m with
         | some m1 => match_ pb a m1
         | none => none)
    | _ => none
  | .equal pa pb, e, m =>
    match e with
    | .equal a b =>
      match_either
        (match match_ pa a m with
         | some m1 => match_ pb b m1
         | none => none)
        (match match_ pa b m with
         | some m1 => match_ pb a m1
         | none => none)
    | _ => none
  | .not_equal pa pb, e, m =>
    match e with
    | .not_equal a b =>
      match_either
        (match match_ pa a m with
         | some m1 => match_ pb b m1
         | none => none)
        (match match_ pa b m with
         | some m1 => match_ pb a m1
         | none => none)
    | _ => none
  | .less pa pb, e, m =>
    match e with
    | .less a b =>
      match match_ pa a m with
      | some m1 => match_ pb b m1
      | none => none
    | _ => none
  | .less_equal pa pb, e, m =>
    match e with
    | .less_equal a b =>
      match match_ pa a m with
      | some m1 => match_ pb b m1
      | none => none
    | _ => none
  | .logical_and pa pb, e, m =>
    match e with
    | .logical_and a b =>
      match_either
        (match match_ pa a m with
         | some m1 => match_ pb b m1
         | none => none)
        (match match_ pa b m with
         | some m1 => match_ pb a m1
         | none => none)
    | _ => none
  | .logical_or pa pb, e, m =>
    match e with
    | .logical_or a b =>
      match_either
        (match match_ pa a m with
         | some m1 => match_ pb b m1
         | none => none)
        (match match_ pa b m with
         | some m1 => match_ pb a m1
         | none => none)
    | _ => none
  | .logical_not pa, e, m =>
    match e with
    | .logical_not a => match_ pa a m
    | _ => none
  | .select pc pt pf, e, m =>
    match e with
    | .select c t f =>
      match match_ pc c m with
      | some m1 =>
        match match_ pt t m1 with
        | some m2 => match_ pf f m2
        | none => none
      | none => none
    | _ => none
  | .call pf ps, e, m =>
    match e with
    | .call f as => if pf = f then match_list ps as m else none
    | _ => none
/-- Match the arguments of a call one by one, threading the bindings. -/
def match_list : List expr → List expr → bindings → Option bindings
  | [], as, m =>
    match as with
    | [] => some m
    | _ :: _ => none
  | p :: ps, as, m =>
    match as with
    | [] => none
    | a :: as =>
      match match_ p a m with
      | some m1 => match_list ps as m1
      | none => none
end

mutual
/-- Modelled from the spec: `substitute` lives in substitute.cc, which is not part of the
sources at hand.  Spec 4.2: each free `variable(s)` with `s` in the bindings is replaced by
its binding; under a `let` the bound symbol is removed from the active substitution within
the body. -/
def substitute : expr → bindings → expr
  | .var s, m =>
    match m.find s with
    | some r => r
    | none => .var s
  | .wildcard s, _ => .wildcard s
  | .constant v, _ => .constant v
  | .let_ s v b, m => .let_ s (substitute v m) (substitute b (m.filter (fun p => p.1 != s)))
  | .add a b, m => .add (substitute a m) (substitute b m)
  | .sub a b, m => .sub (substitute a m) (substitute b m)
  | .mul a b, m => .mul (substitute a m) (substitute b m)
  | .div a b, m => .div (substitute a m) (substitute b m)
  | .mod a b, m => .mod (substitute a m) (substitute b m)
  | .min a b, m => .min (substitute a m) (substitute b m)
  | .max a b, m => .max (substitute a m) (substitute b m)
  | .equal a b, m => .equal (substitute a m) (substitute b m)
  | .not_equal a b, m => .not_equal (substitute a m) (substitute b m)
  | .less a b, m => .less (substitute a m) (substitute b m)
  | .less_equal a b, m => .less_equal (substitute a m) (substitute b m)
  | .logical_and a b, m => .logical_and (substitute a m) (substitute b m)
  | .logical_or a b, m => .logical_or (substitute a m) (substitute b m)
  | .logical_not a, m => .logical_not (substitute a m)
  | .select c t f, m => .select (substitute c m) (substitute t m) (substitute f m)
  | .call fn args, m => .call fn (substitute_list args m)
/-- Substitution in the arguments of a call. -/
def substitute_list : List expr → bindings → List expr
  | [], _ => []
  | a :: as, m => substitute a m :: substitute_list as m
end

/-! ## The simplifier (simplify.cc) -/

/-- A rewrite rule: pattern, replacement and an optional predicate (`predicate.defined()`). -/
structure rule where
  pattern : expr
  replacement : expr
  predicate : Option expr

/-- The pattern variable `x` of simplify.cc (`variable::make(0)`). -/
def simplifier.x : expr := .var 0

/-- The pattern variable `y` of simplify.cc (`variable::make(1)`). -/
def simplifier.y : expr := .var 1

/-- The pattern variable `z` of simplify.cc (`variable::make(2)`). -/
def simplifier.z : expr := .var 2

/-- The helper `buffer_min(buf, dim)` of simplify.cc.  The file builds a `load_buffer_meta`
node; in the node set of the spec and of node_mutator.h that is the call of the intrinsic
`buffer_min` on the buffer and the dimension. -/
def buffer_min (buf d : expr) : expr := .call .buffer_min [buf, d]

/-- The helper `buffer_max(buf, dim)` of simplify.cc. -/
def buffer_max (buf d : expr) : expr := .call .buffer_max [buf, d]

/-- The helper `buffer_extent(buf, dim)` of simplify.cc. -/
def buffer_extent (buf d : expr) : expr := .call .buffer_extent [buf, d]

/-- The test `value.as<load_buffer_meta>()`: the node loads buffer metadata. -/
def is_load_buffer_meta : expr → Bool
  | .call .buffer_rank _ => true
  | .call .buffer_elem_size _ => true
  | .call .buffer_base _ => true
  | .call .buffer_size_bytes _ => true
  | .call .buffer_min _ => true
  | .call .buffer_max _ => true
  | .call .buffer_extent _ => true
  | .call .buffer_stride _ => true
  | .call .buffer_fold_factor _ => true
  | _ => false

/-- The test `value.as<variable>()`. -/
def is_variable : expr → Bool
  | .var _ => true
  | _ => false

/-- The rule table of `simplifier::visit(const min*)`.  The comparison `z > 0` is the node
`less(0, z)`: the IR has no greater-than node. -/
def simplifier.min_rules : List rule :=
  [ { pattern := .min simplifier.x simplifier.x, replacement := simplifier.x, predicate := none },
    { pattern := .min (.div simplifier.x simplifier.z) (.div simplifier.y simplifier.z),
      replacement := .div (.min simplifier.x simplifier.y) simplifier.z,
      predicate := some (.less (.constant 0) simplifier.z) },
    { pattern := .min (buffer_min simplifier.x simplifier.y) (buffer_max simplifier.x simplifier.y),
      replacement := buffer_min simplifier.x simplifier.y, predicate := none } ]

/-- The rule table of `simplifier::visit(const max*)`. -/
def simplifier.max_rules : List rule :=
  [ { pattern := .max simplifier.x simplifier.x, replacement := simplifier.x, predicate := none },
    { pattern := .max (.div simplifier.x simplifier.z) (.div simplifier.y simplifier.z),
      replacement := .div (.max simplifier.x simplifier.y) simplifier.z,
      predicate := some (.less (.constant 0) simplifier.z) },
    { pattern := .max (buffer_min simplifier.x simplifier.y) (buffer_max simplifier.x simplifier.y),
      replacement := buffer_max simplifier.x simplifier.y, predicate := none } ]

/-- The rule table of `simplifier::visit(const add*)`. -/
def simplifier.add_rules : List rule :=
  [ { pattern := .add (.sub (buffer_max simplifier.x simplifier.y)
        (buffer_min simplifier.x simplifier.y)) (.constant 1),
      replacement := buffer_extent simplifier.x simplifier.y, predicate := none } ]

/-- The rule table of `simplifier::visit(const sub*)`. -/
def simplifier.sub_rules : List rule :=
  [ { pattern := .sub simplifier.x simplifier.x, replacement := .constant 0, predicate := none },
    { pattern := .sub (.add (buffer_min simplifier.x simplifier.y)
        (buffer_extent simplifier.x simplifier.y)) (.constant 1),
      replacement := buffer_max simplifier.x simplifier.y, predicate := none } ]

/-- The result of a mutation: the new expression and the updated reference counts
(`simplifier::references`). -/
abbrev mutated := Option (expr × symbol_map Int)

/-- The function `can_prove`, over a given `mutate`: simplify with a fresh simplifier (empty
reference counts) and test for a non-zero constant. -/
def simplifier.can_prove_with (mutate : expr → symbol_map Int → mutated) (e : expr) : Option Bool :=
  match mutate e [] with
  | none => none
  | some (simplified, _) =>
    match is_constant simplified with
    | some c => some (decide (c ≠ 0))
    | none => some false

/-- The function `simplifier::apply_rules`: the first rule whose pattern matches and whose
predicate (if any) can be proved rewrites `x`; the replacement is mutated again. -/
def simplifier.apply_rules (mutate : expr → symbol_map Int → mutated) :
    List rule → expr → symbol_map Int → mutated
  | [], x, references => some (x, references)
  | r :: rules, x, references =>
    match match_ r.pattern x [] with
    | some mt =>
      match r.predicate with
      | none => mutate (substitute r.replacement mt) references
      | some pr =>
        match simplifier.can_prove_with mutate (substitute pr mt) with
        | none => none
        | some true => mutate (substitute r.replacement mt) references
        | some false => simplifier.apply_rules mutate rules x references
    | none => simplifier.apply_rules mutate rules x references

/-- The two lines `expr a = mutate(op->a); expr b = mutate(op->b);` that open every binary
visitor. -/
def simplifier.mutate_pair (mutate : expr → symbol_map Int → mutated) (a b : expr)
    (references : symbol_map Int) : Option (expr × expr × symbol_map Int) :=
  match mutate a references with
  | none => none
  | some (a', r1) =>
    match mutate b r1 with
    | none => none
    | some (b', r2) => some (a', b', r2)

/-- The loop of `node_mutator::visit(const call*)` over the arguments. -/
def simplifier.mutate_list (mutate : expr → symbol_map Int → mutated) :
    List expr → symbol_map Int → Option (List expr × symbol_map Int)
  | [], references => some ([], references)
  | a :: as, references =>
    match mutate a references with
    | none => none
    | some (a', r1) =>
      match simplifier.mutate_list mutate as r1 with
      | none => none
      | some (as', r2) => some (a' :: as', r2)

/-- The function template `simplifier::visit_let<T>`, for a body of type `β`: `T = let` has an
expression body, `T = let_stmt` a statement body.  `mutate_body`, `substitute_body` and `make`
are the overloads of `mutate`, `substitute` and `T::make` for that body type.  The scoped
reference count of `name` starts at 0 for the body and is restored on exit. -/
def simplifier.visit_let_template {β : Type} (mutate : expr → symbol_map Int → mutated)
    (mutate_body : β → symbol_map Int → Option (β × symbol_map Int))
    (substitute_body : β → bindings → β) (make : Nat → expr → β → β) (name : Nat)
    (value : expr) (body : β) (references : symbol_map Int) : Option (β × symbol_map Int) :=
  match mutate value references with
  | none => none
  | some (value', r1) =>
    match mutate_body body (r1.set name (some 0)) with
    | none => none
    | some (body', r2) =>
      match r2.lookup name with
      | none => none
      | some refs =>
        let restored := r2.set name (r1.lookup name)
        if refs = 0 then some (body', restored)
        else if refs = 1 ∨ (is_constant value').isSome ∨ is_variable value' ∨ is_load_buffer_meta value' then
          some (substitute_body body' [(name, value')], restored)
        else some (make name value' body', restored)

/-- The function `simplifier::visit(const let*)`: `visit_let` at `T = let`. -/
def simplifier.visit_let (mutate : expr → symbol_map Int → mutated) (name : Nat)
    (value body : expr) (references : symbol_map Int) : mutated :=
  simplifier.visit_let_template mutate mutate substitute expr.let_ name value body references

/-- One visit of the simplifier: the `visit` overloads of `simplifier`, and for the other
nodes the defaults inherited from `node_mutator`.  `mutate` is the recursive entry point.
A rebuilt node and the original node are the same tree, so the `same_as` shortcut of the
visitors does not show in the result. -/
def simplifier.visit (mutate : expr → symbol_map Int → mutated) (e : expr)
    (references : symbol_map Int) : mutated :=
  match e with
  | .var name =>
    match references.lookup name with
    | none => some (.var name, references.set name (some 1))
    | some c => some (.var name, references.set name (some (c + 1)))
  | .wildcard s => some (.wildcard s, references)
  | .constant v => some (.constant v, references)
  | .let_ name value body => simplifier.visit_let mutate name value body references
  | .min a b =>
    match simplifier.mutate_pair mutate a b references with
    | none => none
    | some (a', b', r) =>
      match is_constant a', is_constant b' with
      | some ca, some cb => some (.constant (Min.min ca cb), r)
      | _, _ => simplifier.apply_rules mutate simplifier.min_rules (.min a' b') r
  | .max a b =>
    match simplifier.mutate_pair mutate a b references with
    | none => none
    | some (a', b', r) =>
      match is_constant a', is_constant b' with
      | some ca, some cb => some (.constant (Max.max ca cb), r)
      | _, _ => simplifier.apply_rules mutate simplifier.max_rules (.max a' b') r
  | .add a b =>
    match simplifier.mutate_pair mutate a b references with
    | none => none
    | some (a', b', r) =>
      match is_constant a', is_constant b' with
      | some ca, some cb => some (.constant (wrap (ca + cb)), r)
      | _, _ => simplifier.apply_rules mutate simplifier.add_rules (.add a' b') r
  | .sub a b =>
    match simplifier.mutate_pair mutate a b references with
    | none => none
    | some (a', b', r) =>
      match is_constant a', is_constant b' with
      | some ca, some cb => some (.constant (wrap (ca - cb)), r)
      | _, _ => simplifier.apply_rules mutate simplifier.sub_rules (.sub a' b') r
  | .less a b =>
    match simplifier.mutate_pair mutate a b references with
    | none => none
    | some (a', b', r) =>
      match is_constant a', is_constant b' with
      | some ca, some cb => some (.constant (bool_to_index (decide (ca < cb))), r)
      | _, _ => some (.less a' b', r)
  | .mul a b =>
    match simplifier.mutate_pair mutate a b references with
    | none => none
    | some (a', b', r) => some (.mul a' b', r)
  | .div a b =>
    match simplifier.mutate_pair mutate a b references with
    | none => none
    | some (a', b', r) => some (.div a' b', r)
  | .mod a b =>
    match simplifier.mutate_pair mutate a b references with
    | none => none
    | some (a', b', r) => some (.mod a' b', r)
  | .equal a b =>
    match simplifier.mutate_pair mutate a b references with
    | none => none
    | some (a', b', r) => some (.equal a' b', r)
  | .not_equal a b =>
    match simplifier.mutate_pair mutate a b references with
    | none => none
    | some (a', b', r) => some (.not_equal a' b', r)
  | .less_equal a b =>
    match simplifier.mutate_pair mutate a b references with
    | none => none
    | some (a', b', r) => some (.less_equal a' b', r)
  | .logical_and a b =>
    match simplifier.mutate_pair mutate a b references with
    | none => none
    | some (a', b', r) => some (.logical_and a' b', r)
  | .logical_or a b =>
    match simplifier.mutate_pair mutate a b references with
    | none => none
    | some (a', b', r) => some (.logical_or a' b', r)
  | .logical_not a =>
    match mutate a references with
    | none => none
    | some (a', r) => some (.logical_not a', r)
  | .select c t f =>
    match mutate c references with
    | none => none
    | some (c', r1) =>
      match simplifier.mutate_pair mutate t f r1 with
      | none => none
      | some (t', f', r) => some (.select c' t' f', r)
  | .call fn args =>
    match simplifier.mutate_list mutate args references with
    | none => none
    | some (args', r) => some (.call fn args', r)

/-- The function `simplifier::mutate` with a recursion budget: `none` only when the budget is
used up. -/
def simplifier.mutate : Nat → expr → symbol_map Int → mutated
  | 0 => fun _ _ => none
  | fuel + 1 => simplifier.visit (simplifier.mutate fuel)

/-- The function `simplify(const expr&)`: `simplifier().mutate(e)`. -/
def simplify (fuel : Nat) (e : expr) : Option expr :=
  match simplifier.mutate fuel e [] with
  | none => none
  | some (r, _) => some r

/-- The function `can_prove(const expr&)`. -/
def can_prove (fuel : Nat) (e : expr) : Option Bool :=
  simplifier.can_prove_with (simplifier.mutate fuel) e

/-! ## A larger budget never changes a result: definitions -/

/-- Whatever `f` returns, `g` returns too. -/
def simplifier.extends_ (f g : expr → symbol_map Int → mutated) : Prop :=
  ∀ e r x, f e r = some x → g e r = some x

/-! ## Reference counts never get lost: definitions -/

/-- The function `f` leaves every reference count that is set, set, and does not lower it. -/
def simplifier.keeps (f : expr → symbol_map Int → mutated) : Prop :=
  ∀ (e : expr) (r : symbol_map Int) (x : expr × symbol_map Int) (s : Nat) (c : Int),
    f e r = some x → r.lookup s = some c → ∃ c', x.2.lookup s = some c' ∧ c ≤ c'

/-! ## The fragment on which the simplifier is sound: definitions -/

mutual
/-- An expression without `let` and without `wildcard` nodes. -/
def expr.plain : expr → Bool
  | .var _ => true
  | .wildcard _ => false
  | .constant _ => true
  | .let_ _ _ _ => false
  | .add a b => expr.plain a && expr.plain b
  | .sub a b => expr.plain a && expr.plain b
  | .mul a b => expr.plain a && expr.plain b
  | .div a b => expr.plain a && expr.plain b
  | .mod a b => expr.plain a && expr.plain b
  | .min a b => expr.plain a && expr.plain b
  | .max a b => expr.plain a && expr.plain b
  | .equal a b => expr.plain a && expr.plain b
  | .not_equal a b => expr.plain a && expr.plain b
  | .less a b => expr.plain a && expr.plain b
  | .less_equal a b => expr.plain a && expr.plain b
  | .logical_and a b => expr.plain a && expr.plain b
  | .logical_or a b => expr.plain a && expr.plain b
  | .logical_not a => expr.plain a
  | .select c t f => expr.plain c && expr.plain t && expr.plain f
  | .call _ as => expr.plain_list as
/-- A list of expressions without `let` and without `wildcard` nodes. -/
def expr.plain_list : List expr → Bool
  | [] => true
  | a :: as => expr.plain a && expr.plain_list as
end

mutual
/-- An expression without `wildcard` nodes in which the body of every `let` holds no further
`let` (a `let` may occur anywhere else, also in the value of another `let`). -/
def expr.flat_lets : expr → Bool
  | .var _ => true
  | .wildcard _ => false
  | .constant _ => true
  | .let_ _ v b => expr.flat_lets v && expr.plain b
  | .add a b => expr.flat_lets a && expr.flat_lets b
  | .sub a b => expr.flat_lets a && expr.flat_lets b
  | .mul a b => expr.flat_lets a && expr.flat_lets b
  | .div a b => expr.flat_lets a && expr.flat_lets b
  | .mod a b => expr.flat_lets a && expr.flat_lets b
  | .min a b => expr.flat_lets a && expr.flat_lets b
  | .max a b => expr.flat_lets a && expr.flat_lets b
  | .equal a b => expr.flat_lets a && expr.flat_lets b
  | .not_equal a b => expr.flat_lets a && expr.flat_lets b
  | .less a b => expr.flat_lets a && expr.flat_lets b
  | .less_equal a b => expr.flat_lets a && expr.flat_lets b
  | .logical_and a b => expr.flat_lets a && expr.flat_lets b
  | .logical_or a b => expr.flat_lets a && expr.flat_lets b
  | .logical_not a => expr.flat_lets a
  | .select c t f => expr.flat_lets c && expr.flat_lets t && expr.flat_lets f
  | .call _ as => expr.flat_lets_list as
/-- A list of expressions with flat lets. -/
def expr.flat_lets_list : List expr → Bool
  | [] => true
  | a :: as => expr.flat_lets a && expr.flat_lets_list as
end

mutual
/-- A bound on the size an expression can reach once its lets are inlined: the size, except
that a `let` counts its value once for every node of its body. -/
def expr.weight : expr → Nat
  | .var _ => 1
  | .wildcard _ => 1
  | .constant _ => 1
  | .let_ _ v b => 1 + expr.weight v + expr.weight b * expr.weight v
  | .add a b => 1 + expr.weight a + expr.weight b
  | .sub a b => 1 + expr.weight a + expr.weight b
  | .mul a b => 1 + expr.weight a + expr.weight b
  | .div a b => 1 + expr.weight a + expr.weight b
  | .mod a b => 1 + expr.weight a + expr.weight b
  | .min a b => 1 + expr.weight a + expr.weight b
  | .max a b => 1 + expr.weight a + expr.weight b
  | .equal a b => 1 + expr.weight a + expr.weight b
  | .not_equal a b => 1 + expr.weight a + expr.weight b
  | .less a b => 1 + expr.weight a + expr.weight b
  | .less_equal a b => 1 + expr.weight a + expr.weight b
  | .logical_and a b => 1 + expr.weight a + expr.weight b
  | .logical_or a b => 1 + expr.weight a + expr.weight b
  | .logical_not a => 1 + expr.weight a
  | .select c t f => 1 + expr.weight c + expr.weight t + expr.weight f
  | .call _ as => 1 + expr.weight_list as
/-- The summed weights of a list of expressions. -/
def expr.weight_list : List expr → Nat
  | [] => 0
  | a :: as => expr.weight a + expr.weight_list as
end

mutual
/-- The symbol `x` names a `variable` node of the expression. -/
def expr.mentions (x : Nat) : expr → Bool
  | .var s => decide (s = x)
  | .wildcard _ => false
  | .constant _ => false
  | .let_ _ v b => expr.mentions x v || expr.mentions x b
  | .add a b => expr.mentions x a || expr.mentions x b
  | .sub a b => expr.mentions x a || expr.mentions x b
  | .mul a b => expr.mentions x a || expr.mentions x b
  | .div a b => expr.mentions x a || expr.mentions x b
  | .mod a b => expr.mentions x a || expr.mentions x b
  | .min a b => expr.mentions x a || expr.mentions x b
  | .max a b => expr.mentions x a || expr.mentions x b
  | .equal a b => expr.mentions x a || expr.mentions x b
  | .not_equal a b => expr.mentions x a || expr.mentions x b
  | .less a b => expr.mentions x a || expr.mentions x b
  | .less_equal a b => expr.mentions x a || expr.mentions x b
  | .logical_and a b => expr.mentions x a || expr.mentions x b
  | .logical_or a b => expr.mentions x a || expr.mentions x b
  | .logical_not a => expr.mentions x a
  | .select c t f => expr.mentions x c || expr.mentions x t || expr.mentions x f
  | .call _ as => expr.mentions_list x as
/-- The symbol `x` names a `variable` node of one of the expressions. -/
def expr.mentions_list (x : Nat) : List expr → Bool
  | [] => false
  | a :: as => expr.mentions x a || expr.mentions_list x as
end

mutual
/-- The shapes that occur in rule patterns: variables, constants, `add`, `sub`, `div`, `min`,
`max` and calls. -/
def expr.is_pattern : expr → Bool
  | .var _ => true
  | .constant _ => true
  | .add a b => expr.is_pattern a && expr.is_pattern b
  | .sub a b => expr.is_pattern a && expr.is_pattern b
  | .div a b => expr.is_pattern a && expr.is_pattern b
  | .min a b => expr.is_pattern a && expr.is_pattern b
  | .max a b => expr.is_pattern a && expr.is_pattern b
  | .call _ as => expr.is_pattern_list as
  | _ => false
/-- A list of pattern-shaped expressions. -/
def expr.is_pattern_list : List expr → Bool
  | [] => true
  | a :: as => expr.is_pattern a && expr.is_pattern_list as
end

mutual
/-- Every variable of the pattern is bound in `m`. -/
def expr.bound_in : expr → bindings → Bool
  | .var s, m => (m.find s).isSome
  | .constant _, _ => true
  | .add a b, m => expr.bound_in a m && expr.bound_in b m
  | .sub a b, m => expr.bound_in a m && expr.bound_in b m
  | .div a b, m => expr.bound_in a m && expr.bound_in b m
  | .min a b, m => expr.bound_in a m && expr.bound_in b m
  | .max a b, m => expr.bound_in a m && expr.bound_in b m
  | .call _ as, m => expr.bound_in_list as m
  | _, _ => false
/-- Every variable of every pattern of the list is bound in `m`. -/
def expr.bound_in_list : List expr → bindings → Bool
  | [], _ => true
  | a :: as, m => expr.bound_in a m && expr.bound_in_list as m
end

/-- The bindings `m2` keep every binding of `m1`. -/
def bindings.le (m1 m2 : bindings) : Prop := ∀ s t, m1.find s = some t → m2.find s = some t

/-- Two expressions of the same weight, both plain or both not, both with flat lets or both
not, and with the same value in every context. -/
def expr.similar (x e : expr) : Prop :=
  x.weight = e.weight ∧ x.plain = e.plain ∧ x.flat_lets = e.flat_lets ∧
    ∀ rt ctx, eval_expr rt x ctx = eval_expr rt e ctx

/-- Two argument lists of the same weight, plainness, flatness and values. -/
def expr.similar_list (xs es : List expr) : Prop :=
  expr.weight_list xs = expr.weight_list es ∧ expr.plain_list xs = expr.plain_list es ∧
    expr.flat_lets_list xs = expr.flat_lets_list es ∧
    ∀ rt ctx, eval_expr_list rt xs ctx = eval_expr_list rt es ctx

/-! ## Buffers whose dims are non-empty index ranges: definitions -/

/-- Every dim of every live buffer has `min <= max`, and `max` is an `index_t`. -/
def buffer_runtime.nonempty_dims (rt : buffer_runtime) : Prop :=
  ∀ p buf, rt.deref p = some buf → ∀ d ∈ buf.dims, d.min ≤ d.max ∧ fits_index_t d.max

/-- The dim that `eval_dim_metadata` reads. -/
def buffer_runtime.dim_at (rt : buffer_runtime) (p d : Int) : Option dim :=
  match rt.deref p with
  | none => none
  | some buf => if d < 0 then none else buf.dims.get? d.toNat

/-! ## Every rule of the tables preserves values: definitions -/

/-- What makes one rewrite step `P -> R` under the predicate `pred` safe: `R` weighs less than
`P`, is plain when `P` is and has flat lets when `P` has; so does the predicate; and wherever
`P` has a value the predicate has one and, if that is non-zero, `R` has the value of `P`. -/
def rule.sound_at (P R : expr) (pred : Option expr) : Prop :=
  (P.plain = true → R.plain = true) ∧ (P.flat_lets = true → R.flat_lets = true) ∧
  R.weight < P.weight ∧
  (∀ pr, pred = some pr → (P.plain = true → pr.plain = true) ∧
    (P.flat_lets = true → pr.flat_lets = true) ∧ pr.weight < P.weight) ∧
  ∀ (rt : buffer_runtime) (ctx : eval_context) (v : Int), rt.nonempty_dims →
    eval_expr rt P ctx = some v →
      (∀ pr, pred = some pr → ∃ w, eval_expr rt pr ctx = some w) ∧
      ((∀ pr w, pred = some pr → eval_expr rt pr ctx = some w → w ≠ 0) →
        eval_expr rt R ctx = some v)

/-- A rule is sound when its pattern has a pattern shape and every instance of it is a safe
rewrite step. -/
def rule.sound (rl : rule) : Prop :=
  expr.is_pattern rl.pattern = true ∧ ∀ mt : bindings,
    rule.sound_at (substitute rl.pattern mt) (substitute rl.replacement mt)
      (rl.predicate.map (fun pr => substitute pr mt))

/-! ## Soundness of the simplifier on expressions with flat lets: definitions -/

/-- The expression `e'` may replace `e`: it has flat lets, is plain when `e` is, weighs no
more, and has the value of `e` wherever `e` has one (over buffers with non-empty dims). -/
def simplifier.refines (e e' : expr) : Prop :=
  e'.flat_lets = true ∧ (e.plain = true → e'.plain = true) ∧ e'.weight ≤ e.weight ∧
    ∀ (rt : buffer_runtime) (ctx : eval_context) (v : Int), rt.nonempty_dims →
      eval_expr rt e ctx = some v → eval_expr rt e' ctx = some v

/-- Every symbol that satisfies `mentioned` had its reference count raised between `r` and
`r'`. -/
def simplifier.counted (mentioned : Nat → Bool) (r r' : symbol_map Int) : Prop :=
  ∀ (s : Nat) (c : Int), mentioned s = true → r.lookup s = some c →
    ∃ c', r'.lookup s = some c' ∧ c < c'

/-- The function `f` returns a refinement for every expression with flat lets of weight at
most `n`, and for a plain one it has counted every symbol that the result mentions. -/
def simplifier.sound_upto (f : expr → symbol_map Int → mutated) (n : Nat) : Prop :=
  ∀ e r, e.flat_lets = true → e.weight ≤ n →
    ∃ e' r', f e r = some (e', r') ∧ simplifier.refines e e' ∧
      (e.plain = true → simplifier.counted (fun s => expr.mentions s e') r r')

/-! ## Following the simplifier on given expressions: definitions -/

/-- With budget `n`, and whatever the reference counts, the simplifier turns `e` into `e'`. -/
def simplifier.yields (n : Nat) (e e' : expr) : Prop :=
  ∀ r : symbol_map Int, ∃ r', simplifier.mutate n e r = some (e', r')

/-! ## Soundness of `simplify` and `can_prove`: definitions -/

/-- A buffer runtime with one live buffer, at address 100: rank 1, and its only dim is the
empty range `[0, -1]` (extent 0). -/
def empty_buffer_runtime : buffer_runtime :=
  { deref := fun p =>
      if p = 100 then
        some { base := 4096, elem_size := 4,
               dims := [{ min := 0, max := -1, stride := 4, fold_factor := 0 }] }
      else none,
    size_bytes := fun _ => 0,
    flat_offset_bytes := fun d i => (i - d.min) * d.stride }

/-! ## Statements (spec section 3; evaluate.cc and node_mutator.h visit the same variants) -/

/-- The enumeration `memory_type` of an `allocate`. -/
inductive memory_type where
  | stack
  | heap
  deriving DecidableEq, Repr

/-- One `dim_expr` of an `allocate` or `make_buffer`: bounds, stride and fold factor. -/
structure dim_expr where
  min : expr
  max : expr
  stride : expr
  fold_factor : expr

/-- Statement nodes.  An `Option` is a field that the code tests with `defined()`.
`call_func` holds the number of its callable.  `crop_dim` holds the outcome of
`bounds.min.same_as(bounds.max)` in `same_node`: the IR compares the two fields by pointer,
which a tree does not show.  `at_` stands for the C++ field `at`. -/
inductive stmt where
  | let_stmt (sym : Nat) (value : expr) (body : stmt)
  | block (a b : stmt)
  | loop (sym : Nat) (min max : expr) (step : Option expr) (body : stmt)
  | if_then_else (condition : expr) (true_body false_body : Option stmt)
  | call_func (target : Nat)
  | allocate (storage : memory_type) (sym : Nat) (elem_size : Int) (dims : List dim_expr)
      (body : stmt)
  | make_buffer (sym : Nat) (base elem_size : expr) (dims : List dim_expr) (body : stmt)
  | crop_buffer (sym : Nat) (bounds : List (Option expr × Option expr)) (body : stmt)
  | crop_dim (sym : Nat) (dim : Nat) (min max : expr) (same_node : Bool) (body : stmt)
  | slice_buffer (sym : Nat) (at_ : List (Option expr)) (body : stmt)
  | slice_dim (sym : Nat) (dim : Nat) (at_ : expr) (body : stmt)
  | truncate_rank (sym : Nat) (rank : Nat) (body : stmt)
  | check (condition : Option expr)

/-! ## The machine of the statement evaluator -/

/-- Modelled from the spec: `dim::set_bounds` of the buffer header, which is not part of the
sources at hand.  The dim covers `[min, max]` afterwards. -/
def dim.set_bounds (d : dim) (min max : Int) : dim := { d with min := min, max := max }

/-- Modelled from the spec: `dim::set_min_extent`; the dim starts at `min` and holds `extent`
indices, so its last index is `min + extent - 1`, computed in `index_t`. -/
def dim.set_min_extent (d : dim) (min extent : Int) : dim :=
  { d with min := min, max := wrap (min + extent - 1) }

/-- Modelled from the spec: `dim::set_point`; the dim is fixed to the single index `x`. -/
def dim.set_point (d : dim) (x : Int) : dim := { d with min := x, max := x }

/-- A `raw_buffer` in memory: the fields `base`, `elem_size`, `rank` and the array that
`dims` points to.  The statements below write `rank` and `dims` separately. -/
structure buffer_cell where
  base : Int
  elem_size : Int
  rank : Nat
  dims : List dim
  deriving DecidableEq, Repr

/-- What an expression sees of a buffer: the first `rank` entries of the dims array. -/
def buffer_cell.view (c : buffer_cell) : raw_buffer :=
  { base := c.base, elem_size := c.elem_size, dims := c.dims.take c.rank }

/-- What the evaluator does that can be observed from outside, in order. -/
inductive event where
  | kernel_called (target : Nat) (status : Int)
  | call_failed (target : Nat)
  | check_failed (condition : Option expr)
  | allocate_hook (sym : Nat)
  | free_hook (sym : Nat)

/-- The kernel of a `call_func` returned a non-zero status, or the `check_failed` hook was
called. -/
def event.is_failure : event → Bool
  | .kernel_called _ status => decide (status ≠ 0)
  | .check_failed _ => true
  | _ => false

/-- A kernel was invoked. -/
def event.is_call : event → Bool
  | .kernel_called _ _ => true
  | _ => false

/-- The state of one `evaluator` object: the `eval_context`, the buffer descriptors in memory
(by address), the member `result`, and the events so far. -/
structure machine where
  context : eval_context
  buffers : Int → Option buffer_cell
  result : Int
  trace : List event

/-- What the evaluator is given from outside.  `size_bytes` and `flat_offset_bytes` are the
layout queries of the buffer runtime (spec 6.3).  `target k` is the callable of the
`call_func` number `k`: it gets the context and the buffers, may change both, and returns a
status.  Modelled from the spec: the hooks `check_failed`, `call_failed`, `allocate` and
`free` of the context (spec 4.4 and 7; the header at hand declares no hooks): each flag says
whether the hook is installed, and an installed hook returns.  `descriptor_address` and
`data_address` stand for the addresses that `alloca` and the allocators hand out. -/
structure eval_env where
  size_bytes : raw_buffer → Int
  flat_offset_bytes : dim → Int → Int
  target : Nat → eval_context → (Int → Option buffer_cell) →
    Int × eval_context × (Int → Option buffer_cell)
  check_failed : Bool
  call_failed : Bool
  allocate_hook : Bool
  descriptor_address : eval_context → (Int → Option buffer_cell) → Int
  data_address : memory_type → Nat → raw_buffer → Int

/-- The buffer runtime that expressions are evaluated against. -/
def machine.runtime (env : eval_env) (m : machine) : buffer_runtime :=
  { deref := fun p => (m.buffers p).map buffer_cell.view,
    size_bytes := env.size_bytes,
    flat_offset_bytes := env.flat_offset_bytes }

/-- Write the descriptor at address `p`. -/
def machine.set_buffer (m : machine) (p : Int) (c : Option buffer_cell) : machine :=
  { m with buffers := fun q => if q = p then c else m.buffers q }

/-- The assignment `context[sym] = value`. -/
def machine.set_symbol (m : machine) (sym : Nat) (value : Option Int) : machine :=
  { m with context := m.context.set sym value }

/-- Append an event. -/
def machine.log (m : machine) (e : event) : machine := { m with trace := m.trace ++ [e] }

/-- How a run of the evaluator ends: it returns, the process aborts (`std::abort`, a failed
assertion, an access outside an array), or the budget of the embedding ran out.  Each outcome
holds the state of the evaluator at that moment. -/
inductive run_result where
  | finished (m : machine)
  | aborted (m : machine)
  | out_of_budget (m : machine)

/-- Continue after a run that returned. -/
def run_result.bind (r : run_result) (f : machine → run_result) : run_result :=
  match r with
  | .finished m => f m
  | .aborted m => .aborted m
  | .out_of_budget m => .out_of_budget m

/-- The state of the evaluator at the end of a run. -/
def run_result.last : run_result → machine
  | .finished m => m
  | .aborted m => m
  | .out_of_budget m => m

/-- The method `evaluator::eval_expr(const expr&)`: evaluate and reset `result` to 0.  The
context is observed through `lookup` only, so the scoped values of `let` expressions leave no
trace in it. -/
def evaluator.eval_expr (env : eval_env) (m : machine) (e : expr) : Option (Int × machine) :=
  match slinky.eval_expr (m.runtime env) e m.context with
  | none => none
  | some v => some (v, { m with result := 0 })

/-- The method `evaluator::eval_expr(const expr&, index_t def)`: an undefined expression
gives `def` and leaves `result` alone. -/
def evaluator.eval_expr_or (env : eval_env) (m : machine) (e : Option expr) (default : Int) :
    Option (Int × machine) :=
  match e with
  | none => some (default, m)
  | some e => evaluator.eval_expr env m e

/-- The dereference `reinterpret_cast<raw_buffer*>(*context.lookup(sym))`: the address held by
the symbol and the descriptor it points to. -/
def evaluator.lookup_buffer (m : machine) (sym : Nat) : Option (Int × buffer_cell) :=
  match m.context.lookup sym with
  | none => none
  | some p =>
    match m.buffers p with
    | none => none
    | some c => some (p, c)

/-- Write entry `d` of the dims array of the buffer at `p`. -/
def machine.set_dim (m : machine) (p : Int) (d : Nat) (dm : dim) : machine :=
  match m.buffers p with
  | none => m
  | some c => m.set_buffer p (some { c with dims := c.dims.set d dm })

/-- The loop of `evaluator::visit(const loop*)`, from index `i` on: `budget` bounds the number
of iterations of the embedding. -/
def evaluator.run_loop (body : machine → run_result) (sym : Nat) (min max step : Int) :
    Nat → Int → machine → run_result
  | budget, i, m =>
    if m.result = 0 ∧ min ≤ i ∧ i ≤ max then
      match budget with
      | 0 => .out_of_budget m
      | budget + 1 =>
        (body (m.set_symbol sym (some i))).bind
          (fun m1 => evaluator.run_loop body sym min max step budget (wrap (i + step)) m1)
    else .finished m

/-- The first loop of `evaluator::visit(const crop_buffer*)`, from dim `d` on: clamp each
bound to the dim, add up the offsets of the new mins, and write the new bounds. -/
def evaluator.crop_dims (env : eval_env) (p : Int) :
    List (Option expr × Option expr) → Nat → Int → machine → Option (Int × machine)
  | [], _, offset, m => some (offset, m)
  | (bmin, bmax) :: rest, d, offset, m =>
    match m.buffers p with
    | none => none
    | some c =>
      match c.dims.get? d with
      | none => none
      | some dm =>
        match evaluator.eval_expr_or env m bmin dm.min with
        | none => none
        | some (a, m1) =>
          match evaluator.eval_expr_or env m1 bmax dm.max with
          | none => none
          | some (b, m2) =>
            evaluator.crop_dims env p rest (d + 1)
              (wrap (offset + env.flat_offset_bytes dm (Max.max dm.min a)))
              (m2.set_dim p d (dm.set_bounds (Max.max dm.min a) (Min.min dm.max b)))

/-- The second loop of `evaluator::visit(const crop_buffer*)`: give the first `n` dims their
old min and extent back. -/
def evaluator.restore_dims (old : List dim) : Nat → List dim → List dim
  | 0, dims => dims
  | n + 1, dims =>
    let dims1 := evaluator.restore_dims old n dims
    match old.get? n, dims1.get? n with
    | some o, some dm => dims1.set n (dm.set_min_extent o.min o.extent)
    | _, _ => dims1

/-- The loop of `evaluator::visit(const slice_buffer*)`, from dim `d` on, over the old dims:
a dim with a defined `at` adds its offset, any other dim is appended to the new dims array of
the buffer and raises its rank. -/
def evaluator.slice_dims (env : eval_env) (p : Int) (at_ : List (Option expr)) :
    List dim → Nat → Int → machine → Option (Int × machine)
  | [], _, offset, m => some (offset, m)
  | dm :: rest, d, offset, m =>
    match at_.get? d with
    | some (some e) =>
      match evaluator.eval_expr env m e with
      | none => none
      | some (v, m1) =>
        evaluator.slice_dims env p at_ rest (d + 1)
          (wrap (offset + env.flat_offset_bytes dm v)) m1
    | _ =>
      match m.buffers p with
      | none => none
      | some c =>
        evaluator.slice_dims env p at_ rest (d + 1) offset
          (m.set_buffer p (some { c with rank := c.rank + 1, dims := c.dims ++ [dm] }))

/-- The loops over `n->dims` of `allocate` and `make_buffer`: evaluate bounds, stride and fold
factor of each dim. -/
def evaluator.eval_dims (env : eval_env) : List dim_expr → machine → Option (List dim × machine)
  | [], m => some ([], m)
  | de :: rest, m =>
    match evaluator.eval_expr env m de.min with
    | none => none
    | some (lo, m1) =>
      match evaluator.eval_expr env m1 de.max with
      | none => none
      | some (hi, m2) =>
        match evaluator.eval_expr env m2 de.stride with
        | none => none
        | some (st, m3) =>
          match evaluator.eval_expr env m3 de.fold_factor with
          | none => none
          | some (ff, m4) =>
            match evaluator.eval_dims env rest m4 with
            | none => none
            | some (ds, m5) =>
              some ({ min := lo, max := hi, stride := st, fold_factor := ff } :: ds, m5)

/-- What an `Option` result of the steps before the body means for the run: `none` is an
abort, in the state `m`. -/
def run_result.of_option {α : Type} (m : machine) (o : Option α) (f : α → run_result) :
    run_result :=
  match o with
  | none => .aborted m
  | some a => f a

/-- One visit of the evaluator: the `visit` overloads of `evaluator` for statements.
`visit_rec` is the recursive entry point and `budget` bounds the iterations of a loop.
Every read outside an array and every `std::abort` is `aborted`. -/
def evaluator.visit (env : eval_env) (budget : Nat) (visit_rec : stmt → machine → run_result)
    (s : stmt) (m : machine) : run_result :=
  match s with
  | .let_stmt sym value body =>
    run_result.of_option m (evaluator.eval_expr env m value) fun (v, m1) =>
      (visit_rec body (m1.set_symbol sym (some v))).bind fun m2 =>
        .finished (m2.set_symbol sym (m1.context.lookup sym))
  | .block a b =>
    (if m.result = 0 then visit_rec a m else .finished m).bind fun m1 =>
      if m1.result = 0 then visit_rec b m1 else .finished m1
  | .loop sym min max step body =>
    run_result.of_option m (evaluator.eval_expr env m min) fun (lo, m1) =>
      run_result.of_option m1 (evaluator.eval_expr env m1 max) fun (hi, m2) =>
        run_result.of_option m2 (evaluator.eval_expr_or env m2 step 1) fun (st, m3) =>
          (evaluator.run_loop (visit_rec body) sym lo hi st budget lo m3).bind fun m4 =>
            .finished (m4.set_symbol sym (m3.context.lookup sym))
  | .if_then_else condition true_body false_body =>
    run_result.of_option m (evaluator.eval_expr env m condition) fun (c, m1) =>
      if c ≠ 0 then
        match true_body with
        | some b => visit_rec b m1
        | none => .finished m1
      else
        match false_body with
        | some b => visit_rec b m1
        | none => .finished m1
  | .call_func target =>
    let r := env.target target m.context m.buffers
    let m1 : machine :=
      { context := r.2.1, buffers := r.2.2, result := r.1,
        trace := m.trace ++ [event.kernel_called target r.1] }
    if r.1 ≠ 0 then
      if env.call_failed then .finished (m1.log (event.call_failed target)) else .aborted m1
    else .finished m1
  | .allocate storage sym elem_size dims body =>
    run_result.of_option m (evaluator.eval_dims env dims m) fun (ds, m1) =>
      let p := env.descriptor_address m1.context m1.buffers
      let c0 : buffer_cell := { base := 0, elem_size := elem_size, rank := ds.length, dims := ds }
      let c : buffer_cell := { c0 with base := env.data_address storage sym c0.view }
      let m2 := if storage = memory_type.heap ∧ env.allocate_hook = true
        then m1.log (event.allocate_hook sym) else m1
      let m3 := (m2.set_buffer p (some c)).set_symbol sym (some p)
      (visit_rec body m3).bind fun m4 =>
        let m5 := if storage = memory_type.heap ∧ env.allocate_hook = true
          then m4.log (event.free_hook sym) else m4
        .finished ((m5.set_buffer p none).set_symbol sym (m2.context.lookup sym))
  | .make_buffer sym base elem_size dims body =>
    run_result.of_option m (evaluator.eval_expr env m elem_size) fun (es, m1) =>
      run_result.of_option m1 (evaluator.eval_expr env m1 base) fun (b, m2) =>
        run_result.of_option m2 (evaluator.eval_dims env dims m2) fun (ds, m3) =>
          let p := env.descriptor_address m3.context m3.buffers
          let c : buffer_cell := { base := b, elem_size := es, rank := ds.length, dims := ds }
          (visit_rec body ((m3.set_buffer p (some c)).set_symbol sym (some p))).bind fun m4 =>
            .finished ((m4.set_buffer p none).set_symbol sym (m3.context.lookup sym))
  | .crop_buffer sym bounds body =>
    run_result.of_option m (evaluator.lookup_buffer m sym) fun (p, old) =>
      run_result.of_option m (evaluator.crop_dims env p bounds 0 0 m) fun (offset, m1) =>
        run_result.of_option m1 (m1.buffers p) fun c1 =>
          (visit_rec body (m1.set_buffer p (some { c1 with base := wrap (c1.base + offset) }))).bind
            fun m2 =>
              run_result.of_option m2 (m2.buffers p) fun c2 =>
                .finished (m2.set_buffer p (some { c2 with
                  base := c1.base,
                  dims := evaluator.restore_dims old.dims bounds.length c2.dims }))
  | .crop_dim sym d min max same_node body =>
    run_result.of_option m (evaluator.lookup_buffer m sym) fun (p, old) =>
      run_result.of_option m (old.dims.get? d) fun dm =>
        run_result.of_option m (evaluator.eval_expr env m min) fun (a, m1) =>
          let lo := Max.max dm.min a
          let m2 := m1.set_buffer p
            (some { old with base := wrap (old.base + env.flat_offset_bytes dm lo) })
          run_result.of_option m2
            (if same_node then some (dm.set_point lo, m2)
             else
              match evaluator.eval_expr env m2 max with
              | none => none
              | some (b, m3) => some (dm.set_bounds lo (Min.min dm.max b), m3))
            fun (dm1, m3) =>
              (visit_rec body (m3.set_dim p d dm1)).bind fun m4 =>
                run_result.of_option m4 (m4.buffers p) fun c4 =>
                  run_result.of_option m4 (c4.dims.get? d) fun dm4 =>
                    .finished (m4.set_buffer p (some { c4 with
                      base := old.base,
                      dims := c4.dims.set d (dm4.set_min_extent dm.min dm.extent) }))
  | .slice_buffer sym at_ body =>
    run_result.of_option m (evaluator.lookup_buffer m sym) fun (p, old) =>
      if old.dims.length < old.rank then .aborted m
      else
        run_result.of_option m
          (evaluator.slice_dims env p at_ (old.dims.take old.rank) 0 0
            (m.set_buffer p (some { old with rank := 0, dims := [] })))
          fun (offset, m1) =>
            run_result.of_option m1 (m1.buffers p) fun c1 =>
              (visit_rec body
                  (m1.set_buffer p (some { c1 with base := wrap (c1.base + offset) }))).bind
                fun m2 =>
                  run_result.of_option m2 (m2.buffers p) fun c2 =>
                    .finished (m2.set_buffer p (some { c2 with
                      base := c1.base, rank := old.rank, dims := old.dims }))
  | .slice_dim sym d at_ body =>
    run_result.of_option m (evaluator.lookup_buffer m sym) fun (p, old) =>
      run_result.of_option m
          (evaluator.eval_expr env (m.set_buffer p (some { old with dims := [] })) at_)
        fun (v, m1) =>
          if old.dims.length < old.rank ∨ old.rank ≤ d then .aborted m1
          else
            run_result.of_option m1 (old.dims.get? d) fun dm =>
              (visit_rec body (m1.set_buffer p (some
                  { old with
                    base := wrap (old.base + env.flat_offset_bytes dm v),
                    rank := old.rank - 1,
                    dims := (old.dims.take old.rank).eraseIdx d }))).bind
                fun m2 =>
                  run_result.of_option m2 (m2.buffers p) fun c2 =>
                    .finished (m2.set_buffer p (some { c2 with
                      base := old.base, rank := c2.rank + 1, dims := old.dims }))
  | .truncate_rank sym rank body =>
    run_result.of_option m (evaluator.lookup_buffer m sym) fun (p, old) =>
      (visit_rec body (m.set_buffer p (some { old with rank := rank }))).bind fun m2 =>
        run_result.of_option m2 (m2.buffers p) fun c2 =>
          .finished (m2.set_buffer p (some { c2 with rank := old.rank }))
  | .check condition =>
    run_result.of_option m (evaluator.eval_expr_or env m condition 0) fun (c, m1) =>
      let m2 : machine := { m1 with result := if c ≠ 0 then 0 else 1 }
      if m2.result ≠ 0 then
        if env.check_failed then .finished (m2.log (event.check_failed condition))
        else .aborted m2
      else .finished m2

/-- The evaluator with a recursion budget: the budget bounds the nesting of statements and
the iterations of each loop. -/
def evaluator.run (env : eval_env) : Nat → stmt → machine → run_result
  | 0, _, m => .out_of_budget m
  | budget + 1, s, m => evaluator.visit env budget (evaluator.run env budget) s m

/-- The function `evaluate(const stmt&, eval_context&)`: a new `evaluator` (its `result` is 0)
visits the statement; the status is the final `result`. -/
def evaluate_stmt (env : eval_env) (budget : Nat) (s : stmt) (context : eval_context)
    (buffers : Int → Option buffer_cell) : run_result :=
  evaluator.run env budget s { context := context, buffers := buffers, result := 0, trace := [] }

/-! ## Inputs of the worked examples of the statement evaluator -/

/-- An environment for worked examples: the flat offset of index `i` in a dim is
`(i - min) * stride`; kernel number `k` returns the status `k` and touches nothing, so that
only kernel 0 succeeds; both failure hooks are installed; descriptors are placed at address
128 and data at address 8192. -/
def example_env : eval_env :=
  { size_bytes := fun _ => 0,
    flat_offset_bytes := fun d i => (i - d.min) * d.stride,
    target := fun k ctx bufs => (Int.ofNat k, ctx, bufs),
    check_failed := true,
    call_failed := true,
    allocate_hook := false,
    descriptor_address := fun _ _ => 128,
    data_address := fun _ _ _ => 8192 }

/-- A machine with nothing in it: no symbol is set, there is no buffer, the status is 0. -/
def example_machine : machine :=
  { context := [], buffers := fun _ => none, result := 0, trace := [] }

/-- A buffer of rank 2 for worked examples: 10 by 5 elements of 4 bytes from address 4096 on,
both dims starting at 0. -/
def example_cell : buffer_cell :=
  { base := 4096, elem_size := 4, rank := 2,
    dims := [{ min := 0, max := 9, stride := 4, fold_factor := 0 },
             { min := 0, max := 4, stride := 40, fold_factor := 0 }] }

/-- A machine whose symbol 0 points to the descriptor of `example_cell` at address 64. -/
def example_buffer_machine : machine :=
  { context := [some 64],
    buffers := fun p => if p = 64 then some example_cell else none,
    result := 0, trace := [] }

/-- The status a run returned, if it returned. -/
def run_result.status : run_result → Option Int
  | .finished m => some m.result
  | _ => none

/-- The descriptor at address `p` after a run that returned. -/
def run_result.buffer (p : Int) : run_result → Option buffer_cell
  | .finished m => m.buffers p
  | _ => none

/-- The list `i, i + step, …` of `k` indices. -/
def loop_indices_from (i step : Int) : Nat → List Int
  | 0 => []
  | k + 1 => i :: loop_indices_from (i + step) step k

/-- The number of indices `min + k * step` with `k ≥ 0` that are at most `max`, for a step of
at least 1. -/
def loop_count (min max step : Int) : Nat :=
  if max < min then 0 else ((max - min) / step).toNat + 1

/-- The indices `min, min + step, … ≤ max` that the specification gives a loop, ascending. -/
def loop_indices (min max step : Int) : List Int :=
  loop_indices_from min step (loop_count min max step)

/-- The body run once for each index of a list, in the order of the list, with `sym` bound to
the index. -/
def evaluator.run_body_at (body : machine → run_result) (sym : Nat) :
    List Int → machine → run_result
  | [], m => .finished m
  | i :: rest, m =>
    (body (m.set_symbol sym (some i))).bind (evaluator.run_body_at body sym rest)

/-! ## Traces with and without a failure -/

/-- No event of the list is a failure. -/
def trace_clean (evs : List event) : Prop := ∀ e ∈ evs, e.is_failure = false

/-- No event of the list is a kernel call or a failure. -/
def trace_quiet (evs : List event) : Prop := ∀ e ∈ evs, e.is_call = false ∧ e.is_failure = false

/-- The list holds one failure; no kernel is called and nothing fails after it. -/
def trace_failed (evs : List event) : Prop :=
  ∃ pre f post, evs = pre ++ f :: post ∧ trace_clean pre ∧ f.is_failure = true ∧
    trace_quiet post

/-- The outcome `r` of a run from `m` propagates failures: the run extends the trace of `m`;
a run that returned has status 0 and no failure, or a non-zero status and one failure after
which no kernel was called; a run that ran out of budget has not failed; a run that aborted
has no failure, or one failure and no kernel call after it. -/
def evaluator.stops_at_failure (m : machine) (r : run_result) : Prop :=
  ∃ evs, r.last.trace = m.trace ++ evs ∧
    match r with
    | .finished m' => (m'.result = 0 ∧ trace_clean evs) ∨ (m'.result ≠ 0 ∧ trace_failed evs)
    | .aborted _ => trace_clean evs ∨ trace_failed evs
    | .out_of_budget _ => trace_clean evs

/-- The outcome `r` of the steps after a body, from `m`: they return or abort, call no
kernel, report no failure, and keep the status. -/
def evaluator.unwinds (m : machine) (r : run_result) : Prop :=
  ∃ m3 evs, (r = .finished m3 ∨ r = .aborted m3) ∧ m3.trace = m.trace ++ evs ∧
    trace_quiet evs ∧ m3.result = m.result

/-! ## Scoped buffer edits: what the specification says about them -/

/-- The statements that edit a buffer descriptor for the time of their body: the symbol of
the buffer and the body. -/
def stmt.scoped_edit : stmt → Option (Nat × stmt)
  | .crop_buffer sym _ body => some (sym, body)
  | .crop_dim sym _ _ _ _ body => some (sym, body)
  | .slice_buffer sym _ body => some (sym, body)
  | .slice_dim sym _ _ body => some (sym, body)
  | .truncate_rank sym _ body => some (sym, body)
  | _ => none

/-- The dims that `slice_buffer` keeps, in their order: those of `dims`, numbered from `d`
on, whose `at` entry is missing or undefined. -/
def slice_kept (at_ : List (Option expr)) : List dim → Nat → List dim
  | [], _ => []
  | dm :: rest, d =>
    match at_.get? d with
    | some (some _) => slice_kept at_ rest (d + 1)
    | _ => dm :: slice_kept at_ rest (d + 1)

/-- The sum, in `index_t` and on top of `offset`, of the flat byte offsets of the sliced
indices: for each dim of `dims`, numbered from `d` on, with a defined `at` entry, the offset
of the index `vals d` in that dim. -/
def slice_offset (env : eval_env) (at_ : List (Option expr)) (vals : Nat → Int) :
    List dim → Nat → Int → Int
  | [], _, offset => offset
  | dm :: rest, d, offset =>
    match at_.get? d with
    | some (some _) =>
      slice_offset env at_ vals rest (d + 1) (wrap (offset + env.flat_offset_bytes dm (vals d)))
    | _ => slice_offset env at_ vals rest (d + 1) offset

/-- The number of defined `at` entries among the `k` positions from `d` on. -/
def slice_count (at_ : List (Option expr)) : Nat → Nat → Nat
  | 0, _ => 0
  | k + 1, d =>
    match at_.get? d with
    | some (some _) => slice_count at_ k (d + 1) + 1
    | _ => slice_count at_ k (d + 1)

/-- The number of defined entries of `at`, whatever their position. -/
def slice_defined (at_ : List (Option expr)) : Nat := (at_.filter Option.isSome).length

/-- A body for worked examples: it succeeds exactly when dim 0 of the buffer of symbol 0
covers `[lo, hi]`. -/
def example_check_bounds (lo hi : Int) : stmt :=
  .check (some (.logical_and
    (.equal (.call .buffer_min [.var 0, .constant 0]) (.constant lo))
    (.equal (.call .buffer_max [.var 0, .constant 0]) (.constant hi))))

/-- A body for worked examples: it succeeds exactly when the buffer of symbol 0 has rank
`r`. -/
def example_check_rank (r : Int) : stmt :=
  .check (some (.equal (.call .buffer_rank [.var 0]) (.constant r)))

/-- A body for worked examples: it succeeds exactly when the buffer of symbol 0 has the base
`b`. -/
def example_check_base (b : Int) : stmt :=
  .check (some (.equal (.call .buffer_base [.var 0]) (.constant b)))

/-! ## scoped_value (evaluate.h) -/

/-- The class `scoped_value<T>`.  The pointer `context` is kept as the flag `attached`
(the pointer is non-null); the map it points to is passed to the operations. -/
structure scoped_value (T : Type) where
  attached : Bool
  name : Nat
  old_value : Option T

/-- The constructor `scoped_value(context, name, value)`: `old_value = context.set(name,
value)`; `set` returns the previous state of `name`, which is what `lookup` gave.  The
result is the new object and the map afterwards. -/
def scoped_value.make {T : Type} (context : symbol_map T) (name : Nat) (value : T) :
    scoped_value T × symbol_map T :=
  ({ attached := true, name := name, old_value := context.lookup name },
    context.set name (some value))

/-- The move constructor: the new object takes the fields over and `other.context` becomes
null.  The result is the new object and what is left of `other`. -/
def scoped_value.move {T : Type} (other : scoped_value T) : scoped_value T × scoped_value T :=
  ({ attached := other.attached, name := other.name, old_value := other.old_value },
    { other with attached := false, old_value := none })

/-- The destructor `~scoped_value()`: `if (context) context->set(name, old_value)`. -/
def scoped_value.destroy {T : Type} (s : scoped_value T) (context : symbol_map T) :
    symbol_map T :=
  if s.attached then context.set s.name s.old_value else context

/-- A sequence of `set` calls on a map, in order. -/
def symbol_map.set_all {T : Type} (m : symbol_map T) : List (Nat × Option T) → symbol_map T
  | [] => m
  | op :: ops => symbol_map.set_all (m.set op.1 op.2) ops

/-! ## Pipeline description (spec section 3; pipeline.h is not part of the sources at hand)

pipeline.cc and infer_bounds.cc were written against an earlier revision of the IR than
evaluate.cc: a loop holds `begin` and `end` (half-open), a dim holds `min` and `extent`, and
a crop of one dim holds `min` and `extent`.  Their statements get types of their own. -/

/-- Modelled from the spec: an interval `[min, max]` of two expressions (glossary, "bounds
box").  The sources build it with `interval(min, max)` and read `.min` and `.max`. -/
structure interval where
  min : expr
  max : expr

/-- Modelled from the spec: a `box` is a vector of intervals, one per dimension. -/
abbrev box := List interval

/-- Modelled from the spec: the union `a | b` of two intervals, the smallest interval that
holds both: `[min(a.min, b.min), max(a.max, b.max)]`. -/
def interval.union (a b : interval) : interval :=
  { min := .min a.min b.min, max := .max a.max b.max }

/-- Modelled from the spec: `interval::union_identity()`, the interval `[+infinity,
-infinity]`, which holds no index. -/
def interval.union_identity : interval :=
  { min := .call .positive_infinity [], max := .call .negative_infinity [] }

/-- Modelled from the spec: `interval::extent()`, the number of indices `max - min + 1`. -/
def interval.extent (i : interval) : expr := .add (.sub i.max i.min) (.constant 1)

/-- Modelled from the spec: a `dim_expr` of the revision that pipeline.cc and
infer_bounds.cc use: `min`, `extent`, `stride_bytes`, `fold_factor`. -/
structure pipeline.dim_expr where
  min : expr
  extent : expr
  stride_bytes : expr
  fold_factor : expr

/-- Modelled from the spec: `dim_expr::max()`, the last index `min + extent - 1` (the form
that infer_bounds.cc line 65 writes out). -/
def pipeline.dim_expr.max (d : pipeline.dim_expr) : expr :=
  .sub (.add d.min d.extent) (.constant 1)

/-- Modelled from the spec: `func::input`, a buffer and the interval of it that the func
reads per dimension, in terms of the output dim variables.  A `buffer_expr_ptr` is
identified with the symbol id that `name()` returns. -/
structure func_input where
  buffer : Nat
  bounds : List interval

/-- Modelled from the spec: `func::output`, a buffer and the variable that indexes each of
its dimensions (`*as_variable(output.dims[d])`). -/
structure func_output where
  buffer : Nat
  dims : List Nat

/-- Modelled from the spec: a `func`: inputs, outputs, the variables of its explicit loops
and the optional `compute_at` (the `loop_id` of a func and one of its loop variables; the
func is named by its position in the list of funcs, which stands for the pointer). -/
structure func where
  inputs : List func_input
  outputs : List func_output
  loops : List Nat
  compute_at : Option (Nat × Nat)

/-- Modelled from the spec: the fields of a `buffer_expr` that the builder reads. -/
structure buffer_expr where
  storage : memory_type
  elem_size : Int
  dims : List pipeline.dim_expr

/-- The objects that the builder walks: the funcs in the order of their construction and the
buffer declared for each symbol. -/
structure pipeline_graph where
  funcs : List func
  buffers : Nat → buffer_expr

/-- The func behind a `func*`; a pointer to no func of the list reads as a func without
inputs, outputs and loops. -/
def pipeline_graph.func_at (g : pipeline_graph) (f : Nat) : func :=
  g.funcs.getD f { inputs := [], outputs := [], loops := [], compute_at := none }

/-- The registrations of `func::func` for the funcs from position `idx` on: `add_producer`
sets `producer_` of every output (the assertion asks that there is one producer per buffer;
without it the func constructed last stays). -/
def pipeline_graph.producer_from : List func → Nat → Nat → Option Nat
  | [], _, _ => none
  | f :: fs, idx, b =>
    match pipeline_graph.producer_from fs (idx + 1) b with
    | some p => some p
    | none => if f.outputs.any (fun o => o.buffer == b) then some idx else none

/-- The method `buffer_expr::producer()`. -/
def pipeline_graph.producer (g : pipeline_graph) (b : Nat) : Option Nat :=
  pipeline_graph.producer_from g.funcs 0 b

/-- The registrations of `func::func` for the funcs from position `idx` on: `add_consumer`
appends the func to `consumers_` of every input. -/
def pipeline_graph.consumers_from : List func → Nat → Nat → List Nat
  | [], _, _ => []
  | f :: fs, idx, b =>
    if f.inputs.any (fun i => i.buffer == b) then idx :: pipeline_graph.consumers_from fs (idx + 1) b
    else pipeline_graph.consumers_from fs (idx + 1) b

/-- The method `buffer_expr::consumers()`. -/
def pipeline_graph.consumers (g : pipeline_graph) (b : Nat) : List Nat :=
  pipeline_graph.consumers_from g.funcs 0 b

/-! ## The pipeline builder (pipeline.cc) -/

/-- What stops a run of the model short of a result: the budget of the model ran out
(`out_of_budget`, which is no behaviour of the program), the program made an access that C++
leaves undefined, such as an index past the end of a vector or the value of an empty optional
(`out_of_range`), or an `assert` of the source failed (`assertion`). -/
inductive fault where
  | out_of_budget
  | out_of_range
  | assertion
  deriving DecidableEq, Repr

/-- The statements that `pipeline_builder::produce` builds.  `undefined` is the handle
`stmt()` that holds no node.  A `call` holds its buffer arguments and the func it calls; the
bounds of a `loop` are undefined when no output dim is indexed by the loop variable. -/
inductive pipeline_builder.stmt where
  | undefined
  | call (buffer_args : List Nat) (fn : Nat)
  | crop (name : Nat) (dim : Nat) (min extent : expr) (body : pipeline_builder.stmt)
  | loop (name : Nat) (begin end_ : Option expr) (body : pipeline_builder.stmt)
  | block (a b : pipeline_builder.stmt)
  | allocate (storage : memory_type) (name : Nat) (elem_size : Int)
      (dims : List pipeline.dim_expr) (body : pipeline_builder.stmt)

/-- The test `stmt::defined()`. -/
def pipeline_builder.stmt.defined : pipeline_builder.stmt → Bool
  | .undefined => false
  | _ => true

/-- The funcs called by a statement, in the order in which a left-to-right execution of the
blocks reaches the calls. -/
def pipeline_builder.stmt.calls : pipeline_builder.stmt → List Nat
  | .undefined => []
  | .call _ fn => [fn]
  | .crop _ _ _ _ body => pipeline_builder.stmt.calls body
  | .loop _ _ _ body => pipeline_builder.stmt.calls body
  | .block a b => pipeline_builder.stmt.calls a ++ pipeline_builder.stmt.calls b
  | .allocate _ _ _ _ body => pipeline_builder.stmt.calls body

/-- The method `std::set::insert` on a set kept as the list of its elements in ascending
order. -/
def set_insert (x : Nat) (s : List Nat) : List Nat :=
  if s.contains x then s else (s.filter (fun y => y < x)) ++ x :: (s.filter (fun y => x < y))

/-- Insertion of a range of elements, one by one. -/
def set_insert_all (xs : List Nat) (s : List Nat) : List Nat :=
  xs.foldl (fun acc x => set_insert x acc) s

/-- The class `pipeline_builder`: the sets `to_produce`, `produced` and `allocated`.  (The
member `result` is never used: `build_pipeline` passes its own.) -/
structure pipeline_builder where
  to_produce : List Nat
  produced : List Nat
  allocated : List Nat
  deriving DecidableEq, Repr

/-- One round of the closure loop of the constructor: the set `produce_next` of the inputs of
the producers of `to_produce` that are not in `to_produce` yet. -/
def pipeline_builder.produce_next (g : pipeline_graph) (to_produce : List Nat) : List Nat :=
  to_produce.foldl (fun next i =>
    match g.producer i with
    | none => next
    | some p => (g.func_at p).inputs.foldl (fun next j =>
        if to_produce.contains j.buffer then next else set_insert j.buffer next) next) []

/-- The closure loop `while (true)` of the constructor, with a budget of rounds. -/
def pipeline_builder.close (g : pipeline_graph) : Nat → List Nat → Except fault (List Nat)
  | 0, _ => .error .out_of_budget
  | budget + 1, to_produce =>
    match pipeline_builder.produce_next g to_produce with
    | [] => .ok to_produce
    | next => pipeline_builder.close g budget (set_insert_all next to_produce)

/-- The constructor `pipeline_builder(inputs, outputs)`. -/
def pipeline_builder.make (g : pipeline_graph) (budget : Nat) (inputs outputs : List Nat) :
    Except fault pipeline_builder :=
  match pipeline_builder.close g budget (set_insert_all outputs []) with
  | .error e => .error e
  | .ok to_produce =>
    .ok { to_produce := to_produce, produced := set_insert_all inputs [],
          allocated := set_insert_all outputs [] }

/-- The inner loop of `find_next_producer` over the outputs `k` of one consumer of `i`:
true when it reaches `f = nullptr; break`. -/
def pipeline_builder.blocks (produced : List Nat) (i : Nat) : List func_output → Bool
  | [] => false
  | k :: ks =>
    if k.buffer = i then pipeline_builder.blocks produced i ks
    else if !produced.contains k.buffer then true
    else pipeline_builder.blocks produced i ks

/-- The loop of `find_next_producer` over the consumers `j` of `i`; `f` is the local of that
name, which stays null once it was set to null. -/
def pipeline_builder.scan_consumers (g : pipeline_graph) (produced : List Nat) (i : Nat) :
    List Nat → Option Nat → Option Nat
  | [], f => f
  | j :: js, f =>
    pipeline_builder.scan_consumers g produced i js
      (if pipeline_builder.blocks produced i (g.func_at j).outputs then none else f)

/-- The loop of `find_next_producer` over `to_produce`. -/
def pipeline_builder.find_from (g : pipeline_graph) (produced : List Nat) :
    List Nat → Option Nat
  | [] => none
  | i :: rest =>
    if produced.contains i then pipeline_builder.find_from g produced rest
    else
      match pipeline_builder.scan_consumers g produced i (g.consumers i) (g.producer i) with
      | some f => some f
      | none => pipeline_builder.find_from g produced rest

/-- The method `pipeline_builder::find_next_producer`. -/
def pipeline_builder.find_next_producer (g : pipeline_graph) (b : pipeline_builder) :
    Option Nat :=
  pipeline_builder.find_from g b.produced b.to_produce

/-- The method `pipeline_builder::complete`: the two sets have the same size. -/
def pipeline_builder.complete (b : pipeline_builder) : Bool :=
  b.produced.length == b.to_produce.length

/-- The first loop of `produce` over the outputs: the buffers to allocate (`allocations`)
and the set `allocated` afterwards. -/
def pipeline_builder.allocations : List func_output → List Nat → List Nat × List Nat
  | [], allocated => ([], allocated)
  | o :: os, allocated =>
    if allocated.contains o.buffer then pipeline_builder.allocations os allocated
    else
      let r := pipeline_builder.allocations os (set_insert o.buffer allocated)
      (o.buffer :: r.1, r.2)

/-- The loop over the dims `d` of one output, from dim `d` on: the pairs to crop and the
union of the bounds of the dims that the loop variable indexes.  `match(o.dims[d], loop)`
compares two variables.  Reading a dim that the buffer does not have is out of range. -/
def pipeline_builder.loop_dims (g : pipeline_graph) (loop : Nat) (buffer : Nat) :
    List Nat → Nat → Option interval → List (Nat × Nat) →
      Except fault (Option interval × List (Nat × Nat))
  | [], _, bounds, to_crop => .ok (bounds, to_crop)
  | v :: vs, d, bounds, to_crop =>
    if v = loop then
      match (g.buffers buffer).dims.get? d with
      | none => .error .out_of_range
      | some dm =>
        let bounds_d : interval := { min := dm.min, max := dm.max }
        pipeline_builder.loop_dims g loop buffer vs (d + 1)
          (match bounds with
           | some bs => some (bs.union bounds_d)
           | none => some bounds_d)
          (to_crop ++ [(d, buffer)])
    else pipeline_builder.loop_dims g loop buffer vs (d + 1) bounds to_crop

/-- The loop over the outputs of the func that computes `bounds` and `to_crop` for one
explicit loop. -/
def pipeline_builder.loop_outputs (g : pipeline_graph) (loop : Nat) :
    List func_output → Option interval → List (Nat × Nat) →
      Except fault (Option interval × List (Nat × Nat))
  | [], bounds, to_crop => .ok (bounds, to_crop)
  | o :: os, bounds, to_crop =>
    match pipeline_builder.loop_dims g loop o.buffer o.dims 0 bounds to_crop with
    | .error e => .error e
    | .ok r => pipeline_builder.loop_outputs g loop os r.1 r.2

/-- The loop of `produce` over `to_produce` that inserts, before a loop is closed, the
producers that are computed at it; `rec` is `produce` itself. -/
def pipeline_builder.insert_producers (g : pipeline_graph)
    (rec : pipeline_builder → pipeline_builder.stmt → Nat →
      Except fault (pipeline_builder × pipeline_builder.stmt))
    (f loop : Nat) :
    List Nat → pipeline_builder → pipeline_builder.stmt →
      Except fault (pipeline_builder × pipeline_builder.stmt)
  | [], b, call_f => .ok (b, call_f)
  | i :: rest, b, call_f =>
    match g.producer i with
    | none => pipeline_builder.insert_producers g rec f loop rest b call_f
    | some p =>
      if (g.func_at p).compute_at = some (f, loop) then
        match rec b call_f p with
        | .error e => .error e
        | .ok r => pipeline_builder.insert_producers g rec f loop rest r.1 r.2
      else pipeline_builder.insert_producers g rec f loop rest b call_f

/-- The loop of `produce` over the explicit loops of the func. -/
def pipeline_builder.explicit_loops (g : pipeline_graph)
    (rec : pipeline_builder → pipeline_builder.stmt → Nat →
      Except fault (pipeline_builder × pipeline_builder.stmt))
    (f : Nat) :
    List Nat → pipeline_builder → pipeline_builder.stmt →
      Except fault (pipeline_builder × pipeline_builder.stmt)
  | [], b, call_f => .ok (b, call_f)
  | loop :: loops, b, call_f =>
    match pipeline_builder.loop_outputs g loop (g.func_at f).outputs none [] with
    | .error e => .error e
    | .ok (bounds, to_crop) =>
      let cropped := to_crop.foldl
        (fun s i => pipeline_builder.stmt.crop i.2 i.1 (.var loop) (.constant 1) s) call_f
      match pipeline_builder.insert_producers g rec f loop b.to_produce b cropped with
      | .error e => .error e
      | .ok r =>
        pipeline_builder.explicit_loops g rec f loops r.1
          (.loop loop (bounds.map (fun bs => bs.min))
            (bounds.map (fun bs => expr.add bs.max (.constant 1))) r.2)

/-- The method `pipeline_builder::produce(result, f)`; the budget bounds the depth of its
recursion.  The result is the builder and `result` afterwards. -/
def pipeline_builder.produce (g : pipeline_graph) :
    Nat → pipeline_builder → pipeline_builder.stmt → Nat →
      Except fault (pipeline_builder × pipeline_builder.stmt)
  | 0, _, _, _ => .error .out_of_budget
  | budget + 1, b, result, f =>
    let fn := g.func_at f
    let buffer_args := fn.inputs.map (fun i => i.buffer) ++ fn.outputs.map (fun o => o.buffer)
    let a := pipeline_builder.allocations fn.outputs b.allocated
    let call_f := pipeline_builder.stmt.call buffer_args f
    match pipeline_builder.explicit_loops g (pipeline_builder.produce g budget) f fn.loops
        { b with allocated := a.2 } call_f with
    | .error e => .error e
    | .ok (b1, call_f) =>
      let joined := if result.defined then pipeline_builder.stmt.block call_f result else call_f
      let allocated := a.1.foldl
        (fun s i => pipeline_builder.stmt.allocate (g.buffers i).storage i
          (g.buffers i).elem_size (g.buffers i).dims s) joined
      .ok ({ b1 with produced := set_insert_all (fn.outputs.map (fun o => o.buffer)) b1.produced },
        allocated)

/-- How the scheduling loop of `build_pipeline` ends. -/
inductive build_result where
  | built (b : pipeline_builder) (result : pipeline_builder.stmt)
  | dependency_error (b : pipeline_builder) (result : pipeline_builder.stmt)
  | stopped (e : fault)

/-- The scheduling loop `while (!builder.complete())` of `build_pipeline`.  The budget bounds
the number of iterations and the depth of each `produce`. -/
def build_pipeline.schedule (g : pipeline_graph) (depth : Nat) :
    Nat → pipeline_builder → pipeline_builder.stmt → build_result
  | 0, _, _ => .stopped .out_of_budget
  | budget + 1, b, result =>
    if b.complete then .built b result
    else
      match b.find_next_producer g with
      | none => .dependency_error b result
      | some f =>
        match pipeline_builder.produce g depth b result f with
        | .error e => .stopped e
        | .ok r => build_pipeline.schedule g depth budget r.1 r.2

/-- The function `build_pipeline` up to the end of its scheduling loop (the passes that
follow, `infer_allocate_bounds` and `simplify`, work on the finished body). -/
def build_pipeline (g : pipeline_graph) (budget : Nat) (inputs outputs : List Nat) :
    build_result :=
  match pipeline_builder.make g budget inputs outputs with
  | .error e => .stopped e
  | .ok b => build_pipeline.schedule g budget budget b .undefined

/-- The funcs called by the body that the scheduling loop left, in execution order. -/
def build_result.calls : build_result → Option (List Nat)
  | .built _ result => some result.calls
  | _ => none

/-- The scheduling loop ended because `complete()` was true. -/
def build_result.is_built : build_result → Bool
  | .built _ _ => true
  | _ => false

/-- The scheduling loop ended with "Problem in dependency graph". -/
def build_result.is_dependency_error : build_result → Bool
  | .dependency_error _ _ => true
  | _ => false

/-- Every buffer that some func of the graph lists as an output. -/
def pipeline_graph.all_outputs (g : pipeline_graph) : List Nat :=
  g.funcs.flatMap (fun f => f.outputs.map (fun o => o.buffer))

/-- What `rec`, a run of `produce`, guarantees for every func of a rank below `k`: it
returns, no buffer leaves `produced`, and the outputs of the func are in `produced`
afterwards. -/
def pipeline_builder.produces (g : pipeline_graph) (rank : Nat → Nat) (k : Nat)
    (rec : pipeline_builder → pipeline_builder.stmt → Nat →
      Except fault (pipeline_builder × pipeline_builder.stmt)) : Prop :=
  ∀ (b : pipeline_builder) (result : pipeline_builder.stmt) (p : Nat), rank p < k →
    ∃ b1 r1, rec b result p = .ok (b1, r1) ∧ (∀ x, x ∈ b.produced → x ∈ b1.produced) ∧
      ∀ o, o ∈ (g.func_at p).outputs → o.buffer ∈ b1.produced

/-- The scheduling loop ended in one of the two ways that `build_pipeline` provides: with
`complete()` true, or with the dependency error when `complete()` is false and
`find_next_producer` found no func. -/
def build_result.ends_well (g : pipeline_graph) : build_result → Prop
  | .built b _ => b.complete = true
  | .dependency_error b _ => b.complete = false ∧ b.find_next_producer g = none
  | .stopped _ => False

/-- The largest rank among the funcs of the graph. -/
def pipeline_graph.max_rank (g : pipeline_graph) (rank : Nat → Nat) : Nat :=
  ((List.range g.funcs.length).map rank).foldr Nat.max 0

/-- A buffer with one dim `[0, 5)`. -/
def example_buffer : buffer_expr :=
  { storage := .heap, elem_size := 4,
    dims := [{ min := .constant 0, extent := .constant 5, stride_bytes := .constant 4,
               fold_factor := .constant 0 }] }

/-- One func from buffer 0 to buffer 1, with no explicit loop. -/
def example_copy_graph : pipeline_graph :=
  { funcs := [{ inputs := [{ buffer := 0, bounds := [] }], outputs := [{ buffer := 1, dims := [] }],
                loops := [], compute_at := none }],
    buffers := fun _ => example_buffer }

/-- Func 0 reads buffer 0 and writes buffers 1 and 2; func 1 makes buffer 3 from buffer 1;
func 2 makes buffer 4 from buffer 2. -/
def example_fan_graph : pipeline_graph :=
  { funcs := [{ inputs := [{ buffer := 0, bounds := [] }],
                outputs := [{ buffer := 1, dims := [] }, { buffer := 2, dims := [] }],
                loops := [], compute_at := none },
              { inputs := [{ buffer := 1, bounds := [] }], outputs := [{ buffer := 3, dims := [] }],
                loops := [], compute_at := none },
              { inputs := [{ buffer := 2, bounds := [] }], outputs := [{ buffer := 4, dims := [] }],
                loops := [], compute_at := none }],
    buffers := fun _ => example_buffer }

/-- One func from buffer 0 to buffer 1 with an explicit loop over its output variable 7,
computed at that loop of itself. -/
def example_self_graph : pipeline_graph :=
  { funcs := [{ inputs := [{ buffer := 0, bounds := [] }], outputs := [{ buffer := 1, dims := [7] }],
                loops := [7], compute_at := some (0, 7) }],
    buffers := fun _ => example_buffer }

/-- One func from buffer 0 to buffer 1 with an explicit loop over variable 8, which indexes
dim 1 of its output, while the buffer has one dim. -/
def example_rank_graph : pipeline_graph :=
  { funcs := [{ inputs := [{ buffer := 0, bounds := [] }],
                outputs := [{ buffer := 1, dims := [7, 8] }],
                loops := [8], compute_at := none }],
    buffers := fun _ => example_buffer }

/-- Two stages: func 0 makes buffer 1 from buffer 0 and is computed at the loop over
variable 7 of func 1, which makes buffer 2 from buffer 1. -/
def example_fused_graph : pipeline_graph :=
  { funcs := [{ inputs := [{ buffer := 0, bounds := [] }], outputs := [{ buffer := 1, dims := [7] }],
                loops := [], compute_at := some (1, 7) },
              { inputs := [{ buffer := 1, bounds := [] }], outputs := [{ buffer := 2, dims := [7] }],
                loops := [7], compute_at := none }],
    buffers := fun _ => example_buffer }

/-- The builder for inputs `[0]` and outputs `[1]` on a graph with one func from 0 to 1. -/
def example_builder : pipeline_builder :=
  { to_produce := [0, 1], produced := [0], allocated := [1] }

/-! ## Bounds inference (infer_bounds.cc) -/

/-- Modelled from the spec: the enumeration `buffer_meta` of a `load_buffer_meta` node, for
the fields that infer_bounds.cc names. -/
inductive buffer_meta where
  | min
  | max
  | extent
  | stride_bytes
  | fold_factor
  deriving DecidableEq, Repr

/-- The node `load_buffer_meta::make(buf, meta, d)`: in the node set of the spec, the call of
the matching buffer intrinsic on the buffer and the dimension. -/
def load_buffer_meta (buf : expr) (meta : buffer_meta) (d : Nat) : expr :=
  match meta with
  | .min => .call .buffer_min [buf, .constant (Int.ofNat d)]
  | .max => .call .buffer_max [buf, .constant (Int.ofNat d)]
  | .extent => .call .buffer_extent [buf, .constant (Int.ofNat d)]
  | .stride_bytes => .call .buffer_stride [buf, .constant (Int.ofNat d)]
  | .fold_factor => .call .buffer_fold_factor [buf, .constant (Int.ofNat d)]

mutual
/-- Some node of the expression is structurally equal to `target`. -/
def expr.has_node (target : expr) : expr → Bool
  | .var s => expr.beq (.var s) target
  | .wildcard s => expr.beq (.wildcard s) target
  | .constant v => expr.beq (.constant v) target
  | .let_ s v b => expr.beq (.let_ s v b) target || expr.has_node target v || expr.has_node target b
  | .add a b => expr.beq (.add a b) target || expr.has_node target a || expr.has_node target b
  | .sub a b => expr.beq (.sub a b) target || expr.has_node target a || expr.has_node target b
  | .mul a b => expr.beq (.mul a b) target || expr.has_node target a || expr.has_node target b
  | .div a b => expr.beq (.div a b) target || expr.has_node target a || expr.has_node target b
  | .mod a b => expr.beq (.mod a b) target || expr.has_node target a || expr.has_node target b
  | .min a b => expr.beq (.min a b) target || expr.has_node target a || expr.has_node target b
  | .max a b => expr.beq (.max a b) target || expr.has_node target a || expr.has_node target b
  | .equal a b => expr.beq (.equal a b) target || expr.has_node target a || expr.has_node target b
  | .not_equal a b =>
    expr.beq (.not_equal a b) target || expr.has_node target a || expr.has_node target b
  | .less a b => expr.beq (.less a b) target || expr.has_node target a || expr.has_node target b
  | .less_equal a b =>
    expr.beq (.less_equal a b) target || expr.has_node target a || expr.has_node target b
  | .logical_and a b =>
    expr.beq (.logical_and a b) target || expr.has_node target a || expr.has_node target b
  | .logical_or a b =>
    expr.beq (.logical_or a b) target || expr.has_node target a || expr.has_node target b
  | .logical_not a => expr.beq (.logical_not a) target || expr.has_node target a
  | .select c t f =>
    expr.beq (.select c t f) target || expr.has_node target c || expr.has_node target t ||
      expr.has_node target f
  | .call fn args => expr.beq (.call fn args) target || expr.has_node_list target args
/-- Some node of one of the expressions is structurally equal to `target`. -/
def expr.has_node_list (target : expr) : List expr → Bool
  | [] => false
  | a :: as => expr.has_node target a || expr.has_node_list target as
end

mutual
/-- Modelled from the spec: `substitute(e, target, replacement)`, the form of spec 4.2 that
"substitutes one expression for another by structural equality": every node equal to
`target` becomes `replacement`; the other nodes are rebuilt around their children. -/
def substitute_expr (target replacement : expr) : expr → expr
  | .var s => if expr.beq (.var s) target then replacement else .var s
  | .wildcard s => if expr.beq (.wildcard s) target then replacement else .wildcard s
  | .constant v => if expr.beq (.constant v) target then replacement else .constant v
  | .let_ s v b =>
    if expr.beq (.let_ s v b) target then replacement
    else .let_ s (substitute_expr target replacement v) (substitute_expr target replacement b)
  | .add a b =>
    if expr.beq (.add a b) target then replacement
    else .add (substitute_expr target replacement a) (substitute_expr target replacement b)
  | .sub a b =>
    if expr.beq (.sub a b) target then replacement
    else .sub (substitute_expr target replacement a) (substitute_expr target replacement b)
  | .mul a b =>
    if expr.beq (.mul a b) target then replacement
    else .mul (substitute_expr target replacement a) (substitute_expr target replacement b)
  | .div a b =>
    if expr.beq (.div a b) target then replacement
    else .div (substitute_expr target replacement a) (substitute_expr target replacement b)
  | .mod a b =>
    if expr.beq (.mod a b) target then replacement
    else .mod (substitute_expr target replacement a) (substitute_expr target replacement b)
  | .min a b =>
    if expr.beq (.min a b) target then replacement
    else .min (substitute_expr target replacement a) (substitute_expr target replacement b)
  | .max a b =>
    if expr.beq (.max a b) target then replacement
    else .max (substitute_expr target replacement a) (substitute_expr target replacement b)
  | .equal a b =>
    if expr.beq (.equal a b) target then replacement
    else .equal (substitute_expr target replacement a) (substitute_expr target replacement b)
  | .not_equal a b =>
    if expr.beq (.not_equal a b) target then replacement
    else .not_equal (substitute_expr target replacement a) (substitute_expr target replacement b)
  | .less a b =>
    if expr.beq (.less a b) target then replacement
    else .less (substitute_expr target replacement a) (substitute_expr target replacement b)
  | .less_equal a b =>
    if expr.beq (.less_equal a b) target then replacement
    else .less_equal (substitute_expr target replacement a) (substitute_expr target replacement b)
  | .logical_and a b =>
    if expr.beq (.logical_and a b) target then replacement
    else .logical_and (substitute_expr target replacement a) (substitute_expr target replacement b)
  | .logical_or a b =>
    if expr.beq (.logical_or a b) target then replacement
    else .logical_or (substitute_expr target replacement a) (substitute_expr target replacement b)
  | .logical_not a =>
    if expr.beq (.logical_not a) target then replacement
    else .logical_not (substitute_expr target replacement a)
  | .select c t f =>
    if expr.beq (.select c t f) target then replacement
    else .select (substitute_expr target replacement c) (substitute_expr target replacement t)
      (substitute_expr target replacement f)
  | .call fn args =>
    if expr.beq (.call fn args) target then replacement
    else .call fn (substitute_expr_list target replacement args)
/-- The substitution of one expression for another in the arguments of a call. -/
def substitute_expr_list (target replacement : expr) : List expr → List expr
  | [] => []
  | a :: as => substitute_expr target replacement a :: substitute_expr_list target replacement as
end

/-- The statements that infer_bounds.cc visits and builds.  `undefined` is the handle `stmt()`
that holds no node.  A `loop` runs from `begin` up to, not including, `end` (`end_` here); a
`crop_dim` holds `min` and `extent`; a `call_func` holds the func it was made for (`fn`, null
when absent) and its buffer arguments; the bounds of a `crop_buffer` may be undefined
expressions. -/
inductive bounds_inferrer.stmt where
  | undefined
  | let_stmt (name : Nat) (value : expr) (body : bounds_inferrer.stmt)
  | block (a b : bounds_inferrer.stmt)
  | loop (name : Nat) (begin end_ : expr) (body : bounds_inferrer.stmt)
  | if_then_else (condition : expr) (true_body false_body : bounds_inferrer.stmt)
  | call_func (fn : Option func) (buffer_args : List Nat)
  | allocate (type : memory_type) (name : Nat) (elem_size : Int)
      (dims : List pipeline.dim_expr) (body : bounds_inferrer.stmt)
  | crop_buffer (name : Nat) (bounds : List (Option expr × Option expr))
      (body : bounds_inferrer.stmt)
  | crop_dim (name : Nat) (dim : Nat) (min extent : expr) (body : bounds_inferrer.stmt)
  | check (condition : expr)

/-- Modelled from the spec: `block::make(std::vector<stmt>)`, the statements in sequence; no
statement gives the undefined handle. -/
def bounds_inferrer.stmt.block_of : List bounds_inferrer.stmt → bounds_inferrer.stmt
  | [] => .undefined
  | [s] => s
  | s :: rest => .block s (bounds_inferrer.stmt.block_of rest)

/-- The class `bounds_inferrer`: the maps `inferring` and `crops`, the stack `loop_mins` and
the map `loops_since_allocate`.  `ctx` stands for the `node_context`: the number of symbols
handed out so far, so that `ctx.insert()` returns `ctx` and moves on to `ctx + 1` (spec
section 3: insertion without a name yields a fresh unique id). -/
structure bounds_inferrer where
  ctx : Nat
  inferring : symbol_map box
  crops : symbol_map (List (Option expr × Option expr))
  loop_mins : List (Nat × expr)
  loops_since_allocate : symbol_map Nat

/-- The call `simplify(e)` within a budget. -/
def bounds_inferrer.simplify (budget : Nat) (e : expr) : Except fault expr :=
  match slinky.simplify budget e with
  | some r => .ok r
  | none => .error .out_of_budget

/-- The call `can_prove(e)` within a budget. -/
def bounds_inferrer.can_prove (budget : Nat) (e : expr) : Except fault Bool :=
  match slinky.can_prove budget e with
  | some r => .ok r
  | none => .error .out_of_budget

/-- The first loop of `visit(const allocate*)`, over the dims `d` of the inferred box from
`d` on: the lets that bind the extents and the replacements for the `load_buffer_meta`
nodes of the allocated buffer; `stride_bytes` is the running product.  The result also holds
the `node_context` afterwards. -/
def bounds_inferrer.allocate_replacements (budget : Nat) (name : Nat) :
    box → Nat → expr → Nat → Except fault (List (Nat × expr) × List (expr × expr) × Nat)
  | [], _, _, ctx => .ok ([], [], ctx)
  | i :: rest, d, stride_bytes, ctx =>
    match bounds_inferrer.simplify budget i.min with
    | .error e => .error e
    | .ok min =>
      match bounds_inferrer.simplify budget i.extent with
      | .error e => .error e
      | .ok extent_value =>
        let extent_name := ctx
        let extent := expr.var extent_name
        let alloc_var := expr.var name
        match bounds_inferrer.allocate_replacements budget name rest (d + 1)
            (.mul stride_bytes extent) (ctx + 1) with
        | .error e => .error e
        | .ok (lets, replacements, ctx1) =>
          .ok ((extent_name, extent_value) :: lets,
            (load_buffer_meta alloc_var .min d, min) ::
            (load_buffer_meta alloc_var .extent d, extent) ::
            (load_buffer_meta alloc_var .stride_bytes d, stride_bytes) ::
            (load_buffer_meta alloc_var .fold_factor d, .constant (-1)) ::
            (load_buffer_meta alloc_var .max d, .sub (.add min extent) (.constant 1)) ::
            replacements, ctx1)

/-- The inner loop `for (auto& j : replacements)` on one dim: the four fields after every
replacement was applied in turn, and whether `new_dim.same_as(dim)` fails, which is the case
when some replacement found its target (a replaced node is a different node). -/
def bounds_inferrer.replace_dim :
    List (expr × expr) → pipeline.dim_expr → pipeline.dim_expr × Bool
  | [], dim => (dim, false)
  | j :: rest, dim =>
    let found := expr.has_node j.1 dim.min || expr.has_node j.1 dim.extent ||
      expr.has_node j.1 dim.stride_bytes || expr.has_node j.1 dim.fold_factor
    let r := bounds_inferrer.replace_dim rest
      { min := substitute_expr j.1 j.2 dim.min, extent := substitute_expr j.1 j.2 dim.extent,
        stride_bytes := substitute_expr j.1 j.2 dim.stride_bytes,
        fold_factor := substitute_expr j.1 j.2 dim.fold_factor }
    (r.1, found || r.2)

/-- One pass of the loop `for (int d = 0; d < dims.size(); ++d)` inside `while (true)`: the
dims afterwards and the flag `changed`. -/
def bounds_inferrer.replace_pass (replacements : List (expr × expr)) :
    List pipeline.dim_expr → List pipeline.dim_expr × Bool
  | [] => ([], false)
  | dim :: rest =>
    let r := bounds_inferrer.replace_dim replacements dim
    let rs := bounds_inferrer.replace_pass replacements rest
    (r.1 :: rs.1, r.2 || rs.2)

/-- The loop `while (true)` of `visit(const allocate*)` that replaces until nothing happens,
with a budget of passes. -/
def bounds_inferrer.replace_all (replacements : List (expr × expr)) :
    Nat → List pipeline.dim_expr → Except fault (List pipeline.dim_expr)
  | 0, _ => .error .out_of_budget
  | budget + 1, dims =>
    let r := bounds_inferrer.replace_pass replacements dims
    if r.2 then bounds_inferrer.replace_all replacements budget r.1 else .ok r.1

/-- The loop of `visit(const allocate*)` that builds the checks, over the dims from `d` on:
`dims[d].min <= inferred[d].min` and `dims[d].max() >= inferred[d].max`.  The comparison
`a >= b` is the node `less_equal(b, a)`.  The loop runs over the dims of the allocation and
indexes the inferred box with `d`; past the end of the box the access is out of range. -/
def bounds_inferrer.allocate_checks (inferred : box) :
    List pipeline.dim_expr → Nat → Except fault (List bounds_inferrer.stmt)
  | [], _ => .ok []
  | dim :: rest, d =>
    match inferred.get? d with
    | none => .error .out_of_range
    | some i =>
      match bounds_inferrer.allocate_checks inferred rest (d + 1) with
      | .error e => .error e
      | .ok checks =>
        .ok (.check (.less_equal dim.min i.min) :: .check (.less_equal i.max dim.max) :: checks)

/-- The method `bounds_inferrer::get_buffer_meta`. -/
def bounds_inferrer.get_buffer_meta (inferring : symbol_map box) (buffer : Nat)
    (meta : buffer_meta) (d : Nat) : expr :=
  match inferring.lookup buffer with
  | some bounds =>
    match bounds.get? d with
    | some i =>
      match meta with
      | .min => i.min
      | .max => i.max
      | .extent => i.extent
      | _ => load_buffer_meta (.var buffer) meta d
    | none => load_buffer_meta (.var buffer) meta d
  | none => load_buffer_meta (.var buffer) meta d

/-- The loop of `visit(const call_func*)` over the dims of one output, from dim `d` on: the
maps `mins` and `maxs` from the output dim variables to the bounds of the crop in force, or
to the metadata of the buffer.  An assignment to a map puts the new binding first.  The crop
box is indexed with `d`; past its end the access is out of range. -/
def bounds_inferrer.output_bounds (inferring : symbol_map box) (arg : Nat)
    (cropped_bounds : Option (List (Option expr × Option expr))) :
    List Nat → Nat → bindings → bindings → Except fault (bindings × bindings)
  | [], _, mins, maxs => .ok (mins, maxs)
  | dim :: rest, d, mins, maxs =>
    match cropped_bounds with
    | some cb =>
      match cb.get? d with
      | none => .error .out_of_range
      | some (some mn, some mx) =>
        bounds_inferrer.output_bounds inferring arg cropped_bounds rest (d + 1)
          ((dim, mn) :: mins) ((dim, mx) :: maxs)
      | some _ =>
        bounds_inferrer.output_bounds inferring arg cropped_bounds rest (d + 1)
          ((dim, bounds_inferrer.get_buffer_meta inferring arg .min d) :: mins)
          ((dim, bounds_inferrer.get_buffer_meta inferring arg .max d) :: maxs)
    | none =>
      bounds_inferrer.output_bounds inferring arg cropped_bounds rest (d + 1)
        ((dim, bounds_inferrer.get_buffer_meta inferring arg .min d) :: mins)
        ((dim, bounds_inferrer.get_buffer_meta inferring arg .max d) :: maxs)

/-- The loop of `visit(const call_func*)` over the outputs of the func; `args` is what is
left of `c->buffer_args` from `arg_i` on.  Reading past the end of the arguments is out of
range. -/
def bounds_inferrer.outputs_bounds (inferring : symbol_map box)
    (crops : symbol_map (List (Option expr × Option expr))) :
    List func_output → List Nat → bindings → bindings → Except fault (bindings × bindings)
  | [], _, mins, maxs => .ok (mins, maxs)
  | output :: rest, args, mins, maxs =>
    match args with
    | [] => .error .out_of_range
    | arg :: args1 =>
      match bounds_inferrer.output_bounds inferring arg (crops.lookup arg) output.dims 0
          mins maxs with
      | .error e => .error e
      | .ok r => bounds_inferrer.outputs_bounds inferring crops rest args1 r.1 r.2

/-- The loop `while (bounds->size() < input.bounds.size())` that pads a box with
`interval::union_identity()`. -/
def bounds_inferrer.pad (bounds : box) (n : Nat) : box :=
  bounds ++ List.replicate (n - bounds.length) interval.union_identity

/-- The loop over the dims `d` of the bounds of one input:
`(*bounds)[d] |= interval(min, max) | interval(max, min)` with `min` and `max` the bounds of
the input after the substitution of `mins` and `maxs`.  The box was padded before, so that it
has an interval for every dim of the input. -/
def bounds_inferrer.expand : box → List interval → bindings → bindings → box
  | b :: bounds, i :: input_bounds, mins, maxs =>
    b.union ((interval.mk (substitute i.min mins) (substitute i.max maxs)).union
      (interval.mk (substitute i.max maxs) (substitute i.min mins))) ::
      bounds_inferrer.expand bounds input_bounds mins maxs
  | bounds, _, _, _ => bounds

/-- The first loop of `visit(const call_func*)`, over the inputs of the func: the map
`inferring` afterwards.  The bounds of an input that is not being inferred fail the
assertion. -/
def bounds_inferrer.expand_inputs (crops : symbol_map (List (Option expr × Option expr)))
    (outputs : List func_output) (output_args : List Nat) :
    List func_input → symbol_map box → Except fault (symbol_map box)
  | [], inferring => .ok inferring
  | input :: rest, inferring =>
    match bounds_inferrer.outputs_bounds inferring crops outputs output_args [] [] with
    | .error e => .error e
    | .ok (mins, maxs) =>
      match inferring.lookup input.buffer with
      | none => .error .assertion
      | some bounds =>
        bounds_inferrer.expand_inputs crops outputs output_args rest
          (inferring.set input.buffer (some (bounds_inferrer.expand
            (bounds_inferrer.pad bounds input.bounds.length) input.bounds mins maxs)))

/-- The bounds of the previous iteration of the loop for one dim: the loop variable is
replaced by itself minus 1 and the result is simplified (`prev_bounds[d]`). -/
def bounds_inferrer.prev_bounds (budget : Nat) (loop_name : Nat) (c : interval) :
    Except fault interval :=
  let prev_iter : bindings := [(loop_name, .sub (.var loop_name) (.constant 1))]
  match bounds_inferrer.simplify budget (substitute c.min prev_iter) with
  | .error e => .error e
  | .ok prev_min =>
    match bounds_inferrer.simplify budget (substitute c.max prev_iter) with
    | .error e => .error e
    | .ok prev_max => .ok { min := prev_min, max := prev_max }

/-- The test `can_prove(prev.min <= crop.min) && can_prove(prev.max < crop.max)`; the second
call is made when the first gave true. -/
def bounds_inferrer.grows (budget : Nat) (prev c : interval) : Except fault Bool :=
  match bounds_inferrer.can_prove budget (.less_equal prev.min c.min) with
  | .error e => .error e
  | .ok false => .ok false
  | .ok true => bounds_inferrer.can_prove budget (.less prev.max c.max)

/-- The test `can_prove(prev.min > crop.min) && can_prove(prev.max >= crop.max)` of the
branch that does nothing.  The comparison `a > b` is the node `less(b, a)`. -/
def bounds_inferrer.shrinks (budget : Nat) (prev c : interval) : Except fault Bool :=
  match bounds_inferrer.can_prove budget (.less c.min prev.min) with
  | .error e => .error e
  | .ok false => .ok false
  | .ok true => bounds_inferrer.can_prove budget (.less_equal c.max prev.max)

/-- The branch taken for a dim whose bounds were proved to grow: the crop starts at
`new_min = prev_bounds[d].max + 1`, and `simplify(new_min - old_min)` is to be taken off the
loop min. -/
def bounds_inferrer.slide_dim (budget : Nat) (prev c : interval) :
    Except fault (interval × expr) :=
  let new_min := expr.add prev.max (.constant 1)
  match bounds_inferrer.simplify budget (.sub new_min c.min) with
  | .error e => .error e
  | .ok shift => .ok ({ c with min := new_min }, shift)

/-- The loop over the dims `d` of `crop_bounds` for one loop: the first dim whose bounds are
proved to grow with the loop variable is slid, and the loop ends; the result is the box
afterwards and the amount to take off the loop min, or nothing when the loop ends without a
`break`.  `done` holds the dims before `d`. -/
def bounds_inferrer.slide_dims (budget : Nat) (loop_name : Nat) :
    box → box → Except fault (Option (box × expr))
  | _, [] => .ok none
  | done, c :: rest =>
    match bounds_inferrer.prev_bounds budget loop_name c with
    | .error e => .error e
    | .ok prev =>
      match bounds_inferrer.grows budget prev c with
      | .error e => .error e
      | .ok true =>
        match bounds_inferrer.slide_dim budget prev c with
        | .error e => .error e
        | .ok (c1, shift) => .ok (some (done ++ c1 :: rest, shift))
      | .ok false =>
        match bounds_inferrer.shrinks budget prev c with
        | .error e => .error e
        | .ok _ => bounds_inferrer.slide_dims budget loop_name (done ++ [c]) rest

/-- The loop over the loops `l` from `first_loop` on, for one output: `loops` is the part of
`loop_mins` from `l` on.  The result is `crop_bounds` and that part of `loop_mins`
afterwards. -/
def bounds_inferrer.slide_loops (budget : Nat) :
    List (Nat × expr) → box → Except fault (box × List (Nat × expr))
  | [], crop_bounds => .ok (crop_bounds, [])
  | l :: loops, crop_bounds =>
    match bounds_inferrer.slide_dims budget l.1 [] crop_bounds with
    | .error e => .error e
    | .ok none =>
      match bounds_inferrer.slide_loops budget loops crop_bounds with
      | .error e => .error e
      | .ok r => .ok (r.1, l :: r.2)
    | .ok (some (crop_bounds1, shift)) =>
      match bounds_inferrer.slide_loops budget loops crop_bounds1 with
      | .error e => .error e
      | .ok r => .ok (r.1, (l.1, .sub l.2 shift) :: r.2)

/-- The second loop of `visit(const call_func*)`, over the outputs: the crops around the
call and `loop_mins` afterwards.  `slide` is the sliding-window step on the loops from
`first_loop` on. -/
def bounds_inferrer.add_crops
    (slide : List (Nat × expr) → box → Except fault (box × List (Nat × expr)))
    (inferring : symbol_map box) (loops_since_allocate : symbol_map Nat) :
    List func_output → bounds_inferrer.stmt → List (Nat × expr) →
      Except fault (bounds_inferrer.stmt × List (Nat × expr))
  | [], s, loop_mins => .ok (s, loop_mins)
  | output :: rest, s, loop_mins =>
    match inferring.lookup output.buffer with
    | none => bounds_inferrer.add_crops slide inferring loops_since_allocate rest s loop_mins
    | some bounds =>
      let first_loop := (loops_since_allocate.lookup output.buffer).getD 0
      match slide (loop_mins.drop first_loop) bounds with
      | .error e => .error e
      | .ok (crop_bounds, slid) =>
        bounds_inferrer.add_crops slide inferring loops_since_allocate rest
          (.crop_buffer output.buffer (crop_bounds.map (fun i => (some i.min, some i.max))) s)
          (loop_mins.take first_loop ++ slid)

/-- The last loop of `visit(const call_func*)`: an `if_then_else` per entry of `loop_mins`
with the condition `variable(l.first) >= l.second`. -/
def bounds_inferrer.add_ifs : List (Nat × expr) → bounds_inferrer.stmt → bounds_inferrer.stmt
  | [], s => s
  | l :: rest, s =>
    bounds_inferrer.add_ifs rest (.if_then_else (.less_equal l.2 (.var l.1)) s .undefined)

/-- The method `visit(const call_func*)`, over the sliding-window step `slide`. -/
def bounds_inferrer.visit_call_func
    (slide : List (Nat × expr) → box → Except fault (box × List (Nat × expr)))
    (fn : Option func) (buffer_args : List Nat)
    (b : bounds_inferrer) : Except fault (bounds_inferrer.stmt × bounds_inferrer) :=
  match fn with
  | none => .error .assertion
  | some f =>
    match bounds_inferrer.expand_inputs b.crops f.outputs (buffer_args.drop f.inputs.length)
        f.inputs b.inferring with
    | .error e => .error e
    | .ok inferring =>
      match bounds_inferrer.add_crops slide inferring b.loops_since_allocate f.outputs
          (.call_func fn buffer_args) b.loop_mins with
      | .error e => .error e
      | .ok (s, loop_mins) =>
        .ok (bounds_inferrer.add_ifs loop_mins s,
          { b with inferring := inferring, loop_mins := loop_mins })

/-- The box that `visit(const crop_dim*)` puts into `crops`: the crop in force, or a box of
`dim + 1` undefined intervals, grown to `dim + 1` intervals if shorter, with the bounds
`[min, min + extent - 1]` at `dim`. -/
def bounds_inferrer.crop_dim_bounds (cropped : Option (List (Option expr × Option expr)))
    (dim : Nat) (min extent : expr) : List (Option expr × Option expr) :=
  let base := cropped.getD []
  let grown := base ++ List.replicate (dim + 1 - base.length) (none, none)
  grown.set dim (some min, some (.sub (.add min extent) (.constant 1)))

/-- The loop at the end of `visit(const loop*)` on one interval: the loop variable is
replaced by the first and by the last value of the loop, `begin` and `end - 1`. -/
def bounds_inferrer.close_interval (name : Nat) (begin end_ : expr) (j : interval) : interval :=
  let loop_min := begin
  let loop_max := expr.sub end_ (.constant 1)
  { min := .min (substitute j.min [(name, loop_min)]) (substitute j.min [(name, loop_max)]),
    max := .max (substitute j.max [(name, loop_min)]) (substitute j.max [(name, loop_max)]) }

/-- The loop at the end of `visit(const loop*)` over every box of `inferring`. -/
def bounds_inferrer.close_loop (name : Nat) (begin end_ : expr) (inferring : symbol_map box) :
    symbol_map box :=
  inferring.map (fun i => i.map (fun bx => bx.map (bounds_inferrer.close_interval name begin end_)))

/-- The method `bounds_inferrer::mutate(const stmt&)` over the sliding-window step `slide`
of `visit(const call_func*)`: the `visit` overloads of infer_bounds.cc and, for `let_stmt`,
`if_then_else` and `check`, the defaults of `node_mutator`, which rebuild the node around
the mutated bodies.  The budget bounds each call of `simplify` and the replacement loop.
The result is the statement `s` and the inferrer afterwards. -/
def bounds_inferrer.mutate_with
    (slide : List (Nat × expr) → box → Except fault (box × List (Nat × expr)))
    (budget : Nat) :
    bounds_inferrer.stmt → bounds_inferrer → Except fault (bounds_inferrer.stmt × bounds_inferrer)
  | .undefined, b => .ok (.undefined, b)
  | .let_stmt name value body, b =>
    match bounds_inferrer.mutate_with slide budget body b with
    | .error e => .error e
    | .ok (body1, b1) => .ok (.let_stmt name value body1, b1)
  | .block x y, b =>
    match bounds_inferrer.mutate_with slide budget y b with
    | .error e => .error e
    | .ok (y1, b1) =>
      match bounds_inferrer.mutate_with slide budget x b1 with
      | .error e => .error e
      | .ok (x1, b2) => .ok (.block x1 y1, b2)
  | .loop name begin end_ body, b =>
    match bounds_inferrer.mutate_with slide budget body
        { b with loop_mins := b.loop_mins ++ [(name, begin)] } with
    | .error e => .error e
    | .ok (body1, b1) =>
      match b1.loop_mins.getLast? with
      | none => .error .out_of_range
      | some l =>
        .ok (.loop name l.2 end_ body1,
          { b1 with loop_mins := b1.loop_mins.dropLast,
                    inferring := bounds_inferrer.close_loop name begin end_ b1.inferring })
  | .if_then_else condition true_body false_body, b =>
    match bounds_inferrer.mutate_with slide budget true_body b with
    | .error e => .error e
    | .ok (t1, b1) =>
      match bounds_inferrer.mutate_with slide budget false_body b1 with
      | .error e => .error e
      | .ok (f1, b2) => .ok (.if_then_else condition t1 f1, b2)
  | .call_func fn buffer_args, b => bounds_inferrer.visit_call_func slide fn buffer_args b
  | .allocate type name elem_size dims body, b =>
    match b.inferring.lookup name with
    | some _ => .error .assertion
    | none =>
      let set_loops := scoped_value.make b.loops_since_allocate name b.loop_mins.length
      match bounds_inferrer.mutate_with slide budget body
          { b with inferring := b.inferring.set name (some []),
                   loops_since_allocate := set_loops.2 } with
      | .error e => .error e
      | .ok (body1, b1) =>
        match b1.inferring.lookup name with
        | none => .error .out_of_range
        | some inferred =>
          match bounds_inferrer.allocate_replacements budget name inferred 0
              (.constant elem_size) b1.ctx with
          | .error e => .error e
          | .ok (lets, replacements, ctx1) =>
            match bounds_inferrer.replace_all replacements budget dims with
            | .error e => .error e
            | .ok dims1 =>
              match bounds_inferrer.allocate_checks inferred dims1 0 with
              | .error e => .error e
              | .ok checks =>
                .ok (lets.foldl (fun s i => bounds_inferrer.stmt.let_stmt i.1 i.2 s)
                    (.block (bounds_inferrer.stmt.block_of checks)
                      (.allocate type name elem_size dims1 body1)),
                  { b1 with ctx := ctx1,
                            loops_since_allocate :=
                              set_loops.1.destroy b1.loops_since_allocate })
  | .crop_buffer name bounds body, b =>
    let new_crop := scoped_value.make b.crops name bounds
    match bounds_inferrer.mutate_with slide budget body { b with crops := new_crop.2 } with
    | .error e => .error e
    | .ok (body1, b1) =>
      .ok (.crop_buffer name bounds body1, { b1 with crops := new_crop.1.destroy b1.crops })
  | .crop_dim name dim min extent body, b =>
    let new_crop := scoped_value.make b.crops name
      (bounds_inferrer.crop_dim_bounds (b.crops.lookup name) dim min extent)
    match bounds_inferrer.mutate_with slide budget body { b with crops := new_crop.2 } with
    | .error e => .error e
    | .ok (body1, b1) =>
      let b2 := { b1 with crops := new_crop.1.destroy b1.crops }
      match body1 with
      | .if_then_else condition true_body _ =>
        .ok (.if_then_else condition (.crop_dim name dim min extent true_body) .undefined, b2)
      | _ => .ok (.crop_dim name dim min extent body1, b2)
  | .check condition, b => .ok (.check condition, b)

/-- The method `bounds_inferrer::mutate(const stmt&)`: the sliding-window step is the loop
over the enclosing loops of infer_bounds.cc (lines 169 to 189). -/
def bounds_inferrer.mutate (budget : Nat) (s : bounds_inferrer.stmt) (b : bounds_inferrer) :
    Except fault (bounds_inferrer.stmt × bounds_inferrer) :=
  bounds_inferrer.mutate_with (bounds_inferrer.slide_loops budget) budget s b

/-- The inferrer that `bounds_inferrer(ctx)` constructs: every map is empty. -/
def bounds_inferrer.make (ctx : Nat) : bounds_inferrer :=
  { ctx := ctx, inferring := [], crops := [], loop_mins := [], loops_since_allocate := [] }

/-- The first loop of `infer_bounds`: `b.inferring[i] = box()` for every input. -/
def infer_bounds.start (b : bounds_inferrer) : List Nat → bounds_inferrer
  | [] => b
  | i :: inputs => infer_bounds.start { b with inferring := b.inferring.set i (some []) } inputs

/-- The checks of `infer_bounds` for one input, over the dims of its box from `d` on:
`buffer_min(b, d) <= bounds[d].min` and `buffer_max(b, d) >= bounds[d].max`. -/
def infer_bounds.input_checks (i : Nat) : box → Nat → List bounds_inferrer.stmt
  | [], _ => []
  | bd :: rest, d =>
    .check (.less_equal (load_buffer_meta (.var i) .min d) bd.min) ::
    .check (.less_equal bd.max (load_buffer_meta (.var i) .max d)) ::
    infer_bounds.input_checks i rest (d + 1)

/-- The loop of `infer_bounds` over the inputs that builds the checks.  The box of an input
is read with `*b.inferring[i]`; the value of an empty optional is out of range. -/
def infer_bounds.checks (inferring : symbol_map box) :
    List Nat → Except fault (List bounds_inferrer.stmt)
  | [] => .ok []
  | i :: inputs =>
    match inferring.lookup i with
    | none => .error .out_of_range
    | some bounds =>
      match infer_bounds.checks inferring inputs with
      | .error e => .error e
      | .ok checks => .ok (infer_bounds.input_checks i bounds 0 ++ checks)

/-- The function `infer_bounds(s, ctx, inputs)`. -/
def infer_bounds (budget : Nat) (s : bounds_inferrer.stmt) (ctx : Nat) (inputs : List Nat) :
    Except fault bounds_inferrer.stmt :=
  match bounds_inferrer.mutate budget s (infer_bounds.start (bounds_inferrer.make ctx) inputs) with
  | .error e => .error e
  | .ok (result, b) =>
    match infer_bounds.checks b.inferring inputs with
    | .error e => .error e
    | .ok checks => .ok (.block (bounds_inferrer.stmt.block_of checks) result)

/-- The `crop_buffer` nodes of a statement, outermost first: the buffer and the bounds. -/
def bounds_inferrer.stmt.crops :
    bounds_inferrer.stmt → List (Nat × List (Option expr × Option expr))
  | .undefined => []
  | .let_stmt _ _ body => bounds_inferrer.stmt.crops body
  | .block a b => bounds_inferrer.stmt.crops a ++ bounds_inferrer.stmt.crops b
  | .loop _ _ _ body => bounds_inferrer.stmt.crops body
  | .if_then_else _ t f => bounds_inferrer.stmt.crops t ++ bounds_inferrer.stmt.crops f
  | .call_func _ _ => []
  | .allocate _ _ _ _ body => bounds_inferrer.stmt.crops body
  | .crop_buffer name bounds body => (name, bounds) :: bounds_inferrer.stmt.crops body
  | .crop_dim _ _ _ _ body => bounds_inferrer.stmt.crops body
  | .check _ => []

/-- The `loop` nodes of a statement, outermost first: the variable, `begin` and `end`. -/
def bounds_inferrer.stmt.loops : bounds_inferrer.stmt → List (Nat × expr × expr)
  | .undefined => []
  | .let_stmt _ _ body => bounds_inferrer.stmt.loops body
  | .block a b => bounds_inferrer.stmt.loops a ++ bounds_inferrer.stmt.loops b
  | .loop name begin end_ body => (name, begin, end_) :: bounds_inferrer.stmt.loops body
  | .if_then_else _ t f => bounds_inferrer.stmt.loops t ++ bounds_inferrer.stmt.loops f
  | .call_func _ _ => []
  | .allocate _ _ _ _ body => bounds_inferrer.stmt.loops body
  | .crop_buffer _ _ body => bounds_inferrer.stmt.loops body
  | .crop_dim _ _ _ _ body => bounds_inferrer.stmt.loops body
  | .check _ => []

/-- The budget that the sliding-window step needs on a box: four times the weight of the
bounds of each dim, and one. -/
def bounds_inferrer.slide_budget (crop : box) : Nat :=
  (crop.map (fun c => 4 * (c.min.weight + c.max.weight) + 1)).sum

/-- The dim 0 that `buffer_expr` declares for the buffer `b`: every field is the
`load_buffer_meta` of that field (pipeline.cc, lines 18 to 24). -/
def example_dim (b : Nat) : pipeline.dim_expr :=
  { min := load_buffer_meta (.var b) .min 0, extent := load_buffer_meta (.var b) .extent 0,
    stride_bytes := load_buffer_meta (.var b) .stride_bytes 0,
    fold_factor := load_buffer_meta (.var b) .fold_factor 0 }

/-- Stage 1 of the two-stage example: buffer 1 at `x` (symbol 3) from buffer 0 at `x`. -/
def example_stage1 : func :=
  { inputs := [{ buffer := 0, bounds := [{ min := .var 3, max := .var 3 }] }],
    outputs := [{ buffer := 1, dims := [3] }], loops := [], compute_at := none }

/-- Stage 2 of the two-stage example: buffer 2 at `x` (symbol 3) from buffer 1 at
`[x - 1, x + 1]`, in an explicit loop over `x`. -/
def example_stage2 : func :=
  { inputs := [{ buffer := 1, bounds := [{ min := .sub (.var 3) (.constant 1),
                                           max := .add (.var 3) (.constant 1) }] }],
    outputs := [{ buffer := 2, dims := [3] }], loops := [3], compute_at := none }

/-- The two-stage example as a statement: buffer 1 is allocated around the loop over `x` of
stage 2, which runs over dim 0 of buffer 2 and calls stage 1 and then, on the crop of buffer
2 to `x`, stage 2. -/
def example_window_stmt : bounds_inferrer.stmt :=
  .allocate .heap 1 4 [example_dim 1]
    (.loop 3 (load_buffer_meta (.var 2) .min 0)
      (.add (load_buffer_meta (.var 2) .max 0) (.constant 1))
      (.block (.call_func (some example_stage1) [0, 1])
        (.crop_dim 2 0 (.var 3) (.constant 1) (.call_func (some example_stage2) [1, 2]))))

/-- The box `[x - 1, x + 1]` for `x` the symbol 3. -/
def example_window_box : box :=
  [{ min := .sub (.var 3) (.constant 1), max := .add (.var 3) (.constant 1) }]

/-- An allocation of buffer 1 with one dim whose body writes the buffer by stage 1 and
never reads it. -/
def example_unread_allocation : bounds_inferrer.stmt :=
  .allocate .heap 1 4 [example_dim 1] (.call_func (some example_stage1) [0, 1])

/-- An input that reads buffer 0 at `[x - 1, x + 1]` of its output dim `x` (symbol 3). -/
def example_stencil_input : func_input :=
  { buffer := 0, bounds := [{ min := .sub (.var 3) (.constant 1),
                              max := .add (.var 3) (.constant 1) }] }

/-- An inferring map in which buffer 0 demands `[2, 4]` so far. -/
def example_inferring : symbol_map box := [some [{ min := .constant 2, max := .constant 4 }]]

mutual
/-- The value of the expression depends on the symbol `x`: a `variable` node names it outside
the body of a `let` of the same symbol. -/
def expr.depends_on (x : Nat) : expr → Bool
  | .var s => decide (s = x)
  | .wildcard _ => false
  | .constant _ => false
  | .let_ s v b => expr.depends_on x v || (decide (s ≠ x) && expr.depends_on x b)
  | .add a b => expr.depends_on x a || expr.depends_on x b
  | .sub a b => expr.depends_on x a || expr.depends_on x b
  | .mul a b => expr.depends_on x a || expr.depends_on x b
  | .div a b => expr.depends_on x a || expr.depends_on x b
  | .mod a b => expr.depends_on x a || expr.depends_on x b
  | .min a b => expr.depends_on x a || expr.depends_on x b
  | .max a b => expr.depends_on x a || expr.depends_on x b
  | .equal a b => expr.depends_on x a || expr.depends_on x b
  | .not_equal a b => expr.depends_on x a || expr.depends_on x b
  | .less a b => expr.depends_on x a || expr.depends_on x b
  | .less_equal a b => expr.depends_on x a || expr.depends_on x b
  | .logical_and a b => expr.depends_on x a || expr.depends_on x b
  | .logical_or a b => expr.depends_on x a || expr.depends_on x b
  | .logical_not a => expr.depends_on x a
  | .select c t f => expr.depends_on x c || expr.depends_on x t || expr.depends_on x f
  | .call _ as => expr.depends_on_list x as
/-- The value of one of the expressions depends on the symbol `x`. -/
def expr.depends_on_list (x : Nat) : List expr → Bool
  | [] => false
  | a :: as => expr.depends_on x a || expr.depends_on_list x as
end

/-- The expression is monotone in the symbol `name` over the values from `lo` to `hi`: its
value never falls, or never rises, as the value of `name` rises. -/
def expr.monotone_in (rt : buffer_runtime) (ctx : eval_context) (name : Nat) (lo hi : Int)
    (e : expr) : Prop :=
  (∀ v w a b, lo ≤ v → v ≤ w → w ≤ hi → eval_expr rt e (ctx.set name (some v)) = some a →
    eval_expr rt e (ctx.set name (some w)) = some b → a ≤ b) ∨
  (∀ v w a b, lo ≤ v → v ≤ w → w ≤ hi → eval_expr rt e (ctx.set name (some v)) = some a →
    eval_expr rt e (ctx.set name (some w)) = some b → b ≤ a)

/-- The expression `let y = 0 in y + x`, for `x` the symbol 3 and `y` the symbol 4. -/
def example_shadowing_bound : expr :=
  .let_ 4 (.constant 0) (.add (.var 4) (.var 3))

/-- A buffer runtime without live buffers. -/
def example_no_buffers : buffer_runtime :=
  { deref := fun _ => none, size_bytes := fun _ => 0,
    flat_offset_bytes := fun d i => (i - d.min) * d.stride }

/-! ## Substitution under a `let`, and the infinities read as constants: definitions -/

mutual
/-- The value of the expression can depend on the entry of `x` in the context: a `variable`
or `wildcard` node names `x` outside the body of a `let` of `x` (the evaluator reads both
kinds of node from the context). -/
def expr.reads (x : Nat) : expr → Bool
  | .var s => decide (s = x)
  | .wildcard s => decide (s = x)
  | .constant _ => false
  | .let_ s v b => expr.reads x v || (!decide (s = x) && expr.reads x b)
  | .add a b => expr.reads x a || expr.reads x b
  | .sub a b => expr.reads x a || expr.reads x b
  | .mul a b => expr.reads x a || expr.reads x b
  | .div a b => expr.reads x a || expr.reads x b
  | .mod a b => expr.reads x a || expr.reads x b
  | .min a b => expr.reads x a || expr.reads x b
  | .max a b => expr.reads x a || expr.reads x b
  | .equal a b => expr.reads x a || expr.reads x b
  | .not_equal a b => expr.reads x a || expr.reads x b
  | .less a b => expr.reads x a || expr.reads x b
  | .less_equal a b => expr.reads x a || expr.reads x b
  | .logical_and a b => expr.reads x a || expr.reads x b
  | .logical_or a b => expr.reads x a || expr.reads x b
  | .logical_not a => expr.reads x a
  | .select c t f => expr.reads x c || expr.reads x t || expr.reads x f
  | .call _ as => expr.reads_list x as
/-- One of the expressions reads `x`. -/
def expr.reads_list (x : Nat) : List expr → Bool
  | [] => false
  | a :: as => expr.reads x a || expr.reads_list x as
end

mutual
/-- Substituting `V` for `x` in the expression captures nothing: no `let` of a symbol that
`V` reads has `x` read in its body (outside a `let` of `x`, where nothing is substituted), and
no `wildcard` that is left in place names `x`. -/
def expr.admits (x : Nat) (V : expr) : expr → Bool
  | .var _ => true
  | .wildcard s => !decide (s = x)
  | .constant _ => true
  | .let_ s v b =>
    expr.admits x V v &&
      (decide (s = x) || (expr.admits x V b && !(expr.reads s V && expr.reads x b)))
  | .add a b => expr.admits x V a && expr.admits x V b
  | .sub a b => expr.admits x V a && expr.admits x V b
  | .mul a b => expr.admits x V a && expr.admits x V b
  | .div a b => expr.admits x V a && expr.admits x V b
  | .mod a b => expr.admits x V a && expr.admits x V b
  | .min a b => expr.admits x V a && expr.admits x V b
  | .max a b => expr.admits x V a && expr.admits x V b
  | .equal a b => expr.admits x V a && expr.admits x V b
  | .not_equal a b => expr.admits x V a && expr.admits x V b
  | .less a b => expr.admits x V a && expr.admits x V b
  | .less_equal a b => expr.admits x V a && expr.admits x V b
  | .logical_and a b => expr.admits x V a && expr.admits x V b
  | .logical_or a b => expr.admits x V a && expr.admits x V b
  | .logical_not a => expr.admits x V a
  | .select c t f => expr.admits x V c && expr.admits x V t && expr.admits x V f
  | .call _ as => expr.admits_list x V as
/-- Substituting `V` for `x` captures nothing in any of the expressions. -/
def expr.admits_list (x : Nat) (V : expr) : List expr → Bool
  | [] => true
  | a :: as => expr.admits x V a && expr.admits_list x V as
end

/-- A call node in which the infinities are read as constants: `positive_infinity()` as `P`
and `negative_infinity()` as `N`. -/
def intrinsic.finite (P N : Int) : intrinsic → List expr → expr
  | .positive_infinity, [] => .constant P
  | .negative_infinity, [] => .constant N
  | fn, as => .call fn as

mutual
/-- The expression with every `positive_infinity()` read as the constant `P` and every
`negative_infinity()` as the constant `N`.  The evaluator aborts on the infinities, and the
bounds that inference builds start from `[+inf, -inf]`; with `P` the largest and `N` the
smallest `index_t`, `min(P, e)` and `max(N, e)` have the value of `e`. -/
def expr.finite (P N : Int) : expr → expr
  | .var s => .var s
  | .wildcard s => .wildcard s
  | .constant v => .constant v
  | .let_ s v b => .let_ s (expr.finite P N v) (expr.finite P N b)
  | .add a b => .add (expr.finite P N a) (expr.finite P N b)
  | .sub a b => .sub (expr.finite P N a) (expr.finite P N b)
  | .mul a b => .mul (expr.finite P N a) (expr.finite P N b)
  | .div a b => .div (expr.finite P N a) (expr.finite P N b)
  | .mod a b => .mod (expr.finite P N a) (expr.finite P N b)
  | .min a b => .min (expr.finite P N a) (expr.finite P N b)
  | .max a b => .max (expr.finite P N a) (expr.finite P N b)
  | .equal a b => .equal (expr.finite P N a) (expr.finite P N b)
  | .not_equal a b => .not_equal (expr.finite P N a) (expr.finite P N b)
  | .less a b => .less (expr.finite P N a) (expr.finite P N b)
  | .less_equal a b => .less_equal (expr.finite P N a) (expr.finite P N b)
  | .logical_and a b => .logical_and (expr.finite P N a) (expr.finite P N b)
  | .logical_or a b => .logical_or (expr.finite P N a) (expr.finite P N b)
  | .logical_not a => .logical_not (expr.finite P N a)
  | .select c t f => .select (expr.finite P N c) (expr.finite P N t) (expr.finite P N f)
  | .call fn as => intrinsic.finite P N fn (expr.finite_list P N as)
/-- The expressions with the infinities read as `P` and `N`. -/
def expr.finite_list (P N : Int) : List expr → List expr
  | [] => []
  | a :: as => expr.finite P N a :: expr.finite_list P N as
end

/-- An interval of the shape that bounds inference builds for the demand `[x - 1, x + 1]`, for
`x` the symbol 3: the union of `[+inf, -inf]` with the demand. -/
def example_inferred_window : interval :=
  { min := .min (.call .positive_infinity []) (.sub (.var 3) (.constant 1)),
    max := .max (.call .negative_infinity []) (.add (.var 3) (.constant 1)) }

mutual
/-- The symbols that the `let` nodes of the expression bind. -/
def expr.binders : expr → List Nat
  | .var _ => []
  | .wildcard _ => []
  | .constant _ => []
  | .let_ s v b => s :: (expr.binders v ++ expr.binders b)
  | .add a b => expr.binders a ++ expr.binders b
  | .sub a b => expr.binders a ++ expr.binders b
  | .mul a b => expr.binders a ++ expr.binders b
  | .div a b => expr.binders a ++ expr.binders b
  | .mod a b => expr.binders a ++ expr.binders b
  | .min a b => expr.binders a ++ expr.binders b
  | .max a b => expr.binders a ++ expr.binders b
  | .equal a b => expr.binders a ++ expr.binders b
  | .not_equal a b => expr.binders a ++ expr.binders b
  | .less a b => expr.binders a ++ expr.binders b
  | .less_equal a b => expr.binders a ++ expr.binders b
  | .logical_and a b => expr.binders a ++ expr.binders b
  | .logical_or a b => expr.binders a ++ expr.binders b
  | .logical_not a => expr.binders a
  | .select c t f => expr.binders c ++ expr.binders t ++ expr.binders f
  | .call _ as => expr.binders_list as
/-- The symbols that the `let` nodes of the expressions bind. -/
def expr.binders_list : List expr → List Nat
  | [] => []
  | a :: as => expr.binders a ++ expr.binders_list as
end

mutual
/-- An expression without `wildcard` nodes in which inlining a `let` cannot capture: every
`let` has a body without `let`, or a value without `let` that reads no symbol bound by a
`let` inside the body.  Lets may stand under any operator, in the value of a `let`, and in
the body of a `let`. -/
def expr.tame : expr → Bool
  | .var _ => true
  | .wildcard _ => false
  | .constant _ => true
  | .let_ _ v b =>
    expr.tame v && expr.tame b &&
      (expr.plain b || (expr.plain v && (expr.binders b).all (fun t => !expr.reads t v)))
  | .add a b => expr.tame a && expr.tame b
  | .sub a b => expr.tame a && expr.tame b
  | .mul a b => expr.tame a && expr.tame b
  | .div a b => expr.tame a && expr.tame b
  | .mod a b => expr.tame a && expr.tame b
  | .min a b => expr.tame a && expr.tame b
  | .max a b => expr.tame a && expr.tame b
  | .equal a b => expr.tame a && expr.tame b
  | .not_equal a b => expr.tame a && expr.tame b
  | .less a b => expr.tame a && expr.tame b
  | .less_equal a b => expr.tame a && expr.tame b
  | .logical_and a b => expr.tame a && expr.tame b
  | .logical_or a b => expr.tame a && expr.tame b
  | .logical_not a => expr.tame a
  | .select c t f => expr.tame c && expr.tame t && expr.tame f
  | .call _ as => expr.tame_list as
/-- A list of expressions in which inlining a `let` cannot capture. -/
def expr.tame_list : List expr → Bool
  | [] => true
  | a :: as => expr.tame a && expr.tame_list as
end

mutual
/-- A bound on the size that an expression can reach once its lets are inlined: a variable
counts what `ρ` gives for it, any other leaf counts 1, an operator counts 1 more than its
operands, and a `let` counts 1, its value, and its body with the bound symbol counting as
much as the value.  With `ρ` constantly 1 this is the node count of an expression without
`let`. -/
def expr.cost : expr → (Nat → Nat) → Nat
  | .var s, ρ => ρ s
  | .wildcard _, _ => 1
  | .constant _, _ => 1
  | .let_ s v b, ρ =>
    1 + expr.cost v ρ + expr.cost b (fun x => if x = s then expr.cost v ρ else ρ x)
  | .add a b, ρ => 1 + expr.cost a ρ + expr.cost b ρ
  | .sub a b, ρ => 1 + expr.cost a ρ + expr.cost b ρ
  | .mul a b, ρ => 1 + expr.cost a ρ + expr.cost b ρ
  | .div a b, ρ => 1 + expr.cost a ρ + expr.cost b ρ
  | .mod a b, ρ => 1 + expr.cost a ρ + expr.cost b ρ
  | .min a b, ρ => 1 + expr.cost a ρ + expr.cost b ρ
  | .max a b, ρ => 1 + expr.cost a ρ + expr.cost b ρ
  | .equal a b, ρ => 1 + expr.cost a ρ + expr.cost b ρ
  | .not_equal a b, ρ => 1 + expr.cost a ρ + expr.cost b ρ
  | .less a b, ρ => 1 + expr.cost a ρ + expr.cost b ρ
  | .less_equal a b, ρ => 1 + expr.cost a ρ + expr.cost b ρ
  | .logical_and a b, ρ => 1 + expr.cost a ρ + expr.cost b ρ
  | .logical_or a b, ρ => 1 + expr.cost a ρ + expr.cost b ρ
  | .logical_not a, ρ => 1 + expr.cost a ρ
  | .select c t f, ρ => 1 + expr.cost c ρ + expr.cost t ρ + expr.cost f ρ
  | .call _ as, ρ => 1 + expr.cost_list as ρ
/-- The summed costs of a list of expressions. -/
def expr.cost_list : List expr → (Nat → Nat) → Nat
  | [], _ => 0
  | a :: as, ρ => expr.cost a ρ + expr.cost_list as ρ
end

/-- The budget that `simplify` needs on an expression: its cost with every variable
counting 1. -/
def expr.budget (e : expr) : Nat := expr.cost e (fun _ => 1)

/-! ## Soundness of the simplifier on tame lets: definitions -/

/-- Two expressions of the same cost, both tame or both not, that bind and read the same
symbols: what a pattern instance and the matched expression share. -/
def expr.alike (x e : expr) : Prop :=
  (∀ ρ, expr.cost x ρ = expr.cost e ρ) ∧ x.tame = e.tame ∧
    (∀ t, t ∈ x.binders ↔ t ∈ e.binders) ∧ ∀ t, expr.reads t x = expr.reads t e

/-- Two argument lists of the same cost, tameness, bound and read symbols. -/
def expr.alike_list (xs es : List expr) : Prop :=
  (∀ ρ, expr.cost_list xs ρ = expr.cost_list es ρ) ∧ expr.tame_list xs = expr.tame_list es ∧
    (∀ t, t ∈ expr.binders_list xs ↔ t ∈ expr.binders_list es) ∧
    ∀ t, expr.reads_list t xs = expr.reads_list t es

/-- What makes one rewrite step `P -> R` under the predicate `pred` keep an expression tame:
`R` and the predicate are tame when `P` is and need a smaller budget than `P`, `R` never
costs more than `P`, and `R` binds and reads only what `P` binds and reads. -/
def rule.tame_at (P R : expr) (pred : Option expr) : Prop :=
  (P.tame = true → R.tame = true) ∧
  ((∀ ρ, expr.cost R ρ ≤ expr.cost P ρ) ∧ R.budget < P.budget) ∧
  (∀ t, t ∈ R.binders → t ∈ P.binders) ∧
  (∀ t, expr.reads t R = true → expr.reads t P = true) ∧
  ∀ pr, pred = some pr → (P.tame = true → pr.tame = true) ∧ pr.budget < P.budget

/-- Every instance of the rule is a step that keeps an expression tame. -/
def rule.tame (rl : rule) : Prop :=
  ∀ mt : bindings,
    rule.tame_at (substitute rl.pattern mt) (substitute rl.replacement mt)
      (rl.predicate.map (fun pr => substitute pr mt))

/-- The expression `e'` may replace the tame expression `e`: it is tame, binds and reads only
what `e` binds and reads, is without `let` when `e` is, costs no more whatever the variables
count, and has the value of `e` wherever `e` has one (over buffers with non-empty dims). -/
def simplifier.improves (e e' : expr) : Prop :=
  (e'.tame = true ∧ (∀ t, t ∈ e'.binders → t ∈ e.binders) ∧
    ∀ t, expr.reads t e' = true → expr.reads t e = true) ∧
  (e.plain = true → e'.plain = true) ∧ (∀ ρ, expr.cost e' ρ ≤ expr.cost e ρ) ∧
    ∀ (rt : buffer_runtime) (ctx : eval_context) (v : Int), rt.nonempty_dims →
      eval_expr rt e ctx = some v → eval_expr rt e' ctx = some v

/-- The function `f` returns an improvement for every tame expression of budget at most `n`,
and it has counted every symbol that the result reads. -/
def simplifier.tame_upto (f : expr → symbol_map Int → mutated) (n : Nat) : Prop :=
  ∀ e r, e.tame = true → e.budget ≤ n →
    ∃ e' r', f e r = some (e', r') ∧ simplifier.improves e e' ∧
      simplifier.counted (fun s => expr.reads s e') r r'

/-! ## parallel_for (base/thread_pool.h) -/

/-- Reduction of a natural number to `std::size_t`, an unsigned 64-bit integer: what `+`, `-`
and `*` on `std::size_t` leave in the register. -/
def size_t_wrap (v : Nat) : Nat := v % 18446744073709551616

/-- The struct `parallel_for::task`: `i` is the next iteration to run, `end_` stands for
the field `end`, the first iteration past the task. -/
structure parallel_for.task where
  i : Nat
  end_ : Nat
  deriving DecidableEq, Repr

/-- The class `parallel_for<K>`: the array `tasks_` of `K` tasks and the counters `worker_`
and `todo_`. -/
structure parallel_for where
  tasks : List parallel_for.task
  worker : Nat
  todo : Nat
  deriving DecidableEq, Repr

/-- The loop of the constructor that divides the work evenly, from task `i` on, for the
`count` tasks that are left; `begin` is the local of that name. -/
def parallel_for.divide (K n : Nat) : Nat → Nat → Nat → List parallel_for.task
  | 0, _, _ => []
  | count + 1, i, begin =>
    let e := size_t_wrap ((i + 1) * n) / K
    { i := begin, end_ := e } :: parallel_for.divide K n count (i + 1) e

/-- The constructor `parallel_for<K>(n)`.  With fewer items than tasks every item gets a
task of its own and the other tasks are empty. -/
def parallel_for.make (K n : Nat) : parallel_for :=
  { tasks :=
      if 1 < K ∧ n < K then
        (List.range n).map (fun i => { i := i, end_ := i + 1 }) ++
          List.replicate (K - n) { i := 0, end_ := 0 }
      else parallel_for.divide K n K 0 0,
    worker := 0,
    todo := n }

/-- The loop `while (true)` of `run` on one task, run by one thread: the task afterwards
and the arguments of the calls of `body`, in order.  The budget bounds the number of
iterations; `none` means that it ran out. -/
def parallel_for.task.run : Nat → parallel_for.task → Option (parallel_for.task × List Nat)
  | 0, _ => none
  | budget + 1, k =>
    let i := k.i
    let k1 : parallel_for.task := { k with i := size_t_wrap (k.i + 1) }
    if k.end_ ≤ i then some (k1, [])
    else
      match parallel_for.task.run budget k1 with
      | none => none
      | some (k2, calls) => some (k2, i :: calls)

/-- The loop of `run` over the `K` tasks, from round `i` on for `count` rounds: the first
round works on the task of worker `w`, the later rounds take what the other tasks have
left.  The result is the tasks afterwards and the arguments of the calls of `body`. -/
def parallel_for.run_tasks (budget K w : Nat) :
    Nat → Nat → List parallel_for.task → Option (List parallel_for.task × List Nat)
  | 0, _, tasks => some (tasks, [])
  | count + 1, i, tasks =>
    match tasks.get? ((i + w) % K) with
    | none => none
    | some k =>
      match parallel_for.task.run budget k with
      | none => none
      | some (k1, calls) =>
        match parallel_for.run_tasks budget K w count (i + 1) (tasks.set ((i + w) % K) k1) with
        | none => none
        | some (tasks1, calls1) => some (tasks1, calls ++ calls1)

/-- The method `parallel_for::run(body)` when a single thread runs it from start to end:
the loop object afterwards and the arguments of the calls of `body`, in order.  `todo_` is
lowered by the number of calls. -/
def parallel_for.run (budget : Nat) (p : parallel_for) : Option (parallel_for × List Nat) :=
  let K := p.tasks.length
  let w := if K = 1 then 0 else p.worker
  let worker1 := if K = 1 then p.worker else size_t_wrap (p.worker + 1)
  match parallel_for.run_tasks budget K w K 0 p.tasks with
  | none => none
  | some (tasks1, calls) =>
    some ({ tasks := tasks1, worker := worker1,
            todo := size_t_wrap (p.todo + 18446744073709551616 - size_t_wrap calls.length) },
          calls)

/-- The method `parallel_for::done`. -/
def parallel_for.done (p : parallel_for) : Bool := p.todo == 0

/-- The index `x` lies in the range `[i, end)` of the task. -/
def parallel_for.task.holds (k : parallel_for.task) (x : Nat) : Prop := k.i ≤ x ∧ x < k.end_

instance (k : parallel_for.task) (x : Nat) : Decidable (k.holds x) := by
  unfold parallel_for.task.holds; exact inferInstance

/-- The indices `[i, end)` of a task, ascending. -/
def parallel_for.task.span (k : parallel_for.task) : List Nat := List.range' k.i (k.end_ - k.i)

/-! ## Copying buffers (buffer.cc) -/

/-- Modelled from the spec: `dim::begin()` of the buffer header, the first index of the
dim. -/
def dim.begin (d : dim) : Int := d.min

/-- Modelled from the spec: `dim::end()` of the buffer header, the index after the last one,
`max + 1` computed in `index_t`. -/
def dim.end_ (d : dim) : Int := wrap (d.max + 1)

/-- The struct `copy_dim`: how one dimension of the destination is covered.  The first
`pad_before` and the last `pad_after` of its `total_size` indices are padding, the `size`
indices between them are copied from the source. -/
structure copy_dim where
  pad_before : Int
  size : Int
  pad_after : Int
  total_size : Int
  src_stride : Int
  dst_stride : Int
  deriving DecidableEq, Repr

/-- The function `compute_padding(src, dst, dim)`: it fills in `pad_before`, `size` and
`pad_after` of `dim` and returns the offset to add to the source pointer.  A failed `assert`
ends the program. -/
def compute_padding (src dst : dim) (d : copy_dim) : Except fault (Int × copy_dim) :=
  let r : Int × copy_dim :=
    if dst.end_ ≤ src.begin ∨ src.end_ ≤ dst.begin then
      (0, { d with pad_before := d.total_size, size := 0, pad_after := 0 })
    else
      let copy_begin := Max.max src.begin dst.begin
      let copy_end := Min.min src.end_ dst.end_
      (if src.begin < dst.begin then wrap (d.src_stride * wrap (dst.begin - src.begin)) else 0,
       { d with size := Max.max 0 (wrap (copy_end - copy_begin)),
                pad_before := Max.max 0 (wrap (copy_begin - dst.begin)),
                pad_after := Max.max 0 (wrap (dst.end_ - copy_end)) })
  if wrap (wrap (r.2.pad_before + r.2.pad_after) + r.2.size) = r.2.total_size then .ok r
  else .error .assertion

/-- The index ranges `[begin, end)` of the two dims overlap in the sense of the test of
`compute_padding`: neither lies entirely before the other. -/
def dim.overlaps (src dst : dim) : Prop := src.begin < dst.end_ ∧ dst.begin < src.end_

instance (src dst : dim) : Decidable (dim.overlaps src dst) := by
  unfold dim.overlaps; exact inferInstance

/-- All fields of a dim are `index_t` values. -/
def dim.fits (d : dim) : Prop := fits_index_t d.min ∧ fits_index_t d.max

instance (d : dim) : Decidable (dim.fits d) := by
  unfold dim.fits; exact inferInstance

/-! ## The default traversal of node_mutator (node_mutator.h) -/

/-- What `mutate` hands back for a node it was given: `same` is a handle of that very node
(`same_as` holds between the two), `fresh x` is a handle of another node `x`, which may or
may not be an equal tree.  An undefined handle is mutated to an undefined handle, and two
undefined handles are the same. -/
inductive mutation (α : Type) where
  | same
  | fresh (x : α)
  deriving DecidableEq, Repr

/-- The test `result.same_as(x)` on what `mutate(x)` returned. -/
def mutation.is_same {α : Type} : mutation α → Bool
  | .same => true
  | .fresh _ => false

/-- The node that the returned handle refers to, `x` being the node that was visited. -/
def mutation.node {α : Type} (m : mutation α) (x : α) : α :=
  match m with
  | .same => x
  | .fresh y => y

/-- The method `node_mutator::mutate` on a handle that may be undefined. -/
def mutation.of_option {α : Type} (mutate : α → mutation α) : Option α → mutation (Option α)
  | none => .same
  | some x =>
    match mutate x with
    | .same => .same
    | .fresh y => .fresh (some y)

/-- The templates `mutate_let` and `mutate_binary`, and the visitors of the same shape, once
the two children are mutated: the node itself when both children are the same, a node made
of the new children otherwise. -/
def node_mutator.rebuild2 {α β γ : Type} (make : α → β → γ) (a : α) (b : β)
    (ma : mutation α) (mb : mutation β) : mutation γ :=
  if ma.is_same && mb.is_same then .same else .fresh (make (ma.node a) (mb.node b))

mutual
/-- The visitors of `node_mutator` for expressions, with no override: `mutate(x)` on a
defined expression. -/
def node_mutator.mutate_expr : expr → mutation expr
  | .var _ => .same
  | .wildcard _ => .same
  | .constant _ => .same
  | .let_ sym value body =>
    node_mutator.rebuild2 (expr.let_ sym) value body
      (node_mutator.mutate_expr value) (node_mutator.mutate_expr body)
  | .add a b =>
    node_mutator.rebuild2 expr.add a b (node_mutator.mutate_expr a) (node_mutator.mutate_expr b)
  | .sub a b =>
    node_mutator.rebuild2 expr.sub a b (node_mutator.mutate_expr a) (node_mutator.mutate_expr b)
  | .mul a b =>
    node_mutator.rebuild2 expr.mul a b (node_mutator.mutate_expr a) (node_mutator.mutate_expr b)
  | .div a b =>
    node_mutator.rebuild2 expr.div a b (node_mutator.mutate_expr a) (node_mutator.mutate_expr b)
  | .mod a b =>
    node_mutator.rebuild2 expr.mod a b (node_mutator.mutate_expr a) (node_mutator.mutate_expr b)
  | .min a b =>
    node_mutator.rebuild2 expr.min a b (node_mutator.mutate_expr a) (node_mutator.mutate_expr b)
  | .max a b =>
    node_mutator.rebuild2 expr.max a b (node_mutator.mutate_expr a) (node_mutator.mutate_expr b)
  | .equal a b =>
    node_mutator.rebuild2 expr.equal a b (node_mutator.mutate_expr a)
      (node_mutator.mutate_expr b)
  | .not_equal a b =>
    node_mutator.rebuild2 expr.not_equal a b (node_mutator.mutate_expr a)
      (node_mutator.mutate_expr b)
  | .less a b =>
    node_mutator.rebuild2 expr.less a b (node_mutator.mutate_expr a) (node_mutator.mutate_expr b)
  | .less_equal a b =>
    node_mutator.rebuild2 expr.less_equal a b (node_mutator.mutate_expr a)
      (node_mutator.mutate_expr b)
  | .logical_and a b =>
    node_mutator.rebuild2 expr.logical_and a b (node_mutator.mutate_expr a)
      (node_mutator.mutate_expr b)
  | .logical_or a b =>
    node_mutator.rebuild2 expr.logical_or a b (node_mutator.mutate_expr a)
      (node_mutator.mutate_expr b)
  | .logical_not x =>
    match node_mutator.mutate_expr x with
    | .same => .same
    | .fresh y => .fresh (.logical_not y)
  | .select c t f =>
    let mc := node_mutator.mutate_expr c
    let mt := node_mutator.mutate_expr t
    let mf := node_mutator.mutate_expr f
    if mc.is_same && mt.is_same && mf.is_same then .same
    else .fresh (.select (mc.node c) (mt.node t) (mf.node f))
  | .call fn args =>
    let r := node_mutator.mutate_args args
    if !r.1 then .same else .fresh (.call fn r.2)
/-- The loop of `visit(const call*)` over the arguments: the flag `changed` and the new
arguments. -/
def node_mutator.mutate_args : List expr → Bool × List expr
  | [] => (false, [])
  | a :: as =>
    let ma := node_mutator.mutate_expr a
    let r := node_mutator.mutate_args as
    (!ma.is_same || r.1, ma.node a :: r.2)
end

/-- One round of the loops over `dims` in `visit(const allocate*)` and
`visit(const make_buffer*)`: the new `dim_expr` and the outcome of `dims.back().same_as(i)`,
which holds when all four expressions are the same.  `f` is `mutate` on an expression. -/
def node_mutator.mutate_dim (f : expr → mutation expr) (d : dim_expr) : dim_expr × Bool :=
  ({ min := (f d.min).node d.min, max := (f d.max).node d.max,
     stride := (f d.stride).node d.stride,
     fold_factor := (f d.fold_factor).node d.fold_factor },
   (f d.min).is_same && (f d.max).is_same && (f d.stride).is_same && (f d.fold_factor).is_same)

/-- One round of the loop over `bounds` in `visit(const crop_buffer*)`: the new interval and
the outcome of `bounds.back().same_as(i)`. -/
def node_mutator.mutate_interval (f : expr → mutation expr) (i : Option expr × Option expr) :
    (Option expr × Option expr) × Bool :=
  (((mutation.of_option f i.1).node i.1, (mutation.of_option f i.2).node i.2),
   (mutation.of_option f i.1).is_same && (mutation.of_option f i.2).is_same)

/-- One round of the loop over `at` in `visit(const slice_buffer*)`. -/
def node_mutator.mutate_at (f : expr → mutation expr) (i : Option expr) : Option expr × Bool :=
  ((mutation.of_option f i).node i, (mutation.of_option f i).is_same)

/-- The loop of `visit(const allocate*)` over the dims: `changed = changed ||
!dims.back().same_as(i)`. -/
def node_mutator.allocate_dims (f : expr → mutation expr) :
    List dim_expr → Bool → List dim_expr × Bool
  | [], changed => ([], changed)
  | i :: rest, changed =>
    let r := node_mutator.mutate_dim f i
    let s := node_mutator.allocate_dims f rest (changed || !r.2)
    (r.1 :: s.1, s.2)

/-- The loop of `visit(const make_buffer*)` over the dims: `changed = changed ||
dims.back().same_as(i)`, as the source has it. -/
def node_mutator.make_buffer_dims (f : expr → mutation expr) :
    List dim_expr → Bool → List dim_expr × Bool
  | [], changed => ([], changed)
  | i :: rest, changed =>
    let r := node_mutator.mutate_dim f i
    let s := node_mutator.make_buffer_dims f rest (changed || r.2)
    (r.1 :: s.1, s.2)

/-- The loop of `visit(const crop_buffer*)` over the bounds: `changed = changed ||
bounds.back().same_as(i)`, as the source has it. -/
def node_mutator.crop_buffer_bounds (f : expr → mutation expr) :
    List (Option expr × Option expr) → Bool → List (Option expr × Option expr) × Bool
  | [], changed => ([], changed)
  | i :: rest, changed =>
    let r := node_mutator.mutate_interval f i
    let s := node_mutator.crop_buffer_bounds f rest (changed || r.2)
    (r.1 :: s.1, s.2)

/-- The loop of `visit(const slice_buffer*)` over `at`: `changed = changed ||
at.back().same_as(i)`, as the source has it. -/
def node_mutator.slice_buffer_at (f : expr → mutation expr) :
    List (Option expr) → Bool → List (Option expr) × Bool
  | [], changed => ([], changed)
  | i :: rest, changed =>
    let r := node_mutator.mutate_at f i
    let s := node_mutator.slice_buffer_at f rest (changed || r.2)
    (r.1 :: s.1, s.2)

/-- The visitors of `node_mutator` for statements: `mutate(x)` on a defined statement, for a
mutator whose `mutate` on a defined expression is `f` (the visitors above when nothing is
overridden).  Modelled from the spec: `visit(const loop*)` calls `loop::make(sym, bounds,
body)` with no step, which makes a loop of the default step.  The two bounds of a rebuilt
`crop_dim` are the same node only if they were and both came back the same. -/
def node_mutator.mutate_stmt (f : expr → mutation expr) : stmt → mutation stmt
  | .let_stmt sym value body =>
    node_mutator.rebuild2 (stmt.let_stmt sym) value body (f value)
      (node_mutator.mutate_stmt f body)
  | .block a b =>
    node_mutator.rebuild2 stmt.block a b (node_mutator.mutate_stmt f a)
      (node_mutator.mutate_stmt f b)
  | .loop sym min max _ body =>
    let mmin := f min
    let mmax := f max
    let mbody := node_mutator.mutate_stmt f body
    if mmin.is_same && mmax.is_same && mbody.is_same then .same
    else .fresh (.loop sym (mmin.node min) (mmax.node max) none (mbody.node body))
  | .if_then_else condition true_body false_body =>
    let mc := f condition
    let mt : mutation (Option stmt) :=
      match true_body with
      | none => .same
      | some s =>
        match node_mutator.mutate_stmt f s with
        | .same => .same
        | .fresh y => .fresh (some y)
    let mf : mutation (Option stmt) :=
      match false_body with
      | none => .same
      | some s =>
        match node_mutator.mutate_stmt f s with
        | .same => .same
        | .fresh y => .fresh (some y)
    if mc.is_same && mt.is_same && mf.is_same then .same
    else .fresh (.if_then_else (mc.node condition) (mt.node true_body) (mf.node false_body))
  | .call_func _ => .same
  | .allocate storage sym elem_size dims body =>
    let r := node_mutator.allocate_dims f dims false
    let mbody := node_mutator.mutate_stmt f body
    if !r.2 && mbody.is_same then .same
    else .fresh (.allocate storage sym elem_size r.1 (mbody.node body))
  | .make_buffer sym base elem_size dims body =>
    let mbase := f base
    let melem := f elem_size
    let r := node_mutator.make_buffer_dims f dims false
    let mbody := node_mutator.mutate_stmt f body
    if !r.2 && mbase.is_same && melem.is_same && mbody.is_same then .same
    else .fresh (.make_buffer sym (mbase.node base) (melem.node elem_size) r.1 (mbody.node body))
  | .crop_buffer sym bounds body =>
    let r := node_mutator.crop_buffer_bounds f bounds false
    let mbody := node_mutator.mutate_stmt f body
    if !r.2 && mbody.is_same then .same
    else .fresh (.crop_buffer sym r.1 (mbody.node body))
  | .crop_dim sym dim min max same_node body =>
    let mmin := f min
    let mmax := f max
    let mbody := node_mutator.mutate_stmt f body
    if mmin.is_same && mmax.is_same && mbody.is_same then .same
    else .fresh (.crop_dim sym dim (mmin.node min) (mmax.node max)
      (same_node && mmin.is_same && mmax.is_same) (mbody.node body))
  | .slice_buffer sym at_ body =>
    let r := node_mutator.slice_buffer_at f at_ false
    let mbody := node_mutator.mutate_stmt f body
    if !r.2 && mbody.is_same then .same
    else .fresh (.slice_buffer sym r.1 (mbody.node body))
  | .slice_dim sym dim at_ body =>
    let mat := f at_
    let mbody := node_mutator.mutate_stmt f body
    if mat.is_same && mbody.is_same then .same
    else .fresh (.slice_dim sym dim (mat.node at_) (mbody.node body))
  | .truncate_rank sym rank body =>
    match node_mutator.mutate_stmt f body with
    | .same => .same
    | .fresh y => .fresh (.truncate_rank sym rank y)
  | .check condition =>
    match mutation.of_option f condition with
    | .same => .same
    | .fresh y => .fresh (.check y)

/-- What the specification asks `mutate` to return for a statement when `mutate` on an
expression is `f`: a node of the same variant in which every child expression is the one
that `f` returns, every child statement is rewritten in the same way, and every other field
is kept. -/
def stmt.spec_rewrite (f : expr → mutation expr) : stmt → stmt
  | .let_stmt sym value body => .let_stmt sym ((f value).node value) (stmt.spec_rewrite f body)
  | .block a b => .block (stmt.spec_rewrite f a) (stmt.spec_rewrite f b)
  | .loop sym min max step body =>
    .loop sym ((f min).node min) ((f max).node max)
      ((mutation.of_option f step).node step) (stmt.spec_rewrite f body)
  | .if_then_else condition true_body false_body =>
    .if_then_else ((f condition).node condition)
      (match true_body with
       | none => none
       | some s => some (stmt.spec_rewrite f s))
      (match false_body with
       | none => none
       | some s => some (stmt.spec_rewrite f s))
  | .call_func target => .call_func target
  | .allocate storage sym elem_size dims body =>
    .allocate storage sym elem_size (dims.map (fun d => (node_mutator.mutate_dim f d).1))
      (stmt.spec_rewrite f body)
  | .make_buffer sym base elem_size dims body =>
    .make_buffer sym ((f base).node base) ((f elem_size).node elem_size)
      (dims.map (fun d => (node_mutator.mutate_dim f d).1)) (stmt.spec_rewrite f body)
  | .crop_buffer sym bounds body =>
    .crop_buffer sym (bounds.map (fun i => (node_mutator.mutate_interval f i).1))
      (stmt.spec_rewrite f body)
  | .crop_dim sym dim min max same_node body =>
    .crop_dim sym dim ((f min).node min) ((f max).node max)
      (same_node && (f min).is_same && (f max).is_same) (stmt.spec_rewrite f body)
  | .slice_buffer sym at_ body =>
    .slice_buffer sym (at_.map (fun i => (node_mutator.mutate_at f i).1))
      (stmt.spec_rewrite f body)
  | .slice_dim sym dim at_ body =>
    .slice_dim sym dim ((f at_).node at_) (stmt.spec_rewrite f body)
  | .truncate_rank sym rank body => .truncate_rank sym rank (stmt.spec_rewrite f body)
  | .check condition => .check ((mutation.of_option f condition).node condition)

/-- A derived mutator that replaces the variable `x` by the constant `v` and returns every
other expression as it is: `mutate` on expressions, by substitution. -/
def example_mutator (x : Nat) (v : Int) (e : expr) : mutation expr :=
  if (substitute e [(x, .constant v)]).beq e then .same
  else .fresh (substitute e [(x, .constant v)])

/-- No `make_buffer`, `crop_buffer` or `slice_buffer` node of the statement has a dim, a bound
or an index. -/
def stmt.bare_buffers : stmt → Bool
  | .let_stmt _ _ body => stmt.bare_buffers body
  | .block a b => stmt.bare_buffers a && stmt.bare_buffers b
  | .loop _ _ _ _ body => stmt.bare_buffers body
  | .if_then_else _ true_body false_body =>
    (match true_body with
     | none => true
     | some s => stmt.bare_buffers s) &&
    (match false_body with
     | none => true
     | some s => stmt.bare_buffers s)
  | .call_func _ => true
  | .allocate _ _ _ _ body => stmt.bare_buffers body
  | .make_buffer _ _ _ dims body => dims.isEmpty && stmt.bare_buffers body
  | .crop_buffer _ bounds body => bounds.isEmpty && stmt.bare_buffers body
  | .crop_dim _ _ _ _ _ body => stmt.bare_buffers body
  | .slice_buffer _ at_ body => at_.isEmpty && stmt.bare_buffers body
  | .slice_dim _ _ _ body => stmt.bare_buffers body
  | .truncate_rank _ _ body => stmt.bare_buffers body
  | .check _ => true

/-! ## A second pass of the simplifier: definitions -/

/-- Whatever `f` returns for a plain expression is plain, and `f` returns it unchanged,
whatever the reference counts. -/
def simplifier.settles (f : expr → symbol_map Int → mutated) : Prop :=
  ∀ (e : expr) (r : symbol_map Int) (x : expr × symbol_map Int), e.plain = true →
    f e r = some x → x.1.plain = true ∧ ∀ r2, ∃ r3, f x.1 r2 = some (x.1, r3)

/-! ## The body that the pipeline builder leaves: allocations and loops -/

/-- The buffers of the `allocate` nodes of a statement, outermost first. -/
def pipeline_builder.stmt.allocates : pipeline_builder.stmt → List Nat
  | .undefined => []
  | .call _ _ => []
  | .crop _ _ _ _ body => pipeline_builder.stmt.allocates body
  | .loop _ _ _ body => pipeline_builder.stmt.allocates body
  | .block a b => pipeline_builder.stmt.allocates a ++ pipeline_builder.stmt.allocates b
  | .allocate _ name _ _ body => name :: pipeline_builder.stmt.allocates body

/-- The funcs whose calls lie inside an `allocate` node of buffer `name`, in execution
order. -/
def pipeline_builder.stmt.calls_under (name : Nat) : pipeline_builder.stmt → List Nat
  | .undefined => []
  | .call _ _ => []
  | .crop _ _ _ _ body => pipeline_builder.stmt.calls_under name body
  | .loop _ _ _ body => pipeline_builder.stmt.calls_under name body
  | .block a b =>
    pipeline_builder.stmt.calls_under name a ++ pipeline_builder.stmt.calls_under name b
  | .allocate _ n _ _ body =>
    if n = name then pipeline_builder.stmt.calls body
    else pipeline_builder.stmt.calls_under name body

/-- The body that the scheduling loop left, when it ended with `complete()` true. -/
def build_result.body : build_result → Option pipeline_builder.stmt
  | .built _ result => some result
  | _ => none

/-- The memory that the copy functions work on: the byte at every address.  An address is an
integer; pointer arithmetic is exact (C++ defines it inside one object only). -/
abbrev memory := Int → Int

/-- A pointer that may be null: `none` is `nullptr`.  Arithmetic on a pointer that is not
null gives a pointer that is not null. -/
abbrev pointer := Option Int

/-- The function `memcpy(dst, src, n)` of the C library, which buffer.cc calls: the `n`
bytes from `dst` on get the bytes that were at `src` on before the call; a count that is not
positive copies nothing. -/
def memcpy (m : memory) (dst src n : Int) : memory :=
  fun a => if dst ≤ a ∧ a < dst + n then m (src + (a - dst)) else m a

/-- The template `fill<T>(T* dst, T value, index_t size)` for an element of `elem_size`
bytes, with the element that `value` pointed to when the caller read it: `std::fill` stores
it `size` times, back to back. -/
def fill.typed (m : memory) (dst value elem_size size : Int) : memory :=
  fun a => if dst ≤ a ∧ a < dst + size * elem_size then m (value + (a - dst) % elem_size)
    else m a

/-- The loop `for (i = 0; i < size; ++i) { memcpy(dst, value, elem_size); dst += stride; }`
of the two byte-wise `fill` functions. -/
def fill.loop (value stride elem_size : Int) : Nat → Int → memory → memory
  | 0, _, m => m
  | n + 1, dst, m => fill.loop value stride elem_size n (dst + stride) (memcpy m dst value elem_size)

/-- The function `fill(char* dst, index_t elem_size, const void* value, index_t size)`: a run
of `size` elements back to back.  Elements of 1, 2, 4 or 8 bytes go through `fill<T>`. -/
def fill.dense (m : memory) (dst elem_size : Int) (value : pointer) (size : Int) : memory :=
  match value with
  | none => m
  | some v =>
    if elem_size = 1 ∨ elem_size = 2 ∨ elem_size = 4 ∨ elem_size = 8 then
      fill.typed m dst v elem_size size
    else fill.loop v elem_size elem_size size.toNat dst m

/-- The function `fill(char* dst, index_t stride, index_t elem_size, const void* value,
index_t size)`: `size` elements, `stride` bytes apart. -/
def fill.strided (m : memory) (dst stride elem_size : Int) (value : pointer) (size : Int) :
    memory :=
  match value with
  | none => m
  | some v => fill.loop v stride elem_size size.toNat dst m

/-- The loop of `copy(const char* src, index_t src_stride, char* dst, index_t dst_stride,
index_t elem_size, index_t size)`. -/
def copy.loop (src_stride dst_stride elem_size : Int) : Nat → Int → Int → memory → memory
  | 0, _, _, m => m
  | n + 1, src, dst, m =>
    copy.loop src_stride dst_stride elem_size n (src + src_stride) (dst + dst_stride)
      (memcpy m dst src elem_size)

/-- The function `copy(const char* src, index_t src_stride, char* dst, index_t dst_stride,
index_t elem_size, index_t size)`: one element at a time. -/
def copy.strided (m : memory) (src src_stride dst dst_stride elem_size size : Int) : memory :=
  copy.loop src_stride dst_stride elem_size size.toNat src dst m

/-- A loop `for (i = 0; i < n; ++i) { body(dst); dst += stride; }`: the pointer and the
memory afterwards. -/
def fill.repeat_ (body : Int → memory → memory) (stride : Int) : Nat → Int → memory → Int × memory
  | 0, dst, m => (dst, m)
  | n + 1, dst, m => fill.repeat_ body stride n (dst + stride) (body dst m)

/-- The function `fill(char* dst, const copy_dim* dims, index_t elem_size, const void*
value, int dim)`: fill the dims `0..dim` with the value.  A `dim` past the end of the array
is not read (the callers pass `rank - 1`). -/
def fill.dims (dims : List copy_dim) (elem_size : Int) (value : pointer) :
    Nat → Int → memory → memory
  | 0, dst, m =>
    match value with
    | none => m
    | some _ =>
      match dims.get? 0 with
      | none => m
      | some d =>
        if d.dst_stride = elem_size then fill.dense m dst elem_size value d.total_size
        else fill.strided m dst d.dst_stride elem_size value d.total_size
  | dim + 1, dst, m =>
    match value with
    | none => m
    | some _ =>
      match dims.get? (dim + 1) with
      | none => m
      | some d =>
        (fill.repeat_ (fill.dims dims elem_size value dim) d.dst_stride d.total_size.toNat
          dst m).2

/-- The loop `for (i = 0; i < n; ++i) { body(src, dst); if (src) src += src_stride; dst +=
dst_stride; }`: the destination pointer and the memory afterwards. -/
def copy.repeat_ (body : pointer → Int → memory → memory) (src_stride dst_stride : Int) :
    Nat → pointer → Int → memory → Int × memory
  | 0, _, dst, m => (dst, m)
  | n + 1, src, dst, m =>
    copy.repeat_ body src_stride dst_stride n (src.map (fun s => s + src_stride))
      (dst + dst_stride) (body src dst m)

/-- The innermost case `dim == 0` of the recursive `copy`, for a destination whose elements
lie back to back (`d.dst_stride == elem_size`). -/
def copy.dense_row (d : copy_dim) (elem_size : Int) (padding src : pointer) (dst : Int)
    (m : memory) : memory :=
  let m1 := if 0 < d.pad_before then fill.dense m dst elem_size padding d.pad_before else m
  let dst1 := if 0 < d.pad_before then dst + wrap (d.pad_before * d.dst_stride) else dst
  let m2 :=
    if d.src_stride = elem_size then
      match src with
      | some s => memcpy m1 dst1 s (wrap (d.size * elem_size))
      | none => m1
    else if d.src_stride = 0 then
      match src with
      | some s => fill.dense m1 dst1 elem_size (some s) d.size
      | none => m1
    else
      match src with
      | some s => copy.strided m1 s d.src_stride dst1 d.dst_stride elem_size d.size
      | none => m1
  let dst2 :=
    if d.src_stride = elem_size ∨ d.src_stride = 0 then dst1 + wrap (d.size * elem_size)
    else dst1 + wrap (d.size * d.dst_stride)
  if 0 < d.pad_after then fill.dense m2 dst2 elem_size padding d.pad_after else m2

/-- The innermost case `dim == 0` of the recursive `copy`, for any other destination
stride: one element at a time. -/
def copy.strided_row (d : copy_dim) (elem_size : Int) (padding src : pointer) (dst : Int)
    (m : memory) : memory :=
  let m1 :=
    if 0 < d.pad_before then fill.strided m dst d.dst_stride elem_size padding d.pad_before
    else m
  let dst1 := if 0 < d.pad_before then dst + wrap (d.dst_stride * d.pad_before) else dst
  let m2 :=
    match src with
    | some s => copy.strided m1 s d.src_stride dst1 d.dst_stride elem_size d.size
    | none => m1
  let dst2 := dst1 + wrap (d.size * d.dst_stride)
  if 0 < d.pad_after then fill.strided m2 dst2 d.dst_stride elem_size padding d.pad_after
  else m2

/-- The function `copy(const char* src, char* dst, const copy_dim* dims, index_t elem_size,
const void* padding, int dim)`: copy the dims `0..dim`.  `src` may be null, and then only the
padding is filled.  A `dim` past the end of the array is not read. -/
def copy.dims (dims : List copy_dim) (elem_size : Int) (padding : pointer) :
    Nat → pointer → Int → memory → memory
  | 0, src, dst, m =>
    match dims.get? 0 with
    | none => m
    | some d =>
      if d.dst_stride = elem_size then copy.dense_row d elem_size padding src dst m
      else copy.strided_row d elem_size padding src dst m
  | dim + 1, src, dst, m =>
    match dims.get? (dim + 1) with
    | none => m
    | some d =>
      let r1 := fill.repeat_ (fill.dims dims elem_size padding dim) d.dst_stride
        d.pad_before.toNat dst m
      let r2 := copy.repeat_ (copy.dims dims elem_size padding dim) d.src_stride d.dst_stride
        d.size.toNat src r1.1 r1.2
      (fill.repeat_ (fill.dims dims elem_size padding dim) d.dst_stride d.pad_after.toNat
        r2.1 r2.2).2

/-! ## Copying buffers (buffer.cc): sorting and fusing the dims -/

/-- The inner loop `for (j = i; j != end; ++j) if (*j < *i) swap(*i, *j)` of `bubble_sort`,
on the part of the array from `i` on: `x` is `*i`, the list holds what follows it.  The
order `<` on `copy_dim` compares `dst_stride`. -/
def bubble_sort.inner (x : copy_dim) : List copy_dim → copy_dim × List copy_dim
  | [] => (x, [])
  | y :: ys =>
    if y.dst_stride < x.dst_stride then
      let r := bubble_sort.inner y ys
      (r.1, x :: r.2)
    else
      let r := bubble_sort.inner x ys
      (r.1, y :: r.2)

/-- The outer loop of `bubble_sort`, for the `n` positions that are left. -/
def bubble_sort.outer : Nat → List copy_dim → List copy_dim
  | 0, l => l
  | _ + 1, [] => []
  | n + 1, x :: xs =>
    let r := bubble_sort.inner x xs
    r.1 :: bubble_sort.outer n r.2

/-- The function template `bubble_sort(begin, end)` on an array of `copy_dim`. -/
def bubble_sort (l : List copy_dim) : List copy_dim := bubble_sort.outer l.length l

/-- The test of `optimize_copy_dims` for fusing `a = dims[d]` with `b = dims[d + 1]`; the
products are `index_t`. -/
def copy_dim.fusable (a b : copy_dim) : Bool :=
  decide (a.pad_before = 0 ∧ a.pad_after = 0 ∧
    b.dst_stride = wrap (a.dst_stride * a.total_size) ∧
    b.src_stride = wrap (a.src_stride * a.total_size))

/-- The dim that `optimize_copy_dims` writes to `a` when it fuses `a` with `b`. -/
def copy_dim.fuse (a b : copy_dim) : copy_dim :=
  { a with pad_before := wrap (b.pad_before * a.size),
           pad_after := wrap (b.pad_after * a.size),
           total_size := wrap (b.total_size * a.size),
           size := wrap (b.size * a.size) }

/-- The loop `for (d = 0; d + 1 < rank;)` of `optimize_copy_dims`, on the dims from `d` on;
the budget bounds the number of rounds.  A failed `assert` ends the program. -/
def optimize_copy_dims.fuse_loop : Nat → List copy_dim → Except fault (List copy_dim)
  | 0, _ => .error .out_of_budget
  | _ + 1, [] => .ok []
  | _ + 1, [a] => .ok [a]
  | budget + 1, a :: b :: rest =>
    if copy_dim.fusable a b then
      if a.size = a.total_size then
        optimize_copy_dims.fuse_loop budget (copy_dim.fuse a b :: rest)
      else .error .assertion
    else
      match optimize_copy_dims.fuse_loop budget (b :: rest) with
      | .error e => .error e
      | .ok r => .ok (a :: r)

/-- The function `optimize_copy_dims(dims, rank)`: the dims that are left; their number is
the rank that the function returns. -/
def optimize_copy_dims (dims : List copy_dim) : Except fault (List copy_dim) :=
  if dims.length = 1 then .ok dims
  else optimize_copy_dims.fuse_loop (dims.length + 1) (bubble_sort dims)

/-! ## Copying buffers (buffer.cc): `copy` -/

/-- The loop of `copy(src, dst, padding)` over the dims, which sets up the `copy_dim` of
every dim and adds up the offsets of the source pointer. -/
def copy.paddings : List dim → List dim → Except fault (Int × List copy_dim)
  | s :: ss, d :: ds =>
    match compute_padding s d
        { pad_before := 0, size := 0, pad_after := 0, total_size := d.extent,
          src_stride := s.stride, dst_stride := d.stride } with
    | .error e => .error e
    | .ok (off, cd) =>
      match copy.paddings ss ds with
      | .error e => .error e
      | .ok (offs, cds) => .ok (off + offs, cd :: cds)
  | _, _ => .ok (0, [])

/-- The function `copy(const raw_buffer& src, const raw_buffer& dst, const void* padding)`:
the memory afterwards.  A failed `assert` ends the program. -/
def copy (src dst : raw_buffer) (padding : pointer) (m : memory) : Except fault memory :=
  if src.dims.length ≠ dst.dims.length ∨ src.elem_size ≠ dst.elem_size then .error .assertion
  else if dst.dims.length = 0 then .ok (memcpy m dst.base src.base dst.elem_size)
  else
    match copy.paddings src.dims dst.dims with
    | .error e => .error e
    | .ok (off, dims) =>
      match optimize_copy_dims dims with
      | .error e => .error e
      | .ok dims1 =>
        .ok (copy.dims dims1 dst.elem_size padding (dims1.length - 1) (some (src.base + off))
          dst.base m)

/-! ## Copying buffers: the element stores that a copy amounts to -/

/-- One element store, given as the address of the destination element and a pointer to
the bytes to put there: the `es` bytes of the destination get the bytes that `m0` holds at
the source; a null source stores nothing. -/
def copy.store (m0 : memory) (es : Int) (m : memory) (w : Int × pointer) : memory :=
  match w.2 with
  | none => m
  | some r => fun a => if w.1 ≤ a ∧ a < w.1 + es then m0 (r + (a - w.1)) else m a

/-- A list of element stores, carried out from left to right. -/
def copy.stores (m0 : memory) (es : Int) (ws : List (Int × pointer)) (m : memory) : memory :=
  ws.foldl (copy.store m0 es) m

/-- Every destination byte of the stores lies in the region `W`, and no source byte does. -/
def copy.safe (W : Int → Prop) (es : Int) (ws : List (Int × pointer)) : Prop :=
  ∀ w ∈ ws, (∀ t, 0 ≤ t → t < es → W (w.1 + t)) ∧
    ∀ r, w.2 = some r → ∀ t, 0 ≤ t → t < es → ¬ W (r + t)

/-- The memories `m` and `m0` hold the same bytes outside the region `W`. -/
def memory.agrees (W : Int → Prop) (m m0 : memory) : Prop := ∀ a, ¬ W a → m a = m0 a

/-- The operation `op` on the memory amounts to the element stores `ws`, read from `m0`,
whenever the memory it starts from agrees with `m0` outside `W`. -/
def copy.amounts_to (W : Int → Prop) (m0 : memory) (es : Int) (op : memory → memory)
    (ws : List (Int × pointer)) : Prop :=
  ∀ m, memory.agrees W m m0 → op m = copy.stores m0 es ws m

/-- The stores of a run of `n` elements that lie `stride` bytes apart from `dst` on; the
source of element `i` is `f i`. -/
def copy.run (dst stride : Int) (f : Nat → pointer) (n : Nat) : List (Int × pointer) :=
  (List.range n).map (fun (i : Nat) => (dst + (i : Int) * stride, f i))

/-- What the analysis of a copy needs of one `copy_dim`: the three sizes are not negative and
add up to `total_size`, and the byte extents `total_size * dst_stride` and `total_size *
src_stride` are `index_t` values. -/
def copy_dim.ok (d : copy_dim) : Prop :=
  0 ≤ d.pad_before ∧ 0 ≤ d.size ∧ 0 ≤ d.pad_after ∧
  d.pad_before + d.size + d.pad_after = d.total_size ∧
  fits_index_t (d.total_size * d.dst_stride) ∧ fits_index_t (d.total_size * d.src_stride)

instance (d : copy_dim) : Decidable d.ok := by
  unfold copy_dim.ok; exact inferInstance

/-- The element stores of the innermost dim: padding, the elements of the source, padding. -/
def copy.row_writes (d : copy_dim) (padding src : pointer) (dst : Int) : List (Int × pointer) :=
  copy.run dst d.dst_stride (fun _ => padding) d.pad_before.toNat ++
  copy.run (dst + d.pad_before * d.dst_stride) d.dst_stride
    (fun i => src.map (fun s => s + (i : Int) * d.src_stride)) d.size.toNat ++
  copy.run (dst + (d.pad_before + d.size) * d.dst_stride) d.dst_stride (fun _ => padding)
    d.pad_after.toNat

/-! ## Copying buffers: the cells of a list of dims -/

/-- The cell `c` moved to index `i` of the dim `d`.  A cell is the offset of a destination
element from the destination pointer, with the offset of its source element from the source
pointer, or `none` when the element is padding.  Index `i` is padding unless
`pad_before <= i < pad_before + size`. -/
def copy_dim.shift (d : copy_dim) (i : Nat) (c : Int × Option Int) : Int × Option Int :=
  (c.1 + (i : Int) * d.dst_stride,
   if d.pad_before ≤ (i : Int) ∧ (i : Int) < d.pad_before + d.size then
     c.2.map (fun o => o + ((i : Int) - d.pad_before) * d.src_stride)
   else none)

/-- The cells of one more dim `d` around the cells `cs`: the cells `cs` at index 0, then at
index 1, and so on. -/
def copy.cells_step (cs : List (Int × Option Int)) (d : copy_dim) : List (Int × Option Int) :=
  (List.range d.total_size.toNat).flatMap (fun (i : Nat) => cs.map (d.shift i))

/-- The cells of a list of dims, innermost dim first, in the order in which the loops of the
recursive `copy` reach them. -/
def copy.cells (dims : List copy_dim) : List (Int × Option Int) :=
  dims.foldl copy.cells_step [(0, some 0)]

/-- The element store of a cell: `padding` goes to a padding cell, the source element to any
other; a null `src` or `padding` stores nothing. -/
def copy.to_write (padding src : pointer) (dst : Int) (c : Int × Option Int) : Int × pointer :=
  (dst + c.1,
   match c.2 with
   | none => padding
   | some o => src.map (fun s => s + o))

/-- The element stores of a copy over `dims`. -/
def copy.writes (dims : List copy_dim) (padding src : pointer) (dst : Int) :
    List (Int × pointer) :=
  (copy.cells dims).map (copy.to_write padding src dst)

/-- The element stores of a fill over `dims`. -/
def fill.writes (dims : List copy_dim) (value : pointer) (dst : Int) : List (Int × pointer) :=
  (copy.cells dims).map (fun c => (dst + c.1, value))

/-- The number of elements of the dims, where a dim without elements counts as one. -/
def copy_dim.volume (dims : List copy_dim) : Int :=
  (dims.map (fun d => Max.max 1 d.total_size)).prod

/-- The product of `total_size` over the dims. -/
def copy_dim.total (dims : List copy_dim) : Int := (dims.map (fun d => d.total_size)).prod

/-- No two of the destination elements share a byte. -/
def copy.disjoint (es : Int) (ws : List (Int × pointer)) : Prop :=
  ws.Pairwise (fun w v => w.1 + es ≤ v.1 ∨ v.1 + es ≤ w.1)

instance (es : Int) (ws : List (Int × pointer)) : Decidable (copy.disjoint es ws) := by
  unfold copy.disjoint; exact inferInstance

/-- No element that is read shares a byte with an element that is written. -/
def copy.separate (es : Int) (ws : List (Int × pointer)) : Prop :=
  ∀ w ∈ ws, ∀ v ∈ ws, ∀ r ∈ v.2, w.1 + es ≤ r ∨ r + es ≤ w.1

instance (es : Int) (ws : List (Int × pointer)) : Decidable (copy.separate es ws) := by
  unfold copy.separate; exact inferInstance

/-- The destination bytes of a list of element stores. -/
def copy.region (es : Int) (ws : List (Int × pointer)) : Int → Prop :=
  fun a => ∃ w ∈ ws, w.1 ≤ a ∧ a < w.1 + es

/-! ## Copying buffers: the elements of a buffer -/

/-- Modelled from the spec: the offset in bytes of the element at an index, the sum of
`flat_offset_bytes` of the dims, which is `(i - min) * stride` for a dim that is not folded.
An index has one entry per dim. -/
def dim.offsets : List dim → List Int → Int
  | d :: ds, x :: xs => (x - d.min) * d.stride + dim.offsets ds xs
  | _, _ => 0

/-- Modelled from the spec: `raw_buffer::address_at(i)`, the address of the element at index
`i`, for dims that are not folded. -/
def raw_buffer.address_at (b : raw_buffer) (i : List Int) : Int := b.base + dim.offsets b.dims i

/-- An index lies within the dims: it has one entry per dim, each within `[min, max]`. -/
def dim.contain : List dim → List Int → Prop
  | [], [] => True
  | d :: ds, x :: xs => (d.min ≤ x ∧ x ≤ d.max) ∧ dim.contain ds xs
  | _, _ => False

instance dim.contain_decidable : ∀ (ds : List dim) (xs : List Int), Decidable (dim.contain ds xs)
  | [], [] => isTrue trivial
  | [], _ :: _ => isFalse (fun h => h)
  | _ :: _, [] => isFalse (fun h => h)
  | d :: ds, x :: xs =>
    have : Decidable (dim.contain ds xs) := dim.contain_decidable ds xs
    (inferInstance : Decidable ((d.min ≤ x ∧ x ≤ d.max) ∧ dim.contain ds xs))

/-- Modelled from the spec: `raw_buffer::contains(i)`. -/
def raw_buffer.contains (b : raw_buffer) (i : List Int) : Prop := dim.contain b.dims i

instance (b : raw_buffer) (i : List Int) : Decidable (b.contains i) := by
  unfold raw_buffer.contains; exact inferInstance

/-- The addresses `as` repeated along one more dim. -/
def dim.spread (as : List Int) (d : dim) : List Int :=
  (List.range d.extent.toNat).flatMap (fun (j : Nat) => as.map (fun a => a + (j : Int) * d.stride))

/-- The addresses of all the elements of a buffer whose dims are not folded, the first dim
innermost. -/
def raw_buffer.addresses (b : raw_buffer) : List Int := b.dims.foldl dim.spread [b.base]

/-- The number of elements of a buffer, where a dim without elements counts as one. -/
def raw_buffer.volume (b : raw_buffer) : Int := (b.dims.map (fun d => Max.max 1 d.extent)).prod

/-- What the analysis of `copy` needs of a dim of src and the same dim of dst: `min` and `max`
are `index_t` values with `min <= max + 1`, and neither `max + 1`, nor the extents, nor the
byte extents (an extent times a stride) overflow `index_t`. -/
def copy.ranges_ok (s d : dim) : Prop :=
  s.fits ∧ d.fits ∧ s.max < index_t_max ∧ d.max < index_t_max ∧
  s.min ≤ s.max + 1 ∧ d.min ≤ d.max + 1 ∧
  s.max - s.min + 1 ≤ index_t_max ∧ d.max - d.min + 1 ≤ index_t_max ∧
  fits_index_t ((d.max - d.min + 1) * d.stride) ∧
  fits_index_t ((d.max - d.min + 1) * s.stride) ∧
  fits_index_t ((s.max - s.min + 1) * s.stride)

instance (s d : dim) : Decidable (copy.ranges_ok s d) := by
  unfold copy.ranges_ok; exact inferInstance

/-- The buffers have the same rank, and every dim of src with the same dim of dst satisfies
`copy.ranges_ok`. -/
def copy.ranges_ok_all : List dim → List dim → Prop
  | [], [] => True
  | s :: ss, d :: ds => copy.ranges_ok s d ∧ copy.ranges_ok_all ss ds
  | _, _ => False

instance copy.ranges_ok_all_decidable : ∀ (ss ds : List dim), Decidable (copy.ranges_ok_all ss ds)
  | [], [] => isTrue trivial
  | [], _ :: _ => isFalse (fun h => h)
  | _ :: _, [] => isFalse (fun h => h)
  | s :: ss, d :: ds =>
    have : Decidable (copy.ranges_ok_all ss ds) := copy.ranges_ok_all_decidable ss ds
    (inferInstance : Decidable (copy.ranges_ok s d ∧ copy.ranges_ok_all ss ds))

/-- The cell `c` moved to index `js[k]` of every dim `k`. -/
def copy.shift_all : List copy_dim → List Nat → Int × Option Int → Int × Option Int
  | d :: l, j :: js, c => copy.shift_all l js (d.shift j c)
  | _, _, c => c

/-! ## Structural equality is decidable -/

mutual
/-- The structural comparison `expr.beq` decides equality of expressions. -/
theorem expr.beq_iff : ∀ (a b : expr), expr.beq a b = true ↔ a = b
  | .var _, b => by cases b <;> simp [expr.beq]
  | .wildcard _, b => by cases b <;> simp [expr.beq]
  | .constant _, b => by cases b <;> simp [expr.beq]
  | .let_ s v c, b => by
    cases b <;> simp [expr.beq, expr.beq_iff v, expr.beq_iff c, and_assoc]
  | .add a1 a2, b => by
    cases b <;> simp [expr.beq, expr.beq_iff a1, expr.beq_iff a2]
  | .sub a1 a2, b => by
    cases b <;> simp [expr.beq, expr.beq_iff a1, expr.beq_iff a2]
  | .mul a1 a2, b => by
    cases b <;> simp [expr.beq, expr.beq_iff a1, expr.beq_iff a2]
  | .div a1 a2, b => by
    cases b <;> simp [expr.beq, expr.beq_iff a1, expr.beq_iff a2]
  | .mod a1 a2, b => by
    cases b <;> simp [expr.beq, expr.beq_iff a1, expr.beq_iff a2]
  | .min a1 a2, b => by
    cases b <;> simp [expr.beq, expr.beq_iff a1, expr.beq_iff a2]
  | .max a1 a2, b => by
    cases b <;> simp [expr.beq, expr.beq_iff a1, expr.beq_iff a2]
  | .equal a1 a2, b => by
    cases b <;> simp [expr.beq, expr.beq_iff a1, expr.beq_iff a2]
  | .not_equal a1 a2, b => by
    cases b <;> simp [expr.beq, expr.beq_iff a1, expr.beq_iff a2]
  | .less a1 a2, b => by
    cases b <;> simp [expr.beq, expr.beq_iff a1, expr.beq_iff a2]
  | .less_equal a1 a2, b => by
    cases b <;> simp [expr.beq, expr.beq_iff a1, expr.beq_iff a2]
  | .logical_and a1 a2, b => by
    cases b <;> simp [expr.beq, expr.beq_iff a1, expr.beq_iff a2]
  | .logical_or a1 a2, b => by
    cases b <;> simp [expr.beq, expr.beq_iff a1, expr.beq_iff a2]
  | .logical_not a1, b => by
    cases b <;> simp [expr.beq, expr.beq_iff a1]
  | .select a1 a2 a3, b => by
    cases b <;> simp [expr.beq, expr.beq_iff a1, expr.beq_iff a2, expr.beq_iff a3, and_assoc]
  | .call f as, b => by
    cases b <;> simp [expr.beq, expr.beq_list_iff as]
/-- The structural comparison `expr.beq_list` decides equality of argument lists. -/
theorem expr.beq_list_iff : ∀ (as bs : List expr), expr.beq_list as bs = true ↔ as = bs
  | [], bs => by cases bs <;> simp [expr.beq_list]
  | a :: as, bs => by
    cases bs <;> simp [expr.beq_list, expr.beq_iff a, expr.beq_list_iff as]
end

instance : DecidableEq expr := fun a b =>
  decidable_of_iff (expr.beq a b = true) (expr.beq_iff a b)

/-! ## Facts about symbol_map -/

theorem symbol_map.lookup_nil {T : Type} (k : Nat) : symbol_map.lookup ([] : symbol_map T) k = none := by
  simp [symbol_map.lookup]

theorem symbol_map.lookup_eq_getElem? {T : Type} (m : symbol_map T) (k : Nat) :
    symbol_map.lookup m k = (m[k]?).join := by
  unfold symbol_map.lookup
  by_cases h : k < m.length
  · simp [h, List.getD_eq_getElem?_getD, List.getElem?_eq_getElem h]
  · simp [h, List.getElem?_eq_none (Nat.le_of_not_lt h)]

theorem symbol_map.lookup_set {T : Type} (m : symbol_map T) (n k : Nat) (v : Option T) :
    symbol_map.lookup (symbol_map.set m n v) k = if k = n then v else symbol_map.lookup m k := by
  simp only [symbol_map.lookup_eq_getElem?]
  unfold symbol_map.set
  cases v with
  | none =>
    by_cases h : n < m.length
    · simp only [h, if_true, List.getElem?_set]
      by_cases hk : k = n
      · subst hk; simp [h]
      · simp [hk, Ne.symm hk]
    · simp only [h, if_false]
      by_cases hk : k = n
      · subst hk; simp [List.getElem?_eq_none (Nat.le_of_not_lt h)]
      · simp [hk]
  | some w =>
    by_cases h : n < m.length
    · simp only [h, if_true, List.getElem?_set]
      by_cases hk : k = n
      · subst hk; simp [h]
      · simp [hk, Ne.symm hk]
    · simp only [h, if_false, List.getElem?_set]
      have hlen : n < (m ++ List.replicate (Nat.max (m.length * 2) (n + 1) - m.length) none).length := by
        simp only [List.length_append, List.length_replicate]
        have : n + 1 ≤ Nat.max (m.length * 2) (n + 1) := Nat.le_max_right _ _
        omega
      by_cases hk : k = n
      · subst hk
        simp only [List.length_append, List.length_replicate] at hlen
        simp [hlen]
      · simp only [hk, Ne.symm hk, if_false]
        by_cases hkm : k < m.length
        · simp [List.getElem?_append_left hkm]
        · have hkm' : m.length ≤ k := Nat.le_of_not_lt hkm
          rw [List.getElem?_append_right hkm', List.getElem?_eq_none hkm']
          by_cases hr : k - m.length < Nat.max (m.length * 2) (n + 1) - m.length
          · simp [List.getElem?_replicate, hr]
          · simp [List.getElem?_replicate, hr]

/-! ## A larger budget never changes a result: proofs -/

theorem simplifier.mutate_pair_mono {f g : expr → symbol_map Int → mutated}
    (hfg : simplifier.extends_ f g) (a b : expr) (r : symbol_map Int)
    (x : expr × expr × symbol_map Int)
    (h : simplifier.mutate_pair f a b r = some x) : simplifier.mutate_pair g a b r = some x := by
  unfold simplifier.mutate_pair at h ⊢
  cases ha : f a r with
  | none => simp [ha] at h
  | some p =>
    obtain ⟨a', r1⟩ := p
    rw [ha] at h
    rw [hfg _ _ _ ha]
    simp only at h ⊢
    cases hb : f b r1 with
    | none => simp [hb] at h
    | some q =>
      obtain ⟨b', r2⟩ := q
      rw [hb] at h
      rw [hfg _ _ _ hb]
      exact h

theorem simplifier.mutate_list_mono {f g : expr → symbol_map Int → mutated}
    (hfg : simplifier.extends_ f g) :
    ∀ (as : List expr) (r : symbol_map Int) (x : List expr × symbol_map Int),
      simplifier.mutate_list f as r = some x → simplifier.mutate_list g as r = some x
  | [], r, x, h => by simpa [simplifier.mutate_list] using h
  | a :: as, r, x, h => by
    unfold simplifier.mutate_list at h ⊢
    cases ha : f a r with
    | none => simp [ha] at h
    | some p =>
      obtain ⟨a', r1⟩ := p
      rw [ha] at h
      rw [hfg _ _ _ ha]
      simp only at h ⊢
      cases hb : simplifier.mutate_list f as r1 with
      | none => simp [hb] at h
      | some q =>
        obtain ⟨as', r2⟩ := q
        rw [hb] at h
        rw [simplifier.mutate_list_mono hfg as r1 _ hb]
        exact h

theorem simplifier.can_prove_with_mono {f g : expr → symbol_map Int → mutated}
    (hfg : simplifier.extends_ f g) (e : expr) (b : Bool)
    (h : simplifier.can_prove_with f e = some b) : simplifier.can_prove_with g e = some b := by
  unfold simplifier.can_prove_with at h ⊢
  cases ha : f e [] with
  | none => simp [ha] at h
  | some p =>
    obtain ⟨a', r1⟩ := p
    rw [ha] at h
    rw [hfg _ _ _ ha]
    exact h

theorem simplifier.apply_rules_mono {f g : expr → symbol_map Int → mutated}
    (hfg : simplifier.extends_ f g) :
    ∀ (rules : List rule) (e : expr) (r : symbol_map Int) (x : expr × symbol_map Int),
      simplifier.apply_rules f rules e r = some x → simplifier.apply_rules g rules e r = some x
  | [], e, r, x, h => by simpa [simplifier.apply_rules] using h
  | rl :: rules, e, r, x, h => by
    unfold simplifier.apply_rules at h ⊢
    cases hm : match_ rl.pattern e [] with
    | none =>
      rw [hm] at h
      exact simplifier.apply_rules_mono hfg rules e r x h
    | some mt =>
      rw [hm] at h
      simp only at h ⊢
      cases hp : rl.predicate with
      | none =>
        rw [hp] at h
        exact hfg _ _ _ h
      | some pr =>
        rw [hp] at h
        simp only at h ⊢
        cases hc : simplifier.can_prove_with f (substitute pr mt) with
        | none => simp [hc] at h
        | some b =>
          rw [hc] at h
          rw [simplifier.can_prove_with_mono hfg _ _ hc]
          cases b with
          | true => exact hfg _ _ _ h
          | false => exact simplifier.apply_rules_mono hfg rules e r x h

theorem simplifier.visit_let_mono {f g : expr → symbol_map Int → mutated}
    (hfg : simplifier.extends_ f g) (name : Nat) (value body : expr) (r : symbol_map Int)
    (x : expr × symbol_map Int)
    (h : simplifier.visit_let f name value body r = some x) :
    simplifier.visit_let g name value body r = some x := by
  unfold simplifier.visit_let simplifier.visit_let_template at h ⊢
  cases ha : f value r with
  | none => simp [ha] at h
  | some p =>
    obtain ⟨a', r1⟩ := p
    rw [ha] at h
    rw [hfg _ _ _ ha]
    simp only at h ⊢
    cases hb : f body (symbol_map.set r1 name (some 0)) with
    | none => simp [hb] at h
    | some q =>
      obtain ⟨b', r2⟩ := q
      rw [hb] at h
      rw [hfg _ _ _ hb]
      exact h

theorem simplifier.visit_mono {f g : expr → symbol_map Int → mutated}
    (hfg : simplifier.extends_ f g) : simplifier.extends_ (simplifier.visit f) (simplifier.visit g) := by
  intro e r x h
  cases e with
  | var s => exact h
  | wildcard s => exact h
  | constant v => exact h
  | let_ s v b => exact simplifier.visit_let_mono hfg s v b r x h
  | logical_not a =>
    simp only [simplifier.visit] at h ⊢
    cases ha : f a r with
    | none => simp [ha] at h
    | some p => rw [ha] at h; rw [hfg _ _ _ ha]; exact h
  | select c t e =>
    simp only [simplifier.visit] at h ⊢
    cases ha : f c r with
    | none => simp [ha] at h
    | some p =>
      obtain ⟨c', r1⟩ := p
      rw [ha] at h; rw [hfg _ _ _ ha]
      simp only at h ⊢
      cases hb : simplifier.mutate_pair f t e r1 with
      | none => simp [hb] at h
      | some q => rw [hb] at h; rw [simplifier.mutate_pair_mono hfg _ _ _ _ hb]; exact h
  | call fn args =>
    simp only [simplifier.visit] at h ⊢
    cases ha : simplifier.mutate_list f args r with
    | none => simp [ha] at h
    | some p => rw [ha] at h; rw [simplifier.mutate_list_mono hfg _ _ _ ha]; exact h
  | min a b | max a b | add a b | sub a b =>
    simp only [simplifier.visit] at h ⊢
    cases hb : simplifier.mutate_pair f a b r with
    | none => simp [hb] at h
    | some q =>
      obtain ⟨a', b', r2⟩ := q
      rw [hb] at h; rw [simplifier.mutate_pair_mono hfg _ _ _ _ hb]
      simp only at h ⊢
      cases hca : is_constant a' with
      | none =>
        rw [hca] at h
        exact simplifier.apply_rules_mono hfg _ _ _ _ h
      | some ca =>
        cases hcb : is_constant b' with
        | none =>
          rw [hca, hcb] at h
          exact simplifier.apply_rules_mono hfg _ _ _ _ h
        | some cb =>
          rw [hca, hcb] at h
          exact h
  | less a b | mul a b | div a b | mod a b | equal a b | not_equal a b | less_equal a b
  | logical_and a b | logical_or a b =>
    simp only [simplifier.visit] at h ⊢
    cases hb : simplifier.mutate_pair f a b r with
    | none => simp [hb] at h
    | some q => rw [hb] at h; rw [simplifier.mutate_pair_mono hfg _ _ _ _ hb]; exact h

theorem simplifier.mutate_mono_succ : ∀ (n : Nat),
    simplifier.extends_ (simplifier.mutate n) (simplifier.mutate (n + 1))
  | 0 => by intro e r x h; simp [simplifier.mutate] at h
  | n + 1 => by
    intro e r x h
    exact simplifier.visit_mono (simplifier.mutate_mono_succ n) e r x h

theorem simplifier.mutate_mono {n m : Nat} (hnm : n ≤ m) (e : expr) (r : symbol_map Int)
    (x : expr × symbol_map Int) (h : simplifier.mutate n e r = some x) :
    simplifier.mutate m e r = some x := by
  induction hnm with
  | refl => exact h
  | step _ ih => exact simplifier.mutate_mono_succ _ e r x ih

theorem simplify_mono {n m : Nat} (hnm : n ≤ m) (e e' : expr)
    (h : simplify n e = some e') : simplify m e = some e' := by
  unfold simplify at h ⊢
  cases hm : simplifier.mutate n e [] with
  | none => simp [hm] at h
  | some p =>
    rw [hm] at h
    rw [simplifier.mutate_mono hnm e [] p hm]
    exact h

theorem can_prove_mono {n m : Nat} (hnm : n ≤ m) (e : expr) (b : Bool)
    (h : can_prove n e = some b) : can_prove m e = some b :=
  simplifier.can_prove_with_mono (fun e r x hx => simplifier.mutate_mono hnm e r x hx) e b h

/-! ## Reference counts never get lost: proofs -/

theorem simplifier.keeps_pair {f : expr → symbol_map Int → mutated} (hf : simplifier.keeps f)
    (a b : expr) (r : symbol_map Int) (x : expr × expr × symbol_map Int) (s : Nat) (c : Int)
    (h : simplifier.mutate_pair f a b r = some x) (hc : r.lookup s = some c) :
    ∃ c', x.2.2.lookup s = some c' ∧ c ≤ c' := by
  unfold simplifier.mutate_pair at h
  cases ha : f a r with
  | none => simp [ha] at h
  | some p =>
    obtain ⟨a', r1⟩ := p
    rw [ha] at h
    simp only at h
    obtain ⟨c1, h1, l1⟩ := hf a r _ s c ha hc
    cases hb : f b r1 with
    | none => simp [hb] at h
    | some q =>
      obtain ⟨b', r2⟩ := q
      rw [hb] at h
      simp only [Option.some.injEq] at h
      subst h
      obtain ⟨c2, h2, l2⟩ := hf b r1 _ s c1 hb h1
      exact ⟨c2, h2, Int.le_trans l1 l2⟩

theorem simplifier.keeps_list {f : expr → symbol_map Int → mutated} (hf : simplifier.keeps f) :
    ∀ (as : List expr) (r : symbol_map Int) (x : List expr × symbol_map Int) (s : Nat) (c : Int),
      simplifier.mutate_list f as r = some x → r.lookup s = some c →
      ∃ c', x.2.lookup s = some c' ∧ c ≤ c'
  | [], r, x, s, c, h, hc => by
    simp only [simplifier.mutate_list, Option.some.injEq] at h
    subst h
    exact ⟨c, hc, Int.le_refl _⟩
  | a :: as, r, x, s, c, h, hc => by
    unfold simplifier.mutate_list at h
    cases ha : f a r with
    | none => simp [ha] at h
    | some p =>
      obtain ⟨a', r1⟩ := p
      rw [ha] at h
      simp only at h
      obtain ⟨c1, h1, l1⟩ := hf a r _ s c ha hc
      cases hb : simplifier.mutate_list f as r1 with
      | none => simp [hb] at h
      | some q =>
        obtain ⟨as', r2⟩ := q
        rw [hb] at h
        simp only [Option.some.injEq] at h
        subst h
        obtain ⟨c2, h2, l2⟩ := simplifier.keeps_list hf as r1 _ s c1 hb h1
        exact ⟨c2, h2, Int.le_trans l1 l2⟩

theorem simplifier.keeps_apply_rules {f : expr → symbol_map Int → mutated}
    (hf : simplifier.keeps f) :
    ∀ (rules : List rule) (e : expr) (r : symbol_map Int) (x : expr × symbol_map Int) (s : Nat)
      (c : Int), simplifier.apply_rules f rules e r = some x → r.lookup s = some c →
      ∃ c', x.2.lookup s = some c' ∧ c ≤ c'
  | [], e, r, x, s, c, h, hc => by
    simp only [simplifier.apply_rules, Option.some.injEq] at h
    subst h
    exact ⟨c, hc, Int.le_refl _⟩
  | rl :: rules, e, r, x, s, c, h, hc => by
    unfold simplifier.apply_rules at h
    cases hm : match_ rl.pattern e [] with
    | none =>
      rw [hm] at h
      exact simplifier.keeps_apply_rules hf rules e r x s c h hc
    | some mt =>
      rw [hm] at h
      simp only at h
      cases hp : rl.predicate with
      | none =>
        rw [hp] at h
        exact hf _ _ _ s c h hc
      | some pr =>
        rw [hp] at h
        simp only at h
        cases hcp : simplifier.can_prove_with f (substitute pr mt) with
        | none => simp [hcp] at h
        | some b =>
          rw [hcp] at h
          cases b with
          | true => exact hf _ _ _ s c h hc
          | false => exact simplifier.keeps_apply_rules hf rules e r x s c h hc

/-- What `visit_let` returns, for any body type, once the value and the body have been
mutated: the body's reference count of `name` is set, and it alone chooses between the
body, the body with the value substituted, and a rebuilt let. -/
theorem simplifier.visit_let_template_eq {β : Type} (mutate : expr → symbol_map Int → mutated)
    (mutate_body : β → symbol_map Int → Option (β × symbol_map Int))
    (substitute_body : β → bindings → β) (make : Nat → expr → β → β) (name : Nat)
    (value : expr) (body : β) (r r1 r2 : symbol_map Int) (v : expr) (b : β) (refs : Int)
    (hv : mutate value r = some (v, r1))
    (hb : mutate_body body (r1.set name (some 0)) = some (b, r2))
    (hr : r2.lookup name = some refs) :
    simplifier.visit_let_template mutate mutate_body substitute_body make name value body r =
      some (if refs = 0 then b
            else if refs = 1 ∨ (is_constant v).isSome ∨ is_variable v ∨ is_load_buffer_meta v then
              substitute_body b [(name, v)]
            else make name v b,
            r2.set name (r1.lookup name)) := by
  simp only [simplifier.visit_let_template, hv, hb, hr]
  split_ifs <;> rfl

theorem simplifier.keeps_visit_let {f : expr → symbol_map Int → mutated} (hf : simplifier.keeps f)
    (name : Nat) (value body : expr) (r : symbol_map Int) (x : expr × symbol_map Int) (s : Nat)
    (c : Int) (h : simplifier.visit_let f name value body r = some x)
    (hc : r.lookup s = some c) : ∃ c', x.2.lookup s = some c' ∧ c ≤ c' := by
  unfold simplifier.visit_let simplifier.visit_let_template at h
  cases ha : f value r with
  | none => simp [ha] at h
  | some p =>
    obtain ⟨v, r1⟩ := p
    rw [ha] at h
    simp only at h
    obtain ⟨c1, h1, l1⟩ := hf value r _ s c ha hc
    cases hb : f body (symbol_map.set r1 name (some 0)) with
    | none => simp [hb] at h
    | some q =>
      obtain ⟨b, r2⟩ := q
      rw [hb] at h
      simp only at h
      cases hr : symbol_map.lookup r2 name with
      | none => simp [hr] at h
      | some refs =>
        rw [hr] at h
        simp only at h
        have hx : x.2 = symbol_map.set r2 name (symbol_map.lookup r1 name) := by
          split_ifs at h <;> (simp only [Option.some.injEq] at h; rw [← h])
        rw [hx, symbol_map.lookup_set]
        by_cases hs : s = name
        · subst hs
          simp only [if_true]
          exact ⟨c1, h1, l1⟩
        · simp only [hs, if_false]
          have h1' : symbol_map.lookup (symbol_map.set r1 name (some 0)) s = some c1 := by
            rw [symbol_map.lookup_set]; simp [hs, h1]
          obtain ⟨c2, h2, l2⟩ := hf body _ _ s c1 hb h1'
          exact ⟨c2, h2, Int.le_trans l1 l2⟩

theorem simplifier.keeps_visit {f : expr → symbol_map Int → mutated} (hf : simplifier.keeps f) :
    simplifier.keeps (simplifier.visit f) := by
  intro e r x s c h hc
  cases e with
  | var name =>
    simp only [simplifier.visit] at h
    cases hl : symbol_map.lookup r name with
    | none =>
      rw [hl] at h
      simp only [Option.some.injEq] at h
      subst h
      simp only [symbol_map.lookup_set]
      by_cases hs : s = name
      · subst hs; rw [hl] at hc; cases hc
      · simp only [hs, if_false]; exact ⟨c, hc, Int.le_refl _⟩
    | some k =>
      rw [hl] at h
      simp only [Option.some.injEq] at h
      subst h
      simp only [symbol_map.lookup_set]
      by_cases hs : s = name
      · subst hs
        rw [hl] at hc
        simp only [Option.some.injEq] at hc
        subst hc
        simp only [if_true]
        exact ⟨_, rfl, by omega⟩
      · simp only [hs, if_false]; exact ⟨c, hc, Int.le_refl _⟩
  | wildcard w =>
    simp only [simplifier.visit, Option.some.injEq] at h
    subst h; exact ⟨c, hc, Int.le_refl _⟩
  | constant v =>
    simp only [simplifier.visit, Option.some.injEq] at h
    subst h; exact ⟨c, hc, Int.le_refl _⟩
  | let_ name v b => exact simplifier.keeps_visit_let hf name v b r x s c h hc
  | logical_not a =>
    simp only [simplifier.visit] at h
    cases ha : f a r with
    | none => simp [ha] at h
    | some p =>
      obtain ⟨a', r1⟩ := p
      rw [ha] at h
      simp only [Option.some.injEq] at h
      subst h
      exact hf a r (a', r1) s c ha hc
  | select cnd t e =>
    simp only [simplifier.visit] at h
    cases ha : f cnd r with
    | none => simp [ha] at h
    | some p =>
      obtain ⟨c', r1⟩ := p
      rw [ha] at h
      simp only at h
      obtain ⟨c1, h1, l1⟩ := hf cnd r _ s c ha hc
      cases hb : simplifier.mutate_pair f t e r1 with
      | none => simp [hb] at h
      | some q =>
        rw [hb] at h
        simp only [Option.some.injEq] at h
        subst h
        obtain ⟨c2, h2, l2⟩ := simplifier.keeps_pair hf t e r1 _ s c1 hb h1
        exact ⟨c2, h2, Int.le_trans l1 l2⟩
  | call fn args =>
    simp only [simplifier.visit] at h
    cases ha : simplifier.mutate_list f args r with
    | none => simp [ha] at h
    | some p =>
      rw [ha] at h
      simp only [Option.some.injEq] at h
      subst h
      exact simplifier.keeps_list hf args r _ s c ha hc
  | min a b | max a b | add a b | sub a b =>
    simp only [simplifier.visit] at h
    cases hb : simplifier.mutate_pair f a b r with
    | none => simp [hb] at h
    | some q =>
      obtain ⟨a', b', r2⟩ := q
      rw [hb] at h
      simp only at h
      obtain ⟨c1, h1, l1⟩ := simplifier.keeps_pair hf a b r _ s c hb hc
      have hrules : ∀ rules e, simplifier.apply_rules f rules e r2 = some x →
          ∃ c', x.2.lookup s = some c' ∧ c ≤ c' := by
        intro rules e hr
        obtain ⟨c2, h2, l2⟩ := simplifier.keeps_apply_rules hf rules e r2 x s c1 hr h1
        exact ⟨c2, h2, Int.le_trans l1 l2⟩
      cases hca : is_constant a' with
      | none =>
        rw [hca] at h
        exact hrules _ _ h
      | some ca =>
        cases hcb : is_constant b' with
        | none =>
          rw [hca, hcb] at h
          exact hrules _ _ h
        | some cb =>
          rw [hca, hcb] at h
          simp only [Option.some.injEq] at h
          subst h
          exact ⟨c1, h1, l1⟩
  | less a b =>
    simp only [simplifier.visit] at h
    cases hb : simplifier.mutate_pair f a b r with
    | none => simp [hb] at h
    | some q =>
      obtain ⟨a', b', r2⟩ := q
      rw [hb] at h
      simp only at h
      obtain ⟨c1, h1, l1⟩ := simplifier.keeps_pair hf a b r _ s c hb hc
      have hx : x.2 = r2 := by
        split at h <;> (simp only [Option.some.injEq] at h; rw [← h])
      rw [hx]
      exact ⟨c1, h1, l1⟩
  | mul a b | div a b | mod a b | equal a b | not_equal a b | less_equal a b
  | logical_and a b | logical_or a b =>
    simp only [simplifier.visit] at h
    cases hb : simplifier.mutate_pair f a b r with
    | none => simp [hb] at h
    | some q =>
      rw [hb] at h
      simp only [Option.some.injEq] at h
      subst h
      exact simplifier.keeps_pair hf a b r _ s c hb hc

theorem simplifier.keeps_mutate : ∀ (n : Nat), simplifier.keeps (simplifier.mutate n)
  | 0 => by intro e r x s c h _; simp [simplifier.mutate] at h
  | n + 1 => simplifier.keeps_visit (simplifier.keeps_mutate n)

/-! ## The fragment on which the simplifier is sound: proofs -/

theorem bindings.le_refl (m : bindings) : bindings.le m m := fun _ _ h => h

theorem bindings.le_trans {m1 m2 m3 : bindings} (h12 : bindings.le m1 m2) (h23 : bindings.le m2 m3) :
    bindings.le m1 m3 := fun s t h => h23 s t (h12 s t h)

theorem expr.size_pos : ∀ e : expr, 0 < e.size := by
  intro e; cases e <;> simp [expr.size]

theorem expr.weight_pos : ∀ e : expr, 0 < e.weight := by
  intro e; cases e <;> simp only [expr.weight] <;> omega

mutual
/-- A plain expression has flat lets. -/
theorem expr.flat_lets_of_plain : ∀ (e : expr), e.plain = true → e.flat_lets = true
  | .var s, h => by simp [expr.flat_lets]
  | .wildcard s, h => by simp [expr.plain] at h
  | .constant v, h => by simp [expr.flat_lets]
  | .let_ n v b, h => by simp [expr.plain] at h
  | .add a b, h => by
    simp only [expr.plain, Bool.and_eq_true] at h
    simp [expr.flat_lets, expr.flat_lets_of_plain a h.1, expr.flat_lets_of_plain b h.2]
  | .sub a b, h => by
    simp only [expr.plain, Bool.and_eq_true] at h
    simp [expr.flat_lets, expr.flat_lets_of_plain a h.1, expr.flat_lets_of_plain b h.2]
  | .mul a b, h => by
    simp only [expr.plain, Bool.and_eq_true] at h
    simp [expr.flat_lets, expr.flat_lets_of_plain a h.1, expr.flat_lets_of_plain b h.2]
  | .div a b, h => by
    simp only [expr.plain, Bool.and_eq_true] at h
    simp [expr.flat_lets, expr.flat_lets_of_plain a h.1, expr.flat_lets_of_plain b h.2]
  | .mod a b, h => by
    simp only [expr.plain, Bool.and_eq_true] at h
    simp [expr.flat_lets, expr.flat_lets_of_plain a h.1, expr.flat_lets_of_plain b h.2]
  | .min a b, h => by
    simp only [expr.plain, Bool.and_eq_true] at h
    simp [expr.flat_lets, expr.flat_lets_of_plain a h.1, expr.flat_lets_of_plain b h.2]
  | .max a b, h => by
    simp only [expr.plain, Bool.and_eq_true] at h
    simp [expr.flat_lets, expr.flat_lets_of_plain a h.1, expr.flat_lets_of_plain b h.2]
  | .equal a b, h => by
    simp only [expr.plain, Bool.and_eq_true] at h
    simp [expr.flat_lets, expr.flat_lets_of_plain a h.1, expr.flat_lets_of_plain b h.2]
  | .not_equal a b, h => by
    simp only [expr.plain, Bool.and_eq_true] at h
    simp [expr.flat_lets, expr.flat_lets_of_plain a h.1, expr.flat_lets_of_plain b h.2]
  | .less a b, h => by
    simp only [expr.plain, Bool.and_eq_true] at h
    simp [expr.flat_lets, expr.flat_lets_of_plain a h.1, expr.flat_lets_of_plain b h.2]
  | .less_equal a b, h => by
    simp only [expr.plain, Bool.and_eq_true] at h
    simp [expr.flat_lets, expr.flat_lets_of_plain a h.1, expr.flat_lets_of_plain b h.2]
  | .logical_and a b, h => by
    simp only [expr.plain, Bool.and_eq_true] at h
    simp [expr.flat_lets, expr.flat_lets_of_plain a h.1, expr.flat_lets_of_plain b h.2]
  | .logical_or a b, h => by
    simp only [expr.plain, Bool.and_eq_true] at h
    simp [expr.flat_lets, expr.flat_lets_of_plain a h.1, expr.flat_lets_of_plain b h.2]
  | .logical_not a, h => by
    simp only [expr.plain] at h
    simp [expr.flat_lets, expr.flat_lets_of_plain a h]
  | .select c t f, h => by
    simp only [expr.plain, Bool.and_eq_true] at h
    simp [expr.flat_lets, expr.flat_lets_of_plain c h.1.1, expr.flat_lets_of_plain t h.1.2,
      expr.flat_lets_of_plain f h.2]
  | .call fn as, h => by
    simp only [expr.plain] at h
    simp [expr.flat_lets, expr.flat_lets_list_of_plain as h]
theorem expr.flat_lets_list_of_plain : ∀ (es : List expr), expr.plain_list es = true → expr.flat_lets_list es = true
  | [], h => by simp [expr.flat_lets_list]
  | a :: as, h => by
    simp only [expr.plain_list, Bool.and_eq_true] at h
    simp [expr.flat_lets_list, expr.flat_lets_of_plain a h.1, expr.flat_lets_list_of_plain as h.2]
end

mutual
/-- Setting a symbol that a plain expression does not mention does not change its value. -/
theorem eval_expr_set_unmentioned : ∀ (e : expr) (rt : buffer_runtime) (ctx : eval_context) (x : Nat) (w : Option Int),
    e.plain = true → expr.mentions x e = false →
    eval_expr rt e (ctx.set x w) = eval_expr rt e ctx
  | .var s, rt, ctx, x, w, hp, hm => by
    simp only [expr.mentions, decide_eq_false_iff_not] at hm
    simp [eval_expr, symbol_map.lookup_set, hm]
  | .wildcard s, rt, ctx, x, w, hp, hm => by simp [expr.plain] at hp
  | .constant v, rt, ctx, x, w, hp, hm => by simp [eval_expr]
  | .let_ n v b, rt, ctx, x, w, hp, hm => by simp [expr.plain] at hp
  | .add a b, rt, ctx, x, w, hp, hm => by
    simp only [expr.plain, Bool.and_eq_true] at hp
    simp only [expr.mentions, Bool.or_eq_false_iff] at hm
    simp only [eval_expr, eval_expr_set_unmentioned a rt ctx x w hp.1 hm.1,
      eval_expr_set_unmentioned b rt ctx x w hp.2 hm.2]
  | .sub a b, rt, ctx, x, w, hp, hm => by
    simp only [expr.plain, Bool.and_eq_true] at hp
    simp only [expr.mentions, Bool.or_eq_false_iff] at hm
    simp only [eval_expr, eval_expr_set_unmentioned a rt ctx x w hp.1 hm.1,
      eval_expr_set_unmentioned b rt ctx x w hp.2 hm.2]
  | .mul a b, rt, ctx, x, w, hp, hm => by
    simp only [expr.plain, Bool.and_eq_true] at hp
    simp only [expr.mentions, Bool.or_eq_false_iff] at hm
    simp only [eval_expr, eval_expr_set_unmentioned a rt ctx x w hp.1 hm.1,
      eval_expr_set_unmentioned b rt ctx x w hp.2 hm.2]
  | .div a b, rt, ctx, x, w, hp, hm => by
    simp only [expr.plain, Bool.and_eq_true] at hp
    simp only [expr.mentions, Bool.or_eq_false_iff] at hm
    simp only [eval_expr, eval_expr_set_unmentioned a rt ctx x w hp.1 hm.1,
      eval_expr_set_unmentioned b rt ctx x w hp.2 hm.2]
  | .mod a b, rt, ctx, x, w, hp, hm => by
    simp only [expr.plain, Bool.and_eq_true] at hp
    simp only [expr.mentions, Bool.or_eq_false_iff] at hm
    simp only [eval_expr, eval_expr_set_unmentioned a rt ctx x w hp.1 hm.1,
      eval_expr_set_unmentioned b rt ctx x w hp.2 hm.2]
  | .min a b, rt, ctx, x, w, hp, hm => by
    simp only [expr.plain, Bool.and_eq_true] at hp
    simp only [expr.mentions, Bool.or_eq_false_iff] at hm
    simp only [eval_expr, eval_expr_set_unmentioned a rt ctx x w hp.1 hm.1,
      eval_expr_set_unmentioned b rt ctx x w hp.2 hm.2]
  | .max a b, rt, ctx, x, w, hp, hm => by
    simp only [expr.plain, Bool.and_eq_true] at hp
    simp only [expr.mentions, Bool.or_eq_false_iff] at hm
    simp only [eval_expr, eval_expr_set_unmentioned a rt ctx x w hp.1 hm.1,
      eval_expr_set_unmentioned b rt ctx x w hp.2 hm.2]
  | .equal a b, rt, ctx, x, w, hp, hm => by
    simp only [expr.plain, Bool.and_eq_true] at hp
    simp only [expr.mentions, Bool.or_eq_false_iff] at hm
    simp only [eval_expr, eval_expr_set_unmentioned a rt ctx x w hp.1 hm.1,
      eval_expr_set_unmentioned b rt ctx x w hp.2 hm.2]
  | .not_equal a b, rt, ctx, x, w, hp, hm => by
    simp only [expr.plain, Bool.and_eq_true] at hp
    simp only [expr.mentions, Bool.or_eq_false_iff] at hm
    simp only [eval_expr, eval_expr_set_unmentioned a rt ctx x w hp.1 hm.1,
      eval_expr_set_unmentioned b rt ctx x w hp.2 hm.2]
  | .less a b, rt, ctx, x, w, hp, hm => by
    simp only [expr.plain, Bool.and_eq_true] at hp
    simp only [expr.mentions, Bool.or_eq_false_iff] at hm
    simp only [eval_expr, eval_expr_set_unmentioned a rt ctx x w hp.1 hm.1,
      eval_expr_set_unmentioned b rt ctx x w hp.2 hm.2]
  | .less_equal a b, rt, ctx, x, w, hp, hm => by
    simp only [expr.plain, Bool.and_eq_true] at hp
    simp only [expr.mentions, Bool.or_eq_false_iff] at hm
    simp only [eval_expr, eval_expr_set_unmentioned a rt ctx x w hp.1 hm.1,
      eval_expr_set_unmentioned b rt ctx x w hp.2 hm.2]
  | .logical_and a b, rt, ctx, x, w, hp, hm => by
    simp only [expr.plain, Bool.and_eq_true] at hp
    simp only [expr.mentions, Bool.or_eq_false_iff] at hm
    simp only [eval_expr, eval_expr_set_unmentioned a rt ctx x w hp.1 hm.1,
      eval_expr_set_unmentioned b rt ctx x w hp.2 hm.2]
  | .logical_or a b, rt, ctx, x, w, hp, hm => by
    simp only [expr.plain, Bool.and_eq_true] at hp
    simp only [expr.mentions, Bool.or_eq_false_iff] at hm
    simp only [eval_expr, eval_expr_set_unmentioned a rt ctx x w hp.1 hm.1,
      eval_expr_set_unmentioned b rt ctx x w hp.2 hm.2]
  | .logical_not a, rt, ctx, x, w, hp, hm => by
    simp only [expr.plain] at hp
    simp only [expr.mentions] at hm
    simp only [eval_expr, eval_expr_set_unmentioned a rt ctx x w hp hm]
  | .select c t f, rt, ctx, x, w, hp, hm => by
    simp only [expr.plain, Bool.and_eq_true] at hp
    simp only [expr.mentions, Bool.or_eq_false_iff] at hm
    simp only [eval_expr, eval_expr_set_unmentioned c rt ctx x w hp.1.1 hm.1.1,
      eval_expr_set_unmentioned t rt ctx x w hp.1.2 hm.1.2,
      eval_expr_set_unmentioned f rt ctx x w hp.2 hm.2]
  | .call fn as, rt, ctx, x, w, hp, hm => by
    simp only [expr.plain] at hp
    simp only [expr.mentions] at hm
    simp only [eval_expr, eval_expr_list_set_unmentioned as rt ctx x w hp hm]
theorem eval_expr_list_set_unmentioned : ∀ (es : List expr) (rt : buffer_runtime) (ctx : eval_context) (x : Nat) (w : Option Int),
    expr.plain_list es = true → expr.mentions_list x es = false →
    eval_expr_list rt es (ctx.set x w) = eval_expr_list rt es ctx
  | [], rt, ctx, x, w, hp, hm => by simp [eval_expr_list]
  | a :: as, rt, ctx, x, w, hp, hm => by
    simp only [expr.plain_list, Bool.and_eq_true] at hp
    simp only [expr.mentions_list, Bool.or_eq_false_iff] at hm
    simp only [eval_expr_list, eval_expr_set_unmentioned a rt ctx x w hp.1 hm.1,
      eval_expr_list_set_unmentioned as rt ctx x w hp.2 hm.2]
end

mutual
/-- Substituting `V` for `x` in a plain expression is evaluating it with `x` set to the value of `V`. -/
theorem eval_expr_substitute : ∀ (e : expr) (rt : buffer_runtime) (ctx : eval_context) (x : Nat) (V : expr) (w : Int),
    e.plain = true → eval_expr rt V ctx = some w →
    eval_expr rt (substitute e [(x, V)]) ctx = eval_expr rt e (ctx.set x (some w))
  | .var s, rt, ctx, x, V, w, hp, hV => by
    by_cases hs : s = x
    · subst hs
      simp [substitute, bindings.find, List.lookup, eval_expr, symbol_map.lookup_set, hV]
    · have hne : (s == x) = false := by simp [hs]
      simp [substitute, bindings.find, List.lookup, eval_expr, symbol_map.lookup_set, hs, hne]
  | .wildcard s, rt, ctx, x, V, w, hp, hV => by simp [expr.plain] at hp
  | .constant v, rt, ctx, x, V, w, hp, hV => by simp [eval_expr, substitute]
  | .let_ n v b, rt, ctx, x, V, w, hp, hV => by simp [expr.plain] at hp
  | .add a b, rt, ctx, x, V, w, hp, hV => by
    simp only [expr.plain, Bool.and_eq_true] at hp
    simp only [substitute, eval_expr, eval_expr_substitute a rt ctx x V w hp.1 hV,
      eval_expr_substitute b rt ctx x V w hp.2 hV]
  | .sub a b, rt, ctx, x, V, w, hp, hV => by
    simp only [expr.plain, Bool.and_eq_true] at hp
    simp only [substitute, eval_expr, eval_expr_substitute a rt ctx x V w hp.1 hV,
      eval_expr_substitute b rt ctx x V w hp.2 hV]
  | .mul a b, rt, ctx, x, V, w, hp, hV => by
    simp only [expr.plain, Bool.and_eq_true] at hp
    simp only [substitute, eval_expr, eval_expr_substitute a rt ctx x V w hp.1 hV,
      eval_expr_substitute b rt ctx x V w hp.2 hV]
  | .div a b, rt, ctx, x, V, w, hp, hV => by
    simp only [expr.plain, Bool.and_eq_true] at hp
    simp only [substitute, eval_expr, eval_expr_substitute a rt ctx x V w hp.1 hV,
      eval_expr_substitute b rt ctx x V w hp.2 hV]
  | .mod a b, rt, ctx, x, V, w, hp, hV => by
    simp only [expr.plain, Bool.and_eq_true] at hp
    simp only [substitute, eval_expr, eval_expr_substitute a rt ctx x V w hp.1 hV,
      eval_expr_substitute b rt ctx x V w hp.2 hV]
  | .min a b, rt, ctx, x, V, w, hp, hV => by
    simp only [expr.plain, Bool.and_eq_true] at hp
    simp only [substitute, eval_expr, eval_expr_substitute a rt ctx x V w hp.1 hV,
      eval_expr_substitute b rt ctx x V w hp.2 hV]
  | .max a b, rt, ctx, x, V, w, hp, hV => by
    simp only [expr.plain, Bool.and_eq_true] at hp
    simp only [substitute, eval_expr, eval_expr_substitute a rt ctx x V w hp.1 hV,
      eval_expr_substitute b rt ctx x V w hp.2 hV]
  | .equal a b, rt, ctx, x, V, w, hp, hV => by
    simp only [expr.plain, Bool.and_eq_true] at hp
    simp only [substitute, eval_expr, eval_expr_substitute a rt ctx x V w hp.1 hV,
      eval_expr_substitute b rt ctx x V w hp.2 hV]
  | .not_equal a b, rt, ctx, x, V, w, hp, hV => by
    simp only [expr.plain, Bool.and_eq_true] at hp
    simp only [substitute, eval_expr, eval_expr_substitute a rt ctx x V w hp.1 hV,
      eval_expr_substitute b rt ctx x V w hp.2 hV]
  | .less a b, rt, ctx, x, V, w, hp, hV => by
    simp only [expr.plain, Bool.and_eq_true] at hp
    simp only [substitute, eval_expr, eval_expr_substitute a rt ctx x V w hp.1 hV,
      eval_expr_substitute b rt ctx x V w hp.2 hV]
  | .less_equal a b, rt, ctx, x, V, w, hp, hV => by
    simp only [expr.plain, Bool.and_eq_true] at hp
    simp only [substitute, eval_expr, eval_expr_substitute a rt ctx x V w hp.1 hV,
      eval_expr_substitute b rt ctx x V w hp.2 hV]
  | .logical_and a b, rt, ctx, x, V, w, hp, hV => by
    simp only [expr.plain, Bool.and_eq_true] at hp
    simp only [substitute, eval_expr, eval_expr_substitute a rt ctx x V w hp.1 hV,
      eval_expr_substitute b rt ctx x V w hp.2 hV]
  | .logical_or a b, rt, ctx, x, V, w, hp, hV => by
    simp only [expr.plain, Bool.and_eq_true] at hp
    simp only [substitute, eval_expr, eval_expr_substitute a rt ctx x V w hp.1 hV,
      eval_expr_substitute b rt ctx x V w hp.2 hV]
  | .logical_not a, rt, ctx, x, V, w, hp, hV => by
    simp only [expr.plain] at hp
    simp only [substitute, eval_expr, eval_expr_substitute a rt ctx x V w hp hV]
  | .select c t f, rt, ctx, x, V, w, hp, hV => by
    simp only [expr.plain, Bool.and_eq_true] at hp
    simp only [substitute, eval_expr, eval_expr_substitute c rt ctx x V w hp.1.1 hV,
      eval_expr_substitute t rt ctx x V w hp.1.2 hV, eval_expr_substitute f rt ctx x V w hp.2 hV]
  | .call fn as, rt, ctx, x, V, w, hp, hV => by
    simp only [expr.plain] at hp
    simp only [substitute, eval_expr, eval_expr_list_substitute as rt ctx x V w hp hV]
theorem eval_expr_list_substitute : ∀ (es : List expr) (rt : buffer_runtime) (ctx : eval_context) (x : Nat) (V : expr) (w : Int),
    expr.plain_list es = true → eval_expr rt V ctx = some w →
    eval_expr_list rt (substitute_list es [(x, V)]) ctx = eval_expr_list rt es (ctx.set x (some w))
  | [], rt, ctx, x, V, w, hp, hV => by simp [eval_expr_list, substitute_list]
  | a :: as, rt, ctx, x, V, w, hp, hV => by
    simp only [expr.plain_list, Bool.and_eq_true] at hp
    simp only [substitute_list, eval_expr_list, eval_expr_substitute a rt ctx x V w hp.1 hV,
      eval_expr_list_substitute as rt ctx x V w hp.2 hV]
end

mutual
/-- Substituting into a plain expression keeps flat lets and plainness, and multiplies the
weight at most by the weight of what is substituted. -/
theorem substitute_plain_facts : ∀ (e : expr) (x : Nat) (V : expr), e.plain = true →
    (V.flat_lets = true → (substitute e [(x, V)]).flat_lets = true) ∧
    (V.plain = true → (substitute e [(x, V)]).plain = true) ∧
    (substitute e [(x, V)]).weight ≤ e.weight * V.weight
  | .var s, x, V, hp => by
    have := expr.weight_pos V
    by_cases hs : s = x
    · subst hs
      simp [substitute, bindings.find, List.lookup, expr.weight]
    · have hne : (s == x) = false := by simp [hs]
      simp only [substitute, bindings.find, List.lookup, hne, expr.flat_lets, expr.plain,
        expr.weight, implies_true, true_and]
      omega
  | .wildcard s, x, V, hp => by simp [expr.plain] at hp
  | .constant v, x, V, hp => by
    have := expr.weight_pos V
    simp only [substitute, expr.flat_lets, expr.plain, expr.weight, implies_true, true_and]
    omega
  | .let_ n v b, x, V, hp => by simp [expr.plain] at hp
  | .add a b, x, V, hp => by
    simp only [expr.plain, Bool.and_eq_true] at hp
    obtain ⟨a1, a2, a3⟩ := substitute_plain_facts a x V hp.1
    obtain ⟨b1, b2, b3⟩ := substitute_plain_facts b x V hp.2
    have := expr.weight_pos V
    refine ⟨fun h => ?_, fun h => ?_, ?_⟩
    · simp [substitute, expr.flat_lets, a1 h, b1 h]
    · simp [substitute, expr.plain, a2 h, b2 h]
    · simp only [substitute, expr.weight]
      nlinarith
  | .sub a b, x, V, hp => by
    simp only [expr.plain, Bool.and_eq_true] at hp
    obtain ⟨a1, a2, a3⟩ := substitute_plain_facts a x V hp.1
    obtain ⟨b1, b2, b3⟩ := substitute_plain_facts b x V hp.2
    have := expr.weight_pos V
    refine ⟨fun h => ?_, fun h => ?_, ?_⟩
    · simp [substitute, expr.flat_lets, a1 h, b1 h]
    · simp [substitute, expr.plain, a2 h, b2 h]
    · simp only [substitute, expr.weight]
      nlinarith
  | .mul a b, x, V, hp => by
    simp only [expr.plain, Bool.and_eq_true] at hp
    obtain ⟨a1, a2, a3⟩ := substitute_plain_facts a x V hp.1
    obtain ⟨b1, b2, b3⟩ := substitute_plain_facts b x V hp.2
    have := expr.weight_pos V
    refine ⟨fun h => ?_, fun h => ?_, ?_⟩
    · simp [substitute, expr.flat_lets, a1 h, b1 h]
    · simp [substitute, expr.plain, a2 h, b2 h]
    · simp only [substitute, expr.weight]
      nlinarith
  | .div a b, x, V, hp => by
    simp only [expr.plain, Bool.and_eq_true] at hp
    obtain ⟨a1, a2, a3⟩ := substitute_plain_facts a x V hp.1
    obtain ⟨b1, b2, b3⟩ := substitute_plain_facts b x V hp.2
    have := expr.weight_pos V
    refine ⟨fun h => ?_, fun h => ?_, ?_⟩
    · simp [substitute, expr.flat_lets, a1 h, b1 h]
    · simp [substitute, expr.plain, a2 h, b2 h]
    · simp only [substitute, expr.weight]
      nlinarith
  | .mod a b, x, V, hp => by
    simp only [expr.plain, Bool.and_eq_true] at hp
    obtain ⟨a1, a2, a3⟩ := substitute_plain_facts a x V hp.1
    obtain ⟨b1, b2, b3⟩ := substitute_plain_facts b x V hp.2
    have := expr.weight_pos V
    refine ⟨fun h => ?_, fun h => ?_, ?_⟩
    · simp [substitute, expr.flat_lets, a1 h, b1 h]
    · simp [substitute, expr.plain, a2 h, b2 h]
    · simp only [substitute, expr.weight]
      nlinarith
  | .min a b, x, V, hp => by
    simp only [expr.plain, Bool.and_eq_true] at hp
    obtain ⟨a1, a2, a3⟩ := substitute_plain_facts a x V hp.1
    obtain ⟨b1, b2, b3⟩ := substitute_plain_facts b x V hp.2
    have := expr.weight_pos V
    refine ⟨fun h => ?_, fun h => ?_, ?_⟩
    · simp [substitute, expr.flat_lets, a1 h, b1 h]
    · simp [substitute, expr.plain, a2 h, b2 h]
    · simp only [substitute, expr.weight]
      nlinarith
  | .max a b, x, V, hp => by
    simp only [expr.plain, Bool.and_eq_true] at hp
    obtain ⟨a1, a2, a3⟩ := substitute_plain_facts a x V hp.1
    obtain ⟨b1, b2, b3⟩ := substitute_plain_facts b x V hp.2
    have := expr.weight_pos V
    refine ⟨fun h => ?_, fun h => ?_, ?_⟩
    · simp [substitute, expr.flat_lets, a1 h, b1 h]
    · simp [substitute, expr.plain, a2 h, b2 h]
    · simp only [substitute, expr.weight]
      nlinarith
  | .equal a b, x, V, hp => by
    simp only [expr.plain, Bool.and_eq_true] at hp
    obtain ⟨a1, a2, a3⟩ := substitute_plain_facts a x V hp.1
    obtain ⟨b1, b2, b3⟩ := substitute_plain_facts b x V hp.2
    have := expr.weight_pos V
    refine ⟨fun h => ?_, fun h => ?_, ?_⟩
    · simp [substitute, expr.flat_lets, a1 h, b1 h]
    · simp [substitute, expr.plain, a2 h, b2 h]
    · simp only [substitute, expr.weight]
      nlinarith
  | .not_equal a b, x, V, hp => by
    simp only [expr.plain, Bool.and_eq_true] at hp
    obtain ⟨a1, a2, a3⟩ := substitute_plain_facts a x V hp.1
    obtain ⟨b1, b2, b3⟩ := substitute_plain_facts b x V hp.2
    have := expr.weight_pos V
    refine ⟨fun h => ?_, fun h => ?_, ?_⟩
    · simp [substitute, expr.flat_lets, a1 h, b1 h]
    · simp [substitute, expr.plain, a2 h, b2 h]
    · simp only [substitute, expr.weight]
      nlinarith
  | .less a b, x, V, hp => by
    simp only [expr.plain, Bool.and_eq_true] at hp
    obtain ⟨a1, a2, a3⟩ := substitute_plain_facts a x V hp.1
    obtain ⟨b1, b2, b3⟩ := substitute_plain_facts b x V hp.2
    have := expr.weight_pos V
    refine ⟨fun h => ?_, fun h => ?_, ?_⟩
    · simp [substitute, expr.flat_lets, a1 h, b1 h]
    · simp [substitute, expr.plain, a2 h, b2 h]
    · simp only [substitute, expr.weight]
      nlinarith
  | .less_equal a b, x, V, hp => by
    simp only [expr.plain, Bool.and_eq_true] at hp
    obtain ⟨a1, a2, a3⟩ := substitute_plain_facts a x V hp.1
    obtain ⟨b1, b2, b3⟩ := substitute_plain_facts b x V hp.2
    have := expr.weight_pos V
    refine ⟨fun h => ?_, fun h => ?_, ?_⟩
    · simp [substitute, expr.flat_lets, a1 h, b1 h]
    · simp [substitute, expr.plain, a2 h, b2 h]
    · simp only [substitute, expr.weight]
      nlinarith
  | .logical_and a b, x, V, hp => by
    simp only [expr.plain, Bool.and_eq_true] at hp
    obtain ⟨a1, a2, a3⟩ := substitute_plain_facts a x V hp.1
    obtain ⟨b1, b2, b3⟩ := substitute_plain_facts b x V hp.2
    have := expr.weight_pos V
    refine ⟨fun h => ?_, fun h => ?_, ?_⟩
    · simp [substitute, expr.flat_lets, a1 h, b1 h]
    · simp [substitute, expr.plain, a2 h, b2 h]
    · simp only [substitute, expr.weight]
      nlinarith
  | .logical_or a b, x, V, hp => by
    simp only [expr.plain, Bool.and_eq_true] at hp
    obtain ⟨a1, a2, a3⟩ := substitute_plain_facts a x V hp.1
    obtain ⟨b1, b2, b3⟩ := substitute_plain_facts b x V hp.2
    have := expr.weight_pos V
    refine ⟨fun h => ?_, fun h => ?_, ?_⟩
    · simp [substitute, expr.flat_lets, a1 h, b1 h]
    · simp [substitute, expr.plain, a2 h, b2 h]
    · simp only [substitute, expr.weight]
      nlinarith
  | .logical_not a, x, V, hp => by
    simp only [expr.plain] at hp
    obtain ⟨a1, a2, a3⟩ := substitute_plain_facts a x V hp
    have := expr.weight_pos V
    refine ⟨fun h => ?_, fun h => ?_, ?_⟩
    · simp [substitute, expr.flat_lets, a1 h]
    · simp [substitute, expr.plain, a2 h]
    · simp only [substitute, expr.weight]
      nlinarith
  | .select c t f, x, V, hp => by
    simp only [expr.plain, Bool.and_eq_true] at hp
    obtain ⟨a1, a2, a3⟩ := substitute_plain_facts c x V hp.1.1
    obtain ⟨b1, b2, b3⟩ := substitute_plain_facts t x V hp.1.2
    obtain ⟨c1, c2, c3⟩ := substitute_plain_facts f x V hp.2
    have := expr.weight_pos V
    refine ⟨fun h => ?_, fun h => ?_, ?_⟩
    · simp [substitute, expr.flat_lets, a1 h, b1 h, c1 h]
    · simp [substitute, expr.plain, a2 h, b2 h, c2 h]
    · simp only [substitute, expr.weight]
      nlinarith
  | .call fn as, x, V, hp => by
    simp only [expr.plain] at hp
    obtain ⟨a1, a2, a3⟩ := substitute_list_plain_facts as x V hp
    have := expr.weight_pos V
    refine ⟨fun h => ?_, fun h => ?_, ?_⟩
    · simp [substitute, expr.flat_lets, a1 h]
    · simp [substitute, expr.plain, a2 h]
    · simp only [substitute, expr.weight]
      nlinarith
theorem substitute_list_plain_facts : ∀ (es : List expr) (x : Nat) (V : expr), expr.plain_list es = true →
    (V.flat_lets = true → expr.flat_lets_list (substitute_list es [(x, V)]) = true) ∧
    (V.plain = true → expr.plain_list (substitute_list es [(x, V)]) = true) ∧
    expr.weight_list (substitute_list es [(x, V)]) ≤ expr.weight_list es * V.weight
  | [], x, V, hp => by simp [substitute_list, expr.flat_lets_list, expr.plain_list, expr.weight_list]
  | a :: as, x, V, hp => by
    simp only [expr.plain_list, Bool.and_eq_true] at hp
    obtain ⟨a1, a2, a3⟩ := substitute_plain_facts a x V hp.1
    obtain ⟨b1, b2, b3⟩ := substitute_list_plain_facts as x V hp.2
    refine ⟨fun h => ?_, fun h => ?_, ?_⟩
    · simp [substitute_list, expr.flat_lets_list, a1 h, b1 h]
    · simp [substitute_list, expr.plain_list, a2 h, b2 h]
    · simp only [substitute_list, expr.weight_list]
      nlinarith
end

mutual
theorem substitute_le : ∀ (p : expr) (m1 m2 : bindings), bindings.le m1 m2 →
    expr.bound_in p m1 = true → substitute p m2 = substitute p m1 ∧ expr.bound_in p m2 = true
  | .var s, m1, m2, hle, hb => by
    simp only [expr.bound_in, Option.isSome_iff_exists] at hb ⊢
    obtain ⟨t, ht⟩ := hb
    simp [substitute, ht, hle s t ht]
  | .constant v, m1, m2, hle, hb => by simp [substitute, expr.bound_in]
  | .add a b, m1, m2, hle, hb => by
    simp only [expr.bound_in, Bool.and_eq_true] at hb ⊢
    have ha := substitute_le a m1 m2 hle hb.1
    have hb' := substitute_le b m1 m2 hle hb.2
    simp [substitute, ha, hb']
  | .sub a b, m1, m2, hle, hb => by
    simp only [expr.bound_in, Bool.and_eq_true] at hb ⊢
    have ha := substitute_le a m1 m2 hle hb.1
    have hb' := substitute_le b m1 m2 hle hb.2
    simp [substitute, ha, hb']
  | .div a b, m1, m2, hle, hb => by
    simp only [expr.bound_in, Bool.and_eq_true] at hb ⊢
    have ha := substitute_le a m1 m2 hle hb.1
    have hb' := substitute_le b m1 m2 hle hb.2
    simp [substitute, ha, hb']
  | .min a b, m1, m2, hle, hb => by
    simp only [expr.bound_in, Bool.and_eq_true] at hb ⊢
    have ha := substitute_le a m1 m2 hle hb.1
    have hb' := substitute_le b m1 m2 hle hb.2
    simp [substitute, ha, hb']
  | .max a b, m1, m2, hle, hb => by
    simp only [expr.bound_in, Bool.and_eq_true] at hb ⊢
    have ha := substitute_le a m1 m2 hle hb.1
    have hb' := substitute_le b m1 m2 hle hb.2
    simp [substitute, ha, hb']
  | .call f as, m1, m2, hle, hb => by
    simp only [expr.bound_in] at hb ⊢
    have ha := substitute_list_le as m1 m2 hle hb
    simp [substitute, ha]
  | .wildcard _, _, _, _, hb => by simp [expr.bound_in] at hb
  | .let_ _ _ _, _, _, _, hb => by simp [expr.bound_in] at hb
  | .mul _ _, _, _, _, hb => by simp [expr.bound_in] at hb
  | .mod _ _, _, _, _, hb => by simp [expr.bound_in] at hb
  | .equal _ _, _, _, _, hb => by simp [expr.bound_in] at hb
  | .not_equal _ _, _, _, _, hb => by simp [expr.bound_in] at hb
  | .less _ _, _, _, _, hb => by simp [expr.bound_in] at hb
  | .less_equal _ _, _, _, _, hb => by simp [expr.bound_in] at hb
  | .logical_and _ _, _, _, _, hb => by simp [expr.bound_in] at hb
  | .logical_or _ _, _, _, _, hb => by simp [expr.bound_in] at hb
  | .logical_not _, _, _, _, hb => by simp [expr.bound_in] at hb
  | .select _ _ _, _, _, _, hb => by simp [expr.bound_in] at hb
theorem substitute_list_le : ∀ (ps : List expr) (m1 m2 : bindings), bindings.le m1 m2 →
    expr.bound_in_list ps m1 = true →
    substitute_list ps m2 = substitute_list ps m1 ∧ expr.bound_in_list ps m2 = true
  | [], m1, m2, hle, hb => by simp [substitute_list, expr.bound_in_list]
  | p :: ps, m1, m2, hle, hb => by
    simp only [expr.bound_in_list, Bool.and_eq_true] at hb ⊢
    have ha := substitute_le p m1 m2 hle hb.1
    have hb' := substitute_list_le ps m1 m2 hle hb.2
    simp [substitute_list, ha, hb']
end

theorem expr.similar_refl (e : expr) : expr.similar e e := ⟨rfl, rfl, rfl, fun _ _ => rfl⟩

theorem expr.similar_add {x1 x2 a b : expr} (h1 : expr.similar x1 a) (h2 : expr.similar x2 b) :
    expr.similar (.add x1 x2) (.add a b) := by
  obtain ⟨s1, p1, f1, e1⟩ := h1
  obtain ⟨s2, p2, f2, e2⟩ := h2
  refine ⟨by simp [expr.weight, s1, s2], by simp [expr.plain, p1, p2],
    by simp [expr.flat_lets, f1, f2], fun rt ctx => ?_⟩
  simp [eval_expr, e1, e2]

theorem expr.similar_add_swap {x1 x2 a b : expr} (h1 : expr.similar x1 b) (h2 : expr.similar x2 a) :
    expr.similar (.add x1 x2) (.add a b) := by
  obtain ⟨s1, p1, f1, e1⟩ := h1
  obtain ⟨s2, p2, f2, e2⟩ := h2
  refine ⟨by simp [expr.weight, s1, s2]; omega, by simp [expr.plain, p1, p2, Bool.and_comm],
    by simp [expr.flat_lets, f1, f2, Bool.and_comm], fun rt ctx => ?_⟩
  simp only [eval_expr, e1, e2]
  cases eval_expr rt a ctx <;> cases eval_expr rt b ctx <;> simp [Int.add_comm]

theorem expr.similar_sub {x1 x2 a b : expr} (h1 : expr.similar x1 a) (h2 : expr.similar x2 b) :
    expr.similar (.sub x1 x2) (.sub a b) := by
  obtain ⟨s1, p1, f1, e1⟩ := h1
  obtain ⟨s2, p2, f2, e2⟩ := h2
  refine ⟨by simp [expr.weight, s1, s2], by simp [expr.plain, p1, p2],
    by simp [expr.flat_lets, f1, f2], fun rt ctx => ?_⟩
  simp [eval_expr, e1, e2]

theorem expr.similar_div {x1 x2 a b : expr} (h1 : expr.similar x1 a) (h2 : expr.similar x2 b) :
    expr.similar (.div x1 x2) (.div a b) := by
  obtain ⟨s1, p1, f1, e1⟩ := h1
  obtain ⟨s2, p2, f2, e2⟩ := h2
  refine ⟨by simp [expr.weight, s1, s2], by simp [expr.plain, p1, p2],
    by simp [expr.flat_lets, f1, f2], fun rt ctx => ?_⟩
  simp [eval_expr, e1, e2]

theorem expr.similar_min {x1 x2 a b : expr} (h1 : expr.similar x1 a) (h2 : expr.similar x2 b) :
    expr.similar (.min x1 x2) (.min a b) := by
  obtain ⟨s1, p1, f1, e1⟩ := h1
  obtain ⟨s2, p2, f2, e2⟩ := h2
  refine ⟨by simp [expr.weight, s1, s2], by simp [expr.plain, p1, p2],
    by simp [expr.flat_lets, f1, f2], fun rt ctx => ?_⟩
  simp [eval_expr, e1, e2]

theorem expr.similar_min_swap {x1 x2 a b : expr} (h1 : expr.similar x1 b) (h2 : expr.similar x2 a) :
    expr.similar (.min x1 x2) (.min a b) := by
  obtain ⟨s1, p1, f1, e1⟩ := h1
  obtain ⟨s2, p2, f2, e2⟩ := h2
  refine ⟨by simp [expr.weight, s1, s2]; omega, by simp [expr.plain, p1, p2, Bool.and_comm],
    by simp [expr.flat_lets, f1, f2, Bool.and_comm], fun rt ctx => ?_⟩
  simp only [eval_expr, e1, e2]
  cases eval_expr rt a ctx <;> cases eval_expr rt b ctx <;> simp [min_comm]

theorem expr.similar_max {x1 x2 a b : expr} (h1 : expr.similar x1 a) (h2 : expr.similar x2 b) :
    expr.similar (.max x1 x2) (.max a b) := by
  obtain ⟨s1, p1, f1, e1⟩ := h1
  obtain ⟨s2, p2, f2, e2⟩ := h2
  refine ⟨by simp [expr.weight, s1, s2], by simp [expr.plain, p1, p2],
    by simp [expr.flat_lets, f1, f2], fun rt ctx => ?_⟩
  simp [eval_expr, e1, e2]

theorem expr.similar_max_swap {x1 x2 a b : expr} (h1 : expr.similar x1 b) (h2 : expr.similar x2 a) :
    expr.similar (.max x1 x2) (.max a b) := by
  obtain ⟨s1, p1, f1, e1⟩ := h1
  obtain ⟨s2, p2, f2, e2⟩ := h2
  refine ⟨by simp [expr.weight, s1, s2]; omega, by simp [expr.plain, p1, p2, Bool.and_comm],
    by simp [expr.flat_lets, f1, f2, Bool.and_comm], fun rt ctx => ?_⟩
  simp only [eval_expr, e1, e2]
  cases eval_expr rt a ctx <;> cases eval_expr rt b ctx <;> simp [max_comm]

theorem expr.similar_call {xs es : List expr} (f : intrinsic) (h : expr.similar_list xs es) :
    expr.similar (.call f xs) (.call f es) := by
  obtain ⟨s1, p1, f1, e1⟩ := h
  refine ⟨by simp [expr.weight, s1], by simp [expr.plain, p1], by simp [expr.flat_lets, f1],
    fun rt ctx => ?_⟩
  simp [eval_expr, e1]

theorem expr.similar_cons {x e : expr} {xs es : List expr} (h1 : expr.similar x e)
    (h2 : expr.similar_list xs es) : expr.similar_list (x :: xs) (e :: es) := by
  obtain ⟨s1, p1, f1, e1⟩ := h1
  obtain ⟨s2, p2, f2, e2⟩ := h2
  refine ⟨by simp [expr.weight_list, s1, s2], by simp [expr.plain_list, p1, p2],
    by simp [expr.flat_lets_list, f1, f2], fun rt ctx => ?_⟩
  simp [eval_expr_list, e1, e2]

theorem match_bind_sound (s : Nat) (e : expr) (m m' : bindings) (h : match_bind s e m = some m') :
    bindings.le m m' ∧ m'.find s = some e := by
  unfold match_bind at h
  cases hf : bindings.find m s with
  | some b =>
    rw [hf] at h
    simp only at h
    by_cases hbe : expr.beq b e = true
    · simp only [hbe, if_true, Option.some.injEq] at h
      subst h
      rw [(expr.beq_iff b e).1 hbe] at hf
      exact ⟨bindings.le_refl _, hf⟩
    · simp [hbe] at h
  | none =>
    rw [hf] at h
    simp only [Option.some.injEq] at h
    subst h
    constructor
    · intro s' t ht
      unfold bindings.find at ht hf ⊢
      by_cases hs : s' = s
      · subst hs; rw [hf] at ht; cases ht
      · have hne : (s' == s) = false := by simp [hs]
        simp [List.lookup, hne, ht]
    · unfold bindings.find
      simp [List.lookup]

/-- What a successful match of a two-operand pattern gives, from what the matches of the
operands give. -/
theorem match_seq_sound {pa pb a b : expr} {m m1 m' : bindings}
    (ha : bindings.le m m1 ∧ expr.bound_in pa m1 = true ∧ expr.similar (substitute pa m1) a)
    (hb : bindings.le m1 m' ∧ expr.bound_in pb m' = true ∧ expr.similar (substitute pb m') b) :
    bindings.le m m' ∧ (expr.bound_in pa m' = true ∧ expr.bound_in pb m' = true) ∧
      expr.similar (substitute pa m') a ∧ expr.similar (substitute pb m') b := by
  obtain ⟨l1, b1, s1⟩ := ha
  obtain ⟨l2, b2, s2⟩ := hb
  have := substitute_le pa m1 m' l2 b1
  refine ⟨bindings.le_trans l1 l2, ⟨this.2, b2⟩, ?_, s2⟩
  rw [this.1]; exact s1

theorem match_either_some {f s : Option bindings} {m : bindings} (h : match_either f s = some m) :
    f = some m ∨ s = some m := by
  unfold match_either at h
  cases f with
  | some x => left; exact h
  | none => right; exact h

mutual
/-- A successful match keeps the bindings it was given, binds every variable of the pattern,
and the pattern instantiated with the result is the matched expression up to the order of
the operands of commutative operators. -/
theorem match_sound : ∀ (p e : expr) (m m' : bindings), expr.is_pattern p = true →
    match_ p e m = some m' →
    bindings.le m m' ∧ expr.bound_in p m' = true ∧ expr.similar (substitute p m') e
  | .var s, e, m, m', _, h => by
    simp only [match_] at h
    have hb := match_bind_sound s e m m' h
    refine ⟨hb.1, by simp [expr.bound_in, hb.2], ?_⟩
    simp only [substitute, hb.2]
    exact expr.similar_refl e
  | .constant v, e, m, m', _, h => by
    cases e <;> simp only [match_] at h <;> try (exact Option.noConfusion h)
    rename_i w
    by_cases hvw : v = w
    · simp only [hvw, if_true, Option.some.injEq] at h
      subst h; subst hvw
      exact ⟨bindings.le_refl _, by simp [expr.bound_in], by simp only [substitute]; exact expr.similar_refl _⟩
    · simp [hvw] at h
  | .sub pa pb, e, m, m', hp, h => by
    cases e <;> simp only [match_] at h <;> try (exact Option.noConfusion h)
    rename_i a b
    simp only [expr.is_pattern, Bool.and_eq_true] at hp
    cases h1 : match_ pa a m with
    | none => simp [h1] at h
    | some m1 =>
      rw [h1] at h
      have r := match_seq_sound (match_sound pa a m m1 hp.1 h1) (match_sound pb b m1 m' hp.2 h)
      refine ⟨r.1, by simp [expr.bound_in, r.2.1.1, r.2.1.2], ?_⟩
      simp only [substitute]
      exact expr.similar_sub r.2.2.1 r.2.2.2
  | .div pa pb, e, m, m', hp, h => by
    cases e <;> simp only [match_] at h <;> try (exact Option.noConfusion h)
    rename_i a b
    simp only [expr.is_pattern, Bool.and_eq_true] at hp
    cases h1 : match_ pa a m with
    | none => simp [h1] at h
    | some m1 =>
      rw [h1] at h
      have r := match_seq_sound (match_sound pa a m m1 hp.1 h1) (match_sound pb b m1 m' hp.2 h)
      refine ⟨r.1, by simp [expr.bound_in, r.2.1.1, r.2.1.2], ?_⟩
      simp only [substitute]
      exact expr.similar_div r.2.2.1 r.2.2.2
  | .add pa pb, e, m, m', hp, h => by
    cases e <;> simp only [match_] at h <;> try (exact Option.noConfusion h)
    rename_i a b
    simp only [expr.is_pattern, Bool.and_eq_true] at hp
    rcases match_either_some h with h | h
    · cases h1 : match_ pa a m with
      | none => simp [h1] at h
      | some m1 =>
        rw [h1] at h
        have r := match_seq_sound (match_sound pa a m m1 hp.1 h1) (match_sound pb b m1 m' hp.2 h)
        refine ⟨r.1, by simp [expr.bound_in, r.2.1.1, r.2.1.2], ?_⟩
        simp only [substitute]
        exact expr.similar_add r.2.2.1 r.2.2.2
    · cases h1 : match_ pa b m with
      | none => simp [h1] at h
      | some m1 =>
        rw [h1] at h
        have r := match_seq_sound (match_sound pa b m m1 hp.1 h1) (match_sound pb a m1 m' hp.2 h)
        refine ⟨r.1, by simp [expr.bound_in, r.2.1.1, r.2.1.2], ?_⟩
        simp only [substitute]
        exact expr.similar_add_swap r.2.2.1 r.2.2.2
  | .min pa pb, e, m, m', hp, h => by
    cases e <;> simp only [match_] at h <;> try (exact Option.noConfusion h)
    rename_i a b
    simp only [expr.is_pattern, Bool.and_eq_true] at hp
    rcases match_either_some h with h | h
    · cases h1 : match_ pa a m with
      | none => simp [h1] at h
      | some m1 =>
        rw [h1] at h
        have r := match_seq_sound (match_sound pa a m m1 hp.1 h1) (match_sound pb b m1 m' hp.2 h)
        refine ⟨r.1, by simp [expr.bound_in, r.2.1.1, r.2.1.2], ?_⟩
        simp only [substitute]
        exact expr.similar_min r.2.2.1 r.2.2.2
    · cases h1 : match_ pa b m with
      | none => simp [h1] at h
      | some m1 =>
        rw [h1] at h
        have r := match_seq_sound (match_sound pa b m m1 hp.1 h1) (match_sound pb a m1 m' hp.2 h)
        refine ⟨r.1, by simp [expr.bound_in, r.2.1.1, r.2.1.2], ?_⟩
        simp only [substitute]
        exact expr.similar_min_swap r.2.2.1 r.2.2.2
  | .max pa pb, e, m, m', hp, h => by
    cases e <;> simp only [match_] at h <;> try (exact Option.noConfusion h)
    rename_i a b
    simp only [expr.is_pattern, Bool.and_eq_true] at hp
    rcases match_either_some h with h | h
    · cases h1 : match_ pa a m with
      | none => simp [h1] at h
      | some m1 =>
        rw [h1] at h
        have r := match_seq_sound (match_sound pa a m m1 hp.1 h1) (match_sound pb b m1 m' hp.2 h)
        refine ⟨r.1, by simp [expr.bound_in, r.2.1.1, r.2.1.2], ?_⟩
        simp only [substitute]
        exact expr.similar_max r.2.2.1 r.2.2.2
    · cases h1 : match_ pa b m with
      | none => simp [h1] at h
      | some m1 =>
        rw [h1] at h
        have r := match_seq_sound (match_sound pa b m m1 hp.1 h1) (match_sound pb a m1 m' hp.2 h)
        refine ⟨r.1, by simp [expr.bound_in, r.2.1.1, r.2.1.2], ?_⟩
        simp only [substitute]
        exact expr.similar_max_swap r.2.2.1 r.2.2.2
  | .call pf ps, e, m, m', hp, h => by
    cases e <;> simp only [match_] at h <;> try (exact Option.noConfusion h)
    rename_i f as
    simp only [expr.is_pattern] at hp
    by_cases hf : pf = f
    · subst hf
      simp only [if_true] at h
      have r := match_list_sound ps as m m' hp h
      refine ⟨r.1, by simp [expr.bound_in, r.2.1], ?_⟩
      simp only [substitute]
      exact expr.similar_call pf r.2.2
    · simp [hf] at h
  | .wildcard _, _, _, _, hp, _ => by simp [expr.is_pattern] at hp
  | .let_ _ _ _, _, _, _, hp, _ => by simp [expr.is_pattern] at hp
  | .mul _ _, _, _, _, hp, _ => by simp [expr.is_pattern] at hp
  | .mod _ _, _, _, _, hp, _ => by simp [expr.is_pattern] at hp
  | .equal _ _, _, _, _, hp, _ => by simp [expr.is_pattern] at hp
  | .not_equal _ _, _, _, _, hp, _ => by simp [expr.is_pattern] at hp
  | .less _ _, _, _, _, hp, _ => by simp [expr.is_pattern] at hp
  | .less_equal _ _, _, _, _, hp, _ => by simp [expr.is_pattern] at hp
  | .logical_and _ _, _, _, _, hp, _ => by simp [expr.is_pattern] at hp
  | .logical_or _ _, _, _, _, hp, _ => by simp [expr.is_pattern] at hp
  | .logical_not _, _, _, _, hp, _ => by simp [expr.is_pattern] at hp
  | .select _ _ _, _, _, _, hp, _ => by simp [expr.is_pattern] at hp
/-- The list version of `match_sound`. -/
theorem match_list_sound : ∀ (ps es : List expr) (m m' : bindings), expr.is_pattern_list ps = true →
    match_list ps es m = some m' →
    bindings.le m m' ∧ expr.bound_in_list ps m' = true ∧
      expr.similar_list (substitute_list ps m') es
  | [], es, m, m', _, h => by
    cases es with
    | nil =>
      simp only [match_list, Option.some.injEq] at h
      subst h
      exact ⟨bindings.le_refl _, by simp [expr.bound_in_list], rfl, rfl, rfl, fun _ _ => rfl⟩
    | cons a as => simp [match_list] at h
  | p :: ps, es, m, m', hp, h => by
    cases es <;> simp only [match_list] at h <;> try (exact Option.noConfusion h)
    rename_i a as
    simp only [expr.is_pattern_list, Bool.and_eq_true] at hp
    cases h1 : match_ p a m with
    | none => simp [h1] at h
    | some m1 =>
      rw [h1] at h
      obtain ⟨l1, b1, s1⟩ := match_sound p a m m1 hp.1 h1
      obtain ⟨l2, b2, s2⟩ := match_list_sound ps as m1 m' hp.2 h
      have hs := substitute_le p m1 m' l2 b1
      refine ⟨bindings.le_trans l1 l2, by simp [expr.bound_in_list, hs.2, b2], ?_⟩
      simp only [substitute_list]
      rw [hs.1]
      exact expr.similar_cons s1 s2
end

/-! ## Arithmetic facts -/

theorem wrap_add_left (a b : Int) : wrap (wrap a + b) = wrap (a + b) := by
  unfold wrap; omega

theorem wrap_sub_self (a : Int) : wrap (a - a) = 0 := by
  unfold wrap; omega

theorem wrap_of_fits {v : Int} (h : fits_index_t v) : wrap v = v := by
  unfold fits_index_t index_t_min index_t_max at h
  unfold wrap; omega

theorem fits_wrap (v : Int) : fits_index_t (wrap v) := by
  unfold fits_index_t index_t_min index_t_max wrap; omega

theorem euclidean_div_mono {x y z : Int} (hz : 0 < z) (hxy : x ≤ y) :
    euclidean_div x z ≤ euclidean_div y z := by
  unfold euclidean_div
  rw [if_pos hz, if_pos hz]
  exact Int.ediv_le_ediv hz hxy

theorem euclidean_div_min {x y z : Int} (hz : 0 < z) :
    Min.min (euclidean_div x z) (euclidean_div y z) = euclidean_div (Min.min x y) z := by
  rcases le_total x y with h | h
  · rw [min_eq_left h, min_eq_left (euclidean_div_mono hz h)]
  · rw [min_eq_right h, min_eq_right (euclidean_div_mono hz h)]

theorem euclidean_div_max {x y z : Int} (hz : 0 < z) :
    Max.max (euclidean_div x z) (euclidean_div y z) = euclidean_div (Max.max x y) z := by
  rcases le_total x y with h | h
  · rw [max_eq_right h, max_eq_right (euclidean_div_mono hz h)]
  · rw [max_eq_left h, max_eq_left (euclidean_div_mono hz h)]

/-! ## Buffers whose dims are non-empty index ranges: proofs -/

theorem buffer_runtime.dim_at_ok {rt : buffer_runtime} (h : rt.nonempty_dims) {p d : Int} {dm : dim}
    (hd : rt.dim_at p d = some dm) : dm.min ≤ dm.max ∧ fits_index_t dm.max := by
  unfold buffer_runtime.dim_at at hd
  cases hb : rt.deref p with
  | none => simp [hb] at hd
  | some buf =>
    rw [hb] at hd
    simp only at hd
    by_cases hneg : d < 0
    · simp [hneg] at hd
    · simp only [hneg, if_false] at hd
      exact h p buf hb dm (List.get?_mem hd)

theorem eval_dim_metadata_min (rt : buffer_runtime) (p d : Int) :
    eval_dim_metadata rt .buffer_min p d = (rt.dim_at p d).map dim.min := by
  unfold eval_dim_metadata buffer_runtime.dim_at
  cases rt.deref p with
  | none => rfl
  | some buf =>
    by_cases hneg : d < 0
    · simp [hneg]
    · simp only [hneg, if_false]
      cases buf.dims.get? d.toNat <;> rfl

theorem eval_dim_metadata_max (rt : buffer_runtime) (p d : Int) :
    eval_dim_metadata rt .buffer_max p d = (rt.dim_at p d).map dim.max := by
  unfold eval_dim_metadata buffer_runtime.dim_at
  cases rt.deref p with
  | none => rfl
  | some buf =>
    by_cases hneg : d < 0
    · simp [hneg]
    · simp only [hneg, if_false]
      cases buf.dims.get? d.toNat <;> rfl

theorem eval_dim_metadata_extent (rt : buffer_runtime) (p d : Int) :
    eval_dim_metadata rt .buffer_extent p d = (rt.dim_at p d).map dim.extent := by
  unfold eval_dim_metadata buffer_runtime.dim_at
  cases rt.deref p with
  | none => rfl
  | some buf =>
    by_cases hneg : d < 0
    · simp [hneg]
    · simp only [hneg, if_false]
      cases buf.dims.get? d.toNat <;> rfl

/-- The value of a two-argument call, from the values of its arguments. -/
theorem eval_expr_call2 (rt : buffer_runtime) (fn : intrinsic) (a b : expr) (ctx : eval_context) :
    eval_expr rt (.call fn [a, b]) ctx =
      match eval_expr rt a ctx, eval_expr rt b ctx with
      | some p, some d => eval_call rt fn [p, d]
      | _, _ => none := by
  simp only [eval_expr, eval_expr_list]
  cases eval_expr rt a ctx <;> cases eval_expr rt b ctx <;> rfl

theorem eval_buffer_min (rt : buffer_runtime) (a b : expr) (ctx : eval_context) :
    eval_expr rt (buffer_min a b) ctx =
      match eval_expr rt a ctx, eval_expr rt b ctx with
      | some p, some d => (rt.dim_at p d).map dim.min
      | _, _ => none := by
  unfold buffer_min
  rw [eval_expr_call2]
  cases eval_expr rt a ctx <;> cases eval_expr rt b ctx <;>
    simp [eval_call, eval_dim_metadata_min]

theorem eval_buffer_max (rt : buffer_runtime) (a b : expr) (ctx : eval_context) :
    eval_expr rt (buffer_max a b) ctx =
      match eval_expr rt a ctx, eval_expr rt b ctx with
      | some p, some d => (rt.dim_at p d).map dim.max
      | _, _ => none := by
  unfold buffer_max
  rw [eval_expr_call2]
  cases eval_expr rt a ctx <;> cases eval_expr rt b ctx <;>
    simp [eval_call, eval_dim_metadata_max]

theorem eval_buffer_extent (rt : buffer_runtime) (a b : expr) (ctx : eval_context) :
    eval_expr rt (buffer_extent a b) ctx =
      match eval_expr rt a ctx, eval_expr rt b ctx with
      | some p, some d => (rt.dim_at p d).map dim.extent
      | _, _ => none := by
  unfold buffer_extent
  rw [eval_expr_call2]
  cases eval_expr rt a ctx <;> cases eval_expr rt b ctx <;>
    simp [eval_call, eval_dim_metadata_extent]

/-! ## Every rule of the tables preserves values: proofs -/

/-- One unfolding of the evaluator at an `add` node. -/
theorem eval_expr_add (rt : buffer_runtime) (a b : expr) (ctx : eval_context) :
    eval_expr rt (.add a b) ctx =
      match eval_expr rt a ctx, eval_expr rt b ctx with
      | some x, some y => some (wrap (x + y))
      | _, _ => none := by
  rfl

/-- One unfolding of the evaluator at a `sub` node. -/
theorem eval_expr_sub (rt : buffer_runtime) (a b : expr) (ctx : eval_context) :
    eval_expr rt (.sub a b) ctx =
      match eval_expr rt a ctx, eval_expr rt b ctx with
      | some x, some y => some (wrap (x - y))
      | _, _ => none := by
  rfl

/-- One unfolding of the evaluator at a `min` node. -/
theorem eval_expr_min (rt : buffer_runtime) (a b : expr) (ctx : eval_context) :
    eval_expr rt (.min a b) ctx =
      match eval_expr rt a ctx, eval_expr rt b ctx with
      | some x, some y => some (Min.min x y)
      | _, _ => none := by
  rfl

/-- One unfolding of the evaluator at a `max` node. -/
theorem eval_expr_max (rt : buffer_runtime) (a b : expr) (ctx : eval_context) :
    eval_expr rt (.max a b) ctx =
      match eval_expr rt a ctx, eval_expr rt b ctx with
      | some x, some y => some (Max.max x y)
      | _, _ => none := by
  rfl

/-- The evaluator at a `constant` node. -/
theorem eval_expr_constant (rt : buffer_runtime) (v : Int) (ctx : eval_context) :
    eval_expr rt (.constant v) ctx = some v := by
  rfl

theorem sound_at_min_self (X : expr) : rule.sound_at (.min X X) X none := by
  refine ⟨?_, ?_, ?_, ?_, ?_⟩
  · simp [expr.plain]
  · simp [expr.flat_lets]
  · have := expr.weight_pos X; simp only [expr.weight]; omega
  · intro pr h; cases h
  · intro rt ctx v _ h
    refine ⟨fun pr h => (by cases h), fun _ => ?_⟩
    simp only [eval_expr] at h
    cases hx : eval_expr rt X ctx with
    | none => simp [hx] at h
    | some vx => simpa [hx] using h

theorem sound_at_max_self (X : expr) : rule.sound_at (.max X X) X none := by
  refine ⟨?_, ?_, ?_, ?_, ?_⟩
  · simp [expr.plain]
  · simp [expr.flat_lets]
  · have := expr.weight_pos X; simp only [expr.weight]; omega
  · intro pr h; cases h
  · intro rt ctx v _ h
    refine ⟨fun pr h => (by cases h), fun _ => ?_⟩
    simp only [eval_expr] at h
    cases hx : eval_expr rt X ctx with
    | none => simp [hx] at h
    | some vx => simpa [hx] using h

theorem sound_at_sub_self (X : expr) : rule.sound_at (.sub X X) (.constant 0) none := by
  refine ⟨?_, ?_, ?_, ?_, ?_⟩
  · simp [expr.plain]
  · simp [expr.flat_lets]
  · have := expr.weight_pos X; simp only [expr.weight]; omega
  · intro pr h; cases h
  · intro rt ctx v _ h
    refine ⟨fun pr h => (by cases h), fun _ => ?_⟩
    simp only [eval_expr] at h ⊢
    cases hx : eval_expr rt X ctx with
    | none => simp [hx] at h
    | some vx =>
      simp only [hx, Option.some.injEq] at h
      rw [← h, wrap_sub_self]

theorem sound_at_min_div (X Y Z : expr) :
    rule.sound_at (.min (.div X Z) (.div Y Z)) (.div (.min X Y) Z)
      (some (.less (.constant 0) Z)) := by
  refine ⟨?_, ?_, ?_, ?_, ?_⟩
  · simp only [expr.plain, Bool.and_eq_true]; tauto
  · simp only [expr.flat_lets, Bool.and_eq_true]; tauto
  · have := expr.weight_pos Z; simp only [expr.weight]; omega
  · intro pr h
    simp only [Option.some.injEq] at h
    subst h
    refine ⟨?_, ?_, ?_⟩
    · simp only [expr.plain, Bool.and_eq_true]; tauto
    · simp only [expr.flat_lets, Bool.and_eq_true]; tauto
    · have := expr.weight_pos X; simp only [expr.weight]; omega
  · intro rt ctx v _ h
    simp only [eval_expr] at h
    cases hx : eval_expr rt X ctx with
    | none => simp [hx] at h
    | some vx =>
      cases hz : eval_expr rt Z ctx with
      | none => simp [hx, hz] at h
      | some vz =>
        cases hy : eval_expr rt Y ctx with
        | none => simp [hx, hz, hy] at h
        | some vy =>
          simp only [hx, hy, hz, Option.some.injEq] at h
          refine ⟨fun pr hp => ?_, fun hp => ?_⟩
          · simp only [Option.some.injEq] at hp
            subst hp
            refine ⟨bool_to_index (decide (0 < vz)), ?_⟩
            simp only [eval_expr, hz]
          · have hw := hp (.less (.constant 0) Z) (bool_to_index (decide (0 < vz))) rfl
              (by simp only [eval_expr, hz])
            have hpos : 0 < vz := by
              by_contra hn
              simp [bool_to_index, hn] at hw
            simp only [eval_expr, hx, hy, hz, Option.some.injEq]
            rw [← h, euclidean_div_min hpos]

theorem sound_at_max_div (X Y Z : expr) :
    rule.sound_at (.max (.div X Z) (.div Y Z)) (.div (.max X Y) Z)
      (some (.less (.constant 0) Z)) := by
  refine ⟨?_, ?_, ?_, ?_, ?_⟩
  · simp only [expr.plain, Bool.and_eq_true]; tauto
  · simp only [expr.flat_lets, Bool.and_eq_true]; tauto
  · have := expr.weight_pos Z; simp only [expr.weight]; omega
  · intro pr h
    simp only [Option.some.injEq] at h
    subst h
    refine ⟨?_, ?_, ?_⟩
    · simp only [expr.plain, Bool.and_eq_true]; tauto
    · simp only [expr.flat_lets, Bool.and_eq_true]; tauto
    · have := expr.weight_pos X; simp only [expr.weight]; omega
  · intro rt ctx v _ h
    simp only [eval_expr] at h
    cases hx : eval_expr rt X ctx with
    | none => simp [hx] at h
    | some vx =>
      cases hz : eval_expr rt Z ctx with
      | none => simp [hx, hz] at h
      | some vz =>
        cases hy : eval_expr rt Y ctx with
        | none => simp [hx, hz, hy] at h
        | some vy =>
          simp only [hx, hy, hz, Option.some.injEq] at h
          refine ⟨fun pr hp => ?_, fun hp => ?_⟩
          · simp only [Option.some.injEq] at hp
            subst hp
            refine ⟨bool_to_index (decide (0 < vz)), ?_⟩
            simp only [eval_expr, hz]
          · have hw := hp (.less (.constant 0) Z) (bool_to_index (decide (0 < vz))) rfl
              (by simp only [eval_expr, hz])
            have hpos : 0 < vz := by
              by_contra hn
              simp [bool_to_index, hn] at hw
            simp only [eval_expr, hx, hy, hz, Option.some.injEq]
            rw [← h, euclidean_div_max hpos]

/-- The values of `buffer_min`, `buffer_max` and `buffer_extent` of the same buffer and
dimension come from one dim. -/
theorem eval_buffer_bounds (rt : buffer_runtime) (X Y : expr) (ctx : eval_context) :
    (∃ dm : dim, eval_expr rt (buffer_min X Y) ctx = some dm.min ∧
        eval_expr rt (buffer_max X Y) ctx = some dm.max ∧
        eval_expr rt (buffer_extent X Y) ctx = some dm.extent ∧
        (rt.nonempty_dims → dm.min ≤ dm.max ∧ fits_index_t dm.max)) ∨
      (eval_expr rt (buffer_min X Y) ctx = none ∧ eval_expr rt (buffer_max X Y) ctx = none ∧
        eval_expr rt (buffer_extent X Y) ctx = none) := by
  rw [eval_buffer_min, eval_buffer_max, eval_buffer_extent]
  cases eval_expr rt X ctx with
  | none => right; simp
  | some p =>
    cases eval_expr rt Y ctx with
    | none => right; simp
    | some d =>
      cases hd : rt.dim_at p d with
      | none => right; simp [hd]
      | some dm =>
        left
        exact ⟨dm, by simp [hd], by simp [hd], by simp [hd], fun h => buffer_runtime.dim_at_ok h hd⟩

theorem sound_at_min_bounds (X Y : expr) :
    rule.sound_at (.min (buffer_min X Y) (buffer_max X Y)) (buffer_min X Y) none := by
  refine ⟨?_, ?_, ?_, ?_, ?_⟩
  · simp only [expr.plain, buffer_min, buffer_max, expr.plain_list, Bool.and_eq_true]; tauto
  · simp only [expr.flat_lets, buffer_min, buffer_max, expr.flat_lets_list, Bool.and_eq_true]
    tauto
  · simp only [expr.weight, buffer_min, buffer_max, expr.weight_list]; omega
  · intro pr h; cases h
  · intro rt ctx v hrt h
    refine ⟨fun pr h => (by cases h), fun _ => ?_⟩
    simp only [eval_expr_min] at h
    rcases eval_buffer_bounds rt X Y ctx with ⟨dm, h1, h2, _, h4⟩ | ⟨h1, h2, _⟩
    · rw [h1, h2] at h
      simp only [Option.some.injEq] at h
      rw [h1, ← h, min_eq_left (h4 hrt).1]
    · rw [h1] at h; simp at h

theorem sound_at_max_bounds (X Y : expr) :
    rule.sound_at (.max (buffer_min X Y) (buffer_max X Y)) (buffer_max X Y) none := by
  refine ⟨?_, ?_, ?_, ?_, ?_⟩
  · simp only [expr.plain, buffer_min, buffer_max, expr.plain_list, Bool.and_eq_true]; tauto
  · simp only [expr.flat_lets, buffer_min, buffer_max, expr.flat_lets_list, Bool.and_eq_true]
    tauto
  · simp only [expr.weight, buffer_min, buffer_max, expr.weight_list]; omega
  · intro pr h; cases h
  · intro rt ctx v hrt h
    refine ⟨fun pr h => (by cases h), fun _ => ?_⟩
    simp only [eval_expr_max] at h
    rcases eval_buffer_bounds rt X Y ctx with ⟨dm, h1, h2, _, h4⟩ | ⟨h1, h2, _⟩
    · rw [h1, h2] at h
      simp only [Option.some.injEq] at h
      rw [h2, ← h, max_eq_right (h4 hrt).1]
    · rw [h1] at h; simp at h

theorem sound_at_extent (X Y : expr) :
    rule.sound_at (.add (.sub (buffer_max X Y) (buffer_min X Y)) (.constant 1))
      (buffer_extent X Y) none := by
  refine ⟨?_, ?_, ?_, ?_, ?_⟩
  · simp only [expr.plain, buffer_min, buffer_max, buffer_extent, expr.plain_list, Bool.and_eq_true]
    tauto
  · simp only [expr.flat_lets, buffer_min, buffer_max, buffer_extent, expr.flat_lets_list,
      Bool.and_eq_true]
    tauto
  · simp only [expr.weight, buffer_min, buffer_max, buffer_extent, expr.weight_list]; omega
  · intro pr h; cases h
  · intro rt ctx v hrt h
    refine ⟨fun pr h => (by cases h), fun _ => ?_⟩
    simp only [eval_expr_add, eval_expr_sub, eval_expr_constant] at h
    rcases eval_buffer_bounds rt X Y ctx with ⟨dm, h1, h2, h3, _⟩ | ⟨h1, h2, _⟩
    · rw [h1, h2] at h
      simp only [Option.some.injEq] at h
      rw [h3, ← h, wrap_add_left]
      rfl
    · rw [h1, h2] at h; simp at h

theorem sound_at_max_of_extent (X Y : expr) :
    rule.sound_at (.sub (.add (buffer_min X Y) (buffer_extent X Y)) (.constant 1))
      (buffer_max X Y) none := by
  refine ⟨?_, ?_, ?_, ?_, ?_⟩
  · simp only [expr.plain, buffer_min, buffer_max, buffer_extent, expr.plain_list, Bool.and_eq_true]
    tauto
  · simp only [expr.flat_lets, buffer_min, buffer_max, buffer_extent, expr.flat_lets_list,
      Bool.and_eq_true]
    tauto
  · simp only [expr.weight, buffer_min, buffer_max, buffer_extent, expr.weight_list]; omega
  · intro pr h; cases h
  · intro rt ctx v hrt h
    refine ⟨fun pr h => (by cases h), fun _ => ?_⟩
    simp only [eval_expr_add, eval_expr_sub, eval_expr_constant] at h
    rcases eval_buffer_bounds rt X Y ctx with ⟨dm, h1, h2, h3, h4⟩ | ⟨h1, h2, _⟩
    · rw [h1, h3] at h
      simp only [Option.some.injEq] at h
      rw [h2, ← h]
      have hf := (h4 hrt).2
      unfold fits_index_t index_t_min index_t_max at hf
      unfold dim.extent wrap
      congr 1
      omega
    · rw [h1] at h; simp at h

theorem simplifier.min_rules_sound : ∀ rl ∈ simplifier.min_rules, rule.sound rl := by
  intro rl h
  simp only [simplifier.min_rules, List.mem_cons, List.mem_singleton, List.not_mem_nil, or_false] at h
  rcases h with h | h | h <;> subst h
  · exact ⟨rfl, fun mt => sound_at_min_self _⟩
  · exact ⟨rfl, fun mt => sound_at_min_div _ _ _⟩
  · exact ⟨rfl, fun mt => sound_at_min_bounds _ _⟩

theorem simplifier.max_rules_sound : ∀ rl ∈ simplifier.max_rules, rule.sound rl := by
  intro rl h
  simp only [simplifier.max_rules, List.mem_cons, List.mem_singleton, List.not_mem_nil, or_false] at h
  rcases h with h | h | h <;> subst h
  · exact ⟨rfl, fun mt => sound_at_max_self _⟩
  · exact ⟨rfl, fun mt => sound_at_max_div _ _ _⟩
  · exact ⟨rfl, fun mt => sound_at_max_bounds _ _⟩

theorem simplifier.add_rules_sound : ∀ rl ∈ simplifier.add_rules, rule.sound rl := by
  intro rl h
  simp only [simplifier.add_rules, List.mem_cons, List.mem_singleton, List.not_mem_nil, or_false] at h
  subst h
  exact ⟨rfl, fun mt => sound_at_extent _ _⟩

theorem simplifier.sub_rules_sound : ∀ rl ∈ simplifier.sub_rules, rule.sound rl := by
  intro rl h
  simp only [simplifier.sub_rules, List.mem_cons, List.mem_singleton, List.not_mem_nil, or_false] at h
  rcases h with h | h <;> subst h
  · exact ⟨rfl, fun mt => sound_at_sub_self _⟩
  · exact ⟨rfl, fun mt => sound_at_max_of_extent _ _⟩

/-! ## Soundness of the simplifier on expressions with flat lets: proofs -/

theorem simplifier.refines_trans {e e1 e2 : expr} (h1 : simplifier.refines e e1)
    (h2 : simplifier.refines e1 e2) : simplifier.refines e e2 :=
  ⟨h2.1, fun hp => h2.2.1 (h1.2.1 hp), Nat.le_trans h2.2.2.1 h1.2.2.1,
    fun rt ctx v hrt hv => h2.2.2.2 rt ctx v hrt (h1.2.2.2 rt ctx v hrt hv)⟩

theorem is_constant_some {e : expr} {c : Int} (h : is_constant e = some c) : e = .constant c := by
  cases e <;> simp [is_constant] at h
  rw [h]

/-- Counts raised between `r1` and `r2` are raised between `r` and `r2`, when nothing was
lowered between `r` and `r1`. -/
theorem simplifier.counted_after {m : Nat → Bool} {r r1 r2 : symbol_map Int}
    (hk : ∀ s c, r.lookup s = some c → ∃ c', r1.lookup s = some c' ∧ c ≤ c')
    (h : simplifier.counted m r1 r2) : simplifier.counted m r r2 := by
  intro s c hm hc
  obtain ⟨c1, h1, l1⟩ := hk s c hc
  obtain ⟨c2, h2, l2⟩ := h s c1 hm h1
  exact ⟨c2, h2, by omega⟩

/-- Counts raised between `r` and `r1` stay raised at `r2`, when nothing was lowered between
`r1` and `r2`. -/
theorem simplifier.counted_before {m : Nat → Bool} {r r1 r2 : symbol_map Int}
    (h : simplifier.counted m r r1)
    (hk : ∀ s c, r1.lookup s = some c → ∃ c', r2.lookup s = some c' ∧ c ≤ c') :
    simplifier.counted m r r2 := by
  intro s c hm hc
  obtain ⟨c1, h1, l1⟩ := h s c hm hc
  obtain ⟨c2, h2, l2⟩ := hk s c1 h1
  exact ⟨c2, h2, by omega⟩

theorem simplifier.counted_or {m1 m2 : Nat → Bool} {r r' : symbol_map Int}
    (h1 : simplifier.counted m1 r r') (h2 : simplifier.counted m2 r r') :
    simplifier.counted (fun s => m1 s || m2 s) r r' := by
  intro s c hm hc
  simp only [Bool.or_eq_true] at hm
  rcases hm with hm | hm
  · exact h1 s c hm hc
  · exact h2 s c hm hc

theorem simplifier.apply_rules_sound {f : expr → symbol_map Int → mutated} {n : Nat}
    (hf : simplifier.sound_upto f n) :
    ∀ (rules : List rule), (∀ rl ∈ rules, rule.sound rl) → ∀ (e : expr) (r : symbol_map Int),
      e.flat_lets = true → e.weight ≤ n + 1 →
      ∃ e' r', simplifier.apply_rules f rules e r = some (e', r') ∧ simplifier.refines e e' ∧
        (e.plain = true →
          (e' = e ∧ r' = r) ∨ simplifier.counted (fun s => expr.mentions s e') r r')
  | [], _, e, r, hp, _ =>
    ⟨e, r, rfl, ⟨hp, fun h => h, Nat.le_refl _, fun _ _ _ _ h => h⟩, fun _ => Or.inl ⟨rfl, rfl⟩⟩
  | rl :: rules, hs, e, r, hp, hn => by
    have ih := simplifier.apply_rules_sound hf rules (fun x hx => hs x (List.mem_cons_of_mem _ hx)) e r hp hn
    unfold simplifier.apply_rules
    cases hm : match_ rl.pattern e [] with
    | none => exact ih
    | some mt =>
      simp only
      obtain ⟨hpat, hsound⟩ := hs rl (List.mem_cons_self _ _)
      obtain ⟨_, _, hsz, hpl, hfl, hev⟩ := match_sound rl.pattern e [] mt hpat hm
      obtain ⟨h1, h1f, h2, h3, h4⟩ := hsound mt
      have hRf : (substitute rl.replacement mt).flat_lets = true := h1f (by rw [hfl]; exact hp)
      have hRs : (substitute rl.replacement mt).weight ≤ n := by omega
      obtain ⟨e', r', hfe, hgood, hcnt⟩ := hf (substitute rl.replacement mt) r hRf hRs
      have hres : simplifier.refines e e' ∧ (e.plain = true →
          (e' = e ∧ r' = r) ∨ simplifier.counted (fun s => expr.mentions s e') r r') →
          ∃ e'' r'', f (substitute rl.replacement mt) r = some (e'', r'') ∧
            simplifier.refines e e'' ∧ (e.plain = true →
              (e'' = e ∧ r'' = r) ∨ simplifier.counted (fun s => expr.mentions s e'') r r'') :=
        fun h => ⟨e', r', hfe, h.1, h.2⟩
      have hplain : e.plain = true →
          (e' = e ∧ r' = r) ∨ simplifier.counted (fun s => expr.mentions s e') r r' :=
        fun hpe => Or.inr (hcnt (h1 (by rw [hpl]; exact hpe)))
      cases hpr : rl.predicate with
      | none =>
        simp only
        refine hres ⟨⟨hgood.1, fun hpe => hgood.2.1 (h1 (by rw [hpl]; exact hpe)),
          by have := hgood.2.2.1; omega, fun rt ctx v hrt hv => ?_⟩, hplain⟩
        have hv' : eval_expr rt (substitute rl.pattern mt) ctx = some v := by rw [hev]; exact hv
        have := (h4 rt ctx v hrt hv').2 (fun pr w hq _ => by rw [hpr] at hq; cases hq)
        exact hgood.2.2.2 rt ctx v hrt this
      | some pr =>
        simp only
        have hq : rl.predicate.map (fun pr => substitute pr mt) = some (substitute pr mt) := by
          rw [hpr]; rfl
        obtain ⟨hpp, hpf, hps⟩ := h3 _ hq
        obtain ⟨s, rs, hfs, hsgood, _⟩ := hf (substitute pr mt) [] (hpf (by rw [hfl]; exact hp)) (by omega)
        unfold simplifier.can_prove_with
        rw [hfs]
        simp only
        cases hc : is_constant s with
        | none => exact ih
        | some c =>
          simp only
          by_cases hc0 : c = 0
          · simp only [hc0, ne_eq, not_true_eq_false, decide_False]
            exact ih
          · simp only [ne_eq, hc0, not_false_eq_true, decide_True]
            refine hres ⟨⟨hgood.1, fun hpe => hgood.2.1 (h1 (by rw [hpl]; exact hpe)),
              by have := hgood.2.2.1; omega, fun rt ctx v hrt hv => ?_⟩, hplain⟩
            have hv' : eval_expr rt (substitute rl.pattern mt) ctx = some v := by rw [hev]; exact hv
            have := (h4 rt ctx v hrt hv').2 (fun pr' w hq' hw => by
              rw [hq] at hq'
              simp only [Option.some.injEq] at hq'
              subst hq'
              have := hsgood.2.2.2 rt ctx w hrt hw
              rw [is_constant_some hc, eval_expr_constant] at this
              simp only [Option.some.injEq] at this
              rw [← this]; exact hc0)
            exact hgood.2.2.2 rt ctx v hrt this

theorem simplifier.mutate_pair_sound {f : expr → symbol_map Int → mutated} {n : Nat}
    (hf : simplifier.sound_upto f n) (hk : simplifier.keeps f) (a b : expr) (r : symbol_map Int)
    (hpa : a.flat_lets = true) (hpb : b.flat_lets = true) (ha : a.weight ≤ n) (hb : b.weight ≤ n) :
    ∃ a' b' r', simplifier.mutate_pair f a b r = some (a', b', r') ∧
      simplifier.refines a a' ∧ simplifier.refines b b' ∧
      (a.plain = true → b.plain = true →
        simplifier.counted (fun s => expr.mentions s a' || expr.mentions s b') r r') := by
  obtain ⟨a', r1, h1, g1, c1⟩ := hf a r hpa ha
  obtain ⟨b', r2, h2, g2, c2⟩ := hf b r1 hpb hb
  refine ⟨a', b', r2, by simp [simplifier.mutate_pair, h1, h2], g1, g2, fun pa pb => ?_⟩
  exact simplifier.counted_or
    (simplifier.counted_before (c1 pa) (fun s c hc => hk b r1 _ s c h2 hc))
    (simplifier.counted_after (fun s c hc => hk a r _ s c h1 hc) (c2 pb))

theorem simplifier.mutate_list_sound {f : expr → symbol_map Int → mutated} {n : Nat}
    (hf : simplifier.sound_upto f n) (hk : simplifier.keeps f) :
    ∀ (as : List expr) (r : symbol_map Int), expr.flat_lets_list as = true →
      expr.weight_list as ≤ n →
      ∃ as' r', simplifier.mutate_list f as r = some (as', r') ∧
        expr.flat_lets_list as' = true ∧
        (expr.plain_list as = true → expr.plain_list as' = true) ∧
        expr.weight_list as' ≤ expr.weight_list as ∧
        (∀ (rt : buffer_runtime) (ctx : eval_context) (vs : List Int), rt.nonempty_dims →
          eval_expr_list rt as ctx = some vs → eval_expr_list rt as' ctx = some vs) ∧
        (expr.plain_list as = true →
          simplifier.counted (fun s => expr.mentions_list s as') r r')
  | [], r, _, _ =>
    ⟨[], r, rfl, rfl, fun h => h, Nat.le_refl _, fun _ _ _ _ h => h,
      fun _ s c hm _ => by simp [expr.mentions_list] at hm⟩
  | a :: as, r, hp, hn => by
    simp only [expr.flat_lets_list, Bool.and_eq_true] at hp
    simp only [expr.weight_list] at hn
    obtain ⟨a', r1, h1, g1, c1⟩ := hf a r hp.1 (by omega)
    obtain ⟨as', r2, h2, g2, g2p, g3, g4, c2⟩ :=
      simplifier.mutate_list_sound hf hk as r1 hp.2 (by omega)
    refine ⟨a' :: as', r2, by simp [simplifier.mutate_list, h1, h2], ?_, ?_, ?_, ?_, ?_⟩
    · simp [expr.flat_lets_list, g1.1, g2]
    · intro hpl
      simp only [expr.plain_list, Bool.and_eq_true] at hpl
      simp [expr.plain_list, g1.2.1 hpl.1, g2p hpl.2]
    · simp only [expr.weight_list]; have := g1.2.2.1; omega
    · intro rt ctx vs hrt hv
      simp only [eval_expr_list] at hv ⊢
      cases hx : eval_expr rt a ctx with
      | none => simp [hx] at hv
      | some x =>
        cases hy : eval_expr_list rt as ctx with
        | none => simp [hx, hy] at hv
        | some ys =>
          rw [g1.2.2.2 rt ctx x hrt hx, g4 rt ctx ys hrt hy]
          simpa [hx, hy] using hv
    · intro hpl
      simp only [expr.plain_list, Bool.and_eq_true] at hpl
      have := simplifier.counted_or
        (simplifier.counted_before (c1 hpl.1)
          (fun s c hc => simplifier.keeps_list hk as r1 _ s c h2 hc))
        (simplifier.counted_after (fun s c hc => hk a r _ s c h1 hc) (c2 hpl.2))
      intro s c hm hc
      exact this s c (by simpa [expr.mentions_list] using hm) hc

theorem simplifier.refines_add {a b a' b' : expr} (ha : simplifier.refines a a')
    (hb : simplifier.refines b b') : simplifier.refines (.add a b) (.add a' b') := by
  refine ⟨by simp [expr.flat_lets, ha.1, hb.1],
    fun hp => by
      simp only [expr.plain, Bool.and_eq_true] at hp
      simp [expr.plain, ha.2.1 hp.1, hb.2.1 hp.2],
    by simp only [expr.weight]; have := ha.2.2.1; have := hb.2.2.1; omega,
    fun rt ctx v hrt hv => ?_⟩
  simp only [eval_expr] at hv ⊢
  cases hx : eval_expr rt a ctx with
  | none => simp [hx] at hv
  | some x =>
    cases hy : eval_expr rt b ctx with
    | none => simp [hx, hy] at hv
    | some y =>
      rw [ha.2.2.2 rt ctx x hrt hx, hb.2.2.2 rt ctx y hrt hy]
      simpa [hx, hy] using hv

theorem simplifier.refines_sub {a b a' b' : expr} (ha : simplifier.refines a a')
    (hb : simplifier.refines b b') : simplifier.refines (.sub a b) (.sub a' b') := by
  refine ⟨by simp [expr.flat_lets, ha.1, hb.1],
    fun hp => by
      simp only [expr.plain, Bool.and_eq_true] at hp
      simp [expr.plain, ha.2.1 hp.1, hb.2.1 hp.2],
    by simp only [expr.weight]; have := ha.2.2.1; have := hb.2.2.1; omega,
    fun rt ctx v hrt hv => ?_⟩
  simp only [eval_expr] at hv ⊢
  cases hx : eval_expr rt a ctx with
  | none => simp [hx] at hv
  | some x =>
    cases hy : eval_expr rt b ctx with
    | none => simp [hx, hy] at hv
    | some y =>
      rw [ha.2.2.2 rt ctx x hrt hx, hb.2.2.2 rt ctx y hrt hy]
      simpa [hx, hy] using hv

theorem simplifier.refines_mul {a b a' b' : expr} (ha : simplifier.refines a a')
    (hb : simplifier.refines b b') : simplifier.refines (.mul a b) (.mul a' b') := by
  refine ⟨by simp [expr.flat_lets, ha.1, hb.1],
    fun hp => by
      simp only [expr.plain, Bool.and_eq_true] at hp
      simp [expr.plain, ha.2.1 hp.1, hb.2.1 hp.2],
    by simp only [expr.weight]; have := ha.2.2.1; have := hb.2.2.1; omega,
    fun rt ctx v hrt hv => ?_⟩
  simp only [eval_expr] at hv ⊢
  cases hx : eval_expr rt a ctx with
  | none => simp [hx] at hv
  | some x =>
    cases hy : eval_expr rt b ctx with
    | none => simp [hx, hy] at hv
    | some y =>
      rw [ha.2.2.2 rt ctx x hrt hx, hb.2.2.2 rt ctx y hrt hy]
      simpa [hx, hy] using hv

theorem simplifier.refines_div {a b a' b' : expr} (ha : simplifier.refines a a')
    (hb : simplifier.refines b b') : simplifier.refines (.div a b) (.div a' b') := by
  refine ⟨by simp [expr.flat_lets, ha.1, hb.1],
    fun hp => by
      simp only [expr.plain, Bool.and_eq_true] at hp
      simp [expr.plain, ha.2.1 hp.1, hb.2.1 hp.2],
    by simp only [expr.weight]; have := ha.2.2.1; have := hb.2.2.1; omega,
    fun rt ctx v hrt hv => ?_⟩
  simp only [eval_expr] at hv ⊢
  cases hx : eval_expr rt a ctx with
  | none => simp [hx] at hv
  | some x =>
    cases hy : eval_expr rt b ctx with
    | none => simp [hx, hy] at hv
    | some y =>
      rw [ha.2.2.2 rt ctx x hrt hx, hb.2.2.2 rt ctx y hrt hy]
      simpa [hx, hy] using hv

theorem simplifier.refines_mod {a b a' b' : expr} (ha : simplifier.refines a a')
    (hb : simplifier.refines b b') : simplifier.refines (.mod a b) (.mod a' b') := by
  refine ⟨by simp [expr.flat_lets, ha.1, hb.1],
    fun hp => by
      simp only [expr.plain, Bool.and_eq_true] at hp
      simp [expr.plain, ha.2.1 hp.1, hb.2.1 hp.2],
    by simp only [expr.weight]; have := ha.2.2.1; have := hb.2.2.1; omega,
    fun rt ctx v hrt hv => ?_⟩
  simp only [eval_expr] at hv ⊢
  cases hx : eval_expr rt a ctx with
  | none => simp [hx] at hv
  | some x =>
    cases hy : eval_expr rt b ctx with
    | none => simp [hx, hy] at hv
    | some y =>
      rw [ha.2.2.2 rt ctx x hrt hx, hb.2.2.2 rt ctx y hrt hy]
      simpa [hx, hy] using hv

theorem simplifier.refines_min {a b a' b' : expr} (ha : simplifier.refines a a')
    (hb : simplifier.refines b b') : simplifier.refines (.min a b) (.min a' b') := by
  refine ⟨by simp [expr.flat_lets, ha.1, hb.1],
    fun hp => by
      simp only [expr.plain, Bool.and_eq_true] at hp
      simp [expr.plain, ha.2.1 hp.1, hb.2.1 hp.2],
    by simp only [expr.weight]; have := ha.2.2.1; have := hb.2.2.1; omega,
    fun rt ctx v hrt hv => ?_⟩
  simp only [eval_expr] at hv ⊢
  cases hx : eval_expr rt a ctx with
  | none => simp [hx] at hv
  | some x =>
    cases hy : eval_expr rt b ctx with
    | none => simp [hx, hy] at hv
    | some y =>
      rw [ha.2.2.2 rt ctx x hrt hx, hb.2.2.2 rt ctx y hrt hy]
      simpa [hx, hy] using hv

theorem simplifier.refines_max {a b a' b' : expr} (ha : simplifier.refines a a')
    (hb : simplifier.refines b b') : simplifier.refines (.max a b) (.max a' b') := by
  refine ⟨by simp [expr.flat_lets, ha.1, hb.1],
    fun hp => by
      simp only [expr.plain, Bool.and_eq_true] at hp
      simp [expr.plain, ha.2.1 hp.1, hb.2.1 hp.2],
    by simp only [expr.weight]; have := ha.2.2.1; have := hb.2.2.1; omega,
    fun rt ctx v hrt hv => ?_⟩
  simp only [eval_expr] at hv ⊢
  cases hx : eval_expr rt a ctx with
  | none => simp [hx] at hv
  | some x =>
    cases hy : eval_expr rt b ctx with
    | none => simp [hx, hy] at hv
    | some y =>
      rw [ha.2.2.2 rt ctx x hrt hx, hb.2.2.2 rt ctx y hrt hy]
      simpa [hx, hy] using hv

theorem simplifier.refines_equal {a b a' b' : expr} (ha : simplifier.refines a a')
    (hb : simplifier.refines b b') : simplifier.refines (.equal a b) (.equal a' b') := by
  refine ⟨by simp [expr.flat_lets, ha.1, hb.1],
    fun hp => by
      simp only [expr.plain, Bool.and_eq_true] at hp
      simp [expr.plain, ha.2.1 hp.1, hb.2.1 hp.2],
    by simp only [expr.weight]; have := ha.2.2.1; have := hb.2.2.1; omega,
    fun rt ctx v hrt hv => ?_⟩
  simp only [eval_expr] at hv ⊢
  cases hx : eval_expr rt a ctx with
  | none => simp [hx] at hv
  | some x =>
    cases hy : eval_expr rt b ctx with
    | none => simp [hx, hy] at hv
    | some y =>
      rw [ha.2.2.2 rt ctx x hrt hx, hb.2.2.2 rt ctx y hrt hy]
      simpa [hx, hy] using hv

theorem simplifier.refines_not_equal {a b a' b' : expr} (ha : simplifier.refines a a')
    (hb : simplifier.refines b b') : simplifier.refines (.not_equal a b) (.not_equal a' b') := by
  refine ⟨by simp [expr.flat_lets, ha.1, hb.1],
    fun hp => by
      simp only [expr.plain, Bool.and_eq_true] at hp
      simp [expr.plain, ha.2.1 hp.1, hb.2.1 hp.2],
    by simp only [expr.weight]; have := ha.2.2.1; have := hb.2.2.1; omega,
    fun rt ctx v hrt hv => ?_⟩
  simp only [eval_expr] at hv ⊢
  cases hx : eval_expr rt a ctx with
  | none => simp [hx] at hv
  | some x =>
    cases hy : eval_expr rt b ctx with
    | none => simp [hx, hy] at hv
    | some y =>
      rw [ha.2.2.2 rt ctx x hrt hx, hb.2.2.2 rt ctx y hrt hy]
      simpa [hx, hy] using hv

theorem simplifier.refines_less {a b a' b' : expr} (ha : simplifier.refines a a')
    (hb : simplifier.refines b b') : simplifier.refines (.less a b) (.less a' b') := by
  refine ⟨by simp [expr.flat_lets, ha.1, hb.1],
    fun hp => by
      simp only [expr.plain, Bool.and_eq_true] at hp
      simp [expr.plain, ha.2.1 hp.1, hb.2.1 hp.2],
    by simp only [expr.weight]; have := ha.2.2.1; have := hb.2.2.1; omega,
    fun rt ctx v hrt hv => ?_⟩
  simp only [eval_expr] at hv ⊢
  cases hx : eval_expr rt a ctx with
  | none => simp [hx] at hv
  | some x =>
    cases hy : eval_expr rt b ctx with
    | none => simp [hx, hy] at hv
    | some y =>
      rw [ha.2.2.2 rt ctx x hrt hx, hb.2.2.2 rt ctx y hrt hy]
      simpa [hx, hy] using hv

theorem simplifier.refines_less_equal {a b a' b' : expr} (ha : simplifier.refines a a')
    (hb : simplifier.refines b b') : simplifier.refines (.less_equal a b) (.less_equal a' b') := by
  refine ⟨by simp [expr.flat_lets, ha.1, hb.1],
    fun hp => by
      simp only [expr.plain, Bool.and_eq_true] at hp
      simp [expr.plain, ha.2.1 hp.1, hb.2.1 hp.2],
    by simp only [expr.weight]; have := ha.2.2.1; have := hb.2.2.1; omega,
    fun rt ctx v hrt hv => ?_⟩
  simp only [eval_expr] at hv ⊢
  cases hx : eval_expr rt a ctx with
  | none => simp [hx] at hv
  | some x =>
    cases hy : eval_expr rt b ctx with
    | none => simp [hx, hy] at hv
    | some y =>
      rw [ha.2.2.2 rt ctx x hrt hx, hb.2.2.2 rt ctx y hrt hy]
      simpa [hx, hy] using hv

theorem simplifier.refines_logical_and {a b a' b' : expr} (ha : simplifier.refines a a')
    (hb : simplifier.refines b b') : simplifier.refines (.logical_and a b) (.logical_and a' b') := by
  refine ⟨by simp [expr.flat_lets, ha.1, hb.1],
    fun hp => by
      simp only [expr.plain, Bool.and_eq_true] at hp
      simp [expr.plain, ha.2.1 hp.1, hb.2.1 hp.2],
    by simp only [expr.weight]; have := ha.2.2.1; have := hb.2.2.1; omega,
    fun rt ctx v hrt hv => ?_⟩
  simp only [eval_expr] at hv ⊢
  cases hx : eval_expr rt a ctx with
  | none => simp [hx] at hv
  | some x =>
    rw [ha.2.2.2 rt ctx x hrt hx]
    simp only [hx] at hv ⊢
    by_cases h0 : x = 0
    · simpa [h0] using hv
    · simp only [h0, if_false, ne_eq, not_false_eq_true, if_true] at hv ⊢
      first
        | exact hv
        | (cases hy : eval_expr rt b ctx with
           | none => simp [hy] at hv
           | some y =>
             rw [hb.2.2.2 rt ctx y hrt hy]
             simpa [hy] using hv)

theorem simplifier.refines_logical_or {a b a' b' : expr} (ha : simplifier.refines a a')
    (hb : simplifier.refines b b') : simplifier.refines (.logical_or a b) (.logical_or a' b') := by
  refine ⟨by simp [expr.flat_lets, ha.1, hb.1],
    fun hp => by
      simp only [expr.plain, Bool.and_eq_true] at hp
      simp [expr.plain, ha.2.1 hp.1, hb.2.1 hp.2],
    by simp only [expr.weight]; have := ha.2.2.1; have := hb.2.2.1; omega,
    fun rt ctx v hrt hv => ?_⟩
  simp only [eval_expr] at hv ⊢
  cases hx : eval_expr rt a ctx with
  | none => simp [hx] at hv
  | some x =>
    rw [ha.2.2.2 rt ctx x hrt hx]
    simp only [hx] at hv ⊢
    by_cases h0 : x = 0
    · simp only [h0, ne_eq, not_true_eq_false, if_false] at hv ⊢
      cases hy : eval_expr rt b ctx with
      | none => simp [hy] at hv
      | some y =>
        rw [hb.2.2.2 rt ctx y hrt hy]
        simpa [hy] using hv
    · simpa [h0] using hv

theorem simplifier.refines_logical_not {a a' : expr} (ha : simplifier.refines a a') :
    simplifier.refines (.logical_not a) (.logical_not a') := by
  refine ⟨by simp [expr.flat_lets, ha.1],
    fun hp => by
      simp only [expr.plain] at hp
      simp [expr.plain, ha.2.1 hp],
    by simp only [expr.weight]; have := ha.2.2.1; omega, fun rt ctx v hrt hv => ?_⟩
  simp only [eval_expr] at hv ⊢
  cases hx : eval_expr rt a ctx with
  | none => simp [hx] at hv
  | some x =>
    rw [ha.2.2.2 rt ctx x hrt hx]
    simpa [hx] using hv

theorem simplifier.refines_select {c t f c' t' f' : expr} (hc : simplifier.refines c c')
    (ht : simplifier.refines t t') (hf : simplifier.refines f f') :
    simplifier.refines (.select c t f) (.select c' t' f') := by
  refine ⟨by simp [expr.flat_lets, hc.1, ht.1, hf.1],
    fun hp => by
      simp only [expr.plain, Bool.and_eq_true] at hp
      simp [expr.plain, hc.2.1 hp.1.1, ht.2.1 hp.1.2, hf.2.1 hp.2],
    by simp only [expr.weight]; have := hc.2.2.1; have := ht.2.2.1; have := hf.2.2.1; omega,
    fun rt ctx v hrt hv => ?_⟩
  simp only [eval_expr] at hv ⊢
  cases hx : eval_expr rt c ctx with
  | none => simp [hx] at hv
  | some x =>
    rw [hc.2.2.2 rt ctx x hrt hx]
    simp only [hx] at hv ⊢
    by_cases h0 : x = 0
    · simp only [h0, ne_eq, not_true_eq_false, if_false] at hv ⊢
      exact hf.2.2.2 rt ctx v hrt hv
    · simp only [h0, ne_eq, not_false_eq_true, if_true] at hv ⊢
      exact ht.2.2.2 rt ctx v hrt hv

theorem simplifier.refines_self {e : expr} (hp : e.flat_lets = true) : simplifier.refines e e :=
  ⟨hp, fun h => h, Nat.le_refl _, fun _ _ _ _ h => h⟩

theorem simplifier.refines_fold_add (ca cb : Int) :
    simplifier.refines (.add (.constant ca) (.constant cb)) (.constant (wrap (ca + cb))) :=
  ⟨rfl, fun _ => rfl, by simp [expr.weight], fun rt ctx v _ hv => by simpa [eval_expr] using hv⟩

theorem simplifier.refines_fold_sub (ca cb : Int) :
    simplifier.refines (.sub (.constant ca) (.constant cb)) (.constant (wrap (ca - cb))) :=
  ⟨rfl, fun _ => rfl, by simp [expr.weight], fun rt ctx v _ hv => by simpa [eval_expr] using hv⟩

theorem simplifier.refines_fold_min (ca cb : Int) :
    simplifier.refines (.min (.constant ca) (.constant cb)) (.constant (Min.min ca cb)) :=
  ⟨rfl, fun _ => rfl, by simp [expr.weight], fun rt ctx v _ hv => by simpa [eval_expr] using hv⟩

theorem simplifier.refines_fold_max (ca cb : Int) :
    simplifier.refines (.max (.constant ca) (.constant cb)) (.constant (Max.max ca cb)) :=
  ⟨rfl, fun _ => rfl, by simp [expr.weight], fun rt ctx v _ hv => by simpa [eval_expr] using hv⟩

theorem simplifier.refines_fold_less (ca cb : Int) :
    simplifier.refines (.less (.constant ca) (.constant cb))
      (.constant (bool_to_index (decide (ca < cb)))) :=
  ⟨rfl, fun _ => rfl, by simp [expr.weight], fun rt ctx v _ hv => by simpa [eval_expr] using hv⟩

theorem simplifier.refines_call {fn : intrinsic} {as as' : List expr}
    (hp : expr.flat_lets_list as' = true)
    (hpl : expr.plain_list as = true → expr.plain_list as' = true)
    (hs : expr.weight_list as' ≤ expr.weight_list as)
    (hv : ∀ (rt : buffer_runtime) (ctx : eval_context) (vs : List Int), rt.nonempty_dims →
      eval_expr_list rt as ctx = some vs → eval_expr_list rt as' ctx = some vs) :
    simplifier.refines (.call fn as) (.call fn as') := by
  refine ⟨by simpa [expr.flat_lets] using hp, fun h => by simpa [expr.plain] using hpl (by simpa [expr.plain] using h),
    by simp only [expr.weight]; omega, fun rt ctx v hrt h => ?_⟩
  simp only [eval_expr] at h ⊢
  cases hx : eval_expr_list rt as ctx with
  | none => simp [hx] at h
  | some vs =>
    rw [hv rt ctx vs hrt hx]
    simpa [hx] using h

theorem simplifier.counted_constant (v : Int) (r r' : symbol_map Int) :
    simplifier.counted (fun s => expr.mentions s (.constant v)) r r' := by
  intro s c hm _
  simp [expr.mentions] at hm

/-- The counts of the result of a rule table, from the counts of the node it was applied
to. -/
theorem simplifier.counted_rules {e e' : expr} {r r' r'' : symbol_map Int}
    (hk : ∀ s c, r.lookup s = some c → ∃ c', r'.lookup s = some c' ∧ c ≤ c')
    (hc : simplifier.counted (fun s => expr.mentions s e) r r')
    (h : (e' = e ∧ r'' = r') ∨ simplifier.counted (fun s => expr.mentions s e') r' r'') :
    simplifier.counted (fun s => expr.mentions s e') r r'' := by
  rcases h with ⟨h1, h2⟩ | h3
  · rw [h1, h2]; exact hc
  · exact simplifier.counted_after hk h3

/-- The simplifier is sound on a `let` whose value has flat lets and whose body is plain. -/
theorem simplifier.visit_let_sound {f : expr → symbol_map Int → mutated} {n : Nat}
    (hf : simplifier.sound_upto f n) (hk : simplifier.keeps f) (s : Nat) (V B : expr)
    (r : symbol_map Int) (hV : V.flat_lets = true) (hB : B.plain = true)
    (hn : (expr.let_ s V B).weight ≤ n + 1) :
    ∃ e' r', simplifier.visit_let f s V B r = some (e', r') ∧
      simplifier.refines (.let_ s V B) e' := by
  simp only [expr.weight] at hn
  have hwV := expr.weight_pos V
  have hwB : B.weight ≤ B.weight * V.weight := Nat.le_mul_of_pos_right _ hwV
  obtain ⟨V', r1, h1, gV, _⟩ := hf V r hV (by omega)
  obtain ⟨B', r2, h2, gB, cB⟩ := hf B (r1.set s (some 0)) (expr.flat_lets_of_plain B hB) (by omega)
  have hB' : B'.plain = true := gB.2.1 hB
  obtain ⟨refs, hrefs, hpos⟩ := hk B (r1.set s (some 0)) (B', r2) s 0 h2
    (by simp [symbol_map.lookup_set])
  have hmul : B'.weight * V'.weight ≤ B.weight * V.weight :=
    Nat.mul_le_mul gB.2.2.1 gV.2.2.1
  have hwB' := gB.2.2.1
  have hwV' := gV.2.2.1
  have hnp : (expr.let_ s V B).plain = true → False := by simp [expr.plain]
  refine ⟨_, _, simplifier.visit_let_template_eq f f substitute expr.let_ s V B r r1 r2 V' B' refs
    h1 h2 hrefs, ?_⟩
  by_cases h0 : refs = 0
  · simp only [h0, if_true]
    have hm : expr.mentions s B' = false := by
      cases hmm : expr.mentions s B' with
      | false => rfl
      | true =>
        obtain ⟨c', hc', hlt⟩ := cB hB s 0 hmm (by simp [symbol_map.lookup_set])
        rw [hrefs, h0] at hc'
        simp only [Option.some.injEq] at hc'
        omega
    refine ⟨expr.flat_lets_of_plain B' hB', fun h => (hnp h).elim,
      by simp only [expr.weight]; omega, fun rt ctx v hrt hv => ?_⟩
    simp only [eval_expr] at hv
    cases hx : eval_expr rt V ctx with
    | none => simp [hx] at hv
    | some x =>
      simp only [hx] at hv
      have := gB.2.2.2 rt _ v hrt hv
      rw [eval_expr_set_unmentioned B' rt ctx s (some x) hB' hm] at this
      exact this
  · simp only [h0, if_false]
    split_ifs with hin
    · obtain ⟨f1, _, f3⟩ := substitute_plain_facts B' s V' hB'
      refine ⟨f1 gV.1, fun h => (hnp h).elim, by simp only [expr.weight]; omega,
        fun rt ctx v hrt hv => ?_⟩
      simp only [eval_expr] at hv
      cases hx : eval_expr rt V ctx with
      | none => simp [hx] at hv
      | some x =>
        simp only [hx] at hv
        rw [eval_expr_substitute B' rt ctx s V' x hB' (gV.2.2.2 rt ctx x hrt hx)]
        exact gB.2.2.2 rt _ v hrt hv
    · refine ⟨by simp [expr.flat_lets, gV.1, hB'], fun h => (hnp h).elim,
        by simp only [expr.weight]; omega, fun rt ctx v hrt hv => ?_⟩
      simp only [eval_expr] at hv ⊢
      cases hx : eval_expr rt V ctx with
      | none => simp [hx] at hv
      | some x =>
        simp only [hx] at hv
        rw [gV.2.2.2 rt ctx x hrt hx]
        exact gB.2.2.2 rt _ v hrt hv

/-- One visit keeps the simplifier sound, one unit of weight further. -/
theorem simplifier.visit_sound {f : expr → symbol_map Int → mutated} {n : Nat}
    (hf : simplifier.sound_upto f n) (hk : simplifier.keeps f) :
    simplifier.sound_upto (simplifier.visit f) (n + 1) := by
  intro e r hp hn
  cases e with
  | var s =>
    simp only [simplifier.visit]
    cases hl : symbol_map.lookup r s with
    | none =>
      refine ⟨_, _, rfl, simplifier.refines_self hp, fun _ t c hm hc => ?_⟩
      simp only [expr.mentions, decide_eq_true_eq] at hm
      subst hm
      rw [hl] at hc
      cases hc
    | some c0 =>
      refine ⟨_, _, rfl, simplifier.refines_self hp, fun _ t c hm hc => ?_⟩
      simp only [expr.mentions, decide_eq_true_eq] at hm
      subst hm
      rw [hl] at hc
      simp only [Option.some.injEq] at hc
      subst hc
      exact ⟨c0 + 1, by simp [symbol_map.lookup_set], by omega⟩
  | wildcard s => simp [expr.flat_lets] at hp
  | constant v => exact ⟨_, _, rfl, simplifier.refines_self hp, fun _ => simplifier.counted_constant _ _ _⟩
  | let_ s v b =>
    simp only [expr.flat_lets, Bool.and_eq_true] at hp
    obtain ⟨e', r', h, g⟩ := simplifier.visit_let_sound hf hk s v b r hp.1 hp.2 hn
    exact ⟨e', r', by simp only [simplifier.visit, h], g, fun hpl => by simp [expr.plain] at hpl⟩
  | logical_not a =>
    simp only [expr.flat_lets] at hp
    simp only [expr.weight] at hn
    obtain ⟨a', r', h, g, hc⟩ := hf a r hp (by omega)
    refine ⟨_, r', by simp only [simplifier.visit, h], simplifier.refines_logical_not g, fun hpl => ?_⟩
    simp only [expr.plain] at hpl
    simpa only [expr.mentions] using hc hpl
  | select c t e =>
    simp only [expr.flat_lets, Bool.and_eq_true] at hp
    simp only [expr.weight] at hn
    obtain ⟨c', r1, h, g, hc⟩ := hf c r hp.1.1 (by omega)
    obtain ⟨t', e', r', hmp, gt, ge, hte⟩ :=
      simplifier.mutate_pair_sound hf hk t e r1 hp.1.2 hp.2 (by omega) (by omega)
    refine ⟨_, r', by simp only [simplifier.visit, h, hmp], simplifier.refines_select g gt ge,
      fun hpl => ?_⟩
    simp only [expr.plain, Bool.and_eq_true] at hpl
    have h1 := simplifier.counted_before (hc hpl.1.1)
      (fun s c hc => simplifier.keeps_pair hk t e r1 _ s c hmp hc)
    have h2 := simplifier.counted_after (fun s k hk0 => hk c r _ s k h hk0) (hte hpl.1.2 hpl.2)
    intro s k hm hk'
    simp only [expr.mentions, Bool.or_eq_true] at hm
    rcases hm with (hm | hm) | hm
    · exact h1 s k hm hk'
    · exact h2 s k (by simp [hm]) hk'
    · exact h2 s k (by simp [hm]) hk'
  | call fn args =>
    simp only [expr.flat_lets] at hp
    simp only [expr.weight] at hn
    obtain ⟨as', r', h, g1, g2, g3, g4, g5⟩ :=
      simplifier.mutate_list_sound hf hk args r hp (by omega)
    refine ⟨_, r', by simp only [simplifier.visit, h], simplifier.refines_call g1 g2 g3 g4,
      fun hpl => ?_⟩
    simp only [expr.plain] at hpl
    simpa only [expr.mentions] using g5 hpl
  | mul a b =>
    simp only [expr.flat_lets, Bool.and_eq_true] at hp
    simp only [expr.weight] at hn
    obtain ⟨a', b', r', hmp, ga, gb, hc⟩ :=
      simplifier.mutate_pair_sound hf hk a b r hp.1 hp.2 (by omega) (by omega)
    refine ⟨_, r', by simp only [simplifier.visit, hmp], simplifier.refines_mul ga gb,
      fun hpl => ?_⟩
    simp only [expr.plain, Bool.and_eq_true] at hpl
    simpa only [expr.mentions] using hc hpl.1 hpl.2
  | div a b =>
    simp only [expr.flat_lets, Bool.and_eq_true] at hp
    simp only [expr.weight] at hn
    obtain ⟨a', b', r', hmp, ga, gb, hc⟩ :=
      simplifier.mutate_pair_sound hf hk a b r hp.1 hp.2 (by omega) (by omega)
    refine ⟨_, r', by simp only [simplifier.visit, hmp], simplifier.refines_div ga gb,
      fun hpl => ?_⟩
    simp only [expr.plain, Bool.and_eq_true] at hpl
    simpa only [expr.mentions] using hc hpl.1 hpl.2
  | mod a b =>
    simp only [expr.flat_lets, Bool.and_eq_true] at hp
    simp only [expr.weight] at hn
    obtain ⟨a', b', r', hmp, ga, gb, hc⟩ :=
      simplifier.mutate_pair_sound hf hk a b r hp.1 hp.2 (by omega) (by omega)
    refine ⟨_, r', by simp only [simplifier.visit, hmp], simplifier.refines_mod ga gb,
      fun hpl => ?_⟩
    simp only [expr.plain, Bool.and_eq_true] at hpl
    simpa only [expr.mentions] using hc hpl.1 hpl.2
  | equal a b =>
    simp only [expr.flat_lets, Bool.and_eq_true] at hp
    simp only [expr.weight] at hn
    obtain ⟨a', b', r', hmp, ga, gb, hc⟩ :=
      simplifier.mutate_pair_sound hf hk a b r hp.1 hp.2 (by omega) (by omega)
    refine ⟨_, r', by simp only [simplifier.visit, hmp], simplifier.refines_equal ga gb,
      fun hpl => ?_⟩
    simp only [expr.plain, Bool.and_eq_true] at hpl
    simpa only [expr.mentions] using hc hpl.1 hpl.2
  | not_equal a b =>
    simp only [expr.flat_lets, Bool.and_eq_true] at hp
    simp only [expr.weight] at hn
    obtain ⟨a', b', r', hmp, ga, gb, hc⟩ :=
      simplifier.mutate_pair_sound hf hk a b r hp.1 hp.2 (by omega) (by omega)
    refine ⟨_, r', by simp only [simplifier.visit, hmp], simplifier.refines_not_equal ga gb,
      fun hpl => ?_⟩
    simp only [expr.plain, Bool.and_eq_true] at hpl
    simpa only [expr.mentions] using hc hpl.1 hpl.2
  | less_equal a b =>
    simp only [expr.flat_lets, Bool.and_eq_true] at hp
    simp only [expr.weight] at hn
    obtain ⟨a', b', r', hmp, ga, gb, hc⟩ :=
      simplifier.mutate_pair_sound hf hk a b r hp.1 hp.2 (by omega) (by omega)
    refine ⟨_, r', by simp only [simplifier.visit, hmp], simplifier.refines_less_equal ga gb,
      fun hpl => ?_⟩
    simp only [expr.plain, Bool.and_eq_true] at hpl
    simpa only [expr.mentions] using hc hpl.1 hpl.2
  | logical_and a b =>
    simp only [expr.flat_lets, Bool.and_eq_true] at hp
    simp only [expr.weight] at hn
    obtain ⟨a', b', r', hmp, ga, gb, hc⟩ :=
      simplifier.mutate_pair_sound hf hk a b r hp.1 hp.2 (by omega) (by omega)
    refine ⟨_, r', by simp only [simplifier.visit, hmp], simplifier.refines_logical_and ga gb,
      fun hpl => ?_⟩
    simp only [expr.plain, Bool.and_eq_true] at hpl
    simpa only [expr.mentions] using hc hpl.1 hpl.2
  | logical_or a b =>
    simp only [expr.flat_lets, Bool.and_eq_true] at hp
    simp only [expr.weight] at hn
    obtain ⟨a', b', r', hmp, ga, gb, hc⟩ :=
      simplifier.mutate_pair_sound hf hk a b r hp.1 hp.2 (by omega) (by omega)
    refine ⟨_, r', by simp only [simplifier.visit, hmp], simplifier.refines_logical_or ga gb,
      fun hpl => ?_⟩
    simp only [expr.plain, Bool.and_eq_true] at hpl
    simpa only [expr.mentions] using hc hpl.1 hpl.2
  | less a b =>
    simp only [expr.flat_lets, Bool.and_eq_true] at hp
    simp only [expr.weight] at hn
    obtain ⟨a', b', r', hmp, ga, gb, hc⟩ :=
      simplifier.mutate_pair_sound hf hk a b r hp.1 hp.2 (by omega) (by omega)
    have hcong := simplifier.refines_less ga gb
    have hcm : (expr.less a b).plain = true →
        simplifier.counted (fun s => expr.mentions s (.less a' b')) r r' := fun hpl => by
      simp only [expr.plain, Bool.and_eq_true] at hpl
      simpa only [expr.mentions] using hc hpl.1 hpl.2
    simp only [simplifier.visit, hmp]
    cases hca : is_constant a' with
    | none => exact ⟨_, _, rfl, hcong, hcm⟩
    | some ca =>
      cases hcb : is_constant b' with
      | none => exact ⟨_, _, rfl, hcong, hcm⟩
      | some cb =>
        refine ⟨_, _, rfl, simplifier.refines_trans hcong ?_,
          fun _ => simplifier.counted_constant _ _ _⟩
        rw [is_constant_some hca, is_constant_some hcb]
        exact simplifier.refines_fold_less ca cb
  | min a b =>
    simp only [expr.flat_lets, Bool.and_eq_true] at hp
    simp only [expr.weight] at hn
    obtain ⟨a', b', r', hmp, ga, gb, hc⟩ :=
      simplifier.mutate_pair_sound hf hk a b r hp.1 hp.2 (by omega) (by omega)
    have hcong := simplifier.refines_min ga gb
    have hrules := simplifier.apply_rules_sound hf _ simplifier.min_rules_sound (.min a' b') r' hcong.1
      (by have := hcong.2.2.1; simp only [expr.weight] at this ⊢; omega)
    obtain ⟨e', r'', h, g, gc⟩ := hrules
    have hcm : (expr.min a b).plain = true →
        simplifier.counted (fun s => expr.mentions s e') r r'' := fun hpl => by
      refine simplifier.counted_rules
        (fun s c hc => simplifier.keeps_pair hk a b r _ s c hmp hc) ?_ (gc (hcong.2.1 hpl))
      simp only [expr.plain, Bool.and_eq_true] at hpl
      simpa only [expr.mentions] using hc hpl.1 hpl.2
    simp only [simplifier.visit, hmp]
    cases hca : is_constant a' with
    | none => exact ⟨e', r'', h, simplifier.refines_trans hcong g, hcm⟩
    | some ca =>
      cases hcb : is_constant b' with
      | none => exact ⟨e', r'', h, simplifier.refines_trans hcong g, hcm⟩
      | some cb =>
        refine ⟨_, _, rfl, simplifier.refines_trans hcong ?_,
          fun _ => simplifier.counted_constant _ _ _⟩
        rw [is_constant_some hca, is_constant_some hcb]
        exact simplifier.refines_fold_min ca cb
  | max a b =>
    simp only [expr.flat_lets, Bool.and_eq_true] at hp
    simp only [expr.weight] at hn
    obtain ⟨a', b', r', hmp, ga, gb, hc⟩ :=
      simplifier.mutate_pair_sound hf hk a b r hp.1 hp.2 (by omega) (by omega)
    have hcong := simplifier.refines_max ga gb
    have hrules := simplifier.apply_rules_sound hf _ simplifier.max_rules_sound (.max a' b') r' hcong.1
      (by have := hcong.2.2.1; simp only [expr.weight] at this ⊢; omega)
    obtain ⟨e', r'', h, g, gc⟩ := hrules
    have hcm : (expr.max a b).plain = true →
        simplifier.counted (fun s => expr.mentions s e') r r'' := fun hpl => by
      refine simplifier.counted_rules
        (fun s c hc => simplifier.keeps_pair hk a b r _ s c hmp hc) ?_ (gc (hcong.2.1 hpl))
      simp only [expr.plain, Bool.and_eq_true] at hpl
      simpa only [expr.mentions] using hc hpl.1 hpl.2
    simp only [simplifier.visit, hmp]
    cases hca : is_constant a' with
    | none => exact ⟨e', r'', h, simplifier.refines_trans hcong g, hcm⟩
    | some ca =>
      cases hcb : is_constant b' with
      | none => exact ⟨e', r'', h, simplifier.refines_trans hcong g, hcm⟩
      | some cb =>
        refine ⟨_, _, rfl, simplifier.refines_trans hcong ?_,
          fun _ => simplifier.counted_constant _ _ _⟩
        rw [is_constant_some hca, is_constant_some hcb]
        exact simplifier.refines_fold_max ca cb
  | add a b =>
    simp only [expr.flat_lets, Bool.and_eq_true] at hp
    simp only [expr.weight] at hn
    obtain ⟨a', b', r', hmp, ga, gb, hc⟩ :=
      simplifier.mutate_pair_sound hf hk a b r hp.1 hp.2 (by omega) (by omega)
    have hcong := simplifier.refines_add ga gb
    have hrules := simplifier.apply_rules_sound hf _ simplifier.add_rules_sound (.add a' b') r' hcong.1
      (by have := hcong.2.2.1; simp only [expr.weight] at this ⊢; omega)
    obtain ⟨e', r'', h, g, gc⟩ := hrules
    have hcm : (expr.add a b).plain = true →
        simplifier.counted (fun s => expr.mentions s e') r r'' := fun hpl => by
      refine simplifier.counted_rules
        (fun s c hc => simplifier.keeps_pair hk a b r _ s c hmp hc) ?_ (gc (hcong.2.1 hpl))
      simp only [expr.plain, Bool.and_eq_true] at hpl
      simpa only [expr.mentions] using hc hpl.1 hpl.2
    simp only [simplifier.visit, hmp]
    cases hca : is_constant a' with
    | none => exact ⟨e', r'', h, simplifier.refines_trans hcong g, hcm⟩
    | some ca =>
      cases hcb : is_constant b' with
      | none => exact ⟨e', r'', h, simplifier.refines_trans hcong g, hcm⟩
      | some cb =>
        refine ⟨_, _, rfl, simplifier.refines_trans hcong ?_,
          fun _ => simplifier.counted_constant _ _ _⟩
        rw [is_constant_some hca, is_constant_some hcb]
        exact simplifier.refines_fold_add ca cb
  | sub a b =>
    simp only [expr.flat_lets, Bool.and_eq_true] at hp
    simp only [expr.weight] at hn
    obtain ⟨a', b', r', hmp, ga, gb, hc⟩ :=
      simplifier.mutate_pair_sound hf hk a b r hp.1 hp.2 (by omega) (by omega)
    have hcong := simplifier.refines_sub ga gb
    have hrules := simplifier.apply_rules_sound hf _ simplifier.sub_rules_sound (.sub a' b') r' hcong.1
      (by have := hcong.2.2.1; simp only [expr.weight] at this ⊢; omega)
    obtain ⟨e', r'', h, g, gc⟩ := hrules
    have hcm : (expr.sub a b).plain = true →
        simplifier.counted (fun s => expr.mentions s e') r r'' := fun hpl => by
      refine simplifier.counted_rules
        (fun s c hc => simplifier.keeps_pair hk a b r _ s c hmp hc) ?_ (gc (hcong.2.1 hpl))
      simp only [expr.plain, Bool.and_eq_true] at hpl
      simpa only [expr.mentions] using hc hpl.1 hpl.2
    simp only [simplifier.visit, hmp]
    cases hca : is_constant a' with
    | none => exact ⟨e', r'', h, simplifier.refines_trans hcong g, hcm⟩
    | some ca =>
      cases hcb : is_constant b' with
      | none => exact ⟨e', r'', h, simplifier.refines_trans hcong g, hcm⟩
      | some cb =>
        refine ⟨_, _, rfl, simplifier.refines_trans hcong ?_,
          fun _ => simplifier.counted_constant _ _ _⟩
        rw [is_constant_some hca, is_constant_some hcb]
        exact simplifier.refines_fold_sub ca cb

/-- With a budget of at least its weight, every expression with flat lets is simplified to a
refinement. -/
theorem simplifier.mutate_sound : ∀ (n : Nat), simplifier.sound_upto (simplifier.mutate n) n
  | 0 => by
    intro e r _ hn
    have := expr.weight_pos e
    omega
  | n + 1 => simplifier.visit_sound (simplifier.mutate_sound n) (simplifier.keeps_mutate n)

/-! ## Following the simplifier on given expressions: proofs -/

theorem simplifier.yields_mono {n m : Nat} {e e' : expr} (h : simplifier.yields n e e')
    (hnm : n ≤ m) : simplifier.yields m e e' := by
  intro r
  obtain ⟨r', hr⟩ := h r
  exact ⟨r', simplifier.mutate_mono hnm e r _ hr⟩

theorem simplifier.yields_simplify {n : Nat} {e e' : expr} (h : simplifier.yields n e e')
    (fuel : Nat) (hf : n ≤ fuel) : simplify fuel e = some e' := by
  obtain ⟨r', hr⟩ := simplifier.yields_mono h hf []
  simp [simplify, hr]

theorem simplifier.yields_var (n s : Nat) : simplifier.yields (n + 1) (.var s) (.var s) := by
  intro r
  simp only [simplifier.mutate, simplifier.visit]
  cases symbol_map.lookup r s with
  | none => exact ⟨_, rfl⟩
  | some c => exact ⟨_, rfl⟩

theorem simplifier.yields_constant (n : Nat) (v : Int) :
    simplifier.yields (n + 1) (.constant v) (.constant v) :=
  fun r => ⟨r, rfl⟩

theorem simplifier.yields_wildcard (n s : Nat) :
    simplifier.yields (n + 1) (.wildcard s) (.wildcard s) :=
  fun r => ⟨r, rfl⟩

theorem simplifier.yields_pair {n : Nat} {a b a' b' : expr} (ha : simplifier.yields n a a')
    (hb : simplifier.yields n b b') (r : symbol_map Int) :
    ∃ r', simplifier.mutate_pair (simplifier.mutate n) a b r = some (a', b', r') := by
  obtain ⟨r1, h1⟩ := ha r
  obtain ⟨r2, h2⟩ := hb r1
  exact ⟨r2, by simp [simplifier.mutate_pair, h1, h2]⟩

theorem simplifier.yields_mul {n : Nat} {a b a' b' : expr} (ha : simplifier.yields n a a')
    (hb : simplifier.yields n b b') : simplifier.yields (n + 1) (.mul a b) (.mul a' b') := by
  intro r
  obtain ⟨r', h⟩ := simplifier.yields_pair ha hb r
  exact ⟨r', by simp only [simplifier.mutate, simplifier.visit, h]⟩

theorem simplifier.yields_div {n : Nat} {a b a' b' : expr} (ha : simplifier.yields n a a')
    (hb : simplifier.yields n b b') : simplifier.yields (n + 1) (.div a b) (.div a' b') := by
  intro r
  obtain ⟨r', h⟩ := simplifier.yields_pair ha hb r
  exact ⟨r', by simp only [simplifier.mutate, simplifier.visit, h]⟩

theorem simplifier.yields_mod {n : Nat} {a b a' b' : expr} (ha : simplifier.yields n a a')
    (hb : simplifier.yields n b b') : simplifier.yields (n + 1) (.mod a b) (.mod a' b') := by
  intro r
  obtain ⟨r', h⟩ := simplifier.yields_pair ha hb r
  exact ⟨r', by simp only [simplifier.mutate, simplifier.visit, h]⟩

theorem simplifier.yields_equal {n : Nat} {a b a' b' : expr} (ha : simplifier.yields n a a')
    (hb : simplifier.yields n b b') : simplifier.yields (n + 1) (.equal a b) (.equal a' b') := by
  intro r
  obtain ⟨r', h⟩ := simplifier.yields_pair ha hb r
  exact ⟨r', by simp only [simplifier.mutate, simplifier.visit, h]⟩

theorem simplifier.yields_not_equal {n : Nat} {a b a' b' : expr} (ha : simplifier.yields n a a')
    (hb : simplifier.yields n b b') : simplifier.yields (n + 1) (.not_equal a b) (.not_equal a' b') := by
  intro r
  obtain ⟨r', h⟩ := simplifier.yields_pair ha hb r
  exact ⟨r', by simp only [simplifier.mutate, simplifier.visit, h]⟩

theorem simplifier.yields_less_equal {n : Nat} {a b a' b' : expr} (ha : simplifier.yields n a a')
    (hb : simplifier.yields n b b') : simplifier.yields (n + 1) (.less_equal a b) (.less_equal a' b') := by
  intro r
  obtain ⟨r', h⟩ := simplifier.yields_pair ha hb r
  exact ⟨r', by simp only [simplifier.mutate, simplifier.visit, h]⟩

theorem simplifier.yields_logical_and {n : Nat} {a b a' b' : expr} (ha : simplifier.yields n a a')
    (hb : simplifier.yields n b b') : simplifier.yields (n + 1) (.logical_and a b) (.logical_and a' b') := by
  intro r
  obtain ⟨r', h⟩ := simplifier.yields_pair ha hb r
  exact ⟨r', by simp only [simplifier.mutate, simplifier.visit, h]⟩

theorem simplifier.yields_logical_or {n : Nat} {a b a' b' : expr} (ha : simplifier.yields n a a')
    (hb : simplifier.yields n b b') : simplifier.yields (n + 1) (.logical_or a b) (.logical_or a' b') := by
  intro r
  obtain ⟨r', h⟩ := simplifier.yields_pair ha hb r
  exact ⟨r', by simp only [simplifier.mutate, simplifier.visit, h]⟩

theorem simplifier.yields_logical_not {n : Nat} {a a' : expr} (ha : simplifier.yields n a a') :
    simplifier.yields (n + 1) (.logical_not a) (.logical_not a') := by
  intro r
  obtain ⟨r', h⟩ := ha r
  exact ⟨r', by simp only [simplifier.mutate, simplifier.visit, h]⟩

theorem simplifier.yields_select {n : Nat} {c t f c' t' f' : expr} (hc : simplifier.yields n c c')
    (ht : simplifier.yields n t t') (hf : simplifier.yields n f f') :
    simplifier.yields (n + 1) (.select c t f) (.select c' t' f') := by
  intro r
  obtain ⟨r1, h1⟩ := hc r
  obtain ⟨r', h⟩ := simplifier.yields_pair ht hf r1
  exact ⟨r', by simp only [simplifier.mutate, simplifier.visit, h1, h]⟩

theorem simplifier.yields_call2 {n : Nat} (fn : intrinsic) {a b a' b' : expr}
    (ha : simplifier.yields n a a') (hb : simplifier.yields n b b') :
    simplifier.yields (n + 1) (.call fn [a, b]) (.call fn [a', b']) := by
  intro r
  obtain ⟨r1, h1⟩ := ha r
  obtain ⟨r2, h2⟩ := hb r1
  exact ⟨r2, by simp only [simplifier.mutate, simplifier.visit, simplifier.mutate_list, h1, h2]⟩

theorem simplifier.yields_less {n : Nat} {a b a' b' : expr} (ha : simplifier.yields n a a')
    (hb : simplifier.yields n b b') (hc : is_constant a' = none ∨ is_constant b' = none) :
    simplifier.yields (n + 1) (.less a b) (.less a' b') := by
  intro r
  obtain ⟨r', h⟩ := simplifier.yields_pair ha hb r
  refine ⟨r', ?_⟩
  simp only [simplifier.mutate, simplifier.visit, h]
  rcases hc with hc | hc
  · rw [hc]
  · rw [hc]; cases is_constant a' <;> rfl

theorem simplifier.yields_less_fold {n : Nat} {a b : expr} {ca cb : Int}
    (ha : simplifier.yields n a (.constant ca)) (hb : simplifier.yields n b (.constant cb)) :
    simplifier.yields (n + 1) (.less a b) (.constant (bool_to_index (decide (ca < cb)))) := by
  intro r
  obtain ⟨r', h⟩ := simplifier.yields_pair ha hb r
  exact ⟨r', by simp only [simplifier.mutate, simplifier.visit, h, is_constant]⟩

theorem simplifier.yields_add_fold {n : Nat} {a b : expr} {ca cb : Int}
    (ha : simplifier.yields n a (.constant ca)) (hb : simplifier.yields n b (.constant cb)) :
    simplifier.yields (n + 1) (.add a b) (.constant (wrap (ca + cb))) := by
  intro r
  obtain ⟨r', h⟩ := simplifier.yields_pair ha hb r
  exact ⟨r', by simp only [simplifier.mutate, simplifier.visit, h, is_constant]⟩

theorem simplifier.yields_add_rules {n : Nat} {a b a' b' res : expr}
    (ha : simplifier.yields n a a') (hb : simplifier.yields n b b')
    (hc : is_constant a' = none ∨ is_constant b' = none)
    (hr : ∀ r, ∃ r', simplifier.apply_rules (simplifier.mutate n) simplifier.add_rules
      (.add a' b') r = some (res, r')) :
    simplifier.yields (n + 1) (.add a b) res := by
  intro r
  obtain ⟨r1, h⟩ := simplifier.yields_pair ha hb r
  obtain ⟨r', h'⟩ := hr r1
  refine ⟨r', ?_⟩
  simp only [simplifier.mutate, simplifier.visit, h]
  rcases hc with hc | hc
  · rw [hc]; exact h'
  · rw [hc]; cases is_constant a' <;> exact h'

theorem simplifier.yields_sub_fold {n : Nat} {a b : expr} {ca cb : Int}
    (ha : simplifier.yields n a (.constant ca)) (hb : simplifier.yields n b (.constant cb)) :
    simplifier.yields (n + 1) (.sub a b) (.constant (wrap (ca - cb))) := by
  intro r
  obtain ⟨r', h⟩ := simplifier.yields_pair ha hb r
  exact ⟨r', by simp only [simplifier.mutate, simplifier.visit, h, is_constant]⟩

theorem simplifier.yields_sub_rules {n : Nat} {a b a' b' res : expr}
    (ha : simplifier.yields n a a') (hb : simplifier.yields n b b')
    (hc : is_constant a' = none ∨ is_constant b' = none)
    (hr : ∀ r, ∃ r', simplifier.apply_rules (simplifier.mutate n) simplifier.sub_rules
      (.sub a' b') r = some (res, r')) :
    simplifier.yields (n + 1) (.sub a b) res := by
  intro r
  obtain ⟨r1, h⟩ := simplifier.yields_pair ha hb r
  obtain ⟨r', h'⟩ := hr r1
  refine ⟨r', ?_⟩
  simp only [simplifier.mutate, simplifier.visit, h]
  rcases hc with hc | hc
  · rw [hc]; exact h'
  · rw [hc]; cases is_constant a' <;> exact h'

theorem simplifier.yields_min_fold {n : Nat} {a b : expr} {ca cb : Int}
    (ha : simplifier.yields n a (.constant ca)) (hb : simplifier.yields n b (.constant cb)) :
    simplifier.yields (n + 1) (.min a b) (.constant (Min.min ca cb)) := by
  intro r
  obtain ⟨r', h⟩ := simplifier.yields_pair ha hb r
  exact ⟨r', by simp only [simplifier.mutate, simplifier.visit, h, is_constant]⟩

theorem simplifier.yields_min_rules {n : Nat} {a b a' b' res : expr}
    (ha : simplifier.yields n a a') (hb : simplifier.yields n b b')
    (hc : is_constant a' = none ∨ is_constant b' = none)
    (hr : ∀ r, ∃ r', simplifier.apply_rules (simplifier.mutate n) simplifier.min_rules
      (.min a' b') r = some (res, r')) :
    simplifier.yields (n + 1) (.min a b) res := by
  intro r
  obtain ⟨r1, h⟩ := simplifier.yields_pair ha hb r
  obtain ⟨r', h'⟩ := hr r1
  refine ⟨r', ?_⟩
  simp only [simplifier.mutate, simplifier.visit, h]
  rcases hc with hc | hc
  · rw [hc]; exact h'
  · rw [hc]; cases is_constant a' <;> exact h'

theorem simplifier.yields_max_fold {n : Nat} {a b : expr} {ca cb : Int}
    (ha : simplifier.yields n a (.constant ca)) (hb : simplifier.yields n b (.constant cb)) :
    simplifier.yields (n + 1) (.max a b) (.constant (Max.max ca cb)) := by
  intro r
  obtain ⟨r', h⟩ := simplifier.yields_pair ha hb r
  exact ⟨r', by simp only [simplifier.mutate, simplifier.visit, h, is_constant]⟩

theorem simplifier.yields_max_rules {n : Nat} {a b a' b' res : expr}
    (ha : simplifier.yields n a a') (hb : simplifier.yields n b b')
    (hc : is_constant a' = none ∨ is_constant b' = none)
    (hr : ∀ r, ∃ r', simplifier.apply_rules (simplifier.mutate n) simplifier.max_rules
      (.max a' b') r = some (res, r')) :
    simplifier.yields (n + 1) (.max a b) res := by
  intro r
  obtain ⟨r1, h⟩ := simplifier.yields_pair ha hb r
  obtain ⟨r', h'⟩ := hr r1
  refine ⟨r', ?_⟩
  simp only [simplifier.mutate, simplifier.visit, h]
  rcases hc with hc | hc
  · rw [hc]; exact h'
  · rw [hc]; cases is_constant a' <;> exact h'

theorem expr.beq_self (e : expr) : expr.beq e e = true := (expr.beq_iff e e).2 rfl

theorem expr.beq_false_of_ne {a b : expr} (h : a ≠ b) : expr.beq a b = false := by
  cases hb : expr.beq a b with
  | false => rfl
  | true => exact absurd ((expr.beq_iff a b).1 hb) h

/-! ## Claims about the rule tables and constant folding -/

/-- C3: Under Euclidean division, for all integers x, y and every z > 0,
min(x div z, y div z) = min(x, y) div z and max(x div z, y div z) = max(x, y) div z; so the
two equal-divisor rules rewrite an expression into one the evaluator gives the same value. -/
theorem equal_divisor_rules_preserve_value (x y z : Int) (hz : 0 < z) :
    Min.min (euclidean_div x z) (euclidean_div y z) = euclidean_div (Min.min x y) z ∧
    Max.max (euclidean_div x z) (euclidean_div y z) = euclidean_div (Max.max x y) z ∧
    ∀ (rt : buffer_runtime) (ctx : eval_context) (X Y Z : expr),
      evaluate rt X ctx = some x → evaluate rt Y ctx = some y → evaluate rt Z ctx = some z →
      evaluate rt (.min (.div X Z) (.div Y Z)) ctx = evaluate rt (.div (.min X Y) Z) ctx ∧
      evaluate rt (.max (.div X Z) (.div Y Z)) ctx = evaluate rt (.div (.max X Y) Z) ctx := by
  refine ⟨euclidean_div_min hz, euclidean_div_max hz, fun rt ctx X Y Z hx hy hzv => ?_⟩
  unfold evaluate at hx hy hzv ⊢
  simp only [eval_expr, hx, hy, hzv, euclidean_div_min hz, euclidean_div_max hz, and_self]

theorem equal_divisor_rules_preserve_value_witness :
    (0 : Int) < 2 ∧
      Min.min (euclidean_div 5 2) (euclidean_div 9 2) = euclidean_div (Min.min 5 9) 2 ∧
      Max.max (euclidean_div 5 2) (euclidean_div 9 2) = euclidean_div (Max.max 5 9) 2 :=
  ⟨by decide, (equal_divisor_rules_preserve_value 5 9 2 (by decide)).1,
    (equal_divisor_rules_preserve_value 5 9 2 (by decide)).2.1⟩

/-- C4 (as stated, refuted): with a variable divisor the predicate `c > 0` cannot be proved,
so `min(a/c, b/c)` is returned unchanged; it is not rewritten to `min(a, b)/c`. -/
theorem scenario_s4_counterexample :
    simplify 10 (.min (.div (.var 3) (.var 5)) (.div (.var 4) (.var 5)))
        = some (.min (.div (.var 3) (.var 5)) (.div (.var 4) (.var 5))) ∧
      simplify 10 (.min (.div (.var 3) (.var 5)) (.div (.var 4) (.var 5)))
        ≠ some (.div (.min (.var 3) (.var 4)) (.var 5)) := by
  decide

theorem simplifier.min_div_vars_rules (a b c : Nat) (hab : a ≠ b) (r : symbol_map Int) :
    simplifier.apply_rules (simplifier.mutate 2) simplifier.min_rules
      (.min (.div (.var a) (.var c)) (.div (.var b) (.var c))) r
      = some (.min (.div (.var a) (.var c)) (.div (.var b) (.var c)), r) := by
  simp [simplifier.apply_rules, simplifier.min_rules, match_, match_bind, match_either,
    bindings.find, List.lookup, expr.beq, simplifier.x, simplifier.y, simplifier.z, substitute,
    simplifier.can_prove_with, simplifier.mutate, simplifier.visit, simplifier.mutate_pair,
    is_constant, buffer_min, buffer_max, symbol_map.lookup_nil, hab, Ne.symm hab]

theorem simplifier.min_vars_rules (a b : Nat) (hab : a ≠ b) (n : Nat) (r : symbol_map Int) :
    simplifier.apply_rules (simplifier.mutate n) simplifier.min_rules
      (.min (.var a) (.var b)) r = some (.min (.var a) (.var b), r) := by
  simp [simplifier.apply_rules, simplifier.min_rules, match_, match_bind, match_either,
    bindings.find, List.lookup, expr.beq, simplifier.x, simplifier.y, simplifier.z,
    buffer_min, buffer_max, hab, Ne.symm hab]

theorem simplifier.min_div_const_rules (a b : Nat) (hab : a ≠ b) (k : Int) (hk : 0 < k)
    (r : symbol_map Int) :
    ∃ r', simplifier.apply_rules (simplifier.mutate 3) simplifier.min_rules
      (.min (.div (.var a) (.constant k)) (.div (.var b) (.constant k))) r
      = some (.div (.min (.var a) (.var b)) (.constant k), r') := by
  have h1 : simplifier.yields 3 (.div (.min (.var a) (.var b)) (.constant k))
      (.div (.min (.var a) (.var b)) (.constant k)) :=
    simplifier.yields_div
      (simplifier.yields_min_rules (simplifier.yields_var 0 a) (simplifier.yields_var 0 b)
        (Or.inl rfl) (fun r => ⟨r, simplifier.min_vars_rules a b hab 1 r⟩))
      (simplifier.yields_constant 1 k)
  obtain ⟨r', hr'⟩ := h1 r
  refine ⟨r', ?_⟩
  have hcp : simplifier.can_prove_with (simplifier.mutate 3) (.less (.constant 0) (.constant k))
      = some true := by
    simp [simplifier.can_prove_with, simplifier.mutate, simplifier.visit, simplifier.mutate_pair,
      is_constant, bool_to_index, hk]
  simp [simplifier.apply_rules, simplifier.min_rules, match_, match_bind, match_either,
    bindings.find, List.lookup, expr.beq, simplifier.x, simplifier.y, simplifier.z, substitute,
    hcp, hr', hab, Ne.symm hab]

/-- C4 (amended): for distinct variables a, b and a variable c, simplify returns
`min(a/c, b/c)` unchanged; when the divisor is a positive constant k, simplify rewrites
`min(a/k, b/k)` to `min(a, b)/k`.  Under a = 5, b = 9, c = 2 both `min(a/c, b/c)` and
`min(a, b)/c` evaluate to 2. -/
theorem scenario_s4 (a b c : Nat) (hab : a ≠ b) (k : Int) (hk : 0 < k) :
    (∀ fuel, 4 ≤ fuel →
      simplify fuel (.min (.div (.var a) (.var c)) (.div (.var b) (.var c)))
        = some (.min (.div (.var a) (.var c)) (.div (.var b) (.var c)))) ∧
    (∀ fuel, 4 ≤ fuel →
      simplify fuel (.min (.div (.var a) (.constant k)) (.div (.var b) (.constant k)))
        = some (.div (.min (.var a) (.var b)) (.constant k))) ∧
    (∀ (rt : buffer_runtime) (ctx : eval_context),
      ctx.lookup a = some 5 → ctx.lookup b = some 9 → ctx.lookup c = some 2 →
      evaluate rt (.min (.div (.var a) (.var c)) (.div (.var b) (.var c))) ctx = some 2 ∧
      evaluate rt (.div (.min (.var a) (.var b)) (.var c)) ctx = some 2) := by
  refine ⟨fun fuel hf => ?_, fun fuel hf => ?_, fun rt ctx ha hb hc => ?_⟩
  · refine simplifier.yields_simplify (simplifier.yields_min_rules (n := 2)
      (simplifier.yields_div (simplifier.yields_var 0 a) (simplifier.yields_var 0 c))
      (simplifier.yields_div (simplifier.yields_var 0 b) (simplifier.yields_var 0 c))
      (Or.inl rfl) (fun r => ⟨r, simplifier.min_div_vars_rules a b c hab r⟩)) fuel (by omega)
  · refine simplifier.yields_simplify (simplifier.yields_min_rules (n := 3)
      (simplifier.yields_div (simplifier.yields_var 1 a) (simplifier.yields_constant 1 k))
      (simplifier.yields_div (simplifier.yields_var 1 b) (simplifier.yields_constant 1 k))
      (Or.inl rfl) (fun r => simplifier.min_div_const_rules a b hab k hk r)) fuel hf
  · simp only [evaluate, eval_expr, ha, hb, hc]
    decide

theorem scenario_s4_witness :
    (3 : Nat) ≠ 4 ∧ (0 : Int) < 2 ∧
      simplify 4 (.min (.div (.var 3) (.constant 2)) (.div (.var 4) (.constant 2)))
        = some (.div (.min (.var 3) (.var 4)) (.constant 2)) :=
  ⟨by decide, by decide, (scenario_s4 3 4 5 (by decide) 2 (by decide)).2.1 4 (Nat.le_refl 4)⟩

/-- C5 (as stated, refuted): the dimension argument is simplified too, so for the dimension
expression `1 + 1` the result is `buffer_extent(B, 2)`, not `buffer_extent(B, 1 + 1)`. -/
theorem scenario_s5_counterexample :
    simplify 10 (.add (.sub (buffer_max (.var 7) (.add (.constant 1) (.constant 1)))
          (buffer_min (.var 7) (.add (.constant 1) (.constant 1)))) (.constant 1))
        = some (buffer_extent (.var 7) (.constant 2)) ∧
      simplify 10 (.add (.sub (buffer_max (.var 7) (.add (.constant 1) (.constant 1)))
          (buffer_min (.var 7) (.add (.constant 1) (.constant 1)))) (.constant 1))
        ≠ some (buffer_extent (.var 7) (.add (.constant 1) (.constant 1))) := by
  decide

theorem simplifier.bounds_sub_rules (B : Nat) (d : expr) (n : Nat) (r : symbol_map Int) :
    simplifier.apply_rules (simplifier.mutate n) simplifier.sub_rules
      (.sub (buffer_max (.var B) d) (buffer_min (.var B) d)) r
      = some (.sub (buffer_max (.var B) d) (buffer_min (.var B) d), r) := by
  simp [simplifier.apply_rules, simplifier.sub_rules, match_, match_bind, match_list,
    bindings.find, List.lookup, expr.beq, simplifier.x, simplifier.y,
    buffer_min, buffer_max, buffer_extent]

theorem simplifier.bounds_add_rules (B : Nat) (d : expr) (n : Nat) (r : symbol_map Int) :
    simplifier.apply_rules (simplifier.mutate n) simplifier.add_rules
      (.add (buffer_min (.var B) d) (buffer_extent (.var B) d)) r
      = some (.add (buffer_min (.var B) d) (buffer_extent (.var B) d), r) := by
  simp [simplifier.apply_rules, simplifier.add_rules, match_, match_either,
    buffer_min, buffer_max, buffer_extent]

theorem simplifier.extent_rule_fires (B : Nat) (d : expr) (n : Nat) (r r' : symbol_map Int)
    (h : simplifier.mutate n (buffer_extent (.var B) d) r = some (buffer_extent (.var B) d, r')) :
    simplifier.apply_rules (simplifier.mutate n) simplifier.add_rules
      (.add (.sub (buffer_max (.var B) d) (buffer_min (.var B) d)) (.constant 1)) r
      = some (buffer_extent (.var B) d, r') := by
  unfold buffer_extent at h
  simp [simplifier.apply_rules, simplifier.add_rules, match_, match_bind, match_list, match_either,
    bindings.find, List.lookup, expr.beq, expr.beq_self, simplifier.x, simplifier.y, substitute,
    substitute_list, buffer_min, buffer_max, buffer_extent, h]

theorem simplifier.max_rule_fires (B : Nat) (d : expr) (n : Nat) (r r' : symbol_map Int)
    (h : simplifier.mutate n (buffer_max (.var B) d) r = some (buffer_max (.var B) d, r')) :
    simplifier.apply_rules (simplifier.mutate n) simplifier.sub_rules
      (.sub (.add (buffer_min (.var B) d) (buffer_extent (.var B) d)) (.constant 1)) r
      = some (buffer_max (.var B) d, r') := by
  unfold buffer_max at h
  simp [simplifier.apply_rules, simplifier.sub_rules, match_, match_bind, match_list, match_either,
    bindings.find, List.lookup, expr.beq, expr.beq_self, simplifier.x, simplifier.y, substitute,
    substitute_list, buffer_min, buffer_max, buffer_extent, h]

/-- C5 (amended): for every buffer variable B and every dimension expression d that the
simplifier returns unchanged (every constant and every variable is one), simplify rewrites
`(buffer_max(B,d) - buffer_min(B,d)) + 1` to `buffer_extent(B,d)` and
`(buffer_min(B,d) + buffer_extent(B,d)) - 1` to `buffer_max(B,d)`. -/
theorem scenario_s5 (B : Nat) (d : expr) (n : Nat) (hd : simplifier.yields (n + 1) d d) :
    (∀ fuel, n + 4 ≤ fuel →
      simplify fuel (.add (.sub (buffer_max (.var B) d) (buffer_min (.var B) d)) (.constant 1))
        = some (buffer_extent (.var B) d)) ∧
    (∀ fuel, n + 4 ≤ fuel →
      simplify fuel (.sub (.add (buffer_min (.var B) d) (buffer_extent (.var B) d)) (.constant 1))
        = some (buffer_max (.var B) d)) := by
  have hB : simplifier.yields (n + 1) (.var B) (.var B) := simplifier.yields_var n B
  have hmax : simplifier.yields (n + 2) (buffer_max (.var B) d) (buffer_max (.var B) d) :=
    simplifier.yields_call2 _ hB hd
  have hmin : simplifier.yields (n + 2) (buffer_min (.var B) d) (buffer_min (.var B) d) :=
    simplifier.yields_call2 _ hB hd
  have hext : simplifier.yields (n + 2) (buffer_extent (.var B) d) (buffer_extent (.var B) d) :=
    simplifier.yields_call2 _ hB hd
  have c1 : simplifier.yields (n + 3) (.constant 1) (.constant 1) :=
    simplifier.yields_constant _ 1
  constructor
  · intro fuel hf
    have hsub := simplifier.yields_sub_rules hmax hmin (Or.inl rfl)
      (fun r => ⟨r, simplifier.bounds_sub_rules B d _ r⟩)
    refine simplifier.yields_simplify (simplifier.yields_add_rules hsub c1 (Or.inl rfl)
      (fun r => ?_)) fuel hf
    obtain ⟨r', hr'⟩ := simplifier.yields_mono hext (Nat.le_succ _) r
    exact ⟨r', simplifier.extent_rule_fires B d _ r r' hr'⟩
  · intro fuel hf
    have hadd := simplifier.yields_add_rules hmin hext (Or.inl rfl)
      (fun r => ⟨r, simplifier.bounds_add_rules B d _ r⟩)
    refine simplifier.yields_simplify (simplifier.yields_sub_rules hadd c1 (Or.inl rfl)
      (fun r => ?_)) fuel hf
    obtain ⟨r', hr'⟩ := simplifier.yields_mono hmax (Nat.le_succ _) r
    exact ⟨r', simplifier.max_rule_fires B d _ r r' hr'⟩

theorem scenario_s5_witness :
    simplifier.yields 1 (.constant 0) (.constant 0) ∧
      simplify 4 (.add (.sub (buffer_max (.var 7) (.constant 0))
          (buffer_min (.var 7) (.constant 0))) (.constant 1))
        = some (buffer_extent (.var 7) (.constant 0)) :=
  ⟨simplifier.yields_constant 0 0,
    (scenario_s5 7 (.constant 0) 0 (simplifier.yields_constant 0 0)).1 4 (Nat.le_refl 4)⟩

/-- C6 (as stated, refuted): `add(INT64_MAX, 1)` has children that are constants and an exact
sum that does not fit in 64 bits, yet simplify folds it (to the wrapped value) instead of
returning the `add` node. -/
theorem overflow_fold_counterexample :
    ¬ fits_index_t (9223372036854775807 + 1) ∧
      simplify 10 (.add (.constant 9223372036854775807) (.constant 1))
        = some (.constant (-9223372036854775808)) ∧
      simplify 10 (.add (.constant 9223372036854775807) (.constant 1))
        ≠ some (.add (.constant 9223372036854775807) (.constant 1)) := by
  decide

/-- C6 (amended): an add, sub, min, max or less node whose children are constants is always
folded to a constant, whether or not the exact result fits in a signed 64-bit integer: add
and sub store the result reduced to 64 bits (two's complement), which is the exact result
whenever that fits; min, max and less store the exact result. -/
theorem constant_children_always_fold (ca cb : Int) (n : Nat) :
    simplify (n + 2) (.add (.constant ca) (.constant cb)) = some (.constant (wrap (ca + cb))) ∧
    simplify (n + 2) (.sub (.constant ca) (.constant cb)) = some (.constant (wrap (ca - cb))) ∧
    simplify (n + 2) (.min (.constant ca) (.constant cb)) = some (.constant (Min.min ca cb)) ∧
    simplify (n + 2) (.max (.constant ca) (.constant cb)) = some (.constant (Max.max ca cb)) ∧
    simplify (n + 2) (.less (.constant ca) (.constant cb))
      = some (.constant (bool_to_index (decide (ca < cb)))) ∧
    fits_index_t (wrap (ca + cb)) ∧ fits_index_t (wrap (ca - cb)) ∧
    (fits_index_t (ca + cb) → wrap (ca + cb) = ca + cb) ∧
    (fits_index_t (ca - cb) → wrap (ca - cb) = ca - cb) := by
  have ha := simplifier.yields_constant n ca
  have hb := simplifier.yields_constant n cb
  exact ⟨simplifier.yields_simplify (simplifier.yields_add_fold ha hb) _ (Nat.le_refl _),
    simplifier.yields_simplify (simplifier.yields_sub_fold ha hb) _ (Nat.le_refl _),
    simplifier.yields_simplify (simplifier.yields_min_fold ha hb) _ (Nat.le_refl _),
    simplifier.yields_simplify (simplifier.yields_max_fold ha hb) _ (Nat.le_refl _),
    simplifier.yields_simplify (simplifier.yields_less_fold ha hb) _ (Nat.le_refl _),
    fits_wrap _, fits_wrap _, wrap_of_fits, wrap_of_fits⟩

/-- C7 (as stated, refuted): `mul(2, 3)` has constant children but is not folded; simplify
returns the `mul` node, not the constant 6. -/
theorem constant_folding_counterexample :
    simplify 10 (.mul (.constant 2) (.constant 3)) = some (.mul (.constant 2) (.constant 3)) ∧
      simplify 10 (.mul (.constant 2) (.constant 3)) ≠ some (.constant 6) ∧
      evaluate ⟨fun _ => none, fun _ => 0, fun _ _ => 0⟩ (.mul (.constant 2) (.constant 3)) []
        = some 6 := by
  decide

/-- C7 (amended): when the children of a node simplify to the constants ca and cb, simplify
returns, for add, sub, min, max and less, the constant that the evaluator computes for the
operator on ca and cb; for mul, div, mod, equal, not_equal, less_equal, logical_and,
logical_or and logical_not it returns the node rebuilt on the constants, not folded. -/
theorem constant_folding (n : Nat) (a b : expr) (ca cb : Int)
    (ha : simplifier.yields n a (.constant ca)) (hb : simplifier.yields n b (.constant cb)) :
    (∃ v, simplifier.yields (n + 1) (.add a b) (.constant v) ∧
      ∀ rt ctx, evaluate rt (.add (.constant ca) (.constant cb)) ctx = some v) ∧
    (∃ v, simplifier.yields (n + 1) (.sub a b) (.constant v) ∧
      ∀ rt ctx, evaluate rt (.sub (.constant ca) (.constant cb)) ctx = some v) ∧
    (∃ v, simplifier.yields (n + 1) (.min a b) (.constant v) ∧
      ∀ rt ctx, evaluate rt (.min (.constant ca) (.constant cb)) ctx = some v) ∧
    (∃ v, simplifier.yields (n + 1) (.max a b) (.constant v) ∧
      ∀ rt ctx, evaluate rt (.max (.constant ca) (.constant cb)) ctx = some v) ∧
    (∃ v, simplifier.yields (n + 1) (.less a b) (.constant v) ∧
      ∀ rt ctx, evaluate rt (.less (.constant ca) (.constant cb)) ctx = some v) ∧
    simplifier.yields (n + 1) (.mul a b) (.mul (.constant ca) (.constant cb)) ∧
    simplifier.yields (n + 1) (.div a b) (.div (.constant ca) (.constant cb)) ∧
    simplifier.yields (n + 1) (.mod a b) (.mod (.constant ca) (.constant cb)) ∧
    simplifier.yields (n + 1) (.equal a b) (.equal (.constant ca) (.constant cb)) ∧
    simplifier.yields (n + 1) (.not_equal a b) (.not_equal (.constant ca) (.constant cb)) ∧
    simplifier.yields (n + 1) (.less_equal a b) (.less_equal (.constant ca) (.constant cb)) ∧
    simplifier.yields (n + 1) (.logical_and a b) (.logical_and (.constant ca) (.constant cb)) ∧
    simplifier.yields (n + 1) (.logical_or a b) (.logical_or (.constant ca) (.constant cb)) ∧
    simplifier.yields (n + 1) (.logical_not a) (.logical_not (.constant ca)) :=
  ⟨⟨_, simplifier.yields_add_fold ha hb, fun _ _ => rfl⟩,
    ⟨_, simplifier.yields_sub_fold ha hb, fun _ _ => rfl⟩,
    ⟨_, simplifier.yields_min_fold ha hb, fun _ _ => rfl⟩,
    ⟨_, simplifier.yields_max_fold ha hb, fun _ _ => rfl⟩,
    ⟨_, simplifier.yields_less_fold ha hb, fun _ _ => rfl⟩,
    simplifier.yields_mul ha hb, simplifier.yields_div ha hb, simplifier.yields_mod ha hb,
    simplifier.yields_equal ha hb, simplifier.yields_not_equal ha hb,
    simplifier.yields_less_equal ha hb, simplifier.yields_logical_and ha hb,
    simplifier.yields_logical_or ha hb, simplifier.yields_logical_not ha⟩

theorem constant_folding_witness :
    simplifier.yields 2 (.add (.constant 1) (.constant 2)) (.constant 3) ∧
      simplifier.yields 2 (.constant 4) (.constant 4) ∧
      ∃ v, simplifier.yields 3 (.add (.add (.constant 1) (.constant 2)) (.constant 4)) (.constant v) ∧
        ∀ rt ctx, evaluate rt (.add (.constant 3) (.constant 4)) ctx = some v :=
  ⟨simplifier.yields_add_fold (simplifier.yields_constant 0 1) (simplifier.yields_constant 0 2),
    simplifier.yields_constant 1 4,
    (constant_folding 2 (.add (.constant 1) (.constant 2)) (.constant 4) 3 4
      (simplifier.yields_add_fold (simplifier.yields_constant 0 1) (simplifier.yields_constant 0 2))
      (simplifier.yields_constant 1 4)).1⟩

/-- C8 (as stated, refuted): the tables hold no rule for `x+0`, `x*1`, `x*0` or `select`, so
these are returned as they are; and `min(x,x)` is rewritten to the simplified x, which for
x = 1+1 is 2 and not x. -/
theorem identity_rules_counterexample :
    simplify 10 (.add (.var 3) (.constant 0)) = some (.add (.var 3) (.constant 0)) ∧
    simplify 10 (.mul (.var 3) (.constant 1)) = some (.mul (.var 3) (.constant 1)) ∧
    simplify 10 (.mul (.var 3) (.constant 0)) = some (.mul (.var 3) (.constant 0)) ∧
    simplify 10 (.select (.constant 1) (.var 3) (.var 4))
      = some (.select (.constant 1) (.var 3) (.var 4)) ∧
    simplify 10 (.select (.constant 0) (.var 3) (.var 4))
      = some (.select (.constant 0) (.var 3) (.var 4)) ∧
    simplify 10 (.min (.add (.constant 1) (.constant 1)) (.add (.constant 1) (.constant 1)))
      = some (.constant 2) := by
  decide

theorem simplifier.mutate_constant_eq {n : Nat} {c : Int} {e : expr} {r r' : symbol_map Int}
    (h : simplifier.mutate n (.constant c) r = some (e, r')) : e = .constant c := by
  cases n with
  | zero => simp [simplifier.mutate] at h
  | succ n =>
    simp only [simplifier.mutate, simplifier.visit, Option.some.injEq, Prod.mk.injEq] at h
    exact h.1.symm

theorem match_add_one_zero (P e : expr) (hP : ∀ m, match_ P (.constant 0) m = none) :
    match_ (.add P (.constant 1)) (.add e (.constant 0)) [] = none := by
  simp only [match_, hP, match_either]
  cases match_ P e [] <;> simp

theorem simplifier.add_zero_rules (e : expr) (n : Nat) (r : symbol_map Int) :
    simplifier.apply_rules (simplifier.mutate n) simplifier.add_rules (.add e (.constant 0)) r
      = some (.add e (.constant 0), r) := by
  have h := match_add_one_zero
    (.sub (buffer_max simplifier.x simplifier.y) (buffer_min simplifier.x simplifier.y)) e
    (fun m => by simp [match_])
  simp only [simplifier.apply_rules, simplifier.add_rules, h]

theorem simplifier.self_rule_match (e : expr) :
    match_bind 0 e [(0, e)] = some [(0, e)] := by
  simp [match_bind, bindings.find, List.lookup, expr.beq_self]

/-- C8 (amended): for every x, with x' what x simplifies to and x'' what x' simplifies to:
simplify rewrites `x - x` to 0 and `min(x,x)` and `max(x,x)` to x'' (so to x itself when
simplify leaves x unchanged).  There is no rule for `x+0`, `x*1`, `x*0` or `select`:
`x*1`, `x*0` and `select(c,t,f)` come back rebuilt on their simplified children, and so does
`x+0` unless x' is a constant. -/
theorem identity_rules (n : Nat) (x x' x'' t t' f f' : expr) (c : Int)
    (hx : simplifier.yields (n + 1) x x') (hx' : simplifier.yields (n + 1) x' x'')
    (ht : simplifier.yields (n + 1) t t') (hf : simplifier.yields (n + 1) f f') :
    simplifier.yields (n + 2) (.sub x x) (.constant 0) ∧
    simplifier.yields (n + 2) (.min x x) x'' ∧
    simplifier.yields (n + 2) (.max x x) x'' ∧
    (is_constant x' = none → simplifier.yields (n + 2) (.add x (.constant 0)) (.add x' (.constant 0))) ∧
    simplifier.yields (n + 2) (.mul x (.constant 1)) (.mul x' (.constant 1)) ∧
    simplifier.yields (n + 2) (.mul x (.constant 0)) (.mul x' (.constant 0)) ∧
    simplifier.yields (n + 2) (.select (.constant c) t f) (.select (.constant c) t' f') := by
  have hc : ∀ v, simplifier.yields (n + 1) (.constant v) (.constant v) :=
    fun v => simplifier.yields_constant n v
  refine ⟨?_, ?_, ?_, ?_, simplifier.yields_mul hx (hc 1), simplifier.yields_mul hx (hc 0),
    simplifier.yields_select (hc c) ht hf⟩
  · cases hk : is_constant x' with
    | some k =>
      rw [is_constant_some hk] at hx
      have := simplifier.yields_sub_fold hx hx
      rwa [wrap_sub_self] at this
    | none =>
      refine simplifier.yields_sub_rules hx hx (Or.inl hk) (fun r => ⟨r, ?_⟩)
      simp [simplifier.apply_rules, simplifier.sub_rules, match_, match_bind, bindings.find,
        List.lookup, expr.beq_self, simplifier.x, substitute, simplifier.mutate, simplifier.visit]
  · cases hk : is_constant x' with
    | some k =>
      rw [is_constant_some hk] at hx hx'
      obtain ⟨r', hr'⟩ := hx' []
      rw [simplifier.mutate_constant_eq hr']
      have := simplifier.yields_min_fold hx hx
      rwa [min_self] at this
    | none =>
      refine simplifier.yields_min_rules hx hx (Or.inl hk) (fun r => ?_)
      obtain ⟨r', hr'⟩ := hx' r
      refine ⟨r', ?_⟩
      simp [simplifier.apply_rules, simplifier.min_rules, match_, match_bind, match_either,
        bindings.find, List.lookup, expr.beq_self, simplifier.x, substitute, hr']
  · cases hk : is_constant x' with
    | some k =>
      rw [is_constant_some hk] at hx hx'
      obtain ⟨r', hr'⟩ := hx' []
      rw [simplifier.mutate_constant_eq hr']
      have := simplifier.yields_max_fold hx hx
      rwa [max_self] at this
    | none =>
      refine simplifier.yields_max_rules hx hx (Or.inl hk) (fun r => ?_)
      obtain ⟨r', hr'⟩ := hx' r
      refine ⟨r', ?_⟩
      simp [simplifier.apply_rules, simplifier.max_rules, match_, match_bind, match_either,
        bindings.find, List.lookup, expr.beq_self, simplifier.x, substitute, hr']
  · intro hk
    exact simplifier.yields_add_rules hx (hc 0) (Or.inl hk)
      (fun r => ⟨r, simplifier.add_zero_rules x' _ r⟩)

theorem identity_rules_witness :
    simplifier.yields 1 (.var 3) (.var 3) ∧
      simplifier.yields 2 (.sub (.var 3) (.var 3)) (.constant 0) ∧
      simplifier.yields 2 (.min (.var 3) (.var 3)) (.var 3) :=
  ⟨simplifier.yields_var 0 3,
    (identity_rules 0 (.var 3) (.var 3) (.var 3) (.var 4) (.var 4) (.var 5) (.var 5) 1
      (simplifier.yields_var 0 3) (simplifier.yields_var 0 3) (simplifier.yields_var 0 4)
      (simplifier.yields_var 0 5)).1,
    (identity_rules 0 (.var 3) (.var 3) (.var 3) (.var 4) (.var 4) (.var 5) (.var 5) 1
      (simplifier.yields_var 0 3) (simplifier.yields_var 0 3) (simplifier.yields_var 0 4)
      (simplifier.yields_var 0 5)).2.1⟩

/-! ## Soundness of `simplify` and `can_prove`: proofs -/

/-- C1 (as stated, refuted), at four inputs.
(a) `let v1 = v0 in let v0 = v2 + v3 in (v1 + v0) + v0`: inlining v1 puts the outer v0 under
the inner binding of v0; with v0 = 10, v2 = 0, v3 = 1 the value changes from 12 to 3.
(b) `min(buffer_min(b,0), buffer_max(b,0))` is rewritten to `buffer_min(b,0)`; on a buffer
whose dim 0 is the empty range [0,-1] the value changes from -1 to 0.
(c) `let v3 = 5 in wildcard(3)`: wildcards are not counted as references, the let is
dropped, and with v3 = 7 outside the value changes from 5 to 7.
(d) `let v1 = v0 * 2 in let v4 = v1 in let v0 = v2 + v2 in (v4 + v0) + v0`: no `let` of the
input captures when it is inlined on its own (`expr.admits` holds for each of the three: v1
does not stand under the binding of v0, and the value of v4 does not read v0), but inlining
v4 first puts v1 under the binding of v0, and inlining v1 then captures; with v0 = 10, v2 = 1
the value changes from 24 to 8.  So it is not enough to bar the lets that capture as
written: the value of a `let` must read no symbol that a `let` inside its body binds. -/
theorem simplify_soundness_counterexample :
    (simplify 10 (.let_ 1 (.var 0) (.let_ 0 (.add (.var 2) (.var 3))
          (.add (.add (.var 1) (.var 0)) (.var 0))))
        = some (.let_ 0 (.add (.var 2) (.var 3)) (.add (.add (.var 0) (.var 0)) (.var 0))) ∧
      evaluate empty_buffer_runtime (.let_ 1 (.var 0) (.let_ 0 (.add (.var 2) (.var 3))
          (.add (.add (.var 1) (.var 0)) (.var 0)))) [some 10, none, some 0, some 1] = some 12 ∧
      evaluate empty_buffer_runtime
          (.let_ 0 (.add (.var 2) (.var 3)) (.add (.add (.var 0) (.var 0)) (.var 0)))
          [some 10, none, some 0, some 1] = some 3) ∧
    (simplify 10 (.min (buffer_min (.var 0) (.constant 0)) (buffer_max (.var 0) (.constant 0)))
        = some (buffer_min (.var 0) (.constant 0)) ∧
      evaluate empty_buffer_runtime
          (.min (buffer_min (.var 0) (.constant 0)) (buffer_max (.var 0) (.constant 0)))
          [some 100] = some (-1) ∧
      evaluate empty_buffer_runtime (buffer_min (.var 0) (.constant 0)) [some 100] = some 0) ∧
    (simplify 10 (.let_ 3 (.constant 5) (.wildcard 3)) = some (.wildcard 3) ∧
      evaluate empty_buffer_runtime (.let_ 3 (.constant 5) (.wildcard 3))
          [none, none, none, some 7] = some 5 ∧
      evaluate empty_buffer_runtime (.wildcard 3) [none, none, none, some 7] = some 7) ∧
    (simplify 20 (.let_ 1 (.mul (.var 0) (.constant 2)) (.let_ 4 (.var 1)
          (.let_ 0 (.add (.var 2) (.var 2)) (.add (.add (.var 4) (.var 0)) (.var 0)))))
        = some (.let_ 0 (.add (.var 2) (.var 2))
            (.add (.add (.mul (.var 0) (.constant 2)) (.var 0)) (.var 0))) ∧
      expr.admits 1 (.mul (.var 0) (.constant 2)) (.let_ 4 (.var 1)
          (.let_ 0 (.add (.var 2) (.var 2)) (.add (.add (.var 4) (.var 0)) (.var 0)))) = true ∧
      expr.admits 4 (.var 1)
          (.let_ 0 (.add (.var 2) (.var 2)) (.add (.add (.var 4) (.var 0)) (.var 0))) = true ∧
      expr.admits 0 (.add (.var 2) (.var 2)) (.add (.add (.var 4) (.var 0)) (.var 0)) = true ∧
      evaluate empty_buffer_runtime (.let_ 1 (.mul (.var 0) (.constant 2)) (.let_ 4 (.var 1)
          (.let_ 0 (.add (.var 2) (.var 2)) (.add (.add (.var 4) (.var 0)) (.var 0)))))
          [some 10, none, some 1] = some 24 ∧
      evaluate empty_buffer_runtime (.let_ 0 (.add (.var 2) (.var 2))
            (.add (.add (.mul (.var 0) (.constant 2)) (.var 0)) (.var 0)))
          [some 10, none, some 1] = some 8) := by
  decide

/-- C2 (as stated, refuted), at three inputs on which can_prove answers true and the
expression evaluates to 0.
(a) `(buffer_min(b,0) - min(buffer_min(b,0), buffer_max(b,0))) < 1`: the inner min is
rewritten to `buffer_min(b,0)`, the difference to 0, and `0 < 1` folds to 1; on a buffer whose
dim 0 is the empty range [0,-1] the difference is 1.
(b) `(L - K) < 1` with `L = let v1 = v0 * 2 in let v4 = v1 in let v0 = v2 + v2 in (v4 + v0) + v0`
and `K = let v0 = v2 + v2 in ((v0 * 2) + v0) + v0`: inlining v4, then v1, turns L into K by
capture, the difference of the two equal trees is rewritten to 0, and `0 < 1` folds to 1; with
v0 = 10, v2 = 1 the difference is 24 - 8.
(c) `((let v3 = 5 in wildcard(3)) - wildcard(3)) < 1`: the let is dropped around the wildcard,
the difference is rewritten to 0; with v3 = 0 outside the difference is 5. -/
theorem can_prove_soundness_counterexample :
    (can_prove 10 (.less (.sub (buffer_min (.var 0) (.constant 0))
        (.min (buffer_min (.var 0) (.constant 0)) (buffer_max (.var 0) (.constant 0))))
        (.constant 1)) = some true ∧
      evaluate empty_buffer_runtime (.less (.sub (buffer_min (.var 0) (.constant 0))
        (.min (buffer_min (.var 0) (.constant 0)) (buffer_max (.var 0) (.constant 0))))
        (.constant 1)) [some 100] = some 0) ∧
    (can_prove 30 (.less (.sub
          (.let_ 1 (.mul (.var 0) (.constant 2)) (.let_ 4 (.var 1)
            (.let_ 0 (.add (.var 2) (.var 2)) (.add (.add (.var 4) (.var 0)) (.var 0)))))
          (.let_ 0 (.add (.var 2) (.var 2))
            (.add (.add (.mul (.var 0) (.constant 2)) (.var 0)) (.var 0))))
        (.constant 1)) = some true ∧
      evaluate empty_buffer_runtime (.less (.sub
          (.let_ 1 (.mul (.var 0) (.constant 2)) (.let_ 4 (.var 1)
            (.let_ 0 (.add (.var 2) (.var 2)) (.add (.add (.var 4) (.var 0)) (.var 0)))))
          (.let_ 0 (.add (.var 2) (.var 2))
            (.add (.add (.mul (.var 0) (.constant 2)) (.var 0)) (.var 0))))
        (.constant 1)) [some 10, none, some 1] = some 0) ∧
    (can_prove 10 (.less (.sub (.let_ 3 (.constant 5) (.wildcard 3)) (.wildcard 3))
        (.constant 1)) = some true ∧
      evaluate empty_buffer_runtime (.less (.sub (.let_ 3 (.constant 5) (.wildcard 3))
        (.wildcard 3)) (.constant 1)) [none, none, none, some 0] = some 0) := by
  decide

/-- C9 (as stated, refuted), at three lets whose value `v8 + v9` is neither a constant, a
variable nor a metadata load.
(a) `let v5 = v8+v9 in (let v6 = v5 in 0) + v5`: the simplified body `0 + v5` holds v5 exactly
once, yet the let is kept (the dropped inner let had counted a reference).
(b) `let v5 = v8+v9 in let v6 = v5 in v6 + v6`: the simplified body `v5 + v5` holds v5 twice,
yet the value is inlined (only the value of the inner let was counted).
(c) `let v5 = v8+v9 in v5 - v5`: the simplified body `0` holds v5 zero times, yet the let is
kept. -/
theorem let_handling_counterexample :
    (simplify 10 (.add (.let_ 6 (.var 5) (.constant 0)) (.var 5))
        = some (.add (.constant 0) (.var 5)) ∧
      simplify 10 (.let_ 5 (.add (.var 8) (.var 9)) (.add (.let_ 6 (.var 5) (.constant 0)) (.var 5)))
        = some (.let_ 5 (.add (.var 8) (.var 9)) (.add (.constant 0) (.var 5)))) ∧
    (simplify 10 (.let_ 6 (.var 5) (.add (.var 6) (.var 6))) = some (.add (.var 5) (.var 5)) ∧
      simplify 10 (.let_ 5 (.add (.var 8) (.var 9)) (.let_ 6 (.var 5) (.add (.var 6) (.var 6))))
        = some (.add (.add (.var 8) (.var 9)) (.add (.var 8) (.var 9)))) ∧
    (simplify 10 (.sub (.var 5) (.var 5)) = some (.constant 0) ∧
      simplify 10 (.let_ 5 (.add (.var 8) (.var 9)) (.sub (.var 5) (.var 5)))
        = some (.let_ 5 (.add (.var 8) (.var 9)) (.constant 0))) := by
  decide

/-- C9 (amended): for every let with simplified value v and simplified body b, the outcome is
chosen by the reference count refs that the simplifier has for the bound symbol once the body
is simplified (it starts at 0 for the body and every visit of a variable node naming the
symbol adds 1), not by the occurrences left in b: the result is b when refs = 0; b with v
substituted for the symbol when refs = 1 or v is a constant, a variable or a buffer-metadata
load; and a let node binding the symbol to v over b otherwise.  The count is always set and
never negative, and on exit the symbol's count is what it was after the value was simplified.
The same holds for the template at any body type (statement lets). -/
theorem let_handling (n name : Nat) (value body v b : expr) (r r1 r2 : symbol_map Int)
    (hv : simplifier.mutate n value r = some (v, r1))
    (hb : simplifier.mutate n body (r1.set name (some 0)) = some (b, r2)) :
    (∃ refs : Int, 0 ≤ refs ∧ r2.lookup name = some refs ∧
      simplifier.mutate (n + 1) (.let_ name value body) r =
        some (if refs = 0 then b
              else if refs = 1 ∨ (is_constant v).isSome ∨ is_variable v ∨ is_load_buffer_meta v then
                substitute b [(name, v)]
              else .let_ name v b,
              r2.set name (r1.lookup name))) ∧
    (∀ (β : Type) (mutate_body : β → symbol_map Int → Option (β × symbol_map Int))
      (substitute_body : β → bindings → β) (make : Nat → expr → β → β) (sbody sb : β)
      (q2 : symbol_map Int) (refs : Int),
      mutate_body sbody (r1.set name (some 0)) = some (sb, q2) → q2.lookup name = some refs →
      simplifier.visit_let_template (simplifier.mutate n) mutate_body substitute_body make name
          value sbody r =
        some (if refs = 0 then sb
              else if refs = 1 ∨ (is_constant v).isSome ∨ is_variable v ∨ is_load_buffer_meta v then
                substitute_body sb [(name, v)]
              else make name v sb,
              q2.set name (r1.lookup name))) := by
  constructor
  · have h0 : symbol_map.lookup (symbol_map.set r1 name (some 0)) name = some 0 := by
      rw [symbol_map.lookup_set]; simp
    obtain ⟨refs, hr, hle⟩ := simplifier.keeps_mutate n body _ _ name 0 hb h0
    exact ⟨refs, hle, hr, simplifier.visit_let_template_eq _ _ _ _ name value body r r1 r2 v b refs
      hv hb hr⟩
  · intro β mutate_body substitute_body make sbody sb q2 refs hsb hq
    exact simplifier.visit_let_template_eq _ _ _ _ name value sbody r r1 q2 v sb refs hv hsb hq

theorem let_handling_witness :
    simplifier.mutate 2 (.add (.var 8) (.var 9)) [] =
        some (.add (.var 8) (.var 9),
          [none, none, none, none, none, none, none, none, some 1, some 1, none, none, none,
            none, none, none, none, none]) ∧
      ∃ refs : Int, 0 ≤ refs ∧
        simplifier.mutate 3 (.let_ 5 (.add (.var 8) (.var 9)) (.sub (.var 5) (.var 5))) [] =
          some (if refs = 0 then .constant 0
                else if refs = 1 ∨ (is_constant (.add (.var 8) (.var 9))).isSome ∨
                    is_variable (.add (.var 8) (.var 9)) ∨
                    is_load_buffer_meta (.add (.var 8) (.var 9)) then
                  substitute (.constant 0) [(5, .add (.var 8) (.var 9))]
                else .let_ 5 (.add (.var 8) (.var 9)) (.constant 0),
                symbol_map.set
                  [none, none, none, none, none, some 2, none, none, some 1, some 1, none, none,
                    none, none, none, none, none, none] 5
                  (symbol_map.lookup
                    [none, none, none, none, none, none, none, none, some 1, some 1, none, none,
                      none, none, none, none, none, none] 5)) :=
  ⟨by decide,
    match (let_handling 2 5 (.add (.var 8) (.var 9)) (.sub (.var 5) (.var 5))
        (.add (.var 8) (.var 9)) (.constant 0) []
        [none, none, none, none, none, none, none, none, some 1, some 1, none, none, none, none,
          none, none, none, none]
        [none, none, none, none, none, some 2, none, none, some 1, some 1, none, none, none,
          none, none, none, none, none]
        (by decide) (by decide)).1 with
    | ⟨refs, h0, _, h⟩ => ⟨refs, h0, h⟩⟩

/-! ## The statement evaluator: a larger budget never changes a run that returned -/

theorem run_result.bind_eq_finished {r : run_result} {f : machine → run_result} {m' : machine} :
    r.bind f = .finished m' ↔ ∃ m1, r = .finished m1 ∧ f m1 = .finished m' := by
  cases r <;> simp [run_result.bind]

theorem run_result.of_option_eq_finished {α : Type} {m : machine} {o : Option α}
    {f : α → run_result} {m' : machine} :
    run_result.of_option m o f = .finished m' ↔ ∃ a, o = some a ∧ f a = .finished m' := by
  cases o <;> simp [run_result.of_option]

theorem run_result.bind_finished (m : machine) (f : machine → run_result) :
    (run_result.finished m).bind f = f m := rfl

theorem run_result.of_option_some {α : Type} (m : machine) (a : α) (f : α → run_result) :
    run_result.of_option m (some a) f = f a := rfl

theorem evaluator.run_loop_mono {f g : machine → run_result}
    (h : ∀ m m', f m = .finished m' → g m = .finished m') (sym : Nat) (lo hi st : Int) :
    ∀ (n n' : Nat), n ≤ n' → ∀ (i : Int) (m m' : machine),
      evaluator.run_loop f sym lo hi st n i m = .finished m' →
      evaluator.run_loop g sym lo hi st n' i m = .finished m'
  | 0, n', _, i, m, m', hr => by
    unfold evaluator.run_loop at hr ⊢
    by_cases hc : m.result = 0 ∧ lo ≤ i ∧ i ≤ hi
    · simp [hc] at hr
    · simpa [hc] using hr
  | n + 1, 0, hn, _, _, _, _ => by omega
  | n + 1, n' + 1, hn, i, m, m', hr => by
    unfold evaluator.run_loop at hr ⊢
    by_cases hc : m.result = 0 ∧ lo ≤ i ∧ i ≤ hi
    · simp only [hc, and_self, if_true] at hr ⊢
      obtain ⟨m1, h1, h2⟩ := run_result.bind_eq_finished.mp hr
      rw [h _ _ h1, run_result.bind_finished]
      exact evaluator.run_loop_mono h sym lo hi st n n' (by omega) _ _ _ h2
    · simpa [hc] using hr

theorem evaluator.visit_stmt_mono (env : eval_env) {f g : stmt → machine → run_result}
    (h : ∀ s m m', f s m = .finished m' → g s m = .finished m') {n n' : Nat} (hn : n ≤ n') (s : stmt) (m m' : machine)
    (hr : evaluator.visit env n f s m = .finished m') :
    evaluator.visit env n' g s m = .finished m' := by
  cases s with
  | let_stmt sym value body =>
    simp only [evaluator.visit, run_result.of_option_eq_finished,
      run_result.bind_eq_finished] at hr ⊢
    obtain ⟨a, ha, m1, h1, h2⟩ := hr
    exact ⟨a, ha, m1, h _ _ _ h1, h2⟩
  | block a b =>
    simp only [evaluator.visit, run_result.bind_eq_finished] at hr ⊢
    obtain ⟨m1, h1, h2⟩ := hr
    refine ⟨m1, ?_, ?_⟩
    · by_cases h0 : m.result = 0
      · simp only [h0, if_true] at h1 ⊢; exact h _ _ _ h1
      · simpa [h0] using h1
    · by_cases h0 : m1.result = 0
      · simp only [h0, if_true] at h2 ⊢; exact h _ _ _ h2
      · simpa [h0] using h2
  | loop sym lo hi step body =>
    simp only [evaluator.visit, run_result.of_option_eq_finished,
      run_result.bind_eq_finished] at hr ⊢
    obtain ⟨a, ha, b, hb, c, hc, m1, h1, h2⟩ := hr
    exact ⟨a, ha, b, hb, c, hc, m1,
      evaluator.run_loop_mono (fun x y hxy => h _ _ _ hxy) sym _ _ _ n n' hn _ _ _ h1, h2⟩
  | if_then_else c t e =>
    simp only [evaluator.visit, run_result.of_option_eq_finished] at hr ⊢
    obtain ⟨⟨v, m1⟩, ha, h1⟩ := hr
    refine ⟨(v, m1), ha, ?_⟩
    dsimp only at h1 ⊢
    by_cases hc : v = 0
    · simp only [hc, ne_eq, not_true_eq_false, if_false] at h1 ⊢
      cases e with
      | none => exact h1
      | some b => exact h _ _ _ h1
    · simp only [hc, ne_eq, not_false_eq_true, if_true] at h1 ⊢
      cases t with
      | none => exact h1
      | some b => exact h _ _ _ h1
  | call_func k => simpa only [evaluator.visit] using hr
  | allocate storage sym es dims body =>
    simp only [evaluator.visit, run_result.of_option_eq_finished,
      run_result.bind_eq_finished] at hr ⊢
    obtain ⟨a, ha, m1, h1, h2⟩ := hr
    exact ⟨a, ha, m1, h _ _ _ h1, h2⟩
  | make_buffer sym base es dims body =>
    simp only [evaluator.visit, run_result.of_option_eq_finished,
      run_result.bind_eq_finished] at hr ⊢
    obtain ⟨a, ha, b, hb, c, hc, m1, h1, h2⟩ := hr
    exact ⟨a, ha, b, hb, c, hc, m1, h _ _ _ h1, h2⟩
  | crop_buffer sym bounds body =>
    simp only [evaluator.visit, run_result.of_option_eq_finished,
      run_result.bind_eq_finished] at hr ⊢
    obtain ⟨a, ha, b, hb, c, hc, m1, h1, h2⟩ := hr
    exact ⟨a, ha, b, hb, c, hc, m1, h _ _ _ h1, h2⟩
  | crop_dim sym d lo hi same body =>
    simp only [evaluator.visit, run_result.of_option_eq_finished,
      run_result.bind_eq_finished] at hr ⊢
    obtain ⟨a, ha, b, hb, c, hc, e, he, m1, h1, h2⟩ := hr
    exact ⟨a, ha, b, hb, c, hc, e, he, m1, h _ _ _ h1, h2⟩
  | slice_buffer sym at_ body =>
    simp only [evaluator.visit, run_result.of_option_eq_finished] at hr ⊢
    obtain ⟨a, ha, h1⟩ := hr
    refine ⟨a, ha, ?_⟩
    by_cases hl : a.2.dims.length < a.2.rank
    · simp [hl] at h1
    · simp only [hl, if_false, run_result.of_option_eq_finished,
        run_result.bind_eq_finished] at h1 ⊢
      obtain ⟨b, hb, c, hc, m1, h2, h3⟩ := h1
      exact ⟨b, hb, c, hc, m1, h _ _ _ h2, h3⟩
  | slice_dim sym d at_ body =>
    simp only [evaluator.visit, run_result.of_option_eq_finished] at hr ⊢
    obtain ⟨a, ha, b, hb, h1⟩ := hr
    refine ⟨a, ha, b, hb, ?_⟩
    by_cases hl : a.2.dims.length < a.2.rank ∨ a.2.rank ≤ d
    · simp [hl] at h1
    · simp only [hl, if_false, run_result.of_option_eq_finished,
        run_result.bind_eq_finished] at h1 ⊢
      obtain ⟨c, hc, m1, h2, h3⟩ := h1
      exact ⟨c, hc, m1, h _ _ _ h2, h3⟩
  | truncate_rank sym r body =>
    simp only [evaluator.visit, run_result.of_option_eq_finished,
      run_result.bind_eq_finished] at hr ⊢
    obtain ⟨a, ha, m1, h1, h2⟩ := hr
    exact ⟨a, ha, m1, h _ _ _ h1, h2⟩
  | check c => simpa only [evaluator.visit] using hr

theorem evaluator.run_mono_succ (env : eval_env) :
    ∀ (n : Nat) (s : stmt) (m m' : machine), evaluator.run env n s m = .finished m' →
      evaluator.run env (n + 1) s m = .finished m'
  | 0, s, m, m', h => by simp [evaluator.run] at h
  | n + 1, s, m, m', h => evaluator.visit_stmt_mono env (evaluator.run_mono_succ env n) (Nat.le_succ n) s m m' h

/-- A run that returned returns the same with any larger budget. -/
theorem evaluator.run_mono (env : eval_env) {n n' : Nat} (hn : n ≤ n') (s : stmt)
    (m m' : machine) (h : evaluator.run env n s m = .finished m') :
    evaluator.run env n' s m = .finished m' := by
  induction hn with
  | refl => exact h
  | step _ ih => exact evaluator.run_mono_succ env _ s m m' ih

/-! ## Expression arithmetic, `check` and `block` -/

theorem bool_to_index_zero_or_one (b : Bool) : bool_to_index b = 0 ∨ bool_to_index b = 1 := by
  cases b <;> simp [bool_to_index]

/-- Claim C16 (amended). Whenever the operands `ea` and `eb` evaluate to `a` and `b`: for a
positive `b` the nodes `div` and `mod` evaluate to a quotient `q` and a remainder `r` with
`a = q * b + r` and `0 ≤ r < b`, which are `index_t` values when `a` and `b` are; and each
comparison (`equal`, `not_equal`, `less`, `less_equal`), `logical_and`, `logical_or` and
`logical_not` evaluates, to 0 or to 1. -/
theorem expression_arithmetic (rt : buffer_runtime) (ctx : eval_context) (ea eb : expr)
    (a b : Int) (ha : evaluate rt ea ctx = some a) (hb : evaluate rt eb ctx = some b) :
    (0 < b → ∃ q r, evaluate rt (.div ea eb) ctx = some q ∧
        evaluate rt (.mod ea eb) ctx = some r ∧ a = q * b + r ∧ 0 ≤ r ∧ r < b ∧
        (fits_index_t a → fits_index_t b → fits_index_t q ∧ fits_index_t r)) ∧
    (∀ e ∈ [expr.equal ea eb, expr.not_equal ea eb, expr.less ea eb, expr.less_equal ea eb,
          expr.logical_and ea eb, expr.logical_or ea eb, expr.logical_not ea],
        ∃ v, evaluate rt e ctx = some v ∧ (v = 0 ∨ v = 1)) := by
  unfold evaluate at ha hb ⊢
  refine ⟨fun hpos => ⟨a / b, a % b, ?_, ?_, ?_, Int.emod_nonneg a (by omega),
    Int.emod_lt_of_pos a hpos, ?_⟩, ?_⟩
  · show (match eval_expr rt ea ctx, eval_expr rt eb ctx with
      | some x, some y => some (euclidean_div x y)
      | _, _ => none) = _
    rw [ha, hb]; simp [euclidean_div, hpos]
  · show (match eval_expr rt ea ctx, eval_expr rt eb ctx with
      | some x, some y => some (euclidean_mod x y)
      | _, _ => none) = _
    have hne : b ≠ 0 := by omega
    rw [ha, hb]; simp [euclidean_mod, hne]
  · have := Int.ediv_add_emod a b
    rw [mul_comm] at this
    exact this.symm
  · intro hfa hfb
    have hr0 := Int.emod_nonneg a (show b ≠ 0 by omega)
    have hr1 := Int.emod_lt_of_pos a hpos
    unfold fits_index_t index_t_min index_t_max at hfa hfb ⊢
    refine ⟨?_, by omega⟩
    rcases Int.le_total 0 a with h0 | h0
    · have h1 : 0 ≤ a / b := Int.ediv_nonneg h0 (by omega)
      have h2 : a / b ≤ a := Int.ediv_le_self b h0
      omega
    · have h1 : a / b ≤ 0 / b := Int.ediv_le_ediv hpos h0
      rw [Int.zero_ediv] at h1
      have h2 : a ≤ a / b := by
        apply Int.le_ediv_of_mul_le hpos
        have : a * b ≤ a * 1 := Int.mul_le_mul_of_nonpos_left h0 (by omega)
        omega
      omega
  · intro e he
    simp only [List.mem_cons, List.mem_singleton, List.not_mem_nil, or_false] at he
    rcases he with rfl | rfl | rfl | rfl | rfl | rfl | rfl
    · refine ⟨bool_to_index (decide (a = b)), ?_, bool_to_index_zero_or_one _⟩
      show (match eval_expr rt ea ctx, eval_expr rt eb ctx with
        | some x, some y => some (bool_to_index (decide (x = y)))
        | _, _ => none) = _
      rw [ha, hb]
    · refine ⟨bool_to_index (decide (a ≠ b)), ?_, bool_to_index_zero_or_one _⟩
      show (match eval_expr rt ea ctx, eval_expr rt eb ctx with
        | some x, some y => some (bool_to_index (decide (x ≠ y)))
        | _, _ => none) = _
      rw [ha, hb]
    · refine ⟨bool_to_index (decide (a < b)), ?_, bool_to_index_zero_or_one _⟩
      show (match eval_expr rt ea ctx, eval_expr rt eb ctx with
        | some x, some y => some (bool_to_index (decide (x < y)))
        | _, _ => none) = _
      rw [ha, hb]
    · refine ⟨bool_to_index (decide (a ≤ b)), ?_, bool_to_index_zero_or_one _⟩
      show (match eval_expr rt ea ctx, eval_expr rt eb ctx with
        | some x, some y => some (bool_to_index (decide (x ≤ y)))
        | _, _ => none) = _
      rw [ha, hb]
    · have h : eval_expr rt (.logical_and ea eb) ctx =
          (match eval_expr rt ea ctx with
          | none => none
          | some x =>
            if x = 0 then some 0
            else
              match eval_expr rt eb ctx with
              | none => none
              | some y => some (bool_to_index (decide (y ≠ 0)))) := rfl
      rw [h, ha, hb]
      by_cases h0 : a = 0
      · exact ⟨0, by simp [h0], Or.inl rfl⟩
      · exact ⟨bool_to_index (decide (b ≠ 0)), by simp [h0], bool_to_index_zero_or_one _⟩
    · have h : eval_expr rt (.logical_or ea eb) ctx =
          (match eval_expr rt ea ctx with
          | none => none
          | some x =>
            if x ≠ 0 then some 1
            else
              match eval_expr rt eb ctx with
              | none => none
              | some y => some (bool_to_index (decide (y ≠ 0)))) := rfl
      rw [h, ha, hb]
      by_cases h0 : a = 0
      · exact ⟨bool_to_index (decide (b ≠ 0)), by simp [h0], bool_to_index_zero_or_one _⟩
      · exact ⟨1, by simp [h0], Or.inr rfl⟩
    · refine ⟨bool_to_index (decide (a = 0)), ?_, bool_to_index_zero_or_one _⟩
      show (match eval_expr rt ea ctx with
        | none => none
        | some x => some (bool_to_index (decide (x = 0)))) = _
      rw [ha]

/-- Claim C16 at the operands -7 and 2, in a runtime without buffers and the empty context:
the quotient is -4 and the remainder 1. -/
theorem expression_arithmetic_witness :
    (evaluate ⟨fun _ => none, fun _ => 0, fun _ _ => 0⟩ (.constant (-7)) ([] : eval_context)
        = some (-7) ∧
      evaluate ⟨fun _ => none, fun _ => 0, fun _ _ => 0⟩ (.constant 2) ([] : eval_context)
        = some 2) ∧
    ((0 : Int) < 2 → ∃ q r,
        evaluate ⟨fun _ => none, fun _ => 0, fun _ _ => 0⟩
          (.div (.constant (-7)) (.constant 2)) ([] : eval_context) = some q ∧
        evaluate ⟨fun _ => none, fun _ => 0, fun _ _ => 0⟩
          (.mod (.constant (-7)) (.constant 2)) ([] : eval_context) = some r ∧
        (-7 : Int) = q * 2 + r ∧ 0 ≤ r ∧ r < 2 ∧
        (fits_index_t (-7) → fits_index_t 2 → fits_index_t q ∧ fits_index_t r)) :=
  ⟨⟨rfl, rfl⟩,
    (expression_arithmetic ⟨fun _ => none, fun _ => 0, fun _ _ => 0⟩ [] (.constant (-7))
      (.constant 2) (-7) 2 rfl rfl).1⟩

/-- Claim C16 (counterexample): the operands `INT64_MIN` and `-1`.  No two `index_t` values
`q` and `r` satisfy `a = q * b + r` with `0 ≤ r < |b|`, whatever the division returns: the
quotient would have to be `2^63`.  The division of the model returns `INT64_MIN` and the
remainder 0. -/
theorem expression_arithmetic_counterexample :
    (∀ q r, fits_index_t q → fits_index_t r →
      ¬ (index_t_min = q * (-1) + r ∧ 0 ≤ r ∧ r < |(-1 : Int)|)) ∧
    evaluate ⟨fun _ => none, fun _ => 0, fun _ _ => 0⟩
      (.div (.constant index_t_min) (.constant (-1))) ([] : eval_context) = some index_t_min ∧
    evaluate ⟨fun _ => none, fun _ => 0, fun _ _ => 0⟩
      (.mod (.constant index_t_min) (.constant (-1))) ([] : eval_context) = some 0 ∧
    index_t_min ≠ index_t_min * (-1) + 0 := by
  refine ⟨?_, by decide, by decide, by decide⟩
  intro q r hq hr h
  obtain ⟨h1, h2, h3⟩ := h
  have habs : |(-1 : Int)| = 1 := by decide
  rw [habs] at h3
  unfold fits_index_t index_t_min index_t_max at hq hr
  unfold index_t_min at h1
  omega

/-- Claim C15. A visit of `check(c)`: if the run returns, the status is 0 exactly when `c` is
defined and evaluates to a non-zero value, and then nothing is reported; with a non-zero
status (it is 1) the hook `check_failed` is installed and was called exactly once, with `c`;
context and buffers are untouched. The run returns when the condition is defined and
non-zero, and when it is undefined or zero and the hook is installed; when it is undefined or
zero and no hook is installed, the evaluator aborts. -/
theorem check_evaluation (env : eval_env) (n : Nat) (c : Option expr) (m : machine) :
    (∀ m', evaluator.run env (n + 1) (.check c) m = .finished m' →
      (m'.result = 0 ↔
        ∃ e v, c = some e ∧ eval_expr (m.runtime env) e m.context = some v ∧ v ≠ 0) ∧
      (m'.result = 0 → m'.trace = m.trace) ∧
      (m'.result ≠ 0 → m'.result = 1 ∧ env.check_failed = true ∧
        m'.trace = m.trace ++ [event.check_failed c]) ∧
      m'.context = m.context ∧ m'.buffers = m.buffers) ∧
    ((∃ e v, c = some e ∧ eval_expr (m.runtime env) e m.context = some v ∧ v ≠ 0) →
      evaluator.run env (n + 1) (.check c) m = .finished { m with result := 0 }) ∧
    ((c = none ∨ ∃ e, c = some e ∧ eval_expr (m.runtime env) e m.context = some 0) →
      evaluator.run env (n + 1) (.check c) m =
        if env.check_failed = true
        then .finished { m with result := 1, trace := m.trace ++ [event.check_failed c] }
        else .aborted { m with result := 1 }) := by
  have key : ∀ (v : Int) (m1 : machine), evaluator.eval_expr_or env m c 0 = some (v, m1) →
      evaluator.run env (n + 1) (.check c) m =
        if v ≠ 0 then .finished { m1 with result := 0 }
        else if env.check_failed = true
          then .finished { m1 with result := 1, trace := m1.trace ++ [event.check_failed c] }
          else .aborted { m1 with result := 1 } := by
    intro v m1 h
    simp only [evaluator.run, evaluator.visit, h, run_result.of_option_some]
    by_cases hv : v = 0
    · simp [hv, machine.log]
    · simp [hv]
  refine ⟨?_, ?_, ?_⟩
  · intro m' hr
    cases c with
    | none =>
      rw [key 0 m rfl] at hr
      simp only [ne_eq, not_true_eq_false, if_false] at hr
      by_cases hh : env.check_failed = true
      · simp only [hh, if_true, run_result.finished.injEq] at hr
        subst hr
        simp [hh]
      · simp [hh] at hr
    | some e =>
      cases he : eval_expr (m.runtime env) e m.context with
      | none =>
        simp [evaluator.run, evaluator.visit, evaluator.eval_expr_or, evaluator.eval_expr, he,
          run_result.of_option] at hr
      | some v =>
        have h1 : evaluator.eval_expr_or env m (some e) 0 = some (v, { m with result := 0 }) := by
          simp [evaluator.eval_expr_or, evaluator.eval_expr, he]
        rw [key v _ h1] at hr
        by_cases hv : v = 0
        · simp only [hv, ne_eq, not_true_eq_false, if_false] at hr
          by_cases hh : env.check_failed = true
          · simp only [hh, if_true, run_result.finished.injEq] at hr
            subst hr
            simp [hh, hv, he]
          · simp [hh] at hr
        · simp only [hv, ne_eq, not_false_eq_true, if_true, run_result.finished.injEq] at hr
          subst hr
          simp [hv, he]
  · rintro ⟨e, v, rfl, he, hv⟩
    have h1 : evaluator.eval_expr_or env m (some e) 0 = some (v, { m with result := 0 }) := by
      simp [evaluator.eval_expr_or, evaluator.eval_expr, he]
    rw [key v _ h1]
    simp [hv]
  · rintro (rfl | ⟨e, rfl, he⟩)
    · rw [key 0 m rfl]; simp
    · have h1 : evaluator.eval_expr_or env m (some e) 0 = some (0, { m with result := 0 }) := by
        simp [evaluator.eval_expr_or, evaluator.eval_expr, he]
      rw [key 0 _ h1]; simp

/-- Claim C15 at `check(0)` on the empty machine, with the hook installed: the status is 1
and the hook was called once. -/
theorem check_evaluation_witness :
    evaluator.run example_env 1 (.check (some (.constant 0))) example_machine =
      if example_env.check_failed = true
      then .finished { example_machine with
        result := 1,
        trace := example_machine.trace ++ [event.check_failed (some (.constant 0))] }
      else .aborted { example_machine with result := 1 } :=
  (check_evaluation example_env 0 (some (.constant 0)) example_machine).2.2
    (Or.inr ⟨_, rfl, rfl⟩)

/-- Claim C12. A visit of `block(a, b)` entered with status 0, as the evaluator enters every
statement: `a` is evaluated first, from the entry state; `b` is evaluated exactly when the
run of `a` returned status 0, and then from the state `a` left; otherwise the run of the
block is the run of `a`: its status is the non-zero status of `a` and nothing of `b` has
happened. In budget-free terms, the block returns `m'` exactly when `a` returns some `m1` and
either the status of `m1` is 0 and `b` returns `m'` from `m1`, or the status is non-zero and
`m'` is `m1`. -/
theorem block_evaluation (env : eval_env) (a b : stmt) (m : machine) (h0 : m.result = 0) :
    (∀ n, evaluator.run env (n + 1) (.block a b) m =
      (evaluator.run env n a m).bind fun m1 =>
        if m1.result = 0 then evaluator.run env n b m1 else .finished m1) ∧
    (∀ m', (∃ n, evaluator.run env n (.block a b) m = .finished m') ↔
      ∃ m1, (∃ n, evaluator.run env n a m = .finished m1) ∧
        ((m1.result = 0 ∧ ∃ n, evaluator.run env n b m1 = .finished m') ∨
          (m1.result ≠ 0 ∧ m' = m1))) := by
  have step : ∀ n, evaluator.run env (n + 1) (.block a b) m =
      (evaluator.run env n a m).bind fun m1 =>
        if m1.result = 0 then evaluator.run env n b m1 else .finished m1 := by
    intro n
    simp [evaluator.run, evaluator.visit, h0]
  refine ⟨step, fun m' => ⟨?_, ?_⟩⟩
  · rintro ⟨n, hn⟩
    cases n with
    | zero => simp [evaluator.run] at hn
    | succ n =>
      rw [step n] at hn
      obtain ⟨m1, h1, h2⟩ := run_result.bind_eq_finished.mp hn
      refine ⟨m1, ⟨n, h1⟩, ?_⟩
      by_cases hz : m1.result = 0
      · simp only [hz, if_true] at h2
        exact Or.inl ⟨hz, n, h2⟩
      · simp only [hz, if_false, run_result.finished.injEq] at h2
        exact Or.inr ⟨hz, h2.symm⟩
  · rintro ⟨m1, ⟨n1, h1⟩, h2⟩
    rcases h2 with ⟨hz, n2, h2⟩ | ⟨hz, rfl⟩
    · refine ⟨Nat.max n1 n2 + 1, ?_⟩
      rw [step, evaluator.run_mono env (Nat.le_max_left n1 n2) _ _ _ h1,
        run_result.bind_finished]
      simp only [hz, if_true]
      exact evaluator.run_mono env (Nat.le_max_right n1 n2) _ _ _ h2
    · refine ⟨n1 + 1, ?_⟩
      rw [step, h1, run_result.bind_finished]
      simp [hz]

/-- Claim C12 at `block(check(0), call_func 0)` on the empty machine: the check fails and the
kernel is not called. -/
theorem block_evaluation_witness :
    example_machine.result = 0 ∧
    evaluator.run example_env 2 (.block (.check (some (.constant 0))) (.call_func 0))
        example_machine =
      (evaluator.run example_env 1 (.check (some (.constant 0))) example_machine).bind fun m1 =>
        if m1.result = 0 then evaluator.run example_env 1 (.call_func 0) m1 else .finished m1 :=
  ⟨rfl, (block_evaluation example_env (.check (some (.constant 0))) (.call_func 0)
    example_machine rfl).1 1⟩

/-! ## Loops -/

theorem mem_loop_indices_from (step : Int) :
    ∀ (k : Nat) (i x : Int), x ∈ loop_indices_from i step k ↔ ∃ j : Nat, j < k ∧ x = i + j * step
  | 0, i, x => by simp [loop_indices_from]
  | k + 1, i, x => by
    simp only [loop_indices_from, List.mem_cons, mem_loop_indices_from step k]
    constructor
    · rintro (rfl | ⟨j, hj, rfl⟩)
      · exact ⟨0, by omega, by simp⟩
      · exact ⟨j + 1, by omega, by push_cast; ring⟩
    · rintro ⟨j, hj, rfl⟩
      cases j with
      | zero => left; simp
      | succ j => right; exact ⟨j, by omega, by push_cast; ring⟩

theorem pairwise_loop_indices_from (step : Int) (hs : 1 ≤ step) :
    ∀ (k : Nat) (i : Int), (loop_indices_from i step k).Pairwise (· < ·)
  | 0, i => by simp [loop_indices_from]
  | k + 1, i => by
    simp only [loop_indices_from, List.pairwise_cons]
    refine ⟨?_, pairwise_loop_indices_from step hs k _⟩
    intro x hx
    obtain ⟨j, _, rfl⟩ := (mem_loop_indices_from step k _ x).mp hx
    have : (0 : Int) ≤ j * step := by positivity
    linarith

theorem lt_loop_count_iff (lo hi step : Int) (hs : 1 ≤ step) (j : Nat) :
    j < loop_count lo hi step ↔ lo + j * step ≤ hi := by
  unfold loop_count
  have hj : (0 : Int) ≤ j * step := by positivity
  by_cases h : hi < lo
  · simp only [h, if_true, Nat.not_lt_zero, false_iff]
    linarith
  · simp only [h, if_false]
    have h0 : 0 ≤ (hi - lo) / step := Int.ediv_nonneg (by linarith) (by linarith)
    have h1 : (j : Int) ≤ (hi - lo) / step ↔ (j : Int) * step ≤ hi - lo :=
      Int.le_ediv_iff_mul_le (by linarith)
    constructor
    · intro hlt
      have : (j : Int) ≤ (hi - lo) / step := by omega
      have := h1.mp this
      linarith
    · intro hle
      have : (j : Int) ≤ (hi - lo) / step := h1.mpr (by linarith)
      omega

theorem wrap_of_overflow {v : Int} (h1 : index_t_max < v)
    (h2 : v ≤ index_t_max + 18446744073709551616) : wrap v = v - 18446744073709551616 := by
  unfold index_t_max at h1 h2
  unfold wrap; omega

/-- The loop of the evaluator runs the body once for each of the next `k` indices when the
index after the last one, computed in `index_t`, lies outside `[lo, hi]`. -/
theorem evaluator.run_loop_eq_run_body_at (f : machine → run_result) (sym : Nat)
    (lo hi st : Int) (hst : 1 ≤ st) (hflo : index_t_min ≤ lo) (hfhi : hi ≤ index_t_max)
    (hf : ∀ (i : Int) (m0 : machine), m0.result = 0 →
      ∃ m1, f (m0.set_symbol sym (some i)) = .finished m1 ∧ m1.result = 0) :
    ∀ (k : Nat) (budget : Nat) (i : Int) (m : machine), k ≤ budget → m.result = 0 →
      (k = 0 → ¬ (lo ≤ i ∧ i ≤ hi)) →
      (0 < k → lo ≤ i ∧ i + (k - 1 : Nat) * st ≤ hi ∧
        ¬ (lo ≤ wrap (i + k * st) ∧ wrap (i + k * st) ≤ hi)) →
      evaluator.run_loop f sym lo hi st budget i m =
        evaluator.run_body_at f sym (loop_indices_from i st k) m
  | 0, budget, i, m, _, hm, h0, _ => by
    unfold evaluator.run_loop
    have := h0 rfl
    simp [this, loop_indices_from, evaluator.run_body_at]
  | k + 1, 0, i, m, hb, _, _, _ => by omega
  | k + 1, budget + 1, i, m, hb, hm, _, h1 => by
    obtain ⟨hlo, hle, hout⟩ := h1 (by omega)
    have hk : (0 : Int) ≤ k * st := by positivity
    simp only [Nat.add_sub_cancel] at hle
    have hihi : i ≤ hi := by linarith
    unfold evaluator.run_loop
    simp only [hm, hlo, hihi, and_self, and_true, if_true, loop_indices_from,
      evaluator.run_body_at]
    obtain ⟨m1, hm1, hr1⟩ := hf i m hm
    rw [hm1, run_result.bind_finished, run_result.bind_finished]
    cases k with
    | zero =>
      simp only [Nat.cast_zero, zero_add, Nat.cast_one, one_mul] at hout
      exact evaluator.run_loop_eq_run_body_at f sym lo hi st hst hflo hfhi hf 0
        budget _ m1 (by omega) hr1 (fun _ => hout) (fun h => absurd h (by omega))
    | succ k =>
      push_cast at hle hk hout
      have hk0 : (0 : Int) ≤ k * st := by positivity
      have hfit : fits_index_t (i + st) := ⟨by linarith, by linarith⟩
      rw [wrap_of_fits hfit]
      refine evaluator.run_loop_eq_run_body_at f sym lo hi st hst hflo hfhi hf (k + 1)
        budget _ m1 (by omega) hr1 (fun h => absurd h (by omega))
        (fun _ => ⟨by linarith, ?_, ?_⟩)
      · simp only [Nat.add_sub_cancel]; linarith
      · have e : i + st + ((k + 1 : Nat) : Int) * st = i + ((k : Int) + 1 + 1) * st := by
          push_cast; ring
        rw [e]; exact hout

theorem evaluator.run_body_at_succeeds (f : machine → run_result) (sym : Nat)
    (hf : ∀ (i : Int) (m0 : machine), m0.result = 0 →
      ∃ m1, f (m0.set_symbol sym (some i)) = .finished m1 ∧ m1.result = 0) :
    ∀ (l : List Int) (m : machine), m.result = 0 →
      ∃ m', evaluator.run_body_at f sym l m = .finished m' ∧ m'.result = 0
  | [], m, hm => ⟨m, rfl, hm⟩
  | i :: rest, m, hm => by
    obtain ⟨m1, hm1, hr1⟩ := hf i m hm
    unfold evaluator.run_body_at
    rw [hm1, run_result.bind_finished]
    exact evaluator.run_body_at_succeeds f sym hf rest m1 hr1

/-- A loop whose bounds and step have values and whose index does not wrap into the bounds
runs its body once for each index `lo + k * st ≤ hi`, in ascending order, and returns with status 0
when the body always does; the loop variable is restored afterwards. -/
theorem loop_runs_in_order (env : eval_env) (sym : Nat) (min max : expr) (step : Option expr)
    (body : stmt) (m : machine) (lo hi st : Int) (nb : Nat)
    (hlo : eval_expr (m.runtime env) min m.context = some lo)
    (hhi : eval_expr (m.runtime env) max m.context = some hi)
    (hstep : match step with
      | none => st = 1
      | some e => eval_expr (m.runtime env) e m.context = some st)
    (hst : 1 ≤ st) (hflo : fits_index_t lo) (hfhi : fits_index_t hi)
    (hexit : ¬ (lo ≤ wrap (lo + loop_count lo hi st * st) ∧
      wrap (lo + loop_count lo hi st * st) ≤ hi))
    (hbody : ∀ (i : Int) (m0 : machine), m0.result = 0 →
      ∃ m1, evaluator.run env nb body (m0.set_symbol sym (some i)) = .finished m1 ∧
        m1.result = 0) :
    (∀ i, i ∈ loop_indices lo hi st ↔ ∃ k : Nat, i = lo + k * st ∧ i ≤ hi) ∧
    (loop_indices lo hi st).Pairwise (· < ·) ∧
    (hi < lo → loop_indices lo hi st = []) ∧
    ∀ n, nb ≤ n → loop_count lo hi st ≤ n →
      ∃ m4, evaluator.run_body_at (evaluator.run env n body) sym (loop_indices lo hi st)
            { m with result := 0 } = .finished m4 ∧
        m4.result = 0 ∧
        evaluator.run env (n + 1) (.loop sym min max step body) m =
          .finished (m4.set_symbol sym (m.context.lookup sym)) ∧
        (m4.set_symbol sym (m.context.lookup sym)).context.lookup sym = m.context.lookup sym := by
  refine ⟨?_, pairwise_loop_indices_from st hst _ _, ?_, ?_⟩
  · intro i
    unfold loop_indices
    rw [mem_loop_indices_from]
    constructor
    · rintro ⟨j, hj, rfl⟩
      exact ⟨j, rfl, (lt_loop_count_iff lo hi st hst j).mp hj⟩
    · rintro ⟨j, rfl, hle⟩
      exact ⟨j, (lt_loop_count_iff lo hi st hst j).mpr hle, rfl⟩
  · intro h
    simp [loop_indices, loop_count, h, loop_indices_from]
  · intro n hnb hcount
    have hf : ∀ (i : Int) (m0 : machine), m0.result = 0 →
        ∃ m1, evaluator.run env n body (m0.set_symbol sym (some i)) = .finished m1 ∧
          m1.result = 0 := by
      intro i m0 h0
      obtain ⟨m1, h1, h2⟩ := hbody i m0 h0
      exact ⟨m1, evaluator.run_mono env hnb _ _ _ h1, h2⟩
    obtain ⟨m4, h4, hr4⟩ := evaluator.run_body_at_succeeds (evaluator.run env n body) sym hf
      (loop_indices lo hi st) { m with result := 0 } rfl
    refine ⟨m4, h4, hr4, ?_, ?_⟩
    · have hloop : evaluator.run_loop (evaluator.run env n body) sym lo hi st n lo
          { m with result := 0 } = .finished m4 := by
        rw [← h4]
        unfold loop_indices
        apply evaluator.run_loop_eq_run_body_at _ sym lo hi st hst hflo.1 hfhi.2 hf _ n lo _
          hcount rfl
        · intro h0
          rw [h0] at hexit
          simp only [Nat.cast_zero, zero_mul, add_zero, wrap_of_fits hflo] at hexit
          exact hexit
        · intro hpos
          refine ⟨le_refl _, ?_, hexit⟩
          exact (lt_loop_count_iff lo hi st hst _).mp (by omega)
      have e1 : evaluator.eval_expr env m min = some (lo, { m with result := 0 }) := by
        simp [evaluator.eval_expr, hlo]
      have e2 : evaluator.eval_expr env { m with result := 0 } max =
          some (hi, { m with result := 0 }) := by
        have : ({ m with result := 0 } : machine).runtime env = m.runtime env := rfl
        simp [evaluator.eval_expr, this, hhi]
      have e3 : evaluator.eval_expr_or env { m with result := 0 } step 1 =
          some (st, { m with result := 0 }) := by
        cases step with
        | none => simp only [evaluator.eval_expr_or]; rw [hstep]
        | some e =>
          have : ({ m with result := 0 } : machine).runtime env = m.runtime env := rfl
          have hs : eval_expr (m.runtime env) e m.context = some st := hstep
          simp [evaluator.eval_expr_or, evaluator.eval_expr, this, hs]
      simp only [evaluator.run, evaluator.visit, e1, e2, e3, run_result.of_option_some, hloop,
        run_result.bind_finished]
    · simp only [machine.set_symbol, symbol_map.lookup_set, if_true]

/-- Claim C14 (amended). For a loop whose bounds evaluate to `lo` and `hi` and whose step
evaluates to `st ≥ 1` (an undefined step is 1), all of them `index_t` values, whose body always
succeeds within some budget, and for which the index after the last iteration, computed in
`index_t`, lies outside `[lo, hi]` (no wrap-around into the bounds; `hi + st ≤ index_t_max`
is enough): the indices of the specification are exactly the `lo + k * st ≤ hi` with `k ≥ 0`,
ascending and without repetition, none when `hi < lo`; with enough budget the loop returns, its
run is the body run once for each of these indices in this order with `sym` bound to the
index, the status is 0, and afterwards the context entry of `sym` is what it was before. -/
theorem loop_evaluation (env : eval_env) (sym : Nat) (min max : expr) (step : Option expr)
    (body : stmt) (m : machine) (lo hi st : Int) (nb : Nat)
    (hlo : eval_expr (m.runtime env) min m.context = some lo)
    (hhi : eval_expr (m.runtime env) max m.context = some hi)
    (hstep : match step with
      | none => st = 1
      | some e => eval_expr (m.runtime env) e m.context = some st)
    (hst : 1 ≤ st) (hflo : fits_index_t lo) (hfhi : fits_index_t hi)
    (hexit : ¬ (lo ≤ wrap (lo + loop_count lo hi st * st) ∧
      wrap (lo + loop_count lo hi st * st) ≤ hi))
    (hbody : ∀ (i : Int) (m0 : machine), m0.result = 0 →
      ∃ m1, evaluator.run env nb body (m0.set_symbol sym (some i)) = .finished m1 ∧
        m1.result = 0) :
    (∀ i, i ∈ loop_indices lo hi st ↔ ∃ k : Nat, i = lo + k * st ∧ i ≤ hi) ∧
    (loop_indices lo hi st).Pairwise (· < ·) ∧
    (hi < lo → loop_indices lo hi st = []) ∧
    ∀ n, nb ≤ n → loop_count lo hi st ≤ n →
      ∃ m4, evaluator.run_body_at (evaluator.run env n body) sym (loop_indices lo hi st)
            { m with result := 0 } = .finished m4 ∧
        m4.result = 0 ∧
        evaluator.run env (n + 1) (.loop sym min max step body) m =
          .finished (m4.set_symbol sym (m.context.lookup sym)) ∧
        (m4.set_symbol sym (m.context.lookup sym)).context.lookup sym = m.context.lookup sym :=
  loop_runs_in_order env sym min max step body m lo hi st nb hlo hhi hstep hst hflo hfhi hexit
    hbody

/-- Claim C14 (amended) at the loop of `sym 0` from 1 to 3 in steps of 1 over `check(1)`, on
the empty machine. -/
theorem loop_evaluation_witness :
    ∃ m4, evaluator.run_body_at (evaluator.run example_env 3 (.check (some (.constant 1)))) 0
          (loop_indices 1 3 1) { example_machine with result := 0 } = .finished m4 ∧
      m4.result = 0 ∧
      evaluator.run example_env 4
          (.loop 0 (.constant 1) (.constant 3) none (.check (some (.constant 1))))
          example_machine =
        .finished (m4.set_symbol 0 (example_machine.context.lookup 0)) ∧
      (m4.set_symbol 0 (example_machine.context.lookup 0)).context.lookup 0 =
        example_machine.context.lookup 0 :=
  (loop_evaluation example_env 0 (.constant 1) (.constant 3) none (.check (some (.constant 1)))
    example_machine 1 3 1 1 rfl rfl rfl (by decide) (by decide) (by decide) (by decide)
    (fun _ m0 h0 => ⟨{ m0.set_symbol 0 (some _) with result := 0 }, rfl, rfl⟩)).2.2.2 3
    (by decide) (by decide)

/-- A loop over the whole of `index_t` whose body always returns status 0 never returns. -/
theorem evaluator.run_loop_never_returns (f : machine → run_result) (sym : Nat) (st : Int)
    (hf : ∀ m0 m1, f m0 = .finished m1 → m1.result = 0) :
    ∀ (budget : Nat) (i : Int) (m : machine), m.result = 0 → fits_index_t i →
      (evaluator.run_loop f sym index_t_min index_t_max st budget i m).status = none
  | 0, i, m, hm, hi => by
    unfold evaluator.run_loop
    simp [hm, hi.1, hi.2, run_result.status]
  | budget + 1, i, m, hm, hi => by
    unfold evaluator.run_loop
    simp only [hm, hi.1, hi.2, and_self, if_true]
    cases hb : f (m.set_symbol sym (some i)) with
    | finished m1 =>
      rw [run_result.bind_finished]
      exact evaluator.run_loop_never_returns f sym st hf budget _ m1 (hf _ _ hb) (fits_wrap _)
    | aborted _ => rfl
    | out_of_budget _ => rfl

/-- Claim C14 (as stated, refuted) at the loop of `sym 0` from the smallest to the largest
`index_t` in steps of 2^62 over `check(1)`: the step is at least 1, the body always
succeeds, and the claim gives the four iterations -2^63, -2^62, 0 and 2^62, after which the
loop is over.  The evaluator adds the step in `index_t`: the fifth index wraps around to
-2^63, which is within the bounds again, and so on; with no budget does the loop return. -/
theorem loop_evaluation_counterexample :
    loop_indices index_t_min index_t_max 4611686018427387904 =
      [-9223372036854775808, -4611686018427387904, 0, 4611686018427387904] ∧
    (∀ (i : Int) (m0 : machine), m0.result = 0 →
      ∃ m1, evaluator.run example_env 1 (.check (some (.constant 1)))
          (m0.set_symbol 0 (some i)) = .finished m1 ∧ m1.result = 0) ∧
    ∀ budget, (evaluator.run example_env budget
        (.loop 0 (.constant index_t_min) (.constant index_t_max)
          (some (.constant 4611686018427387904)) (.check (some (.constant 1))))
        example_machine).status = none := by
  refine ⟨by decide, fun _ m0 _ => ⟨{ m0.set_symbol 0 (some _) with result := 0 }, rfl, rfl⟩, ?_⟩
  intro budget
  cases budget with
  | zero => rfl
  | succ b =>
    have hf : ∀ m0 m1, evaluator.run example_env b (.check (some (.constant 1))) m0 =
        .finished m1 → m1.result = 0 := by
      intro m0 m1 h
      cases b with
      | zero => simp [evaluator.run] at h
      | succ b =>
        have : evaluator.run example_env (b + 1) (.check (some (.constant 1))) m0 =
            .finished { m0 with result := 0 } := rfl
        rw [this] at h
        simp only [run_result.finished.injEq] at h
        rw [← h]
    have h := evaluator.run_loop_never_returns
      (evaluator.run example_env b (.check (some (.constant 1)))) 0 4611686018427387904 hf b
      index_t_min { example_machine with result := 0 } rfl (by decide)
    have e : evaluator.run example_env (b + 1)
        (.loop 0 (.constant index_t_min) (.constant index_t_max)
          (some (.constant 4611686018427387904)) (.check (some (.constant 1))))
        example_machine =
        (evaluator.run_loop (evaluator.run example_env b (.check (some (.constant 1)))) 0
          index_t_min index_t_max 4611686018427387904 b index_t_min
          { example_machine with result := 0 }).bind fun m4 =>
            .finished (m4.set_symbol 0 (example_machine.context.lookup 0)) := rfl
    rw [e]
    revert h
    cases evaluator.run_loop (evaluator.run example_env b (.check (some (.constant 1)))) 0
        index_t_min index_t_max 4611686018427387904 b index_t_min
        { example_machine with result := 0 } <;> simp [run_result.status, run_result.bind]

/-! ## Failure propagation -/

theorem trace_clean_nil : trace_clean [] := by
  intro e he; simp at he

theorem trace_quiet_nil : trace_quiet [] := by
  intro e he; simp at he

theorem trace_clean_append {a b : List event} (ha : trace_clean a) (hb : trace_clean b) :
    trace_clean (a ++ b) := by
  intro e he
  rcases List.mem_append.mp he with h | h
  · exact ha e h
  · exact hb e h

theorem trace_quiet_append {a b : List event} (ha : trace_quiet a) (hb : trace_quiet b) :
    trace_quiet (a ++ b) := by
  intro e he
  rcases List.mem_append.mp he with h | h
  · exact ha e h
  · exact hb e h

theorem trace_quiet.clean {a : List event} (h : trace_quiet a) : trace_clean a :=
  fun e he => (h e he).2

theorem trace_failed_prepend {a b : List event} (ha : trace_clean a) (hb : trace_failed b) :
    trace_failed (a ++ b) := by
  obtain ⟨pre, f, post, rfl, hpre, hf, hpost⟩ := hb
  exact ⟨a ++ pre, f, post, by simp, trace_clean_append ha hpre, hf, hpost⟩

theorem trace_failed_append_quiet {a b : List event} (ha : trace_failed a) (hb : trace_quiet b) :
    trace_failed (a ++ b) := by
  obtain ⟨pre, f, post, rfl, hpre, hf, hpost⟩ := ha
  exact ⟨pre, f, post ++ b, by simp, hpre, hf, trace_quiet_append hpost hb⟩

/-- In a trace with one failure, nothing after a failure is a kernel call or a failure. -/
theorem trace_failed.after {evs : List event} (h : trace_failed evs) (pre : List event)
    (f : event) (post : List event) (he : evs = pre ++ f :: post) (hf : f.is_failure = true) :
    trace_quiet post := by
  obtain ⟨pre', f', post', rfl, hpre, hf', hpost⟩ := h
  rcases List.append_eq_append_iff.mp he with ⟨a, h1, h2⟩ | ⟨c, h1, h2⟩
  · cases a with
    | nil =>
      simp only [List.nil_append, List.cons.injEq] at h2
      rw [← h2.2]; exact hpost
    | cons x a =>
      simp only [List.cons_append, List.cons.injEq] at h2
      have : f.is_failure = false := by
        apply (hpost f _).2; rw [h2.2]; simp
      rw [this] at hf; cases hf
  · cases c with
    | nil =>
      simp only [List.nil_append, List.cons.injEq] at h2
      rw [h2.2]; exact hpost
    | cons x c =>
      simp only [List.cons_append, List.cons.injEq] at h2
      have : f.is_failure = false := by
        apply hpre; rw [h1, h2.1]; simp
      rw [this] at hf; cases hf

theorem trace_clean.not_failed {evs : List event} (h : trace_clean evs) (e : event)
    (he : e ∈ evs) (hf : e.is_failure = true) : False := by
  rw [h e he] at hf; cases hf

theorem evaluator.stops_at_failure_after_clean {m : machine} (mb : machine)
    {r : run_result} (evs0 : List event) (ht : mb.trace = m.trace ++ evs0) (hc : trace_clean evs0)
    (h : evaluator.stops_at_failure mb r) : evaluator.stops_at_failure m r := by
  obtain ⟨evs, he, hr⟩ := h
  refine ⟨evs0 ++ evs, by rw [he, ht, List.append_assoc], ?_⟩
  cases r with
  | finished m' =>
    rcases hr with ⟨h1, h2⟩ | ⟨h1, h2⟩
    · exact Or.inl ⟨h1, trace_clean_append hc h2⟩
    · exact Or.inr ⟨h1, trace_failed_prepend hc h2⟩
  | aborted m' =>
    rcases hr with h2 | h2
    · exact Or.inl (trace_clean_append hc h2)
    · exact Or.inr (trace_failed_prepend hc h2)
  | out_of_budget m' => exact trace_clean_append hc hr

theorem evaluator.stops_at_failure_of_trace_eq {m : machine} (mb : machine) {r : run_result}
    (ht : mb.trace = m.trace) (h : evaluator.stops_at_failure mb r) :
    evaluator.stops_at_failure m r :=
  evaluator.stops_at_failure_after_clean mb [] (by simp [ht]) trace_clean_nil h

theorem evaluator.stops_at_failure_aborted {m mx : machine} (ht : mx.trace = m.trace) :
    evaluator.stops_at_failure m (.aborted mx) :=
  ⟨[], by simp [run_result.last, ht], Or.inl trace_clean_nil⟩

theorem evaluator.stops_at_failure_finished {m mx : machine} (ht : mx.trace = m.trace)
    (hr : mx.result = 0) : evaluator.stops_at_failure m (.finished mx) :=
  ⟨[], by simp [run_result.last, ht], Or.inl ⟨hr, trace_clean_nil⟩⟩

theorem evaluator.stops_at_failure_out_of_budget {m mx : machine} (ht : mx.trace = m.trace) :
    evaluator.stops_at_failure m (.out_of_budget mx) :=
  ⟨[], by simp [run_result.last, ht], trace_clean_nil⟩

theorem evaluator.stops_at_failure_bind_unwinds {m : machine} {r : run_result}
    {g : machine → run_result} (h : evaluator.stops_at_failure m r)
    (hg : ∀ m2, evaluator.unwinds m2 (g m2)) : evaluator.stops_at_failure m (r.bind g) := by
  cases r with
  | finished m2 =>
    obtain ⟨evs, he, hr⟩ := h
    obtain ⟨m3, evs1, hor, ht, hq, hres⟩ := hg m2
    simp only [run_result.last] at he
    simp only [run_result.bind]
    rcases hor with hfin | hab
    · rw [hfin]
      refine ⟨evs ++ evs1, by simp [run_result.last, ht, he], ?_⟩
      rcases hr with ⟨h1, h2⟩ | ⟨h1, h2⟩
      · exact Or.inl ⟨by rw [hres]; exact h1, trace_clean_append h2 hq.clean⟩
      · exact Or.inr ⟨by rw [hres]; exact h1, trace_failed_append_quiet h2 hq⟩
    · rw [hab]
      refine ⟨evs ++ evs1, by simp [run_result.last, ht, he], ?_⟩
      rcases hr with ⟨_, h2⟩ | ⟨_, h2⟩
      · exact Or.inl (trace_clean_append h2 hq.clean)
      · exact Or.inr (trace_failed_append_quiet h2 hq)
  | aborted m2 => exact h
  | out_of_budget m2 => exact h

theorem evaluator.stops_at_failure_bind_seq {m : machine} {r : run_result}
    {g : machine → run_result} (h : evaluator.stops_at_failure m r)
    (hg0 : ∀ m1, m1.result = 0 → evaluator.stops_at_failure m1 (g m1))
    (hg1 : ∀ m1, m1.result ≠ 0 → g m1 = .finished m1) :
    evaluator.stops_at_failure m (r.bind g) := by
  cases r with
  | finished m1 =>
    simp only [run_result.bind]
    by_cases h1 : m1.result = 0
    · obtain ⟨evs, he, hr⟩ := h
      simp only [run_result.last] at he
      rcases hr with ⟨_, h2⟩ | ⟨h3, _⟩
      · exact evaluator.stops_at_failure_after_clean _ _ he h2 (hg0 m1 h1)
      · exact absurd h1 h3
    · rw [hg1 m1 h1]; exact h
  | aborted m2 => exact h
  | out_of_budget m2 => exact h

theorem evaluator.unwinds_finished {m2 m3 : machine} (ht : m3.trace = m2.trace)
    (hr : m3.result = m2.result) : evaluator.unwinds m2 (.finished m3) :=
  ⟨m3, [], Or.inl rfl, by simp [ht], trace_quiet_nil, hr⟩

theorem evaluator.unwinds_aborted (m2 : machine) : evaluator.unwinds m2 (.aborted m2) :=
  ⟨m2, [], Or.inr rfl, by simp, trace_quiet_nil, rfl⟩

/-! ### The steps before a body leave the trace alone and end with status 0 -/

theorem evaluator.eval_expr_eq {env : eval_env} {m : machine} {e : expr} {v : Int}
    {m1 : machine} (h : evaluator.eval_expr env m e = some (v, m1)) :
    slinky.eval_expr (m.runtime env) e m.context = some v ∧ m1 = { m with result := 0 } := by
  unfold evaluator.eval_expr at h
  cases he : slinky.eval_expr (m.runtime env) e m.context with
  | none => simp [he] at h
  | some w =>
    simp only [he, Option.some.injEq, Prod.mk.injEq] at h
    exact ⟨by rw [h.1], h.2.symm⟩

theorem evaluator.eval_expr_keeps {env : eval_env} {m : machine} {e : expr} {v : Int}
    {m1 : machine} (h : evaluator.eval_expr env m e = some (v, m1)) :
    m1.trace = m.trace ∧ m1.result = 0 := by
  rw [(evaluator.eval_expr_eq h).2]; exact ⟨rfl, rfl⟩

theorem evaluator.eval_expr_or_keeps {env : eval_env} {m : machine} {e : Option expr}
    {d v : Int} {m1 : machine} (h : evaluator.eval_expr_or env m e d = some (v, m1)) :
    m1.trace = m.trace ∧ (m.result = 0 → m1.result = 0) := by
  cases e with
  | none =>
    simp only [evaluator.eval_expr_or, Option.some.injEq, Prod.mk.injEq] at h
    rw [← h.2]; exact ⟨rfl, id⟩
  | some e =>
    have := evaluator.eval_expr_keeps (show evaluator.eval_expr env m e = some (v, m1) from h)
    exact ⟨this.1, fun _ => this.2⟩

theorem machine.set_dim_keeps (m : machine) (p : Int) (d : Nat) (dm : dim) :
    (m.set_dim p d dm).trace = m.trace ∧ (m.set_dim p d dm).result = m.result ∧
      (m.set_dim p d dm).context = m.context := by
  unfold machine.set_dim
  cases m.buffers p <;> exact ⟨rfl, rfl, rfl⟩

theorem evaluator.eval_dims_keeps (env : eval_env) :
    ∀ (dims : List dim_expr) (m : machine) (ds : List dim) (m1 : machine),
      evaluator.eval_dims env dims m = some (ds, m1) →
      m1.trace = m.trace ∧ (m.result = 0 → m1.result = 0)
  | [], m, ds, m1, h => by
    simp only [evaluator.eval_dims, Option.some.injEq, Prod.mk.injEq] at h
    rw [← h.2]; exact ⟨rfl, id⟩
  | de :: rest, m, ds, m1, h => by
    unfold evaluator.eval_dims at h
    cases h1 : evaluator.eval_expr env m de.min with
    | none => simp [h1] at h
    | some r1 =>
      obtain ⟨lo, ma⟩ := r1
      simp only [h1] at h
      cases h2 : evaluator.eval_expr env ma de.max with
      | none => simp [h2] at h
      | some r2 =>
        obtain ⟨hi, mb⟩ := r2
        simp only [h2] at h
        cases h3 : evaluator.eval_expr env mb de.stride with
        | none => simp [h3] at h
        | some r3 =>
          obtain ⟨st, mc⟩ := r3
          simp only [h3] at h
          cases h4 : evaluator.eval_expr env mc de.fold_factor with
          | none => simp [h4] at h
          | some r4 =>
            obtain ⟨ff, md⟩ := r4
            simp only [h4] at h
            cases h5 : evaluator.eval_dims env rest md with
            | none => simp [h5] at h
            | some r5 =>
              obtain ⟨ds5, me⟩ := r5
              simp only [h5, Option.some.injEq, Prod.mk.injEq] at h
              have k1 := evaluator.eval_expr_keeps h1
              have k2 := evaluator.eval_expr_keeps h2
              have k3 := evaluator.eval_expr_keeps h3
              have k4 := evaluator.eval_expr_keeps h4
              have k5 := evaluator.eval_dims_keeps env rest md ds5 me h5
              rw [← h.2]
              exact ⟨by rw [k5.1, k4.1, k3.1, k2.1, k1.1], fun _ => k5.2 k4.2⟩

theorem evaluator.crop_dims_keeps (env : eval_env) (p : Int) :
    ∀ (bounds : List (Option expr × Option expr)) (d : Nat) (offset : Int) (m : machine)
      (off1 : Int) (m1 : machine),
      evaluator.crop_dims env p bounds d offset m = some (off1, m1) →
      m1.trace = m.trace ∧ (m.result = 0 → m1.result = 0)
  | [], d, offset, m, off1, m1, h => by
    simp only [evaluator.crop_dims, Option.some.injEq, Prod.mk.injEq] at h
    rw [← h.2]; exact ⟨rfl, id⟩
  | (bmin, bmax) :: rest, d, offset, m, off1, m1, h => by
    unfold evaluator.crop_dims at h
    split at h
    · cases h
    · rename_i c hc
      split at h
      · cases h
      · rename_i dm hd
        split at h
        · cases h
        · rename_i a ma h1
          split at h
          · cases h
          · rename_i b mb h2
            have k1 := evaluator.eval_expr_or_keeps h1
            have k2 := evaluator.eval_expr_or_keeps h2
            have k3 := machine.set_dim_keeps mb p d
              (dm.set_bounds (Max.max dm.min a) (Min.min dm.max b))
            have k4 := evaluator.crop_dims_keeps env p rest _ _ _ off1 m1 h
            exact ⟨by rw [k4.1, k3.1, k2.1, k1.1],
              fun h0 => k4.2 (by rw [k3.2.1]; exact k2.2 (k1.2 h0))⟩

theorem evaluator.slice_dims_keeps (env : eval_env) (p : Int) (at_ : List (Option expr)) :
    ∀ (dims : List dim) (d : Nat) (offset : Int) (m : machine) (off1 : Int) (m1 : machine),
      evaluator.slice_dims env p at_ dims d offset m = some (off1, m1) →
      m1.trace = m.trace ∧ (m.result = 0 → m1.result = 0)
  | [], d, offset, m, off1, m1, h => by
    simp only [evaluator.slice_dims, Option.some.injEq, Prod.mk.injEq] at h
    rw [← h.2]; exact ⟨rfl, id⟩
  | dm :: rest, d, offset, m, off1, m1, h => by
    unfold evaluator.slice_dims at h
    split at h
    · rename_i e _
      cases h1 : evaluator.eval_expr env m e with
      | none => simp [h1] at h
      | some r1 =>
        obtain ⟨v, ma⟩ := r1
        simp only [h1] at h
        have k1 := evaluator.eval_expr_keeps h1
        have k2 := evaluator.slice_dims_keeps env p at_ rest _ _ _ off1 m1 h
        exact ⟨by rw [k2.1, k1.1], fun _ => k2.2 k1.2⟩
    · cases hc : m.buffers p with
      | none => simp [hc] at h
      | some c =>
        simp only [hc] at h
        have k2 := evaluator.slice_dims_keeps env p at_ rest _ _ _ off1 m1 h
        exact ⟨k2.1, fun h0 => k2.2 h0⟩

/-! ### Every visit propagates failures -/

theorem evaluator.run_loop_stops_at_failure (f : machine → run_result) (sym : Nat)
    (lo hi st : Int) (hf : ∀ m, m.result = 0 → evaluator.stops_at_failure m (f m)) :
    ∀ (budget : Nat) (i : Int) (m : machine), m.result = 0 →
      evaluator.stops_at_failure m (evaluator.run_loop f sym lo hi st budget i m)
  | 0, i, m, h0 => by
    unfold evaluator.run_loop
    by_cases hc : m.result = 0 ∧ lo ≤ i ∧ i ≤ hi
    · simp only [hc, and_self, if_true]
      exact evaluator.stops_at_failure_out_of_budget rfl
    · simp only [hc, if_false]
      exact evaluator.stops_at_failure_finished rfl h0
  | budget + 1, i, m, h0 => by
    unfold evaluator.run_loop
    by_cases hc : m.result = 0 ∧ lo ≤ i ∧ i ≤ hi
    · simp only [hc, and_self, if_true]
      refine evaluator.stops_at_failure_bind_seq
        (evaluator.stops_at_failure_of_trace_eq (m.set_symbol sym (some i)) rfl
          (hf _ h0))
        (fun m1 h1 => evaluator.run_loop_stops_at_failure f sym lo hi st hf budget _ m1 h1)
        (fun m1 h1 => ?_)
      unfold evaluator.run_loop
      simp [h1]
    · simp only [hc, if_false]
      exact evaluator.stops_at_failure_finished rfl h0

theorem evaluator.visit_stops_at_failure (env : eval_env) (n : Nat)
    (f : stmt → machine → run_result)
    (hf : ∀ s m, m.result = 0 → evaluator.stops_at_failure m (f s m))
    (s : stmt) (m : machine) (h0 : m.result = 0) :
    evaluator.stops_at_failure m (evaluator.visit env n f s m) := by
  cases s with
  | let_stmt sym value body =>
    simp only [evaluator.visit]
    cases h1 : evaluator.eval_expr env m value with
    | none => exact evaluator.stops_at_failure_aborted rfl
    | some r1 =>
      obtain ⟨v, m1⟩ := r1
      have k1 := evaluator.eval_expr_keeps h1
      simp only [run_result.of_option]
      exact evaluator.stops_at_failure_bind_unwinds
        (evaluator.stops_at_failure_of_trace_eq (m1.set_symbol sym (some v)) k1.1
          (hf _ _ k1.2))
        (fun m2 => evaluator.unwinds_finished rfl rfl)
  | block a b =>
    simp only [evaluator.visit]
    simp only [h0, if_true]
    exact evaluator.stops_at_failure_bind_seq (hf a m h0)
      (fun m1 h1 => by simp only [h1, if_true]; exact hf b m1 h1)
      (fun m1 h1 => by simp [h1])
  | loop sym lo hi step body =>
    simp only [evaluator.visit]
    cases h1 : evaluator.eval_expr env m lo with
    | none => exact evaluator.stops_at_failure_aborted rfl
    | some r1 =>
      obtain ⟨vlo, m1⟩ := r1
      have k1 := evaluator.eval_expr_keeps h1
      simp only [run_result.of_option]
      cases h2 : evaluator.eval_expr env m1 hi with
      | none => exact evaluator.stops_at_failure_aborted k1.1
      | some r2 =>
        obtain ⟨vhi, m2⟩ := r2
        have k2 := evaluator.eval_expr_keeps h2
        simp only []
        cases h3 : evaluator.eval_expr_or env m2 step 1 with
        | none => exact evaluator.stops_at_failure_aborted (by rw [k2.1, k1.1])
        | some r3 =>
          obtain ⟨vst, m3⟩ := r3
          have k3 := evaluator.eval_expr_or_keeps h3
          simp only []
          exact evaluator.stops_at_failure_bind_unwinds
            (evaluator.stops_at_failure_of_trace_eq m3 (by rw [k3.1, k2.1, k1.1])
              (evaluator.run_loop_stops_at_failure _ sym _ _ _ (fun mx hx => hf body mx hx) n _
                m3 (k3.2 k2.2)))
            (fun m4 => evaluator.unwinds_finished rfl rfl)
  | if_then_else c t e =>
    simp only [evaluator.visit]
    cases h1 : evaluator.eval_expr env m c with
    | none => exact evaluator.stops_at_failure_aborted rfl
    | some r1 =>
      obtain ⟨v, m1⟩ := r1
      have k1 := evaluator.eval_expr_keeps h1
      simp only [run_result.of_option]
      by_cases hv : v = 0
      · simp only [hv, ne_eq, not_true_eq_false, if_false]
        cases e with
        | none => exact evaluator.stops_at_failure_finished k1.1 k1.2
        | some b => exact evaluator.stops_at_failure_of_trace_eq _ k1.1 (hf b m1 k1.2)
      · simp only [hv, ne_eq, not_false_eq_true, if_true]
        cases t with
        | none => exact evaluator.stops_at_failure_finished k1.1 k1.2
        | some b => exact evaluator.stops_at_failure_of_trace_eq _ k1.1 (hf b m1 k1.2)
  | call_func k =>
    simp only [evaluator.visit]
    by_cases hr : (env.target k m.context m.buffers).1 = 0
    · simp only [hr, ne_eq, not_true_eq_false, if_false]
      refine ⟨[event.kernel_called k 0], rfl, Or.inl ⟨rfl, ?_⟩⟩
      intro e he
      simp only [List.mem_singleton] at he
      subst he; simp [event.is_failure]
    · simp only [hr, ne_eq, not_false_eq_true, if_true]
      have hfail : (event.kernel_called k (env.target k m.context m.buffers).1).is_failure
          = true := by simp [event.is_failure, hr]
      by_cases hh : env.call_failed = true
      · simp only [hh, if_true]
        refine ⟨[event.kernel_called k (env.target k m.context m.buffers).1,
          event.call_failed k], by simp [run_result.last, machine.log], Or.inr ⟨hr, ?_⟩⟩
        refine ⟨[], _, [event.call_failed k], rfl, trace_clean_nil, hfail, ?_⟩
        intro e he
        simp only [List.mem_singleton] at he
        subst he; simp [event.is_failure, event.is_call]
      · simp only [hh, if_false]
        refine ⟨[event.kernel_called k (env.target k m.context m.buffers).1],
          by simp [run_result.last], Or.inr ?_⟩
        exact ⟨[], _, [], rfl, trace_clean_nil, hfail, trace_quiet_nil⟩
  | allocate storage sym es dims body =>
    simp only [evaluator.visit]
    cases h1 : evaluator.eval_dims env dims m with
    | none => exact evaluator.stops_at_failure_aborted rfl
    | some r1 =>
      obtain ⟨ds, m1⟩ := r1
      have k1 := evaluator.eval_dims_keeps env dims m ds m1 h1
      simp only [run_result.of_option]
      by_cases hh : storage = memory_type.heap ∧ env.allocate_hook = true
      · simp only [hh, and_self, if_true]
        refine evaluator.stops_at_failure_bind_unwinds
          (evaluator.stops_at_failure_after_clean
            (((m1.log (event.allocate_hook sym)).set_buffer _ _).set_symbol sym _)
            [event.allocate_hook sym]
            (by simp [machine.set_symbol, machine.set_buffer, machine.log, k1.1]) ?_
            (hf _ _ (k1.2 h0)))
          (fun m4 => ⟨_, [event.free_hook sym], Or.inl rfl, rfl, ?_, rfl⟩)
        · intro e he
          simp only [List.mem_singleton] at he
          subst he; simp [event.is_failure]
        · intro e he
          simp only [List.mem_singleton] at he
          subst he; simp [event.is_failure, event.is_call]
      · simp only [hh, if_false]
        exact evaluator.stops_at_failure_bind_unwinds
          (evaluator.stops_at_failure_of_trace_eq
            ((m1.set_buffer _ _).set_symbol sym _) k1.1 (hf _ _ (k1.2 h0)))
          (fun m4 => evaluator.unwinds_finished rfl rfl)
  | make_buffer sym base es dims body =>
    simp only [evaluator.visit]
    cases h1 : evaluator.eval_expr env m es with
    | none => exact evaluator.stops_at_failure_aborted rfl
    | some r1 =>
      obtain ⟨ve, m1⟩ := r1
      have k1 := evaluator.eval_expr_keeps h1
      simp only [run_result.of_option]
      cases h2 : evaluator.eval_expr env m1 base with
      | none => exact evaluator.stops_at_failure_aborted k1.1
      | some r2 =>
        obtain ⟨vb, m2⟩ := r2
        have k2 := evaluator.eval_expr_keeps h2
        simp only []
        cases h3 : evaluator.eval_dims env dims m2 with
        | none => exact evaluator.stops_at_failure_aborted (by rw [k2.1, k1.1])
        | some r3 =>
          obtain ⟨ds, m3⟩ := r3
          have k3 := evaluator.eval_dims_keeps env dims m2 ds m3 h3
          simp only []
          exact evaluator.stops_at_failure_bind_unwinds
            (evaluator.stops_at_failure_of_trace_eq
              ((m3.set_buffer _ _).set_symbol sym _) (by
                show m3.trace = m.trace
                rw [k3.1, k2.1, k1.1]) (hf _ _ (k3.2 k2.2)))
            (fun m4 => evaluator.unwinds_finished rfl rfl)
  | crop_buffer sym bounds body =>
    simp only [evaluator.visit]
    cases h1 : evaluator.lookup_buffer m sym with
    | none => exact evaluator.stops_at_failure_aborted rfl
    | some r1 =>
      obtain ⟨p, old⟩ := r1
      simp only [run_result.of_option]
      cases h2 : evaluator.crop_dims env p bounds 0 0 m with
      | none => exact evaluator.stops_at_failure_aborted rfl
      | some r2 =>
        obtain ⟨offset, m1⟩ := r2
        have k2 := evaluator.crop_dims_keeps env p bounds 0 0 m offset m1 h2
        simp only []
        cases h3 : m1.buffers p with
        | none => exact evaluator.stops_at_failure_aborted k2.1
        | some c1 =>
          simp only []
          refine evaluator.stops_at_failure_bind_unwinds
            (evaluator.stops_at_failure_of_trace_eq (m1.set_buffer p _) k2.1
              (hf _ _ (k2.2 h0)))
            (fun m2 => ?_)
          cases m2.buffers p with
          | none => exact evaluator.unwinds_aborted m2
          | some c2 => exact evaluator.unwinds_finished rfl rfl
  | crop_dim sym d lo hi same body =>
    simp only [evaluator.visit]
    cases h1 : evaluator.lookup_buffer m sym with
    | none => exact evaluator.stops_at_failure_aborted rfl
    | some r1 =>
      obtain ⟨p, old⟩ := r1
      simp only [run_result.of_option]
      cases h2 : old.dims.get? d with
      | none => exact evaluator.stops_at_failure_aborted rfl
      | some dm =>
        simp only []
        cases h3 : evaluator.eval_expr env m lo with
        | none => exact evaluator.stops_at_failure_aborted rfl
        | some r3 =>
          obtain ⟨a, m1⟩ := r3
          have k3 := evaluator.eval_expr_keeps h3
          simp only []
          cases same with
          | true =>
            simp only [if_true]
            refine evaluator.stops_at_failure_bind_unwinds
              (evaluator.stops_at_failure_of_trace_eq
                ((m1.set_buffer p _).set_dim p d _)
                (by rw [(machine.set_dim_keeps _ p d _).1]; exact k3.1)
                (hf _ _ (by rw [(machine.set_dim_keeps _ p d _).2.1]; exact k3.2)))
              (fun m4 => ?_)
            cases m4.buffers p with
            | none => exact evaluator.unwinds_aborted m4
            | some c4 =>
              simp only []
              cases c4.dims.get? d with
              | none => exact evaluator.unwinds_aborted m4
              | some dm4 => exact evaluator.unwinds_finished rfl rfl
          | false =>
            simp only [Bool.false_eq_true, if_false]
            cases h4 : evaluator.eval_expr env (m1.set_buffer p
                (some { old with
                  base := wrap (old.base + env.flat_offset_bytes dm (Max.max dm.min a)) })) hi with
            | none => exact evaluator.stops_at_failure_aborted k3.1
            | some r4 =>
              obtain ⟨b, m3⟩ := r4
              have k4 := evaluator.eval_expr_keeps h4
              simp only []
              refine evaluator.stops_at_failure_bind_unwinds
                (evaluator.stops_at_failure_of_trace_eq (m3.set_dim p d _)
                  (by rw [(machine.set_dim_keeps _ p d _).1, k4.1]; exact k3.1)
                  (hf _ _ (by rw [(machine.set_dim_keeps _ p d _).2.1]; exact k4.2)))
                (fun m4 => ?_)
              cases m4.buffers p with
              | none => exact evaluator.unwinds_aborted m4
              | some c4 =>
                simp only []
                cases c4.dims.get? d with
                | none => exact evaluator.unwinds_aborted m4
                | some dm4 => exact evaluator.unwinds_finished rfl rfl
  | slice_buffer sym at_ body =>
    simp only [evaluator.visit]
    cases h1 : evaluator.lookup_buffer m sym with
    | none => exact evaluator.stops_at_failure_aborted rfl
    | some r1 =>
      obtain ⟨p, old⟩ := r1
      simp only [run_result.of_option]
      by_cases hl : old.dims.length < old.rank
      · simp only [hl, if_true]
        exact evaluator.stops_at_failure_aborted rfl
      · simp only [hl, if_false]
        cases h2 : evaluator.slice_dims env p at_ (old.dims.take old.rank) 0 0
            (m.set_buffer p (some { old with rank := 0, dims := [] })) with
        | none => exact evaluator.stops_at_failure_aborted rfl
        | some r2 =>
          obtain ⟨offset, m1⟩ := r2
          have k2 := evaluator.slice_dims_keeps env p at_ _ 0 0 _ offset m1 h2
          simp only []
          cases h3 : m1.buffers p with
          | none => exact evaluator.stops_at_failure_aborted k2.1
          | some c1 =>
            simp only []
            refine evaluator.stops_at_failure_bind_unwinds
              (evaluator.stops_at_failure_of_trace_eq (m1.set_buffer p _) k2.1
                (hf _ _ (k2.2 h0)))
              (fun m2 => ?_)
            cases m2.buffers p with
            | none => exact evaluator.unwinds_aborted m2
            | some c2 => exact evaluator.unwinds_finished rfl rfl
  | slice_dim sym d at_ body =>
    simp only [evaluator.visit]
    cases h1 : evaluator.lookup_buffer m sym with
    | none => exact evaluator.stops_at_failure_aborted rfl
    | some r1 =>
      obtain ⟨p, old⟩ := r1
      simp only [run_result.of_option]
      cases h2 : evaluator.eval_expr env (m.set_buffer p (some { old with dims := [] })) at_ with
      | none => exact evaluator.stops_at_failure_aborted rfl
      | some r2 =>
        obtain ⟨v, m1⟩ := r2
        have k2 := evaluator.eval_expr_keeps h2
        simp only []
        by_cases hl : old.dims.length < old.rank ∨ old.rank ≤ d
        · simp only [hl, if_true]
          exact evaluator.stops_at_failure_aborted k2.1
        · simp only [hl, if_false]
          cases h3 : old.dims.get? d with
          | none => exact evaluator.stops_at_failure_aborted k2.1
          | some dm =>
            simp only []
            refine evaluator.stops_at_failure_bind_unwinds
              (evaluator.stops_at_failure_of_trace_eq (m1.set_buffer p _) k2.1
                (hf _ _ k2.2))
              (fun m2 => ?_)
            cases m2.buffers p with
            | none => exact evaluator.unwinds_aborted m2
            | some c2 => exact evaluator.unwinds_finished rfl rfl
  | truncate_rank sym r body =>
    simp only [evaluator.visit]
    cases h1 : evaluator.lookup_buffer m sym with
    | none => exact evaluator.stops_at_failure_aborted rfl
    | some r1 =>
      obtain ⟨p, old⟩ := r1
      simp only [run_result.of_option]
      refine evaluator.stops_at_failure_bind_unwinds
        (evaluator.stops_at_failure_of_trace_eq (m.set_buffer p _) rfl (hf _ _ h0))
        (fun m2 => ?_)
      cases m2.buffers p with
      | none => exact evaluator.unwinds_aborted m2
      | some c2 => exact evaluator.unwinds_finished rfl rfl
  | check c =>
    simp only [evaluator.visit]
    cases h1 : evaluator.eval_expr_or env m c 0 with
    | none => exact evaluator.stops_at_failure_aborted rfl
    | some r1 =>
      obtain ⟨v, m1⟩ := r1
      have k1 := evaluator.eval_expr_or_keeps h1
      simp only [run_result.of_option]
      by_cases hv : v = 0
      · simp only [hv, ne_eq, not_true_eq_false, if_false, one_ne_zero, not_false_eq_true,
          if_true]
        by_cases hh : env.check_failed = true
        · simp only [hh, if_true]
          refine ⟨[event.check_failed c], by simp [run_result.last, machine.log, k1.1],
            Or.inr ⟨by simp [machine.log], ?_⟩⟩
          exact ⟨[], _, [], rfl, trace_clean_nil, rfl, trace_quiet_nil⟩
        · simp only [hh, if_false]
          exact evaluator.stops_at_failure_aborted k1.1
      · simp only [hv, ne_eq, not_false_eq_true, if_true, not_true_eq_false, if_false]
        exact evaluator.stops_at_failure_finished k1.1 rfl

theorem evaluator.run_stops_at_failure (env : eval_env) :
    ∀ (n : Nat) (s : stmt) (m : machine), m.result = 0 →
      evaluator.stops_at_failure m (evaluator.run env n s m)
  | 0, _, _, _ => evaluator.stops_at_failure_out_of_budget rfl
  | n + 1, s, m, h0 =>
    evaluator.visit_stops_at_failure env n (evaluator.run env n)
      (fun s' m' h' => evaluator.run_stops_at_failure env n s' m' h') s m h0

/-- Claim C13. For every statement, every budget and every entry state with status 0 (as
`evaluate` starts), the run extends the trace by events `evs` such that: after a failure (a
kernel that returned non-zero, or a call of the hook `check_failed`) no kernel is called and
nothing else fails, whether the run returned or not; a run that returned has a non-zero
status exactly when a failure happened; and a run in which a failure happened never runs out
of budget, whatever the budget. -/
theorem failure_propagation (env : eval_env) (n : Nat) (s : stmt) (m : machine)
    (h0 : m.result = 0) :
    ∃ evs, (evaluator.run env n s m).last.trace = m.trace ++ evs ∧
      (∀ pre f post, evs = pre ++ f :: post → f.is_failure = true →
        ∀ e ∈ post, e.is_call = false ∧ e.is_failure = false) ∧
      (∀ m', evaluator.run env n s m = .finished m' →
        (m'.result ≠ 0 ↔ ∃ e ∈ evs, e.is_failure = true)) ∧
      (∀ m', evaluator.run env n s m = .out_of_budget m' → ∀ e ∈ evs, e.is_failure = false) := by
  obtain ⟨evs, he, hr⟩ := evaluator.run_stops_at_failure env n s m h0
  refine ⟨evs, he, ?_, ?_, ?_⟩
  · intro pre f post hsplit hf
    have hfailed : trace_failed evs := by
      have hnot : ¬ trace_clean evs := fun hc =>
        hc.not_failed f (by rw [hsplit]; simp) hf
      cases hrun : evaluator.run env n s m with
      | finished m' =>
        rw [hrun] at hr
        rcases hr with ⟨_, h2⟩ | ⟨_, h2⟩
        · exact absurd h2 hnot
        · exact h2
      | aborted m' =>
        rw [hrun] at hr
        rcases hr with h2 | h2
        · exact absurd h2 hnot
        · exact h2
      | out_of_budget m' =>
        rw [hrun] at hr
        exact absurd hr hnot
    exact hfailed.after pre f post hsplit hf
  · intro m' hrun
    rw [hrun] at hr
    rcases hr with ⟨h1, h2⟩ | ⟨h1, h2⟩
    · constructor
      · intro hne; exact absurd h1 hne
      · rintro ⟨e, he1, he2⟩; exact (h2.not_failed e he1 he2).elim
    · constructor
      · intro _
        obtain ⟨pre, f, post, rfl, _, hf, _⟩ := h2
        exact ⟨f, by simp, hf⟩
      · intro _; exact h1
  · intro m' hrun
    rw [hrun] at hr
    exact hr

/-- Claim C13 at `block(call_func 1, call_func 0)` on the empty machine, where kernel 1
returns status 1. -/
theorem failure_propagation_witness :
    example_machine.result = 0 ∧
    ∃ evs, (evaluator.run example_env 2 (.block (.call_func 1) (.call_func 0))
        example_machine).last.trace = example_machine.trace ++ evs ∧
      (∀ pre f post, evs = pre ++ f :: post → f.is_failure = true →
        ∀ e ∈ post, e.is_call = false ∧ e.is_failure = false) ∧
      (∀ m', evaluator.run example_env 2 (.block (.call_func 1) (.call_func 0))
          example_machine = .finished m' →
        (m'.result ≠ 0 ↔ ∃ e ∈ evs, e.is_failure = true)) ∧
      (∀ m', evaluator.run example_env 2 (.block (.call_func 1) (.call_func 0))
          example_machine = .out_of_budget m' → ∀ e ∈ evs, e.is_failure = false) :=
  ⟨rfl, failure_propagation example_env 2 (.block (.call_func 1) (.call_func 0))
    example_machine rfl⟩

/-! ## Crops and slices -/

/-- Claim C18, evaluated at inputs where the single-point form of `crop_dim` is not the
intersection.  Dim 0 of the buffer covers `[0, 9]`.
(a) `crop_dim(b, 0, [12, 12])` with one node for both bounds: the body sees `[12, 12]`; the
intersection is `[max(0, 12), min(9, 12)] = [12, 9]`, which is what the body sees when the two
bounds are separate nodes of the same value, and what it sees under `crop_buffer`.
(b) `crop_dim(b, 0, [-3, -3])` with one node for both bounds: the body sees `[0, 0]`; the
intersection is `[0, -3]`, which is what the body sees when the two bounds are separate
nodes. -/
theorem crop_is_intersection_failing_input :
    (example_cell.dims.get? 0).map (fun d => (d.min, d.max)) = some (0, 9) ∧
    (evaluator.run example_env 2
      (.crop_dim 0 0 (.constant 12) (.constant 12) true (example_check_bounds 12 12))
      example_buffer_machine).status = some 0 ∧
    (evaluator.run example_env 2
      (.crop_dim 0 0 (.constant 12) (.constant 12) false (example_check_bounds 12 9))
      example_buffer_machine).status = some 0 ∧
    (evaluator.run example_env 2
      (.crop_buffer 0 [(some (.constant 12), some (.constant 12))] (example_check_bounds 12 9))
      example_buffer_machine).status = some 0 ∧
    (evaluator.run example_env 2
      (.crop_dim 0 0 (.constant (-3)) (.constant (-3)) true (example_check_bounds 0 0))
      example_buffer_machine).status = some 0 ∧
    (evaluator.run example_env 2
      (.crop_dim 0 0 (.constant (-3)) (.constant (-3)) false (example_check_bounds 0 (-3)))
      example_buffer_machine).status = some 0 := by
  decide

/-- Claim C20 (as stated, refuted) at `slice_buffer(b, [undefined, undefined, 0])` on a
buffer of rank 2: one `at` entry is defined, so the claim gives the rank 2 - 1 = 1 inside the
body; the loop of the evaluator visits the two dims of the buffer only, the third entry is
never looked at, and the body sees the rank 2. -/
theorem slice_drops_dims_counterexample :
    example_cell.rank = 2 ∧
    slice_defined [none, none, some (.constant 0)] = 1 ∧
    (evaluator.run example_env 2
      (.slice_buffer 0 [none, none, some (.constant 0)] (example_check_rank 2))
      example_buffer_machine).status = some 0 ∧
    (evaluator.run example_env 2
      (.slice_buffer 0 [none, none, some (.constant 0)] (example_check_rank 1))
      example_buffer_machine).status = some 1 := by
  decide

theorem slice_kept_sublist (at_ : List (Option expr)) :
    ∀ (dims : List dim) (d : Nat), (slice_kept at_ dims d).Sublist dims
  | [], d => by simp [slice_kept]
  | dm :: rest, d => by
    unfold slice_kept
    split
    · exact (slice_kept_sublist at_ rest (d + 1)).cons _
    · exact (slice_kept_sublist at_ rest (d + 1)).cons₂ _

theorem slice_kept_length (at_ : List (Option expr)) :
    ∀ (dims : List dim) (d : Nat),
      (slice_kept at_ dims d).length + slice_count at_ dims.length d = dims.length
  | [], d => by simp [slice_kept, slice_count]
  | dm :: rest, d => by
    have ih := slice_kept_length at_ rest (d + 1)
    simp only [List.length_cons]
    unfold slice_kept slice_count
    split
    · omega
    · simp only [List.length_cons]
      omega

theorem slice_count_eq_filter (at_ : List (Option expr)) :
    ∀ (k d : Nat), slice_count at_ k d = (((at_.drop d).take k).filter Option.isSome).length
  | 0, d => by simp [slice_count]
  | k + 1, d => by
    unfold slice_count
    have ih := slice_count_eq_filter at_ k (d + 1)
    by_cases hd : d < at_.length
    · have hdrop : at_.drop d = at_[d] :: at_.drop (d + 1) := List.drop_eq_getElem_cons hd
      have hget : at_.get? d = some at_[d] := by simp [List.getElem?_eq_getElem hd]
      rw [hdrop, hget]
      cases hx : at_[d] with
      | none => simp [ih, List.filter]
      | some e => simp [ih, List.filter]
    · have hdrop : at_.drop d = [] := List.drop_eq_nil_of_le (by omega)
      have hdrop1 : at_.drop (d + 1) = [] := List.drop_eq_nil_of_le (by omega)
      have hget : at_.get? d = none := by simp [List.getElem?_eq_none (by omega : at_.length ≤ d)]
      rw [hget, ih, hdrop, hdrop1]
      simp

/-- The loop of `slice_buffer` when the sliced indices do not depend on the descriptor under
edit: the offset is the sum of the flat offsets, the kept dims are appended in order. -/
theorem evaluator.slice_dims_eq (env : eval_env) (p : Int) (at_ : List (Option expr))
    (vals : Nat → Int) (m0 : machine) :
    ∀ (dims : List dim) (d : Nat) (offset : Int) (m : machine) (c : buffer_cell),
      (∀ i e, d ≤ i → i < d + dims.length → at_.get? i = some (some e) →
        ∀ bufs : Int → Option buffer_cell, (∀ q, q ≠ p → bufs q = m0.buffers q) →
          slinky.eval_expr ⟨fun q => (bufs q).map buffer_cell.view, env.size_bytes,
            env.flat_offset_bytes⟩ e m0.context = some (vals i)) →
      m.buffers p = some c → m.context = m0.context →
      (∀ q, q ≠ p → m.buffers q = m0.buffers q) → m.trace = m0.trace →
      ∃ m1, evaluator.slice_dims env p at_ dims d offset m =
          some (slice_offset env at_ vals dims d offset, m1) ∧
        m1.buffers p = some { c with
          rank := c.rank + (slice_kept at_ dims d).length,
          dims := c.dims ++ slice_kept at_ dims d } ∧
        m1.context = m0.context ∧ (∀ q, q ≠ p → m1.buffers q = m0.buffers q) ∧
        m1.trace = m0.trace ∧ (m.result = 0 → m1.result = 0)
  | [], d, offset, m, c, _, hc, hctx, hq, ht => by
    refine ⟨m, rfl, ?_, hctx, hq, ht, id⟩
    simp [slice_kept, hc]
  | dm :: rest, d, offset, m, c, hv, hc, hctx, hq, ht => by
    have hv' : ∀ i e, d + 1 ≤ i → i < d + 1 + rest.length → at_.get? i = some (some e) →
        ∀ bufs : Int → Option buffer_cell, (∀ q, q ≠ p → bufs q = m0.buffers q) →
          slinky.eval_expr ⟨fun q => (bufs q).map buffer_cell.view, env.size_bytes,
            env.flat_offset_bytes⟩ e m0.context = some (vals i) := by
      intro i e h1 h2
      exact hv i e (by omega) (by simp only [List.length_cons]; omega)
    unfold evaluator.slice_dims slice_offset slice_kept
    split
    · rename_i e h
      have he : evaluator.eval_expr env m e = some (vals d, { m with result := 0 }) := by
        have := hv d e (le_refl _) (by simp) h m.buffers hq
        unfold evaluator.eval_expr
        rw [hctx]
        have hrt : m.runtime env = ⟨fun q => (m.buffers q).map buffer_cell.view, env.size_bytes,
            env.flat_offset_bytes⟩ := rfl
        rw [hrt, this]
      simp only [he, h]
      obtain ⟨m1, h1, h2, h3, h4, h5, _⟩ := evaluator.slice_dims_eq env p at_ vals m0 rest (d + 1)
        (wrap (offset + env.flat_offset_bytes dm (vals d))) { m with result := 0 } c hv' hc hctx
        hq ht
      exact ⟨m1, h1, h2, h3, h4, h5, fun _ => by
        have := evaluator.slice_dims_keeps env p at_ rest _ _ _ _ m1 h1
        exact this.2 rfl⟩
    · rename_i h
      simp only [hc]
      obtain ⟨m1, h1, h2, h3, h4, h5, h6⟩ := evaluator.slice_dims_eq env p at_ vals m0 rest
        (d + 1) offset
        (m.set_buffer p (some { c with rank := c.rank + 1, dims := c.dims ++ [dm] }))
        { c with rank := c.rank + 1, dims := c.dims ++ [dm] } hv'
        (by simp [machine.set_buffer]) hctx
        (fun q hqp => by simp [machine.set_buffer, hqp, hq q hqp]) ht
      refine ⟨m1, h1, ?_, h3, h4, h5, h6⟩
      rw [h2]
      simp [List.length_cons, Nat.add_assoc, Nat.add_comm 1]

/-- Claim C20 (amended).  For a buffer `old` at `p` whose rank does not exceed its dims
array.  Inside `slice_dim(sym, d, at)` with `d` below the rank, the rank is the old rank - 1,
the dims are the old dims with index `d` removed, order kept, and the base is shifted by the
flat byte offset of the value of `at` in dim `d`.  Inside `slice_buffer(sym, at)`, whose sliced
indices `vals` do not depend on the descriptor under edit, the rank is the old rank minus the
number of defined `at` entries at positions below the old rank (entries beyond the rank are
never looked at), the dims are the old dims without the sliced ones, order kept, and the base
is shifted by the sum, in `index_t`, of the flat byte offsets of the sliced indices.  In both,
the body runs on that state and the descriptor is then written back. -/
theorem slice_drops_dims (env : eval_env) (n : Nat) (sym : Nat) (body : stmt) (m : machine)
    (p : Int) (old : buffer_cell)
    (hl : evaluator.lookup_buffer m sym = some (p, old))
    (hrank : old.rank ≤ old.dims.length) :
    (∀ (d : Nat) (at_ : expr) (v : Int) (dm : dim),
      eval_expr ((m.set_buffer p (some { old with dims := [] })).runtime env) at_ m.context
        = some v →
      d < old.rank → old.dims.get? d = some dm →
      ∃ mb cb,
        evaluator.run env (n + 1) (.slice_dim sym d at_ body) m =
          (evaluator.run env n body mb).bind (fun m2 =>
            run_result.of_option m2 (m2.buffers p) fun c2 =>
              .finished (m2.set_buffer p (some { c2 with
                base := old.base, rank := c2.rank + 1, dims := old.dims }))) ∧
        mb.buffers p = some cb ∧ mb.context = m.context ∧ mb.trace = m.trace ∧
        (∀ q, q ≠ p → mb.buffers q = m.buffers q) ∧
        cb.rank = old.rank - 1 ∧
        cb.view.dims = old.view.dims.eraseIdx d ∧
        cb.base = wrap (old.base + env.flat_offset_bytes dm v) ∧
        cb.elem_size = old.elem_size) ∧
    (∀ (at_ : List (Option expr)) (vals : Nat → Int),
      (∀ i e, i < old.rank → at_.get? i = some (some e) →
        ∀ bufs : Int → Option buffer_cell, (∀ q, q ≠ p → bufs q = m.buffers q) →
          eval_expr ⟨fun q => (bufs q).map buffer_cell.view, env.size_bytes,
            env.flat_offset_bytes⟩ e m.context = some (vals i)) →
      ∃ mb cb,
        evaluator.run env (n + 1) (.slice_buffer sym at_ body) m =
          (evaluator.run env n body mb).bind (fun m2 =>
            run_result.of_option m2 (m2.buffers p) fun c2 =>
              .finished (m2.set_buffer p (some { c2 with
                base := old.base, rank := old.rank, dims := old.dims }))) ∧
        mb.buffers p = some cb ∧ mb.context = m.context ∧ mb.trace = m.trace ∧
        (∀ q, q ≠ p → mb.buffers q = m.buffers q) ∧
        cb.rank = old.rank - slice_count at_ old.rank 0 ∧
        cb.view.dims = slice_kept at_ old.view.dims 0 ∧
        (slice_kept at_ old.view.dims 0).Sublist old.view.dims ∧
        cb.base = wrap (old.base + slice_offset env at_ vals old.view.dims 0 0) ∧
        cb.elem_size = old.elem_size) ∧
    (∀ at_ : List (Option expr), slice_count at_ old.rank 0 = slice_defined (at_.take old.rank)) ∧
    (∀ at_ : List (Option expr), at_.length ≤ old.rank →
      slice_count at_ old.rank 0 = slice_defined at_) := by
  have hlen : (old.dims.take old.rank).length = old.rank := by
    simp [List.length_take, hrank]
  refine ⟨?_, ?_, ?_, ?_⟩
  · intro d at_ v dm hv hd hdm
    have he : evaluator.eval_expr env (m.set_buffer p (some { old with dims := [] })) at_ =
        some (v, { m.set_buffer p (some { old with dims := [] }) with result := 0 }) := by
      unfold evaluator.eval_expr
      have hctx : (m.set_buffer p (some { old with dims := [] })).context = m.context := rfl
      rw [hctx, hv]
      rfl
    have hno : ¬ (old.dims.length < old.rank ∨ old.rank ≤ d) := by omega
    refine ⟨({ m.set_buffer p (some { old with dims := [] }) with result := 0 }).set_buffer p
        (some { old with
          base := wrap (old.base + env.flat_offset_bytes dm v),
          rank := old.rank - 1,
          dims := (old.dims.take old.rank).eraseIdx d }),
        { old with
          base := wrap (old.base + env.flat_offset_bytes dm v),
          rank := old.rank - 1,
          dims := (old.dims.take old.rank).eraseIdx d }, ?_, ?_, rfl, rfl, ?_, rfl, ?_,
        rfl, rfl⟩
    · simp only [evaluator.run, evaluator.visit, hl, run_result.of_option_some, he, hno,
        if_false, hdm]
    · simp [machine.set_buffer]
    · intro q hq
      simp [machine.set_buffer, hq]
    · show ((old.dims.take old.rank).eraseIdx d).take (old.rank - 1) =
        (old.dims.take old.rank).eraseIdx d
      apply List.take_of_length_le
      rw [List.length_eraseIdx]
      simp only [hlen, hd, if_true]
      exact le_refl _
  · intro at_ vals hvals
    have hno : ¬ (old.dims.length < old.rank) := by omega
    obtain ⟨m1, h1, h2, h3, h4, h5, _⟩ := evaluator.slice_dims_eq env p at_ vals m
      (old.dims.take old.rank) 0 0 (m.set_buffer p (some { old with rank := 0, dims := [] }))
      { old with rank := 0, dims := [] }
      (fun i e _ hi he => hvals i e (by rw [hlen] at hi; omega) he)
      (by simp [machine.set_buffer]) rfl
      (fun q hq => by simp [machine.set_buffer, hq]) rfl
    refine ⟨m1.set_buffer p (some { old with
        base := wrap (old.base + slice_offset env at_ vals (old.dims.take old.rank) 0 0),
        rank := (slice_kept at_ (old.dims.take old.rank) 0).length,
        dims := slice_kept at_ (old.dims.take old.rank) 0 }),
      { old with
        base := wrap (old.base + slice_offset env at_ vals (old.dims.take old.rank) 0 0),
        rank := (slice_kept at_ (old.dims.take old.rank) 0).length,
        dims := slice_kept at_ (old.dims.take old.rank) 0 }, ?_, ?_, h3, h5, ?_, ?_, ?_,
      slice_kept_sublist at_ _ 0, rfl, rfl⟩
    · simp only [evaluator.run, evaluator.visit, hl, run_result.of_option_some, hno, if_false,
        h1, h2, Nat.zero_add, List.nil_append]
    · simp [machine.set_buffer]
    · intro q hq
      simp [machine.set_buffer, hq, h4 q hq]
    · have := slice_kept_length at_ (old.dims.take old.rank) 0
      rw [hlen] at this
      show (slice_kept at_ (old.dims.take old.rank) 0).length = _
      omega
    · show (slice_kept at_ (old.dims.take old.rank) 0).take
          (slice_kept at_ (old.dims.take old.rank) 0).length = _
      exact List.take_length _
  · intro at_
    rw [slice_count_eq_filter]
    simp [slice_defined]
  · intro at_ hle
    rw [slice_count_eq_filter]
    simp [slice_defined, List.take_of_length_le hle]

/-- Claim C20 (amended) at `slice_dim(b, 1, 2)` on the example buffer of rank 2. -/
theorem slice_drops_dims_witness :
    ∃ mb cb,
      evaluator.run example_env 2 (.slice_dim 0 1 (.constant 2) (example_check_rank 1))
          example_buffer_machine =
        (evaluator.run example_env 1 (example_check_rank 1) mb).bind (fun m2 =>
          run_result.of_option m2 (m2.buffers 64) fun c2 =>
            .finished (m2.set_buffer 64 (some { c2 with
              base := example_cell.base, rank := c2.rank + 1, dims := example_cell.dims }))) ∧
      mb.buffers 64 = some cb ∧ mb.context = example_buffer_machine.context ∧
      mb.trace = example_buffer_machine.trace ∧
      (∀ q, q ≠ 64 → mb.buffers q = example_buffer_machine.buffers q) ∧
      cb.rank = example_cell.rank - 1 ∧
      cb.view.dims = example_cell.view.dims.eraseIdx 1 ∧
      cb.base = wrap (example_cell.base + example_env.flat_offset_bytes
        { min := 0, max := 4, stride := 40, fold_factor := 0 } 2) ∧
      cb.elem_size = example_cell.elem_size :=
  (slice_drops_dims example_env 1 0 (example_check_rank 1) example_buffer_machine 64
    example_cell rfl (by decide)).1 1 (.constant 2) 2
    { min := 0, max := 4, stride := 40, fold_factor := 0 } rfl (by decide) rfl

/-! ## Scoped buffer edits restore the descriptor -/

theorem evaluator.lookup_buffer_eq {m : machine} {sym : Nat} {p : Int} {old : buffer_cell}
    (hl : evaluator.lookup_buffer m sym = some (p, old)) : m.buffers p = some old := by
  unfold evaluator.lookup_buffer at hl
  cases h1 : m.context.lookup sym with
  | none => simp [h1] at hl
  | some q =>
    simp only [h1] at hl
    cases h2 : m.buffers q with
    | none => simp [h2] at hl
    | some c =>
      simp only [h2, Option.some.injEq, Prod.mk.injEq] at hl
      rw [← hl.1, h2, hl.2]

theorem dim.extent_set_min_extent (x o : dim) (mn : Int) :
    (x.set_min_extent mn o.extent).extent = o.extent := by
  unfold dim.extent dim.set_min_extent wrap
  simp only
  omega

theorem dim.min_set_min_extent (x : dim) (mn e : Int) : (x.set_min_extent mn e).min = mn := rfl

theorem evaluator.eval_expr_or_buffers {env : eval_env} {m : machine} {e : Option expr}
    {d v : Int} {m1 : machine} (h : evaluator.eval_expr_or env m e d = some (v, m1)) :
    m1.buffers = m.buffers := by
  cases e with
  | none =>
    simp only [evaluator.eval_expr_or, Option.some.injEq, Prod.mk.injEq] at h
    rw [← h.2]
  | some e =>
    rw [(evaluator.eval_expr_eq (show evaluator.eval_expr env m e = some (v, m1) from h)).2]

/-- The first loop of `crop_buffer` writes the dims of its window only and leaves base, rank
and element size alone. -/
theorem evaluator.crop_dims_cell (env : eval_env) (p : Int) :
    ∀ (bounds : List (Option expr × Option expr)) (d : Nat) (offset : Int) (m : machine)
      (c : buffer_cell) (off1 : Int) (m1 : machine),
      m.buffers p = some c →
      evaluator.crop_dims env p bounds d offset m = some (off1, m1) →
      ∃ ds, m1.buffers p = some { c with dims := ds } ∧ ds.length = c.dims.length ∧
        (bounds.length = 0 ∨ d + bounds.length ≤ c.dims.length) ∧
        ∀ i, (i < d ∨ d + bounds.length ≤ i) → ds.get? i = c.dims.get? i
  | [], d, offset, m, c, off1, m1, hc, h => by
    simp only [evaluator.crop_dims, Option.some.injEq, Prod.mk.injEq] at h
    rw [← h.2]
    exact ⟨c.dims, hc, rfl, Or.inl rfl, fun _ _ => rfl⟩
  | (bmin, bmax) :: rest, d, offset, m, c, off1, m1, hc, h => by
    unfold evaluator.crop_dims at h
    rw [hc] at h
    simp only at h
    split at h
    · cases h
    · rename_i dm hd
      split at h
      · cases h
      · rename_i a ma h1
        split at h
        · cases h
        · rename_i b mb h2
          have hb : mb.buffers p = some c := by
            rw [evaluator.eval_expr_or_buffers h2, evaluator.eval_expr_or_buffers h1, hc]
          have hset : (mb.set_dim p d (dm.set_bounds (Max.max dm.min a)
              (Min.min dm.max b))).buffers p =
              some { c with dims := c.dims.set d (dm.set_bounds (Max.max dm.min a)
                (Min.min dm.max b)) } := by
            simp [machine.set_dim, hb, machine.set_buffer]
          obtain ⟨ds, k1, k2, k3, k4⟩ := evaluator.crop_dims_cell env p rest (d + 1) _ _ _ off1
            m1 hset h
          simp only [List.length_set] at k2 k3
          have hdlt : d < c.dims.length := by
            rcases Nat.lt_or_ge d c.dims.length with hlt | hge
            · exact hlt
            · have : c.dims.get? d = none := by
                simp [List.getElem?_eq_none hge]
              rw [this] at hd; cases hd
          refine ⟨ds, k1, k2, Or.inr (by simp only [List.length_cons]; omega), ?_⟩
          intro i hi
          simp only [List.length_cons] at hi
          rw [k4 i (by omega)]
          have hne : d ≠ i := by omega
          simp [List.getElem?_set, hne]

/-- The second loop of `crop_buffer`: the first `k` dims get the old min and extent, the
others stay. -/
theorem evaluator.restore_dims_get (old ds : List dim) (hlen : ds.length = old.length) :
    ∀ (k : Nat), k ≤ old.length →
      (evaluator.restore_dims old k ds).length = ds.length ∧
      ∀ (i : Nat) (o x : dim), old.get? i = some o → ds.get? i = some x →
        (evaluator.restore_dims old k ds).get? i =
          some (if i < k then x.set_min_extent o.min o.extent else x)
  | 0, _ => by
    refine ⟨rfl, fun i o x _ hx => ?_⟩
    simpa [evaluator.restore_dims] using hx
  | k + 1, hk => by
    obtain ⟨ih1, ih2⟩ := evaluator.restore_dims_get old ds hlen k (by omega)
    have hko : k < old.length := by omega
    have hkd : k < ds.length := by omega
    have ho : old.get? k = some old[k] := by simp [List.getElem?_eq_getElem hko]
    have hx : ds.get? k = some ds[k] := by simp [List.getElem?_eq_getElem hkd]
    have hr : (evaluator.restore_dims old k ds).get? k = some ds[k] := by
      rw [ih2 k _ _ ho hx]; simp
    have hstep : evaluator.restore_dims old (k + 1) ds =
        (evaluator.restore_dims old k ds).set k (ds[k].set_min_extent old[k].min old[k].extent) := by
      show (match old.get? k, (evaluator.restore_dims old k ds).get? k with
        | some o, some dm => (evaluator.restore_dims old k ds).set k (dm.set_min_extent o.min o.extent)
        | _, _ => evaluator.restore_dims old k ds) = _
      rw [ho, hr]
    rw [hstep]
    refine ⟨by simp [ih1], fun i o x hio hix => ?_⟩
    by_cases hik : i = k
    · subst hik
      rw [ho] at hio; rw [hx] at hix
      simp only [Option.some.injEq] at hio hix
      subst hio; subst hix
      simp [List.getElem?_set, ih1, hkd]
    · have hne : k ≠ i := fun h => hik h.symm
      have := ih2 i o x hio hix
      simp only [List.get?_eq_getElem?] at this ⊢
      rw [List.getElem?_set, if_neg hne, this]
      have : (i < k + 1) = (i < k) := by
        apply propext; constructor <;> intro h <;> omega
      simp only [this]

theorem evaluator.restore_dims_map (old ds : List dim) (k : Nat)
    (hlen : ds.length = old.length) (hk : k ≤ old.length)
    (hrest : ∀ i, k ≤ i → ds.get? i = old.get? i) :
    (evaluator.restore_dims old k ds).map (fun d => (d.min, d.extent)) =
      old.map (fun d => (d.min, d.extent)) := by
  obtain ⟨h1, h2⟩ := evaluator.restore_dims_get old ds hlen k hk
  apply List.ext_getElem?
  intro i
  simp only [List.getElem?_map]
  by_cases hi : i < old.length
  · have hid : i < ds.length := by omega
    have ho : old.get? i = some old[i] := by simp [List.getElem?_eq_getElem hi]
    have hx : ds.get? i = some ds[i] := by simp [List.getElem?_eq_getElem hid]
    have hr := h2 i _ _ ho hx
    have ho2 : old[i]? = some old[i] := List.getElem?_eq_getElem hi
    simp only [List.get?_eq_getElem?] at hr
    rw [hr, ho2]
    by_cases hik : i < k
    · simp [hik, dim.extent_set_min_extent, dim.min_set_min_extent]
    · have h3 := hrest i (by omega)
      rw [hx, ho] at h3
      simp only [Option.some.injEq] at h3
      simp [hik, h3]
  · have e1 : old[i]? = none := List.getElem?_eq_none (by omega)
    have e2 : (evaluator.restore_dims old k ds)[i]? = none :=
      List.getElem?_eq_none (by omega)
    rw [e1, e2]

theorem evaluator.slice_dims_base (env : eval_env) (p : Int) (at_ : List (Option expr)) :
    ∀ (dims : List dim) (d : Nat) (offset : Int) (m : machine) (c : buffer_cell) (off1 : Int)
      (m1 : machine), m.buffers p = some c →
      evaluator.slice_dims env p at_ dims d offset m = some (off1, m1) →
      ∃ c1, m1.buffers p = some c1 ∧ c1.base = c.base
  | [], d, offset, m, c, off1, m1, hc, h => by
    simp only [evaluator.slice_dims, Option.some.injEq, Prod.mk.injEq] at h
    rw [← h.2]
    exact ⟨c, hc, rfl⟩
  | dm :: rest, d, offset, m, c, off1, m1, hc, h => by
    unfold evaluator.slice_dims at h
    split at h
    · rename_i e _
      cases h1 : evaluator.eval_expr env m e with
      | none => simp [h1] at h
      | some r1 =>
        obtain ⟨v, ma⟩ := r1
        simp only [h1] at h
        have hb : ma.buffers p = some c := by
          rw [(evaluator.eval_expr_eq h1).2]; exact hc
        exact evaluator.slice_dims_base env p at_ rest _ _ _ c off1 m1 hb h
    · simp only [hc] at h
      obtain ⟨c1, k1, k2⟩ := evaluator.slice_dims_base env p at_ rest _ _ _
        { c with rank := c.rank + 1, dims := c.dims ++ [dm] } off1 m1
        (by simp [machine.set_buffer]) h
      exact ⟨c1, k1, k2⟩

theorem map_min_extent_set (l : List dim) (d : Nat) (dm x : dim) (h : l.get? d = some dm)
    (hmin : x.min = dm.min) (hext : x.extent = dm.extent) :
    (l.set d x).map (fun d => (d.min, d.extent)) = l.map (fun d => (d.min, d.extent)) := by
  apply List.ext_getElem?
  intro i
  simp only [List.getElem?_map, List.getElem?_set]
  by_cases hi : d = i
  · subst hi
    have hlt : d < l.length := by
      rcases Nat.lt_or_ge d l.length with hlt | hge
      · exact hlt
      · have : l.get? d = none := by simp [List.getElem?_eq_none hge]
        rw [this] at h; cases h
    simp only [List.get?_eq_getElem?] at h
    simp [hlt, h, hmin, hext]
  · simp [hi]

/-- A `check` leaves the buffers alone. -/
theorem evaluator.run_check_buffers (env : eval_env) (n : Nat) (c : Option expr)
    (mb m2 : machine) (h : evaluator.run env n (.check c) mb = .finished m2) :
    m2.buffers = mb.buffers := by
  cases n with
  | zero => simp [evaluator.run] at h
  | succ n =>
    simp only [evaluator.run, evaluator.visit, run_result.of_option_eq_finished] at h
    obtain ⟨⟨v, m1⟩, h1, h2⟩ := h
    have hb := evaluator.eval_expr_or_buffers h1
    by_cases hv : v = 0
    · simp only [hv, ne_eq, not_true_eq_false, if_false, one_ne_zero, not_false_eq_true,
        if_true] at h2
      by_cases hh : env.check_failed = true
      · simp only [hh, if_true, run_result.finished.injEq] at h2
        rw [← h2]; exact hb
      · simp [hh] at h2
    · simp only [hv, ne_eq, not_false_eq_true, if_true, not_true_eq_false, if_false,
        run_result.finished.injEq] at h2
      rw [← h2]; exact hb

/-- Claim C19. For `crop_buffer`, `crop_dim`, `slice_buffer`, `slice_dim` and `truncate_rank`
on the buffer `old` at `p`: when the body leaves the descriptor at `p` as it found it and the
statement returns, the descriptor afterwards has the base and the rank of `old`, and dim by
dim the min and the extent of `old`. -/
theorem scoped_edits_restore (env : eval_env) (n : Nat) (s : stmt) (sym : Nat) (body : stmt)
    (m m' : machine) (p : Int) (old : buffer_cell)
    (hs : s.scoped_edit = some (sym, body))
    (hl : evaluator.lookup_buffer m sym = some (p, old))
    (hbody : ∀ mb m2, evaluator.run env n body mb = .finished m2 → m2.buffers p = mb.buffers p)
    (hr : evaluator.run env (n + 1) s m = .finished m') :
    ∃ c, m'.buffers p = some c ∧ c.base = old.base ∧ c.rank = old.rank ∧
      c.dims.map (fun d => (d.min, d.extent)) = old.dims.map (fun d => (d.min, d.extent)) := by
  have hbuf := evaluator.lookup_buffer_eq hl
  cases s with
  | crop_buffer sym1 bounds body1 =>
    simp only [stmt.scoped_edit, Option.some.injEq, Prod.mk.injEq] at hs
    obtain ⟨rfl, rfl⟩ := hs
    simp only [evaluator.run, evaluator.visit, hl, run_result.of_option_some,
      run_result.of_option_eq_finished, run_result.bind_eq_finished] at hr
    obtain ⟨⟨off, m1⟩, hcd, c1, hc1, m2, hb, c2, hc2, hfin⟩ := hr
    simp only [run_result.finished.injEq] at hfin
    obtain ⟨ds, k1, k2, k3, k4⟩ := evaluator.crop_dims_cell env p bounds 0 0 m old off m1 hbuf hcd
    rw [k1] at hc1
    simp only [Option.some.injEq] at hc1
    have h2 := hbody _ _ hb
    simp only [machine.set_buffer, if_true] at h2
    rw [h2] at hc2
    simp only [Option.some.injEq] at hc2
    subst hc1; subst hc2; subst hfin
    refine ⟨{ old with dims := evaluator.restore_dims old.dims bounds.length ds },
      by simp [machine.set_buffer], rfl, rfl, ?_⟩
    apply evaluator.restore_dims_map old.dims ds bounds.length k2
    · rcases k3 with h | h
      · omega
      · omega
    · intro i hi
      exact k4 i (Or.inr (by omega))
  | crop_dim sym1 d lo hi same body1 =>
    simp only [stmt.scoped_edit, Option.some.injEq, Prod.mk.injEq] at hs
    obtain ⟨rfl, rfl⟩ := hs
    simp only [evaluator.run, evaluator.visit, hl, run_result.of_option_some,
      run_result.of_option_eq_finished, run_result.bind_eq_finished] at hr
    obtain ⟨dm, hdm, ⟨a, m1⟩, ha, ⟨dm1, m3⟩, h3, m4, hb, c4, hc4, dm4, hdm4, hfin⟩ := hr
    simp only [run_result.finished.injEq] at hfin
    have hm1 := (evaluator.eval_expr_eq ha).2
    have hm3 : m3.buffers p = some { old with
        base := wrap (old.base + env.flat_offset_bytes dm (Max.max dm.min a)) } := by
      cases same with
      | true =>
        simp only [if_true, Option.some.injEq, Prod.mk.injEq] at h3
        rw [← h3.2]; simp [machine.set_buffer]
      | false =>
        simp only [Bool.false_eq_true, if_false] at h3
        split at h3
        · cases h3
        · rename_i b mx hx
          simp only [Option.some.injEq, Prod.mk.injEq] at h3
          rw [← h3.2, (evaluator.eval_expr_eq hx).2]
          simp [machine.set_buffer]
    have h2 := hbody _ _ hb
    simp only [machine.set_dim, hm3, machine.set_buffer, if_true] at h2
    rw [h2] at hc4
    simp only [Option.some.injEq] at hc4
    subst hc4
    have hdlt : d < old.dims.length := by
      rcases Nat.lt_or_ge d old.dims.length with hlt | hge
      · exact hlt
      · have : old.dims.get? d = none := by simp [List.getElem?_eq_none hge]
        rw [this] at hdm; cases hdm
    subst hfin
    refine ⟨{ old with dims := old.dims.set d (dm4.set_min_extent dm.min dm.extent) },
      by simp [machine.set_buffer], rfl, rfl, ?_⟩
    exact map_min_extent_set old.dims d dm _ hdm rfl (dim.extent_set_min_extent _ _ _)
  | slice_buffer sym1 at_ body1 =>
    simp only [stmt.scoped_edit, Option.some.injEq, Prod.mk.injEq] at hs
    obtain ⟨rfl, rfl⟩ := hs
    simp only [evaluator.run, evaluator.visit, hl, run_result.of_option_some] at hr
    by_cases hlen : old.dims.length < old.rank
    · simp [hlen] at hr
    · simp only [hlen, if_false, run_result.of_option_eq_finished,
        run_result.bind_eq_finished] at hr
      obtain ⟨⟨off, m1⟩, hsd, c1, hc1, m2, hb, c2, hc2, hfin⟩ := hr
      simp only [run_result.finished.injEq] at hfin
      obtain ⟨c1', k1, k2⟩ := evaluator.slice_dims_base env p at_ _ 0 0 _
        { old with rank := 0, dims := [] } off m1 (by simp [machine.set_buffer]) hsd
      rw [k1] at hc1
      simp only [Option.some.injEq] at hc1
      subst hc1; subst hfin
      exact ⟨{ c2 with base := c1'.base, rank := old.rank, dims := old.dims },
        by simp [machine.set_buffer], k2, rfl, rfl⟩
  | slice_dim sym1 d at_ body1 =>
    simp only [stmt.scoped_edit, Option.some.injEq, Prod.mk.injEq] at hs
    obtain ⟨rfl, rfl⟩ := hs
    simp only [evaluator.run, evaluator.visit, hl, run_result.of_option_some,
      run_result.of_option_eq_finished] at hr
    obtain ⟨⟨v, m1⟩, hv, hr⟩ := hr
    by_cases hlen : old.dims.length < old.rank ∨ old.rank ≤ d
    · simp [hlen] at hr
    · simp only [hlen, if_false, run_result.of_option_eq_finished,
        run_result.bind_eq_finished] at hr
      obtain ⟨dm, hdm, m2, hb, c2, hc2, hfin⟩ := hr
      simp only [run_result.finished.injEq] at hfin
      have h2 := hbody _ _ hb
      simp only [machine.set_buffer, if_true] at h2
      rw [h2] at hc2
      simp only [Option.some.injEq] at hc2
      subst hc2; subst hfin
      refine ⟨{ old with rank := old.rank - 1 + 1 }, by simp [machine.set_buffer], rfl, ?_,
        rfl⟩
      show old.rank - 1 + 1 = old.rank
      omega
  | truncate_rank sym1 r body1 =>
    simp only [stmt.scoped_edit, Option.some.injEq, Prod.mk.injEq] at hs
    obtain ⟨rfl, rfl⟩ := hs
    simp only [evaluator.run, evaluator.visit, hl, run_result.of_option_some,
      run_result.of_option_eq_finished, run_result.bind_eq_finished] at hr
    obtain ⟨m2, hb, c2, hc2, hfin⟩ := hr
    simp only [run_result.finished.injEq] at hfin
    have h2 := hbody _ _ hb
    simp only [machine.set_buffer, if_true] at h2
    rw [h2] at hc2
    simp only [Option.some.injEq] at hc2
    subst hc2; subst hfin
    exact ⟨old, by simp [machine.set_buffer], rfl, rfl, rfl⟩
  | let_stmt _ _ _ => simp [stmt.scoped_edit] at hs
  | block _ _ => simp [stmt.scoped_edit] at hs
  | loop _ _ _ _ _ => simp [stmt.scoped_edit] at hs
  | if_then_else _ _ _ => simp [stmt.scoped_edit] at hs
  | call_func _ => simp [stmt.scoped_edit] at hs
  | allocate _ _ _ _ _ => simp [stmt.scoped_edit] at hs
  | make_buffer _ _ _ _ _ => simp [stmt.scoped_edit] at hs
  | check _ => simp [stmt.scoped_edit] at hs

/-- Claim C19 at `crop_dim(b, 0, [2, 5])` over a check, on the example buffer. -/
theorem scoped_edits_restore_witness :
    ∃ c, (evaluator.run example_env 2
        (.crop_dim 0 0 (.constant 2) (.constant 5) false (example_check_bounds 2 5))
        example_buffer_machine).last.buffers 64 = some c ∧
      c.base = example_cell.base ∧ c.rank = example_cell.rank ∧
      c.dims.map (fun d => (d.min, d.extent)) =
        example_cell.dims.map (fun d => (d.min, d.extent)) :=
  scoped_edits_restore example_env 1
    (.crop_dim 0 0 (.constant 2) (.constant 5) false (example_check_bounds 2 5)) 0
    (example_check_bounds 2 5) example_buffer_machine _ 64 example_cell rfl rfl
    (fun mb m2 h => by rw [evaluator.run_check_buffers example_env 1 _ mb m2 h]) rfl

/-! ## symbol_map and scoped_value -/

theorem symbol_map.lookup_set_all {T : Type} (ops : List (Nat × Option T)) (k : Nat)
    (hops : ∀ op ∈ ops, op.1 ≠ k) (m : symbol_map T) :
    symbol_map.lookup (symbol_map.set_all m ops) k = symbol_map.lookup m k := by
  induction ops generalizing m with
  | nil => rfl
  | cons op ops ih =>
    simp only [symbol_map.set_all]
    rw [ih (fun o ho => hops o (List.mem_cons_of_mem _ ho)), symbol_map.lookup_set]
    have := hops op (List.mem_cons_self _ _)
    simp [Ne.symm this]

/-- Claim C21: a map built from the empty map by any sequence of `set` calls that never
names `k` has `k` unset; after `set(n, w)` the lookup of `n` gives `w` and every other
lookup is unchanged; and constructing a `scoped_value` for `(n, v)` and destroying it again
leaves every lookup as it was before, whatever the map held at `n` and whatever its size. -/
theorem symbol_map_scoping {T : Type} (m : symbol_map T) (n k : Nat) (v : T) (w : Option T)
    (ops : List (Nat × Option T)) (hops : ∀ op ∈ ops, op.1 ≠ k) :
    symbol_map.lookup (symbol_map.set_all ([] : symbol_map T) ops) k = none ∧
    symbol_map.lookup (m.set n w) n = w ∧
    (k ≠ n → symbol_map.lookup (m.set n w) k = symbol_map.lookup m k) ∧
    symbol_map.lookup ((scoped_value.make m n v).1.destroy (scoped_value.make m n v).2) k =
      symbol_map.lookup m k := by
  refine ⟨?_, ?_, ?_, ?_⟩
  · rw [symbol_map.lookup_set_all ops k hops, symbol_map.lookup_nil]
  · simp [symbol_map.lookup_set]
  · intro h
    simp [symbol_map.lookup_set, h]
  · simp only [scoped_value.make, scoped_value.destroy, if_true, symbol_map.lookup_set]
    by_cases h : k = n
    · simp [h]
    · simp [h]

/-- Claim C21 on the map `[unset, 7]`: symbol 5 lies beyond the populated range, symbol 1
is never set by the sequence `set(0, 7); set(3, 4); set(3, unset)`, and the scope of
symbol 5 leaves symbol 1 at 7. -/
theorem symbol_map_scoping_witness :
    symbol_map.lookup (symbol_map.set_all ([] : symbol_map Int)
      [(0, some 7), (3, some 4), (3, none)]) 1 = none ∧
    symbol_map.lookup (symbol_map.set [none, some (7 : Int)] 5 (some 9)) 5 = some 9 ∧
    (1 ≠ 5 → symbol_map.lookup (symbol_map.set [none, some (7 : Int)] 5 (some 9)) 1 =
      symbol_map.lookup [none, some (7 : Int)] 1) ∧
    symbol_map.lookup ((scoped_value.make [none, some (7 : Int)] 5 3).1.destroy
      (scoped_value.make [none, some (7 : Int)] 5 3).2) 1 =
      symbol_map.lookup [none, some (7 : Int)] 1 :=
  symbol_map_scoping [none, some 7] 5 1 3 (some 9) [(0, some 7), (3, some 4), (3, none)]
    (by decide)

/-! ## The pipeline builder: scheduling -/

theorem mem_set_insert {x y : Nat} {s : List Nat} : y ∈ set_insert x s ↔ y = x ∨ y ∈ s := by
  unfold set_insert
  by_cases h : s.contains x = true
  · simp only [h, if_true]
    constructor
    · exact Or.inr
    · rintro (rfl | h1)
      · simpa using h
      · exact h1
  · simp only [h, if_false, Bool.false_eq_true, List.mem_append, List.mem_filter, List.mem_cons,
      decide_eq_true_eq]
    constructor
    · rintro (⟨h1, _⟩ | rfl | ⟨h1, _⟩)
      · exact Or.inr h1
      · exact Or.inl rfl
      · exact Or.inr h1
    · rintro (rfl | h1)
      · exact Or.inr (Or.inl rfl)
      · rcases Nat.lt_trichotomy y x with h2 | h2 | h2
        · exact Or.inl ⟨h1, h2⟩
        · exact Or.inr (Or.inl h2)
        · exact Or.inr (Or.inr ⟨h1, h2⟩)

theorem mem_set_insert_all {xs : List Nat} {y : Nat} :
    ∀ {s : List Nat}, y ∈ set_insert_all xs s ↔ y ∈ xs ∨ y ∈ s := by
  induction xs with
  | nil => intro s; simp [set_insert_all]
  | cons x xs ih =>
    intro s
    have := ih (s := set_insert x s)
    simp only [set_insert_all, List.foldl_cons] at this ⊢
    rw [this, mem_set_insert, List.mem_cons]
    tauto

theorem pipeline_graph.producer_from_spec : ∀ (fs : List func) (idx b p : Nat),
    pipeline_graph.producer_from fs idx b = some p →
    ∃ k f, p = idx + k ∧ fs.get? k = some f ∧ ∃ o, o ∈ f.outputs ∧ o.buffer = b
  | [], idx, b, p, h => by simp [pipeline_graph.producer_from] at h
  | f :: fs, idx, b, p, h => by
    simp only [pipeline_graph.producer_from] at h
    cases hr : pipeline_graph.producer_from fs (idx + 1) b with
    | some q =>
      simp only [hr, Option.some.injEq] at h
      obtain ⟨k, f1, hk, hf, ho⟩ := pipeline_graph.producer_from_spec fs (idx + 1) b q hr
      exact ⟨k + 1, f1, by omega, by simpa using hf, ho⟩
    | none =>
      simp only [hr] at h
      split at h
      · rename_i hany
        simp only [Option.some.injEq] at h
        simp only [List.any_eq_true, beq_iff_eq] at hany
        obtain ⟨o, ho, hb⟩ := hany
        exact ⟨0, f, by omega, rfl, o, ho, hb⟩
      · simp at h

theorem pipeline_graph.producer_spec (g : pipeline_graph) (b p : Nat)
    (h : g.producer b = some p) :
    p < g.funcs.length ∧ ∃ o, o ∈ (g.func_at p).outputs ∧ o.buffer = b := by
  obtain ⟨k, f, hk, hf, ho⟩ := pipeline_graph.producer_from_spec g.funcs 0 b p h
  have hpk : p = k := by omega
  subst hpk
  rw [List.get?_eq_some] at hf
  obtain ⟨hlt, hf⟩ := hf
  refine ⟨hlt, ?_⟩
  have : g.func_at p = f := by
    unfold pipeline_graph.func_at
    rw [List.getD_eq_getElem _ _ hlt]
    simpa using hf
  rw [this]
  exact ho

theorem pipeline_graph.mem_all_outputs (g : pipeline_graph) (b p : Nat)
    (h : g.producer b = some p) : b ∈ g.all_outputs := by
  obtain ⟨k, f, _, hf, o, ho, hb⟩ := pipeline_graph.producer_from_spec g.funcs 0 b p h
  unfold pipeline_graph.all_outputs
  simp only [List.mem_flatMap, List.mem_map]
  exact ⟨f, List.get?_mem hf, o, ho, hb⟩

theorem pipeline_builder.scan_consumers_some (g : pipeline_graph) (produced : List Nat) (i : Nat) :
    ∀ (js : List Nat) (f0 : Option Nat) (f : Nat),
      pipeline_builder.scan_consumers g produced i js f0 = some f → f0 = some f
  | [], f0, f, h => by simpa [pipeline_builder.scan_consumers] using h
  | j :: js, f0, f, h => by
    simp only [pipeline_builder.scan_consumers] at h
    have := pipeline_builder.scan_consumers_some g produced i js _ f h
    split at this
    · simp at this
    · exact this

theorem pipeline_builder.find_from_some (g : pipeline_graph) (produced : List Nat) :
    ∀ (tp : List Nat) (f : Nat), pipeline_builder.find_from g produced tp = some f →
      ∃ i, i ∈ tp ∧ i ∉ produced ∧ g.producer i = some f
  | [], f, h => by simp [pipeline_builder.find_from] at h
  | i :: rest, f, h => by
    simp only [pipeline_builder.find_from] at h
    by_cases hp : produced.contains i = true
    · simp only [hp, if_true] at h
      obtain ⟨k, hk, hn, hpr⟩ := pipeline_builder.find_from_some g produced rest f h
      exact ⟨k, List.mem_cons_of_mem _ hk, hn, hpr⟩
    · simp only [hp, if_false, Bool.false_eq_true] at h
      cases hs : pipeline_builder.scan_consumers g produced i (g.consumers i) (g.producer i) with
      | some f1 =>
        simp only [hs, Option.some.injEq] at h
        subst h
        refine ⟨i, List.mem_cons_self _ _, ?_, pipeline_builder.scan_consumers_some g produced i _ _ _ hs⟩
        simpa using hp
      | none =>
        simp only [hs] at h
        obtain ⟨k, hk, hn, hpr⟩ := pipeline_builder.find_from_some g produced rest f h
        exact ⟨k, List.mem_cons_of_mem _ hk, hn, hpr⟩

theorem pipeline_builder.loop_dims_ok (g : pipeline_graph) (loop buffer : Nat) :
    ∀ (vs : List Nat) (d : Nat) (bounds : Option interval) (to_crop : List (Nat × Nat)),
      d + vs.length ≤ (g.buffers buffer).dims.length →
      ∃ r, pipeline_builder.loop_dims g loop buffer vs d bounds to_crop = .ok r
  | [], d, bounds, to_crop, _ => ⟨_, rfl⟩
  | v :: vs, d, bounds, to_crop, h => by
    simp only [List.length_cons] at h
    simp only [pipeline_builder.loop_dims]
    by_cases hv : v = loop
    · simp only [hv, if_true]
      have hd : d < (g.buffers buffer).dims.length := by omega
      rw [List.get?_eq_get hd]
      exact pipeline_builder.loop_dims_ok g loop buffer vs (d + 1) _ _ (by omega)
    · simp only [hv, if_false]
      exact pipeline_builder.loop_dims_ok g loop buffer vs (d + 1) _ _ (by omega)

theorem pipeline_builder.loop_outputs_ok (g : pipeline_graph) (loop : Nat) :
    ∀ (os : List func_output) (bounds : Option interval) (to_crop : List (Nat × Nat)),
      (∀ o, o ∈ os → o.dims.length ≤ (g.buffers o.buffer).dims.length) →
      ∃ r, pipeline_builder.loop_outputs g loop os bounds to_crop = .ok r
  | [], bounds, to_crop, _ => ⟨_, rfl⟩
  | o :: os, bounds, to_crop, h => by
    simp only [pipeline_builder.loop_outputs]
    obtain ⟨r, hr⟩ := pipeline_builder.loop_dims_ok g loop o.buffer o.dims 0 bounds to_crop
      (by have := h o (List.mem_cons_self _ _); omega)
    rw [hr]
    exact pipeline_builder.loop_outputs_ok g loop os r.1 r.2
      (fun o1 ho1 => h o1 (List.mem_cons_of_mem _ ho1))

theorem pipeline_builder.insert_producers_ok (g : pipeline_graph) (rank : Nat → Nat) (k : Nat)
    (rec : pipeline_builder → pipeline_builder.stmt → Nat →
      Except fault (pipeline_builder × pipeline_builder.stmt))
    (hrec : pipeline_builder.produces g rank k rec) (f loop : Nat)
    (hrank : ∀ p l, (g.func_at p).compute_at = some (f, l) → rank p < k) :
    ∀ (rest : List Nat) (b : pipeline_builder) (call_f : pipeline_builder.stmt),
      ∃ b1 r1, pipeline_builder.insert_producers g rec f loop rest b call_f = .ok (b1, r1) ∧
        ∀ x, x ∈ b.produced → x ∈ b1.produced
  | [], b, call_f => ⟨b, call_f, rfl, fun _ h => h⟩
  | i :: rest, b, call_f => by
    simp only [pipeline_builder.insert_producers]
    cases hp : g.producer i with
    | none => exact pipeline_builder.insert_producers_ok g rank k rec hrec f loop hrank rest b call_f
    | some p =>
      simp only []
      by_cases hc : (g.func_at p).compute_at = some (f, loop)
      · simp only [hc, if_true]
        obtain ⟨b1, r1, h1, hm, _⟩ := hrec b call_f p (hrank p loop hc)
        rw [h1]
        obtain ⟨b2, r2, h2, hm2⟩ :=
          pipeline_builder.insert_producers_ok g rank k rec hrec f loop hrank rest b1 r1
        exact ⟨b2, r2, h2, fun x hx => hm2 x (hm x hx)⟩
      · simp only [hc, if_false]
        exact pipeline_builder.insert_producers_ok g rank k rec hrec f loop hrank rest b call_f

theorem pipeline_builder.explicit_loops_ok (g : pipeline_graph) (rank : Nat → Nat) (k : Nat)
    (rec : pipeline_builder → pipeline_builder.stmt → Nat →
      Except fault (pipeline_builder × pipeline_builder.stmt))
    (hrec : pipeline_builder.produces g rank k rec) (f : Nat)
    (hrank : ∀ p l, (g.func_at p).compute_at = some (f, l) → rank p < k)
    (hdims : ∀ o, o ∈ (g.func_at f).outputs → o.dims.length ≤ (g.buffers o.buffer).dims.length) :
    ∀ (loops : List Nat) (b : pipeline_builder) (call_f : pipeline_builder.stmt),
      ∃ b1 r1, pipeline_builder.explicit_loops g rec f loops b call_f = .ok (b1, r1) ∧
        ∀ x, x ∈ b.produced → x ∈ b1.produced
  | [], b, call_f => ⟨b, call_f, rfl, fun _ h => h⟩
  | loop :: loops, b, call_f => by
    simp only [pipeline_builder.explicit_loops]
    obtain ⟨⟨bounds, to_crop⟩, hr⟩ :=
      pipeline_builder.loop_outputs_ok g loop (g.func_at f).outputs none [] hdims
    rw [hr]
    simp only []
    obtain ⟨b1, r1, h1, hm1⟩ := pipeline_builder.insert_producers_ok g rank k rec hrec f loop hrank
      b.to_produce b (to_crop.foldl
        (fun s i => pipeline_builder.stmt.crop i.2 i.1 (.var loop) (.constant 1) s) call_f)
    rw [h1]
    simp only []
    obtain ⟨b2, r2, h2, hm2⟩ :=
      pipeline_builder.explicit_loops_ok g rank k rec hrec f hrank hdims loops b1
        (.loop loop (bounds.map (fun bs => bs.min))
          (bounds.map (fun bs => expr.add bs.max (.constant 1))) r1)
    exact ⟨b2, r2, h2, fun x hx => hm2 x (hm1 x hx)⟩

theorem pipeline_builder.produce_ok (g : pipeline_graph) (rank : Nat → Nat)
    (hrank : ∀ p f l, (g.func_at p).compute_at = some (f, l) → rank p < rank f)
    (hdims : ∀ f o, o ∈ (g.func_at f).outputs → o.dims.length ≤ (g.buffers o.buffer).dims.length) :
    ∀ budget, pipeline_builder.produces g rank budget (pipeline_builder.produce g budget)
  | 0 => fun _ _ p h => absurd h (Nat.not_lt_zero _)
  | budget + 1 => by
    intro b result p hp
    simp only [pipeline_builder.produce]
    obtain ⟨b1, r1, h1, hm1⟩ := pipeline_builder.explicit_loops_ok g rank budget
      (pipeline_builder.produce g budget) (pipeline_builder.produce_ok g rank hrank hdims budget) p
      (fun q l hq => by have := hrank q p l hq; omega) (hdims p) (g.func_at p).loops
      { b with allocated := (pipeline_builder.allocations (g.func_at p).outputs b.allocated).2 }
      (.call ((g.func_at p).inputs.map (fun i => i.buffer) ++
        (g.func_at p).outputs.map (fun o => o.buffer)) p)
    rw [h1]
    refine ⟨_, _, rfl, ?_, ?_⟩
    · intro x hx
      simp only [mem_set_insert_all]
      exact Or.inr (hm1 x hx)
    · intro o ho
      simp only [mem_set_insert_all, List.mem_map]
      exact Or.inl ⟨o, ho, rfl⟩

theorem pipeline_graph.rank_le_max_rank (g : pipeline_graph) (rank : Nat → Nat) (p : Nat)
    (hp : p < g.funcs.length) : rank p ≤ g.max_rank rank := by
  unfold pipeline_graph.max_rank
  have h : ∀ (l : List Nat), p ∈ l → rank p ≤ (l.map rank).foldr Nat.max 0 := by
    intro l
    induction l with
    | nil => intro h; simp at h
    | cons a l ih =>
      intro h
      simp only [List.map_cons, List.foldr_cons]
      rcases List.mem_cons.mp h with rfl | h
      · exact Nat.le_max_left _ _
      · exact Nat.le_trans (ih h) (Nat.le_max_right _ _)
  exact h _ (List.mem_range.mpr hp)

theorem build_pipeline.schedule_ends (g : pipeline_graph) (rank : Nat → Nat)
    (hrank : ∀ p f l, (g.func_at p).compute_at = some (f, l) → rank p < rank f)
    (hdims : ∀ f o, o ∈ (g.func_at f).outputs → o.dims.length ≤ (g.buffers o.buffer).dims.length)
    (depth : Nat) (hdepth : g.max_rank rank < depth) :
    ∀ (budget : Nat) (b : pipeline_builder) (result : pipeline_builder.stmt),
      (g.all_outputs.toFinset \ b.produced.toFinset).card < budget →
      (build_pipeline.schedule g depth budget b result).ends_well g
  | 0, _, _, h => absurd h (Nat.not_lt_zero _)
  | budget + 1, b, result, h => by
    simp only [build_pipeline.schedule]
    by_cases hc : b.complete = true
    · simp only [hc, if_true]
      exact hc
    · simp only [hc, if_false, Bool.false_eq_true]
      cases hf : b.find_next_producer g with
      | none => exact ⟨by simpa using hc, hf⟩
      | some f =>
        simp only []
        obtain ⟨i, _, hni, hpi⟩ := pipeline_builder.find_from_some g b.produced b.to_produce f hf
        obtain ⟨hlt, o, ho, hob⟩ := pipeline_graph.producer_spec g i f hpi
        have hr : rank f < depth :=
          Nat.lt_of_le_of_lt (pipeline_graph.rank_le_max_rank g rank f hlt) hdepth
        obtain ⟨b1, r1, h1, hm, hout⟩ :=
          pipeline_builder.produce_ok g rank hrank hdims depth b result f hr
        rw [h1]
        simp only []
        apply build_pipeline.schedule_ends g rank hrank hdims depth hdepth budget b1 r1
        have hi1 : i ∈ b1.produced := hob ▸ hout o ho
        have hio : i ∈ g.all_outputs := pipeline_graph.mem_all_outputs g i f hpi
        have hlt2 : (g.all_outputs.toFinset \ b1.produced.toFinset).card <
            (g.all_outputs.toFinset \ b.produced.toFinset).card := by
          apply Finset.card_lt_card
          rw [Finset.ssubset_iff_of_subset]
          · exact ⟨i, by simp [hio, hni], by simp [hi1]⟩
          · intro x hx
            simp only [Finset.mem_sdiff, List.mem_toFinset] at hx ⊢
            exact ⟨hx.1, fun hxb => hx.2 (hm x hxb)⟩
        omega

/-- Claim C30 (amended): take any graph of funcs and buffers in which every output of a func
declares no more dims than its buffer has, and in which no func is computed, directly or
through other funcs, at a loop of itself (there is a rank that drops from a func to every
func computed at one of its loops).  Then there is a budget N such that the scheduling loop
of `build_pipeline`, started from any builder state with at least N iterations and recursion
depth N, ends with `complete()` true or with the dependency error after `find_next_producer`
found no func; and whenever `find_next_producer` finds a func, `produce` returns, keeps every
buffer of `produced` and adds at least one that was not in it. -/
theorem build_terminates (g : pipeline_graph) (rank : Nat → Nat)
    (hrank : ∀ p f l, (g.func_at p).compute_at = some (f, l) → rank p < rank f)
    (hdims : ∀ f o, o ∈ (g.func_at f).outputs →
      o.dims.length ≤ (g.buffers o.buffer).dims.length) :
    ∃ N, ∀ depth budget, N ≤ depth → N ≤ budget →
      ∀ (b : pipeline_builder) (result : pipeline_builder.stmt),
        (build_pipeline.schedule g depth budget b result).ends_well g ∧
        ∀ f, b.find_next_producer g = some f →
          ∃ b1 r1, pipeline_builder.produce g depth b result f = .ok (b1, r1) ∧
            (∀ x, x ∈ b.produced → x ∈ b1.produced) ∧
            ∃ i, i ∈ b1.produced ∧ i ∉ b.produced := by
  refine ⟨Nat.max (g.max_rank rank) g.all_outputs.length + 1, ?_⟩
  intro depth budget hd hb b result
  have hd1 : g.max_rank rank < depth :=
    Nat.lt_of_lt_of_le (Nat.lt_succ_of_le (Nat.le_max_left _ _)) hd
  have hb1 : g.all_outputs.length < budget :=
    Nat.lt_of_lt_of_le (Nat.lt_succ_of_le (Nat.le_max_right _ _)) hb
  refine ⟨?_, ?_⟩
  · apply build_pipeline.schedule_ends g rank hrank hdims depth hd1
    have h1 : (g.all_outputs.toFinset \ b.produced.toFinset).card ≤ g.all_outputs.toFinset.card :=
      Finset.card_le_card Finset.sdiff_subset
    have h2 := List.toFinset_card_le g.all_outputs
    omega
  · intro f hf
    obtain ⟨i, _, hni, hpi⟩ := pipeline_builder.find_from_some g b.produced b.to_produce f hf
    obtain ⟨hlt, o, ho, hob⟩ := pipeline_graph.producer_spec g i f hpi
    have hr : rank f < depth :=
      Nat.lt_of_le_of_lt (pipeline_graph.rank_le_max_rank g rank f hlt) hd1
    obtain ⟨b1, r1, h1, hm, hout⟩ :=
      pipeline_builder.produce_ok g rank hrank hdims depth b result f hr
    exact ⟨b1, r1, h1, hm, i, hob ▸ hout o ho, hni⟩

/-- Claim C30 on the two-stage graph whose first func is computed at the loop of the second:
the rank is 0 for func 0 and 1 for func 1; with budget 5 the build for input 0 and output 2
ends with `complete()` true and calls func 0, then func 1. -/
theorem build_terminates_witness :
    (∃ N, ∀ depth budget, N ≤ depth → N ≤ budget →
      ∀ (b : pipeline_builder) (result : pipeline_builder.stmt),
        (build_pipeline.schedule example_fused_graph depth budget b result).ends_well
            example_fused_graph ∧
        ∀ f, b.find_next_producer example_fused_graph = some f →
          ∃ b1 r1, pipeline_builder.produce example_fused_graph depth b result f = .ok (b1, r1) ∧
            (∀ x, x ∈ b.produced → x ∈ b1.produced) ∧
            ∃ i, i ∈ b1.produced ∧ i ∉ b.produced) ∧
    (build_pipeline example_fused_graph 5 [0] [2]).calls = some [0, 1] :=
  ⟨build_terminates example_fused_graph (fun p => if p = 0 then 0 else 1)
    (fun p f l h => by
      match p, h with
      | 0, h =>
        simp only [example_fused_graph, pipeline_graph.func_at, List.getD_cons_zero,
          Option.some.injEq, Prod.mk.injEq] at h
        simp [← h.1]
      | 1, h => simp [example_fused_graph, pipeline_graph.func_at] at h
      | n + 2, h => simp [example_fused_graph, pipeline_graph.func_at] at h)
    (fun f o h => by
      match f, h with
      | 0, h =>
        simp only [example_fused_graph, pipeline_graph.func_at, List.getD_cons_zero,
          List.mem_singleton] at h
        subst h; decide
      | 1, h =>
        simp only [example_fused_graph, pipeline_graph.func_at, List.getD_cons_succ,
          List.getD_cons_zero, List.mem_singleton] at h
        subst h; decide
      | n + 2, h => simp [example_fused_graph, pipeline_graph.func_at] at h),
   by decide⟩

theorem pipeline_builder.produce_self_never_returns :
    ∀ (depth : Nat) (b : pipeline_builder) (result : pipeline_builder.stmt),
      b.to_produce = [0, 1] →
      pipeline_builder.produce example_self_graph depth b result 0 = .error .out_of_budget
  | 0, _, _, _ => rfl
  | depth + 1, b, result, h => by
    have ih := pipeline_builder.produce_self_never_returns depth
    simp only [pipeline_builder.produce, pipeline_builder.explicit_loops, example_self_graph,
      pipeline_graph.func_at, List.getD_cons_zero, h]
    simp only [example_self_graph, pipeline_graph.func_at, List.getD_cons_zero] at ih
    have hl : pipeline_builder.loop_outputs
        { funcs := [{ inputs := [{ buffer := 0, bounds := [] }],
                      outputs := [{ buffer := 1, dims := [7] }],
                      loops := [7], compute_at := some (0, 7) }],
          buffers := fun _ => example_buffer } 7 [{ buffer := 1, dims := [7] }] none [] =
        .ok (some { min := .constant 0,
                    max := .sub (.add (.constant 0) (.constant 5)) (.constant 1) }, [(0, 1)]) := rfl
    rw [hl]
    simp only [pipeline_builder.insert_producers, pipeline_graph.producer,
      pipeline_graph.producer_from, pipeline_graph.func_at]
    simp [ih]

/-- Claim C30 (as stated, refuted) at two graphs.  In the first the one func, which makes
buffer 1 from buffer 0 in a loop over variable 7, is computed at that loop of itself:
`produce` inserts the func into its own loop again and again, and with no budget does the
scheduling loop end.  In the second the func indexes dim 1 of its output by the loop
variable, but the buffer has one dim: `produce` reads `dim(1)` out of range, and the loop
ends neither with `complete()` nor with the dependency error. -/
theorem build_terminates_counterexample :
    (∀ depth budget, build_pipeline.schedule example_self_graph depth budget
        example_builder .undefined = .stopped .out_of_budget) ∧
    (build_pipeline.schedule example_rank_graph 5 5 example_builder .undefined).is_built = false ∧
    (build_pipeline.schedule example_rank_graph 5 5 example_builder
      .undefined).is_dependency_error = false := by
  refine ⟨fun depth budget => ?_, by decide, by decide⟩
  cases budget with
  | zero => rfl
  | succ budget =>
  simp only [build_pipeline.schedule]
  have h1 : example_builder.complete = false := by decide
  have h2 : example_builder.find_next_producer example_self_graph = some 0 := by decide
  rw [h1, h2]
  simp [pipeline_builder.produce_self_never_returns depth example_builder .undefined rfl]

/-- Claim C28 at the failing input: one func makes buffer 1 from buffer 0; the declared inputs
are buffers 0 and 5, of which no func consumes 5, and the output is buffer 1.  The
transitive producer set is {0, 1} and buffer 1 has func 0 as its producer, but `produced`
starts as {0, 5}: both sets have two elements, `complete()` is true before the first
iteration, and the body holds no call.  Without the unused input the call is emitted. -/
theorem build_completeness_failing_input :
    pipeline_builder.make example_copy_graph 5 [0, 5] [1] =
      .ok { to_produce := [0, 1], produced := [0, 5], allocated := [1] } ∧
    example_copy_graph.producer 1 = some 0 ∧
    (build_pipeline example_copy_graph 5 [0, 5] [1]).is_built = true ∧
    (build_pipeline example_copy_graph 5 [0, 5] [1]).calls = some [] ∧
    (build_pipeline example_copy_graph 5 [0] [1]).calls = some [0] :=
  ⟨rfl, by decide, by decide, by decide, by decide⟩

/-- Claim C29 at the failing input: func 0 makes buffers 1 and 2 from buffer 0, func 1 makes
buffer 3 from buffer 1, func 2 makes buffer 4 from buffer 2; the input is buffer 0 and the
outputs are buffers 3 and 4.  The graph has no cycle and the build ends with `complete()`
true.  `find_next_producer` schedules func 0 as soon as the consumer of buffer 1 has run,
without looking at buffer 2: the body calls func 2, the consumer of buffer 2, before func 0,
its producer. -/
theorem producers_before_consumers_failing_input :
    (build_pipeline example_fan_graph 5 [0] [3, 4]).is_built = true ∧
    (build_pipeline example_fan_graph 5 [0] [3, 4]).calls = some [2, 0, 1] ∧
    example_fan_graph.producer 2 = some 0 ∧
    example_fan_graph.consumers 2 = [2] := by
  decide

/-! ## Bounds inference: the sliding-window step -/

theorem can_prove_less_equal (budget : Nat) (a b : expr) :
    can_prove budget (.less_equal a b) ≠ some true := by
  unfold can_prove simplifier.can_prove_with
  cases budget with
  | zero => simp [simplifier.mutate]
  | succ n =>
    simp only [simplifier.mutate, simplifier.visit]
    cases h : simplifier.mutate_pair (simplifier.mutate n) a b [] with
    | none => simp
    | some x =>
      obtain ⟨a1, b1, r⟩ := x
      simp [is_constant]

theorem bounds_inferrer.simplify_plain (budget : Nat) (e : expr) (hp : e.plain = true)
    (hw : e.weight ≤ budget) :
    ∃ e', bounds_inferrer.simplify budget e = .ok e' ∧ e'.plain = true ∧ e'.weight ≤ e.weight := by
  obtain ⟨e', r', h, hr, _⟩ := simplifier.mutate_sound budget e [] (expr.flat_lets_of_plain e hp) hw
  refine ⟨e', ?_, hr.2.1 hp, hr.2.2.1⟩
  simp [bounds_inferrer.simplify, slinky.simplify, h]

theorem bounds_inferrer.can_prove_plain (budget : Nat) (e : expr) (hp : e.plain = true)
    (hw : e.weight ≤ budget) : ∃ r, bounds_inferrer.can_prove budget e = .ok r := by
  obtain ⟨e', r', h, _, _⟩ := simplifier.mutate_sound budget e [] (expr.flat_lets_of_plain e hp) hw
  unfold bounds_inferrer.can_prove slinky.can_prove simplifier.can_prove_with
  rw [h]
  cases hc : is_constant e' with
  | none => exact ⟨false, by simp [hc]⟩
  | some c => exact ⟨decide (c ≠ 0), by simp [hc]⟩

theorem bounds_inferrer.slide_dims_plain (budget : Nat) (loop_name : Nat) :
    ∀ (crop done : box), (∀ c, c ∈ crop → c.min.plain = true ∧ c.max.plain = true) →
      bounds_inferrer.slide_budget crop ≤ budget →
      bounds_inferrer.slide_dims budget loop_name done crop = .ok none
  | [], done, _, _ => rfl
  | c :: rest, done, hp, hb => by
    have hc := hp c (List.mem_cons_self _ _)
    simp only [bounds_inferrer.slide_budget, List.map_cons, List.sum_cons] at hb
    have hV : (expr.sub (.var loop_name) (.constant 1)).plain = true := rfl
    have hVw : (expr.sub (.var loop_name) (.constant 1)).weight = 3 := rfl
    have h1 := substitute_plain_facts c.min loop_name
      (expr.sub (.var loop_name) (.constant 1)) hc.1
    have h2 := substitute_plain_facts c.max loop_name
      (expr.sub (.var loop_name) (.constant 1)) hc.2
    rw [hVw] at h1 h2
    obtain ⟨pmin, hpmin, hpminp, hpminw⟩ := bounds_inferrer.simplify_plain budget _ (h1.2.1 hV)
      (by have := h1.2.2; omega)
    obtain ⟨pmax, hpmax, hpmaxp, hpmaxw⟩ := bounds_inferrer.simplify_plain budget _ (h2.2.1 hV)
      (by have := h2.2.2; omega)
    have hprev : bounds_inferrer.prev_bounds budget loop_name c =
        .ok { min := pmin, max := pmax } := by
      simp only [bounds_inferrer.prev_bounds, hpmin, hpmax]
    obtain ⟨g1, hg1⟩ := bounds_inferrer.can_prove_plain budget (.less_equal pmin c.min)
      (by simp [expr.plain, hpminp, hc.1])
      (by simp only [expr.weight]; have := h1.2.2; omega)
    have hgrows : bounds_inferrer.grows budget { min := pmin, max := pmax } c = .ok false := by
      unfold bounds_inferrer.grows
      simp only [hg1]
      cases g1 with
      | false => rfl
      | true =>
        exfalso
        unfold bounds_inferrer.can_prove at hg1
        cases hcp : slinky.can_prove budget (.less_equal pmin c.min) with
        | none => simp [hcp] at hg1
        | some v =>
          simp only [hcp, Except.ok.injEq] at hg1
          subst hg1
          exact can_prove_less_equal budget pmin c.min hcp
    obtain ⟨q1, hq1⟩ := bounds_inferrer.can_prove_plain budget (.less c.min pmin)
      (by simp [expr.plain, hpminp, hc.1])
      (by simp only [expr.weight]; have := h1.2.2; omega)
    obtain ⟨q2, hq2⟩ := bounds_inferrer.can_prove_plain budget (.less_equal c.max pmax)
      (by simp [expr.plain, hpmaxp, hc.2])
      (by simp only [expr.weight]; have := h2.2.2; omega)
    have hshrinks : ∃ q, bounds_inferrer.shrinks budget { min := pmin, max := pmax } c = .ok q := by
      unfold bounds_inferrer.shrinks
      simp only [hq1]
      cases q1 with
      | false => exact ⟨_, rfl⟩
      | true => exact ⟨q2, hq2⟩
    obtain ⟨q, hq⟩ := hshrinks
    simp only [bounds_inferrer.slide_dims, hprev, hgrows, hq]
    exact bounds_inferrer.slide_dims_plain budget loop_name rest _
      (fun c1 h1 => hp c1 (List.mem_cons_of_mem _ h1))
      (by simp only [bounds_inferrer.slide_budget]; omega)

theorem bounds_inferrer.slide_loops_plain (budget : Nat) (crop : box)
    (hp : ∀ c, c ∈ crop → c.min.plain = true ∧ c.max.plain = true)
    (hb : bounds_inferrer.slide_budget crop ≤ budget) :
    ∀ (loops : List (Nat × expr)),
      bounds_inferrer.slide_loops budget loops crop = .ok (crop, loops)
  | [] => rfl
  | l :: loops => by
    simp only [bounds_inferrer.slide_loops,
      bounds_inferrer.slide_dims_plain budget l.1 crop [] hp hb,
      bounds_inferrer.slide_loops_plain budget crop hp hb loops]

/-- Claim C26 (amended): the sliding-window step changes nothing.  For every stack of
enclosing loops and every box of required bounds without `let` and `wildcard` nodes, such as
`[x - 1, x + 1]`, the step returns, with any budget of at least four times the weight of the
bounds and one per dim, the box and the loop mins as they were: `can_prove` finds no
constant in `prev.min <= crop.min`, a node that the simplifier does not fold.  The crop that
is emitted for stage 1 is the required box and the loop keeps its min. -/
theorem sliding_window_scenario (budget : Nat) (loops : List (Nat × expr)) (crop : box)
    (hp : ∀ c, c ∈ crop → c.min.plain = true ∧ c.max.plain = true)
    (hb : bounds_inferrer.slide_budget crop ≤ budget) :
    bounds_inferrer.slide_loops budget loops crop = .ok (crop, loops) :=
  bounds_inferrer.slide_loops_plain budget crop hp hb loops

/-- Claim C26 on the box `[x - 1, x + 1]` inside the loop over `x` from the min of dim 0 of
buffer 2, with budget 25. -/
theorem sliding_window_scenario_witness :
    bounds_inferrer.slide_loops 25 [(3, load_buffer_meta (.var 2) .min 0)] example_window_box =
      .ok (example_window_box, [(3, load_buffer_meta (.var 2) .min 0)]) :=
  sliding_window_scenario 25 [(3, load_buffer_meta (.var 2) .min 0)] example_window_box
    (by decide) (by decide)

/-- Claim C26 (as stated, refuted) on the two-stage example.  The step on the box
`[x - 1, x + 1]` of stage 1 for the loop over `x` slides no dim.  In the statement that
bounds inference returns for the example, the loop over `x` still starts at the min of dim 0
of buffer 2, and the crop of buffer 1 around the call of stage 1 spans the required bounds
`x - 1` to `x + 1` (as the unions that inference built) rather than `[x + 1, x + 1]`. -/
theorem sliding_window_scenario_counterexample :
    bounds_inferrer.slide_dims 25 3 [] example_window_box = .ok none ∧
    (infer_bounds 50 example_window_stmt 10 [0]).toOption.map bounds_inferrer.stmt.loops =
      some [(3, load_buffer_meta (.var 2) .min 0,
        .add (load_buffer_meta (.var 2) .max 0) (.constant 1))] ∧
    (infer_bounds 50 example_window_stmt 10 [0]).toOption.map bounds_inferrer.stmt.crops =
      some [(1, [(some (.min (.call .positive_infinity [])
          (.min (.sub (.var 3) (.constant 1))
            (.add (.sub (.add (.var 3) (.constant 1)) (.constant 1)) (.constant 1)))),
        some (.max (.call .negative_infinity [])
          (.max (.add (.sub (.add (.var 3) (.constant 1)) (.constant 1)) (.constant 1))
            (.sub (.var 3) (.constant 1)))))])] := by
  refine ⟨rfl, ?_, ?_⟩
  · decide
  · decide

/-- Claim C23 at the failing input: buffer 1 is allocated with one dim, and the body writes
it by stage 1 and never reads it.  No call gives the buffer an inferred interval, the
inferred box is empty, and the loop that builds the checks reads `inferred[0]`, which is
past the end of the box, whatever the budget. -/
theorem allocation_checks_failing_input :
    ∀ budget, bounds_inferrer.mutate (budget + 1) example_unread_allocation
      (infer_bounds.start (bounds_inferrer.make 10) [0]) = .error .out_of_range := by
  intro budget
  rfl

/-! ## Bounds inference: the demand of a call -/

theorem eval_expr_min_some {rt : buffer_runtime} {a b : expr} {ctx : eval_context} {n : Int}
    (h : eval_expr rt (.min a b) ctx = some n) :
    ∃ x y, eval_expr rt a ctx = some x ∧ eval_expr rt b ctx = some y ∧ n = Min.min x y := by
  rw [eval_expr_min] at h
  cases ha : eval_expr rt a ctx with
  | none => simp [ha] at h
  | some x =>
    cases hb : eval_expr rt b ctx with
    | none => simp [ha, hb] at h
    | some y =>
      simp only [ha, hb, Option.some.injEq] at h
      exact ⟨x, y, rfl, rfl, h.symm⟩

theorem eval_expr_max_some {rt : buffer_runtime} {a b : expr} {ctx : eval_context} {n : Int}
    (h : eval_expr rt (.max a b) ctx = some n) :
    ∃ x y, eval_expr rt a ctx = some x ∧ eval_expr rt b ctx = some y ∧ n = Max.max x y := by
  rw [eval_expr_max] at h
  cases ha : eval_expr rt a ctx with
  | none => simp [ha] at h
  | some x =>
    cases hb : eval_expr rt b ctx with
    | none => simp [ha, hb] at h
    | some y =>
      simp only [ha, hb, Option.some.injEq] at h
      exact ⟨x, y, rfl, rfl, h.symm⟩

theorem bounds_inferrer.pad_get (bounds : box) (n d : Nat) (hd : d < n) :
    ∃ old, (bounds_inferrer.pad bounds n).get? d = some old ∧
      (d < bounds.length → bounds.get? d = some old) ∧
      (bounds.length ≤ d → old = interval.union_identity) := by
  unfold bounds_inferrer.pad
  by_cases h : d < bounds.length
  · refine ⟨bounds.get ⟨d, h⟩, ?_, fun _ => List.get?_eq_get h, fun h2 => absurd h (by omega)⟩
    rw [List.get?_eq_getElem?, List.getElem?_append_left h, List.getElem?_eq_getElem h]
    rfl
  · refine ⟨interval.union_identity, ?_, fun h2 => absurd h2 h, fun _ => rfl⟩
    rw [List.get?_eq_getElem?, List.getElem?_append_right (by omega)]
    rw [List.getElem?_replicate]
    have : d - bounds.length < n - bounds.length := by omega
    simp [this]

theorem bounds_inferrer.expand_get (mins maxs : bindings) :
    ∀ (bounds : box) (ib : List interval) (d : Nat) (old i : interval),
      bounds.get? d = some old → ib.get? d = some i →
      (bounds_inferrer.expand bounds ib mins maxs).get? d =
        some (old.union ((interval.mk (substitute i.min mins) (substitute i.max maxs)).union
          (interval.mk (substitute i.max maxs) (substitute i.min mins))))
  | [], _, d, old, i, h, _ => by simp at h
  | b :: bounds, [], d, old, i, _, h => by simp at h
  | b :: bounds, j :: ib, 0, old, i, h1, h2 => by
    simp only [List.get?_cons_zero, Option.some.injEq] at h1 h2
    subst h1; subst h2
    simp [bounds_inferrer.expand]
  | b :: bounds, j :: ib, d + 1, old, i, h1, h2 => by
    simp only [List.get?_cons_succ] at h1 h2
    simp only [bounds_inferrer.expand, List.get?_cons_succ]
    exact bounds_inferrer.expand_get mins maxs bounds ib d old i h1 h2

theorem bounds_inferrer.expand_get_beyond (mins maxs : bindings) :
    ∀ (bounds : box) (ib : List interval) (d : Nat), ib.length ≤ d →
      (bounds_inferrer.expand bounds ib mins maxs).get? d = bounds.get? d
  | [], ib, d, _ => by
    cases ib <;> simp [bounds_inferrer.expand]
  | b :: bounds, [], d, _ => by simp [bounds_inferrer.expand]
  | b :: bounds, j :: ib, 0, h => by simp at h
  | b :: bounds, j :: ib, d + 1, h => by
    simp only [bounds_inferrer.expand, List.get?_cons_succ]
    exact bounds_inferrer.expand_get_beyond mins maxs bounds ib d (by simpa using h)

/-- Claim C27: at a `call_func`, take an input whose buffer is being inferred, with the box
`bounds` so far, and let `mins` and `maxs` be the bounds of the output dims.  The visit
replaces the box of the buffer by the expanded box and goes on with the next input.  For
every dim `d` of the input, with `lo` and `hi` the bounds of the input after substitution,
the new interval is `[min(old.min, min(lo, hi)), max(old.max, max(hi, lo))]`, where `old` is
the interval of the box so far (the identity of the union when the box was shorter).  So the
new interval contains the old one and contains `lo` and `hi`, whichever is larger: in every
linear order in which `min` and `max` nodes denote the smaller and the larger operand, and
in the evaluator whenever the new bounds have values.  The dims beyond those of the input
stay as they were. -/
theorem demand_only_grows (crops : symbol_map (List (Option expr × Option expr)))
    (outputs : List func_output) (args : List Nat) (input : func_input)
    (rest : List func_input) (inferring : symbol_map box) (mins maxs : bindings) (bounds : box)
    (hm : bounds_inferrer.outputs_bounds inferring crops outputs args [] [] = .ok (mins, maxs))
    (hb : inferring.lookup input.buffer = some bounds) :
    bounds_inferrer.expand_inputs crops outputs args (input :: rest) inferring =
      bounds_inferrer.expand_inputs crops outputs args rest
        (inferring.set input.buffer (some (bounds_inferrer.expand
          (bounds_inferrer.pad bounds input.bounds.length) input.bounds mins maxs))) ∧
    (∀ d, input.bounds.length ≤ d →
      (bounds_inferrer.expand (bounds_inferrer.pad bounds input.bounds.length) input.bounds
        mins maxs).get? d = bounds.get? d) ∧
    ∀ (d : Nat) (i : interval), input.bounds.get? d = some i →
      ∃ old updated,
        (bounds_inferrer.pad bounds input.bounds.length).get? d = some old ∧
        (d < bounds.length → bounds.get? d = some old) ∧
        (bounds.length ≤ d → old = interval.union_identity) ∧
        (bounds_inferrer.expand (bounds_inferrer.pad bounds input.bounds.length) input.bounds
          mins maxs).get? d = some updated ∧
        updated.min = .min old.min (.min (substitute i.min mins) (substitute i.max maxs)) ∧
        updated.max = .max old.max (.max (substitute i.max maxs) (substitute i.min mins)) ∧
        (∀ (α : Type) [LinearOrder α] (val : expr → α),
          (∀ a b, val (.min a b) = Min.min (val a) (val b)) →
          (∀ a b, val (.max a b) = Max.max (val a) (val b)) →
          val updated.min ≤ val old.min ∧ val old.max ≤ val updated.max ∧
          val updated.min ≤ val (substitute i.min mins) ∧
          val (substitute i.min mins) ≤ val updated.max ∧
          val updated.min ≤ val (substitute i.max maxs) ∧
          val (substitute i.max maxs) ≤ val updated.max) ∧
        ∀ (rt : buffer_runtime) (ctx : eval_context) (n N : Int),
          eval_expr rt updated.min ctx = some n → eval_expr rt updated.max ctx = some N →
          ∃ a b x y, eval_expr rt old.min ctx = some a ∧ eval_expr rt old.max ctx = some b ∧
            eval_expr rt (substitute i.min mins) ctx = some x ∧
            eval_expr rt (substitute i.max maxs) ctx = some y ∧
            n ≤ a ∧ b ≤ N ∧ n ≤ x ∧ x ≤ N ∧ n ≤ y ∧ y ≤ N := by
  refine ⟨?_, ?_, ?_⟩
  · simp only [bounds_inferrer.expand_inputs, hm, hb]
  · intro d hd
    rw [bounds_inferrer.expand_get_beyond mins maxs _ _ d hd]
    unfold bounds_inferrer.pad
    by_cases h : d < bounds.length
    · rw [List.get?_eq_getElem?, List.get?_eq_getElem?, List.getElem?_append_left h]
    · have h3 : bounds.length ≤ d := by omega
      rw [List.get?_eq_getElem?, List.get?_eq_getElem?, List.getElem?_append_right h3,
        List.getElem?_replicate, List.getElem?_eq_none h3]
      have : ¬ d - bounds.length < input.bounds.length - bounds.length := by omega
      simp [this]
  · intro d i hi
    have hd : d < input.bounds.length := by
      rw [List.get?_eq_some] at hi
      exact hi.1
    obtain ⟨old, h1, h2, h3⟩ := bounds_inferrer.pad_get bounds input.bounds.length d hd
    refine ⟨old, _, h1, h2, h3, bounds_inferrer.expand_get mins maxs _ _ d old i h1 hi,
      rfl, rfl, ?_, ?_⟩
    · intro α _ val hmin hmax
      simp only [interval.union, hmin, hmax]
      refine ⟨min_le_left _ _, le_max_left _ _, ?_, ?_, ?_, ?_⟩
      · exact le_trans (min_le_right _ _) (min_le_left _ _)
      · exact le_trans (le_max_right _ _) (le_max_right _ _)
      · exact le_trans (min_le_right _ _) (min_le_right _ _)
      · exact le_trans (le_max_left _ _) (le_max_right _ _)
    · intro rt ctx n N hn hN
      simp only [interval.union] at hn hN
      obtain ⟨a, m1, ha, hm1, rfl⟩ := eval_expr_min_some hn
      obtain ⟨x, y, hx, hy, rfl⟩ := eval_expr_min_some hm1
      obtain ⟨b, m2, hb2, hm2, rfl⟩ := eval_expr_max_some hN
      obtain ⟨y2, x2, hy2, hx2, rfl⟩ := eval_expr_max_some hm2
      rw [hx] at hx2; rw [hy] at hy2
      simp only [Option.some.injEq] at hx2 hy2
      subst hx2; subst hy2
      refine ⟨a, b, x, y, ha, hb2, hx, hy, ?_⟩
      simp only [le_min_iff, min_le_iff, le_max_iff, max_le_iff, le_refl, true_or, or_true,
        and_self, and_true, true_and]

/-- Claim C27 for an input that reads buffer 0 at `[x - 1, x + 1]`, where the output dim `x`
spans `[5, 9]` and buffer 0 demands `[2, 4]` so far: the new demand is
`[min(2, min(5 - 1, 9 + 1)), max(4, max(9 + 1, 5 - 1))]`. -/
theorem demand_only_grows_witness :
    bounds_inferrer.expand_inputs [none, some [(some (.constant 5), some (.constant 9))]]
        [{ buffer := 1, dims := [3] }] [1] [example_stencil_input] example_inferring =
      bounds_inferrer.expand_inputs [none, some [(some (.constant 5), some (.constant 9))]]
        [{ buffer := 1, dims := [3] }] [1] []
        (example_inferring.set 0 (some (bounds_inferrer.expand
          (bounds_inferrer.pad [{ min := .constant 2, max := .constant 4 }] 1)
          example_stencil_input.bounds [(3, .constant 5)] [(3, .constant 9)]))) ∧
    bounds_inferrer.expand (bounds_inferrer.pad [{ min := .constant 2, max := .constant 4 }] 1)
        example_stencil_input.bounds [(3, .constant 5)] [(3, .constant 9)] =
      [{ min := .min (.constant 2) (.min (.sub (.constant 5) (.constant 1))
                  (.add (.constant 9) (.constant 1))),
         max := .max (.constant 4) (.max (.add (.constant 9) (.constant 1))
                  (.sub (.constant 5) (.constant 1))) }] :=
  ⟨(demand_only_grows [none, some [(some (.constant 5), some (.constant 9))]]
      [{ buffer := 1, dims := [3] }] [1] example_stencil_input [] example_inferring
      [(3, .constant 5)] [(3, .constant 9)] [{ min := .constant 2, max := .constant 4 }]
      rfl rfl).1, rfl⟩

/-! ## Bounds inference: leaving a loop -/

theorem substitute_nil : ∀ (e : expr), substitute e [] = e
  | .var s => by simp [substitute, bindings.find]
  | .wildcard s => by simp [substitute]
  | .constant v => by simp [substitute]
  | .let_ s v b => by simp [substitute, substitute_nil v, substitute_nil b]
  | .add a b => by simp [substitute, substitute_nil a, substitute_nil b]
  | .sub a b => by simp [substitute, substitute_nil a, substitute_nil b]
  | .mul a b => by simp [substitute, substitute_nil a, substitute_nil b]
  | .div a b => by simp [substitute, substitute_nil a, substitute_nil b]
  | .mod a b => by simp [substitute, substitute_nil a, substitute_nil b]
  | .min a b => by simp [substitute, substitute_nil a, substitute_nil b]
  | .max a b => by simp [substitute, substitute_nil a, substitute_nil b]
  | .equal a b => by simp [substitute, substitute_nil a, substitute_nil b]
  | .not_equal a b => by simp [substitute, substitute_nil a, substitute_nil b]
  | .less a b => by simp [substitute, substitute_nil a, substitute_nil b]
  | .less_equal a b => by simp [substitute, substitute_nil a, substitute_nil b]
  | .logical_and a b => by simp [substitute, substitute_nil a, substitute_nil b]
  | .logical_or a b => by simp [substitute, substitute_nil a, substitute_nil b]
  | .logical_not a => by simp [substitute, substitute_nil a]
  | .select c t f => by
    simp [substitute, substitute_nil c, substitute_nil t, substitute_nil f]
  | .call fn args => by
    have h : ∀ (as : List expr), (∀ a, a ∈ as → substitute a [] = a) →
        substitute_list as [] = as := by
      intro as
      induction as with
      | nil => intro _; rfl
      | cons a as ih =>
        intro h
        simp only [substitute_list, h a (List.mem_cons_self _ _),
          ih (fun b hb => h b (List.mem_cons_of_mem _ hb))]
    simp only [substitute, expr.call.injEq, true_and]
    exact h args (fun a _ => substitute_nil a)

mutual
theorem substitute_depends_on : ∀ (e : expr) (x : Nat) (V : expr), V.depends_on x = false →
    (substitute e [(x, V)]).depends_on x = false
  | .var s, x, V, hV => by
    by_cases hs : s = x
    · subst hs
      simp [substitute, bindings.find, List.lookup, hV]
    · have hne : (s == x) = false := by simp [hs]
      simp [substitute, bindings.find, List.lookup, hne, expr.depends_on, hs]
  | .wildcard s, x, V, hV => by simp [substitute, expr.depends_on]
  | .constant v, x, V, hV => by simp [substitute, expr.depends_on]
  | .let_ s v b, x, V, hV => by
    by_cases hs : s = x
    · subst hs
      simp [substitute, expr.depends_on, substitute_depends_on v s V hV]
    · have hne : (x != s) = true := by simp [Ne.symm hs]
      simp [substitute, expr.depends_on, List.filter, hne, substitute_depends_on v x V hV,
        substitute_depends_on b x V hV]
  | .add a b, x, V, hV => by
    simp [substitute, expr.depends_on, substitute_depends_on a x V hV,
      substitute_depends_on b x V hV]
  | .sub a b, x, V, hV => by
    simp [substitute, expr.depends_on, substitute_depends_on a x V hV,
      substitute_depends_on b x V hV]
  | .mul a b, x, V, hV => by
    simp [substitute, expr.depends_on, substitute_depends_on a x V hV,
      substitute_depends_on b x V hV]
  | .div a b, x, V, hV => by
    simp [substitute, expr.depends_on, substitute_depends_on a x V hV,
      substitute_depends_on b x V hV]
  | .mod a b, x, V, hV => by
    simp [substitute, expr.depends_on, substitute_depends_on a x V hV,
      substitute_depends_on b x V hV]
  | .min a b, x, V, hV => by
    simp [substitute, expr.depends_on, substitute_depends_on a x V hV,
      substitute_depends_on b x V hV]
  | .max a b, x, V, hV => by
    simp [substitute, expr.depends_on, substitute_depends_on a x V hV,
      substitute_depends_on b x V hV]
  | .equal a b, x, V, hV => by
    simp [substitute, expr.depends_on, substitute_depends_on a x V hV,
      substitute_depends_on b x V hV]
  | .not_equal a b, x, V, hV => by
    simp [substitute, expr.depends_on, substitute_depends_on a x V hV,
      substitute_depends_on b x V hV]
  | .less a b, x, V, hV => by
    simp [substitute, expr.depends_on, substitute_depends_on a x V hV,
      substitute_depends_on b x V hV]
  | .less_equal a b, x, V, hV => by
    simp [substitute, expr.depends_on, substitute_depends_on a x V hV,
      substitute_depends_on b x V hV]
  | .logical_and a b, x, V, hV => by
    simp [substitute, expr.depends_on, substitute_depends_on a x V hV,
      substitute_depends_on b x V hV]
  | .logical_or a b, x, V, hV => by
    simp [substitute, expr.depends_on, substitute_depends_on a x V hV,
      substitute_depends_on b x V hV]
  | .logical_not a, x, V, hV => by
    simp [substitute, expr.depends_on, substitute_depends_on a x V hV]
  | .select c t f, x, V, hV => by
    simp [substitute, expr.depends_on, substitute_depends_on c x V hV,
      substitute_depends_on t x V hV, substitute_depends_on f x V hV]
  | .call fn args, x, V, hV => by
    simp [substitute, expr.depends_on, substitute_list_depends_on args x V hV]
theorem substitute_list_depends_on : ∀ (es : List expr) (x : Nat) (V : expr),
    V.depends_on x = false → expr.depends_on_list x (substitute_list es [(x, V)]) = false
  | [], x, V, hV => by simp [substitute_list, expr.depends_on_list]
  | a :: as, x, V, hV => by
    simp [substitute_list, expr.depends_on_list, substitute_depends_on a x V hV,
      substitute_list_depends_on as x V hV]
end

theorem symbol_map.lookup_map {α β : Type} (f : α → β) (m : symbol_map α) (n : Nat) :
    symbol_map.lookup (List.map (fun i => Option.map f i) m) n = (symbol_map.lookup m n).map f := by
  simp only [symbol_map.lookup_eq_getElem?, List.getElem?_map]
  cases m[n]? with
  | none => rfl
  | some o => cases o <;> rfl

theorem bounds_inferrer.close_loop_lookup (name : Nat) (begin end_ : expr)
    (inferring : symbol_map box) (b : Nat) :
    (bounds_inferrer.close_loop name begin end_ inferring).lookup b =
      (inferring.lookup b).map (fun bx =>
        bx.map (bounds_inferrer.close_interval name begin end_)) := by
  unfold bounds_inferrer.close_loop
  exact symbol_map.lookup_map _ inferring b

theorem symbol_map.lookup_set_congr {T : Type} (m1 m2 : symbol_map T) (n : Nat) (v : Option T)
    (h : ∀ k, m1.lookup k = m2.lookup k) (k : Nat) :
    (m1.set n v).lookup k = (m2.set n v).lookup k := by
  rw [symbol_map.lookup_set, symbol_map.lookup_set, h k]

theorem symbol_map.lookup_set_comm {T : Type} (m : symbol_map T) (a b : Nat) (v w : Option T)
    (hab : a ≠ b) (k : Nat) :
    ((m.set a v).set b w).lookup k = ((m.set b w).set a v).lookup k := by
  simp only [symbol_map.lookup_set]
  by_cases h1 : k = a
  · by_cases h2 : k = b
    · exact absurd (h1.symm.trans h2) hab
    · simp [h1, h2, hab]
  · by_cases h2 : k = b
    · subst h2
      simp [Ne.symm hab]
    · simp [h1, h2]

theorem substitute_let_single (s x : Nat) (v b V : expr) :
    substitute (.let_ s v b) [(x, V)] =
      .let_ s (substitute v [(x, V)]) (if s = x then b else substitute b [(x, V)]) := by
  by_cases hs : s = x
  · subst hs
    simp [substitute, List.filter, substitute_nil]
  · have hxs : (x != s) = true := by simp [Ne.symm hs]
    simp [substitute, List.filter, hxs, hs]

mutual
/-- The value of an expression depends on the context through `lookup` only. -/
theorem eval_expr_ext : ∀ (e : expr) (rt : buffer_runtime) (c1 c2 : eval_context),
    (∀ k, c1.lookup k = c2.lookup k) → eval_expr rt e c1 = eval_expr rt e c2
  | .var s, rt, c1, c2, h => by simp [eval_expr, h s]
  | .wildcard s, rt, c1, c2, h => by simp [eval_expr, h s]
  | .constant v, rt, c1, c2, h => by simp [eval_expr]
  | .let_ s v b, rt, c1, c2, h => by
    simp only [eval_expr, eval_expr_ext v rt c1 c2 h]
    cases eval_expr rt v c2 with
    | none => rfl
    | some a =>
      exact eval_expr_ext b rt _ _ (symbol_map.lookup_set_congr c1 c2 s (some a) h)
  | .add a b, rt, c1, c2, h => by
    simp only [eval_expr, eval_expr_ext a rt c1 c2 h, eval_expr_ext b rt c1 c2 h]
  | .sub a b, rt, c1, c2, h => by
    simp only [eval_expr, eval_expr_ext a rt c1 c2 h, eval_expr_ext b rt c1 c2 h]
  | .mul a b, rt, c1, c2, h => by
    simp only [eval_expr, eval_expr_ext a rt c1 c2 h, eval_expr_ext b rt c1 c2 h]
  | .div a b, rt, c1, c2, h => by
    simp only [eval_expr, eval_expr_ext a rt c1 c2 h, eval_expr_ext b rt c1 c2 h]
  | .mod a b, rt, c1, c2, h => by
    simp only [eval_expr, eval_expr_ext a rt c1 c2 h, eval_expr_ext b rt c1 c2 h]
  | .min a b, rt, c1, c2, h => by
    simp only [eval_expr, eval_expr_ext a rt c1 c2 h, eval_expr_ext b rt c1 c2 h]
  | .max a b, rt, c1, c2, h => by
    simp only [eval_expr, eval_expr_ext a rt c1 c2 h, eval_expr_ext b rt c1 c2 h]
  | .equal a b, rt, c1, c2, h => by
    simp only [eval_expr, eval_expr_ext a rt c1 c2 h, eval_expr_ext b rt c1 c2 h]
  | .not_equal a b, rt, c1, c2, h => by
    simp only [eval_expr, eval_expr_ext a rt c1 c2 h, eval_expr_ext b rt c1 c2 h]
  | .less a b, rt, c1, c2, h => by
    simp only [eval_expr, eval_expr_ext a rt c1 c2 h, eval_expr_ext b rt c1 c2 h]
  | .less_equal a b, rt, c1, c2, h => by
    simp only [eval_expr, eval_expr_ext a rt c1 c2 h, eval_expr_ext b rt c1 c2 h]
  | .logical_and a b, rt, c1, c2, h => by
    simp only [eval_expr, eval_expr_ext a rt c1 c2 h, eval_expr_ext b rt c1 c2 h]
  | .logical_or a b, rt, c1, c2, h => by
    simp only [eval_expr, eval_expr_ext a rt c1 c2 h, eval_expr_ext b rt c1 c2 h]
  | .logical_not a, rt, c1, c2, h => by
    simp only [eval_expr, eval_expr_ext a rt c1 c2 h]
  | .select c t f, rt, c1, c2, h => by
    simp only [eval_expr, eval_expr_ext c rt c1 c2 h, eval_expr_ext t rt c1 c2 h,
      eval_expr_ext f rt c1 c2 h]
  | .call fn as, rt, c1, c2, h => by
    simp only [eval_expr, eval_expr_list_ext as rt c1 c2 h]
theorem eval_expr_list_ext : ∀ (es : List expr) (rt : buffer_runtime) (c1 c2 : eval_context),
    (∀ k, c1.lookup k = c2.lookup k) → eval_expr_list rt es c1 = eval_expr_list rt es c2
  | [], rt, c1, c2, h => by simp [eval_expr_list]
  | a :: as, rt, c1, c2, h => by
    simp only [eval_expr_list, eval_expr_ext a rt c1 c2 h, eval_expr_list_ext as rt c1 c2 h]
end

mutual
/-- Setting a symbol that the expression does not read leaves its value as it is. -/
theorem eval_expr_set_unread : ∀ (e : expr) (rt : buffer_runtime) (ctx : eval_context) (x : Nat)
    (w : Option Int), expr.reads x e = false →
    eval_expr rt e (ctx.set x w) = eval_expr rt e ctx
  | .var s, rt, ctx, x, w, hm => by
    simp only [expr.reads, decide_eq_false_iff_not] at hm
    simp [eval_expr, symbol_map.lookup_set, hm]
  | .wildcard s, rt, ctx, x, w, hm => by
    simp only [expr.reads, decide_eq_false_iff_not] at hm
    simp [eval_expr, symbol_map.lookup_set, hm]
  | .constant v, rt, ctx, x, w, hm => by simp [eval_expr]
  | .let_ s v b, rt, ctx, x, w, hm => by
    simp only [expr.reads, Bool.or_eq_false_iff, Bool.and_eq_false_iff, Bool.not_eq_false',
      decide_eq_true_eq] at hm
    simp only [eval_expr, eval_expr_set_unread v rt ctx x w hm.1]
    cases eval_expr rt v ctx with
    | none => rfl
    | some a =>
      simp only
      rcases hm.2 with hs | hb
      · subst hs
        exact eval_expr_ext b rt _ _ (fun k => by
          simp only [symbol_map.lookup_set]
          by_cases hk : k = s <;> simp [hk])
      · by_cases hs : s = x
        · subst hs
          exact eval_expr_ext b rt _ _ (fun k => by
            simp only [symbol_map.lookup_set]
            by_cases hk : k = s <;> simp [hk])
        · rw [eval_expr_ext b rt _ _ (symbol_map.lookup_set_comm ctx x s w (some a) (Ne.symm hs))]
          exact eval_expr_set_unread b rt _ x w hb
  | .add a b, rt, ctx, x, w, hm => by
    simp only [expr.reads, Bool.or_eq_false_iff] at hm
    simp only [eval_expr, eval_expr_set_unread a rt ctx x w hm.1,
      eval_expr_set_unread b rt ctx x w hm.2]
  | .sub a b, rt, ctx, x, w, hm => by
    simp only [expr.reads, Bool.or_eq_false_iff] at hm
    simp only [eval_expr, eval_expr_set_unread a rt ctx x w hm.1,
      eval_expr_set_unread b rt ctx x w hm.2]
  | .mul a b, rt, ctx, x, w, hm => by
    simp only [expr.reads, Bool.or_eq_false_iff] at hm
    simp only [eval_expr, eval_expr_set_unread a rt ctx x w hm.1,
      eval_expr_set_unread b rt ctx x w hm.2]
  | .div a b, rt, ctx, x, w, hm => by
    simp only [expr.reads, Bool.or_eq_false_iff] at hm
    simp only [eval_expr, eval_expr_set_unread a rt ctx x w hm.1,
      eval_expr_set_unread b rt ctx x w hm.2]
  | .mod a b, rt, ctx, x, w, hm => by
    simp only [expr.reads, Bool.or_eq_false_iff] at hm
    simp only [eval_expr, eval_expr_set_unread a rt ctx x w hm.1,
      eval_expr_set_unread b rt ctx x w hm.2]
  | .min a b, rt, ctx, x, w, hm => by
    simp only [expr.reads, Bool.or_eq_false_iff] at hm
    simp only [eval_expr, eval_expr_set_unread a rt ctx x w hm.1,
      eval_expr_set_unread b rt ctx x w hm.2]
  | .max a b, rt, ctx, x, w, hm => by
    simp only [expr.reads, Bool.or_eq_false_iff] at hm
    simp only [eval_expr, eval_expr_set_unread a rt ctx x w hm.1,
      eval_expr_set_unread b rt ctx x w hm.2]
  | .equal a b, rt, ctx, x, w, hm => by
    simp only [expr.reads, Bool.or_eq_false_iff] at hm
    simp only [eval_expr, eval_expr_set_unread a rt ctx x w hm.1,
      eval_expr_set_unread b rt ctx x w hm.2]
  | .not_equal a b, rt, ctx, x, w, hm => by
    simp only [expr.reads, Bool.or_eq_false_iff] at hm
    simp only [eval_expr, eval_expr_set_unread a rt ctx x w hm.1,
      eval_expr_set_unread b rt ctx x w hm.2]
  | .less a b, rt, ctx, x, w, hm => by
    simp only [expr.reads, Bool.or_eq_false_iff] at hm
    simp only [eval_expr, eval_expr_set_unread a rt ctx x w hm.1,
      eval_expr_set_unread b rt ctx x w hm.2]
  | .less_equal a b, rt, ctx, x, w, hm => by
    simp only [expr.reads, Bool.or_eq_false_iff] at hm
    simp only [eval_expr, eval_expr_set_unread a rt ctx x w hm.1,
      eval_expr_set_unread b rt ctx x w hm.2]
  | .logical_and a b, rt, ctx, x, w, hm => by
    simp only [expr.reads, Bool.or_eq_false_iff] at hm
    simp only [eval_expr, eval_expr_set_unread a rt ctx x w hm.1,
      eval_expr_set_unread b rt ctx x w hm.2]
  | .logical_or a b, rt, ctx, x, w, hm => by
    simp only [expr.reads, Bool.or_eq_false_iff] at hm
    simp only [eval_expr, eval_expr_set_unread a rt ctx x w hm.1,
      eval_expr_set_unread b rt ctx x w hm.2]
  | .logical_not a, rt, ctx, x, w, hm => by
    simp only [expr.reads] at hm
    simp only [eval_expr, eval_expr_set_unread a rt ctx x w hm]
  | .select c t f, rt, ctx, x, w, hm => by
    simp only [expr.reads, Bool.or_eq_false_iff] at hm
    simp only [eval_expr, eval_expr_set_unread c rt ctx x w hm.1.1,
      eval_expr_set_unread t rt ctx x w hm.1.2, eval_expr_set_unread f rt ctx x w hm.2]
  | .call fn as, rt, ctx, x, w, hm => by
    simp only [expr.reads] at hm
    simp only [eval_expr, eval_expr_list_set_unread as rt ctx x w hm]
theorem eval_expr_list_set_unread : ∀ (es : List expr) (rt : buffer_runtime) (ctx : eval_context)
    (x : Nat) (w : Option Int), expr.reads_list x es = false →
    eval_expr_list rt es (ctx.set x w) = eval_expr_list rt es ctx
  | [], rt, ctx, x, w, hm => by simp [eval_expr_list]
  | a :: as, rt, ctx, x, w, hm => by
    simp only [expr.reads_list, Bool.or_eq_false_iff] at hm
    simp only [eval_expr_list, eval_expr_set_unread a rt ctx x w hm.1,
      eval_expr_list_set_unread as rt ctx x w hm.2]
end

mutual
/-- Substituting for a symbol that the expression does not read changes nothing. -/
theorem substitute_unread : ∀ (e : expr) (x : Nat) (V : expr), expr.reads x e = false →
    substitute e [(x, V)] = e
  | .var s, x, V, hm => by
    simp only [expr.reads, decide_eq_false_iff_not] at hm
    have hne : (s == x) = false := by simp [hm]
    simp [substitute, bindings.find, List.lookup, hne]
  | .wildcard s, x, V, hm => by simp [substitute]
  | .constant v, x, V, hm => by simp [substitute]
  | .let_ s v b, x, V, hm => by
    simp only [expr.reads, Bool.or_eq_false_iff, Bool.and_eq_false_iff, Bool.not_eq_false',
      decide_eq_true_eq] at hm
    rw [substitute_let_single, substitute_unread v x V hm.1]
    by_cases hs : s = x
    · simp [hs]
    · simp only [hs, if_false]
      rcases hm.2 with h | h
      · exact absurd h hs
      · rw [substitute_unread b x V h]
  | .add a b, x, V, hm => by
    simp only [expr.reads, Bool.or_eq_false_iff] at hm
    simp only [substitute, substitute_unread a x V hm.1, substitute_unread b x V hm.2]
  | .sub a b, x, V, hm => by
    simp only [expr.reads, Bool.or_eq_false_iff] at hm
    simp only [substitute, substitute_unread a x V hm.1, substitute_unread b x V hm.2]
  | .mul a b, x, V, hm => by
    simp only [expr.reads, Bool.or_eq_false_iff] at hm
    simp only [substitute, substitute_unread a x V hm.1, substitute_unread b x V hm.2]
  | .div a b, x, V, hm => by
    simp only [expr.reads, Bool.or_eq_false_iff] at hm
    simp only [substitute, substitute_unread a x V hm.1, substitute_unread b x V hm.2]
  | .mod a b, x, V, hm => by
    simp only [expr.reads, Bool.or_eq_false_iff] at hm
    simp only [substitute, substitute_unread a x V hm.1, substitute_unread b x V hm.2]
  | .min a b, x, V, hm => by
    simp only [expr.reads, Bool.or_eq_false_iff] at hm
    simp only [substitute, substitute_unread a x V hm.1, substitute_unread b x V hm.2]
  | .max a b, x, V, hm => by
    simp only [expr.reads, Bool.or_eq_false_iff] at hm
    simp only [substitute, substitute_unread a x V hm.1, substitute_unread b x V hm.2]
  | .equal a b, x, V, hm => by
    simp only [expr.reads, Bool.or_eq_false_iff] at hm
    simp only [substitute, substitute_unread a x V hm.1, substitute_unread b x V hm.2]
  | .not_equal a b, x, V, hm => by
    simp only [expr.reads, Bool.or_eq_false_iff] at hm
    simp only [substitute, substitute_unread a x V hm.1, substitute_unread b x V hm.2]
  | .less a b, x, V, hm => by
    simp only [expr.reads, Bool.or_eq_false_iff] at hm
    simp only [substitute, substitute_unread a x V hm.1, substitute_unread b x V hm.2]
  | .less_equal a b, x, V, hm => by
    simp only [expr.reads, Bool.or_eq_false_iff] at hm
    simp only [substitute, substitute_unread a x V hm.1, substitute_unread b x V hm.2]
  | .logical_and a b, x, V, hm => by
    simp only [expr.reads, Bool.or_eq_false_iff] at hm
    simp only [substitute, substitute_unread a x V hm.1, substitute_unread b x V hm.2]
  | .logical_or a b, x, V, hm => by
    simp only [expr.reads, Bool.or_eq_false_iff] at hm
    simp only [substitute, substitute_unread a x V hm.1, substitute_unread b x V hm.2]
  | .logical_not a, x, V, hm => by
    simp only [expr.reads] at hm
    simp only [substitute, substitute_unread a x V hm]
  | .select c t f, x, V, hm => by
    simp only [expr.reads, Bool.or_eq_false_iff] at hm
    simp only [substitute, substitute_unread c x V hm.1.1, substitute_unread t x V hm.1.2,
      substitute_unread f x V hm.2]
  | .call fn as, x, V, hm => by
    simp only [expr.reads] at hm
    simp only [substitute, substitute_list_unread as x V hm]
theorem substitute_list_unread : ∀ (es : List expr) (x : Nat) (V : expr),
    expr.reads_list x es = false → substitute_list es [(x, V)] = es
  | [], x, V, hm => by simp [substitute_list]
  | a :: as, x, V, hm => by
    simp only [expr.reads_list, Bool.or_eq_false_iff] at hm
    simp only [substitute_list, substitute_unread a x V hm.1, substitute_list_unread as x V hm.2]
end

mutual
/-- Substituting `V` for `x` where that captures nothing is evaluating with `x` set to the
value of `V`. -/
theorem eval_expr_substitute_admits : ∀ (e : expr) (rt : buffer_runtime) (ctx : eval_context)
    (x : Nat) (V : expr) (w : Int), expr.admits x V e = true → eval_expr rt V ctx = some w →
    eval_expr rt (substitute e [(x, V)]) ctx = eval_expr rt e (ctx.set x (some w))
  | .var s, rt, ctx, x, V, w, hp, hV => by
    by_cases hs : s = x
    · subst hs
      simp [substitute, bindings.find, List.lookup, eval_expr, symbol_map.lookup_set, hV]
    · have hne : (s == x) = false := by simp [hs]
      simp [substitute, bindings.find, List.lookup, eval_expr, symbol_map.lookup_set, hs, hne]
  | .wildcard s, rt, ctx, x, V, w, hp, hV => by
    simp only [expr.admits, Bool.not_eq_true', decide_eq_false_iff_not] at hp
    simp [substitute, eval_expr, symbol_map.lookup_set, hp]
  | .constant v, rt, ctx, x, V, w, hp, hV => by simp [eval_expr, substitute]
  | .let_ s v b, rt, ctx, x, V, w, hp, hV => by
    simp only [expr.admits, Bool.and_eq_true, Bool.or_eq_true, decide_eq_true_eq,
      Bool.not_eq_true', Bool.and_eq_false_iff] at hp
    rw [substitute_let_single]
    simp only [eval_expr, eval_expr_substitute_admits v rt ctx x V w hp.1 hV]
    cases eval_expr rt v (ctx.set x (some w)) with
    | none => rfl
    | some a =>
      simp only
      by_cases hs : s = x
      · subst hs
        simp only [if_true]
        exact eval_expr_ext b rt _ _ (fun k => by
          simp only [symbol_map.lookup_set]
          by_cases hk : k = s <;> simp [hk])
      · simp only [hs, if_false]
        rcases hp.2 with h | h
        · exact absurd h hs
        · rcases h.2 with hr | hr
          · have hV2 : eval_expr rt V (ctx.set s (some a)) = some w := by
              rw [eval_expr_set_unread V rt ctx s (some a) hr]; exact hV
            rw [eval_expr_substitute_admits b rt _ x V w h.1 hV2]
            exact eval_expr_ext b rt _ _
              (symbol_map.lookup_set_comm ctx s x (some a) (some w) hs)
          · rw [substitute_unread b x V hr,
              eval_expr_ext b rt _ _
                (symbol_map.lookup_set_comm ctx x s (some w) (some a) (Ne.symm hs)),
              eval_expr_set_unread b rt _ x (some w) hr]
  | .add a b, rt, ctx, x, V, w, hp, hV => by
    simp only [expr.admits, Bool.and_eq_true] at hp
    simp only [substitute, eval_expr, eval_expr_substitute_admits a rt ctx x V w hp.1 hV,
      eval_expr_substitute_admits b rt ctx x V w hp.2 hV]
  | .sub a b, rt, ctx, x, V, w, hp, hV => by
    simp only [expr.admits, Bool.and_eq_true] at hp
    simp only [substitute, eval_expr, eval_expr_substitute_admits a rt ctx x V w hp.1 hV,
      eval_expr_substitute_admits b rt ctx x V w hp.2 hV]
  | .mul a b, rt, ctx, x, V, w, hp, hV => by
    simp only [expr.admits, Bool.and_eq_true] at hp
    simp only [substitute, eval_expr, eval_expr_substitute_admits a rt ctx x V w hp.1 hV,
      eval_expr_substitute_admits b rt ctx x V w hp.2 hV]
  | .div a b, rt, ctx, x, V, w, hp, hV => by
    simp only [expr.admits, Bool.and_eq_true] at hp
    simp only [substitute, eval_expr, eval_expr_substitute_admits a rt ctx x V w hp.1 hV,
      eval_expr_substitute_admits b rt ctx x V w hp.2 hV]
  | .mod a b, rt, ctx, x, V, w, hp, hV => by
    simp only [expr.admits, Bool.and_eq_true] at hp
    simp only [substitute, eval_expr, eval_expr_substitute_admits a rt ctx x V w hp.1 hV,
      eval_expr_substitute_admits b rt ctx x V w hp.2 hV]
  | .min a b, rt, ctx, x, V, w, hp, hV => by
    simp only [expr.admits, Bool.and_eq_true] at hp
    simp only [substitute, eval_expr, eval_expr_substitute_admits a rt ctx x V w hp.1 hV,
      eval_expr_substitute_admits b rt ctx x V w hp.2 hV]
  | .max a b, rt, ctx, x, V, w, hp, hV => by
    simp only [expr.admits, Bool.and_eq_true] at hp
    simp only [substitute, eval_expr, eval_expr_substitute_admits a rt ctx x V w hp.1 hV,
      eval_expr_substitute_admits b rt ctx x V w hp.2 hV]
  | .equal a b, rt, ctx, x, V, w, hp, hV => by
    simp only [expr.admits, Bool.and_eq_true] at hp
    simp only [substitute, eval_expr, eval_expr_substitute_admits a rt ctx x V w hp.1 hV,
      eval_expr_substitute_admits b rt ctx x V w hp.2 hV]
  | .not_equal a b, rt, ctx, x, V, w, hp, hV => by
    simp only [expr.admits, Bool.and_eq_true] at hp
    simp only [substitute, eval_expr, eval_expr_substitute_admits a rt ctx x V w hp.1 hV,
      eval_expr_substitute_admits b rt ctx x V w hp.2 hV]
  | .less a b, rt, ctx, x, V, w, hp, hV => by
    simp only [expr.admits, Bool.and_eq_true] at hp
    simp only [substitute, eval_expr, eval_expr_substitute_admits a rt ctx x V w hp.1 hV,
      eval_expr_substitute_admits b rt ctx x V w hp.2 hV]
  | .less_equal a b, rt, ctx, x, V, w, hp, hV => by
    simp only [expr.admits, Bool.and_eq_true] at hp
    simp only [substitute, eval_expr, eval_expr_substitute_admits a rt ctx x V w hp.1 hV,
      eval_expr_substitute_admits b rt ctx x V w hp.2 hV]
  | .logical_and a b, rt, ctx, x, V, w, hp, hV => by
    simp only [expr.admits, Bool.and_eq_true] at hp
    simp only [substitute, eval_expr, eval_expr_substitute_admits a rt ctx x V w hp.1 hV,
      eval_expr_substitute_admits b rt ctx x V w hp.2 hV]
  | .logical_or a b, rt, ctx, x, V, w, hp, hV => by
    simp only [expr.admits, Bool.and_eq_true] at hp
    simp only [substitute, eval_expr, eval_expr_substitute_admits a rt ctx x V w hp.1 hV,
      eval_expr_substitute_admits b rt ctx x V w hp.2 hV]
  | .logical_not a, rt, ctx, x, V, w, hp, hV => by
    simp only [expr.admits] at hp
    simp only [substitute, eval_expr, eval_expr_substitute_admits a rt ctx x V w hp hV]
  | .select c t f, rt, ctx, x, V, w, hp, hV => by
    simp only [expr.admits, Bool.and_eq_true] at hp
    simp only [substitute, eval_expr, eval_expr_substitute_admits c rt ctx x V w hp.1.1 hV,
      eval_expr_substitute_admits t rt ctx x V w hp.1.2 hV,
      eval_expr_substitute_admits f rt ctx x V w hp.2 hV]
  | .call fn as, rt, ctx, x, V, w, hp, hV => by
    simp only [expr.admits] at hp
    simp only [substitute, eval_expr, eval_expr_list_substitute_admits as rt ctx x V w hp hV]
theorem eval_expr_list_substitute_admits : ∀ (es : List expr) (rt : buffer_runtime)
    (ctx : eval_context) (x : Nat) (V : expr) (w : Int), expr.admits_list x V es = true →
    eval_expr rt V ctx = some w →
    eval_expr_list rt (substitute_list es [(x, V)]) ctx =
      eval_expr_list rt es (ctx.set x (some w))
  | [], rt, ctx, x, V, w, hp, hV => by simp [eval_expr_list, substitute_list]
  | a :: as, rt, ctx, x, V, w, hp, hV => by
    simp only [expr.admits_list, Bool.and_eq_true] at hp
    simp only [substitute_list, eval_expr_list, eval_expr_substitute_admits a rt ctx x V w hp.1 hV,
      eval_expr_list_substitute_admits as rt ctx x V w hp.2 hV]
end

theorem intrinsic.finite_substitute (P N : Int) (fn : intrinsic) (xs : List expr) (m : bindings) :
    substitute (intrinsic.finite P N fn xs) m = intrinsic.finite P N fn (substitute_list xs m) := by
  cases fn <;> cases xs <;> simp [intrinsic.finite, substitute, substitute_list]

theorem intrinsic.finite_reads (P N : Int) (x : Nat) (fn : intrinsic) (xs : List expr) :
    expr.reads x (intrinsic.finite P N fn xs) = expr.reads_list x xs := by
  cases fn <;> cases xs <;> simp [intrinsic.finite, expr.reads, expr.reads_list]

theorem intrinsic.finite_admits (P N : Int) (x : Nat) (V : expr) (fn : intrinsic) (xs : List expr) :
    expr.admits x V (intrinsic.finite P N fn xs) = expr.admits_list x V xs := by
  cases fn <;> cases xs <;> simp [intrinsic.finite, expr.admits, expr.admits_list]

mutual
/-- Reading the infinities as constants commutes with substitution. -/
theorem substitute_finite : ∀ (e : expr) (P N : Int) (x : Nat) (V : expr),
    expr.finite P N (substitute e [(x, V)]) =
      substitute (expr.finite P N e) [(x, expr.finite P N V)]
  | .var s, P, N, x, V => by
    by_cases hs : s = x
    · subst hs
      simp [substitute, bindings.find, List.lookup, expr.finite]
    · have hne : (s == x) = false := by simp [hs]
      simp [substitute, bindings.find, List.lookup, expr.finite, hne]
  | .wildcard s, P, N, x, V => by simp [substitute, expr.finite]
  | .constant v, P, N, x, V => by simp [substitute, expr.finite]
  | .let_ s v b, P, N, x, V => by
    rw [substitute_let_single]
    simp only [expr.finite]
    rw [substitute_let_single, substitute_finite v P N x V]
    by_cases hs : s = x
    · simp [hs]
    · simp only [hs, if_false]
      rw [substitute_finite b P N x V]
  | .add a b, P, N, x, V => by
    simp only [substitute, expr.finite, substitute_finite a P N x V, substitute_finite b P N x V]
  | .sub a b, P, N, x, V => by
    simp only [substitute, expr.finite, substitute_finite a P N x V, substitute_finite b P N x V]
  | .mul a b, P, N, x, V => by
    simp only [substitute, expr.finite, substitute_finite a P N x V, substitute_finite b P N x V]
  | .div a b, P, N, x, V => by
    simp only [substitute, expr.finite, substitute_finite a P N x V, substitute_finite b P N x V]
  | .mod a b, P, N, x, V => by
    simp only [substitute, expr.finite, substitute_finite a P N x V, substitute_finite b P N x V]
  | .min a b, P, N, x, V => by
    simp only [substitute, expr.finite, substitute_finite a P N x V, substitute_finite b P N x V]
  | .max a b, P, N, x, V => by
    simp only [substitute, expr.finite, substitute_finite a P N x V, substitute_finite b P N x V]
  | .equal a b, P, N, x, V => by
    simp only [substitute, expr.finite, substitute_finite a P N x V, substitute_finite b P N x V]
  | .not_equal a b, P, N, x, V => by
    simp only [substitute, expr.finite, substitute_finite a P N x V, substitute_finite b P N x V]
  | .less a b, P, N, x, V => by
    simp only [substitute, expr.finite, substitute_finite a P N x V, substitute_finite b P N x V]
  | .less_equal a b, P, N, x, V => by
    simp only [substitute, expr.finite, substitute_finite a P N x V, substitute_finite b P N x V]
  | .logical_and a b, P, N, x, V => by
    simp only [substitute, expr.finite, substitute_finite a P N x V, substitute_finite b P N x V]
  | .logical_or a b, P, N, x, V => by
    simp only [substitute, expr.finite, substitute_finite a P N x V, substitute_finite b P N x V]
  | .logical_not a, P, N, x, V => by
    simp only [substitute, expr.finite, substitute_finite a P N x V]
  | .select c t f, P, N, x, V => by
    simp only [substitute, expr.finite, substitute_finite c P N x V, substitute_finite t P N x V,
      substitute_finite f P N x V]
  | .call fn as, P, N, x, V => by
    simp only [substitute, expr.finite, intrinsic.finite_substitute,
      substitute_list_finite as P N x V]
theorem substitute_list_finite : ∀ (es : List expr) (P N : Int) (x : Nat) (V : expr),
    expr.finite_list P N (substitute_list es [(x, V)]) =
      substitute_list (expr.finite_list P N es) [(x, expr.finite P N V)]
  | [], P, N, x, V => by simp [substitute_list, expr.finite_list]
  | a :: as, P, N, x, V => by
    simp only [substitute_list, expr.finite_list, substitute_finite a P N x V,
      substitute_list_finite as P N x V]
end

mutual
/-- Reading the infinities as constants does not change what an expression reads. -/
theorem expr.reads_finite : ∀ (e : expr) (P N : Int) (x : Nat),
    expr.reads x (expr.finite P N e) = expr.reads x e
  | .var s, P, N, x => by simp [expr.finite]
  | .wildcard s, P, N, x => by simp [expr.finite]
  | .constant v, P, N, x => by simp [expr.finite]
  | .let_ s v b, P, N, x => by
    simp only [expr.finite, expr.reads, expr.reads_finite v P N x, expr.reads_finite b P N x]
  | .add a b, P, N, x => by
    simp only [expr.finite, expr.reads, expr.reads_finite a P N x, expr.reads_finite b P N x]
  | .sub a b, P, N, x => by
    simp only [expr.finite, expr.reads, expr.reads_finite a P N x, expr.reads_finite b P N x]
  | .mul a b, P, N, x => by
    simp only [expr.finite, expr.reads, expr.reads_finite a P N x, expr.reads_finite b P N x]
  | .div a b, P, N, x => by
    simp only [expr.finite, expr.reads, expr.reads_finite a P N x, expr.reads_finite b P N x]
  | .mod a b, P, N, x => by
    simp only [expr.finite, expr.reads, expr.reads_finite a P N x, expr.reads_finite b P N x]
  | .min a b, P, N, x => by
    simp only [expr.finite, expr.reads, expr.reads_finite a P N x, expr.reads_finite b P N x]
  | .max a b, P, N, x => by
    simp only [expr.finite, expr.reads, expr.reads_finite a P N x, expr.reads_finite b P N x]
  | .equal a b, P, N, x => by
    simp only [expr.finite, expr.reads, expr.reads_finite a P N x, expr.reads_finite b P N x]
  | .not_equal a b, P, N, x => by
    simp only [expr.finite, expr.reads, expr.reads_finite a P N x, expr.reads_finite b P N x]
  | .less a b, P, N, x => by
    simp only [expr.finite, expr.reads, expr.reads_finite a P N x, expr.reads_finite b P N x]
  | .less_equal a b, P, N, x => by
    simp only [expr.finite, expr.reads, expr.reads_finite a P N x, expr.reads_finite b P N x]
  | .logical_and a b, P, N, x => by
    simp only [expr.finite, expr.reads, expr.reads_finite a P N x, expr.reads_finite b P N x]
  | .logical_or a b, P, N, x => by
    simp only [expr.finite, expr.reads, expr.reads_finite a P N x, expr.reads_finite b P N x]
  | .logical_not a, P, N, x => by
    simp only [expr.finite, expr.reads, expr.reads_finite a P N x]
  | .select c t f, P, N, x => by
    simp only [expr.finite, expr.reads, expr.reads_finite c P N x, expr.reads_finite t P N x,
      expr.reads_finite f P N x]
  | .call fn as, P, N, x => by
    simp only [expr.finite, expr.reads, intrinsic.finite_reads, expr.reads_list_finite as P N x]
theorem expr.reads_list_finite : ∀ (es : List expr) (P N : Int) (x : Nat),
    expr.reads_list x (expr.finite_list P N es) = expr.reads_list x es
  | [], P, N, x => by simp [expr.finite_list]
  | a :: as, P, N, x => by
    simp only [expr.finite_list, expr.reads_list, expr.reads_finite a P N x,
      expr.reads_list_finite as P N x]
end

mutual
/-- Reading the infinities as constants does not change what a substitution captures. -/
theorem expr.admits_finite : ∀ (e : expr) (P N : Int) (x : Nat) (V : expr),
    expr.admits x (expr.finite P N V) (expr.finite P N e) = expr.admits x V e
  | .var s, P, N, x, V => by simp [expr.finite, expr.admits]
  | .wildcard s, P, N, x, V => by simp [expr.finite, expr.admits]
  | .constant v, P, N, x, V => by simp [expr.finite, expr.admits]
  | .let_ s v b, P, N, x, V => by
    simp only [expr.finite, expr.admits, expr.admits_finite v P N x V,
      expr.admits_finite b P N x V, expr.reads_finite]
  | .add a b, P, N, x, V => by
    simp only [expr.finite, expr.admits, expr.admits_finite a P N x V,
      expr.admits_finite b P N x V]
  | .sub a b, P, N, x, V => by
    simp only [expr.finite, expr.admits, expr.admits_finite a P N x V,
      expr.admits_finite b P N x V]
  | .mul a b, P, N, x, V => by
    simp only [expr.finite, expr.admits, expr.admits_finite a P N x V,
      expr.admits_finite b P N x V]
  | .div a b, P, N, x, V => by
    simp only [expr.finite, expr.admits, expr.admits_finite a P N x V,
      expr.admits_finite b P N x V]
  | .mod a b, P, N, x, V => by
    simp only [expr.finite, expr.admits, expr.admits_finite a P N x V,
      expr.admits_finite b P N x V]
  | .min a b, P, N, x, V => by
    simp only [expr.finite, expr.admits, expr.admits_finite a P N x V,
      expr.admits_finite b P N x V]
  | .max a b, P, N, x, V => by
    simp only [expr.finite, expr.admits, expr.admits_finite a P N x V,
      expr.admits_finite b P N x V]
  | .equal a b, P, N, x, V => by
    simp only [expr.finite, expr.admits, expr.admits_finite a P N x V,
      expr.admits_finite b P N x V]
  | .not_equal a b, P, N, x, V => by
    simp only [expr.finite, expr.admits, expr.admits_finite a P N x V,
      expr.admits_finite b P N x V]
  | .less a b, P, N, x, V => by
    simp only [expr.finite, expr.admits, expr.admits_finite a P N x V,
      expr.admits_finite b P N x V]
  | .less_equal a b, P, N, x, V => by
    simp only [expr.finite, expr.admits, expr.admits_finite a P N x V,
      expr.admits_finite b P N x V]
  | .logical_and a b, P, N, x, V => by
    simp only [expr.finite, expr.admits, expr.admits_finite a P N x V,
      expr.admits_finite b P N x V]
  | .logical_or a b, P, N, x, V => by
    simp only [expr.finite, expr.admits, expr.admits_finite a P N x V,
      expr.admits_finite b P N x V]
  | .logical_not a, P, N, x, V => by
    simp only [expr.finite, expr.admits, expr.admits_finite a P N x V]
  | .select c t f, P, N, x, V => by
    simp only [expr.finite, expr.admits, expr.admits_finite c P N x V,
      expr.admits_finite t P N x V, expr.admits_finite f P N x V]
  | .call fn as, P, N, x, V => by
    simp only [expr.finite, expr.admits, intrinsic.finite_admits,
      expr.admits_list_finite as P N x V]
theorem expr.admits_list_finite : ∀ (es : List expr) (P N : Int) (x : Nat) (V : expr),
    expr.admits_list x (expr.finite P N V) (expr.finite_list P N es) = expr.admits_list x V es
  | [], P, N, x, V => by simp [expr.finite_list, expr.admits_list]
  | a :: as, P, N, x, V => by
    simp only [expr.finite_list, expr.admits_list, expr.admits_finite a P N x V,
      expr.admits_list_finite as P N x V]
end

/-- Claim C24 (amended): when bounds inference leaves the loop over `name` from `begin` up to
`end`, every interval `j` of every box of `inferring` becomes
`[min(j.min[name := begin], j.min[name := end - 1]),
  max(j.max[name := begin], j.max[name := end - 1])]`.
If `begin` and `end` do not depend on `name`, the new bounds do not depend on it either.
Values are taken with the infinities read as any two constants (every interval that
inference holds starts from `[+inf, -inf]`, on which the evaluator aborts).  If substituting
`begin` and `end - 1` for `name` in the bounds of `j` captures nothing, the bounds of `j` have
values at `lo`, the value of `begin`, and at `hi`, the value of `end - 1`, and they are
monotone in `name` from `lo` to `hi`, then the new bounds have values, and these contain the
values of the bounds of `j` at every value of `name` from `lo` to `hi`.  The visit of a loop
that returns has applied this to the `inferring` that the body left. -/
theorem loop_closing (name : Nat) (begin end_ : expr) (inferring : symbol_map box) (b d : Nat)
    (bx : box) (j : interval) (hb : inferring.lookup b = some bx) (hd : bx.get? d = some j) :
    (∃ bx1 j1, (bounds_inferrer.close_loop name begin end_ inferring).lookup b = some bx1 ∧
      bx1.get? d = some j1 ∧
      j1.min = .min (substitute j.min [(name, begin)])
        (substitute j.min [(name, .sub end_ (.constant 1))]) ∧
      j1.max = .max (substitute j.max [(name, begin)])
        (substitute j.max [(name, .sub end_ (.constant 1))]) ∧
      (begin.depends_on name = false → end_.depends_on name = false →
        j1.min.depends_on name = false ∧ j1.max.depends_on name = false) ∧
      ∀ (rt : buffer_runtime) (ctx : eval_context) (lo hi pinf ninf : Int),
        expr.admits name begin j.min = true →
        expr.admits name (.sub end_ (.constant 1)) j.min = true →
        expr.admits name begin j.max = true →
        expr.admits name (.sub end_ (.constant 1)) j.max = true →
        eval_expr rt (expr.finite pinf ninf begin) ctx = some lo →
        eval_expr rt (expr.finite pinf ninf (.sub end_ (.constant 1))) ctx = some hi →
        (∀ v, v = lo ∨ v = hi →
          ∃ m M, eval_expr rt (expr.finite pinf ninf j.min) (ctx.set name (some v)) = some m ∧
            eval_expr rt (expr.finite pinf ninf j.max) (ctx.set name (some v)) = some M) →
        expr.monotone_in rt ctx name lo hi (expr.finite pinf ninf j.min) →
        expr.monotone_in rt ctx name lo hi (expr.finite pinf ninf j.max) →
        ∃ n N, eval_expr rt (expr.finite pinf ninf j1.min) ctx = some n ∧
          eval_expr rt (expr.finite pinf ninf j1.max) ctx = some N ∧
          ∀ (v m M : Int), lo ≤ v → v ≤ hi →
            eval_expr rt (expr.finite pinf ninf j.min) (ctx.set name (some v)) = some m →
            eval_expr rt (expr.finite pinf ninf j.max) (ctx.set name (some v)) = some M →
            n ≤ m ∧ M ≤ N) ∧
    ∀ (budget : Nat) (body s1 : bounds_inferrer.stmt) (st st1 : bounds_inferrer),
      bounds_inferrer.mutate budget (.loop name begin end_ body) st = .ok (s1, st1) →
      ∃ body1 st0, bounds_inferrer.mutate budget body
          { st with loop_mins := st.loop_mins ++ [(name, begin)] } = .ok (body1, st0) ∧
        st1.inferring = bounds_inferrer.close_loop name begin end_ st0.inferring := by
  refine ⟨⟨bx.map (bounds_inferrer.close_interval name begin end_),
    bounds_inferrer.close_interval name begin end_ j, ?_, ?_, rfl, rfl, ?_, ?_⟩, ?_⟩
  · rw [bounds_inferrer.close_loop_lookup, hb]
    rfl
  · rw [List.get?_eq_getElem?] at hd ⊢
    rw [List.getElem?_map, hd]
    rfl
  · intro h1 h2
    have h3 : (expr.sub end_ (.constant 1)).depends_on name = false := by
      simp [expr.depends_on, h2]
    simp [bounds_inferrer.close_interval, expr.depends_on, substitute_depends_on _ name _ h1,
      substitute_depends_on _ name _ h3]
  · intro rt ctx lo hi pinf ninf a1 a2 a3 a4 hlo hhi hval hmm hmM
    obtain ⟨x, X, hx, hX⟩ := hval lo (Or.inl rfl)
    obtain ⟨y, Y, hy, hY⟩ := hval hi (Or.inr rfl)
    have s1 : eval_expr rt (expr.finite pinf ninf (substitute j.min [(name, begin)])) ctx =
        some x := by
      rw [substitute_finite, eval_expr_substitute_admits _ rt ctx name _ lo
        (by rw [expr.admits_finite]; exact a1) hlo]
      exact hx
    have s2 : eval_expr rt (expr.finite pinf ninf
        (substitute j.min [(name, .sub end_ (.constant 1))])) ctx = some y := by
      rw [substitute_finite, eval_expr_substitute_admits _ rt ctx name _ hi
        (by rw [expr.admits_finite]; exact a2) hhi]
      exact hy
    have s3 : eval_expr rt (expr.finite pinf ninf (substitute j.max [(name, begin)])) ctx =
        some X := by
      rw [substitute_finite, eval_expr_substitute_admits _ rt ctx name _ lo
        (by rw [expr.admits_finite]; exact a3) hlo]
      exact hX
    have s4 : eval_expr rt (expr.finite pinf ninf
        (substitute j.max [(name, .sub end_ (.constant 1))])) ctx = some Y := by
      rw [substitute_finite, eval_expr_substitute_admits _ rt ctx name _ hi
        (by rw [expr.admits_finite]; exact a4) hhi]
      exact hY
    refine ⟨Min.min x y, Max.max X Y, ?_, ?_, ?_⟩
    · simp only [bounds_inferrer.close_interval, expr.finite, eval_expr, s1, s2]
    · simp only [bounds_inferrer.close_interval, expr.finite, eval_expr, s3, s4]
    · intro v m M hv1 hv2 hm hM
      constructor
      · rcases hmm with h | h
        · exact le_trans (min_le_left _ _) (h lo v x m (le_refl _) hv1 hv2 hx hm)
        · exact le_trans (min_le_right _ _)
            (h v hi m y hv1 hv2 (le_refl _) hm hy)
      · rcases hmM with h | h
        · exact le_trans (h v hi M Y hv1 hv2 (le_refl _) hM hY) (le_max_right _ _)
        · exact le_trans (h lo v X M (le_refl _) hv1 hv2 hX hM) (le_max_left _ _)
  · intro budget body s1 st st1 h
    simp only [bounds_inferrer.mutate, bounds_inferrer.mutate_with] at h ⊢
    cases hbody : bounds_inferrer.mutate_with (bounds_inferrer.slide_loops budget) budget body
        { st with loop_mins := st.loop_mins ++ [(name, begin)] } with
    | error e => simp [hbody] at h
    | ok r =>
      obtain ⟨body1, st0⟩ := r
      simp only [hbody] at h
      cases hl : st0.loop_mins.getLast? with
      | none => simp [hl] at h
      | some l =>
        simp only [hl, Except.ok.injEq, Prod.mk.injEq] at h
        exact ⟨body1, st0, rfl, by rw [← h.2]⟩

theorem example_inferred_window_values (v : Int) (h1 : 0 ≤ v) (h2 : v ≤ 9) :
    eval_expr example_no_buffers (expr.finite index_t_max index_t_min example_inferred_window.min)
        (symbol_map.set [] 3 (some v)) = some (v - 1) ∧
    eval_expr example_no_buffers (expr.finite index_t_max index_t_min example_inferred_window.max)
        (symbol_map.set [] 3 (some v)) = some (v + 1) := by
  have f1 : fits_index_t (v - 1) := by
    unfold fits_index_t index_t_min index_t_max; omega
  have f2 : fits_index_t (v + 1) := by
    unfold fits_index_t index_t_min index_t_max; omega
  have g1 : Min.min index_t_max (v - 1) = v - 1 := by
    apply min_eq_right; unfold index_t_max; omega
  have g2 : Max.max index_t_min (v + 1) = v + 1 := by
    apply max_eq_right; unfold index_t_min; omega
  constructor
  · simp [example_inferred_window, expr.finite, expr.finite_list, intrinsic.finite, eval_expr,
      symbol_map.lookup_set, wrap_of_fits f1, g1]
  · simp [example_inferred_window, expr.finite, expr.finite_list, intrinsic.finite, eval_expr,
      symbol_map.lookup_set, wrap_of_fits f2, g2]

/-- Claim C24 on the interval `[min(+inf, x - 1), max(-inf, x + 1)]` of buffer 0, on leaving
the loop over `x` (symbol 3) from 0 up to 10, with the infinities read as the largest and the
smallest `index_t`: the new bounds do not depend on `x`, they have values, and they contain
the bounds `[4, 6]` of the iteration `x = 5`. -/
theorem loop_closing_witness :
    ∃ bx1 j1 n N, (bounds_inferrer.close_loop 3 (.constant 0) (.constant 10)
        [some [example_inferred_window]]).lookup 0 = some bx1 ∧
      bx1.get? 0 = some j1 ∧
      j1.min.depends_on 3 = false ∧ j1.max.depends_on 3 = false ∧
      eval_expr example_no_buffers (expr.finite index_t_max index_t_min j1.min) [] = some n ∧
      eval_expr example_no_buffers (expr.finite index_t_max index_t_min j1.max) [] = some N ∧
      n ≤ 5 - 1 ∧ 5 + 1 ≤ N := by
  obtain ⟨bx1, j1, h1, h2, _, _, h5, h6⟩ :=
    (loop_closing 3 (.constant 0) (.constant 10) [some [example_inferred_window]] 0 0
      [example_inferred_window] example_inferred_window rfl rfl).1
  obtain ⟨n, N, hn, hN, hc⟩ := h6 example_no_buffers [] 0 9 index_t_max index_t_min
    (by decide) (by decide) (by decide) (by decide) (by decide) (by decide)
    (fun v hv => by
      rcases hv with rfl | rfl
      · exact ⟨_, _, example_inferred_window_values 0 (by decide) (by decide)⟩
      · exact ⟨_, _, example_inferred_window_values 9 (by decide) (by decide)⟩)
    (Or.inl (fun v w a b hv hvw hw ha hb => by
      rw [(example_inferred_window_values v hv (by omega)).1] at ha
      rw [(example_inferred_window_values w (by omega) hw).1] at hb
      simp only [Option.some.injEq] at ha hb
      omega))
    (Or.inl (fun v w a b hv hvw hw ha hb => by
      rw [(example_inferred_window_values v hv (by omega)).2] at ha
      rw [(example_inferred_window_values w (by omega) hw).2] at hb
      simp only [Option.some.injEq] at ha hb
      omega))
  have := hc 5 (5 - 1) (5 + 1) (by decide) (by decide)
    (example_inferred_window_values 5 (by decide) (by decide)).1
    (example_inferred_window_values 5 (by decide) (by decide)).2
  exact ⟨bx1, j1, n, N, h1, h2, (h5 rfl rfl).1, (h5 rfl rfl).2, hn, hN, this.1, this.2⟩

/-- Claim C24 (as stated, refuted) at two inputs.
(a) The loop over `x` (symbol 3) runs from `x` up to `x + 4`, bounds that name an outer `x`:
the interval `[x, x]` becomes `[min(x, (x + 4) - 1), max(x, (x + 4) - 1)]`, which still
depends on `x`.
(b) The loop over `x` runs from `y` (symbol 4) up to 1, and the bounds of the interval are
`let y = 0 in y + x`, which is `x`, monotone in `x`.  Substitution puts `y` under the `let`:
with `y = -5` outside, the loop covers `[-5, 0]` and the interval asks for -5 at `x = -5`,
but the new min is `min(let y = 0 in y + y, let y = 0 in y + (1 - 1))`, which is 0. -/
theorem loop_closing_counterexample :
    ((bounds_inferrer.close_loop 3 (.var 3) (.add (.var 3) (.constant 4))
        [some [{ min := .var 3, max := .var 3 }]]).lookup 0 =
      some [{ min := .min (.var 3) (.sub (.add (.var 3) (.constant 4)) (.constant 1)),
              max := .max (.var 3) (.sub (.add (.var 3) (.constant 4)) (.constant 1)) }] ∧
     (expr.min (.var 3) (.sub (.add (.var 3) (.constant 4)) (.constant 1))).depends_on 3
       = true) ∧
    (expr.monotone_in empty_buffer_runtime [none, none, none, none, some (-5)] 3 (-5) 0
        example_shadowing_bound ∧
      eval_expr empty_buffer_runtime (.var 4) [none, none, none, none, some (-5)] = some (-5) ∧
      eval_expr empty_buffer_runtime (.sub (.constant 1) (.constant 1))
        [none, none, none, none, some (-5)] = some 0 ∧
      eval_expr empty_buffer_runtime example_shadowing_bound
        (symbol_map.set [none, none, none, none, some (-5)] 3 (some (-5))) = some (-5) ∧
      eval_expr empty_buffer_runtime
        (bounds_inferrer.close_interval 3 (.var 4) (.constant 1)
          { min := example_shadowing_bound, max := example_shadowing_bound }).min
        [none, none, none, none, some (-5)] = some 0) := by
  refine ⟨⟨rfl, by decide⟩, ?_, by decide, by decide, by decide, by decide⟩
  left
  intro v w a b hv hvw hw ha hb
  have e1 : ∀ u : Int, -5 ≤ u → u ≤ 0 →
      eval_expr empty_buffer_runtime example_shadowing_bound
        (symbol_map.set [none, none, none, none, some (-5)] 3 (some u)) = some u := by
    intro u h1 h2
    have hf : fits_index_t u := by
      unfold fits_index_t index_t_min index_t_max; omega
    simp only [example_shadowing_bound, eval_expr, symbol_map.lookup_set]
    simp [wrap_of_fits hf]
  rw [e1 v hv (by omega)] at ha
  rw [e1 w (by omega) hw] at hb
  simp only [Option.some.injEq] at ha hb
  omega

/-! ## Bounds inference: the checks on the inputs -/

theorem sliding_steps (b : Int → Int) (x : Int) :
    ∀ (n : Nat), (∀ v, x < v → v ≤ x + n → b (v - 1) < b v) → b x + n ≤ b (x + n) := by
  intro n
  induction n with
  | zero => intro _; simp
  | succ n ih =>
    intro h
    have h1 := ih (fun v hv1 hv2 => h v hv1 (by push_cast; omega))
    have h2 := h (x + (n + 1 : Nat)) (by push_cast; omega) (le_refl _)
    have e : x + ((n + 1 : Nat) : Int) - 1 = x + (n : Int) := by push_cast; omega
    rw [e] at h2
    push_cast at h2 ⊢
    omega

theorem sliding_rises (a : Int → Int) (lo : Int) :
    ∀ (n : Nat), (∀ v, lo < v → v ≤ lo + n → a (v - 1) ≤ a v) → a lo ≤ a (lo + n) := by
  intro n
  induction n with
  | zero => intro _; simp
  | succ n ih =>
    intro h
    have h1 := ih (fun v hv1 hv2 => h v hv1 (by push_cast; omega))
    have h2 := h (lo + (n + 1 : Nat)) (by push_cast; omega) (le_refl _)
    have e : lo + ((n + 1 : Nat) : Int) - 1 = lo + (n : Int) := by push_cast; omega
    rw [e] at h2
    push_cast at h2 ⊢
    omega

theorem sliding_tiles (b : Int → Int) (x p : Int) (hp : b (x - 1) + 1 ≤ p) :
    ∀ (n : Nat), p ≤ b (x + n) → ∃ w, x ≤ w ∧ w ≤ x + n ∧ b (w - 1) + 1 ≤ p ∧ p ≤ b w := by
  intro n
  induction n with
  | zero =>
    intro h
    exact ⟨x, le_refl _, by simp, hp, by simpa using h⟩
  | succ n ih =>
    intro h
    by_cases hq : p ≤ b (x + n)
    · obtain ⟨w, h1, h2, h3, h4⟩ := ih hq
      exact ⟨w, h1, by push_cast; omega, h3, h4⟩
    · refine ⟨x + (n + 1 : Nat), by push_cast; omega, le_refl _, ?_, h⟩
      have e : x + ((n + 1 : Nat) : Int) - 1 = x + (n : Int) := by push_cast; omega
      rw [e]
      omega

theorem sliding_cover (a b : Int → Int) (lo hi k : Int) (hk : 0 ≤ k)
    (hb : ∀ v, lo - k ≤ v → v ≤ hi → b (v - 1) < b v)
    (ha : ∀ v, lo < v → v ≤ hi → a (v - 1) ≤ a v)
    (hshift : b (lo - 1) + 1 - a lo = k)
    (v0 p : Int) (h1 : lo ≤ v0) (h2 : v0 ≤ hi) (h3 : a v0 ≤ p) (h4 : p ≤ b v0) :
    ∃ w, lo - k ≤ w ∧ w ≤ v0 ∧ b (w - 1) + 1 ≤ p ∧ p ≤ b w := by
  have s1 := sliding_steps b (lo - k - 1) k.toNat (fun v hv1 hv2 => hb v (by omega)
    (by have := Int.toNat_of_nonneg hk; omega))
  have s2 := sliding_rises a lo (v0 - lo).toNat (fun v hv1 hv2 => ha v hv1
    (by have := Int.toNat_of_nonneg (show 0 ≤ v0 - lo by omega); omega))
  have e1 : lo - k - 1 + (k.toNat : Int) = lo - 1 := by
    have := Int.toNat_of_nonneg hk; omega
  have e2 : lo + ((v0 - lo).toNat : Int) = v0 := by
    have := Int.toNat_of_nonneg (show 0 ≤ v0 - lo by omega); omega
  rw [e1] at s1
  rw [e2] at s2
  have hkn : (k.toNat : Int) = k := Int.toNat_of_nonneg hk
  have hp : b (lo - k - 1) + 1 ≤ p := by omega
  have e3 : lo - k + ((v0 - lo + k).toNat : Int) = v0 := by
    have := Int.toNat_of_nonneg (show 0 ≤ v0 - lo + k by omega); omega
  obtain ⟨w, w1, w2, w3, w4⟩ := sliding_tiles b (lo - k) p hp (v0 - lo + k).toNat
    (by rw [e3]; exact h4)
  rw [e3] at w2
  exact ⟨w, w1, w2, w3, w4⟩

theorem symbol_map.set_set {T : Type} (m : symbol_map T) (n : Nat) (v w : T) :
    symbol_map.set (symbol_map.set m n (some v)) n (some w) = symbol_map.set m n (some w) := by
  unfold symbol_map.set
  by_cases h : n < m.length
  · simp [h, List.set_set]
  · simp only [h, if_false]
    have hl : n < (List.set (m ++ List.replicate (Nat.max (m.length * 2) (n + 1) - m.length) none)
        n (some v)).length := by
      simp only [List.length_set, List.length_append, List.length_replicate]
      have : n + 1 ≤ Nat.max (m.length * 2) (n + 1) := Nat.le_max_right _ _
      omega
    simp only [hl, if_true, List.set_set]

theorem eval_expr_prev_iter (rt : buffer_runtime) (ctx : eval_context) (l : Nat) (e : expr)
    (v : Int) (hp : e.plain = true) (hf : fits_index_t (v - 1)) :
    eval_expr rt (substitute e [(l, .sub (.var l) (.constant 1))]) (ctx.set l (some v)) =
      eval_expr rt e (ctx.set l (some (v - 1))) := by
  have hV : eval_expr rt (.sub (.var l) (.constant 1)) (ctx.set l (some v)) = some (v - 1) := by
    simp [eval_expr, symbol_map.lookup_set, wrap_of_fits hf]
  rw [eval_expr_substitute e rt _ l _ (v - 1) hp hV, symbol_map.set_set]

theorem bounds_inferrer.simplify_refines (budget : Nat) (e e' : expr)
    (h : bounds_inferrer.simplify budget e = .ok e') (hp : e.flat_lets = true) :
    simplifier.refines e e' := by
  unfold bounds_inferrer.simplify at h
  cases hs : slinky.simplify budget e with
  | none => simp [hs] at h
  | some r =>
    simp only [hs, Except.ok.injEq] at h
    subst h
    have hm := simplify_mono (Nat.le_max_left budget e.weight) e r hs
    obtain ⟨e2, r2, h2, href, _⟩ := simplifier.mutate_sound (Nat.max budget e.weight) e [] hp
      (Nat.le_max_right _ _)
    unfold slinky.simplify at hm
    rw [h2] at hm
    simp only [Option.some.injEq] at hm
    rw [← hm]
    exact href

theorem bounds_inferrer.prev_bounds_spec (budget l : Nat) (c prev : interval)
    (h : bounds_inferrer.prev_bounds budget l c = .ok prev) :
    bounds_inferrer.simplify budget
        (substitute c.min [(l, .sub (.var l) (.constant 1))]) = .ok prev.min ∧
    bounds_inferrer.simplify budget
        (substitute c.max [(l, .sub (.var l) (.constant 1))]) = .ok prev.max := by
  unfold bounds_inferrer.prev_bounds at h
  cases h1 : bounds_inferrer.simplify budget
      (substitute c.min [(l, .sub (.var l) (.constant 1))]) with
  | error e => simp [h1] at h
  | ok pmin =>
    cases h2 : bounds_inferrer.simplify budget
        (substitute c.max [(l, .sub (.var l) (.constant 1))]) with
    | error e => simp [h1, h2] at h
    | ok pmax =>
      simp only [h1, h2, Except.ok.injEq] at h
      rw [← h]
      exact ⟨rfl, rfl⟩

theorem bounds_inferrer.slide_dim_spec (budget : Nat) (prev c c1 : interval) (shift : expr)
    (h : bounds_inferrer.slide_dim budget prev c = .ok (c1, shift)) :
    c1 = { c with min := .add prev.max (.constant 1) } ∧
    bounds_inferrer.simplify budget (.sub (.add prev.max (.constant 1)) c.min) = .ok shift := by
  unfold bounds_inferrer.slide_dim at h
  cases h1 : bounds_inferrer.simplify budget (.sub (.add prev.max (.constant 1)) c.min) with
  | error e => simp [h1] at h
  | ok s =>
    simp only [h1, Except.ok.injEq, Prod.mk.injEq] at h
    exact ⟨h.1.symm, by rw [h.2]⟩

theorem bounds_inferrer.prev_value (rt : buffer_runtime) (hrt : rt.nonempty_dims)
    (ctx : eval_context) (budget l : Nat) (e e' : expr) (hp : e.plain = true)
    (h : bounds_inferrer.simplify budget (substitute e [(l, .sub (.var l) (.constant 1))]) =
      .ok e')
    (v x : Int) (hf : fits_index_t (v - 1))
    (hx : eval_expr rt e (ctx.set l (some (v - 1))) = some x) :
    eval_expr rt e' (ctx.set l (some v)) = some x ∧ e'.plain = true := by
  have hV : (expr.sub (.var l) (.constant 1)).plain = true := rfl
  have hs := substitute_plain_facts e l (expr.sub (.var l) (.constant 1)) hp
  have href := bounds_inferrer.simplify_refines budget _ e' h
    (expr.flat_lets_of_plain _ (hs.2.1 hV))
  refine ⟨href.2.2.2 rt _ x hrt ?_, href.2.1 (hs.2.1 hV)⟩
  rw [eval_expr_prev_iter rt ctx l e v hp hf]
  exact hx

/-- The formulas of the branch that slides a dim, for one dim of a crop whose bounds hold no
`let` and no `wildcard`: let the loop over `l` run from `lo` to `hi`, let the branch give the
crop `[prev.max + 1, crop.max]` and the amount `shift`, and let `k` be the value of `shift`
at the first iteration.  If `k` is not negative and `prev.min <= crop.min` and
`prev.max < crop.max` hold as values at every iteration from `lo - k` to `hi`, with no
overflow, then every index of the original crop of an iteration `v0` from `lo` to `hi` lies
in the slid crop of some iteration from `lo - k` to `v0`. -/
theorem bounds_inferrer.slide_dim_covers (rt : buffer_runtime) (ctx : eval_context) (l budget : Nat)
    (c prev c1 : interval) (shift : expr) (lo hi k : Int) (a b pa pb : Int → Int)
    (hrt : rt.nonempty_dims) (hc : c.min.plain = true ∧ c.max.plain = true)
    (h1 : bounds_inferrer.prev_bounds budget l c = .ok prev)
    (h2 : bounds_inferrer.slide_dim budget prev c = .ok (c1, shift))
    (hk : 0 ≤ k) (hfit : fits_index_t (lo - k - 1) ∧ fits_index_t hi)
    (hev : ∀ v, lo - k ≤ v → v ≤ hi →
      eval_expr rt c.min (ctx.set l (some v)) = some (a v) ∧
      eval_expr rt c.max (ctx.set l (some v)) = some (b v) ∧
      eval_expr rt prev.min (ctx.set l (some v)) = some (pa v) ∧
      eval_expr rt prev.max (ctx.set l (some v)) = some (pb v) ∧
      fits_index_t (pb v) ∧ fits_index_t (b v))
    (hpre : ∀ v, lo - k ≤ v → v ≤ hi → pa v ≤ a v ∧ pb v < b v)
    (hshift : eval_expr rt shift (ctx.set l (some lo)) = some k)
    (hno : fits_index_t (pb lo + 1 - a lo)) :
    ∀ v0 p, lo ≤ v0 → v0 ≤ hi → a v0 ≤ p → p ≤ b v0 →
    ∃ w m M, lo - k ≤ w ∧ w ≤ v0 ∧
      eval_expr rt c1.min (ctx.set l (some w)) = some m ∧
      eval_expr rt c1.max (ctx.set l (some w)) = some M ∧ m ≤ p ∧ p ≤ M := by
  obtain ⟨hpmin, hpmax⟩ := bounds_inferrer.prev_bounds_spec budget l c prev h1
  obtain ⟨hc1, hsh⟩ := bounds_inferrer.slide_dim_spec budget prev c c1 shift h2
  have hfits : ∀ v, lo - k ≤ v → v ≤ hi → fits_index_t (v - 1) := by
    intro v hv1 hv2
    unfold fits_index_t index_t_min index_t_max at hfit ⊢
    omega
  -- the bounds of the previous iteration are the bounds one iteration earlier
  have hpb : ∀ v, lo - k < v → v ≤ hi → pb v = b (v - 1) := by
    intro v hv1 hv2
    have e1 := (hev (v - 1) (by omega) (by omega)).2.1
    have e2 := (bounds_inferrer.prev_value rt hrt ctx budget l c.max prev.max hc.2 hpmax v
      (b (v - 1)) (hfits v (by omega) hv2) e1).1
    have e3 := (hev v (by omega) hv2).2.2.2.1
    rw [e3] at e2
    exact Option.some.inj e2
  have hpa : ∀ v, lo - k < v → v ≤ hi → pa v = a (v - 1) := by
    intro v hv1 hv2
    have e1 := (hev (v - 1) (by omega) (by omega)).1
    have e2 := (bounds_inferrer.prev_value rt hrt ctx budget l c.min prev.min hc.1 hpmin v
      (a (v - 1)) (hfits v (by omega) hv2) e1).1
    have e3 := (hev v (by omega) hv2).2.2.1
    rw [e3] at e2
    exact Option.some.inj e2
  intro v0 p hv1 hv2 hp1 hp2
  have hlh : lo ≤ hi := le_trans hv1 hv2
  -- the value of the amount taken off the loop min
  have hpmaxp : prev.max.plain = true := by
    have e1 := (hev lo (by omega) hlh).2.1
    have hV : (expr.sub (.var l) (.constant 1)).plain = true := rfl
    have hs := substitute_plain_facts c.max l (expr.sub (.var l) (.constant 1)) hc.2
    exact (bounds_inferrer.simplify_refines budget _ prev.max hpmax
      (expr.flat_lets_of_plain _ (hs.2.1 hV))).2.1 (hs.2.1 hV)
  have hkv : pb lo + 1 - a lo = k := by
    have hpl : (expr.sub (.add prev.max (.constant 1)) c.min).plain = true := by
      simp [expr.plain, hpmaxp, hc.1]
    have href := bounds_inferrer.simplify_refines budget _ shift hsh
      (expr.flat_lets_of_plain _ hpl)
    have e := hev lo (by omega) hlh
    have hval : eval_expr rt (.sub (.add prev.max (.constant 1)) c.min) (ctx.set l (some lo)) =
        some (wrap (wrap (pb lo + 1) - a lo)) := by
      simp [eval_expr, e.1, e.2.2.2.1]
    have := href.2.2.2 rt _ _ hrt hval
    rw [hshift] at this
    have hk2 := Option.some.inj this
    have hb1 := (hpre lo (by omega) hlh).2
    have f1 : fits_index_t (pb lo + 1) := by
      have g1 := e.2.2.2.2.1
      have g2 := e.2.2.2.2.2
      unfold fits_index_t index_t_min index_t_max at g1 g2 ⊢
      omega
    rw [wrap_of_fits f1, wrap_of_fits hno] at hk2
    exact hk2.symm
  -- the function whose steps tile the indices
  have cover := sliding_cover a (fun v => if v < lo - k then pb (lo - k) else b v) lo hi k hk
    (by
      intro v hv3 hv4
      by_cases hq : v = lo - k
      · subst hq
        have := (hpre (lo - k) (le_refl _) hv4).2
        simp only [show lo - k - 1 < lo - k by omega, if_true, lt_irrefl, if_false]
        exact this
      · have hq2 : lo - k < v := by omega
        have := (hpre v hv3 hv4).2
        rw [hpb v hq2 hv4] at this
        simp only [show ¬ (v - 1 < lo - k) by omega, show ¬ (v < lo - k) by omega, if_false]
        exact this)
    (by
      intro v hv3 hv4
      have := (hpre v (by omega) hv4).1
      rw [hpa v (by omega) hv4] at this
      exact this)
    (by
      by_cases hq : k = 0
      · subst hq
        simp only [sub_zero] at hkv ⊢
        simp only [show lo - 1 < lo by omega, if_true]
        exact hkv
      · simp only [show ¬ (lo - 1 < lo - k) by omega, if_false]
        rw [← hpb lo (by omega) hlh]
        exact hkv)
    v0 p hv1 hv2 hp1 (by simp only [show ¬ (v0 < lo - k) by omega, if_false]; exact hp2)
  obtain ⟨w, w1, w2, w3, w4⟩ := cover
  have ew := hev w w1 (le_trans w2 hv2)
  have hbw : (if w - 1 < lo - k then pb (lo - k) else b (w - 1)) = pb w := by
    by_cases hq : w = lo - k
    · subst hq
      simp only [show lo - k - 1 < lo - k by omega, if_true]
    · simp only [show ¬ (w - 1 < lo - k) by omega, if_false]
      exact (hpb w (by omega) (le_trans w2 hv2)).symm
  simp only [hbw, show ¬ (w < lo - k) by omega, if_false] at w3 w4
  have f1 : fits_index_t (pb w + 1) := by
    have g1 := ew.2.2.2.2.1
    have g2 := ew.2.2.2.2.2
    have g3 := (hpre w w1 (le_trans w2 hv2)).2
    unfold fits_index_t index_t_min index_t_max at g1 g2 ⊢
    omega
  refine ⟨w, pb w + 1, b w, w1, w2, ?_, ?_, w3, w4⟩
  · rw [hc1]
    simp [eval_expr, ew.2.2.2.1, wrap_of_fits f1]
  · rw [hc1]
    exact ew.2.1

theorem parallel_for.task.mem_span (k : parallel_for.task) (x : Nat) :
    x ∈ k.span ↔ k.holds x := by
  unfold parallel_for.task.span parallel_for.task.holds
  rw [List.mem_range'_1]
  omega

theorem parallel_for.task.run_spec : ∀ (budget : Nat) (k : parallel_for.task),
    k.end_ < 18446744073709551616 → k.end_ - k.i < budget →
    ∃ k1, parallel_for.task.run budget k = some (k1, k.span)
  | 0, k, _, h => by omega
  | budget + 1, k, he, h => by
    unfold parallel_for.task.run
    by_cases hi : k.end_ ≤ k.i
    · refine ⟨{ k with i := size_t_wrap (k.i + 1) }, ?_⟩
      simp only [hi, if_true]
      have : k.end_ - k.i = 0 := by omega
      simp [parallel_for.task.span, this]
    · have hw : size_t_wrap (k.i + 1) = k.i + 1 := by
        unfold size_t_wrap
        exact Nat.mod_eq_of_lt (by omega)
      simp only [hi, if_false, hw]
      obtain ⟨k2, h2⟩ := parallel_for.task.run_spec budget { k with i := k.i + 1 } he
        (by simp only; omega)
      refine ⟨k2, ?_⟩
      rw [h2]
      have h3 : k.end_ - k.i = (k.end_ - (k.i + 1)) + 1 := by omega
      simp only [parallel_for.task.span, h3, List.range'_succ]

theorem parallel_for.run_tasks_spec (budget K : Nat) :
    ∀ (count i : Nat) (tasks : List parallel_for.task), K = tasks.length → i + count = K →
    (∀ k ∈ tasks.drop i, k.end_ < 18446744073709551616 ∧ k.end_ - k.i < budget) →
    ∃ tasks1, parallel_for.run_tasks budget K 0 count i tasks =
      some (tasks1, (tasks.drop i).flatMap parallel_for.task.span)
  | 0, i, tasks, hK, hlen, _ => by
    refine ⟨tasks, ?_⟩
    have : tasks.drop i = [] := List.drop_eq_nil_of_le (by omega)
    simp [parallel_for.run_tasks, this]
  | count + 1, i, tasks, hK, hlen, hall => by
    have hi : i < tasks.length := by omega
    have hmod : (i + 0) % K = i := by
      rw [Nat.add_zero]; exact Nat.mod_eq_of_lt (by omega)
    have hd : tasks.drop i = tasks.get ⟨i, hi⟩ :: tasks.drop (i + 1) :=
      List.drop_eq_getElem_cons hi
    unfold parallel_for.run_tasks
    rw [hmod, List.get?_eq_get hi]
    simp only
    have hk := hall (tasks.get ⟨i, hi⟩) (by rw [hd]; exact List.mem_cons_self _ _)
    obtain ⟨k1, hk1⟩ := parallel_for.task.run_spec budget (tasks.get ⟨i, hi⟩) hk.1 hk.2
    rw [hk1]
    simp only
    have hdrop : (tasks.set i k1).drop (i + 1) = tasks.drop (i + 1) := by
      apply List.ext_getElem?
      intro m
      rw [List.getElem?_drop, List.getElem?_drop, List.getElem?_set_ne (by omega)]
    obtain ⟨t1, ht1⟩ := parallel_for.run_tasks_spec budget K count (i + 1) (tasks.set i k1)
      (by rw [List.length_set]; exact hK) (by omega)
      (by
        rw [hdrop]
        intro k hk
        exact hall k (by rw [hd]; exact List.mem_cons_of_mem _ hk))
    rw [ht1, hdrop]
    refine ⟨t1, ?_⟩
    rw [List.drop_eq_getElem_cons hi, List.flatMap_cons]
    rfl

theorem parallel_for.divide_span (K n : Nat) (hK : 1 ≤ K) :
    ∀ (count i : Nat), (i + count) * n < 18446744073709551616 →
    (parallel_for.divide K n count i (i * n / K)).flatMap parallel_for.task.span =
      List.range' (i * n / K) ((i + count) * n / K - i * n / K)
  | 0, i, _ => by simp [parallel_for.divide]
  | count + 1, i, h => by
    have h1 : (i + 1) * n ≤ (i + (count + 1)) * n := Nat.mul_le_mul_right _ (by omega)
    have hw : size_t_wrap ((i + 1) * n) = (i + 1) * n := by
      unfold size_t_wrap
      exact Nat.mod_eq_of_lt (by omega)
    have ih := parallel_for.divide_span K n hK count (i + 1) (by
      have : i + 1 + count = i + (count + 1) := by omega
      rw [this]; exact h)
    have ha : i * n / K ≤ (i + 1) * n / K :=
      Nat.div_le_div_right (Nat.mul_le_mul_right _ (by omega))
    have hb : (i + 1) * n / K ≤ (i + (count + 1)) * n / K := Nat.div_le_div_right h1
    unfold parallel_for.divide
    simp only [hw, List.flatMap_cons, ih, parallel_for.task.span]
    have e1 : i + 1 + count = i + (count + 1) := by omega
    rw [e1]
    have e2 : (i + (count + 1)) * n / K - i * n / K =
        ((i + (count + 1)) * n / K - (i + 1) * n / K) + ((i + 1) * n / K - i * n / K) := by omega
    have e3 : (i + 1) * n / K = i * n / K + ((i + 1) * n / K - i * n / K) := by omega
    rw [e2, ← List.range'_append_1, ← e3]

theorem parallel_for.divide_length (K n : Nat) :
    ∀ (count i begin : Nat), (parallel_for.divide K n count i begin).length = count
  | 0, _, _ => rfl
  | count + 1, i, begin => by
    simp [parallel_for.divide, parallel_for.divide_length K n count]

theorem parallel_for.divide_end (K n : Nat) (hK : 1 ≤ K) :
    ∀ (count i begin : Nat), (i + count) * n < 18446744073709551616 → i + count ≤ K →
      ∀ k ∈ parallel_for.divide K n count i begin, k.end_ ≤ n
  | 0, _, _, _, _, k, hk => by simp [parallel_for.divide] at hk
  | count + 1, i, begin, h, hle, k, hk => by
    have h1 : (i + 1) * n ≤ (i + (count + 1)) * n := Nat.mul_le_mul_right _ (by omega)
    have hw : size_t_wrap ((i + 1) * n) = (i + 1) * n := by
      unfold size_t_wrap
      exact Nat.mod_eq_of_lt (by omega)
    unfold parallel_for.divide at hk
    simp only [hw, List.mem_cons] at hk
    rcases hk with hk | hk
    · rw [hk]
      simp only
      calc (i + 1) * n / K ≤ K * n / K := Nat.div_le_div_right (Nat.mul_le_mul_right _ (by omega))
        _ = n := Nat.mul_div_cancel_left n (by omega)
    · exact parallel_for.divide_end K n hK count (i + 1) _ (by
        have : i + 1 + count = i + (count + 1) := by omega
        rw [this]; exact h) (by omega) k hk

theorem parallel_for.make_end (K n : Nat) (hK : 1 ≤ K)
    (hfit : n < K ∨ K * n < 18446744073709551616) :
    ∀ k ∈ (parallel_for.make K n).tasks, k.end_ ≤ n := by
  unfold parallel_for.make
  by_cases h : 1 < K ∧ n < K
  · simp only [h, and_self, if_true]
    intro k hk
    rcases List.mem_append.mp hk with hk | hk
    · obtain ⟨i, hi, rfl⟩ := List.mem_map.mp hk
      have := List.mem_range.mp hi
      simp only
      omega
    · rw [List.eq_of_mem_replicate hk]
      exact Nat.zero_le _
  · simp only [h, if_false]
    have hfit1 : K * n < 18446744073709551616 := by
      rcases hfit with h1 | h1
      · have : K = 1 := by
          by_contra hne
          exact h ⟨by omega, h1⟩
        subst this; omega
      · exact h1
    exact parallel_for.divide_end K n hK K 0 0 (by simpa using hfit1) (by omega)

theorem parallel_for.make_length (K n : Nat) : (parallel_for.make K n).tasks.length = K := by
  unfold parallel_for.make
  by_cases h : 1 < K ∧ n < K
  · simp only [h, and_self, if_true, List.length_append, List.length_map, List.length_range,
      List.length_replicate]
    omega
  · simp only [h, if_false, parallel_for.divide_length]

theorem parallel_for.make_span (K n : Nat) (hK : 1 ≤ K)
    (hfit : n < K ∨ K * n < 18446744073709551616) :
    (parallel_for.make K n).tasks.flatMap parallel_for.task.span = List.range n := by
  unfold parallel_for.make
  by_cases h : 1 < K ∧ n < K
  · simp only [h, and_self, if_true, List.flatMap_append]
    have h1 : (List.replicate (K - n) ({ i := 0, end_ := 0 } : parallel_for.task)).flatMap
        parallel_for.task.span = [] := by
      rw [List.flatMap_eq_nil_iff]
      intro k hk
      rw [List.eq_of_mem_replicate hk]
      rfl
    rw [h1, List.append_nil]
    have h2 : ∀ m : Nat, ((List.range m).map
        (fun i => ({ i := i, end_ := i + 1 } : parallel_for.task))).flatMap
        parallel_for.task.span = List.range m := by
      intro m
      induction m with
      | zero => rfl
      | succ m ih =>
        rw [List.range_succ, List.map_append, List.flatMap_append, ih]
        simp [parallel_for.task.span]
    exact h2 n
  · simp only [h, if_false]
    have hfit1 : K * n < 18446744073709551616 := by
      rcases hfit with h1 | h1
      · have : K = 1 := by
          by_contra hne
          exact h ⟨by omega, h1⟩
        subst this; omega
      · exact h1
    have := parallel_for.divide_span K n hK K 0 (by simpa using hfit1)
    simp only [Nat.zero_mul, Nat.zero_div, Nat.zero_add, Nat.sub_zero] at this
    rw [this, Nat.mul_div_cancel_left n (by omega : 0 < K)]
    simp [List.range_eq_range']

/-- Claim C35 (amended): for every number of tasks `K ≥ 1` and every number of items `n`
(both of type `std::size_t`) such that `n < K` or `K * n` does not overflow `std::size_t`,
the constructor `parallel_for<K>(n)` sets up `K` task ranges `[i, end)` that are pairwise
disjoint and whose union is exactly `[0, n)`; and one single-threaded call of `run(body)` on
the fresh loop returns (with any budget above `n`), has called `body` exactly once for each
index of `[0, n)`, in ascending order, and leaves `done()` true. -/
theorem parallel_for_partition (K n : Nat) (hK : 1 ≤ K) (hn : n < 18446744073709551616)
    (hfit : n < K ∨ K * n < 18446744073709551616) :
    (parallel_for.make K n).tasks.length = K ∧
    (parallel_for.make K n).tasks.Pairwise (fun a b => ∀ x, ¬ (a.holds x ∧ b.holds x)) ∧
    (∀ x, x < n ↔ ∃ k ∈ (parallel_for.make K n).tasks, k.holds x) ∧
    ∀ budget, n < budget →
      ∃ p, (parallel_for.make K n).run budget = some (p, List.range n) ∧ p.done = true := by
  have hspan := parallel_for.make_span K n hK hfit
  have hlen := parallel_for.make_length K n
  have hend := parallel_for.make_end K n hK hfit
  refine ⟨hlen, ?_, ?_, ?_⟩
  · have hnd : ((parallel_for.make K n).tasks.flatMap parallel_for.task.span).Nodup := by
      rw [hspan]; exact List.nodup_range n
    have hp := (List.nodup_flatMap.mp hnd).2
    refine hp.imp ?_
    intro a b hab x hx
    exact hab ((parallel_for.task.mem_span a x).mpr hx.1) ((parallel_for.task.mem_span b x).mpr hx.2)
  · intro x
    rw [← List.mem_range, ← hspan, List.mem_flatMap]
    constructor
    · rintro ⟨k, hk, hx⟩
      exact ⟨k, hk, (parallel_for.task.mem_span k x).mp hx⟩
    · rintro ⟨k, hk, hx⟩
      exact ⟨k, hk, (parallel_for.task.mem_span k x).mpr hx⟩
  · intro budget hb
    obtain ⟨t1, ht1⟩ := parallel_for.run_tasks_spec budget K K 0 (parallel_for.make K n).tasks
      hlen.symm (by omega) (by
        intro k hk
        have := hend k (List.mem_of_mem_drop hk)
        omega)
    have hw : (if K = 1 then 0 else (parallel_for.make K n).worker) = 0 := by
      by_cases h1 : K = 1
      · simp [h1]
      · simp [h1, parallel_for.make]
    unfold parallel_for.run
    simp only [hlen, hw, ht1, List.drop_zero, hspan, List.length_range]
    refine ⟨_, rfl, ?_⟩
    have h2 : size_t_wrap n = n := by
      unfold size_t_wrap; exact Nat.mod_eq_of_lt hn
    have h3 : (parallel_for.make K n).todo = n := rfl
    have h4 : size_t_wrap (n + 18446744073709551616 - n) = 0 := by
      have : n + 18446744073709551616 - n = 18446744073709551616 := by omega
      rw [this]
      rfl
    simp only [parallel_for.done, h2, h3, h4]
    rfl

/-- Claim C35 at a concrete input: three tasks for ten items. -/
theorem parallel_for_partition_witness :
    (1 ≤ 3 ∧ (10 : Nat) < 18446744073709551616) ∧
    (parallel_for.make 3 10).tasks = [⟨0, 3⟩, ⟨3, 6⟩, ⟨6, 10⟩] ∧
    (parallel_for.make 3 10).tasks.Pairwise (fun a b => ∀ x, ¬ (a.holds x ∧ b.holds x)) ∧
    (∀ x, x < 10 ↔ ∃ k ∈ (parallel_for.make 3 10).tasks, k.holds x) ∧
    ∃ p, (parallel_for.make 3 10).run 11 = some (p, List.range 10) ∧ p.done = true :=
  have h := parallel_for_partition 3 10 (by decide) (by decide) (Or.inr (by decide))
  ⟨⟨by decide, by decide⟩, by decide, h.2.1, h.2.2.1, h.2.2.2 11 (by decide)⟩

/-- Claim C35 (as stated, refuted) at `K = 2` tasks and `n = 2^63` items: the constructor
computes the end of task `i` as `((i + 1) * n) / K` in `std::size_t`.  For the second task
`2 * 2^63` wraps around to 0, so the task gets the range `[2^62, 0)`, which holds no index:
the index `2^62` is below `n` and lies in neither range, and the union of the ranges is
`[0, 2^62)`, not `[0, n)`. -/
theorem parallel_for_partition_counterexample :
    (1 ≤ 2 ∧ (9223372036854775808 : Nat) < 18446744073709551616) ∧
    (parallel_for.make 2 9223372036854775808).tasks =
      [⟨0, 4611686018427387904⟩, ⟨4611686018427387904, 0⟩] ∧
    (4611686018427387904 : Nat) < 9223372036854775808 ∧
    ¬ ∃ k ∈ (parallel_for.make 2 9223372036854775808).tasks, k.holds 4611686018427387904 := by
  refine ⟨⟨by decide, by decide⟩, by decide, by decide, ?_⟩
  have h : (parallel_for.make 2 9223372036854775808).tasks =
      [⟨0, 4611686018427387904⟩, ⟨4611686018427387904, 0⟩] := by decide
  rw [h]
  simp [parallel_for.task.holds]

/-! ## compute_padding -/

theorem wrap_mul_wrap (a b : Int) : wrap (a * wrap b) = wrap (a * b) := by
  unfold wrap
  have h : (a * ((b + 9223372036854775808) % 18446744073709551616 - 9223372036854775808)
      + 9223372036854775808) % 18446744073709551616 =
      (a * b + 9223372036854775808) % 18446744073709551616 := by
    have e : a * ((b + 9223372036854775808) % 18446744073709551616 - 9223372036854775808)
        + 9223372036854775808 =
        a * b + 9223372036854775808 +
          18446744073709551616 * (- (a * ((b + 9223372036854775808) / 18446744073709551616))) := by
      have := Int.emod_add_ediv (b + 9223372036854775808) 18446744073709551616
      linear_combination a * this
    rw [e, Int.add_mul_emod_self_left]
  rw [h]

/-- Claim C39 (amended): for every src and dst dim (fields of type `index_t`) with
`src.begin <= src.end`, `dst.begin <= dst.end`, `total_size` equal to the extent of dst, and
a dst range that holds at most `INT64_MAX` indices, the assertion of `compute_padding` holds:
the function returns, the computed `pad_before`, `size` and `pad_after` are all at least 0
and add up to `total_size`, the other fields are unchanged, and the returned source offset is
`src_stride * max(0, dst.begin - src.begin)`, computed in `index_t`, when the ranges overlap
and 0 otherwise. -/
theorem compute_padding_assertion (src dst : dim) (d : copy_dim)
    (hsf : src.fits) (hdf : dst.fits)
    (hs : src.begin ≤ src.end_) (hd : dst.begin ≤ dst.end_) (ht : d.total_size = dst.extent)
    (hext : dst.max - dst.min + 1 ≤ index_t_max) :
    ∃ off r, compute_padding src dst d = .ok (off, r) ∧
      0 ≤ r.pad_before ∧ 0 ≤ r.size ∧ 0 ≤ r.pad_after ∧
      r.pad_before + r.size + r.pad_after = r.total_size ∧
      r.total_size = d.total_size ∧ r.src_stride = d.src_stride ∧ r.dst_stride = d.dst_stride ∧
      off = (if dim.overlaps src dst then
        wrap (d.src_stride * Max.max 0 (dst.begin - src.begin)) else 0) := by
  unfold dim.fits fits_index_t index_t_min index_t_max at hsf hdf
  unfold index_t_max at hext
  unfold dim.begin dim.end_ at hs hd
  unfold dim.extent at ht
  have hde : wrap (dst.max + 1) = dst.max + 1 := by
    unfold wrap at hd ⊢; omega
  have hdx : wrap (dst.max - dst.min + 1) = dst.max - dst.min + 1 := by
    rw [hde] at hd
    unfold wrap; omega
  rw [hde] at hd
  rw [hdx] at ht
  by_cases hov : dim.overlaps src dst
  · have hov' := hov
    unfold dim.overlaps dim.begin dim.end_ at hov'
    rw [hde] at hov'
    have hse : wrap (src.max + 1) = src.max + 1 := by
      have h1 := hov'.2
      unfold wrap at h1 hs ⊢; omega
    rw [hse] at hov' hs
    have hc : ¬ (dst.end_ ≤ src.begin ∨ src.end_ ≤ dst.begin) := by
      unfold dim.begin dim.end_
      rw [hde, hse]; omega
    unfold compute_padding
    simp only [hc, if_false, hov, if_true]
    unfold dim.begin dim.end_
    rw [hde, hse]
    have e1 : wrap (Min.min (src.max + 1) (dst.max + 1) - Max.max src.min dst.min) =
        Min.min (src.max + 1) (dst.max + 1) - Max.max src.min dst.min := by
      apply wrap_of_fits
      unfold fits_index_t index_t_min index_t_max
      omega
    have e2 : wrap (Max.max src.min dst.min - dst.min) = Max.max src.min dst.min - dst.min := by
      apply wrap_of_fits
      unfold fits_index_t index_t_min index_t_max
      omega
    have e3 : wrap (dst.max + 1 - Min.min (src.max + 1) (dst.max + 1)) =
        dst.max + 1 - Min.min (src.max + 1) (dst.max + 1) := by
      apply wrap_of_fits
      unfold fits_index_t index_t_min index_t_max
      omega
    simp only [e1, e2, e3]
    have e4 : wrap (wrap (Max.max 0 (Max.max src.min dst.min - dst.min) +
        Max.max 0 (dst.max + 1 - Min.min (src.max + 1) (dst.max + 1))) +
        Max.max 0 (Min.min (src.max + 1) (dst.max + 1) - Max.max src.min dst.min)) =
        d.total_size := by
      have i1 : wrap (Max.max 0 (Max.max src.min dst.min - dst.min) +
          Max.max 0 (dst.max + 1 - Min.min (src.max + 1) (dst.max + 1))) =
          Max.max 0 (Max.max src.min dst.min - dst.min) +
          Max.max 0 (dst.max + 1 - Min.min (src.max + 1) (dst.max + 1)) := by
        apply wrap_of_fits
        unfold fits_index_t index_t_min index_t_max
        omega
      rw [i1]
      rw [wrap_of_fits]
      · omega
      · unfold fits_index_t index_t_min index_t_max
        omega
    rw [if_pos e4]
    refine ⟨_, _, rfl, ?_, ?_, ?_, ?_, rfl, rfl, rfl, ?_⟩
    · simp only; omega
    · simp only; omega
    · simp only; omega
    · simp only; omega
    · by_cases hlt : src.min < dst.min
      · simp only [hlt, if_true]
        rw [wrap_mul_wrap]
        congr 2
        omega
      · simp only [hlt, if_false]
        have : Max.max 0 (dst.min - src.min) = 0 := by omega
        rw [this, Int.mul_zero]
        rfl
  · have hc : dst.end_ ≤ src.begin ∨ src.end_ ≤ dst.begin := by
      unfold dim.overlaps at hov
      omega
    unfold compute_padding
    simp only [hc, if_true, hov, if_false]
    have e4 : wrap (wrap (d.total_size + 0) + 0) = d.total_size := by
      have hfit : fits_index_t d.total_size := by
        unfold fits_index_t index_t_min index_t_max; omega
      rw [Int.add_zero, Int.add_zero, wrap_of_fits hfit, wrap_of_fits hfit]
    rw [if_pos e4]
    refine ⟨_, _, rfl, ?_, ?_, ?_, ?_, rfl, rfl, rfl, rfl⟩
    · simp only; omega
    · simp only; omega
    · simp only; omega
    · simp only; omega

/-- Claim C39 at a concrete input: src covers `[2, 6]`, dst covers `[0, 9]` with stride 4 in
src: two indices of padding, five copied, three of padding, and no source offset since src
starts after dst. -/
theorem compute_padding_assertion_witness :
    ∃ off r, compute_padding ⟨2, 6, 4, 0⟩ ⟨0, 9, 4, 0⟩ ⟨0, 0, 0, 10, 4, 4⟩ = .ok (off, r) ∧
      0 ≤ r.pad_before ∧ 0 ≤ r.size ∧ 0 ≤ r.pad_after ∧
      r.pad_before + r.size + r.pad_after = r.total_size ∧
      r.total_size = 10 ∧ r.src_stride = 4 ∧ r.dst_stride = 4 ∧
      off = (if dim.overlaps ⟨2, 6, 4, 0⟩ ⟨0, 9, 4, 0⟩ then
        wrap (4 * Max.max 0 (dim.begin ⟨0, 9, 4, 0⟩ - dim.begin ⟨2, 6, 4, 0⟩)) else 0) :=
  compute_padding_assertion ⟨2, 6, 4, 0⟩ ⟨0, 9, 4, 0⟩ ⟨0, 0, 0, 10, 4, 4⟩ (by decide) (by decide)
    (by decide) (by decide) (by decide) (by decide)

/-- Claim C39 (as stated, refuted) at the dst dim `[INT64_MIN, INT64_MAX - 1]` and the src
dim `[0, 9]`: both have `begin <= end`, and `total_size` is the extent of dst, which is
`max - min + 1 = 2^64 - 1` reduced to `index_t`, that is -1.  The ranges overlap;
`pad_before`, `size` and `pad_after` come out as 0, 10 and `2^63 - 11`, whose sum is not
`total_size`: the assertion fails. -/
theorem compute_padding_assertion_counterexample :
    dim.begin ⟨0, 9, 4, 0⟩ ≤ dim.end_ ⟨0, 9, 4, 0⟩ ∧
    dim.begin ⟨index_t_min, index_t_max - 1, 4, 0⟩ ≤
      dim.end_ ⟨index_t_min, index_t_max - 1, 4, 0⟩ ∧
    dim.extent ⟨index_t_min, index_t_max - 1, 4, 0⟩ = -1 ∧
    compute_padding ⟨0, 9, 4, 0⟩ ⟨index_t_min, index_t_max - 1, 4, 0⟩ ⟨0, 0, 0, -1, 4, 4⟩ =
      .error .assertion := by
  refine ⟨by decide, by decide, by decide, ?_⟩
  rfl

/-! ## The default traversal of node_mutator -/

mutual
theorem node_mutator.mutate_expr_same : ∀ e : expr, node_mutator.mutate_expr e = .same
  | .var _ => rfl
  | .wildcard _ => rfl
  | .constant _ => rfl
  | .let_ _ v b => by
    simp [node_mutator.mutate_expr, node_mutator.rebuild2, node_mutator.mutate_expr_same v,
      node_mutator.mutate_expr_same b, mutation.is_same]
  | .add a b => by
    simp [node_mutator.mutate_expr, node_mutator.rebuild2, node_mutator.mutate_expr_same a,
      node_mutator.mutate_expr_same b, mutation.is_same]
  | .sub a b => by
    simp [node_mutator.mutate_expr, node_mutator.rebuild2, node_mutator.mutate_expr_same a,
      node_mutator.mutate_expr_same b, mutation.is_same]
  | .mul a b => by
    simp [node_mutator.mutate_expr, node_mutator.rebuild2, node_mutator.mutate_expr_same a,
      node_mutator.mutate_expr_same b, mutation.is_same]
  | .div a b => by
    simp [node_mutator.mutate_expr, node_mutator.rebuild2, node_mutator.mutate_expr_same a,
      node_mutator.mutate_expr_same b, mutation.is_same]
  | .mod a b => by
    simp [node_mutator.mutate_expr, node_mutator.rebuild2, node_mutator.mutate_expr_same a,
      node_mutator.mutate_expr_same b, mutation.is_same]
  | .min a b => by
    simp [node_mutator.mutate_expr, node_mutator.rebuild2, node_mutator.mutate_expr_same a,
      node_mutator.mutate_expr_same b, mutation.is_same]
  | .max a b => by
    simp [node_mutator.mutate_expr, node_mutator.rebuild2, node_mutator.mutate_expr_same a,
      node_mutator.mutate_expr_same b, mutation.is_same]
  | .equal a b => by
    simp [node_mutator.mutate_expr, node_mutator.rebuild2, node_mutator.mutate_expr_same a,
      node_mutator.mutate_expr_same b, mutation.is_same]
  | .not_equal a b => by
    simp [node_mutator.mutate_expr, node_mutator.rebuild2, node_mutator.mutate_expr_same a,
      node_mutator.mutate_expr_same b, mutation.is_same]
  | .less a b => by
    simp [node_mutator.mutate_expr, node_mutator.rebuild2, node_mutator.mutate_expr_same a,
      node_mutator.mutate_expr_same b, mutation.is_same]
  | .less_equal a b => by
    simp [node_mutator.mutate_expr, node_mutator.rebuild2, node_mutator.mutate_expr_same a,
      node_mutator.mutate_expr_same b, mutation.is_same]
  | .logical_and a b => by
    simp [node_mutator.mutate_expr, node_mutator.rebuild2, node_mutator.mutate_expr_same a,
      node_mutator.mutate_expr_same b, mutation.is_same]
  | .logical_or a b => by
    simp [node_mutator.mutate_expr, node_mutator.rebuild2, node_mutator.mutate_expr_same a,
      node_mutator.mutate_expr_same b, mutation.is_same]
  | .logical_not a => by
    simp [node_mutator.mutate_expr, node_mutator.mutate_expr_same a]
  | .select c t f => by
    simp [node_mutator.mutate_expr, node_mutator.mutate_expr_same c,
      node_mutator.mutate_expr_same t, node_mutator.mutate_expr_same f, mutation.is_same]
  | .call _ args => by
    simp [node_mutator.mutate_expr, (node_mutator.mutate_args_same args).1]
theorem node_mutator.mutate_args_same : ∀ args : List expr,
    (node_mutator.mutate_args args).1 = false ∧ (node_mutator.mutate_args args).2 = args
  | [] => ⟨rfl, rfl⟩
  | a :: as => by
    simp [node_mutator.mutate_args, node_mutator.mutate_expr_same a,
      (node_mutator.mutate_args_same as).1, (node_mutator.mutate_args_same as).2,
      mutation.is_same, mutation.node]
end

theorem node_mutator.allocate_dims_same (f : expr → mutation expr) (hf : ∀ e, f e = .same) :
    ∀ (dims : List dim_expr) (changed : Bool),
      node_mutator.allocate_dims f dims changed = (dims, changed)
  | [], _ => rfl
  | d :: ds, changed => by
    simp [node_mutator.allocate_dims, node_mutator.mutate_dim, hf, mutation.is_same,
      mutation.node, node_mutator.allocate_dims_same f hf ds]

theorem node_mutator.mutate_stmt_same (f : expr → mutation expr) (hf : ∀ e, f e = .same) :
    ∀ s : stmt, s.bare_buffers = true → node_mutator.mutate_stmt f s = .same
  | .let_stmt _ _ body, h => by
    simp only [stmt.bare_buffers] at h
    simp [node_mutator.mutate_stmt, node_mutator.rebuild2, hf, mutation.is_same,
      node_mutator.mutate_stmt_same f hf body h]
  | .block a b, h => by
    simp only [stmt.bare_buffers, Bool.and_eq_true] at h
    simp [node_mutator.mutate_stmt, node_mutator.rebuild2, mutation.is_same,
      node_mutator.mutate_stmt_same f hf a h.1, node_mutator.mutate_stmt_same f hf b h.2]
  | .loop _ _ _ _ body, h => by
    simp only [stmt.bare_buffers] at h
    simp [node_mutator.mutate_stmt, hf, mutation.is_same,
      node_mutator.mutate_stmt_same f hf body h]
  | .if_then_else _ none none, _ => by
    simp [node_mutator.mutate_stmt, hf, mutation.is_same]
  | .if_then_else _ (some t) none, h => by
    simp only [stmt.bare_buffers, Bool.and_eq_true] at h
    simp [node_mutator.mutate_stmt, hf, mutation.is_same,
      node_mutator.mutate_stmt_same f hf t h.1]
  | .if_then_else _ none (some e), h => by
    simp only [stmt.bare_buffers, Bool.and_eq_true] at h
    simp [node_mutator.mutate_stmt, hf, mutation.is_same,
      node_mutator.mutate_stmt_same f hf e h.2]
  | .if_then_else _ (some t) (some e), h => by
    simp only [stmt.bare_buffers, Bool.and_eq_true] at h
    simp [node_mutator.mutate_stmt, hf, mutation.is_same,
      node_mutator.mutate_stmt_same f hf t h.1, node_mutator.mutate_stmt_same f hf e h.2]
  | .call_func _, _ => rfl
  | .allocate _ _ _ dims body, h => by
    simp only [stmt.bare_buffers] at h
    simp [node_mutator.mutate_stmt, node_mutator.allocate_dims_same f hf, mutation.is_same,
      node_mutator.mutate_stmt_same f hf body h]
  | .make_buffer _ _ _ dims body, h => by
    simp only [stmt.bare_buffers, Bool.and_eq_true, List.isEmpty_iff] at h
    simp [node_mutator.mutate_stmt, h.1, node_mutator.make_buffer_dims, hf, mutation.is_same,
      node_mutator.mutate_stmt_same f hf body h.2]
  | .crop_buffer _ bounds body, h => by
    simp only [stmt.bare_buffers, Bool.and_eq_true, List.isEmpty_iff] at h
    simp [node_mutator.mutate_stmt, h.1, node_mutator.crop_buffer_bounds, mutation.is_same,
      node_mutator.mutate_stmt_same f hf body h.2]
  | .crop_dim _ _ _ _ _ body, h => by
    simp only [stmt.bare_buffers] at h
    simp [node_mutator.mutate_stmt, hf, mutation.is_same,
      node_mutator.mutate_stmt_same f hf body h]
  | .slice_buffer _ at_ body, h => by
    simp only [stmt.bare_buffers, Bool.and_eq_true, List.isEmpty_iff] at h
    simp [node_mutator.mutate_stmt, h.1, node_mutator.slice_buffer_at, mutation.is_same,
      node_mutator.mutate_stmt_same f hf body h.2]
  | .slice_dim _ _ _ body, h => by
    simp only [stmt.bare_buffers] at h
    simp [node_mutator.mutate_stmt, hf, mutation.is_same,
      node_mutator.mutate_stmt_same f hf body h]
  | .truncate_rank _ _ body, h => by
    simp only [stmt.bare_buffers] at h
    simp [node_mutator.mutate_stmt, node_mutator.mutate_stmt_same f hf body h]
  | .check none, _ => rfl
  | .check (some c), _ => by
    simp [node_mutator.mutate_stmt, mutation.of_option, hf]

/-- Claim C36 at the failing inputs.  With no override every expression comes back as the
very same node, and so does every statement in which no `make_buffer`, `crop_buffer` or
`slice_buffer` has a dim, a bound or an index.  But `visit(const make_buffer*)`,
`visit(const crop_buffer*)` and `visit(const slice_buffer*)` set `changed = changed ||
x.same_as(i)`, without the negation that `visit(const allocate*)` has: as soon as one dim,
bound or index comes back the same, `changed` is true and the visitor returns a newly made
node (an equal tree, but not the node it was given).  The same statements around an
`allocate`, or with no dims, come back as the same node. -/
theorem mutator_identity_failing_input :
    (∀ e : expr, node_mutator.mutate_expr e = .same) ∧
    (∀ s : stmt, s.bare_buffers = true →
      node_mutator.mutate_stmt node_mutator.mutate_expr s = .same) ∧
    node_mutator.mutate_stmt node_mutator.mutate_expr
        (.crop_buffer 0 [(some (.var 1), some (.var 2))] (.call_func 0)) =
      .fresh (.crop_buffer 0 [(some (.var 1), some (.var 2))] (.call_func 0)) ∧
    node_mutator.mutate_stmt node_mutator.mutate_expr
        (.slice_buffer 0 [some (.var 1)] (.call_func 0)) =
      .fresh (.slice_buffer 0 [some (.var 1)] (.call_func 0)) ∧
    node_mutator.mutate_stmt node_mutator.mutate_expr
        (.make_buffer 0 (.var 3) (.constant 4) [⟨.constant 0, .var 1, .constant 4, .constant 0⟩]
          (.call_func 0)) =
      .fresh (.make_buffer 0 (.var 3) (.constant 4)
        [⟨.constant 0, .var 1, .constant 4, .constant 0⟩] (.call_func 0)) ∧
    node_mutator.mutate_stmt node_mutator.mutate_expr
        (.allocate .heap 0 4 [⟨.constant 0, .var 1, .constant 4, .constant 0⟩] (.call_func 0)) =
      .same ∧
    node_mutator.mutate_stmt node_mutator.mutate_expr (.crop_buffer 0 [] (.call_func 0)) =
      .same :=
  ⟨node_mutator.mutate_expr_same,
   node_mutator.mutate_stmt_same node_mutator.mutate_expr node_mutator.mutate_expr_same,
   rfl, rfl, rfl, rfl, rfl⟩

/-- Claim C37 at the failing inputs, for the derived mutator that replaces the variable 1 by
the constant 5.  (a) In `crop_buffer(0, [(v1, v1)]) { call_func }` both bounds come back
changed, so `changed = changed || same_as` stays false, the body is the same node, and the
visitor returns the node it was given: the bounds are not rewritten.  With a second
interval `(v2, v2)`, which comes back the same, the flag is set and the node is rebuilt as
asked.  (b) In `loop(3, [0,
v1], step 2) { call_func }` the visitor rebuilds the loop with `loop::make(sym, bounds,
body)`: the step is gone. -/
theorem mutator_rebuilds_failing_input :
    node_mutator.mutate_stmt (example_mutator 1 5)
        (.crop_buffer 0 [(some (.var 1), some (.var 1))] (.call_func 0)) = .same ∧
    stmt.spec_rewrite (example_mutator 1 5)
        (.crop_buffer 0 [(some (.var 1), some (.var 1))] (.call_func 0)) =
      .crop_buffer 0 [(some (.constant 5), some (.constant 5))] (.call_func 0) ∧
    node_mutator.mutate_stmt (example_mutator 1 5)
        (.crop_buffer 0 [(some (.var 1), some (.var 1)), (some (.var 2), some (.var 2))]
          (.call_func 0)) =
      .fresh (.crop_buffer 0
        [(some (.constant 5), some (.constant 5)), (some (.var 2), some (.var 2))]
        (.call_func 0)) ∧
    node_mutator.mutate_stmt (example_mutator 1 5)
        (.loop 3 (.constant 0) (.var 1) (some (.constant 2)) (.call_func 0)) =
      .fresh (.loop 3 (.constant 0) (.constant 5) none (.call_func 0)) ∧
    stmt.spec_rewrite (example_mutator 1 5)
        (.loop 3 (.constant 0) (.var 1) (some (.constant 2)) (.call_func 0)) =
      .loop 3 (.constant 0) (.constant 5) (some (.constant 2)) (.call_func 0) :=
  ⟨rfl, rfl, rfl, rfl, rfl⟩

/-! ## A second pass of the simplifier -/

theorem simplifier.settles_pair {f : expr → symbol_map Int → mutated}
    (hs : simplifier.settles f) (a b : expr) (r : symbol_map Int)
    (x : expr × expr × symbol_map Int) (ha : a.plain = true) (hb : b.plain = true)
    (h : simplifier.mutate_pair f a b r = some x) :
    x.1.plain = true ∧ x.2.1.plain = true ∧
      ∀ r2, ∃ r3, simplifier.mutate_pair f x.1 x.2.1 r2 = some (x.1, x.2.1, r3) := by
  unfold simplifier.mutate_pair at h
  cases h1 : f a r with
  | none => simp [h1] at h
  | some p =>
    obtain ⟨a', r1⟩ := p
    rw [h1] at h
    simp only at h
    cases h2 : f b r1 with
    | none => simp [h2] at h
    | some q =>
      obtain ⟨b', r2⟩ := q
      rw [h2] at h
      simp only [Option.some.injEq] at h
      subst h
      obtain ⟨pa, fa⟩ := hs a r _ ha h1
      obtain ⟨pb, fb⟩ := hs b r1 _ hb h2
      refine ⟨pa, pb, fun r3 => ?_⟩
      obtain ⟨r4, h4⟩ := fa r3
      obtain ⟨r5, h5⟩ := fb r4
      refine ⟨r5, ?_⟩
      simp only at h4 h5
      simp only [simplifier.mutate_pair, h4, h5]

theorem simplifier.settles_list {f : expr → symbol_map Int → mutated}
    (hs : simplifier.settles f) :
    ∀ (as : List expr) (r : symbol_map Int) (x : List expr × symbol_map Int),
      expr.plain_list as = true → simplifier.mutate_list f as r = some x →
      expr.plain_list x.1 = true ∧
        ∀ r2, ∃ r3, simplifier.mutate_list f x.1 r2 = some (x.1, r3)
  | [], r, x, _, h => by
    simp only [simplifier.mutate_list, Option.some.injEq] at h
    subst h
    exact ⟨rfl, fun r2 => ⟨r2, rfl⟩⟩
  | a :: as, r, x, hp, h => by
    simp only [expr.plain_list, Bool.and_eq_true] at hp
    unfold simplifier.mutate_list at h
    cases h1 : f a r with
    | none => simp [h1] at h
    | some p =>
      obtain ⟨a', r1⟩ := p
      rw [h1] at h
      simp only at h
      cases h2 : simplifier.mutate_list f as r1 with
      | none => simp [h2] at h
      | some q =>
        obtain ⟨as', r2⟩ := q
        rw [h2] at h
        simp only [Option.some.injEq] at h
        subst h
        obtain ⟨pa, fa⟩ := hs a r _ hp.1 h1
        obtain ⟨pb, fb⟩ := simplifier.settles_list hs as r1 _ hp.2 h2
        refine ⟨by simp only [expr.plain_list, Bool.and_eq_true]; exact ⟨pa, pb⟩, fun r3 => ?_⟩
        obtain ⟨r4, h4⟩ := fa r3
        obtain ⟨r5, h5⟩ := fb r4
        refine ⟨r5, ?_⟩
        simp only at h4 h5
        simp only [simplifier.mutate_list, h4, h5]

theorem simplifier.settles_apply_rules {f : expr → symbol_map Int → mutated}
    (hs : simplifier.settles f) :
    ∀ (rules : List rule), (∀ rl ∈ rules, rule.sound rl) →
      ∀ (e : expr) (r : symbol_map Int) (x : expr × symbol_map Int), e.plain = true →
      simplifier.apply_rules f rules e r = some x →
      x.1.plain = true ∧
        ((x.1 = e ∧ ∀ r2, simplifier.apply_rules f rules e r2 = some (e, r2)) ∨
          ∀ r2, ∃ r3, f x.1 r2 = some (x.1, r3))
  | [], _, e, r, x, hp, h => by
    simp only [simplifier.apply_rules, Option.some.injEq] at h
    subst h
    exact ⟨hp, Or.inl ⟨rfl, fun r2 => rfl⟩⟩
  | rl :: rules, hr, e, r, x, hp, h => by
    have ih := simplifier.settles_apply_rules hs rules
      (fun y hy => hr y (List.mem_cons_of_mem _ hy)) e r x hp
    unfold simplifier.apply_rules at h
    cases hm : match_ rl.pattern e [] with
    | none =>
      rw [hm] at h
      simp only at h
      obtain ⟨p1, p2⟩ := ih h
      refine ⟨p1, ?_⟩
      rcases p2 with ⟨q1, q2⟩ | q
      · refine Or.inl ⟨q1, fun r2 => ?_⟩
        unfold simplifier.apply_rules
        rw [hm]
        exact q2 r2
      · exact Or.inr q
    | some mt =>
      rw [hm] at h
      simp only at h
      obtain ⟨hpat, hsound⟩ := hr rl (List.mem_cons_self _ _)
      obtain ⟨_, _, _, hpl, _, _⟩ := match_sound rl.pattern e [] mt hpat hm
      obtain ⟨h1, _⟩ := hsound mt
      have hR : (substitute rl.replacement mt).plain = true := h1 (by rw [hpl]; exact hp)
      cases hpr : rl.predicate with
      | none =>
        rw [hpr] at h
        simp only at h
        obtain ⟨p1, p2⟩ := hs _ r x hR h
        exact ⟨p1, Or.inr p2⟩
      | some pr =>
        rw [hpr] at h
        simp only at h
        cases hc : simplifier.can_prove_with f (substitute pr mt) with
        | none => simp [hc] at h
        | some b =>
          rw [hc] at h
          cases b with
          | true =>
            simp only at h
            obtain ⟨p1, p2⟩ := hs _ r x hR h
            exact ⟨p1, Or.inr p2⟩
          | false =>
            simp only at h
            obtain ⟨p1, p2⟩ := ih h
            refine ⟨p1, ?_⟩
            rcases p2 with ⟨q1, q2⟩ | q
            · refine Or.inl ⟨q1, fun r2 => ?_⟩
              unfold simplifier.apply_rules
              rw [hm]
              simp only [hpr, hc]
              exact q2 r2
            · exact Or.inr q

theorem simplifier.settles_visit {f : expr → symbol_map Int → mutated}
    (hs : simplifier.settles f) (hm : simplifier.extends_ f (simplifier.visit f)) :
    simplifier.settles (simplifier.visit f) := by
  intro e r x hp h
  have hfix : ∀ y : expr, (∀ r2, ∃ r3, f y r2 = some (y, r3)) →
      ∀ r2, ∃ r3, simplifier.visit f y r2 = some (y, r3) := by
    intro y hy r2
    obtain ⟨r3, h3⟩ := hy r2
    exact ⟨r3, hm y r2 _ h3⟩
  cases e with
  | var name =>
    simp only [simplifier.visit] at h
    have hx : x.1 = .var name := by
      split at h <;> (simp only [Option.some.injEq] at h; rw [← h])
    rw [hx]
    refine ⟨rfl, fun r2 => ?_⟩
    simp only [simplifier.visit]
    split
    · exact ⟨_, rfl⟩
    · exact ⟨_, rfl⟩
  | wildcard w => simp [expr.plain] at hp
  | constant v =>
    simp only [simplifier.visit, Option.some.injEq] at h
    subst h
    exact ⟨rfl, fun r2 => ⟨r2, rfl⟩⟩
  | let_ name v b => simp [expr.plain] at hp
  | logical_not a =>
    simp only [expr.plain] at hp
    simp only [simplifier.visit] at h
    cases ha : f a r with
    | none => simp [ha] at h
    | some p =>
      obtain ⟨a', r1⟩ := p
      rw [ha] at h
      simp only [Option.some.injEq] at h
      subst h
      obtain ⟨pa, fa⟩ := hs a r _ hp ha
      refine ⟨by simp only [expr.plain]; exact pa, fun r2 => ?_⟩
      obtain ⟨r3, h3⟩ := fa r2
      simp only at h3
      exact ⟨r3, by simp only [simplifier.visit, h3]⟩
  | select cnd t e =>
    simp only [expr.plain, Bool.and_eq_true] at hp
    simp only [simplifier.visit] at h
    cases ha : f cnd r with
    | none => simp [ha] at h
    | some p =>
      obtain ⟨c', r1⟩ := p
      rw [ha] at h
      simp only at h
      cases hb : simplifier.mutate_pair f t e r1 with
      | none => simp [hb] at h
      | some q =>
        obtain ⟨t', e', r2⟩ := q
        rw [hb] at h
        simp only [Option.some.injEq] at h
        subst h
        obtain ⟨pc, fc⟩ := hs cnd r _ hp.1.1 ha
        obtain ⟨pt, pe, fp⟩ := simplifier.settles_pair hs t e r1 _ hp.1.2 hp.2 hb
        refine ⟨by simp only [expr.plain, Bool.and_eq_true]; exact ⟨⟨pc, pt⟩, pe⟩, fun r3 => ?_⟩
        obtain ⟨r4, h4⟩ := fc r3
        obtain ⟨r5, h5⟩ := fp r4
        simp only at h4 h5
        exact ⟨r5, by simp only [simplifier.visit, h4, h5]⟩
  | call fn args =>
    simp only [expr.plain] at hp
    simp only [simplifier.visit] at h
    cases ha : simplifier.mutate_list f args r with
    | none => simp [ha] at h
    | some p =>
      obtain ⟨args', r1⟩ := p
      rw [ha] at h
      simp only [Option.some.injEq] at h
      subst h
      obtain ⟨pa, fa⟩ := simplifier.settles_list hs args r _ hp ha
      refine ⟨by simp only [expr.plain]; exact pa, fun r2 => ?_⟩
      obtain ⟨r3, h3⟩ := fa r2
      simp only at h3
      exact ⟨r3, by simp only [simplifier.visit, h3]⟩
  | min a b | max a b | add a b | sub a b =>
    simp only [expr.plain, Bool.and_eq_true] at hp
    simp only [simplifier.visit] at h
    cases hb : simplifier.mutate_pair f a b r with
    | none => simp [hb] at h
    | some q =>
      obtain ⟨a', b', r2⟩ := q
      rw [hb] at h
      simp only at h
      obtain ⟨pa, pb, fp⟩ := simplifier.settles_pair hs a b r _ hp.1 hp.2 hb
      simp only at pa pb fp
      have hrules : ∀ rules, (∀ rl ∈ rules, rule.sound rl) → ∀ y : expr, y.plain = true →
          simplifier.apply_rules f rules y r2 = some x →
          x.1.plain = true ∧ ((x.1 = y ∧ ∀ r3, simplifier.apply_rules f rules y r3 = some (y, r3)) ∨
            ∀ r3, ∃ r4, simplifier.visit f x.1 r3 = some (x.1, r4)) := by
        intro rules hr y hy hh
        obtain ⟨p1, p2⟩ := simplifier.settles_apply_rules hs rules hr y r2 x hy hh
        refine ⟨p1, ?_⟩
        rcases p2 with p2 | p2
        · exact Or.inl p2
        · exact Or.inr (hfix _ p2)
      cases hca : is_constant a' with
      | none =>
        rw [hca] at h
        simp only at h
        have hr := hrules _ (by
            first
            | exact simplifier.min_rules_sound
            | exact simplifier.max_rules_sound
            | exact simplifier.add_rules_sound
            | exact simplifier.sub_rules_sound) _
          (by simp only [expr.plain, Bool.and_eq_true]; exact ⟨pa, pb⟩) h
        obtain ⟨p1, p2⟩ := hr
        refine ⟨p1, ?_⟩
        rcases p2 with ⟨q1, q2⟩ | q
        · intro r3
          obtain ⟨r4, h4⟩ := fp r3
          refine ⟨r4, ?_⟩
          rw [q1]
          simp only [simplifier.visit, h4, hca, q2]
        · exact q
      | some ca =>
        cases hcb : is_constant b' with
        | none =>
          rw [hca, hcb] at h
          simp only at h
          have hr := hrules _ (by
              first
              | exact simplifier.min_rules_sound
              | exact simplifier.max_rules_sound
              | exact simplifier.add_rules_sound
              | exact simplifier.sub_rules_sound) _
            (by simp only [expr.plain, Bool.and_eq_true]; exact ⟨pa, pb⟩) h
          obtain ⟨p1, p2⟩ := hr
          refine ⟨p1, ?_⟩
          rcases p2 with ⟨q1, q2⟩ | q
          · intro r3
            obtain ⟨r4, h4⟩ := fp r3
            refine ⟨r4, ?_⟩
            rw [q1]
            simp only [simplifier.visit, h4, hca, hcb, q2]
          · exact q
        | some cb =>
          rw [hca, hcb] at h
          simp only [Option.some.injEq] at h
          subst h
          exact ⟨rfl, fun r3 => ⟨r3, rfl⟩⟩
  | less a b =>
    simp only [expr.plain, Bool.and_eq_true] at hp
    simp only [simplifier.visit] at h
    cases hb : simplifier.mutate_pair f a b r with
    | none => simp [hb] at h
    | some q =>
      obtain ⟨a', b', r2⟩ := q
      rw [hb] at h
      simp only at h
      obtain ⟨pa, pb, fp⟩ := simplifier.settles_pair hs a b r _ hp.1 hp.2 hb
      simp only at pa pb fp
      cases hca : is_constant a' with
      | none =>
        rw [hca] at h
        simp only [Option.some.injEq] at h
        subst h
        refine ⟨by simp only [expr.plain, Bool.and_eq_true]; exact ⟨pa, pb⟩, fun r3 => ?_⟩
        obtain ⟨r4, h4⟩ := fp r3
        exact ⟨r4, by simp only [simplifier.visit, h4, hca]⟩
      | some ca =>
        cases hcb : is_constant b' with
        | none =>
          rw [hca, hcb] at h
          simp only [Option.some.injEq] at h
          subst h
          refine ⟨by simp only [expr.plain, Bool.and_eq_true]; exact ⟨pa, pb⟩, fun r3 => ?_⟩
          obtain ⟨r4, h4⟩ := fp r3
          exact ⟨r4, by simp only [simplifier.visit, h4, hca, hcb]⟩
        | some cb =>
          rw [hca, hcb] at h
          simp only [Option.some.injEq] at h
          subst h
          exact ⟨rfl, fun r3 => ⟨r3, rfl⟩⟩
  | mul a b | div a b | mod a b | equal a b | not_equal a b | less_equal a b
  | logical_and a b | logical_or a b =>
    simp only [expr.plain, Bool.and_eq_true] at hp
    simp only [simplifier.visit] at h
    cases hb : simplifier.mutate_pair f a b r with
    | none => simp [hb] at h
    | some q =>
      obtain ⟨a', b', r2⟩ := q
      rw [hb] at h
      simp only [Option.some.injEq] at h
      subst h
      obtain ⟨pa, pb, fp⟩ := simplifier.settles_pair hs a b r _ hp.1 hp.2 hb
      simp only at pa pb fp
      refine ⟨by simp only [expr.plain, Bool.and_eq_true]; exact ⟨pa, pb⟩, fun r3 => ?_⟩
      obtain ⟨r4, h4⟩ := fp r3
      exact ⟨r4, by simp only [simplifier.visit, h4]⟩

theorem simplifier.settles_mutate : ∀ (n : Nat), simplifier.settles (simplifier.mutate n)
  | 0 => by intro e r x _ h; simp [simplifier.mutate] at h
  | n + 1 => simplifier.settles_visit (simplifier.settles_mutate n) (simplifier.mutate_mono_succ n)

/-- Claim C38 (amended): for every expression e without `let` and `wildcard` nodes, simplify
returns one expression e' with any budget of at least the weight of e, and simplify(e') is
e' again, with the same budget: on such expressions simplify is idempotent. -/
theorem simplify_idempotent_on_plain (e : expr) (hp : e.plain = true) :
    ∃ e', ∀ fuel, e.weight ≤ fuel → simplify fuel e = some e' ∧ simplify fuel e' = some e' := by
  obtain ⟨e', r', h, _, _⟩ :=
    simplifier.mutate_sound e.weight e [] (expr.flat_lets_of_plain e hp) (Nat.le_refl _)
  obtain ⟨_, h2⟩ := simplifier.settles_mutate e.weight e [] _ hp h
  obtain ⟨r3, h3⟩ := h2 []
  simp only at h3
  refine ⟨e', fun fuel hf => ⟨?_, ?_⟩⟩
  · simp [simplify, simplifier.mutate_mono hf e [] _ h]
  · simp [simplify, simplifier.mutate_mono hf e' [] _ h3]

/-- Claim C38 at a concrete input: `min(v1 / 2, v2 / 2) + (3 - 3)`. -/
theorem simplify_idempotent_on_plain_witness :
    expr.plain (.add (.min (.div (.var 1) (.constant 2)) (.div (.var 2) (.constant 2)))
      (.sub (.constant 3) (.constant 3))) = true ∧
    ∃ e', ∀ fuel, expr.weight (.add (.min (.div (.var 1) (.constant 2))
        (.div (.var 2) (.constant 2))) (.sub (.constant 3) (.constant 3))) ≤ fuel →
      simplify fuel (.add (.min (.div (.var 1) (.constant 2)) (.div (.var 2) (.constant 2)))
        (.sub (.constant 3) (.constant 3))) = some e' ∧ simplify fuel e' = some e' :=
  ⟨by decide, simplify_idempotent_on_plain _ (by decide)⟩

/-- Claim C38 (as stated, refuted) at `let v0 = 1 in v0 + 1`: the body `v0 + 1` is simplified
first (it stays as it is), then the value 1 is substituted for `v0`, and the result `1 + 1`
is returned without another visit; simplify(1 + 1) folds to 2.  So simplify(simplify(e)) is
2 and simplify(e) is `1 + 1`. -/
theorem simplify_idempotent_counterexample :
    (∀ fuel, 3 ≤ fuel → simplify fuel (.let_ 0 (.constant 1) (.add (.var 0) (.constant 1))) =
      some (.add (.constant 1) (.constant 1))) ∧
    (∀ fuel, 2 ≤ fuel → simplify fuel (.add (.constant 1) (.constant 1)) = some (.constant 2)) ∧
    expr.add (.constant 1) (.constant 1) ≠ .constant 2 :=
  ⟨fun _ h => simplify_mono h _ _ (by decide), fun _ h => simplify_mono h _ _ (by decide),
   by decide⟩

/-! ## The pipeline builder: allocations and explicit loops -/

/-- Claim C31 at the failing input: func 0 makes buffers 1 and 2 from buffer 0, func 1 makes
buffer 3 from buffer 1, func 2 makes buffer 4 from buffer 2; the input is buffer 0 and the
outputs are buffers 3 and 4.  The build ends with `complete()` true and the body
`block(call 2, allocate(2, allocate(1, block(call 0, call 1))))`.  Buffers 1 and 2 are
produced and are no outputs, and each has one `allocate`; but the `allocate` of buffer 2
encloses the calls of func 0 and func 1 only: func 2, the consumer of buffer 2, is called
outside of it (and before the buffer exists).  No `allocate` is made for the input 0 and the
outputs 3 and 4. -/
theorem allocation_discipline_failing_input :
    (build_pipeline example_fan_graph 5 [0] [3, 4]).is_built = true ∧
    (build_pipeline example_fan_graph 5 [0] [3, 4]).calls = some [2, 0, 1] ∧
    (build_pipeline example_fan_graph 5 [0] [3, 4]).body.map
      pipeline_builder.stmt.allocates = some [2, 1] ∧
    example_fan_graph.producer 2 = some 0 ∧
    example_fan_graph.consumers 2 = [2] ∧
    (build_pipeline example_fan_graph 5 [0] [3, 4]).body.map
      (pipeline_builder.stmt.calls_under 2) = some [0, 1] ∧
    (build_pipeline example_fan_graph 5 [0] [3, 4]).body.map
      (pipeline_builder.stmt.calls_under 1) = some [0, 1] := by
  decide

theorem copy.stores_nil (m0 : memory) (es : Int) (m : memory) : copy.stores m0 es [] m = m := rfl

theorem copy.stores_cons (m0 : memory) (es : Int) (w : Int × pointer) (ws : List (Int × pointer))
    (m : memory) : copy.stores m0 es (w :: ws) m = copy.stores m0 es ws (copy.store m0 es m w) :=
  rfl

theorem copy.stores_append (m0 : memory) (es : Int) (ws vs : List (Int × pointer)) (m : memory) :
    copy.stores m0 es (ws ++ vs) m = copy.stores m0 es vs (copy.stores m0 es ws m) := by
  unfold copy.stores
  rw [List.foldl_append]

theorem copy.stores_none (m0 : memory) (es : Int) :
    ∀ (ws : List (Int × pointer)) (m : memory), (∀ w ∈ ws, w.2 = none) →
      copy.stores m0 es ws m = m
  | [], _, _ => rfl
  | w :: ws, m, h => by
    rw [copy.stores_cons]
    have hw : copy.store m0 es m w = m := by
      unfold copy.store
      rw [h w (List.mem_cons_self _ _)]
    rw [hw]
    exact copy.stores_none m0 es ws m (fun x hx => h x (List.mem_cons_of_mem _ hx))

theorem copy.safe_nil (W : Int → Prop) (es : Int) : copy.safe W es [] := by
  intro w hw; cases hw

theorem copy.safe_append {W : Int → Prop} {es : Int} {ws vs : List (Int × pointer)} :
    copy.safe W es (ws ++ vs) ↔ copy.safe W es ws ∧ copy.safe W es vs := by
  unfold copy.safe
  constructor
  · intro h
    exact ⟨fun w hw => h w (List.mem_append_left _ hw), fun w hw => h w (List.mem_append_right _ hw)⟩
  · rintro ⟨h1, h2⟩ w hw
    rcases List.mem_append.mp hw with h | h
    · exact h1 w h
    · exact h2 w h

theorem copy.safe_cons {W : Int → Prop} {es : Int} {w : Int × pointer}
    {ws : List (Int × pointer)} :
    copy.safe W es (w :: ws) ↔ copy.safe W es [w] ∧ copy.safe W es ws :=
  @copy.safe_append W es [w] ws

theorem copy.safe_of_subset {W : Int → Prop} {es : Int} {ws vs : List (Int × pointer)}
    (h : copy.safe W es vs) (hs : ∀ w ∈ ws, w ∈ vs) : copy.safe W es ws :=
  fun w hw => h w (hs w hw)

theorem copy.agrees_store {W : Int → Prop} {m0 m : memory} {es : Int} {w : Int × pointer}
    (hs : copy.safe W es [w]) (hm : memory.agrees W m m0) :
    memory.agrees W (copy.store m0 es m w) m0 := by
  intro a ha
  unfold copy.store
  cases hw : w.2 with
  | none => exact hm a ha
  | some r =>
    simp only
    by_cases hr : w.1 ≤ a ∧ a < w.1 + es
    · exfalso
      apply ha
      have := (hs w (List.mem_singleton.mpr rfl)).1 (a - w.1) (by omega) (by omega)
      have e : w.1 + (a - w.1) = a := by omega
      rw [e] at this
      exact this
    · rw [if_neg hr]
      exact hm a ha

theorem copy.agrees_stores {W : Int → Prop} {m0 : memory} {es : Int} :
    ∀ (ws : List (Int × pointer)) (m : memory), copy.safe W es ws → memory.agrees W m m0 →
      memory.agrees W (copy.stores m0 es ws m) m0
  | [], _, _, hm => hm
  | w :: ws, m, hs, hm => by
    rw [copy.stores_cons]
    have h := copy.safe_cons.mp hs
    exact copy.agrees_stores ws _ h.2 (copy.agrees_store h.1 hm)

theorem copy.amounts_to_seq {W : Int → Prop} {m0 : memory} {es : Int}
    {op1 op2 : memory → memory} {ws vs : List (Int × pointer)}
    (h1 : copy.amounts_to W m0 es op1 ws) (h2 : copy.amounts_to W m0 es op2 vs)
    (hs : copy.safe W es ws) :
    copy.amounts_to W m0 es (fun m => op2 (op1 m)) (ws ++ vs) := by
  intro m hm
  simp only
  rw [h1 m hm, h2 _ (copy.agrees_stores ws m hs hm), copy.stores_append]

theorem copy.amounts_to_id (W : Int → Prop) (m0 : memory) (es : Int) :
    copy.amounts_to W m0 es (fun m => m) [] :=
  fun _ _ => rfl

theorem memcpy_eq_store {W : Int → Prop} {m0 m : memory} {es : Int} (dst src : Int)
    (hs : copy.safe W es [(dst, some src)]) (hm : memory.agrees W m m0) :
    memcpy m dst src es = copy.store m0 es m (dst, some src) := by
  funext a
  unfold memcpy copy.store
  simp only
  by_cases hr : dst ≤ a ∧ a < dst + es
  · rw [if_pos hr, if_pos hr]
    exact hm _ ((hs _ (List.mem_singleton.mpr rfl)).2 src rfl (a - dst) (by omega) (by omega))
  · rw [if_neg hr, if_neg hr]

theorem copy.run_zero (dst stride : Int) (f : Nat → pointer) : copy.run dst stride f 0 = [] := rfl

theorem copy.run_succ (dst stride : Int) (f : Nat → pointer) (n : Nat) :
    copy.run dst stride f (n + 1) =
      (dst, f 0) :: copy.run (dst + stride) stride (fun i => f (i + 1)) n := by
  unfold copy.run
  rw [List.range_succ_eq_map, List.map_cons, List.map_map]
  congr 1
  · simp
  · apply List.map_congr_left
    intro i _
    simp only [Function.comp, Nat.succ_eq_add_one, Nat.cast_add, Nat.cast_one, Prod.mk.injEq,
      and_true]
    ring

theorem copy.run_snoc (dst stride : Int) (f : Nat → pointer) (n : Nat) :
    copy.run dst stride f (n + 1) =
      copy.run dst stride f n ++ [(dst + (n : Int) * stride, f n)] := by
  unfold copy.run
  rw [List.range_succ, List.map_append]
  rfl

theorem copy.run_congr (dst stride : Int) {f g : Nat → pointer} (n : Nat)
    (h : ∀ i, i < n → f i = g i) : copy.run dst stride f n = copy.run dst stride g n := by
  unfold copy.run
  apply List.map_congr_left
  intro i hi
  rw [h i (List.mem_range.mp hi)]

theorem copy.mem_run {dst stride : Int} {f : Nat → pointer} {n : Nat} {w : Int × pointer} :
    w ∈ copy.run dst stride f n ↔ ∃ i, i < n ∧ w = (dst + (i : Int) * stride, f i) := by
  unfold copy.run
  rw [List.mem_map]
  constructor
  · rintro ⟨i, hi, rfl⟩
    exact ⟨i, List.mem_range.mp hi, rfl⟩
  · rintro ⟨i, hi, rfl⟩
    exact ⟨i, List.mem_range.mpr hi, rfl⟩

theorem fill.loop_stores {W : Int → Prop} {m0 : memory} {es : Int} (v stride : Int) :
    ∀ (n : Nat) (dst : Int) (m : memory), memory.agrees W m m0 →
      copy.safe W es (copy.run dst stride (fun _ => some v) n) →
      fill.loop v stride es n dst m =
        copy.stores m0 es (copy.run dst stride (fun _ => some v) n) m
  | 0, _, _, _, _ => rfl
  | n + 1, dst, m, hm, hs => by
    rw [copy.run_succ] at hs ⊢
    have h := copy.safe_cons.mp hs
    unfold fill.loop
    rw [copy.stores_cons, memcpy_eq_store dst v h.1 hm]
    exact fill.loop_stores v stride n (dst + stride) _ (copy.agrees_store h.1 hm) h.2

theorem copy.loop_eq {W : Int → Prop} {m0 : memory} {es : Int} (ss ds : Int) :
    ∀ (n : Nat) (src dst : Int) (m : memory), memory.agrees W m m0 →
      copy.safe W es (copy.run dst ds (fun i => some (src + (i : Int) * ss)) n) →
      copy.loop ss ds es n src dst m =
        copy.stores m0 es (copy.run dst ds (fun i => some (src + (i : Int) * ss)) n) m
  | 0, _, _, _, _, _ => rfl
  | n + 1, src, dst, m, hm, hs => by
    have hl : copy.run dst ds (fun i => (some (src + (i : Int) * ss) : pointer)) (n + 1) =
        (dst, some src) ::
          copy.run (dst + ds) ds (fun i => (some (src + ss + (i : Int) * ss) : pointer)) n := by
      rw [copy.run_succ]
      congr 1
      · simp
      · apply copy.run_congr
        intro i _
        simp only [Nat.cast_add, Nat.cast_one, Option.some.injEq]
        ring
    rw [hl] at hs ⊢
    have h := copy.safe_cons.mp hs
    unfold copy.loop
    rw [copy.stores_cons, memcpy_eq_store dst src h.1 hm]
    exact copy.loop_eq ss ds n (src + ss) (dst + ds) _ (copy.agrees_store h.1 hm) h.2

theorem copy.store_apply (m0 : memory) (es : Int) (m : memory) (dst r a : Int) :
    copy.store m0 es m (dst, some r) a =
      if dst ≤ a ∧ a < dst + es then m0 (r + (a - dst)) else m a := rfl

theorem copy.stores_block (m0 : memory) (es : Int) (hes : 0 < es) (dst : Int) (g : Nat → Int)
    (m : memory) (a : Int) :
    ∀ n : Nat, copy.stores m0 es (copy.run dst es (fun i => some (g i)) n) m a =
      if dst ≤ a ∧ a < dst + (n : Int) * es then
        m0 (g ((a - dst) / es).toNat + (a - dst) % es)
      else m a
  | 0 => by
    have : ¬ (dst ≤ a ∧ a < dst + ((0 : Nat) : Int) * es) := by
      simp only [Nat.cast_zero, Int.zero_mul]; omega
    rw [if_neg this]
    rfl
  | n + 1 => by
    rw [copy.run_snoc, copy.stores_append, copy.stores_cons, copy.stores_nil, copy.store_apply,
      copy.stores_block m0 es hes dst g m a n]
    have hk : ((n + 1 : Nat) : Int) * es = (n : Int) * es + es := by push_cast; ring
    rw [hk]
    generalize hkk : (n : Int) * es = k
    by_cases h1 : dst + k ≤ a ∧ a < dst + k + es
    · rw [if_pos h1]
      have hn : 0 ≤ (n : Int) := Int.ofNat_nonneg n
      have hk0 : 0 ≤ k := by rw [← hkk]; exact Int.mul_nonneg hn (Int.le_of_lt hes)
      rw [if_pos (by omega)]
      have hu := (Int.ediv_emod_unique (a := a - dst) (r := a - dst - k) (q := (n : Int)) hes).mpr
        ⟨by rw [Int.mul_comm, hkk]; omega, by omega, by omega⟩
      rw [hu.1, hu.2, Int.toNat_ofNat]
      congr 1
      omega
    · rw [if_neg h1]
      by_cases h2 : dst ≤ a ∧ a < dst + k
      · rw [if_pos h2, if_pos (by omega)]
      · rw [if_neg h2, if_neg (by omega)]

theorem fill.typed_eq {W : Int → Prop} {m0 m : memory} {es : Int} (hes : 0 < es)
    (dst v size : Int) (hsz : 0 ≤ size) (hm : memory.agrees W m m0)
    (hs : copy.safe W es (copy.run dst es (fun _ => some v) size.toNat)) :
    fill.typed m dst v es size =
      copy.stores m0 es (copy.run dst es (fun _ => some v) size.toNat) m := by
  funext a
  rw [copy.stores_block m0 es hes dst (fun _ => v) m a size.toNat]
  unfold fill.typed
  rw [Int.toNat_of_nonneg hsz]
  by_cases h : dst ≤ a ∧ a < dst + size * es
  · rw [if_pos h, if_pos h]
    apply hm
    have hpos : 0 < size := by
      by_contra hc
      have : size = 0 := by omega
      rw [this] at h
      omega
    have hmem : (dst + ((0 : Nat) : Int) * es, (some v : pointer)) ∈
        copy.run dst es (fun _ => some v) size.toNat :=
      copy.mem_run.mpr ⟨0, by omega, rfl⟩
    exact (hs _ hmem).2 v rfl _ (Int.emod_nonneg _ (by omega)) (Int.emod_lt_of_pos _ hes)
  · rw [if_neg h, if_neg h]

theorem memcpy_block_eq {W : Int → Prop} {m0 m : memory} {es : Int} (hes : 0 < es)
    (dst src : Int) (n : Nat) (hm : memory.agrees W m m0)
    (hs : copy.safe W es (copy.run dst es (fun i => some (src + (i : Int) * es)) n)) :
    memcpy m dst src ((n : Int) * es) =
      copy.stores m0 es (copy.run dst es (fun i => some (src + (i : Int) * es)) n) m := by
  funext a
  rw [copy.stores_block m0 es hes dst (fun i => src + (i : Int) * es) m a n]
  unfold memcpy
  by_cases h : dst ≤ a ∧ a < dst + (n : Int) * es
  · rw [if_pos h, if_pos h]
    have hq0 : 0 ≤ (a - dst) / es := Int.ediv_nonneg (by omega) (Int.le_of_lt hes)
    have hqn : (a - dst) / es < (n : Int) := Int.ediv_lt_of_lt_mul hes (by omega)
    have hq : (((a - dst) / es).toNat : Int) = (a - dst) / es := Int.toNat_of_nonneg hq0
    have hsum : (a - dst) / es * es + (a - dst) % es = a - dst := by
      rw [Int.mul_comm]; exact Int.ediv_add_emod _ _
    have hmem : (dst + (((a - dst) / es).toNat : Int) * es,
        (some (src + (((a - dst) / es).toNat : Int) * es) : pointer)) ∈
        copy.run dst es (fun i => some (src + (i : Int) * es)) n :=
      copy.mem_run.mpr ⟨((a - dst) / es).toNat, by omega, rfl⟩
    have hw := (hs _ hmem).2 _ rfl ((a - dst) % es) (Int.emod_nonneg _ (by omega))
      (Int.emod_lt_of_pos _ hes)
    rw [hq] at hw ⊢
    have e : src + (a - dst) / es * es + (a - dst) % es = src + (a - dst) := by omega
    rw [e] at hw ⊢
    exact hm _ hw
  · rw [if_neg h, if_neg h]

theorem fits_mul_of_le {a b s : Int} (h0 : 0 ≤ a) (hab : a ≤ b) (hf : fits_index_t (b * s)) :
    fits_index_t (a * s) := by
  unfold fits_index_t index_t_min index_t_max at hf ⊢
  rcases Int.le_total 0 s with hs | hs
  · have h1 : a * s ≤ b * s := Int.mul_le_mul_of_nonneg_right hab hs
    have h2 : 0 ≤ a * s := Int.mul_nonneg h0 hs
    omega
  · have h1 : b * s ≤ a * s := Int.mul_le_mul_of_nonpos_right hab hs
    have h2 : a * s ≤ 0 := Int.mul_nonpos_of_nonneg_of_nonpos h0 hs
    omega

theorem fill.dense_eq {W : Int → Prop} {m0 m : memory} {es : Int} (hes : 0 < es)
    (dst : Int) (value : pointer) (size : Int) (hsz : 0 ≤ size) (hm : memory.agrees W m m0)
    (hs : copy.safe W es (copy.run dst es (fun _ => value) size.toNat)) :
    fill.dense m dst es value size =
      copy.stores m0 es (copy.run dst es (fun _ => value) size.toNat) m := by
  cases value with
  | none =>
    rw [copy.stores_none]
    · rfl
    · intro w hw
      obtain ⟨i, _, rfl⟩ := copy.mem_run.mp hw
      rfl
  | some v =>
    unfold fill.dense
    simp only
    by_cases ht : es = 1 ∨ es = 2 ∨ es = 4 ∨ es = 8
    · rw [if_pos ht]
      exact fill.typed_eq hes dst v size hsz hm hs
    · rw [if_neg ht]
      exact fill.loop_stores v es size.toNat dst m hm hs

theorem fill.strided_stores {W : Int → Prop} {m0 m : memory} {es : Int}
    (dst stride : Int) (value : pointer) (size : Int) (hm : memory.agrees W m m0)
    (hs : copy.safe W es (copy.run dst stride (fun _ => value) size.toNat)) :
    fill.strided m dst stride es value size =
      copy.stores m0 es (copy.run dst stride (fun _ => value) size.toNat) m := by
  cases value with
  | none =>
    rw [copy.stores_none]
    · rfl
    · intro w hw
      obtain ⟨i, _, rfl⟩ := copy.mem_run.mp hw
      rfl
  | some v =>
    unfold fill.strided
    exact fill.loop_stores v stride size.toNat dst m hm hs

theorem copy.strided_eq {W : Int → Prop} {m0 m : memory} {es : Int}
    (src ss dst ds size : Int) (hm : memory.agrees W m m0)
    (hs : copy.safe W es (copy.run dst ds (fun i => some (src + (i : Int) * ss)) size.toNat)) :
    copy.strided m src ss dst ds es size =
      copy.stores m0 es (copy.run dst ds (fun i => some (src + (i : Int) * ss)) size.toNat) m := by
  unfold copy.strided
  exact copy.loop_eq ss ds size.toNat src dst m hm hs

theorem copy.dense_middle_eq {W : Int → Prop} {m0 m : memory} {es : Int} (hes : 0 < es)
    (d : copy_dim) (hd : d.ok) (hstride : d.dst_stride = es) (s : Int) (dst1 : Int)
    (hm : memory.agrees W m m0)
    (hs : copy.safe W es (copy.run dst1 d.dst_stride
      (fun i => some (s + (i : Int) * d.src_stride)) d.size.toNat)) :
    (if d.src_stride = es then memcpy m dst1 s (wrap (d.size * es))
    else if d.src_stride = 0 then fill.dense m dst1 es (some s) d.size
    else copy.strided m s d.src_stride dst1 d.dst_stride es d.size) =
    copy.stores m0 es (copy.run dst1 d.dst_stride
      (fun i => some (s + (i : Int) * d.src_stride)) d.size.toNat) m := by
  obtain ⟨h0pb, h0s, h0pa, hsum, hfd, hfs⟩ := hd
  rw [hstride] at hs ⊢
  by_cases h1 : d.src_stride = es
  · rw [if_pos h1]
    rw [h1] at hs ⊢
    have hw : wrap (d.size * es) = (d.size.toNat : Int) * es := by
      rw [Int.toNat_of_nonneg h0s]
      apply wrap_of_fits
      rw [← hstride]
      exact fits_mul_of_le h0s (by omega) hfd
    rw [hw]
    exact memcpy_block_eq hes dst1 s d.size.toNat hm hs
  · rw [if_neg h1]
    by_cases h2 : d.src_stride = 0
    · rw [if_pos h2]
      rw [h2] at hs ⊢
      have hc : copy.run dst1 es (fun i => (some (s + (i : Int) * 0) : pointer)) d.size.toNat =
          copy.run dst1 es (fun _ => some s) d.size.toNat := by
        apply copy.run_congr
        intro i _
        simp
      rw [hc] at hs ⊢
      exact fill.dense_eq hes dst1 (some s) d.size h0s hm hs
    · rw [if_neg h2]
      exact copy.strided_eq s d.src_stride dst1 es d.size hm hs

theorem copy.run_toNat_zero (dst stride : Int) (f : Nat → pointer) {n : Int} (h : ¬ 0 < n) :
    copy.run dst stride f n.toNat = [] := by
  have : n.toNat = 0 := by omega
  rw [this]; rfl

theorem copy.dense_row_eq {W : Int → Prop} {m0 : memory} {es : Int} (hes : 0 < es)
    (d : copy_dim) (hd : d.ok) (hstride : d.dst_stride = es) (padding src : pointer) (dst : Int)
    (hs : copy.safe W es (copy.row_writes d padding src dst)) :
    copy.amounts_to W m0 es (copy.dense_row d es padding src dst)
      (copy.row_writes d padding src dst) := by
  intro m hm
  have hd0 := hd
  obtain ⟨h0pb, h0s, h0pa, hsum, hfd, hfs⟩ := hd
  unfold copy.row_writes at hs ⊢
  obtain ⟨hs12, hs3⟩ := copy.safe_append.mp hs
  obtain ⟨hs1, hs2⟩ := copy.safe_append.mp hs12
  have hw1 : wrap (d.pad_before * d.dst_stride) = d.pad_before * d.dst_stride :=
    wrap_of_fits (fits_mul_of_le h0pb (by omega) hfd)
  have hw2 : wrap (d.size * d.dst_stride) = d.size * d.dst_stride :=
    wrap_of_fits (fits_mul_of_le h0s (by omega) hfd)
  have hdst1 : (if 0 < d.pad_before then dst + wrap (d.pad_before * d.dst_stride) else dst) =
      dst + d.pad_before * d.dst_stride := by
    by_cases hp : 0 < d.pad_before
    · rw [if_pos hp, hw1]
    · rw [if_neg hp]
      have : d.pad_before = 0 := by omega
      rw [this]; simp
  have hdst2 : (if d.src_stride = es ∨ d.src_stride = 0 then
        dst + d.pad_before * d.dst_stride + wrap (d.size * es)
      else dst + d.pad_before * d.dst_stride + wrap (d.size * d.dst_stride)) =
      dst + (d.pad_before + d.size) * d.dst_stride := by
    rw [← hstride, hw2]
    simp only [ite_self]
    ring
  have hm1 : (if 0 < d.pad_before then fill.dense m dst es padding d.pad_before else m) =
      copy.stores m0 es (copy.run dst d.dst_stride (fun _ => padding) d.pad_before.toNat) m := by
    by_cases hp : 0 < d.pad_before
    · rw [if_pos hp]
      rw [hstride] at hs1 ⊢
      exact fill.dense_eq hes dst padding d.pad_before h0pb hm hs1
    · rw [if_neg hp, copy.run_toNat_zero _ _ _ hp]
      rfl
  have hm1a := copy.agrees_stores _ m hs1 hm
  have hfin : ∀ m2, memory.agrees W m2 m0 →
      (if 0 < d.pad_after then
        fill.dense m2 (dst + (d.pad_before + d.size) * d.dst_stride) es padding d.pad_after
      else m2) =
      copy.stores m0 es (copy.run (dst + (d.pad_before + d.size) * d.dst_stride) d.dst_stride
        (fun _ => padding) d.pad_after.toNat) m2 := by
    intro m2 hm2a
    by_cases hp : 0 < d.pad_after
    · rw [if_pos hp]
      rw [hstride] at hs3 ⊢
      exact fill.dense_eq hes _ padding d.pad_after h0pa hm2a hs3
    · rw [if_neg hp, copy.run_toNat_zero _ _ _ hp]
      rfl
  have hm2a := copy.agrees_stores _ _ hs2 hm1a
  rw [copy.stores_append, copy.stores_append, ← hfin _ hm2a]
  unfold copy.dense_row
  simp only [hdst1, hdst2, hm1]
  cases src with
  | none =>
    have hn : ∀ m1, copy.stores m0 es (copy.run (dst + d.pad_before * d.dst_stride) d.dst_stride
        (fun i => (none : pointer).map (fun s => s + (i : Int) * d.src_stride)) d.size.toNat) m1
        = m1 := by
      intro m1
      apply copy.stores_none
      intro w hw
      obtain ⟨i, _, rfl⟩ := copy.mem_run.mp hw
      rfl
    simp only [ite_self, hn]
  | some s =>
    simp only [Option.map_some'] at hs2 ⊢
    rw [← copy.dense_middle_eq hes d hd0 hstride s _ hm1a hs2]

theorem copy.strided_row_eq {W : Int → Prop} {m0 : memory} {es : Int}
    (d : copy_dim) (hd : d.ok) (padding src : pointer) (dst : Int)
    (hs : copy.safe W es (copy.row_writes d padding src dst)) :
    copy.amounts_to W m0 es (copy.strided_row d es padding src dst)
      (copy.row_writes d padding src dst) := by
  intro m hm
  obtain ⟨h0pb, h0s, h0pa, hsum, hfd, hfs⟩ := hd
  unfold copy.row_writes at hs ⊢
  obtain ⟨hs12, hs3⟩ := copy.safe_append.mp hs
  obtain ⟨hs1, hs2⟩ := copy.safe_append.mp hs12
  have hw1 : wrap (d.dst_stride * d.pad_before) = d.pad_before * d.dst_stride := by
    rw [Int.mul_comm]
    exact wrap_of_fits (fits_mul_of_le h0pb (by omega) hfd)
  have hw2 : wrap (d.size * d.dst_stride) = d.size * d.dst_stride :=
    wrap_of_fits (fits_mul_of_le h0s (by omega) hfd)
  have hdst1 : (if 0 < d.pad_before then dst + wrap (d.dst_stride * d.pad_before) else dst) =
      dst + d.pad_before * d.dst_stride := by
    by_cases hp : 0 < d.pad_before
    · rw [if_pos hp, hw1]
    · rw [if_neg hp]
      have : d.pad_before = 0 := by omega
      rw [this]; simp
  have hdst2 : dst + d.pad_before * d.dst_stride + wrap (d.size * d.dst_stride) =
      dst + (d.pad_before + d.size) * d.dst_stride := by
    rw [hw2]; ring
  have hm1 : (if 0 < d.pad_before then fill.strided m dst d.dst_stride es padding d.pad_before
      else m) =
      copy.stores m0 es (copy.run dst d.dst_stride (fun _ => padding) d.pad_before.toNat) m := by
    by_cases hp : 0 < d.pad_before
    · rw [if_pos hp]
      exact fill.strided_stores dst d.dst_stride padding d.pad_before hm hs1
    · rw [if_neg hp, copy.run_toNat_zero _ _ _ hp]
      rfl
  have hm1a := copy.agrees_stores _ m hs1 hm
  have hfin : ∀ m2, memory.agrees W m2 m0 →
      (if 0 < d.pad_after then
        fill.strided m2 (dst + (d.pad_before + d.size) * d.dst_stride) d.dst_stride es padding
          d.pad_after
      else m2) =
      copy.stores m0 es (copy.run (dst + (d.pad_before + d.size) * d.dst_stride) d.dst_stride
        (fun _ => padding) d.pad_after.toNat) m2 := by
    intro m2 hm2a
    by_cases hp : 0 < d.pad_after
    · rw [if_pos hp]
      exact fill.strided_stores _ d.dst_stride padding d.pad_after hm2a hs3
    · rw [if_neg hp, copy.run_toNat_zero _ _ _ hp]
      rfl
  have hm2a := copy.agrees_stores _ _ hs2 hm1a
  rw [copy.stores_append, copy.stores_append, ← hfin _ hm2a]
  unfold copy.strided_row
  simp only [hdst1, hdst2, hm1]
  cases src with
  | none =>
    have hn : ∀ m1, copy.stores m0 es (copy.run (dst + d.pad_before * d.dst_stride) d.dst_stride
        (fun i => (none : pointer).map (fun s => s + (i : Int) * d.src_stride)) d.size.toNat) m1
        = m1 := by
      intro m1
      apply copy.stores_none
      intro w hw
      obtain ⟨i, _, rfl⟩ := copy.mem_run.mp hw
      rfl
    simp only [hn]
  | some s =>
    simp only [Option.map_some'] at hs2 ⊢
    rw [← copy.strided_eq s d.src_stride _ d.dst_stride d.size hm1a hs2]

theorem copy.flatMap_congr_mem {α β : Type} {l : List α} {f g : α → List β}
    (h : ∀ x ∈ l, f x = g x) : l.flatMap f = l.flatMap g := by
  induction l with
  | nil => rfl
  | cons a l ih =>
    rw [List.flatMap_cons, List.flatMap_cons, h a (List.mem_cons_self _ _),
      ih (fun x hx => h x (List.mem_cons_of_mem _ hx))]

theorem copy.safe_flatMap {W : Int → Prop} {es : Int} {n : Nat}
    {ws : Nat → List (Int × pointer)} :
    copy.safe W es ((List.range n).flatMap ws) ↔ ∀ i, i < n → copy.safe W es (ws i) := by
  unfold copy.safe
  constructor
  · intro h i hi w hw
    exact h w (List.mem_flatMap.mpr ⟨i, List.mem_range.mpr hi, hw⟩)
  · intro h w hw
    obtain ⟨i, hi, hw⟩ := List.mem_flatMap.mp hw
    exact h i (List.mem_range.mp hi) w hw

theorem copy.range_succ_flatMap {β : Type} (n : Nat) (ws : Nat → List β) :
    (List.range (n + 1)).flatMap ws = ws 0 ++ (List.range n).flatMap (fun i => ws (i + 1)) := by
  rw [List.range_succ_eq_map, List.flatMap_cons, List.flatMap_map]

theorem fill.repeat_stores {W : Int → Prop} {m0 : memory} {es : Int}
    (body : Int → memory → memory) (stride : Int) :
    ∀ (n : Nat) (ws : Nat → List (Int × pointer)) (dst : Int) (m : memory),
      (∀ i, i < n → copy.amounts_to W m0 es (body (dst + (i : Int) * stride)) (ws i)) →
      (∀ i, i < n → copy.safe W es (ws i)) → memory.agrees W m m0 →
      fill.repeat_ body stride n dst m =
        (dst + (n : Int) * stride, copy.stores m0 es ((List.range n).flatMap ws) m)
  | 0, ws, dst, m, _, _, _ => by
    simp [fill.repeat_, copy.stores_nil]
  | n + 1, ws, dst, m, h, hs, hm => by
    unfold fill.repeat_
    have h0 : body dst m = copy.stores m0 es (ws 0) m := by
      have := h 0 (Nat.succ_pos n) m hm
      simpa using this
    have hm1 : memory.agrees W (body dst m) m0 := by
      rw [h0]
      exact copy.agrees_stores _ _ (hs 0 (Nat.succ_pos n)) hm
    have e : ∀ i : Nat, dst + stride + (i : Int) * stride = dst + ((i + 1 : Nat) : Int) * stride := by
      intro i; push_cast; ring
    rw [fill.repeat_stores body stride n (fun i => ws (i + 1)) (dst + stride) (body dst m)
      (fun i hi => by rw [e]; exact h (i + 1) (Nat.succ_lt_succ hi))
      (fun i hi => hs (i + 1) (Nat.succ_lt_succ hi)) hm1]
    rw [copy.range_succ_flatMap, copy.stores_append, h0, e]

theorem copy.repeat_eq {W : Int → Prop} {m0 : memory} {es : Int}
    (body : pointer → Int → memory → memory) (ss ds : Int) :
    ∀ (n : Nat) (ws : Nat → List (Int × pointer)) (src : pointer) (dst : Int) (m : memory),
      (∀ i, i < n → copy.amounts_to W m0 es
        (body (src.map (fun s => s + (i : Int) * ss)) (dst + (i : Int) * ds)) (ws i)) →
      (∀ i, i < n → copy.safe W es (ws i)) → memory.agrees W m m0 →
      copy.repeat_ body ss ds n src dst m =
        (dst + (n : Int) * ds, copy.stores m0 es ((List.range n).flatMap ws) m)
  | 0, ws, src, dst, m, _, _, _ => by
    simp [copy.repeat_, copy.stores_nil]
  | n + 1, ws, src, dst, m, h, hs, hm => by
    unfold copy.repeat_
    have h0 : body src dst m = copy.stores m0 es (ws 0) m := by
      have := h 0 (Nat.succ_pos n) m hm
      cases src <;> simpa using this
    have hm1 : memory.agrees W (body src dst m) m0 := by
      rw [h0]
      exact copy.agrees_stores _ _ (hs 0 (Nat.succ_pos n)) hm
    have e : ∀ i : Nat, dst + ds + (i : Int) * ds = dst + ((i + 1 : Nat) : Int) * ds := by
      intro i; push_cast; ring
    have e2 : ∀ i : Nat, (src.map (fun s => s + ss)).map (fun s => s + (i : Int) * ss) =
        src.map (fun s => s + ((i + 1 : Nat) : Int) * ss) := by
      intro i
      cases src with
      | none => rfl
      | some s =>
        simp only [Option.map_some']
        congr 1
        push_cast; ring
    rw [copy.repeat_eq body ss ds n (fun i => ws (i + 1)) (src.map (fun s => s + ss)) (dst + ds)
      (body src dst m)
      (fun i hi => by rw [e, e2]; exact h (i + 1) (Nat.succ_lt_succ hi))
      (fun i hi => hs (i + 1) (Nat.succ_lt_succ hi)) hm1]
    rw [copy.range_succ_flatMap, copy.stores_append, h0, e]

theorem fill.writes_of_step (cs : List (Int × Option Int)) (d : copy_dim) (value : pointer)
    (dst : Int) :
    (copy.cells_step cs d).map (fun c => (dst + c.1, value)) =
      (List.range d.total_size.toNat).flatMap
        (fun i => cs.map (fun c => (dst + (i : Int) * d.dst_stride + c.1, value))) := by
  unfold copy.cells_step
  rw [List.map_flatMap]
  apply copy.flatMap_congr_mem
  intro i _
  rw [List.map_map]
  apply List.map_congr_left
  intro c _
  simp only [Function.comp, copy_dim.shift]
  congr 1
  ring

theorem copy.range_three (a b c : Nat) :
    List.range (a + b + c) =
      List.range a ++ (List.range b).map (fun i => a + i) ++
        (List.range c).map (fun i => a + b + i) := by
  rw [List.range_add, List.range_add]

theorem copy.writes_step (cs : List (Int × Option Int)) (d : copy_dim) (hd : d.ok)
    (padding src : pointer) (dst : Int) :
    (copy.cells_step cs d).map (copy.to_write padding src dst) =
      (List.range d.pad_before.toNat).flatMap
        (fun i => cs.map (fun c => (dst + (i : Int) * d.dst_stride + c.1, padding))) ++
      (List.range d.size.toNat).flatMap
        (fun i => cs.map (copy.to_write padding (src.map (fun s => s + (i : Int) * d.src_stride))
          (dst + (d.pad_before.toNat : Int) * d.dst_stride + (i : Int) * d.dst_stride))) ++
      (List.range d.pad_after.toNat).flatMap
        (fun i => cs.map (fun c => (dst + (d.pad_before.toNat : Int) * d.dst_stride +
          (d.size.toNat : Int) * d.dst_stride + (i : Int) * d.dst_stride + c.1, padding))) := by
  obtain ⟨h0pb, h0s, h0pa, hsum, hfd, hfs⟩ := hd
  have ht : d.total_size.toNat = d.pad_before.toNat + d.size.toNat + d.pad_after.toNat := by
    omega
  have epb : (d.pad_before.toNat : Int) = d.pad_before := Int.toNat_of_nonneg h0pb
  have esz : (d.size.toNat : Int) = d.size := Int.toNat_of_nonneg h0s
  unfold copy.cells_step
  rw [ht, copy.range_three, List.flatMap_append, List.flatMap_append, List.map_append,
    List.map_append, List.flatMap_map, List.flatMap_map, List.map_flatMap, List.map_flatMap,
    List.map_flatMap]
  congr 1
  congr 1
  · apply copy.flatMap_congr_mem
    intro i hi
    have hi := List.mem_range.mp hi
    rw [List.map_map]
    apply List.map_congr_left
    intro c _
    have hc : ¬ (d.pad_before ≤ (i : Int) ∧ (i : Int) < d.pad_before + d.size) := by omega
    simp only [Function.comp, copy_dim.shift, copy.to_write, if_neg hc]
    congr 1
    ring
  · apply copy.flatMap_congr_mem
    intro i hi
    have hi := List.mem_range.mp hi
    rw [List.map_map]
    apply List.map_congr_left
    intro c _
    have hc : d.pad_before ≤ ((d.pad_before.toNat + i : Nat) : Int) ∧
        ((d.pad_before.toNat + i : Nat) : Int) < d.pad_before + d.size := by omega
    simp only [Function.comp, copy_dim.shift, copy.to_write, if_pos hc]
    congr 1
    · push_cast; ring
    · have e : ((d.pad_before.toNat + i : Nat) : Int) - d.pad_before = (i : Int) := by omega
      rw [e]
      cases c.2 with
      | none => rfl
      | some o =>
        cases src with
        | none => rfl
        | some s =>
          simp only [Option.map_some']
          congr 1
          ring
  · apply copy.flatMap_congr_mem
    intro i hi
    have hi := List.mem_range.mp hi
    rw [List.map_map]
    apply List.map_congr_left
    intro c _
    have hc : ¬ (d.pad_before ≤ ((d.pad_before.toNat + d.size.toNat + i : Nat) : Int) ∧
        ((d.pad_before.toNat + d.size.toNat + i : Nat) : Int) < d.pad_before + d.size) := by
      omega
    simp only [Function.comp, copy_dim.shift, copy.to_write, if_neg hc]
    congr 1
    push_cast; ring

theorem copy.cells_snoc (l : List copy_dim) (d : copy_dim) :
    copy.cells (l ++ [d]) = copy.cells_step (copy.cells l) d := by
  unfold copy.cells
  rw [List.foldl_append]
  rfl

theorem copy.take_succ_of_get {dims : List copy_dim} {n : Nat} {d : copy_dim}
    (h : dims.get? n = some d) : dims.take (n + 1) = dims.take n ++ [d] := by
  rw [List.take_succ, ← List.get?_eq_getElem?, h]
  rfl

theorem copy.get_of_lt {dims : List copy_dim} {n : Nat} (h : n < dims.length) :
    ∃ d, dims.get? n = some d ∧ d ∈ dims :=
  ⟨dims.get ⟨n, h⟩, List.get?_eq_get h, List.get_mem _ _ _⟩

theorem copy.singleton_map {β : Type} (cs : List (Int × Option Int)) (n : Nat)
    (f : Nat → Int × Option Int → β) (h : cs = [(0, some 0)]) :
    (List.range n).flatMap (fun i => cs.map (f i)) =
      (List.range n).map (fun i => f i (0, some 0)) := by
  subst h
  induction n with
  | zero => rfl
  | succ n ih =>
    rw [List.range_succ, List.flatMap_append, List.map_append, ih]
    rfl

theorem fill.dims_stores {W : Int → Prop} {m0 : memory} {es : Int} (hes : 0 < es)
    (dims : List copy_dim) (hok : ∀ d ∈ dims, d.ok) (value : pointer) :
    ∀ (dim : Nat), dim < dims.length → ∀ (dst : Int),
      copy.safe W es (fill.writes (dims.take (dim + 1)) value dst) →
      copy.amounts_to W m0 es (fill.dims dims es value dim dst)
        (fill.writes (dims.take (dim + 1)) value dst)
  | 0, hlt, dst, hs => by
    obtain ⟨d, hd, hmem⟩ := copy.get_of_lt hlt
    obtain ⟨h0pb, h0s, h0pa, hsum, hfd, hfs⟩ := hok d hmem
    have htake := copy.take_succ_of_get hd
    rw [List.take_zero, List.nil_append] at htake
    have hw : fill.writes (dims.take (0 + 1)) value dst =
        copy.run dst d.dst_stride (fun _ => value) d.total_size.toNat := by
      unfold fill.writes
      rw [htake]
      have : copy.cells [d] = copy.cells_step [(0, some 0)] d := rfl
      rw [this, fill.writes_of_step, copy.singleton_map _ _ _ rfl]
      unfold copy.run
      apply List.map_congr_left
      intro i _
      simp
    rw [hw] at hs ⊢
    intro m hm
    cases value with
    | none =>
      rw [copy.stores_none]
      · unfold fill.dims; rfl
      · intro w hw
        obtain ⟨i, _, rfl⟩ := copy.mem_run.mp hw
        rfl
    | some v =>
      unfold fill.dims
      simp only [hd]
      by_cases hst : d.dst_stride = es
      · rw [if_pos hst]
        rw [hst] at hs ⊢
        exact fill.dense_eq hes dst (some v) d.total_size (by omega) hm hs
      · rw [if_neg hst]
        exact fill.strided_stores dst d.dst_stride (some v) d.total_size hm hs
  | dim + 1, hlt, dst, hs => by
    obtain ⟨d, hd, hmem⟩ := copy.get_of_lt hlt
    have htake := copy.take_succ_of_get hd
    have hw : fill.writes (dims.take (dim + 1 + 1)) value dst =
        (List.range d.total_size.toNat).flatMap
          (fun i => fill.writes (dims.take (dim + 1)) value (dst + (i : Int) * d.dst_stride)) := by
      unfold fill.writes
      rw [htake, copy.cells_snoc, fill.writes_of_step]
    rw [hw] at hs ⊢
    intro m hm
    cases value with
    | none =>
      rw [copy.stores_none]
      · unfold fill.dims; rfl
      · intro w hw
        obtain ⟨i, _, hw⟩ := List.mem_flatMap.mp hw
        unfold fill.writes at hw
        obtain ⟨c, _, rfl⟩ := List.mem_map.mp hw
        rfl
    | some v =>
      unfold fill.dims
      simp only [hd]
      rw [fill.repeat_stores (fill.dims dims es (some v) dim) d.dst_stride d.total_size.toNat
        (fun i => fill.writes (dims.take (dim + 1)) (some v) (dst + (i : Int) * d.dst_stride))
        dst m
        (fun i hi => fill.dims_stores hes dims hok (some v) dim (by omega) _
          (copy.safe_flatMap.mp hs i hi))
        (copy.safe_flatMap.mp hs) hm]

theorem copy.dims_eq {W : Int → Prop} {m0 : memory} {es : Int} (hes : 0 < es)
    (dims : List copy_dim) (hok : ∀ d ∈ dims, d.ok) (padding : pointer) :
    ∀ (dim : Nat), dim < dims.length → ∀ (src : pointer) (dst : Int),
      copy.safe W es (copy.writes (dims.take (dim + 1)) padding src dst) →
      copy.amounts_to W m0 es (copy.dims dims es padding dim src dst)
        (copy.writes (dims.take (dim + 1)) padding src dst)
  | 0, hlt, src, dst, hs => by
    obtain ⟨d, hd, hmem⟩ := copy.get_of_lt hlt
    have hdok := hok d hmem
    obtain ⟨h0pb, h0s, h0pa, hsum, hfd, hfs⟩ := hok d hmem
    have htake := copy.take_succ_of_get hd
    rw [List.take_zero, List.nil_append] at htake
    have epb : (d.pad_before.toNat : Int) = d.pad_before := Int.toNat_of_nonneg h0pb
    have esz : (d.size.toNat : Int) = d.size := Int.toNat_of_nonneg h0s
    have hw : copy.writes (dims.take (0 + 1)) padding src dst =
        copy.row_writes d padding src dst := by
      unfold copy.writes
      rw [htake]
      have : copy.cells [d] = copy.cells_step [(0, some 0)] d := rfl
      rw [this, copy.writes_step _ _ hdok, copy.singleton_map _ _ _ rfl,
        copy.singleton_map _ _ _ rfl, copy.singleton_map _ _ _ rfl]
      unfold copy.row_writes copy.run
      congr 1
      congr 1
      · apply List.map_congr_left
        intro i _
        simp
      · apply List.map_congr_left
        intro i _
        simp only [copy.to_write, epb]
        congr 1
        · ring
        · cases src <;> simp
      · apply List.map_congr_left
        intro i _
        simp only [epb, esz]
        congr 1
        ring
    rw [hw] at hs ⊢
    intro m hm
    unfold copy.dims
    simp only [hd]
    by_cases hst : d.dst_stride = es
    · rw [if_pos hst]
      exact copy.dense_row_eq hes d hdok hst padding src dst hs m hm
    · rw [if_neg hst]
      exact copy.strided_row_eq d hdok padding src dst hs m hm
  | dim + 1, hlt, src, dst, hs => by
    obtain ⟨d, hd, hmem⟩ := copy.get_of_lt hlt
    have hdok := hok d hmem
    have htake := copy.take_succ_of_get hd
    have hw : copy.writes (dims.take (dim + 1 + 1)) padding src dst =
        (List.range d.pad_before.toNat).flatMap
          (fun i => fill.writes (dims.take (dim + 1)) padding (dst + (i : Int) * d.dst_stride)) ++
        (List.range d.size.toNat).flatMap
          (fun i => copy.writes (dims.take (dim + 1)) padding
            (src.map (fun s => s + (i : Int) * d.src_stride))
            (dst + (d.pad_before.toNat : Int) * d.dst_stride + (i : Int) * d.dst_stride)) ++
        (List.range d.pad_after.toNat).flatMap
          (fun i => fill.writes (dims.take (dim + 1)) padding
            (dst + (d.pad_before.toNat : Int) * d.dst_stride +
              (d.size.toNat : Int) * d.dst_stride + (i : Int) * d.dst_stride)) := by
      unfold copy.writes
      rw [htake, copy.cells_snoc, copy.writes_step _ _ hdok]
      rfl
    rw [hw] at hs ⊢
    obtain ⟨hs12, hs3⟩ := copy.safe_append.mp hs
    obtain ⟨hs1, hs2⟩ := copy.safe_append.mp hs12
    intro m hm
    unfold copy.dims
    simp only [hd]
    rw [fill.repeat_stores (fill.dims dims es padding dim) d.dst_stride d.pad_before.toNat
      (fun i => fill.writes (dims.take (dim + 1)) padding (dst + (i : Int) * d.dst_stride))
      dst m
      (fun i hi => fill.dims_stores hes dims hok padding dim (by omega) _
        (copy.safe_flatMap.mp hs1 i hi))
      (copy.safe_flatMap.mp hs1) hm]
    simp only []
    have hm1 := copy.agrees_stores _ m hs1 hm
    rw [copy.repeat_eq (copy.dims dims es padding dim) d.src_stride d.dst_stride d.size.toNat
      (fun i => copy.writes (dims.take (dim + 1)) padding
        (src.map (fun s => s + (i : Int) * d.src_stride))
        (dst + (d.pad_before.toNat : Int) * d.dst_stride + (i : Int) * d.dst_stride))
      src _ _
      (fun i hi => copy.dims_eq hes dims hok padding dim (by omega) _ _
        (copy.safe_flatMap.mp hs2 i hi))
      (copy.safe_flatMap.mp hs2) hm1]
    simp only []
    have hm2 := copy.agrees_stores _ _ hs2 hm1
    rw [fill.repeat_stores (fill.dims dims es padding dim) d.dst_stride d.pad_after.toNat
      (fun i => fill.writes (dims.take (dim + 1)) padding
        (dst + (d.pad_before.toNat : Int) * d.dst_stride +
          (d.size.toNat : Int) * d.dst_stride + (i : Int) * d.dst_stride))
      _ _
      (fun i hi => fill.dims_stores hes dims hok padding dim (by omega) _
        (copy.safe_flatMap.mp hs3 i hi))
      (copy.safe_flatMap.mp hs3) hm2]
    simp only []
    rw [copy.stores_append, copy.stores_append]

/-! ## Copying buffers: the order of the dims -/

theorem copy.store_comm (m0 : memory) (es : Int) (z : memory) (x y : Int × pointer)
    (h : x = y ∨ x.1 + es ≤ y.1 ∨ y.1 + es ≤ x.1) :
    copy.store m0 es (copy.store m0 es z x) y = copy.store m0 es (copy.store m0 es z y) x := by
  rcases h with h | h
  · rw [h]
  · obtain ⟨xd, xs⟩ := x
    obtain ⟨yd, ys⟩ := y
    simp only at h
    cases xs with
    | none => rfl
    | some xr =>
      cases ys with
      | none => rfl
      | some yr =>
        funext a
        simp only [copy.store]
        by_cases h1 : yd ≤ a ∧ a < yd + es
        · have h2 : ¬ (xd ≤ a ∧ a < xd + es) := by omega
          rw [if_pos h1, if_neg h2, if_pos h1]
        · rw [if_neg h1]
          by_cases h2 : xd ≤ a ∧ a < xd + es
          · rw [if_pos h2, if_pos h2]
          · rw [if_neg h2, if_neg h2, if_neg h1]

theorem copy.stores_perm {m0 : memory} {es : Int} {ws vs : List (Int × pointer)}
    (hp : ws.Perm vs) (hd : copy.disjoint es ws) (m : memory) :
    copy.stores m0 es ws m = copy.stores m0 es vs m := by
  unfold copy.stores
  apply List.Perm.foldl_eq' hp
  intro x hx y hy z
  apply copy.store_comm
  by_cases hxy : x = y
  · exact Or.inl hxy
  · right
    have hsym : Symmetric (fun (w v : Int × pointer) => w.1 + es ≤ v.1 ∨ v.1 + es ≤ w.1) := by
      intro a b hab
      exact hab.symm
    exact List.Pairwise.forall hsym hd hx hy hxy

theorem copy.flatMap_swap_perm {α β γ : Type} (l1 : List α) (l2 : List β)
    (f : α → β → List γ) :
    (l1.flatMap (fun a => l2.flatMap (f a))).Perm
      (l2.flatMap (fun b => l1.flatMap (fun a => f a b))) := by
  induction l1 with
  | nil =>
    simp
  | cons a l1 ih =>
    simp only [List.flatMap_cons]
    exact (List.Perm.append_left _ ih).trans (List.flatMap_append_perm l2 _ _)

theorem copy_dim.shift_comm (a b : copy_dim) (i j : Nat) (c : Int × Option Int) :
    b.shift j (a.shift i c) = a.shift i (b.shift j c) := by
  obtain ⟨c1, c2⟩ := c
  simp only [copy_dim.shift]
  congr 1
  · ring
  · cases c2 with
    | none =>
      simp only [Option.map_none', ite_self]
    | some o =>
      by_cases ha : a.pad_before ≤ (i : Int) ∧ (i : Int) < a.pad_before + a.size
      · by_cases hb : b.pad_before ≤ (j : Int) ∧ (j : Int) < b.pad_before + b.size
        · simp only [if_pos ha, if_pos hb, Option.map_some']
          congr 1
          ring
        · simp only [if_pos ha, if_neg hb, Option.map_none']
      · simp only [if_neg ha, Option.map_none', ite_self]

theorem copy.cells_step_perm {cs cs' : List (Int × Option Int)} (h : cs.Perm cs')
    (d : copy_dim) : (copy.cells_step cs d).Perm (copy.cells_step cs' d) := by
  unfold copy.cells_step
  apply List.Perm.flatMap_left
  intro i _
  exact h.map _

theorem copy.cells_step_swap (cs : List (Int × Option Int)) (a b : copy_dim) :
    (copy.cells_step (copy.cells_step cs a) b).Perm
      (copy.cells_step (copy.cells_step cs b) a) := by
  unfold copy.cells_step
  simp only [List.map_flatMap, List.map_map]
  have e : ∀ (i j : Nat), (b.shift j ∘ a.shift i) = (a.shift i ∘ b.shift j) := by
    intro i j
    funext c
    exact copy_dim.shift_comm a b i j c
  simp only [e]
  exact copy.flatMap_swap_perm _ _ (fun j i => cs.map (a.shift i ∘ b.shift j))

theorem copy.foldl_step_perm_base (l : List copy_dim) :
    ∀ {cs cs' : List (Int × Option Int)}, cs.Perm cs' →
      (l.foldl copy.cells_step cs).Perm (l.foldl copy.cells_step cs') := by
  induction l with
  | nil => intro cs cs' h; exact h
  | cons d l ih =>
    intro cs cs' h
    exact ih (copy.cells_step_perm h d)

theorem copy.foldl_step_perm {l l' : List copy_dim} (h : l.Perm l') :
    ∀ (cs : List (Int × Option Int)),
      (l.foldl copy.cells_step cs).Perm (l'.foldl copy.cells_step cs) := by
  induction h with
  | nil => intro cs; exact List.Perm.refl _
  | cons x _ ih => intro cs; exact ih _
  | swap x y l =>
    intro cs
    exact copy.foldl_step_perm_base l (copy.cells_step_swap cs y x)
  | trans _ _ ih1 ih2 => intro cs; exact (ih1 cs).trans (ih2 cs)

theorem copy.cells_perm {l l' : List copy_dim} (h : l.Perm l') :
    (copy.cells l).Perm (copy.cells l') :=
  copy.foldl_step_perm h _

theorem bubble_sort.inner_perm :
    ∀ (l : List copy_dim) (x : copy_dim),
      ((bubble_sort.inner x l).1 :: (bubble_sort.inner x l).2).Perm (x :: l)
  | [], x => List.Perm.refl _
  | y :: ys, x => by
    unfold bubble_sort.inner
    by_cases h : y.dst_stride < x.dst_stride
    · rw [if_pos h]
      simp only
      exact (List.Perm.swap _ _ _).trans
        (((bubble_sort.inner_perm ys y).cons x))
    · rw [if_neg h]
      simp only
      exact (List.Perm.swap _ _ _).trans
        (((bubble_sort.inner_perm ys x).cons y).trans (List.Perm.swap _ _ _))

theorem bubble_sort.outer_perm :
    ∀ (n : Nat) (l : List copy_dim), (bubble_sort.outer n l).Perm l
  | 0, l => List.Perm.refl _
  | _ + 1, [] => List.Perm.refl _
  | n + 1, x :: xs => by
    unfold bubble_sort.outer
    simp only
    exact ((bubble_sort.outer_perm n _).cons _).trans (bubble_sort.inner_perm xs x)

theorem bubble_sort_perm (l : List copy_dim) : (bubble_sort l).Perm l :=
  bubble_sort.outer_perm _ l

/-! ## Copying buffers: fusing dims -/

theorem copy.range_mul_flatMap {β : Type} (k : Nat) (g : Nat → List β) :
    ∀ (n : Nat), (List.range (n * k)).flatMap g =
      (List.range n).flatMap (fun j => (List.range k).flatMap (fun i => g (j * k + i)))
  | 0 => by simp
  | n + 1 => by
    rw [Nat.succ_mul, List.range_add, List.flatMap_append, copy.range_mul_flatMap k g n,
      List.range_succ, List.flatMap_append, List.flatMap_map]
    simp

theorem copy.mul_le_iff {p j i a : Int} (h0 : 0 ≤ i) (h1 : i < a) :
    p * a ≤ j * a + i ↔ p ≤ j := by
  constructor
  · intro h
    by_contra hc
    have h2 : j + 1 ≤ p := by omega
    have h3 : (j + 1) * a ≤ p * a := Int.mul_le_mul_of_nonneg_right h2 (by omega)
    have h4 : (j + 1) * a = j * a + a := by ring
    omega
  · intro h
    have h3 : p * a ≤ j * a := Int.mul_le_mul_of_nonneg_right h (by omega)
    omega

theorem copy.mul_lt_iff {q j i a : Int} (h0 : 0 ≤ i) (h1 : i < a) :
    j * a + i < q * a ↔ j < q := by
  constructor
  · intro h
    by_contra hc
    have h2 : q ≤ j := by omega
    have h3 : q * a ≤ j * a := Int.mul_le_mul_of_nonneg_right h2 (by omega)
    omega
  · intro h
    have h2 : j + 1 ≤ q := by omega
    have h3 : (j + 1) * a ≤ q * a := Int.mul_le_mul_of_nonneg_right h2 (by omega)
    have h4 : (j + 1) * a = j * a + a := by ring
    omega

theorem copy.toNat_mul {a b : Int} (ha : 0 ≤ a) (hb : 0 ≤ b) :
    (a * b).toNat = a.toNat * b.toNat := by
  obtain ⟨n, rfl⟩ := Int.eq_ofNat_of_zero_le ha
  obtain ⟨k, rfl⟩ := Int.eq_ofNat_of_zero_le hb
  show ((n : Int) * (k : Int)).toNat = (n : Int).toNat * (k : Int).toNat
  rw [Int.toNat_natCast, Int.toNat_natCast, ← Nat.cast_mul, Int.toNat_natCast]

theorem copy.cells_step_fuse (cs : List (Int × Option Int)) (a b : copy_dim)
    (ha : a.ok) (hb : b.ok) (hf : copy_dim.fusable a b = true)
    (hfit : b.total_size * a.size ≤ index_t_max) :
    copy.cells_step cs (copy_dim.fuse a b) = copy.cells_step (copy.cells_step cs a) b := by
  obtain ⟨a0pb, a0s, a0pa, asum, afd, afs⟩ := ha
  obtain ⟨b0pb, b0s, b0pa, bsum, bfd, bfs⟩ := hb
  unfold copy_dim.fusable at hf
  have hf := of_decide_eq_true hf
  obtain ⟨hpb, hpa, hds, hss⟩ := hf
  have hsz : a.size = a.total_size := by omega
  have hbt : 0 ≤ b.total_size := by omega
  have hds0 : wrap (a.dst_stride * a.total_size) = a.dst_stride * a.total_size := by
    rw [Int.mul_comm]; exact wrap_of_fits afd
  have hss0 : wrap (a.src_stride * a.total_size) = a.src_stride * a.total_size := by
    rw [Int.mul_comm]; exact wrap_of_fits afs
  rw [hds0] at hds
  rw [hss0] at hss
  have hle : ∀ x, 0 ≤ x → x ≤ b.total_size → wrap (x * a.size) = x * a.size := by
    intro x hx0 hx
    apply wrap_of_fits
    have h1 : x * a.size ≤ b.total_size * a.size := Int.mul_le_mul_of_nonneg_right hx a0s
    have h2 : 0 ≤ x * a.size := Int.mul_nonneg hx0 a0s
    unfold fits_index_t index_t_min
    unfold index_t_max at hfit ⊢
    omega
  have htot : (copy_dim.fuse a b).total_size.toNat = b.total_size.toNat * a.total_size.toNat := by
    simp only [copy_dim.fuse]
    rw [hle _ hbt (Int.le_refl _), hsz, copy.toNat_mul hbt (by omega)]
  unfold copy.cells_step
  rw [htot, copy.range_mul_flatMap]
  apply copy.flatMap_congr_mem
  intro j hj
  rw [List.map_flatMap]
  apply copy.flatMap_congr_mem
  intro i hi
  have hi := List.mem_range.mp hi
  rw [List.map_map]
  apply List.map_congr_left
  intro c _
  have eA : (a.total_size.toNat : Int) = a.total_size := Int.toNat_of_nonneg (by omega)
  have hi0 : (0 : Int) ≤ (i : Int) := Int.ofNat_nonneg i
  have hi1 : (i : Int) < a.total_size := by omega
  have ca : a.pad_before ≤ (i : Int) ∧ (i : Int) < a.pad_before + a.size := by omega
  have cf : (wrap (b.pad_before * a.size) ≤ ((j * a.total_size.toNat + i : Nat) : Int) ∧
      ((j * a.total_size.toNat + i : Nat) : Int) <
        wrap (b.pad_before * a.size) + wrap (b.size * a.size)) ↔
      (b.pad_before ≤ (j : Int) ∧ (j : Int) < b.pad_before + b.size) := by
    rw [hle _ b0pb (by omega), hle _ b0s (by omega), hsz]
    push_cast
    rw [eA, ← Int.add_mul, copy.mul_le_iff hi0 hi1, copy.mul_lt_iff hi0 hi1]
  obtain ⟨c1, c2⟩ := c
  simp only [Function.comp, copy_dim.shift, copy_dim.fuse, if_pos ca]
  congr 1
  · push_cast
    rw [eA, hds]
    ring
  · by_cases cb : b.pad_before ≤ (j : Int) ∧ (j : Int) < b.pad_before + b.size
    · rw [if_pos cb, if_pos (cf.mpr cb)]
      cases c2 with
      | none => rfl
      | some o =>
        simp only [Option.map_some']
        congr 1
        rw [hle _ b0pb (by omega), hsz, hss, hpb]
        push_cast
        rw [eA]
        ring
    · rw [if_neg cb, if_neg (fun h => cb (cf.mp h))]

theorem copy_dim.volume_pos : ∀ (l : List copy_dim), 1 ≤ copy_dim.volume l
  | [] => by decide
  | d :: l => by
    have ih := copy_dim.volume_pos l
    have e : copy_dim.volume (d :: l) = Max.max 1 d.total_size * copy_dim.volume l := by
      simp [copy_dim.volume]
    rw [e]
    have h1 : 1 ≤ Max.max 1 d.total_size := le_max_left _ _
    nlinarith

theorem copy_dim.volume_cons (d : copy_dim) (l : List copy_dim) :
    copy_dim.volume (d :: l) = Max.max 1 d.total_size * copy_dim.volume l := by
  simp [copy_dim.volume]

theorem copy_dim.total_cons (d : copy_dim) (l : List copy_dim) :
    copy_dim.total (d :: l) = d.total_size * copy_dim.total l := by
  simp [copy_dim.total]

theorem copy_dim.volume_tail (d : copy_dim) (l : List copy_dim) :
    copy_dim.volume l ≤ copy_dim.volume (d :: l) := by
  rw [copy_dim.volume_cons]
  have h1 : 1 ≤ Max.max 1 d.total_size := le_max_left _ _
  have h2 := copy_dim.volume_pos l
  nlinarith

theorem copy_dim.fuse_fits {a b : copy_dim} {rest : List copy_dim} (ha : a.ok) (hb : b.ok)
    (hv : copy_dim.volume (a :: b :: rest) ≤ index_t_max) :
    b.total_size * a.size ≤ index_t_max := by
  obtain ⟨a0pb, a0s, a0pa, asum, afd, afs⟩ := ha
  obtain ⟨b0pb, b0s, b0pa, bsum, bfd, bfs⟩ := hb
  rw [copy_dim.volume_cons, copy_dim.volume_cons] at hv
  have h1 : 1 ≤ Max.max 1 a.total_size := le_max_left _ _
  have h2 : 1 ≤ Max.max 1 b.total_size := le_max_left _ _
  have h3 : a.total_size ≤ Max.max 1 a.total_size := le_max_right _ _
  have h4 : b.total_size ≤ Max.max 1 b.total_size := le_max_right _ _
  have h5 := copy_dim.volume_pos rest
  have h6 : a.size ≤ Max.max 1 a.total_size := by omega
  have h7 : 0 ≤ b.total_size := by omega
  have h8 : b.total_size * a.size ≤ Max.max 1 b.total_size * Max.max 1 a.total_size :=
    Int.mul_le_mul h4 h6 a0s (by omega)
  have h9 : Max.max 1 b.total_size * Max.max 1 a.total_size ≤
      Max.max 1 a.total_size * (Max.max 1 b.total_size * copy_dim.volume rest) := by
    nlinarith [Int.mul_nonneg (show (0 : Int) ≤ Max.max 1 a.total_size by omega)
      (show (0 : Int) ≤ Max.max 1 b.total_size by omega)]
  omega

theorem copy_dim.fuse_ok {a b : copy_dim} (ha : a.ok) (hb : b.ok)
    (hf : copy_dim.fusable a b = true) (hfit : b.total_size * a.size ≤ index_t_max) :
    (copy_dim.fuse a b).ok ∧
      (copy_dim.fuse a b).total_size = b.total_size * a.total_size := by
  obtain ⟨a0pb, a0s, a0pa, asum, afd, afs⟩ := ha
  obtain ⟨b0pb, b0s, b0pa, bsum, bfd, bfs⟩ := hb
  unfold copy_dim.fusable at hf
  have hf := of_decide_eq_true hf
  obtain ⟨hpb, hpa, hds, hss⟩ := hf
  have hsz : a.size = a.total_size := by omega
  have hbt : 0 ≤ b.total_size := by omega
  have hds0 : wrap (a.dst_stride * a.total_size) = a.dst_stride * a.total_size := by
    rw [Int.mul_comm]; exact wrap_of_fits afd
  have hss0 : wrap (a.src_stride * a.total_size) = a.src_stride * a.total_size := by
    rw [Int.mul_comm]; exact wrap_of_fits afs
  rw [hds0] at hds
  rw [hss0] at hss
  have hle : ∀ x, 0 ≤ x → x ≤ b.total_size → wrap (x * a.size) = x * a.size := by
    intro x hx0 hx
    apply wrap_of_fits
    have h1 : x * a.size ≤ b.total_size * a.size := Int.mul_le_mul_of_nonneg_right hx a0s
    have h2 : 0 ≤ x * a.size := Int.mul_nonneg hx0 a0s
    unfold fits_index_t index_t_min
    unfold index_t_max at hfit ⊢
    omega
  unfold copy_dim.ok
  simp only [copy_dim.fuse]
  rw [hle _ b0pb (by omega), hle _ b0s (by omega), hle _ b0pa (by omega),
    hle _ hbt (Int.le_refl _)]
  refine ⟨⟨Int.mul_nonneg b0pb a0s, Int.mul_nonneg b0s a0s, Int.mul_nonneg b0pa a0s, ?_, ?_, ?_⟩,
    by rw [hsz]⟩
  · rw [← bsum]; ring
  · have e : b.total_size * a.size * a.dst_stride = b.total_size * b.dst_stride := by
      rw [hds, hsz]; ring
    rw [e]; exact bfd
  · have e : b.total_size * a.size * a.src_stride = b.total_size * b.src_stride := by
      rw [hss, hsz]; ring
    rw [e]; exact bfs

theorem copy_dim.volume_fuse {a b : copy_dim} (rest : List copy_dim) (ha : a.ok) (hb : b.ok)
    (ht : (copy_dim.fuse a b).total_size = b.total_size * a.total_size) :
    copy_dim.volume (copy_dim.fuse a b :: rest) ≤ copy_dim.volume (a :: b :: rest) := by
  obtain ⟨a0pb, a0s, a0pa, asum, afd, afs⟩ := ha
  obtain ⟨b0pb, b0s, b0pa, bsum, bfd, bfs⟩ := hb
  rw [copy_dim.volume_cons, copy_dim.volume_cons, copy_dim.volume_cons, ht, ← Int.mul_assoc]
  have h5 := copy_dim.volume_pos rest
  apply Int.mul_le_mul_of_nonneg_right _ (by omega)
  have h1 : 1 ≤ Max.max 1 a.total_size := le_max_left _ _
  have h2 : 1 ≤ Max.max 1 b.total_size := le_max_left _ _
  have h3 : a.total_size ≤ Max.max 1 a.total_size := le_max_right _ _
  have h4 : b.total_size ≤ Max.max 1 b.total_size := le_max_right _ _
  have h8 : b.total_size * a.total_size ≤ Max.max 1 b.total_size * Max.max 1 a.total_size :=
    Int.mul_le_mul h4 h3 (by omega) (by omega)
  apply max_le
  · nlinarith
  · rw [Int.mul_comm (Max.max 1 a.total_size)]; exact h8

theorem optimize_copy_dims.fuse_loop_spec :
    ∀ (budget : Nat) (l : List copy_dim), l.length < budget → (∀ d ∈ l, d.ok) →
      copy_dim.volume l ≤ index_t_max →
      ∃ l', optimize_copy_dims.fuse_loop budget l = .ok l' ∧ (∀ d ∈ l', d.ok) ∧
        (∀ cs, l'.foldl copy.cells_step cs = l.foldl copy.cells_step cs) ∧
        l'.length ≤ l.length ∧ (l ≠ [] → l' ≠ []) ∧ copy_dim.total l' = copy_dim.total l
  | 0, _, hb, _, _ => absurd hb (Nat.not_lt_zero _)
  | _ + 1, [], _, hok, _ => ⟨[], rfl, hok, fun _ => rfl, Nat.le_refl _, fun h => h, rfl⟩
  | _ + 1, [a], _, hok, _ => ⟨[a], rfl, hok, fun _ => rfl, Nat.le_refl _, fun h => h, rfl⟩
  | budget + 1, a :: b :: rest, hb, hok, hv => by
    have ha : a.ok := hok a (List.mem_cons_self _ _)
    have hbk : b.ok := hok b (List.mem_cons_of_mem _ (List.mem_cons_self _ _))
    have hrest : ∀ d ∈ rest, d.ok := fun d hd =>
      hok d (List.mem_cons_of_mem _ (List.mem_cons_of_mem _ hd))
    unfold optimize_copy_dims.fuse_loop
    by_cases hf : copy_dim.fusable a b = true
    · rw [if_pos hf]
      have hfit := copy_dim.fuse_fits ha hbk hv
      obtain ⟨hfok, hft⟩ := copy_dim.fuse_ok ha hbk hf hfit
      have hsz : a.size = a.total_size := by
        obtain ⟨a0pb, a0s, a0pa, asum, afd, afs⟩ := ha
        unfold copy_dim.fusable at hf
        have hf := of_decide_eq_true hf
        omega
      rw [if_pos hsz]
      obtain ⟨l', h1, h2, h3, h4, h5, h6⟩ := optimize_copy_dims.fuse_loop_spec budget
        (copy_dim.fuse a b :: rest) (by simp only [List.length_cons] at hb ⊢; omega)
        (by
          intro d hd
          rcases List.mem_cons.mp hd with rfl | hd
          · exact hfok
          · exact hrest d hd)
        (Int.le_trans (copy_dim.volume_fuse rest ha hbk hft) hv)
      refine ⟨l', h1, h2, ?_, ?_, fun _ => h5 (List.cons_ne_nil _ _), ?_⟩
      · intro cs
        rw [h3 cs]
        simp only [List.foldl_cons]
        rw [copy.cells_step_fuse cs a b ha hbk hf hfit]
      · simp only [List.length_cons] at h4 ⊢; omega
      · rw [h6, copy_dim.total_cons, copy_dim.total_cons, copy_dim.total_cons, hft]
        ring
    · rw [if_neg hf]
      obtain ⟨r, h1, h2, h3, h4, h5, h6⟩ := optimize_copy_dims.fuse_loop_spec budget
        (b :: rest) (by simp only [List.length_cons] at hb ⊢; omega)
        (fun d hd => hok d (List.mem_cons_of_mem _ hd))
        (Int.le_trans (copy_dim.volume_tail a _) hv)
      rw [h1]
      refine ⟨a :: r, rfl, ?_, ?_, ?_, fun _ => List.cons_ne_nil _ _, ?_⟩
      · intro d hd
        rcases List.mem_cons.mp hd with rfl | hd
        · exact ha
        · exact h2 d hd
      · intro cs
        simp only [List.foldl_cons]
        rw [h3]
        rfl
      · simp only [List.length_cons] at h4 ⊢; omega
      · rw [copy_dim.total_cons, copy_dim.total_cons a, h6]

theorem copy_dim.volume_perm {l l' : List copy_dim} (h : l.Perm l') :
    copy_dim.volume l = copy_dim.volume l' :=
  (h.map _).prod_eq

theorem copy_dim.total_perm {l l' : List copy_dim} (h : l.Perm l') :
    copy_dim.total l = copy_dim.total l' :=
  (h.map _).prod_eq

theorem optimize_copy_dims_spec (dims : List copy_dim) (hne : dims ≠ [])
    (hok : ∀ d ∈ dims, d.ok) (hv : copy_dim.volume dims ≤ index_t_max) :
    ∃ l', optimize_copy_dims dims = .ok l' ∧ (∀ d ∈ l', d.ok) ∧
      (copy.cells l').Perm (copy.cells dims) ∧
      1 ≤ l'.length ∧ l'.length ≤ dims.length ∧ copy_dim.total l' = copy_dim.total dims := by
  have hlen : 1 ≤ dims.length := by
    cases dims with
    | nil => exact absurd rfl hne
    | cons d l => simp
  unfold optimize_copy_dims
  by_cases h1 : dims.length = 1
  · rw [if_pos h1]
    exact ⟨dims, rfl, hok, List.Perm.refl _, hlen, Nat.le_refl _, rfl⟩
  · rw [if_neg h1]
    have hp := bubble_sort_perm dims
    obtain ⟨l', e1, e2, e3, e4, e5, e6⟩ := optimize_copy_dims.fuse_loop_spec (dims.length + 1)
      (bubble_sort dims) (by rw [hp.length_eq]; omega)
      (fun d hd => hok d (hp.mem_iff.mp hd))
      (by rw [copy_dim.volume_perm hp]; exact hv)
    have hne' : bubble_sort dims ≠ [] := by
      intro h
      rw [h] at hp
      exact hne hp.symm.eq_nil
    refine ⟨l', e1, e2, ?_, ?_, ?_, ?_⟩
    · have : copy.cells l' = copy.cells (bubble_sort dims) := e3 _
      rw [this]
      exact copy.cells_perm hp
    · have := e5 hne'
      cases l' with
      | nil => exact absurd rfl this
      | cons d l => simp
    · rw [← hp.length_eq]; exact e4
    · rw [e6, copy_dim.total_perm hp]

theorem copy.safe_of_separate {es : Int} {ws : List (Int × pointer)}
    (h : copy.separate es ws) : copy.safe (copy.region es ws) es ws := by
  intro w hw
  constructor
  · intro t h0 h1
    exact ⟨w, hw, by omega, by omega⟩
  · intro r hr t h0 h1 hreg
    obtain ⟨v, hv, h2, h3⟩ := hreg
    have := h v hv w hw r hr
    omega

theorem copy.safe_perm {W : Int → Prop} {es : Int} {ws vs : List (Int × pointer)}
    (hp : ws.Perm vs) (h : copy.safe W es ws) : copy.safe W es vs :=
  fun w hw => h w (hp.mem_iff.mpr hw)

theorem copy.dims_full {W : Int → Prop} {m0 m : memory} {es : Int} (hes : 0 < es)
    (dims : List copy_dim) (hne : 1 ≤ dims.length) (hok : ∀ d ∈ dims, d.ok)
    (padding src : pointer) (dst : Int)
    (hs : copy.safe W es (copy.writes dims padding src dst)) (hm : memory.agrees W m m0) :
    copy.dims dims es padding (dims.length - 1) src dst m =
      copy.stores m0 es (copy.writes dims padding src dst) m := by
  have ht : dims.take (dims.length - 1 + 1) = dims := by
    rw [Nat.sub_add_cancel hne, List.take_length]
  have h := @copy.dims_eq W m0 es hes dims hok padding (dims.length - 1) (by omega)
    src dst
  rw [ht] at h
  exact h hs m hm

theorem copy.dims_optimized {m : memory} {es : Int} (hes : 0 < es)
    (dims dims' : List copy_dim) (hne' : 1 ≤ dims'.length) (hok' : ∀ d ∈ dims', d.ok)
    (hp : (copy.cells dims').Perm (copy.cells dims))
    (padding src : pointer) (dst : Int)
    (hdis : copy.disjoint es (copy.writes dims padding src dst))
    (hsep : copy.separate es (copy.writes dims padding src dst)) :
    copy.dims dims' es padding (dims'.length - 1) src dst m =
      copy.stores m es (copy.writes dims padding src dst) m := by
  have hsafe := copy.safe_of_separate hsep
  have hpw : (copy.writes dims padding src dst).Perm (copy.writes dims' padding src dst) :=
    (hp.map _).symm
  have hm : memory.agrees (copy.region es (copy.writes dims padding src dst)) m m :=
    fun _ _ => rfl
  rw [copy.dims_full hes dims' hne' hok' padding src dst (copy.safe_perm hpw hsafe) hm]
  exact (copy.stores_perm hpw hdis m).symm

/-- Claim C40 (amended): for every list of copy_dims that is not empty, whose `pad_before`,
`size` and `pad_after` are at least 0 and add up to `total_size`, and whose byte extents
(`total_size` times either stride) and number of elements (a dim without elements counts as
one) are `index_t` values, `optimize_copy_dims` returns a rank between 1 and the input rank,
keeps `pad_before + size + pad_after = total_size` on every remaining dim and keeps the
product of `total_size` unchanged; and when no two destination elements share a byte and no
element that is read (from `src` or `padding`) shares a byte with a destination element,
the recursive copy over the fused dims leaves the same memory as the copy over the original
dims. -/
theorem optimize_copy_dims_transparent (dims : List copy_dim) (es : Int)
    (padding src : pointer) (dst : Int) (m : memory)
    (hne : dims ≠ []) (hes : 0 < es) (hok : ∀ d ∈ dims, d.ok)
    (hvol : copy_dim.volume dims ≤ index_t_max)
    (hdis : copy.disjoint es (copy.writes dims padding src dst))
    (hsep : copy.separate es (copy.writes dims padding src dst)) :
    ∃ dims', optimize_copy_dims dims = .ok dims' ∧
      1 ≤ dims'.length ∧ dims'.length ≤ dims.length ∧
      (∀ d ∈ dims', d.pad_before + d.size + d.pad_after = d.total_size) ∧
      copy_dim.total dims' = copy_dim.total dims ∧
      copy.dims dims' es padding (dims'.length - 1) src dst m =
        copy.dims dims es padding (dims.length - 1) src dst m := by
  obtain ⟨dims', h1, h2, h3, h4, h5, h6⟩ := optimize_copy_dims_spec dims hne hok hvol
  have hlen : 1 ≤ dims.length := by omega
  refine ⟨dims', h1, h4, h5, fun d hd => (h2 d hd).2.2.2.1, h6, ?_⟩
  rw [copy.dims_optimized hes dims dims' h4 h2 h3 padding src dst hdis hsep,
    copy.dims_optimized hes dims dims hlen hok (List.Perm.refl _) padding src dst hdis hsep]

/-- Claim C40 at a concrete input: a dense dim of two elements inside a dim of two rows,
the first of which is padding; the two dims are fused. -/
theorem optimize_copy_dims_transparent_witness :
    ∃ dims', optimize_copy_dims [⟨0, 2, 0, 2, 1, 1⟩, ⟨1, 1, 0, 2, 2, 2⟩] = .ok dims' ∧
      1 ≤ dims'.length ∧ dims'.length ≤ 2 ∧
      (∀ d ∈ dims', d.pad_before + d.size + d.pad_after = d.total_size) ∧
      copy_dim.total dims' = copy_dim.total [⟨0, 2, 0, 2, 1, 1⟩, ⟨1, 1, 0, 2, 2, 2⟩] ∧
      copy.dims dims' 1 (some 100) (dims'.length - 1) (some 200) 0 (fun a => a) =
        copy.dims [⟨0, 2, 0, 2, 1, 1⟩, ⟨1, 1, 0, 2, 2, 2⟩] 1 (some 100) (2 - 1) (some 200) 0
          (fun a => a) :=
  optimize_copy_dims_transparent [⟨0, 2, 0, 2, 1, 1⟩, ⟨1, 1, 0, 2, 2, 2⟩] 1 (some 100) (some 200)
    0 (fun a => a) (by decide) (by decide) (by decide) (by decide) (by decide) (by decide)

/-- Claim C40 (counterexample): three failures of the claim as it stands.  The empty list
satisfies the condition and gets rank 0.  The dims of a destination with strides 2 and 1
and extents 2 and 3, whose elements `(1, 0)` and `(0, 2)` are the same byte, are sorted by
stride, and the byte at address 2 then holds another element of the source (byte 101
instead of byte 104).  Two dims of `2^32` elements with stride 0 are fused into one whose
`total_size` is 0. -/
theorem optimize_copy_dims_transparent_counterexample :
    optimize_copy_dims [] = .ok [] ∧
    (∀ d ∈ [(⟨0, 2, 0, 2, 1, 2⟩ : copy_dim), ⟨0, 3, 0, 3, 2, 1⟩],
      d.pad_before + d.size + d.pad_after = d.total_size) ∧
    optimize_copy_dims [⟨0, 2, 0, 2, 1, 2⟩, ⟨0, 3, 0, 3, 2, 1⟩] =
      .ok [⟨0, 3, 0, 3, 2, 1⟩, ⟨0, 2, 0, 2, 1, 2⟩] ∧
    copy.dims [⟨0, 3, 0, 3, 2, 1⟩, ⟨0, 2, 0, 2, 1, 2⟩] 1 none 1 (some 100) 0 (fun a => a) 2 = 101 ∧
    copy.dims [⟨0, 2, 0, 2, 1, 2⟩, ⟨0, 3, 0, 3, 2, 1⟩] 1 none 1 (some 100) 0 (fun a => a) 2 = 104 ∧
    optimize_copy_dims [⟨0, 4294967296, 0, 4294967296, 0, 0⟩, ⟨0, 4294967296, 0, 4294967296, 0, 0⟩] =
      .ok [⟨0, 0, 0, 0, 0, 0⟩] ∧
    copy_dim.total [⟨0, 4294967296, 0, 4294967296, 0, 0⟩, ⟨0, 4294967296, 0, 4294967296, 0, 0⟩] ≠
      copy_dim.total [⟨0, 0, 0, 0, 0, 0⟩] := by
  refine ⟨rfl, by decide, rfl, by decide, by decide, rfl, by decide⟩

/-! ## Copying buffers: `copy` on two buffers -/

theorem compute_padding_exact (s d : dim) (h : copy.ranges_ok s d) :
    ∃ off cd, compute_padding s d ⟨0, 0, 0, d.extent, s.stride, d.stride⟩ = .ok (off, cd) ∧
      cd.ok ∧ cd.total_size = d.max - d.min + 1 ∧ d.extent = d.max - d.min + 1 ∧
      cd.dst_stride = d.stride ∧ cd.src_stride = s.stride ∧
      ∀ x, d.min ≤ x → x ≤ d.max →
        ((cd.pad_before ≤ x - d.min ∧ x - d.min < cd.pad_before + cd.size) ↔
          (s.min ≤ x ∧ x ≤ s.max)) ∧
        (s.min ≤ x → x ≤ s.max →
          (x - d.min - cd.pad_before) * s.stride = (x - s.min) * s.stride - off) := by
  obtain ⟨hsf, hdf, hsm, hdm, hs0, hd0, hsx, hdx, hfd, hfs, hfss⟩ := h
  have hfd0 := hfd
  have hfs0 := hfs
  unfold dim.fits fits_index_t index_t_min index_t_max at hsf hdf
  unfold index_t_max at hsm hdm hsx hdx
  have hde : wrap (d.max + 1) = d.max + 1 := by unfold wrap; omega
  have hse : wrap (s.max + 1) = s.max + 1 := by unfold wrap; omega
  have hdext : wrap (d.max - d.min + 1) = d.max - d.min + 1 := by unfold wrap; omega
  by_cases hc : d.max + 1 ≤ s.min ∨ s.max + 1 ≤ d.min
  · unfold compute_padding
    simp only [dim.begin, dim.end_, dim.extent, hde, hse, hdext, hc, if_true]
    have e4 : wrap (wrap (d.max - d.min + 1 + 0) + 0) = d.max - d.min + 1 := by
      rw [Int.add_zero, Int.add_zero, hdext, hdext]
    rw [if_pos e4]
    refine ⟨_, _, rfl, ⟨?_, ?_, ?_, ?_, hfd0, hfs0⟩, rfl, trivial, rfl, rfl, ?_⟩
    · simp only; omega
    · simp only; omega
    · simp only; omega
    · simp only; omega
    · intro x hx0 hx1
      simp only
      constructor
      · omega
      · intro h1 h2; omega
  · unfold compute_padding
    simp only [dim.begin, dim.end_, dim.extent, hde, hse, hdext, hc, if_false]
    have e1 : wrap (Min.min (s.max + 1) (d.max + 1) - Max.max s.min d.min) =
        Min.min (s.max + 1) (d.max + 1) - Max.max s.min d.min := by
      apply wrap_of_fits
      unfold fits_index_t index_t_min index_t_max
      omega
    have e2 : wrap (Max.max s.min d.min - d.min) = Max.max s.min d.min - d.min := by
      apply wrap_of_fits
      unfold fits_index_t index_t_min index_t_max
      omega
    have e3 : wrap (d.max + 1 - Min.min (s.max + 1) (d.max + 1)) =
        d.max + 1 - Min.min (s.max + 1) (d.max + 1) := by
      apply wrap_of_fits
      unfold fits_index_t index_t_min index_t_max
      omega
    simp only [e1, e2, e3]
    have e4 : wrap (wrap (Max.max 0 (Max.max s.min d.min - d.min) +
        Max.max 0 (d.max + 1 - Min.min (s.max + 1) (d.max + 1))) +
        Max.max 0 (Min.min (s.max + 1) (d.max + 1) - Max.max s.min d.min)) =
        d.max - d.min + 1 := by
      have i1 : wrap (Max.max 0 (Max.max s.min d.min - d.min) +
          Max.max 0 (d.max + 1 - Min.min (s.max + 1) (d.max + 1))) =
          Max.max 0 (Max.max s.min d.min - d.min) +
          Max.max 0 (d.max + 1 - Min.min (s.max + 1) (d.max + 1)) := by
        apply wrap_of_fits
        unfold fits_index_t index_t_min index_t_max
        omega
      rw [i1]
      rw [wrap_of_fits]
      · omega
      · unfold fits_index_t index_t_min index_t_max
        omega
    rw [if_pos e4]
    have eoff : (if s.min < d.min then wrap (s.stride * wrap (d.min - s.min)) else 0) =
        Max.max 0 (d.min - s.min) * s.stride := by
      by_cases hlt : s.min < d.min
      · rw [if_pos hlt]
        have i2 : wrap (d.min - s.min) = d.min - s.min := by
          apply wrap_of_fits
          unfold fits_index_t index_t_min index_t_max
          omega
        have i3 : Max.max 0 (d.min - s.min) = d.min - s.min := by omega
        rw [i2, i3, Int.mul_comm]
        exact wrap_of_fits (fits_mul_of_le (by omega) (by omega) hfss)
      · rw [if_neg hlt]
        have i3 : Max.max 0 (d.min - s.min) = 0 := by omega
        rw [i3, Int.zero_mul]
    rw [eoff]
    refine ⟨_, _, rfl, ⟨?_, ?_, ?_, ?_, hfd0, hfs0⟩, rfl, trivial, rfl, rfl, ?_⟩
    · simp only; omega
    · simp only; omega
    · simp only; omega
    · simp only; omega
    · intro x hx0 hx1
      simp only
      constructor
      · omega
      · intro h1 h2
        have i4 : x - d.min - Max.max 0 (Max.max s.min d.min - d.min) =
            (x - s.min) - Max.max 0 (d.min - s.min) := by omega
        rw [i4]
        ring

theorem copy.stores_outside {m0 : memory} {es : Int} :
    ∀ (ws : List (Int × pointer)) (m : memory) (a : Int),
      (∀ w ∈ ws, ¬ (w.1 ≤ a ∧ a < w.1 + es)) → copy.stores m0 es ws m a = m a
  | [], _, _, _ => rfl
  | w :: ws, m, a, h => by
    rw [copy.stores_cons,
      copy.stores_outside ws _ a (fun v hv => h v (List.mem_cons_of_mem _ hv))]
    have hw := h w (List.mem_cons_self _ _)
    unfold copy.store
    cases w.2 with
    | none => rfl
    | some r => simp only [if_neg hw]

theorem copy.stores_at {m0 : memory} {es : Int} :
    ∀ (ws : List (Int × pointer)) (m : memory), copy.disjoint es ws →
      ∀ w ∈ ws, ∀ t, 0 ≤ t → t < es →
        (w.2 = none → copy.stores m0 es ws m (w.1 + t) = m (w.1 + t)) ∧
        (∀ r, w.2 = some r → copy.stores m0 es ws m (w.1 + t) = m0 (r + t))
  | [], _, _, w, hw, _, _, _ => absurd hw (List.not_mem_nil _)
  | v :: ws, m, hd, w, hw, t, h0, h1 => by
    unfold copy.disjoint at hd
    obtain ⟨hv, hws⟩ := List.pairwise_cons.mp hd
    rw [copy.stores_cons]
    rcases List.mem_cons.mp hw with rfl | hw
    · have hout : copy.stores m0 es ws (copy.store m0 es m w) (w.1 + t) =
          copy.store m0 es m w (w.1 + t) := by
        apply copy.stores_outside
        intro u hu
        have := hv u hu
        omega
      rw [hout]
      constructor
      · intro hn
        unfold copy.store
        rw [hn]
      · intro r hr
        unfold copy.store
        rw [hr]
        have hin : w.1 ≤ w.1 + t ∧ w.1 + t < w.1 + es := by omega
        simp only [if_pos hin]
        congr 1
        omega
    · obtain ⟨ih1, ih2⟩ := copy.stores_at ws (copy.store m0 es m v) hws w hw t h0 h1
      refine ⟨fun hn => ?_, ih2⟩
      rw [ih1 hn]
      have hvw := hv w hw
      have hout : ¬ (v.1 ≤ w.1 + t ∧ w.1 + t < v.1 + es) := by omega
      unfold copy.store
      cases v.2 with
      | none => rfl
      | some r => simp only [if_neg hout]

theorem copy.mem_cells_step {cs : List (Int × Option Int)} {d : copy_dim}
    {c : Int × Option Int} :
    c ∈ copy.cells_step cs d ↔ ∃ j, j < d.total_size.toNat ∧ ∃ c0 ∈ cs, c = d.shift j c0 := by
  unfold copy.cells_step
  rw [List.mem_flatMap]
  constructor
  · rintro ⟨j, hj, hc⟩
    obtain ⟨c0, h0, rfl⟩ := List.mem_map.mp hc
    exact ⟨j, List.mem_range.mp hj, c0, h0, rfl⟩
  · rintro ⟨j, hj, c0, h0, rfl⟩
    exact ⟨j, List.mem_range.mpr hj, List.mem_map.mpr ⟨c0, h0, rfl⟩⟩

theorem copy.mem_foldl_step :
    ∀ (l : List copy_dim) (cs : List (Int × Option Int)) (c : Int × Option Int),
      c ∈ l.foldl copy.cells_step cs ↔
        ∃ c0 ∈ cs, ∃ js, List.Forall₂ (fun (d : copy_dim) (j : Nat) => j < d.total_size.toNat) l js ∧
          c = copy.shift_all l js c0
  | [], cs, c => by
    constructor
    · intro h
      exact ⟨c, h, [], List.Forall₂.nil, rfl⟩
    · rintro ⟨c0, h0, js, hjs, rfl⟩
      cases hjs
      exact h0
  | d :: l, cs, c => by
    rw [List.foldl_cons, copy.mem_foldl_step l]
    constructor
    · rintro ⟨c1, h1, js, hjs, rfl⟩
      obtain ⟨j, hj, c0, h0, rfl⟩ := copy.mem_cells_step.mp h1
      exact ⟨c0, h0, j :: js, List.Forall₂.cons hj hjs, rfl⟩
    · rintro ⟨c0, h0, js, hjs, rfl⟩
      cases hjs with
      | cons hj hjs =>
        exact ⟨_, copy.mem_cells_step.mpr ⟨_, hj, c0, h0, rfl⟩, _, hjs, rfl⟩

theorem dim.spread_step (cs : List (Int × Option Int)) (cd : copy_dim) (d : dim) (base : Int)
    (ht : cd.total_size = d.extent) (hs : cd.dst_stride = d.stride) :
    (copy.cells_step cs cd).map (fun c => base + c.1) =
      dim.spread (cs.map (fun c => base + c.1)) d := by
  unfold copy.cells_step dim.spread
  rw [ht, List.map_flatMap]
  apply copy.flatMap_congr_mem
  intro j _
  rw [List.map_map, List.map_map]
  apply List.map_congr_left
  intro c _
  simp only [Function.comp, copy_dim.shift, hs]
  ring

theorem dim.mem_spread_foldl :
    ∀ (ss ds : List dim), copy.ranges_ok_all ss ds → ∀ (xs : List Int) (as : List Int) (a : Int),
      a ∈ as → dim.contain ss xs → a + dim.offsets ss xs ∈ ss.foldl dim.spread as
  | [], [], _, [], as, a, ha, _ => by
    simpa [dim.offsets] using ha
  | [], [], _, _ :: _, _, _, _, hc => absurd hc (fun h => h)
  | [], _ :: _, hr, _, _, _, _, _ => absurd hr (fun h => h)
  | _ :: _, [], hr, _, _, _, _, _ => absurd hr (fun h => h)
  | s :: ss, d :: ds, _, [], _, _, _, hc => absurd hc (fun h => h)
  | s :: ss, d :: ds, hr, x :: xs, as, a, ha, hc => by
    obtain ⟨hr1, hr2⟩ := hr
    obtain ⟨hc1, hc2⟩ := hc
    obtain ⟨hsf, hdf, hsm, hdm, hs0, hd0, hsx, hdx, hfd, hfs, hfss⟩ := hr1
    unfold dim.fits fits_index_t index_t_min index_t_max at hsf
    unfold index_t_max at hsm hsx
    have hext : s.extent = s.max - s.min + 1 := by
      unfold dim.extent wrap; omega
    have h1 : a + (x - s.min) * s.stride ∈ dim.spread as s := by
      unfold dim.spread
      rw [List.mem_flatMap]
      refine ⟨(x - s.min).toNat, List.mem_range.mpr (by rw [hext]; omega), ?_⟩
      rw [List.mem_map]
      refine ⟨a, ha, ?_⟩
      rw [Int.toNat_of_nonneg (by omega)]
    have h2 := dim.mem_spread_foldl ss ds hr2 xs _ _ h1 hc2
    have e : a + dim.offsets (s :: ss) (x :: xs) =
        a + (x - s.min) * s.stride + dim.offsets ss xs := by
      simp only [dim.offsets]; ring
    rw [e, List.foldl_cons]
    exact h2

theorem copy.paddings_spec :
    ∀ (ss ds : List dim), copy.ranges_ok_all ss ds →
      ∃ off cds, copy.paddings ss ds = .ok (off, cds) ∧ cds.length = ds.length ∧
        (∀ cd ∈ cds, cd.ok) ∧
        copy_dim.volume cds = (ds.map (fun d => Max.max 1 d.extent)).prod ∧
        (∀ cs base, (cds.foldl copy.cells_step cs).map (fun c => base + c.1) =
          ds.foldl dim.spread (cs.map (fun c => base + c.1))) ∧
        (∀ js, List.Forall₂ (fun (d : copy_dim) (j : Nat) => j < d.total_size.toNat) cds js →
          dim.contain ds (List.zipWith (fun (d : dim) (j : Nat) => d.min + (j : Int)) ds js) ∧
          ∀ a o, copy.shift_all cds js (a, o) =
            (a + dim.offsets ds (List.zipWith (fun (d : dim) (j : Nat) => d.min + (j : Int)) ds js),
             if dim.contain ss (List.zipWith (fun (d : dim) (j : Nat) => d.min + (j : Int)) ds js)
             then o.map (fun r => r +
               (dim.offsets ss (List.zipWith (fun (d : dim) (j : Nat) => d.min + (j : Int)) ds js)
                 - off))
             else none)) ∧
        (∀ xs, dim.contain ds xs →
          ∃ js, List.Forall₂ (fun (d : copy_dim) (j : Nat) => j < d.total_size.toNat) cds js ∧
            List.zipWith (fun (d : dim) (j : Nat) => d.min + (j : Int)) ds js = xs)
  | [], [], _ => by
    refine ⟨0, [], rfl, rfl, fun _ h => absurd h (List.not_mem_nil _), rfl, fun _ _ => rfl, ?_, ?_⟩
    · intro js hjs
      cases hjs
      refine ⟨trivial, fun a o => ?_⟩
      simp only [copy.shift_all, List.zipWith_nil_left, dim.offsets, dim.contain, if_true,
        Int.add_zero, Int.sub_zero]
      cases o <;> simp
    · intro xs hxs
      cases xs with
      | nil => exact ⟨[], List.Forall₂.nil, rfl⟩
      | cons x xs => exact absurd hxs (fun h => h)
  | [], _ :: _, hr => absurd hr (fun h => h)
  | _ :: _, [], hr => absurd hr (fun h => h)
  | s :: ss, d :: ds, hr => by
    obtain ⟨hr1, hr2⟩ := hr
    obtain ⟨off1, cd, e1, hok1, ht1, hx1, hds1, hss1, hidx⟩ := compute_padding_exact s d hr1
    obtain ⟨offs, cds, e2, hlen, hok2, hvol, hadr, hsh, hjs⟩ := copy.paddings_spec ss ds hr2
    have hpad : copy.paddings (s :: ss) (d :: ds) = .ok (off1 + offs, cd :: cds) := by
      unfold copy.paddings
      rw [e1]
      simp only [e2]
    have htn : cd.total_size.toNat = (d.max - d.min + 1).toNat := by rw [ht1]
    refine ⟨off1 + offs, cd :: cds, hpad, by simp [hlen], ?_, ?_, ?_, ?_, ?_⟩
    · intro c hc
      rcases List.mem_cons.mp hc with rfl | hc
      · exact hok1
      · exact hok2 c hc
    · rw [copy_dim.volume_cons, hvol, ht1]
      simp [hx1]
    · intro cs base
      rw [List.foldl_cons, List.foldl_cons, hadr,
        dim.spread_step cs cd d base (by rw [ht1, hx1]) hds1]
    · intro js hj
      cases hj with
      | @cons _ j _ js' hj1 hj2 =>
        obtain ⟨hc, hshift⟩ := hsh js' hj2
        have hj0 : (0 : Int) ≤ (j : Int) := Int.ofNat_nonneg j
        have hjlt : (j : Int) < d.max - d.min + 1 := by omega
        obtain ⟨hi1, hi2⟩ := hidx (d.min + (j : Int)) (by omega) (by omega)
        have ej : d.min + (j : Int) - d.min = (j : Int) := by omega
        rw [ej] at hi1 hi2
        have hcont : dim.contain (d :: ds)
            (List.zipWith (fun (d : dim) (j : Nat) => d.min + (j : Int)) (d :: ds) (j :: js')) := by
          simp only [List.zipWith_cons_cons, dim.contain]
          exact ⟨⟨by omega, by omega⟩, hc⟩
        refine ⟨hcont, fun a o => ?_⟩
        simp only [copy.shift_all, List.zipWith_cons_cons, dim.offsets, dim.contain]
        rw [copy_dim.shift, hshift, ej, hds1, hss1]
        congr 1
        · ring
        · by_cases hin : s.min ≤ d.min + (j : Int) ∧ d.min + (j : Int) ≤ s.max
          · have hin' := hi1.mpr hin
            have heq := hi2 hin.1 hin.2
            rw [if_pos hin']
            by_cases hcs : dim.contain ss
                (List.zipWith (fun (d : dim) (j : Nat) => d.min + (j : Int)) ds js')
            · rw [if_pos hcs, if_pos ⟨hin, hcs⟩]
              cases o with
              | none => rfl
              | some r =>
                simp only [Option.map_some']
                congr 1
                linear_combination heq
            · rw [if_neg hcs, if_neg (fun h => hcs h.2)]
          · have hin' : ¬ (cd.pad_before ≤ (j : Int) ∧ (j : Int) < cd.pad_before + cd.size) :=
              fun h => hin (hi1.mp h)
            have hn : ¬ ((s.min ≤ d.min + (j : Int) ∧ d.min + (j : Int) ≤ s.max) ∧
                dim.contain ss
                  (List.zipWith (fun (d : dim) (j : Nat) => d.min + (j : Int)) ds js')) :=
              fun h => hin h.1
            rw [if_neg hin', if_neg hn]
            simp
    · intro xs hxs
      cases xs with
      | nil => exact absurd hxs (fun h => h)
      | cons x xs =>
        obtain ⟨hx, hxs⟩ := hxs
        obtain ⟨js, h1, h2⟩ := hjs xs hxs
        refine ⟨(x - d.min).toNat :: js, List.Forall₂.cons (by omega) h1, ?_⟩
        simp only [List.zipWith_cons_cons, h2]
        congr 1
        omega

theorem copy.writes_spec (src dst : raw_buffer) (padding : pointer)
    (hr : copy.ranges_ok_all src.dims dst.dims) :
    ∃ off cds, copy.paddings src.dims dst.dims = .ok (off, cds) ∧
      cds.length = dst.dims.length ∧ (∀ cd ∈ cds, cd.ok) ∧ copy_dim.volume cds = dst.volume ∧
      (copy.writes cds padding (some (src.base + off)) dst.base).map (fun w => w.1) =
        dst.addresses ∧
      (∀ w, w ∈ copy.writes cds padding (some (src.base + off)) dst.base ↔
        ∃ xs, dst.contains xs ∧
          w = (dst.address_at xs,
            if src.contains xs then some (src.address_at xs) else padding)) := by
  obtain ⟨off, cds, e, hlen, hok, hvol, hadr, hsh, hjs⟩ :=
    copy.paddings_spec src.dims dst.dims hr
  refine ⟨off, cds, e, hlen, hok, hvol, ?_, ?_⟩
  · unfold copy.writes raw_buffer.addresses copy.cells
    rw [List.map_map]
    have h := hadr [(0, some 0)] dst.base
    simp only [List.map_cons, List.map_nil, Int.add_zero] at h
    rw [← h]
    rfl
  · have hcell : ∀ js,
        List.Forall₂ (fun (d : copy_dim) (j : Nat) => j < d.total_size.toNat) cds js →
        copy.to_write padding (some (src.base + off)) dst.base
          (copy.shift_all cds js (0, some 0)) =
        (dst.address_at
            (List.zipWith (fun (d : dim) (j : Nat) => d.min + (j : Int)) dst.dims js),
          if src.contains
            (List.zipWith (fun (d : dim) (j : Nat) => d.min + (j : Int)) dst.dims js)
          then some (src.address_at
            (List.zipWith (fun (d : dim) (j : Nat) => d.min + (j : Int)) dst.dims js))
          else padding) := by
      intro js hj
      obtain ⟨_, hshift⟩ := hsh js hj
      rw [hshift]
      unfold copy.to_write raw_buffer.address_at raw_buffer.contains
      simp only [Int.zero_add]
      congr 1
      by_cases hc : dim.contain src.dims
          (List.zipWith (fun (d : dim) (j : Nat) => d.min + (j : Int)) dst.dims js)
      · simp only [if_pos hc, Option.map_some']
        congr 1
        ring
      · simp only [if_neg hc]
    intro w
    unfold copy.writes copy.cells
    rw [List.mem_map]
    constructor
    · rintro ⟨c, hc, rfl⟩
      obtain ⟨c0, h0, js, hj, rfl⟩ := (copy.mem_foldl_step cds _ c).mp hc
      rw [List.mem_singleton] at h0
      subst h0
      exact ⟨_, (hsh js hj).1, hcell js hj⟩
    · rintro ⟨xs, hxs, rfl⟩
      obtain ⟨js, hj, rfl⟩ := hjs xs hxs
      exact ⟨copy.shift_all cds js (0, some 0),
        (copy.mem_foldl_step cds _ _).mpr ⟨_, List.mem_singleton.mpr rfl, js, hj, rfl⟩,
        hcell js hj⟩

/-- Claim C34 (amended): for every pair of buffers src and dst of the same rank and the
same element size (at least 1), of any rank, with dims that are not folded, whose index
arithmetic does not overflow `index_t`, where no two elements of dst share a byte and no
element of dst shares a byte with an element of src or with the padding element:
`copy(src, dst, padding)` returns, and afterwards, for every index `i` of dst, `dst[i]`
equals `src[i]` when src contains `i`, and equals the padding element otherwise; with a null
padding the elements outside src are left unchanged. -/
theorem copy_with_padding (src dst : raw_buffer) (padding : pointer) (m : memory)
    (hes : 0 < dst.elem_size) (hse : src.elem_size = dst.elem_size)
    (hr : copy.ranges_ok_all src.dims dst.dims) (hvol : dst.volume ≤ index_t_max)
    (hdis : dst.addresses.Pairwise (fun a b => a + dst.elem_size ≤ b ∨ b + dst.elem_size ≤ a))
    (hsrc : ∀ a ∈ dst.addresses, ∀ r ∈ src.addresses,
      a + dst.elem_size ≤ r ∨ r + dst.elem_size ≤ a)
    (hpad : ∀ a ∈ dst.addresses, ∀ p ∈ padding, a + dst.elem_size ≤ p ∨ p + dst.elem_size ≤ a) :
    ∃ m', copy src dst padding m = .ok m' ∧
      ∀ i, dst.contains i → ∀ t, 0 ≤ t → t < dst.elem_size →
        (src.contains i → m' (dst.address_at i + t) = m' (src.address_at i + t)) ∧
        (¬ src.contains i →
          (∀ p, padding = some p → m' (dst.address_at i + t) = m' (p + t)) ∧
          (padding = none → m' (dst.address_at i + t) = m (dst.address_at i + t))) := by
  obtain ⟨off, cds, e, hlen, hok, hcv, hadr, hmem⟩ := copy.writes_spec src dst padding hr
  have hwd : copy.disjoint dst.elem_size
      (copy.writes cds padding (some (src.base + off)) dst.base) := by
    unfold copy.disjoint
    rw [← hadr, List.pairwise_map] at hdis
    exact hdis
  have hw1 : ∀ w ∈ copy.writes cds padding (some (src.base + off)) dst.base,
      w.1 ∈ dst.addresses := by
    intro w hw
    rw [← hadr]
    exact List.mem_map.mpr ⟨w, hw, rfl⟩
  have hw2 : ∀ w ∈ copy.writes cds padding (some (src.base + off)) dst.base,
      ∀ r ∈ w.2, r ∈ src.addresses ∨ r ∈ padding := by
    intro w hw r hrw
    obtain ⟨xs, hxs, rfl⟩ := (hmem w).mp hw
    simp only at hrw
    by_cases hc : src.contains xs
    · rw [if_pos hc] at hrw
      left
      have : r = src.address_at xs := (Option.some.inj hrw).symm
      rw [this]
      unfold raw_buffer.address_at raw_buffer.addresses
      exact dim.mem_spread_foldl src.dims dst.dims hr xs [src.base] src.base
        (List.mem_singleton.mpr rfl) hc
    · rw [if_neg hc] at hrw
      exact Or.inr hrw
  have hws : copy.separate dst.elem_size
      (copy.writes cds padding (some (src.base + off)) dst.base) := by
    intro w hw v hv r hrv
    rcases hw2 v hv r hrv with h | h
    · exact hsrc _ (hw1 w hw) r h
    · exact hpad _ (hw1 w hw) r h
  have hout : ∀ r, (r ∈ src.addresses ∨ r ∈ padding) → ∀ t, 0 ≤ t → t < dst.elem_size →
      copy.stores m dst.elem_size (copy.writes cds padding (some (src.base + off)) dst.base) m
        (r + t) = m (r + t) := by
    intro r hr0 t h0 h1
    apply copy.stores_outside
    intro w hw
    rcases hr0 with h | h
    · have := hsrc _ (hw1 w hw) r h
      omega
    · have := hpad _ (hw1 w hw) r h
      omega
  have hfinal : ∀ m', m' = copy.stores m dst.elem_size
      (copy.writes cds padding (some (src.base + off)) dst.base) m →
      ∀ i, dst.contains i → ∀ t, 0 ≤ t → t < dst.elem_size →
        (src.contains i → m' (dst.address_at i + t) = m' (src.address_at i + t)) ∧
        (¬ src.contains i →
          (∀ p, padding = some p → m' (dst.address_at i + t) = m' (p + t)) ∧
          (padding = none → m' (dst.address_at i + t) = m (dst.address_at i + t))) := by
    intro m' hm' i hi t h0 h1
    have hw := (hmem _).mpr ⟨i, hi, rfl⟩
    obtain ⟨hn, hs⟩ := @copy.stores_at m dst.elem_size _ m hwd _ hw t h0 h1
    simp only at hn hs
    subst hm'
    constructor
    · intro hc
      rw [if_pos hc] at hs
      rw [hs _ rfl, hout _ (hw2 _ hw _ (by simp only [if_pos hc]; rfl)) t h0 h1]
    · intro hc
      rw [if_neg hc] at hs hn
      constructor
      · intro p hp
        rw [hs p hp, hout p (Or.inr hp) t h0 h1]
      · intro hp
        exact hn hp
  have hrank : src.dims.length = dst.dims.length := by
    have := congrArg List.length hadr
    generalize src.dims = ss at hr ⊢
    generalize dst.dims = ds at hr ⊢
    clear this
    induction ss generalizing ds with
    | nil =>
      cases ds with
      | nil => rfl
      | cons d ds => exact absurd hr (fun h => h)
    | cons s ss ih =>
      cases ds with
      | nil => exact absurd hr (fun h => h)
      | cons d ds => simp only [List.length_cons]; rw [ih ds hr.2]
  unfold copy
  have hcond : ¬ (src.dims.length ≠ dst.dims.length ∨ src.elem_size ≠ dst.elem_size) := by
    intro h
    rcases h with h | h
    · exact h hrank
    · exact h hse
  rw [if_neg hcond]
  by_cases h0 : dst.dims.length = 0
  · rw [if_pos h0]
    refine ⟨_, rfl, ?_⟩
    apply hfinal
    have hcds : cds = [] := List.length_eq_zero.mp (by rw [hlen, h0])
    rw [hcds]
    have hw : copy.writes [] padding (some (src.base + off)) dst.base =
        [(dst.base, some (src.base + off))] := by
      simp [copy.writes, copy.cells, copy.to_write]
    rw [hw]
    have hoff : off = 0 := by
      have hs0 : src.dims = [] := List.length_eq_zero.mp (by rw [hrank, h0])
      have hd0 : dst.dims = [] := List.length_eq_zero.mp h0
      rw [hs0, hd0] at e
      unfold copy.paddings at e
      exact (Prod.mk.inj (Except.ok.inj e)).1.symm
    rw [hoff, Int.add_zero]
    funext a
    unfold memcpy copy.stores copy.store
    simp only [List.foldl_cons, List.foldl_nil]
  · rw [if_neg h0]
    simp only [e]
    have hne : cds ≠ [] := by
      intro h
      rw [h] at hlen
      exact h0 hlen.symm
    obtain ⟨dims', h1, h2, h3, h4, h5, h6⟩ := optimize_copy_dims_spec cds hne hok
      (by rw [hcv]; exact hvol)
    simp only [h1]
    refine ⟨_, rfl, ?_⟩
    apply hfinal
    exact copy.dims_optimized hes cds dims' h4 h2 h3 padding (some (src.base + off)) dst.base
      hwd hws

/-- Claim C34 at a concrete input: dst holds the indices 0..3 at the addresses 0..3, src the
indices 1..2 at the addresses 100..101, the padding element is at address 200, elements are
one byte. -/
theorem copy_with_padding_witness :
    ∃ m', copy ⟨100, 1, [⟨1, 2, 1, 0⟩]⟩ ⟨0, 1, [⟨0, 3, 1, 0⟩]⟩ (some 200) (fun a => a) = .ok m' ∧
      ∀ i, raw_buffer.contains ⟨0, 1, [⟨0, 3, 1, 0⟩]⟩ i → ∀ t, 0 ≤ t →
        t < raw_buffer.elem_size ⟨0, 1, [⟨0, 3, 1, 0⟩]⟩ →
        (raw_buffer.contains ⟨100, 1, [⟨1, 2, 1, 0⟩]⟩ i →
          m' (raw_buffer.address_at ⟨0, 1, [⟨0, 3, 1, 0⟩]⟩ i + t) =
            m' (raw_buffer.address_at ⟨100, 1, [⟨1, 2, 1, 0⟩]⟩ i + t)) ∧
        (¬ raw_buffer.contains ⟨100, 1, [⟨1, 2, 1, 0⟩]⟩ i →
          (∀ p, some 200 = some p →
            m' (raw_buffer.address_at ⟨0, 1, [⟨0, 3, 1, 0⟩]⟩ i + t) = m' (p + t)) ∧
          ((some 200 : pointer) = none →
            m' (raw_buffer.address_at ⟨0, 1, [⟨0, 3, 1, 0⟩]⟩ i + t) =
              (fun a => a) (raw_buffer.address_at ⟨0, 1, [⟨0, 3, 1, 0⟩]⟩ i + t))) :=
  copy_with_padding ⟨100, 1, [⟨1, 2, 1, 0⟩]⟩ ⟨0, 1, [⟨0, 3, 1, 0⟩]⟩ (some 200) (fun a => a)
    (by decide) (by decide) (by decide) (by decide) (by decide) (by decide) (by decide)

/-- Claim C34 (counterexample): src and dst both hold the two indices `INT64_MAX - 1` and
`INT64_MAX`, one byte each, dst at the addresses 0 and 1, src at 100 and 101, the padding
element at 200.  `end()` of the dim is `INT64_MAX + 1`, which wraps to `INT64_MIN`, so
`compute_padding` finds that dst ends before src begins and takes the whole dim for padding:
after the copy `dst[INT64_MAX - 1]` holds the padding (the byte 200 of the memory in which
every byte holds its address) and not `src[INT64_MAX - 1]` (the byte 100). -/
theorem copy_with_padding_counterexample :
    ∃ m', copy ⟨100, 1, [⟨index_t_max - 1, index_t_max, 1, 0⟩]⟩
        ⟨0, 1, [⟨index_t_max - 1, index_t_max, 1, 0⟩]⟩ (some 200) (fun a => a) = .ok m' ∧
      raw_buffer.contains ⟨0, 1, [⟨index_t_max - 1, index_t_max, 1, 0⟩]⟩ [index_t_max - 1] ∧
      raw_buffer.contains ⟨100, 1, [⟨index_t_max - 1, index_t_max, 1, 0⟩]⟩ [index_t_max - 1] ∧
      raw_buffer.address_at ⟨0, 1, [⟨index_t_max - 1, index_t_max, 1, 0⟩]⟩ [index_t_max - 1] = 0 ∧
      raw_buffer.address_at ⟨100, 1, [⟨index_t_max - 1, index_t_max, 1, 0⟩]⟩ [index_t_max - 1]
        = 100 ∧
      m' 0 = 200 ∧ m' 100 = 100 ∧
      raw_buffer.addresses ⟨0, 1, [⟨index_t_max - 1, index_t_max, 1, 0⟩]⟩ = [0, 1] ∧
      raw_buffer.addresses ⟨100, 1, [⟨index_t_max - 1, index_t_max, 1, 0⟩]⟩ = [100, 101] :=
  ⟨copy.dims [⟨2, 0, 0, 2, 1, 1⟩] 1 (some 200) 0 (some 100) 0 (fun a => a), rfl, by decide,
    by decide, by decide, by decide, by decide, by decide, by decide, by decide⟩

/-! ## Lets whose inlining cannot capture: proofs -/

mutual
/-- An expression without `let` and `wildcard` is tame. -/
theorem expr.tame_of_plain : ∀ (e : expr), e.plain = true → e.tame = true
  | .var _, _ => rfl
  | .wildcard _, h => by simp [expr.plain] at h
  | .constant _, _ => rfl
  | .let_ _ _ _, h => by simp [expr.plain] at h
  | .add a b, h => by
    simp only [expr.plain, Bool.and_eq_true] at h
    simp [expr.tame, expr.tame_of_plain a h.1, expr.tame_of_plain b h.2]
  | .sub a b, h => by
    simp only [expr.plain, Bool.and_eq_true] at h
    simp [expr.tame, expr.tame_of_plain a h.1, expr.tame_of_plain b h.2]
  | .mul a b, h => by
    simp only [expr.plain, Bool.and_eq_true] at h
    simp [expr.tame, expr.tame_of_plain a h.1, expr.tame_of_plain b h.2]
  | .div a b, h => by
    simp only [expr.plain, Bool.and_eq_true] at h
    simp [expr.tame, expr.tame_of_plain a h.1, expr.tame_of_plain b h.2]
  | .mod a b, h => by
    simp only [expr.plain, Bool.and_eq_true] at h
    simp [expr.tame, expr.tame_of_plain a h.1, expr.tame_of_plain b h.2]
  | .min a b, h => by
    simp only [expr.plain, Bool.and_eq_true] at h
    simp [expr.tame, expr.tame_of_plain a h.1, expr.tame_of_plain b h.2]
  | .max a b, h => by
    simp only [expr.plain, Bool.and_eq_true] at h
    simp [expr.tame, expr.tame_of_plain a h.1, expr.tame_of_plain b h.2]
  | .equal a b, h => by
    simp only [expr.plain, Bool.and_eq_true] at h
    simp [expr.tame, expr.tame_of_plain a h.1, expr.tame_of_plain b h.2]
  | .not_equal a b, h => by
    simp only [expr.plain, Bool.and_eq_true] at h
    simp [expr.tame, expr.tame_of_plain a h.1, expr.tame_of_plain b h.2]
  | .less a b, h => by
    simp only [expr.plain, Bool.and_eq_true] at h
    simp [expr.tame, expr.tame_of_plain a h.1, expr.tame_of_plain b h.2]
  | .less_equal a b, h => by
    simp only [expr.plain, Bool.and_eq_true] at h
    simp [expr.tame, expr.tame_of_plain a h.1, expr.tame_of_plain b h.2]
  | .logical_and a b, h => by
    simp only [expr.plain, Bool.and_eq_true] at h
    simp [expr.tame, expr.tame_of_plain a h.1, expr.tame_of_plain b h.2]
  | .logical_or a b, h => by
    simp only [expr.plain, Bool.and_eq_true] at h
    simp [expr.tame, expr.tame_of_plain a h.1, expr.tame_of_plain b h.2]
  | .logical_not a, h => by
    simp only [expr.plain] at h
    simp [expr.tame, expr.tame_of_plain a h]
  | .select c t f, h => by
    simp only [expr.plain, Bool.and_eq_true] at h
    simp [expr.tame, expr.tame_of_plain c h.1.1, expr.tame_of_plain t h.1.2,
      expr.tame_of_plain f h.2]
  | .call _ as, h => by
    simp only [expr.plain] at h
    simp [expr.tame, expr.tame_list_of_plain as h]
theorem expr.tame_list_of_plain : ∀ (es : List expr), expr.plain_list es = true → expr.tame_list es = true
  | [], _ => rfl
  | a :: as, h => by
    simp only [expr.plain_list, Bool.and_eq_true] at h
    simp [expr.tame_list, expr.tame_of_plain a h.1, expr.tame_list_of_plain as h.2]
end

mutual
/-- An expression without `let` binds nothing. -/
theorem expr.binders_of_plain : ∀ (e : expr), e.plain = true → e.binders = []
  | .var _, _ => rfl
  | .wildcard _, h => by simp [expr.plain] at h
  | .constant _, _ => rfl
  | .let_ _ _ _, h => by simp [expr.plain] at h
  | .add a b, h => by
    simp only [expr.plain, Bool.and_eq_true] at h
    simp [expr.binders, expr.binders_of_plain a h.1, expr.binders_of_plain b h.2]
  | .sub a b, h => by
    simp only [expr.plain, Bool.and_eq_true] at h
    simp [expr.binders, expr.binders_of_plain a h.1, expr.binders_of_plain b h.2]
  | .mul a b, h => by
    simp only [expr.plain, Bool.and_eq_true] at h
    simp [expr.binders, expr.binders_of_plain a h.1, expr.binders_of_plain b h.2]
  | .div a b, h => by
    simp only [expr.plain, Bool.and_eq_true] at h
    simp [expr.binders, expr.binders_of_plain a h.1, expr.binders_of_plain b h.2]
  | .mod a b, h => by
    simp only [expr.plain, Bool.and_eq_true] at h
    simp [expr.binders, expr.binders_of_plain a h.1, expr.binders_of_plain b h.2]
  | .min a b, h => by
    simp only [expr.plain, Bool.and_eq_true] at h
    simp [expr.binders, expr.binders_of_plain a h.1, expr.binders_of_plain b h.2]
  | .max a b, h => by
    simp only [expr.plain, Bool.and_eq_true] at h
    simp [expr.binders, expr.binders_of_plain a h.1, expr.binders_of_plain b h.2]
  | .equal a b, h => by
    simp only [expr.plain, Bool.and_eq_true] at h
    simp [expr.binders, expr.binders_of_plain a h.1, expr.binders_of_plain b h.2]
  | .not_equal a b, h => by
    simp only [expr.plain, Bool.and_eq_true] at h
    simp [expr.binders, expr.binders_of_plain a h.1, expr.binders_of_plain b h.2]
  | .less a b, h => by
    simp only [expr.plain, Bool.and_eq_true] at h
    simp [expr.binders, expr.binders_of_plain a h.1, expr.binders_of_plain b h.2]
  | .less_equal a b, h => by
    simp only [expr.plain, Bool.and_eq_true] at h
    simp [expr.binders, expr.binders_of_plain a h.1, expr.binders_of_plain b h.2]
  | .logical_and a b, h => by
    simp only [expr.plain, Bool.and_eq_true] at h
    simp [expr.binders, expr.binders_of_plain a h.1, expr.binders_of_plain b h.2]
  | .logical_or a b, h => by
    simp only [expr.plain, Bool.and_eq_true] at h
    simp [expr.binders, expr.binders_of_plain a h.1, expr.binders_of_plain b h.2]
  | .logical_not a, h => by
    simp only [expr.plain] at h
    simp [expr.binders, expr.binders_of_plain a h]
  | .select c t f, h => by
    simp only [expr.plain, Bool.and_eq_true] at h
    simp [expr.binders, expr.binders_of_plain c h.1.1, expr.binders_of_plain t h.1.2,
      expr.binders_of_plain f h.2]
  | .call _ as, h => by
    simp only [expr.plain] at h
    simp [expr.binders, expr.binders_list_of_plain as h]
theorem expr.binders_list_of_plain : ∀ (es : List expr), expr.plain_list es = true → expr.binders_list es = []
  | [], _ => rfl
  | a :: as, h => by
    simp only [expr.plain_list, Bool.and_eq_true] at h
    simp [expr.binders_list, expr.binders_of_plain a h.1, expr.binders_list_of_plain as h.2]
end

mutual
/-- An expression with flat lets is tame. -/
theorem expr.tame_of_flat_lets : ∀ (e : expr), e.flat_lets = true → e.tame = true
  | .var _, _ => rfl
  | .wildcard _, h => by simp [expr.flat_lets] at h
  | .constant _, _ => rfl
  | .let_ _ v b, h => by
    simp only [expr.flat_lets, Bool.and_eq_true] at h
    simp [expr.tame, expr.tame_of_flat_lets v h.1, expr.tame_of_plain b h.2, h.2]
  | .add a b, h => by
    simp only [expr.flat_lets, Bool.and_eq_true] at h
    simp [expr.tame, expr.tame_of_flat_lets a h.1, expr.tame_of_flat_lets b h.2]
  | .sub a b, h => by
    simp only [expr.flat_lets, Bool.and_eq_true] at h
    simp [expr.tame, expr.tame_of_flat_lets a h.1, expr.tame_of_flat_lets b h.2]
  | .mul a b, h => by
    simp only [expr.flat_lets, Bool.and_eq_true] at h
    simp [expr.tame, expr.tame_of_flat_lets a h.1, expr.tame_of_flat_lets b h.2]
  | .div a b, h => by
    simp only [expr.flat_lets, Bool.and_eq_true] at h
    simp [expr.tame, expr.tame_of_flat_lets a h.1, expr.tame_of_flat_lets b h.2]
  | .mod a b, h => by
    simp only [expr.flat_lets, Bool.and_eq_true] at h
    simp [expr.tame, expr.tame_of_flat_lets a h.1, expr.tame_of_flat_lets b h.2]
  | .min a b, h => by
    simp only [expr.flat_lets, Bool.and_eq_true] at h
    simp [expr.tame, expr.tame_of_flat_lets a h.1, expr.tame_of_flat_lets b h.2]
  | .max a b, h => by
    simp only [expr.flat_lets, Bool.and_eq_true] at h
    simp [expr.tame, expr.tame_of_flat_lets a h.1, expr.tame_of_flat_lets b h.2]
  | .equal a b, h => by
    simp only [expr.flat_lets, Bool.and_eq_true] at h
    simp [expr.tame, expr.tame_of_flat_lets a h.1, expr.tame_of_flat_lets b h.2]
  | .not_equal a b, h => by
    simp only [expr.flat_lets, Bool.and_eq_true] at h
    simp [expr.tame, expr.tame_of_flat_lets a h.1, expr.tame_of_flat_lets b h.2]
  | .less a b, h => by
    simp only [expr.flat_lets, Bool.and_eq_true] at h
    simp [expr.tame, expr.tame_of_flat_lets a h.1, expr.tame_of_flat_lets b h.2]
  | .less_equal a b, h => by
    simp only [expr.flat_lets, Bool.and_eq_true] at h
    simp [expr.tame, expr.tame_of_flat_lets a h.1, expr.tame_of_flat_lets b h.2]
  | .logical_and a b, h => by
    simp only [expr.flat_lets, Bool.and_eq_true] at h
    simp [expr.tame, expr.tame_of_flat_lets a h.1, expr.tame_of_flat_lets b h.2]
  | .logical_or a b, h => by
    simp only [expr.flat_lets, Bool.and_eq_true] at h
    simp [expr.tame, expr.tame_of_flat_lets a h.1, expr.tame_of_flat_lets b h.2]
  | .logical_not a, h => by
    simp only [expr.flat_lets] at h
    simp [expr.tame, expr.tame_of_flat_lets a h]
  | .select c t f, h => by
    simp only [expr.flat_lets, Bool.and_eq_true] at h
    simp [expr.tame, expr.tame_of_flat_lets c h.1.1, expr.tame_of_flat_lets t h.1.2,
      expr.tame_of_flat_lets f h.2]
  | .call _ as, h => by
    simp only [expr.flat_lets] at h
    simp [expr.tame, expr.tame_list_of_flat_lets as h]
theorem expr.tame_list_of_flat_lets : ∀ (es : List expr), expr.flat_lets_list es = true → expr.tame_list es = true
  | [], _ => rfl
  | a :: as, h => by
    simp only [expr.flat_lets_list, Bool.and_eq_true] at h
    simp [expr.tame_list, expr.tame_of_flat_lets a h.1, expr.tame_list_of_flat_lets as h.2]
end

mutual
/-- The cost grows with what the variables count. -/
theorem expr.cost_mono : ∀ (e : expr) (ρ σ : Nat → Nat), (∀ x, ρ x ≤ σ x) →
    expr.cost e ρ ≤ expr.cost e σ
  | .var s, ρ, σ, h => by simpa [expr.cost] using h s
  | .wildcard _, ρ, σ, h => by simp [expr.cost]
  | .constant _, ρ, σ, h => by simp [expr.cost]
  | .let_ s v b, ρ, σ, h => by
    simp only [expr.cost]
    have h1 := expr.cost_mono v ρ σ h
    have h2 := expr.cost_mono b (fun x => if x = s then expr.cost v ρ else ρ x)
      (fun x => if x = s then expr.cost v σ else σ x) (fun x => by
        by_cases hx : x = s
        · simp only [hx, if_true]; exact h1
        · simp only [hx, if_false]; exact h x)
    omega
  | .add a b, ρ, σ, h => by
    simp only [expr.cost]
    have h1 := expr.cost_mono a ρ σ h
    have h2 := expr.cost_mono b ρ σ h
    omega
  | .sub a b, ρ, σ, h => by
    simp only [expr.cost]
    have h1 := expr.cost_mono a ρ σ h
    have h2 := expr.cost_mono b ρ σ h
    omega
  | .mul a b, ρ, σ, h => by
    simp only [expr.cost]
    have h1 := expr.cost_mono a ρ σ h
    have h2 := expr.cost_mono b ρ σ h
    omega
  | .div a b, ρ, σ, h => by
    simp only [expr.cost]
    have h1 := expr.cost_mono a ρ σ h
    have h2 := expr.cost_mono b ρ σ h
    omega
  | .mod a b, ρ, σ, h => by
    simp only [expr.cost]
    have h1 := expr.cost_mono a ρ σ h
    have h2 := expr.cost_mono b ρ σ h
    omega
  | .min a b, ρ, σ, h => by
    simp only [expr.cost]
    have h1 := expr.cost_mono a ρ σ h
    have h2 := expr.cost_mono b ρ σ h
    omega
  | .max a b, ρ, σ, h => by
    simp only [expr.cost]
    have h1 := expr.cost_mono a ρ σ h
    have h2 := expr.cost_mono b ρ σ h
    omega
  | .equal a b, ρ, σ, h => by
    simp only [expr.cost]
    have h1 := expr.cost_mono a ρ σ h
    have h2 := expr.cost_mono b ρ σ h
    omega
  | .not_equal a b, ρ, σ, h => by
    simp only [expr.cost]
    have h1 := expr.cost_mono a ρ σ h
    have h2 := expr.cost_mono b ρ σ h
    omega
  | .less a b, ρ, σ, h => by
    simp only [expr.cost]
    have h1 := expr.cost_mono a ρ σ h
    have h2 := expr.cost_mono b ρ σ h
    omega
  | .less_equal a b, ρ, σ, h => by
    simp only [expr.cost]
    have h1 := expr.cost_mono a ρ σ h
    have h2 := expr.cost_mono b ρ σ h
    omega
  | .logical_and a b, ρ, σ, h => by
    simp only [expr.cost]
    have h1 := expr.cost_mono a ρ σ h
    have h2 := expr.cost_mono b ρ σ h
    omega
  | .logical_or a b, ρ, σ, h => by
    simp only [expr.cost]
    have h1 := expr.cost_mono a ρ σ h
    have h2 := expr.cost_mono b ρ σ h
    omega
  | .logical_not a, ρ, σ, h => by
    simp only [expr.cost]
    have h1 := expr.cost_mono a ρ σ h
    omega
  | .select c t f, ρ, σ, h => by
    simp only [expr.cost]
    have h1 := expr.cost_mono c ρ σ h
    have h2 := expr.cost_mono t ρ σ h
    have h3 := expr.cost_mono f ρ σ h
    omega
  | .call _ as, ρ, σ, h => by
    simp only [expr.cost]
    have h1 := expr.cost_list_mono as ρ σ h
    omega
theorem expr.cost_list_mono : ∀ (es : List expr) (ρ σ : Nat → Nat), (∀ x, ρ x ≤ σ x) →
    expr.cost_list es ρ ≤ expr.cost_list es σ
  | [], ρ, σ, h => by simp [expr.cost_list]
  | a :: as, ρ, σ, h => by
    simp only [expr.cost_list]
    have h1 := expr.cost_mono a ρ σ h
    have h2 := expr.cost_list_mono as ρ σ h
    omega
end

mutual
/-- The cost depends on what the symbols count that the expression reads, only. -/
theorem expr.cost_congr : ∀ (e : expr) (ρ σ : Nat → Nat),
    (∀ x, expr.reads x e = true → ρ x = σ x) → expr.cost e ρ = expr.cost e σ
  | .var s, ρ, σ, h => by simpa [expr.cost] using h s (by simp [expr.reads])
  | .wildcard _, ρ, σ, h => by simp [expr.cost]
  | .constant _, ρ, σ, h => by simp [expr.cost]
  | .let_ s v b, ρ, σ, h => by
    simp only [expr.cost]
    have h1 := expr.cost_congr v ρ σ (fun x hx => h x (by simp [expr.reads, hx]))
    have h2 := expr.cost_congr b (fun x => if x = s then expr.cost v ρ else ρ x)
      (fun x => if x = s then expr.cost v σ else σ x) (fun x hx => by
        by_cases hs : x = s
        · simp only [hs, if_true]; exact h1
        · simp only [hs, if_false]
          exact h x (by simp [expr.reads, hx, Ne.symm hs]))
    omega
  | .add a b, ρ, σ, h => by
    simp only [expr.cost]
    have h1 := expr.cost_congr a ρ σ (fun x hx => h x (by simp [expr.reads, hx]))
    have h2 := expr.cost_congr b ρ σ (fun x hx => h x (by simp [expr.reads, hx]))
    omega
  | .sub a b, ρ, σ, h => by
    simp only [expr.cost]
    have h1 := expr.cost_congr a ρ σ (fun x hx => h x (by simp [expr.reads, hx]))
    have h2 := expr.cost_congr b ρ σ (fun x hx => h x (by simp [expr.reads, hx]))
    omega
  | .mul a b, ρ, σ, h => by
    simp only [expr.cost]
    have h1 := expr.cost_congr a ρ σ (fun x hx => h x (by simp [expr.reads, hx]))
    have h2 := expr.cost_congr b ρ σ (fun x hx => h x (by simp [expr.reads, hx]))
    omega
  | .div a b, ρ, σ, h => by
    simp only [expr.cost]
    have h1 := expr.cost_congr a ρ σ (fun x hx => h x (by simp [expr.reads, hx]))
    have h2 := expr.cost_congr b ρ σ (fun x hx => h x (by simp [expr.reads, hx]))
    omega
  | .mod a b, ρ, σ, h => by
    simp only [expr.cost]
    have h1 := expr.cost_congr a ρ σ (fun x hx => h x (by simp [expr.reads, hx]))
    have h2 := expr.cost_congr b ρ σ (fun x hx => h x (by simp [expr.reads, hx]))
    omega
  | .min a b, ρ, σ, h => by
    simp only [expr.cost]
    have h1 := expr.cost_congr a ρ σ (fun x hx => h x (by simp [expr.reads, hx]))
    have h2 := expr.cost_congr b ρ σ (fun x hx => h x (by simp [expr.reads, hx]))
    omega
  | .max a b, ρ, σ, h => by
    simp only [expr.cost]
    have h1 := expr.cost_congr a ρ σ (fun x hx => h x (by simp [expr.reads, hx]))
    have h2 := expr.cost_congr b ρ σ (fun x hx => h x (by simp [expr.reads, hx]))
    omega
  | .equal a b, ρ, σ, h => by
    simp only [expr.cost]
    have h1 := expr.cost_congr a ρ σ (fun x hx => h x (by simp [expr.reads, hx]))
    have h2 := expr.cost_congr b ρ σ (fun x hx => h x (by simp [expr.reads, hx]))
    omega
  | .not_equal a b, ρ, σ, h => by
    simp only [expr.cost]
    have h1 := expr.cost_congr a ρ σ (fun x hx => h x (by simp [expr.reads, hx]))
    have h2 := expr.cost_congr b ρ σ (fun x hx => h x (by simp [expr.reads, hx]))
    omega
  | .less a b, ρ, σ, h => by
    simp only [expr.cost]
    have h1 := expr.cost_congr a ρ σ (fun x hx => h x (by simp [expr.reads, hx]))
    have h2 := expr.cost_congr b ρ σ (fun x hx => h x (by simp [expr.reads, hx]))
    omega
  | .less_equal a b, ρ, σ, h => by
    simp only [expr.cost]
    have h1 := expr.cost_congr a ρ σ (fun x hx => h x (by simp [expr.reads, hx]))
    have h2 := expr.cost_congr b ρ σ (fun x hx => h x (by simp [expr.reads, hx]))
    omega
  | .logical_and a b, ρ, σ, h => by
    simp only [expr.cost]
    have h1 := expr.cost_congr a ρ σ (fun x hx => h x (by simp [expr.reads, hx]))
    have h2 := expr.cost_congr b ρ σ (fun x hx => h x (by simp [expr.reads, hx]))
    omega
  | .logical_or a b, ρ, σ, h => by
    simp only [expr.cost]
    have h1 := expr.cost_congr a ρ σ (fun x hx => h x (by simp [expr.reads, hx]))
    have h2 := expr.cost_congr b ρ σ (fun x hx => h x (by simp [expr.reads, hx]))
    omega
  | .logical_not a, ρ, σ, h => by
    simp only [expr.cost]
    have h1 := expr.cost_congr a ρ σ (fun x hx => h x (by simp [expr.reads, hx]))
    omega
  | .select c t f, ρ, σ, h => by
    simp only [expr.cost]
    have h1 := expr.cost_congr c ρ σ (fun x hx => h x (by simp [expr.reads, hx]))
    have h2 := expr.cost_congr t ρ σ (fun x hx => h x (by simp [expr.reads, hx]))
    have h3 := expr.cost_congr f ρ σ (fun x hx => h x (by simp [expr.reads, hx]))
    omega
  | .call _ as, ρ, σ, h => by
    simp only [expr.cost]
    have h1 := expr.cost_list_congr as ρ σ (fun x hx => h x (by simp [expr.reads, hx]))
    omega
theorem expr.cost_list_congr : ∀ (es : List expr) (ρ σ : Nat → Nat),
    (∀ x, expr.reads_list x es = true → ρ x = σ x) → expr.cost_list es ρ = expr.cost_list es σ
  | [], ρ, σ, h => by simp [expr.cost_list]
  | a :: as, ρ, σ, h => by
    simp only [expr.cost_list]
    have h1 := expr.cost_congr a ρ σ (fun x hx => h x (by simp [expr.reads_list, hx]))
    have h2 := expr.cost_list_congr as ρ σ (fun x hx => h x (by simp [expr.reads_list, hx]))
    omega
end

/-- The cost is at least 1 when every variable counts at least 1. -/
theorem expr.cost_pos : ∀ (e : expr) (ρ : Nat → Nat), (∀ x, 1 ≤ ρ x) → 1 ≤ expr.cost e ρ
  | .var s, ρ, h => by simpa [expr.cost] using h s
  | .wildcard _, ρ, h => by simp [expr.cost]
  | .constant _, ρ, h => by simp [expr.cost]
  | .let_ s v b, ρ, h => by simp only [expr.cost]; omega
  | .add a b, ρ, h => by simp only [expr.cost]; omega
  | .sub a b, ρ, h => by simp only [expr.cost]; omega
  | .mul a b, ρ, h => by simp only [expr.cost]; omega
  | .div a b, ρ, h => by simp only [expr.cost]; omega
  | .mod a b, ρ, h => by simp only [expr.cost]; omega
  | .min a b, ρ, h => by simp only [expr.cost]; omega
  | .max a b, ρ, h => by simp only [expr.cost]; omega
  | .equal a b, ρ, h => by simp only [expr.cost]; omega
  | .not_equal a b, ρ, h => by simp only [expr.cost]; omega
  | .less a b, ρ, h => by simp only [expr.cost]; omega
  | .less_equal a b, ρ, h => by simp only [expr.cost]; omega
  | .logical_and a b, ρ, h => by simp only [expr.cost]; omega
  | .logical_or a b, ρ, h => by simp only [expr.cost]; omega
  | .logical_not a, ρ, h => by simp only [expr.cost]; omega
  | .select c t f, ρ, h => by simp only [expr.cost]; omega
  | .call _ as, ρ, h => by simp only [expr.cost]; omega

mutual
/-- Substitution binds only what the expression or the substituted value binds. -/
theorem expr.binders_substitute : ∀ (e : expr) (x : Nat) (V : expr) (t : Nat),
    t ∈ (substitute e [(x, V)]).binders → t ∈ e.binders ∨ t ∈ V.binders
  | .var s, x, V, t, h => by
    by_cases hs : s = x
    · subst hs
      right
      simpa [substitute, bindings.find, List.lookup] using h
    · have hne : (s == x) = false := by simp [hs]
      simp [substitute, bindings.find, List.lookup, hne, expr.binders] at h
  | .wildcard _, x, V, t, h => by simp [substitute, expr.binders] at h
  | .constant _, x, V, t, h => by simp [substitute, expr.binders] at h
  | .let_ s v b, x, V, t, h => by
    rw [substitute_let_single] at h
    simp only [expr.binders, List.mem_cons, List.mem_append] at h ⊢
    rcases h with h | h | h
    · exact Or.inl (Or.inl h)
    · rcases expr.binders_substitute v x V t h with h1 | h1
      · exact Or.inl (Or.inr (Or.inl h1))
      · exact Or.inr h1
    · by_cases hs : s = x
      · simp only [hs, if_true] at h
        exact Or.inl (Or.inr (Or.inr h))
      · simp only [hs, if_false] at h
        rcases expr.binders_substitute b x V t h with h1 | h1
        · exact Or.inl (Or.inr (Or.inr h1))
        · exact Or.inr h1
  | .add a b, x, V, t, h => by
    simp only [substitute, expr.binders, List.mem_append] at h ⊢
    rcases h with h | h
    · rcases expr.binders_substitute a x V t h with h1 | h1
      · exact Or.inl (Or.inl h1)
      · exact Or.inr h1
    · rcases expr.binders_substitute b x V t h with h1 | h1
      · exact Or.inl (Or.inr h1)
      · exact Or.inr h1
  | .sub a b, x, V, t, h => by
    simp only [substitute, expr.binders, List.mem_append] at h ⊢
    rcases h with h | h
    · rcases expr.binders_substitute a x V t h with h1 | h1
      · exact Or.inl (Or.inl h1)
      · exact Or.inr h1
    · rcases expr.binders_substitute b x V t h with h1 | h1
      · exact Or.inl (Or.inr h1)
      · exact Or.inr h1
  | .mul a b, x, V, t, h => by
    simp only [substitute, expr.binders, List.mem_append] at h ⊢
    rcases h with h | h
    · rcases expr.binders_substitute a x V t h with h1 | h1
      · exact Or.inl (Or.inl h1)
      · exact Or.inr h1
    · rcases expr.binders_substitute b x V t h with h1 | h1
      · exact Or.inl (Or.inr h1)
      · exact Or.inr h1
  | .div a b, x, V, t, h => by
    simp only [substitute, expr.binders, List.mem_append] at h ⊢
    rcases h with h | h
    · rcases expr.binders_substitute a x V t h with h1 | h1
      · exact Or.inl (Or.inl h1)
      · exact Or.inr h1
    · rcases expr.binders_substitute b x V t h with h1 | h1
      · exact Or.inl (Or.inr h1)
      · exact Or.inr h1
  | .mod a b, x, V, t, h => by
    simp only [substitute, expr.binders, List.mem_append] at h ⊢
    rcases h with h | h
    · rcases expr.binders_substitute a x V t h with h1 | h1
      · exact Or.inl (Or.inl h1)
      · exact Or.inr h1
    · rcases expr.binders_substitute b x V t h with h1 | h1
      · exact Or.inl (Or.inr h1)
      · exact Or.inr h1
  | .min a b, x, V, t, h => by
    simp only [substitute, expr.binders, List.mem_append] at h ⊢
    rcases h with h | h
    · rcases expr.binders_substitute a x V t h with h1 | h1
      · exact Or.inl (Or.inl h1)
      · exact Or.inr h1
    · rcases expr.binders_substitute b x V t h with h1 | h1
      · exact Or.inl (Or.inr h1)
      · exact Or.inr h1
  | .max a b, x, V, t, h => by
    simp only [substitute, expr.binders, List.mem_append] at h ⊢
    rcases h with h | h
    · rcases expr.binders_substitute a x V t h with h1 | h1
      · exact Or.inl (Or.inl h1)
      · exact Or.inr h1
    · rcases expr.binders_substitute b x V t h with h1 | h1
      · exact Or.inl (Or.inr h1)
      · exact Or.inr h1
  | .equal a b, x, V, t, h => by
    simp only [substitute, expr.binders, List.mem_append] at h ⊢
    rcases h with h | h
    · rcases expr.binders_substitute a x V t h with h1 | h1
      · exact Or.inl (Or.inl h1)
      · exact Or.inr h1
    · rcases expr.binders_substitute b x V t h with h1 | h1
      · exact Or.inl (Or.inr h1)
      · exact Or.inr h1
  | .not_equal a b, x, V, t, h => by
    simp only [substitute, expr.binders, List.mem_append] at h ⊢
    rcases h with h | h
    · rcases expr.binders_substitute a x V t h with h1 | h1
      · exact Or.inl (Or.inl h1)
      · exact Or.inr h1
    · rcases expr.binders_substitute b x V t h with h1 | h1
      · exact Or.inl (Or.inr h1)
      · exact Or.inr h1
  | .less a b, x, V, t, h => by
    simp only [substitute, expr.binders, List.mem_append] at h ⊢
    rcases h with h | h
    · rcases expr.binders_substitute a x V t h with h1 | h1
      · exact Or.inl (Or.inl h1)
      · exact Or.inr h1
    · rcases expr.binders_substitute b x V t h with h1 | h1
      · exact Or.inl (Or.inr h1)
      · exact Or.inr h1
  | .less_equal a b, x, V, t, h => by
    simp only [substitute, expr.binders, List.mem_append] at h ⊢
    rcases h with h | h
    · rcases expr.binders_substitute a x V t h with h1 | h1
      · exact Or.inl (Or.inl h1)
      · exact Or.inr h1
    · rcases expr.binders_substitute b x V t h with h1 | h1
      · exact Or.inl (Or.inr h1)
      · exact Or.inr h1
  | .logical_and a b, x, V, t, h => by
    simp only [substitute, expr.binders, List.mem_append] at h ⊢
    rcases h with h | h
    · rcases expr.binders_substitute a x V t h with h1 | h1
      · exact Or.inl (Or.inl h1)
      · exact Or.inr h1
    · rcases expr.binders_substitute b x V t h with h1 | h1
      · exact Or.inl (Or.inr h1)
      · exact Or.inr h1
  | .logical_or a b, x, V, t, h => by
    simp only [substitute, expr.binders, List.mem_append] at h ⊢
    rcases h with h | h
    · rcases expr.binders_substitute a x V t h with h1 | h1
      · exact Or.inl (Or.inl h1)
      · exact Or.inr h1
    · rcases expr.binders_substitute b x V t h with h1 | h1
      · exact Or.inl (Or.inr h1)
      · exact Or.inr h1
  | .logical_not a, x, V, t, h => by
    simp only [substitute, expr.binders] at h ⊢
    exact expr.binders_substitute a x V t h
  | .select c e f, x, V, t, h => by
    simp only [substitute, expr.binders, List.mem_append] at h ⊢
    rcases h with (h | h) | h
    · rcases expr.binders_substitute c x V t h with h1 | h1
      · exact Or.inl (Or.inl (Or.inl h1))
      · exact Or.inr h1
    · rcases expr.binders_substitute e x V t h with h1 | h1
      · exact Or.inl (Or.inl (Or.inr h1))
      · exact Or.inr h1
    · rcases expr.binders_substitute f x V t h with h1 | h1
      · exact Or.inl (Or.inr h1)
      · exact Or.inr h1
  | .call _ as, x, V, t, h => by
    simp only [substitute, expr.binders] at h ⊢
    exact expr.binders_list_substitute as x V t h
theorem expr.binders_list_substitute : ∀ (es : List expr) (x : Nat) (V : expr) (t : Nat),
    t ∈ expr.binders_list (substitute_list es [(x, V)]) →
      t ∈ expr.binders_list es ∨ t ∈ V.binders
  | [], x, V, t, h => by simp [substitute_list, expr.binders_list] at h
  | a :: as, x, V, t, h => by
    simp only [substitute_list, expr.binders_list, List.mem_append] at h ⊢
    rcases h with h | h
    · rcases expr.binders_substitute a x V t h with h1 | h1
      · exact Or.inl (Or.inl h1)
      · exact Or.inr h1
    · rcases expr.binders_list_substitute as x V t h with h1 | h1
      · exact Or.inl (Or.inr h1)
      · exact Or.inr h1
end

mutual
/-- What a tame expression reads after a substitution for `x`: what the substituted value
reads, or what it read before, `x` apart. -/
theorem expr.reads_substitute : ∀ (e : expr) (x : Nat) (V : expr) (t : Nat), e.tame = true →
    expr.reads t (substitute e [(x, V)]) = true →
      expr.reads t V = true ∨ (t ≠ x ∧ expr.reads t e = true)
  | .var s, x, V, t, ht, h => by
    by_cases hs : s = x
    · subst hs
      left
      simpa [substitute, bindings.find, List.lookup] using h
    · have hne : (s == x) = false := by simp [hs]
      simp only [substitute, bindings.find, List.lookup, hne, expr.reads,
        decide_eq_true_eq] at h
      right
      subst h
      exact ⟨hs, by simp [expr.reads]⟩
  | .wildcard _, x, V, t, ht, h => by simp [expr.tame] at ht
  | .constant _, x, V, t, ht, h => by simp [substitute, expr.reads] at h
  | .let_ s v b, x, V, t, ht, h => by
    simp only [expr.tame, Bool.and_eq_true] at ht
    rw [substitute_let_single] at h
    simp only [expr.reads, Bool.or_eq_true, Bool.and_eq_true, Bool.not_eq_true',
      decide_eq_false_iff_not] at h ⊢
    rcases h with h | ⟨hst, h⟩
    · rcases expr.reads_substitute v x V t ht.1.1 h with h1 | h1
      · exact Or.inl h1
      · exact Or.inr ⟨h1.1, Or.inl h1.2⟩
    · by_cases hs : s = x
      · simp only [hs, if_true] at h
        exact Or.inr ⟨fun e => hst (by rw [hs, e]), Or.inr ⟨hst, h⟩⟩
      · simp only [hs, if_false] at h
        rcases expr.reads_substitute b x V t ht.1.2 h with h1 | h1
        · exact Or.inl h1
        · exact Or.inr ⟨h1.1, Or.inr ⟨hst, h1.2⟩⟩
  | .add a b, x, V, t, ht, h => by
    simp only [expr.tame, Bool.and_eq_true] at ht
    simp only [substitute, expr.reads, Bool.or_eq_true] at h ⊢
    rcases h with h | h
    · rcases expr.reads_substitute a x V t ht.1 h with h1 | h1
      · exact Or.inl h1
      · exact Or.inr ⟨h1.1, Or.inl h1.2⟩
    · rcases expr.reads_substitute b x V t ht.2 h with h1 | h1
      · exact Or.inl h1
      · exact Or.inr ⟨h1.1, Or.inr h1.2⟩
  | .sub a b, x, V, t, ht, h => by
    simp only [expr.tame, Bool.and_eq_true] at ht
    simp only [substitute, expr.reads, Bool.or_eq_true] at h ⊢
    rcases h with h | h
    · rcases expr.reads_substitute a x V t ht.1 h with h1 | h1
      · exact Or.inl h1
      · exact Or.inr ⟨h1.1, Or.inl h1.2⟩
    · rcases expr.reads_substitute b x V t ht.2 h with h1 | h1
      · exact Or.inl h1
      · exact Or.inr ⟨h1.1, Or.inr h1.2⟩
  | .mul a b, x, V, t, ht, h => by
    simp only [expr.tame, Bool.and_eq_true] at ht
    simp only [substitute, expr.reads, Bool.or_eq_true] at h ⊢
    rcases h with h | h
    · rcases expr.reads_substitute a x V t ht.1 h with h1 | h1
      · exact Or.inl h1
      · exact Or.inr ⟨h1.1, Or.inl h1.2⟩
    · rcases expr.reads_substitute b x V t ht.2 h with h1 | h1
      · exact Or.inl h1
      · exact Or.inr ⟨h1.1, Or.inr h1.2⟩
  | .div a b, x, V, t, ht, h => by
    simp only [expr.tame, Bool.and_eq_true] at ht
    simp only [substitute, expr.reads, Bool.or_eq_true] at h ⊢
    rcases h with h | h
    · rcases expr.reads_substitute a x V t ht.1 h with h1 | h1
      · exact Or.inl h1
      · exact Or.inr ⟨h1.1, Or.inl h1.2⟩
    · rcases expr.reads_substitute b x V t ht.2 h with h1 | h1
      · exact Or.inl h1
      · exact Or.inr ⟨h1.1, Or.inr h1.2⟩
  | .mod a b, x, V, t, ht, h => by
    simp only [expr.tame, Bool.and_eq_true] at ht
    simp only [substitute, expr.reads, Bool.or_eq_true] at h ⊢
    rcases h with h | h
    · rcases expr.reads_substitute a x V t ht.1 h with h1 | h1
      · exact Or.inl h1
      · exact Or.inr ⟨h1.1, Or.inl h1.2⟩
    · rcases expr.reads_substitute b x V t ht.2 h with h1 | h1
      · exact Or.inl h1
      · exact Or.inr ⟨h1.1, Or.inr h1.2⟩
  | .min a b, x, V, t, ht, h => by
    simp only [expr.tame, Bool.and_eq_true] at ht
    simp only [substitute, expr.reads, Bool.or_eq_true] at h ⊢
    rcases h with h | h
    · rcases expr.reads_substitute a x V t ht.1 h with h1 | h1
      · exact Or.inl h1
      · exact Or.inr ⟨h1.1, Or.inl h1.2⟩
    · rcases expr.reads_substitute b x V t ht.2 h with h1 | h1
      · exact Or.inl h1
      · exact Or.inr ⟨h1.1, Or.inr h1.2⟩
  | .max a b, x, V, t, ht, h => by
    simp only [expr.tame, Bool.and_eq_true] at ht
    simp only [substitute, expr.reads, Bool.or_eq_true] at h ⊢
    rcases h with h | h
    · rcases expr.reads_substitute a x V t ht.1 h with h1 | h1
      · exact Or.inl h1
      · exact Or.inr ⟨h1.1, Or.inl h1.2⟩
    · rcases expr.reads_substitute b x V t ht.2 h with h1 | h1
      · exact Or.inl h1
      · exact Or.inr ⟨h1.1, Or.inr h1.2⟩
  | .equal a b, x, V, t, ht, h => by
    simp only [expr.tame, Bool.and_eq_true] at ht
    simp only [substitute, expr.reads, Bool.or_eq_true] at h ⊢
    rcases h with h | h
    · rcases expr.reads_substitute a x V t ht.1 h with h1 | h1
      · exact Or.inl h1
      · exact Or.inr ⟨h1.1, Or.inl h1.2⟩
    · rcases expr.reads_substitute b x V t ht.2 h with h1 | h1
      · exact Or.inl h1
      · exact Or.inr ⟨h1.1, Or.inr h1.2⟩
  | .not_equal a b, x, V, t, ht, h => by
    simp only [expr.tame, Bool.and_eq_true] at ht
    simp only [substitute, expr.reads, Bool.or_eq_true] at h ⊢
    rcases h with h | h
    · rcases expr.reads_substitute a x V t ht.1 h with h1 | h1
      · exact Or.inl h1
      · exact Or.inr ⟨h1.1, Or.inl h1.2⟩
    · rcases expr.reads_substitute b x V t ht.2 h with h1 | h1
      · exact Or.inl h1
      · exact Or.inr ⟨h1.1, Or.inr h1.2⟩
  | .less a b, x, V, t, ht, h => by
    simp only [expr.tame, Bool.and_eq_true] at ht
    simp only [substitute, expr.reads, Bool.or_eq_true] at h ⊢
    rcases h with h | h
    · rcases expr.reads_substitute a x V t ht.1 h with h1 | h1
      · exact Or.inl h1
      · exact Or.inr ⟨h1.1, Or.inl h1.2⟩
    · rcases expr.reads_substitute b x V t ht.2 h with h1 | h1
      · exact Or.inl h1
      · exact Or.inr ⟨h1.1, Or.inr h1.2⟩
  | .less_equal a b, x, V, t, ht, h => by
    simp only [expr.tame, Bool.and_eq_true] at ht
    simp only [substitute, expr.reads, Bool.or_eq_true] at h ⊢
    rcases h with h | h
    · rcases expr.reads_substitute a x V t ht.1 h with h1 | h1
      · exact Or.inl h1
      · exact Or.inr ⟨h1.1, Or.inl h1.2⟩
    · rcases expr.reads_substitute b x V t ht.2 h with h1 | h1
      · exact Or.inl h1
      · exact Or.inr ⟨h1.1, Or.inr h1.2⟩
  | .logical_and a b, x, V, t, ht, h => by
    simp only [expr.tame, Bool.and_eq_true] at ht
    simp only [substitute, expr.reads, Bool.or_eq_true] at h ⊢
    rcases h with h | h
    · rcases expr.reads_substitute a x V t ht.1 h with h1 | h1
      · exact Or.inl h1
      · exact Or.inr ⟨h1.1, Or.inl h1.2⟩
    · rcases expr.reads_substitute b x V t ht.2 h with h1 | h1
      · exact Or.inl h1
      · exact Or.inr ⟨h1.1, Or.inr h1.2⟩
  | .logical_or a b, x, V, t, ht, h => by
    simp only [expr.tame, Bool.and_eq_true] at ht
    simp only [substitute, expr.reads, Bool.or_eq_true] at h ⊢
    rcases h with h | h
    · rcases expr.reads_substitute a x V t ht.1 h with h1 | h1
      · exact Or.inl h1
      · exact Or.inr ⟨h1.1, Or.inl h1.2⟩
    · rcases expr.reads_substitute b x V t ht.2 h with h1 | h1
      · exact Or.inl h1
      · exact Or.inr ⟨h1.1, Or.inr h1.2⟩
  | .logical_not a, x, V, t, ht, h => by
    simp only [expr.tame] at ht
    simp only [substitute, expr.reads] at h ⊢
    exact expr.reads_substitute a x V t ht h
  | .select c e f, x, V, t, ht, h => by
    simp only [expr.tame, Bool.and_eq_true] at ht
    simp only [substitute, expr.reads, Bool.or_eq_true] at h ⊢
    rcases h with (h | h) | h
    · rcases expr.reads_substitute c x V t ht.1.1 h with h1 | h1
      · exact Or.inl h1
      · exact Or.inr ⟨h1.1, Or.inl (Or.inl h1.2)⟩
    · rcases expr.reads_substitute e x V t ht.1.2 h with h1 | h1
      · exact Or.inl h1
      · exact Or.inr ⟨h1.1, Or.inl (Or.inr h1.2)⟩
    · rcases expr.reads_substitute f x V t ht.2 h with h1 | h1
      · exact Or.inl h1
      · exact Or.inr ⟨h1.1, Or.inr h1.2⟩
  | .call _ as, x, V, t, ht, h => by
    simp only [expr.tame] at ht
    simp only [substitute, expr.reads] at h ⊢
    exact expr.reads_list_substitute as x V t ht h
theorem expr.reads_list_substitute : ∀ (es : List expr) (x : Nat) (V : expr) (t : Nat),
    expr.tame_list es = true → expr.reads_list t (substitute_list es [(x, V)]) = true →
      expr.reads t V = true ∨ (t ≠ x ∧ expr.reads_list t es = true)
  | [], x, V, t, ht, h => by simp [substitute_list, expr.reads_list] at h
  | a :: as, x, V, t, ht, h => by
    simp only [expr.tame_list, Bool.and_eq_true] at ht
    simp only [substitute_list, expr.reads_list, Bool.or_eq_true] at h ⊢
    rcases h with h | h
    · rcases expr.reads_substitute a x V t ht.1 h with h1 | h1
      · exact Or.inl h1
      · exact Or.inr ⟨h1.1, Or.inl h1.2⟩
    · rcases expr.reads_list_substitute as x V t ht.2 h with h1 | h1
      · exact Or.inl h1
      · exact Or.inr ⟨h1.1, Or.inr h1.2⟩
end

mutual
/-- Substituting a value without `let` leaves the bound symbols as they are. -/
theorem expr.binders_substitute_plain : ∀ (e : expr) (x : Nat) (V : expr), V.plain = true →
    (substitute e [(x, V)]).binders = e.binders
  | .var s, x, V, hV => by
    by_cases hs : s = x
    · subst hs
      simp [substitute, bindings.find, List.lookup, expr.binders, expr.binders_of_plain V hV]
    · have hne : (s == x) = false := by simp [hs]
      simp [substitute, bindings.find, List.lookup, hne]
  | .wildcard _, x, V, hV => by simp [substitute]
  | .constant _, x, V, hV => by simp [substitute]
  | .let_ s v b, x, V, hV => by
    rw [substitute_let_single]
    simp only [expr.binders, expr.binders_substitute_plain v x V hV]
    by_cases hs : s = x
    · simp [hs]
    · simp only [hs, if_false, expr.binders_substitute_plain b x V hV]
  | .add a b, x, V, hV => by
    simp only [substitute, expr.binders, expr.binders_substitute_plain a x V hV,
      expr.binders_substitute_plain b x V hV]
  | .sub a b, x, V, hV => by
    simp only [substitute, expr.binders, expr.binders_substitute_plain a x V hV,
      expr.binders_substitute_plain b x V hV]
  | .mul a b, x, V, hV => by
    simp only [substitute, expr.binders, expr.binders_substitute_plain a x V hV,
      expr.binders_substitute_plain b x V hV]
  | .div a b, x, V, hV => by
    simp only [substitute, expr.binders, expr.binders_substitute_plain a x V hV,
      expr.binders_substitute_plain b x V hV]
  | .mod a b, x, V, hV => by
    simp only [substitute, expr.binders, expr.binders_substitute_plain a x V hV,
      expr.binders_substitute_plain b x V hV]
  | .min a b, x, V, hV => by
    simp only [substitute, expr.binders, expr.binders_substitute_plain a x V hV,
      expr.binders_substitute_plain b x V hV]
  | .max a b, x, V, hV => by
    simp only [substitute, expr.binders, expr.binders_substitute_plain a x V hV,
      expr.binders_substitute_plain b x V hV]
  | .equal a b, x, V, hV => by
    simp only [substitute, expr.binders, expr.binders_substitute_plain a x V hV,
      expr.binders_substitute_plain b x V hV]
  | .not_equal a b, x, V, hV => by
    simp only [substitute, expr.binders, expr.binders_substitute_plain a x V hV,
      expr.binders_substitute_plain b x V hV]
  | .less a b, x, V, hV => by
    simp only [substitute, expr.binders, expr.binders_substitute_plain a x V hV,
      expr.binders_substitute_plain b x V hV]
  | .less_equal a b, x, V, hV => by
    simp only [substitute, expr.binders, expr.binders_substitute_plain a x V hV,
      expr.binders_substitute_plain b x V hV]
  | .logical_and a b, x, V, hV => by
    simp only [substitute, expr.binders, expr.binders_substitute_plain a x V hV,
      expr.binders_substitute_plain b x V hV]
  | .logical_or a b, x, V, hV => by
    simp only [substitute, expr.binders, expr.binders_substitute_plain a x V hV,
      expr.binders_substitute_plain b x V hV]
  | .logical_not a, x, V, hV => by
    simp only [substitute, expr.binders, expr.binders_substitute_plain a x V hV]
  | .select c t f, x, V, hV => by
    simp only [substitute, expr.binders, expr.binders_substitute_plain c x V hV,
      expr.binders_substitute_plain t x V hV, expr.binders_substitute_plain f x V hV]
  | .call _ as, x, V, hV => by
    simp only [substitute, expr.binders, expr.binders_list_substitute_plain as x V hV]
theorem expr.binders_list_substitute_plain : ∀ (es : List expr) (x : Nat) (V : expr), V.plain = true →
    expr.binders_list (substitute_list es [(x, V)]) = expr.binders_list es
  | [], x, V, hV => by simp [substitute_list]
  | a :: as, x, V, hV => by
    simp only [substitute_list, expr.binders_list, expr.binders_substitute_plain a x V hV,
      expr.binders_list_substitute_plain as x V hV]
end

mutual
/-- Substituting a tame value into an expression without `let` gives a tame expression. -/
theorem expr.tame_substitute_into_plain : ∀ (e : expr) (x : Nat) (V : expr), e.plain = true →
    V.tame = true → (substitute e [(x, V)]).tame = true
  | .var s, x, V, hp, hV => by
    by_cases hs : s = x
    · subst hs
      simpa [substitute, bindings.find, List.lookup] using hV
    · have hne : (s == x) = false := by simp [hs]
      simp [substitute, bindings.find, List.lookup, hne, expr.tame]
  | .wildcard _, x, V, hp, hV => by simp [expr.plain] at hp
  | .constant _, x, V, hp, hV => by simp [substitute, expr.tame]
  | .let_ _ _ _, x, V, hp, hV => by simp [expr.plain] at hp
  | .add a b, x, V, hp, hV => by
    simp only [expr.plain, Bool.and_eq_true] at hp
    simp [substitute, expr.tame, expr.tame_substitute_into_plain a x V hp.1 hV,
      expr.tame_substitute_into_plain b x V hp.2 hV]
  | .sub a b, x, V, hp, hV => by
    simp only [expr.plain, Bool.and_eq_true] at hp
    simp [substitute, expr.tame, expr.tame_substitute_into_plain a x V hp.1 hV,
      expr.tame_substitute_into_plain b x V hp.2 hV]
  | .mul a b, x, V, hp, hV => by
    simp only [expr.plain, Bool.and_eq_true] at hp
    simp [substitute, expr.tame, expr.tame_substitute_into_plain a x V hp.1 hV,
      expr.tame_substitute_into_plain b x V hp.2 hV]
  | .div a b, x, V, hp, hV => by
    simp only [expr.plain, Bool.and_eq_true] at hp
    simp [substitute, expr.tame, expr.tame_substitute_into_plain a x V hp.1 hV,
      expr.tame_substitute_into_plain b x V hp.2 hV]
  | .mod a b, x, V, hp, hV => by
    simp only [expr.plain, Bool.and_eq_true] at hp
    simp [substitute, expr.tame, expr.tame_substitute_into_plain a x V hp.1 hV,
      expr.tame_substitute_into_plain b x V hp.2 hV]
  | .min a b, x, V, hp, hV => by
    simp only [expr.plain, Bool.and_eq_true] at hp
    simp [substitute, expr.tame, expr.tame_substitute_into_plain a x V hp.1 hV,
      expr.tame_substitute_into_plain b x V hp.2 hV]
  | .max a b, x, V, hp, hV => by
    simp only [expr.plain, Bool.and_eq_true] at hp
    simp [substitute, expr.tame, expr.tame_substitute_into_plain a x V hp.1 hV,
      expr.tame_substitute_into_plain b x V hp.2 hV]
  | .equal a b, x, V, hp, hV => by
    simp only [expr.plain, Bool.and_eq_true] at hp
    simp [substitute, expr.tame, expr.tame_substitute_into_plain a x V hp.1 hV,
      expr.tame_substitute_into_plain b x V hp.2 hV]
  | .not_equal a b, x, V, hp, hV => by
    simp only [expr.plain, Bool.and_eq_true] at hp
    simp [substitute, expr.tame, expr.tame_substitute_into_plain a x V hp.1 hV,
      expr.tame_substitute_into_plain b x V hp.2 hV]
  | .less a b, x, V, hp, hV => by
    simp only [expr.plain, Bool.and_eq_true] at hp
    simp [substitute, expr.tame, expr.tame_substitute_into_plain a x V hp.1 hV,
      expr.tame_substitute_into_plain b x V hp.2 hV]
  | .less_equal a b, x, V, hp, hV => by
    simp only [expr.plain, Bool.and_eq_true] at hp
    simp [substitute, expr.tame, expr.tame_substitute_into_plain a x V hp.1 hV,
      expr.tame_substitute_into_plain b x V hp.2 hV]
  | .logical_and a b, x, V, hp, hV => by
    simp only [expr.plain, Bool.and_eq_true] at hp
    simp [substitute, expr.tame, expr.tame_substitute_into_plain a x V hp.1 hV,
      expr.tame_substitute_into_plain b x V hp.2 hV]
  | .logical_or a b, x, V, hp, hV => by
    simp only [expr.plain, Bool.and_eq_true] at hp
    simp [substitute, expr.tame, expr.tame_substitute_into_plain a x V hp.1 hV,
      expr.tame_substitute_into_plain b x V hp.2 hV]
  | .logical_not a, x, V, hp, hV => by
    simp only [expr.plain] at hp
    simp [substitute, expr.tame, expr.tame_substitute_into_plain a x V hp hV]
  | .select c t f, x, V, hp, hV => by
    simp only [expr.plain, Bool.and_eq_true] at hp
    simp [substitute, expr.tame, expr.tame_substitute_into_plain c x V hp.1.1 hV,
      expr.tame_substitute_into_plain t x V hp.1.2 hV,
      expr.tame_substitute_into_plain f x V hp.2 hV]
  | .call _ as, x, V, hp, hV => by
    simp only [expr.plain] at hp
    simp [substitute, expr.tame, expr.tame_list_substitute_into_plain as x V hp hV]
theorem expr.tame_list_substitute_into_plain : ∀ (es : List expr) (x : Nat) (V : expr),
    expr.plain_list es = true → V.tame = true →
    expr.tame_list (substitute_list es [(x, V)]) = true
  | [], x, V, hp, hV => by simp [substitute_list, expr.tame_list]
  | a :: as, x, V, hp, hV => by
    simp only [expr.plain_list, Bool.and_eq_true] at hp
    simp [substitute_list, expr.tame_list, expr.tame_substitute_into_plain a x V hp.1 hV,
      expr.tame_list_substitute_into_plain as x V hp.2 hV]
end

mutual
/-- Substituting a value without `let` that reads no symbol bound in a tame expression gives
a tame expression. -/
theorem expr.tame_substitute_plain : ∀ (e : expr) (x : Nat) (V : expr), e.tame = true →
    V.plain = true → (∀ t, t ∈ e.binders → expr.reads t V = false) →
    (substitute e [(x, V)]).tame = true
  | .var s, x, V, ht, hV, hd => by
    by_cases hs : s = x
    · subst hs
      simpa [substitute, bindings.find, List.lookup] using expr.tame_of_plain V hV
    · have hne : (s == x) = false := by simp [hs]
      simp [substitute, bindings.find, List.lookup, hne, expr.tame]
  | .wildcard _, x, V, ht, hV, hd => by simp [expr.tame] at ht
  | .constant _, x, V, ht, hV, hd => by simp [substitute, expr.tame]
  | .let_ s v b, x, V, ht, hV, hd => by
    simp only [expr.tame, Bool.and_eq_true, Bool.or_eq_true, List.all_eq_true,
      Bool.not_eq_true'] at ht
    have hdv : ∀ t, t ∈ v.binders → expr.reads t V = false := fun t h =>
      hd t (by simp [expr.binders, h])
    have hdb : ∀ t, t ∈ b.binders → expr.reads t V = false := fun t h =>
      hd t (by simp [expr.binders, h])
    have tv := expr.tame_substitute_plain v x V ht.1.1 hV hdv
    have tb := expr.tame_substitute_plain b x V ht.1.2 hV hdb
    rw [substitute_let_single]
    simp only [expr.tame, Bool.and_eq_true, Bool.or_eq_true, List.all_eq_true,
      Bool.not_eq_true']
    have hsafe : ∀ (c : expr), c.binders = b.binders →
        v.plain = true ∧ (∀ t, t ∈ b.binders → expr.reads t v = false) →
        (substitute v [(x, V)]).plain = true ∧
          ∀ t, t ∈ c.binders → expr.reads t (substitute v [(x, V)]) = false := by
      intro c hc h
      refine ⟨(substitute_plain_facts v x V h.1).2.1 hV, fun t htc => ?_⟩
      rw [hc] at htc
      cases hr : expr.reads t (substitute v [(x, V)]) with
      | false => rfl
      | true =>
        rcases expr.reads_substitute v x V t ht.1.1 hr with h1 | h1
        · rw [hdb t htc] at h1; cases h1
        · rw [h.2 t htc] at h1; cases h1.2
    by_cases hs : s = x
    · simp only [hs, if_true]
      refine ⟨⟨tv, ht.1.2⟩, ?_⟩
      rcases ht.2 with h | h
      · exact Or.inl h
      · exact Or.inr (hsafe b rfl h)
    · simp only [hs, if_false]
      refine ⟨⟨tv, tb⟩, ?_⟩
      rcases ht.2 with h | h
      · exact Or.inl ((substitute_plain_facts b x V h).2.1 hV)
      · exact Or.inr (hsafe _ (expr.binders_substitute_plain b x V hV) h)
  | .add a b, x, V, ht, hV, hd => by
    simp only [expr.tame, Bool.and_eq_true] at ht
    simp [substitute, expr.tame,
      expr.tame_substitute_plain a x V ht.1 hV (fun t h => hd t (by simp [expr.binders, h])),
      expr.tame_substitute_plain b x V ht.2 hV (fun t h => hd t (by simp [expr.binders, h]))]
  | .sub a b, x, V, ht, hV, hd => by
    simp only [expr.tame, Bool.and_eq_true] at ht
    simp [substitute, expr.tame,
      expr.tame_substitute_plain a x V ht.1 hV (fun t h => hd t (by simp [expr.binders, h])),
      expr.tame_substitute_plain b x V ht.2 hV (fun t h => hd t (by simp [expr.binders, h]))]
  | .mul a b, x, V, ht, hV, hd => by
    simp only [expr.tame, Bool.and_eq_true] at ht
    simp [substitute, expr.tame,
      expr.tame_substitute_plain a x V ht.1 hV (fun t h => hd t (by simp [expr.binders, h])),
      expr.tame_substitute_plain b x V ht.2 hV (fun t h => hd t (by simp [expr.binders, h]))]
  | .div a b, x, V, ht, hV, hd => by
    simp only [expr.tame, Bool.and_eq_true] at ht
    simp [substitute, expr.tame,
      expr.tame_substitute_plain a x V ht.1 hV (fun t h => hd t (by simp [expr.binders, h])),
      expr.tame_substitute_plain b x V ht.2 hV (fun t h => hd t (by simp [expr.binders, h]))]
  | .mod a b, x, V, ht, hV, hd => by
    simp only [expr.tame, Bool.and_eq_true] at ht
    simp [substitute, expr.tame,
      expr.tame_substitute_plain a x V ht.1 hV (fun t h => hd t (by simp [expr.binders, h])),
      expr.tame_substitute_plain b x V ht.2 hV (fun t h => hd t (by simp [expr.binders, h]))]
  | .min a b, x, V, ht, hV, hd => by
    simp only [expr.tame, Bool.and_eq_true] at ht
    simp [substitute, expr.tame,
      expr.tame_substitute_plain a x V ht.1 hV (fun t h => hd t (by simp [expr.binders, h])),
      expr.tame_substitute_plain b x V ht.2 hV (fun t h => hd t (by simp [expr.binders, h]))]
  | .max a b, x, V, ht, hV, hd => by
    simp only [expr.tame, Bool.and_eq_true] at ht
    simp [substitute, expr.tame,
      expr.tame_substitute_plain a x V ht.1 hV (fun t h => hd t (by simp [expr.binders, h])),
      expr.tame_substitute_plain b x V ht.2 hV (fun t h => hd t (by simp [expr.binders, h]))]
  | .equal a b, x, V, ht, hV, hd => by
    simp only [expr.tame, Bool.and_eq_true] at ht
    simp [substitute, expr.tame,
      expr.tame_substitute_plain a x V ht.1 hV (fun t h => hd t (by simp [expr.binders, h])),
      expr.tame_substitute_plain b x V ht.2 hV (fun t h => hd t (by simp [expr.binders, h]))]
  | .not_equal a b, x, V, ht, hV, hd => by
    simp only [expr.tame, Bool.and_eq_true] at ht
    simp [substitute, expr.tame,
      expr.tame_substitute_plain a x V ht.1 hV (fun t h => hd t (by simp [expr.binders, h])),
      expr.tame_substitute_plain b x V ht.2 hV (fun t h => hd t (by simp [expr.binders, h]))]
  | .less a b, x, V, ht, hV, hd => by
    simp only [expr.tame, Bool.and_eq_true] at ht
    simp [substitute, expr.tame,
      expr.tame_substitute_plain a x V ht.1 hV (fun t h => hd t (by simp [expr.binders, h])),
      expr.tame_substitute_plain b x V ht.2 hV (fun t h => hd t (by simp [expr.binders, h]))]
  | .less_equal a b, x, V, ht, hV, hd => by
    simp only [expr.tame, Bool.and_eq_true] at ht
    simp [substitute, expr.tame,
      expr.tame_substitute_plain a x V ht.1 hV (fun t h => hd t (by simp [expr.binders, h])),
      expr.tame_substitute_plain b x V ht.2 hV (fun t h => hd t (by simp [expr.binders, h]))]
  | .logical_and a b, x, V, ht, hV, hd => by
    simp only [expr.tame, Bool.and_eq_true] at ht
    simp [substitute, expr.tame,
      expr.tame_substitute_plain a x V ht.1 hV (fun t h => hd t (by simp [expr.binders, h])),
      expr.tame_substitute_plain b x V ht.2 hV (fun t h => hd t (by simp [expr.binders, h]))]
  | .logical_or a b, x, V, ht, hV, hd => by
    simp only [expr.tame, Bool.and_eq_true] at ht
    simp [substitute, expr.tame,
      expr.tame_substitute_plain a x V ht.1 hV (fun t h => hd t (by simp [expr.binders, h])),
      expr.tame_substitute_plain b x V ht.2 hV (fun t h => hd t (by simp [expr.binders, h]))]
  | .logical_not a, x, V, ht, hV, hd => by
    simp only [expr.tame] at ht
    simp [substitute, expr.tame,
      expr.tame_substitute_plain a x V ht hV (fun t h => hd t (by simp [expr.binders, h]))]
  | .select c e f, x, V, ht, hV, hd => by
    simp only [expr.tame, Bool.and_eq_true] at ht
    simp [substitute, expr.tame,
      expr.tame_substitute_plain c x V ht.1.1 hV (fun t h => hd t (by simp [expr.binders, h])),
      expr.tame_substitute_plain e x V ht.1.2 hV (fun t h => hd t (by simp [expr.binders, h])),
      expr.tame_substitute_plain f x V ht.2 hV (fun t h => hd t (by simp [expr.binders, h]))]
  | .call _ as, x, V, ht, hV, hd => by
    simp only [expr.tame] at ht
    simp [substitute, expr.tame,
      expr.tame_list_substitute_plain as x V ht hV (fun t h => hd t (by simp [expr.binders, h]))]
theorem expr.tame_list_substitute_plain : ∀ (es : List expr) (x : Nat) (V : expr),
    expr.tame_list es = true → V.plain = true →
    (∀ t, t ∈ expr.binders_list es → expr.reads t V = false) →
    expr.tame_list (substitute_list es [(x, V)]) = true
  | [], x, V, ht, hV, hd => by simp [substitute_list, expr.tame_list]
  | a :: as, x, V, ht, hV, hd => by
    simp only [expr.tame_list, Bool.and_eq_true] at ht
    simp [substitute_list, expr.tame_list,
      expr.tame_substitute_plain a x V ht.1 hV (fun t h => hd t (by simp [expr.binders_list, h])),
      expr.tame_list_substitute_plain as x V ht.2 hV
        (fun t h => hd t (by simp [expr.binders_list, h]))]
end

mutual
/-- Substituting a value for `x` costs no more than letting `x` count as much as the value,
when the value reads no symbol that the expression binds. -/
theorem expr.cost_substitute : ∀ (e : expr) (x : Nat) (V : expr) (ρ : Nat → Nat),
    (∀ t, t ∈ e.binders → expr.reads t V = false) →
    expr.cost (substitute e [(x, V)]) ρ ≤
      expr.cost e (fun y => if y = x then expr.cost V ρ else ρ y)
  | .var s, x, V, ρ, hd => by
    by_cases hs : s = x
    · subst hs
      simp [substitute, bindings.find, List.lookup, expr.cost]
    · have hne : (s == x) = false := by simp [hs]
      simp [substitute, bindings.find, List.lookup, hne, expr.cost, hs]
  | .wildcard _, x, V, ρ, hd => by simp [substitute, expr.cost]
  | .constant _, x, V, ρ, hd => by simp [substitute, expr.cost]
  | .let_ s v b, x, V, ρ, hd => by
    have hdv : ∀ t, t ∈ v.binders → expr.reads t V = false := fun t h =>
      hd t (by simp [expr.binders, h])
    have hdb : ∀ t, t ∈ b.binders → expr.reads t V = false := fun t h =>
      hd t (by simp [expr.binders, h])
    have hsV : expr.reads s V = false := hd s (by simp [expr.binders])
    have h1 := expr.cost_substitute v x V ρ hdv
    rw [substitute_let_single]
    simp only [expr.cost]
    by_cases hs : s = x
    · simp only [hs, if_true]
      have h2 := expr.cost_mono b
        (fun y => if y = x then expr.cost (substitute v [(x, V)]) ρ else ρ y)
        (fun y => if y = x then
            expr.cost v (fun y => if y = x then expr.cost V ρ else ρ y)
          else if y = x then expr.cost V ρ else ρ y)
        (fun y => by
          by_cases hy : y = x
          · simp only [hy, if_true]; exact h1
          · simp only [hy, if_false]; exact Nat.le_refl _)
      omega
    · simp only [hs, if_false]
      have h3 : expr.cost V
          (fun y => if y = s then expr.cost (substitute v [(x, V)]) ρ else ρ y) =
          expr.cost V ρ :=
        expr.cost_congr V _ _ (fun y hy => by
          by_cases hys : y = s
          · rw [hys, hsV] at hy; cases hy
          · simp only [hys, if_false])
      have h2 : expr.cost (substitute b [(x, V)])
          (fun y => if y = s then expr.cost (substitute v [(x, V)]) ρ else ρ y) ≤
          expr.cost b (fun y => if y = x then expr.cost V ρ
            else if y = s then expr.cost (substitute v [(x, V)]) ρ else ρ y) := by
        have := expr.cost_substitute b x V
          (fun y => if y = s then expr.cost (substitute v [(x, V)]) ρ else ρ y) hdb
        rw [h3] at this
        exact this
      have h4 := expr.cost_mono b
        (fun y => if y = x then expr.cost V ρ
          else if y = s then expr.cost (substitute v [(x, V)]) ρ else ρ y)
        (fun y => if y = s then
            expr.cost v (fun y => if y = x then expr.cost V ρ else ρ y)
          else if y = x then expr.cost V ρ else ρ y)
        (fun y => by
          dsimp only
          by_cases hy : y = x
          · have hys : ¬ y = s := fun e => hs (e.symm.trans hy)
            rw [if_pos hy, if_neg hys, if_pos hy]
          · by_cases hys : y = s
            · rw [if_neg hy, if_pos hys, if_pos hys]; exact h1
            · rw [if_neg hy, if_neg hys, if_neg hys, if_neg hy])
      omega
  | .add a b, x, V, ρ, hd => by
    have h1 := expr.cost_substitute a x V ρ (fun t h => hd t (by simp [expr.binders, h]))
    have h2 := expr.cost_substitute b x V ρ (fun t h => hd t (by simp [expr.binders, h]))
    simp only [substitute, expr.cost]
    omega
  | .sub a b, x, V, ρ, hd => by
    have h1 := expr.cost_substitute a x V ρ (fun t h => hd t (by simp [expr.binders, h]))
    have h2 := expr.cost_substitute b x V ρ (fun t h => hd t (by simp [expr.binders, h]))
    simp only [substitute, expr.cost]
    omega
  | .mul a b, x, V, ρ, hd => by
    have h1 := expr.cost_substitute a x V ρ (fun t h => hd t (by simp [expr.binders, h]))
    have h2 := expr.cost_substitute b x V ρ (fun t h => hd t (by simp [expr.binders, h]))
    simp only [substitute, expr.cost]
    omega
  | .div a b, x, V, ρ, hd => by
    have h1 := expr.cost_substitute a x V ρ (fun t h => hd t (by simp [expr.binders, h]))
    have h2 := expr.cost_substitute b x V ρ (fun t h => hd t (by simp [expr.binders, h]))
    simp only [substitute, expr.cost]
    omega
  | .mod a b, x, V, ρ, hd => by
    have h1 := expr.cost_substitute a x V ρ (fun t h => hd t (by simp [expr.binders, h]))
    have h2 := expr.cost_substitute b x V ρ (fun t h => hd t (by simp [expr.binders, h]))
    simp only [substitute, expr.cost]
    omega
  | .min a b, x, V, ρ, hd => by
    have h1 := expr.cost_substitute a x V ρ (fun t h => hd t (by simp [expr.binders, h]))
    have h2 := expr.cost_substitute b x V ρ (fun t h => hd t (by simp [expr.binders, h]))
    simp only [substitute, expr.cost]
    omega
  | .max a b, x, V, ρ, hd => by
    have h1 := expr.cost_substitute a x V ρ (fun t h => hd t (by simp [expr.binders, h]))
    have h2 := expr.cost_substitute b x V ρ (fun t h => hd t (by simp [expr.binders, h]))
    simp only [substitute, expr.cost]
    omega
  | .equal a b, x, V, ρ, hd => by
    have h1 := expr.cost_substitute a x V ρ (fun t h => hd t (by simp [expr.binders, h]))
    have h2 := expr.cost_substitute b x V ρ (fun t h => hd t (by simp [expr.binders, h]))
    simp only [substitute, expr.cost]
    omega
  | .not_equal a b, x, V, ρ, hd => by
    have h1 := expr.cost_substitute a x V ρ (fun t h => hd t (by simp [expr.binders, h]))
    have h2 := expr.cost_substitute b x V ρ (fun t h => hd t (by simp [expr.binders, h]))
    simp only [substitute, expr.cost]
    omega
  | .less a b, x, V, ρ, hd => by
    have h1 := expr.cost_substitute a x V ρ (fun t h => hd t (by simp [expr.binders, h]))
    have h2 := expr.cost_substitute b x V ρ (fun t h => hd t (by simp [expr.binders, h]))
    simp only [substitute, expr.cost]
    omega
  | .less_equal a b, x, V, ρ, hd => by
    have h1 := expr.cost_substitute a x V ρ (fun t h => hd t (by simp [expr.binders, h]))
    have h2 := expr.cost_substitute b x V ρ (fun t h => hd t (by simp [expr.binders, h]))
    simp only [substitute, expr.cost]
    omega
  | .logical_and a b, x, V, ρ, hd => by
    have h1 := expr.cost_substitute a x V ρ (fun t h => hd t (by simp [expr.binders, h]))
    have h2 := expr.cost_substitute b x V ρ (fun t h => hd t (by simp [expr.binders, h]))
    simp only [substitute, expr.cost]
    omega
  | .logical_or a b, x, V, ρ, hd => by
    have h1 := expr.cost_substitute a x V ρ (fun t h => hd t (by simp [expr.binders, h]))
    have h2 := expr.cost_substitute b x V ρ (fun t h => hd t (by simp [expr.binders, h]))
    simp only [substitute, expr.cost]
    omega
  | .logical_not a, x, V, ρ, hd => by
    have h1 := expr.cost_substitute a x V ρ (fun t h => hd t (by simp [expr.binders, h]))
    simp only [substitute, expr.cost]
    omega
  | .select c e f, x, V, ρ, hd => by
    have h1 := expr.cost_substitute c x V ρ (fun t h => hd t (by simp [expr.binders, h]))
    have h2 := expr.cost_substitute e x V ρ (fun t h => hd t (by simp [expr.binders, h]))
    have h3 := expr.cost_substitute f x V ρ (fun t h => hd t (by simp [expr.binders, h]))
    simp only [substitute, expr.cost]
    omega
  | .call _ as, x, V, ρ, hd => by
    have h1 := expr.cost_list_substitute as x V ρ (fun t h => hd t (by simp [expr.binders, h]))
    simp only [substitute, expr.cost]
    omega
theorem expr.cost_list_substitute : ∀ (es : List expr) (x : Nat) (V : expr) (ρ : Nat → Nat),
    (∀ t, t ∈ expr.binders_list es → expr.reads t V = false) →
    expr.cost_list (substitute_list es [(x, V)]) ρ ≤
      expr.cost_list es (fun y => if y = x then expr.cost V ρ else ρ y)
  | [], x, V, ρ, hd => by simp [substitute_list, expr.cost_list]
  | a :: as, x, V, ρ, hd => by
    have h1 := expr.cost_substitute a x V ρ (fun t h => hd t (by simp [expr.binders_list, h]))
    have h2 := expr.cost_list_substitute as x V ρ
      (fun t h => hd t (by simp [expr.binders_list, h]))
    simp only [substitute_list, expr.cost_list]
    omega
end

mutual
/-- A substitution into a tame expression captures nothing when the value reads no symbol
that the expression binds. -/
theorem expr.admits_of_disjoint : ∀ (e : expr) (x : Nat) (V : expr), e.tame = true →
    (∀ t, t ∈ e.binders → expr.reads t V = false) → expr.admits x V e = true
  | .var s, x, V, ht, hd => by simp [expr.admits]
  | .wildcard _, x, V, ht, hd => by simp [expr.tame] at ht
  | .constant _, x, V, ht, hd => by simp [expr.admits]
  | .let_ s v b, x, V, ht, hd => by
    simp only [expr.tame, Bool.and_eq_true] at ht
    have hsV : expr.reads s V = false := hd s (by simp [expr.binders])
    simp [expr.admits, hsV,
      expr.admits_of_disjoint v x V ht.1.1 (fun t h => hd t (by simp [expr.binders, h])),
      expr.admits_of_disjoint b x V ht.1.2 (fun t h => hd t (by simp [expr.binders, h]))]
  | .add a b, x, V, ht, hd => by
    simp only [expr.tame, Bool.and_eq_true] at ht
    simp [expr.admits,
      expr.admits_of_disjoint a x V ht.1 (fun t h => hd t (by simp [expr.binders, h])),
      expr.admits_of_disjoint b x V ht.2 (fun t h => hd t (by simp [expr.binders, h]))]
  | .sub a b, x, V, ht, hd => by
    simp only [expr.tame, Bool.and_eq_true] at ht
    simp [expr.admits,
      expr.admits_of_disjoint a x V ht.1 (fun t h => hd t (by simp [expr.binders, h])),
      expr.admits_of_disjoint b x V ht.2 (fun t h => hd t (by simp [expr.binders, h]))]
  | .mul a b, x, V, ht, hd => by
    simp only [expr.tame, Bool.and_eq_true] at ht
    simp [expr.admits,
      expr.admits_of_disjoint a x V ht.1 (fun t h => hd t (by simp [expr.binders, h])),
      expr.admits_of_disjoint b x V ht.2 (fun t h => hd t (by simp [expr.binders, h]))]
  | .div a b, x, V, ht, hd => by
    simp only [expr.tame, Bool.and_eq_true] at ht
    simp [expr.admits,
      expr.admits_of_disjoint a x V ht.1 (fun t h => hd t (by simp [expr.binders, h])),
      expr.admits_of_disjoint b x V ht.2 (fun t h => hd t (by simp [expr.binders, h]))]
  | .mod a b, x, V, ht, hd => by
    simp only [expr.tame, Bool.and_eq_true] at ht
    simp [expr.admits,
      expr.admits_of_disjoint a x V ht.1 (fun t h => hd t (by simp [expr.binders, h])),
      expr.admits_of_disjoint b x V ht.2 (fun t h => hd t (by simp [expr.binders, h]))]
  | .min a b, x, V, ht, hd => by
    simp only [expr.tame, Bool.and_eq_true] at ht
    simp [expr.admits,
      expr.admits_of_disjoint a x V ht.1 (fun t h => hd t (by simp [expr.binders, h])),
      expr.admits_of_disjoint b x V ht.2 (fun t h => hd t (by simp [expr.binders, h]))]
  | .max a b, x, V, ht, hd => by
    simp only [expr.tame, Bool.and_eq_true] at ht
    simp [expr.admits,
      expr.admits_of_disjoint a x V ht.1 (fun t h => hd t (by simp [expr.binders, h])),
      expr.admits_of_disjoint b x V ht.2 (fun t h => hd t (by simp [expr.binders, h]))]
  | .equal a b, x, V, ht, hd => by
    simp only [expr.tame, Bool.and_eq_true] at ht
    simp [expr.admits,
      expr.admits_of_disjoint a x V ht.1 (fun t h => hd t (by simp [expr.binders, h])),
      expr.admits_of_disjoint b x V ht.2 (fun t h => hd t (by simp [expr.binders, h]))]
  | .not_equal a b, x, V, ht, hd => by
    simp only [expr.tame, Bool.and_eq_true] at ht
    simp [expr.admits,
      expr.admits_of_disjoint a x V ht.1 (fun t h => hd t (by simp [expr.binders, h])),
      expr.admits_of_disjoint b x V ht.2 (fun t h => hd t (by simp [expr.binders, h]))]
  | .less a b, x, V, ht, hd => by
    simp only [expr.tame, Bool.and_eq_true] at ht
    simp [expr.admits,
      expr.admits_of_disjoint a x V ht.1 (fun t h => hd t (by simp [expr.binders, h])),
      expr.admits_of_disjoint b x V ht.2 (fun t h => hd t (by simp [expr.binders, h]))]
  | .less_equal a b, x, V, ht, hd => by
    simp only [expr.tame, Bool.and_eq_true] at ht
    simp [expr.admits,
      expr.admits_of_disjoint a x V ht.1 (fun t h => hd t (by simp [expr.binders, h])),
      expr.admits_of_disjoint b x V ht.2 (fun t h => hd t (by simp [expr.binders, h]))]
  | .logical_and a b, x, V, ht, hd => by
    simp only [expr.tame, Bool.and_eq_true] at ht
    simp [expr.admits,
      expr.admits_of_disjoint a x V ht.1 (fun t h => hd t (by simp [expr.binders, h])),
      expr.admits_of_disjoint b x V ht.2 (fun t h => hd t (by simp [expr.binders, h]))]
  | .logical_or a b, x, V, ht, hd => by
    simp only [expr.tame, Bool.and_eq_true] at ht
    simp [expr.admits,
      expr.admits_of_disjoint a x V ht.1 (fun t h => hd t (by simp [expr.binders, h])),
      expr.admits_of_disjoint b x V ht.2 (fun t h => hd t (by simp [expr.binders, h]))]
  | .logical_not a, x, V, ht, hd => by
    simp only [expr.tame] at ht
    simp [expr.admits,
      expr.admits_of_disjoint a x V ht (fun t h => hd t (by simp [expr.binders, h]))]
  | .select c e f, x, V, ht, hd => by
    simp only [expr.tame, Bool.and_eq_true] at ht
    simp [expr.admits,
      expr.admits_of_disjoint c x V ht.1.1 (fun t h => hd t (by simp [expr.binders, h])),
      expr.admits_of_disjoint e x V ht.1.2 (fun t h => hd t (by simp [expr.binders, h])),
      expr.admits_of_disjoint f x V ht.2 (fun t h => hd t (by simp [expr.binders, h]))]
  | .call _ as, x, V, ht, hd => by
    simp only [expr.tame] at ht
    simp [expr.admits,
      expr.admits_list_of_disjoint as x V ht (fun t h => hd t (by simp [expr.binders, h]))]
theorem expr.admits_list_of_disjoint : ∀ (es : List expr) (x : Nat) (V : expr),
    expr.tame_list es = true → (∀ t, t ∈ expr.binders_list es → expr.reads t V = false) →
    expr.admits_list x V es = true
  | [], x, V, ht, hd => by simp [expr.admits_list]
  | a :: as, x, V, ht, hd => by
    simp only [expr.tame_list, Bool.and_eq_true] at ht
    simp [expr.admits_list,
      expr.admits_of_disjoint a x V ht.1 (fun t h => hd t (by simp [expr.binders_list, h])),
      expr.admits_list_of_disjoint as x V ht.2
        (fun t h => hd t (by simp [expr.binders_list, h]))]
end

/-! ## Soundness of the simplifier on tame lets: proofs -/

theorem expr.alike_refl (e : expr) : expr.alike e e :=
  ⟨fun _ => rfl, rfl, fun _ => Iff.rfl, fun _ => rfl⟩

theorem expr.alike_add {x1 x2 a b : expr} (h1 : expr.alike x1 a) (h2 : expr.alike x2 b) :
    expr.alike (.add x1 x2) (.add a b) := by
  obtain ⟨c1, t1, b1, r1⟩ := h1
  obtain ⟨c2, t2, b2, r2⟩ := h2
  exact ⟨fun ρ => by simp only [expr.cost, c1 ρ, c2 ρ],
    by simp [expr.tame, t1, t2],
    fun t => by simp only [expr.binders, List.mem_append, b1 t, b2 t],
    fun t => by simp [expr.reads, r1 t, r2 t]⟩

theorem expr.alike_add_swap {x1 x2 a b : expr} (h1 : expr.alike x1 b) (h2 : expr.alike x2 a) :
    expr.alike (.add x1 x2) (.add a b) := by
  obtain ⟨c1, t1, b1, r1⟩ := h1
  obtain ⟨c2, t2, b2, r2⟩ := h2
  refine ⟨fun ρ => by simp only [expr.cost, c1 ρ, c2 ρ]; omega,
    by simp [expr.tame, t1, t2, Bool.and_comm],
    fun t => by simp only [expr.binders, List.mem_append, b1 t, b2 t]; exact or_comm,
    fun t => by simp [expr.reads, r1 t, r2 t, Bool.or_comm]⟩

theorem expr.alike_sub {x1 x2 a b : expr} (h1 : expr.alike x1 a) (h2 : expr.alike x2 b) :
    expr.alike (.sub x1 x2) (.sub a b) := by
  obtain ⟨c1, t1, b1, r1⟩ := h1
  obtain ⟨c2, t2, b2, r2⟩ := h2
  exact ⟨fun ρ => by simp only [expr.cost, c1 ρ, c2 ρ],
    by simp [expr.tame, t1, t2],
    fun t => by simp only [expr.binders, List.mem_append, b1 t, b2 t],
    fun t => by simp [expr.reads, r1 t, r2 t]⟩

theorem expr.alike_div {x1 x2 a b : expr} (h1 : expr.alike x1 a) (h2 : expr.alike x2 b) :
    expr.alike (.div x1 x2) (.div a b) := by
  obtain ⟨c1, t1, b1, r1⟩ := h1
  obtain ⟨c2, t2, b2, r2⟩ := h2
  exact ⟨fun ρ => by simp only [expr.cost, c1 ρ, c2 ρ],
    by simp [expr.tame, t1, t2],
    fun t => by simp only [expr.binders, List.mem_append, b1 t, b2 t],
    fun t => by simp [expr.reads, r1 t, r2 t]⟩

theorem expr.alike_min {x1 x2 a b : expr} (h1 : expr.alike x1 a) (h2 : expr.alike x2 b) :
    expr.alike (.min x1 x2) (.min a b) := by
  obtain ⟨c1, t1, b1, r1⟩ := h1
  obtain ⟨c2, t2, b2, r2⟩ := h2
  exact ⟨fun ρ => by simp only [expr.cost, c1 ρ, c2 ρ],
    by simp [expr.tame, t1, t2],
    fun t => by simp only [expr.binders, List.mem_append, b1 t, b2 t],
    fun t => by simp [expr.reads, r1 t, r2 t]⟩

theorem expr.alike_min_swap {x1 x2 a b : expr} (h1 : expr.alike x1 b) (h2 : expr.alike x2 a) :
    expr.alike (.min x1 x2) (.min a b) := by
  obtain ⟨c1, t1, b1, r1⟩ := h1
  obtain ⟨c2, t2, b2, r2⟩ := h2
  refine ⟨fun ρ => by simp only [expr.cost, c1 ρ, c2 ρ]; omega,
    by simp [expr.tame, t1, t2, Bool.and_comm],
    fun t => by simp only [expr.binders, List.mem_append, b1 t, b2 t]; exact or_comm,
    fun t => by simp [expr.reads, r1 t, r2 t, Bool.or_comm]⟩

theorem expr.alike_max {x1 x2 a b : expr} (h1 : expr.alike x1 a) (h2 : expr.alike x2 b) :
    expr.alike (.max x1 x2) (.max a b) := by
  obtain ⟨c1, t1, b1, r1⟩ := h1
  obtain ⟨c2, t2, b2, r2⟩ := h2
  exact ⟨fun ρ => by simp only [expr.cost, c1 ρ, c2 ρ],
    by simp [expr.tame, t1, t2],
    fun t => by simp only [expr.binders, List.mem_append, b1 t, b2 t],
    fun t => by simp [expr.reads, r1 t, r2 t]⟩

theorem expr.alike_max_swap {x1 x2 a b : expr} (h1 : expr.alike x1 b) (h2 : expr.alike x2 a) :
    expr.alike (.max x1 x2) (.max a b) := by
  obtain ⟨c1, t1, b1, r1⟩ := h1
  obtain ⟨c2, t2, b2, r2⟩ := h2
  refine ⟨fun ρ => by simp only [expr.cost, c1 ρ, c2 ρ]; omega,
    by simp [expr.tame, t1, t2, Bool.and_comm],
    fun t => by simp only [expr.binders, List.mem_append, b1 t, b2 t]; exact or_comm,
    fun t => by simp [expr.reads, r1 t, r2 t, Bool.or_comm]⟩

theorem expr.alike_call {xs es : List expr} (f : intrinsic) (h : expr.alike_list xs es) :
    expr.alike (.call f xs) (.call f es) := by
  obtain ⟨c1, t1, b1, r1⟩ := h
  exact ⟨fun ρ => by simp only [expr.cost, c1 ρ], by simp [expr.tame, t1],
    fun t => by simp only [expr.binders, b1 t], fun t => by simp [expr.reads, r1 t]⟩

theorem expr.alike_cons {x e : expr} {xs es : List expr} (h1 : expr.alike x e)
    (h2 : expr.alike_list xs es) : expr.alike_list (x :: xs) (e :: es) := by
  obtain ⟨c1, t1, b1, r1⟩ := h1
  obtain ⟨c2, t2, b2, r2⟩ := h2
  exact ⟨fun ρ => by simp only [expr.cost_list, c1 ρ, c2 ρ],
    by simp [expr.tame_list, t1, t2],
    fun t => by simp only [expr.binders_list, List.mem_append, b1 t, b2 t],
    fun t => by simp [expr.reads_list, r1 t, r2 t]⟩

/-- What a successful match of a two-operand pattern gives for cost, tameness and symbols. -/
theorem match_seq_alike {pa pb a b : expr} {m m1 m' : bindings}
    (ha : bindings.le m m1 ∧ expr.bound_in pa m1 = true ∧ expr.alike (substitute pa m1) a)
    (hb : bindings.le m1 m' ∧ expr.bound_in pb m' = true ∧ expr.alike (substitute pb m') b) :
    bindings.le m m' ∧ (expr.bound_in pa m' = true ∧ expr.bound_in pb m' = true) ∧
      expr.alike (substitute pa m') a ∧ expr.alike (substitute pb m') b := by
  obtain ⟨l1, b1, s1⟩ := ha
  obtain ⟨l2, b2, s2⟩ := hb
  have := substitute_le pa m1 m' l2 b1
  refine ⟨bindings.le_trans l1 l2, ⟨this.2, b2⟩, ?_, s2⟩
  rw [this.1]; exact s1

mutual
/-- The pattern instantiated with the result of a successful match has the cost, the tameness
and the symbols of the matched expression. -/
theorem match_alike : ∀ (p e : expr) (m m' : bindings), expr.is_pattern p = true →
    match_ p e m = some m' →
    bindings.le m m' ∧ expr.bound_in p m' = true ∧ expr.alike (substitute p m') e
  | .var s, e, m, m', _, h => by
    simp only [match_] at h
    have hb := match_bind_sound s e m m' h
    refine ⟨hb.1, by simp [expr.bound_in, hb.2], ?_⟩
    simp only [substitute, hb.2]
    exact expr.alike_refl e
  | .constant v, e, m, m', _, h => by
    cases e <;> simp only [match_] at h <;> try (exact Option.noConfusion h)
    rename_i w
    by_cases hvw : v = w
    · simp only [hvw, if_true, Option.some.injEq] at h
      subst h; subst hvw
      exact ⟨bindings.le_refl _, by simp [expr.bound_in], by simp only [substitute]; exact expr.alike_refl _⟩
    · simp [hvw] at h
  | .sub pa pb, e, m, m', hp, h => by
    cases e <;> simp only [match_] at h <;> try (exact Option.noConfusion h)
    rename_i a b
    simp only [expr.is_pattern, Bool.and_eq_true] at hp
    cases h1 : match_ pa a m with
    | none => simp [h1] at h
    | some m1 =>
      rw [h1] at h
      have r := match_seq_alike (match_alike pa a m m1 hp.1 h1) (match_alike pb b m1 m' hp.2 h)
      refine ⟨r.1, by simp [expr.bound_in, r.2.1.1, r.2.1.2], ?_⟩
      simp only [substitute]
      exact expr.alike_sub r.2.2.1 r.2.2.2
  | .div pa pb, e, m, m', hp, h => by
    cases e <;> simp only [match_] at h <;> try (exact Option.noConfusion h)
    rename_i a b
    simp only [expr.is_pattern, Bool.and_eq_true] at hp
    cases h1 : match_ pa a m with
    | none => simp [h1] at h
    | some m1 =>
      rw [h1] at h
      have r := match_seq_alike (match_alike pa a m m1 hp.1 h1) (match_alike pb b m1 m' hp.2 h)
      refine ⟨r.1, by simp [expr.bound_in, r.2.1.1, r.2.1.2], ?_⟩
      simp only [substitute]
      exact expr.alike_div r.2.2.1 r.2.2.2
  | .add pa pb, e, m, m', hp, h => by
    cases e <;> simp only [match_] at h <;> try (exact Option.noConfusion h)
    rename_i a b
    simp only [expr.is_pattern, Bool.and_eq_true] at hp
    rcases match_either_some h with h | h
    · cases h1 : match_ pa a m with
      | none => simp [h1] at h
      | some m1 =>
        rw [h1] at h
        have r := match_seq_alike (match_alike pa a m m1 hp.1 h1) (match_alike pb b m1 m' hp.2 h)
        refine ⟨r.1, by simp [expr.bound_in, r.2.1.1, r.2.1.2], ?_⟩
        simp only [substitute]
        exact expr.alike_add r.2.2.1 r.2.2.2
    · cases h1 : match_ pa b m with
      | none => simp [h1] at h
      | some m1 =>
        rw [h1] at h
        have r := match_seq_alike (match_alike pa b m m1 hp.1 h1) (match_alike pb a m1 m' hp.2 h)
        refine ⟨r.1, by simp [expr.bound_in, r.2.1.1, r.2.1.2], ?_⟩
        simp only [substitute]
        exact expr.alike_add_swap r.2.2.1 r.2.2.2
  | .min pa pb, e, m, m', hp, h => by
    cases e <;> simp only [match_] at h <;> try (exact Option.noConfusion h)
    rename_i a b
    simp only [expr.is_pattern, Bool.and_eq_true] at hp
    rcases match_either_some h with h | h
    · cases h1 : match_ pa a m with
      | none => simp [h1] at h
      | some m1 =>
        rw [h1] at h
        have r := match_seq_alike (match_alike pa a m m1 hp.1 h1) (match_alike pb b m1 m' hp.2 h)
        refine ⟨r.1, by simp [expr.bound_in, r.2.1.1, r.2.1.2], ?_⟩
        simp only [substitute]
        exact expr.alike_min r.2.2.1 r.2.2.2
    · cases h1 : match_ pa b m with
      | none => simp [h1] at h
      | some m1 =>
        rw [h1] at h
        have r := match_seq_alike (match_alike pa b m m1 hp.1 h1) (match_alike pb a m1 m' hp.2 h)
        refine ⟨r.1, by simp [expr.bound_in, r.2.1.1, r.2.1.2], ?_⟩
        simp only [substitute]
        exact expr.alike_min_swap r.2.2.1 r.2.2.2
  | .max pa pb, e, m, m', hp, h => by
    cases e <;> simp only [match_] at h <;> try (exact Option.noConfusion h)
    rename_i a b
    simp only [expr.is_pattern, Bool.and_eq_true] at hp
    rcases match_either_some h with h | h
    · cases h1 : match_ pa a m with
      | none => simp [h1] at h
      | some m1 =>
        rw [h1] at h
        have r := match_seq_alike (match_alike pa a m m1 hp.1 h1) (match_alike pb b m1 m' hp.2 h)
        refine ⟨r.1, by simp [expr.bound_in, r.2.1.1, r.2.1.2], ?_⟩
        simp only [substitute]
        exact expr.alike_max r.2.2.1 r.2.2.2
    · cases h1 : match_ pa b m with
      | none => simp [h1] at h
      | some m1 =>
        rw [h1] at h
        have r := match_seq_alike (match_alike pa b m m1 hp.1 h1) (match_alike pb a m1 m' hp.2 h)
        refine ⟨r.1, by simp [expr.bound_in, r.2.1.1, r.2.1.2], ?_⟩
        simp only [substitute]
        exact expr.alike_max_swap r.2.2.1 r.2.2.2
  | .call pf ps, e, m, m', hp, h => by
    cases e <;> simp only [match_] at h <;> try (exact Option.noConfusion h)
    rename_i f as
    simp only [expr.is_pattern] at hp
    by_cases hf : pf = f
    · subst hf
      simp only [if_true] at h
      have r := match_list_alike ps as m m' hp h
      refine ⟨r.1, by simp [expr.bound_in, r.2.1], ?_⟩
      simp only [substitute]
      exact expr.alike_call pf r.2.2
    · simp [hf] at h
  | .wildcard _, _, _, _, hp, _ => by simp [expr.is_pattern] at hp
  | .let_ _ _ _, _, _, _, hp, _ => by simp [expr.is_pattern] at hp
  | .mul _ _, _, _, _, hp, _ => by simp [expr.is_pattern] at hp
  | .mod _ _, _, _, _, hp, _ => by simp [expr.is_pattern] at hp
  | .equal _ _, _, _, _, hp, _ => by simp [expr.is_pattern] at hp
  | .not_equal _ _, _, _, _, hp, _ => by simp [expr.is_pattern] at hp
  | .less _ _, _, _, _, hp, _ => by simp [expr.is_pattern] at hp
  | .less_equal _ _, _, _, _, hp, _ => by simp [expr.is_pattern] at hp
  | .logical_and _ _, _, _, _, hp, _ => by simp [expr.is_pattern] at hp
  | .logical_or _ _, _, _, _, hp, _ => by simp [expr.is_pattern] at hp
  | .logical_not _, _, _, _, hp, _ => by simp [expr.is_pattern] at hp
  | .select _ _ _, _, _, _, hp, _ => by simp [expr.is_pattern] at hp
/-- The list version of `match_alike`. -/
theorem match_list_alike : ∀ (ps es : List expr) (m m' : bindings), expr.is_pattern_list ps = true →
    match_list ps es m = some m' →
    bindings.le m m' ∧ expr.bound_in_list ps m' = true ∧
      expr.alike_list (substitute_list ps m') es
  | [], es, m, m', _, h => by
    cases es with
    | nil =>
      simp only [match_list, Option.some.injEq] at h
      subst h
      exact ⟨bindings.le_refl _, by simp [expr.bound_in_list], fun _ => rfl, rfl, fun _ => Iff.rfl,
        fun _ => rfl⟩
    | cons a as => simp [match_list] at h
  | p :: ps, es, m, m', hp, h => by
    cases es <;> simp only [match_list] at h <;> try (exact Option.noConfusion h)
    rename_i a as
    simp only [expr.is_pattern_list, Bool.and_eq_true] at hp
    cases h1 : match_ p a m with
    | none => simp [h1] at h
    | some m1 =>
      rw [h1] at h
      obtain ⟨l1, b1, s1⟩ := match_alike p a m m1 hp.1 h1
      obtain ⟨l2, b2, s2⟩ := match_list_alike ps as m1 m' hp.2 h
      have hs := substitute_le p m1 m' l2 b1
      refine ⟨bindings.le_trans l1 l2, by simp [expr.bound_in_list, hs.2, b2], ?_⟩
      simp only [substitute_list]
      rw [hs.1]
      exact expr.alike_cons s1 s2
end

theorem tame_at_min_self (X : expr) :
    rule.tame_at (.min X X) (X) none := by
  refine ⟨?_, ⟨fun ρ => ?_, ?_⟩, fun t => ?_, fun t => ?_, ?_⟩
  · simp only [expr.tame, expr.tame_list, buffer_min, buffer_max, buffer_extent,
      Bool.and_eq_true, Bool.and_true]
    tauto
  · simp only [expr.cost, expr.cost_list, buffer_min, buffer_max, buffer_extent]
    omega
  · have := expr.cost_pos X (fun _ => 1) (fun _ => Nat.le_refl 1)
    simp only [expr.budget, expr.cost, expr.cost_list, buffer_min, buffer_max, buffer_extent]
    omega
  · simp only [expr.binders, expr.binders_list, buffer_min, buffer_max, buffer_extent,
      List.mem_append, List.append_nil, List.not_mem_nil, or_false, false_or]
    tauto
  · simp only [expr.reads, expr.reads_list, buffer_min, buffer_max, buffer_extent,
      Bool.or_eq_true, Bool.or_false, Bool.false_eq_true, or_false, false_or]
    tauto
  · intro pr h; cases h

theorem tame_at_max_self (X : expr) :
    rule.tame_at (.max X X) (X) none := by
  refine ⟨?_, ⟨fun ρ => ?_, ?_⟩, fun t => ?_, fun t => ?_, ?_⟩
  · simp only [expr.tame, expr.tame_list, buffer_min, buffer_max, buffer_extent,
      Bool.and_eq_true, Bool.and_true]
    tauto
  · simp only [expr.cost, expr.cost_list, buffer_min, buffer_max, buffer_extent]
    omega
  · have := expr.cost_pos X (fun _ => 1) (fun _ => Nat.le_refl 1)
    simp only [expr.budget, expr.cost, expr.cost_list, buffer_min, buffer_max, buffer_extent]
    omega
  · simp only [expr.binders, expr.binders_list, buffer_min, buffer_max, buffer_extent,
      List.mem_append, List.append_nil, List.not_mem_nil, or_false, false_or]
    tauto
  · simp only [expr.reads, expr.reads_list, buffer_min, buffer_max, buffer_extent,
      Bool.or_eq_true, Bool.or_false, Bool.false_eq_true, or_false, false_or]
    tauto
  · intro pr h; cases h

theorem tame_at_sub_self (X : expr) :
    rule.tame_at (.sub X X) (.constant 0) none := by
  refine ⟨?_, ⟨fun ρ => ?_, ?_⟩, fun t => ?_, fun t => ?_, ?_⟩
  · simp only [expr.tame, expr.tame_list, buffer_min, buffer_max, buffer_extent,
      Bool.and_eq_true, Bool.and_true]
    tauto
  · simp only [expr.cost, expr.cost_list, buffer_min, buffer_max, buffer_extent]
    omega
  · have := expr.cost_pos X (fun _ => 1) (fun _ => Nat.le_refl 1)
    simp only [expr.budget, expr.cost, expr.cost_list, buffer_min, buffer_max, buffer_extent]
    omega
  · simp only [expr.binders, expr.binders_list, buffer_min, buffer_max, buffer_extent,
      List.mem_append, List.append_nil, List.not_mem_nil, or_false, false_or]
    tauto
  · simp only [expr.reads, expr.reads_list, buffer_min, buffer_max, buffer_extent,
      Bool.or_eq_true, Bool.or_false, Bool.false_eq_true, or_false, false_or]
    tauto
  · intro pr h; cases h

theorem tame_at_min_div (X Y Z : expr) :
    rule.tame_at (.min (.div X Z) (.div Y Z)) (.div (.min X Y) Z) (some (.less (.constant 0) Z)) := by
  refine ⟨?_, ⟨fun ρ => ?_, ?_⟩, fun t => ?_, fun t => ?_, ?_⟩
  · simp only [expr.tame, expr.tame_list, buffer_min, buffer_max, buffer_extent,
      Bool.and_eq_true, Bool.and_true]
    tauto
  · simp only [expr.cost, expr.cost_list, buffer_min, buffer_max, buffer_extent]
    omega
  · have := expr.cost_pos X (fun _ => 1) (fun _ => Nat.le_refl 1); have := expr.cost_pos Y (fun _ => 1) (fun _ => Nat.le_refl 1); have := expr.cost_pos Z (fun _ => 1) (fun _ => Nat.le_refl 1)
    simp only [expr.budget, expr.cost, expr.cost_list, buffer_min, buffer_max, buffer_extent]
    omega
  · simp only [expr.binders, expr.binders_list, buffer_min, buffer_max, buffer_extent,
      List.mem_append, List.append_nil, List.not_mem_nil, or_false, false_or]
    tauto
  · simp only [expr.reads, expr.reads_list, buffer_min, buffer_max, buffer_extent,
      Bool.or_eq_true, Bool.or_false, Bool.false_eq_true, or_false, false_or]
    tauto
  · intro pr h
    injection h with h
    subst h
    refine ⟨?_, ?_⟩
    · simp only [expr.tame, expr.tame_list, buffer_min, buffer_max, buffer_extent,
        Bool.and_eq_true, Bool.and_true]
      tauto
    · have := expr.cost_pos X (fun _ => 1) (fun _ => Nat.le_refl 1); have := expr.cost_pos Y (fun _ => 1) (fun _ => Nat.le_refl 1); have := expr.cost_pos Z (fun _ => 1) (fun _ => Nat.le_refl 1)
      simp only [expr.budget, expr.cost, expr.cost_list, buffer_min, buffer_max,
        buffer_extent]
      omega

theorem tame_at_max_div (X Y Z : expr) :
    rule.tame_at (.max (.div X Z) (.div Y Z)) (.div (.max X Y) Z) (some (.less (.constant 0) Z)) := by
  refine ⟨?_, ⟨fun ρ => ?_, ?_⟩, fun t => ?_, fun t => ?_, ?_⟩
  · simp only [expr.tame, expr.tame_list, buffer_min, buffer_max, buffer_extent,
      Bool.and_eq_true, Bool.and_true]
    tauto
  · simp only [expr.cost, expr.cost_list, buffer_min, buffer_max, buffer_extent]
    omega
  · have := expr.cost_pos X (fun _ => 1) (fun _ => Nat.le_refl 1); have := expr.cost_pos Y (fun _ => 1) (fun _ => Nat.le_refl 1); have := expr.cost_pos Z (fun _ => 1) (fun _ => Nat.le_refl 1)
    simp only [expr.budget, expr.cost, expr.cost_list, buffer_min, buffer_max, buffer_extent]
    omega
  · simp only [expr.binders, expr.binders_list, buffer_min, buffer_max, buffer_extent,
      List.mem_append, List.append_nil, List.not_mem_nil, or_false, false_or]
    tauto
  · simp only [expr.reads, expr.reads_list, buffer_min, buffer_max, buffer_extent,
      Bool.or_eq_true, Bool.or_false, Bool.false_eq_true, or_false, false_or]
    tauto
  · intro pr h
    injection h with h
    subst h
    refine ⟨?_, ?_⟩
    · simp only [expr.tame, expr.tame_list, buffer_min, buffer_max, buffer_extent,
        Bool.and_eq_true, Bool.and_true]
      tauto
    · have := expr.cost_pos X (fun _ => 1) (fun _ => Nat.le_refl 1); have := expr.cost_pos Y (fun _ => 1) (fun _ => Nat.le_refl 1); have := expr.cost_pos Z (fun _ => 1) (fun _ => Nat.le_refl 1)
      simp only [expr.budget, expr.cost, expr.cost_list, buffer_min, buffer_max,
        buffer_extent]
      omega

theorem tame_at_min_bounds (X Y : expr) :
    rule.tame_at (.min (buffer_min X Y) (buffer_max X Y)) (buffer_min X Y) none := by
  refine ⟨?_, ⟨fun ρ => ?_, ?_⟩, fun t => ?_, fun t => ?_, ?_⟩
  · simp only [expr.tame, expr.tame_list, buffer_min, buffer_max, buffer_extent,
      Bool.and_eq_true, Bool.and_true]
    tauto
  · simp only [expr.cost, expr.cost_list, buffer_min, buffer_max, buffer_extent]
    omega
  · have := expr.cost_pos X (fun _ => 1) (fun _ => Nat.le_refl 1); have := expr.cost_pos Y (fun _ => 1) (fun _ => Nat.le_refl 1)
    simp only [expr.budget, expr.cost, expr.cost_list, buffer_min, buffer_max, buffer_extent]
    omega
  · simp only [expr.binders, expr.binders_list, buffer_min, buffer_max, buffer_extent,
      List.mem_append, List.append_nil, List.not_mem_nil, or_false, false_or]
    tauto
  · simp only [expr.reads, expr.reads_list, buffer_min, buffer_max, buffer_extent,
      Bool.or_eq_true, Bool.or_false, Bool.false_eq_true, or_false, false_or]
    tauto
  · intro pr h; cases h

theorem tame_at_max_bounds (X Y : expr) :
    rule.tame_at (.max (buffer_min X Y) (buffer_max X Y)) (buffer_max X Y) none := by
  refine ⟨?_, ⟨fun ρ => ?_, ?_⟩, fun t => ?_, fun t => ?_, ?_⟩
  · simp only [expr.tame, expr.tame_list, buffer_min, buffer_max, buffer_extent,
      Bool.and_eq_true, Bool.and_true]
    tauto
  · simp only [expr.cost, expr.cost_list, buffer_min, buffer_max, buffer_extent]
    omega
  · have := expr.cost_pos X (fun _ => 1) (fun _ => Nat.le_refl 1); have := expr.cost_pos Y (fun _ => 1) (fun _ => Nat.le_refl 1)
    simp only [expr.budget, expr.cost, expr.cost_list, buffer_min, buffer_max, buffer_extent]
    omega
  · simp only [expr.binders, expr.binders_list, buffer_min, buffer_max, buffer_extent,
      List.mem_append, List.append_nil, List.not_mem_nil, or_false, false_or]
    tauto
  · simp only [expr.reads, expr.reads_list, buffer_min, buffer_max, buffer_extent,
      Bool.or_eq_true, Bool.or_false, Bool.false_eq_true, or_false, false_or]
    tauto
  · intro pr h; cases h

theorem tame_at_extent (X Y : expr) :
    rule.tame_at (.add (.sub (buffer_max X Y) (buffer_min X Y)) (.constant 1)) (buffer_extent X Y) none := by
  refine ⟨?_, ⟨fun ρ => ?_, ?_⟩, fun t => ?_, fun t => ?_, ?_⟩
  · simp only [expr.tame, expr.tame_list, buffer_min, buffer_max, buffer_extent,
      Bool.and_eq_true, Bool.and_true]
    tauto
  · simp only [expr.cost, expr.cost_list, buffer_min, buffer_max, buffer_extent]
    omega
  · have := expr.cost_pos X (fun _ => 1) (fun _ => Nat.le_refl 1); have := expr.cost_pos Y (fun _ => 1) (fun _ => Nat.le_refl 1)
    simp only [expr.budget, expr.cost, expr.cost_list, buffer_min, buffer_max, buffer_extent]
    omega
  · simp only [expr.binders, expr.binders_list, buffer_min, buffer_max, buffer_extent,
      List.mem_append, List.append_nil, List.not_mem_nil, or_false, false_or]
    tauto
  · simp only [expr.reads, expr.reads_list, buffer_min, buffer_max, buffer_extent,
      Bool.or_eq_true, Bool.or_false, Bool.false_eq_true, or_false, false_or]
    tauto
  · intro pr h; cases h

theorem tame_at_max_of_extent (X Y : expr) :
    rule.tame_at (.sub (.add (buffer_min X Y) (buffer_extent X Y)) (.constant 1)) (buffer_max X Y) none := by
  refine ⟨?_, ⟨fun ρ => ?_, ?_⟩, fun t => ?_, fun t => ?_, ?_⟩
  · simp only [expr.tame, expr.tame_list, buffer_min, buffer_max, buffer_extent,
      Bool.and_eq_true, Bool.and_true]
    tauto
  · simp only [expr.cost, expr.cost_list, buffer_min, buffer_max, buffer_extent]
    omega
  · have := expr.cost_pos X (fun _ => 1) (fun _ => Nat.le_refl 1); have := expr.cost_pos Y (fun _ => 1) (fun _ => Nat.le_refl 1)
    simp only [expr.budget, expr.cost, expr.cost_list, buffer_min, buffer_max, buffer_extent]
    omega
  · simp only [expr.binders, expr.binders_list, buffer_min, buffer_max, buffer_extent,
      List.mem_append, List.append_nil, List.not_mem_nil, or_false, false_or]
    tauto
  · simp only [expr.reads, expr.reads_list, buffer_min, buffer_max, buffer_extent,
      Bool.or_eq_true, Bool.or_false, Bool.false_eq_true, or_false, false_or]
    tauto
  · intro pr h; cases h

theorem simplifier.min_rules_tame : ∀ rl ∈ simplifier.min_rules, rule.tame rl := by
  intro rl h
  simp only [simplifier.min_rules, List.mem_cons, List.mem_singleton, List.not_mem_nil, or_false] at h
  rcases h with h | h | h <;> subst h
  · exact fun mt => tame_at_min_self _
  · exact fun mt => tame_at_min_div _ _ _
  · exact fun mt => tame_at_min_bounds _ _

theorem simplifier.max_rules_tame : ∀ rl ∈ simplifier.max_rules, rule.tame rl := by
  intro rl h
  simp only [simplifier.max_rules, List.mem_cons, List.mem_singleton, List.not_mem_nil, or_false] at h
  rcases h with h | h | h <;> subst h
  · exact fun mt => tame_at_max_self _
  · exact fun mt => tame_at_max_div _ _ _
  · exact fun mt => tame_at_max_bounds _ _

theorem simplifier.add_rules_tame : ∀ rl ∈ simplifier.add_rules, rule.tame rl := by
  intro rl h
  simp only [simplifier.add_rules, List.mem_cons, List.mem_singleton, List.not_mem_nil, or_false] at h
  subst h
  exact fun mt => tame_at_extent _ _

theorem simplifier.sub_rules_tame : ∀ rl ∈ simplifier.sub_rules, rule.tame rl := by
  intro rl h
  simp only [simplifier.sub_rules, List.mem_cons, List.mem_singleton, List.not_mem_nil, or_false] at h
  rcases h with h | h <;> subst h
  · exact fun mt => tame_at_sub_self _
  · exact fun mt => tame_at_max_of_extent _ _

theorem simplifier.improves_trans {e e1 e2 : expr} (h1 : simplifier.improves e e1)
    (h2 : simplifier.improves e1 e2) : simplifier.improves e e2 :=
  ⟨⟨h2.1.1, fun t h => h1.1.2.1 t (h2.1.2.1 t h), fun t h => h1.1.2.2 t (h2.1.2.2 t h)⟩,
    fun hp => h2.2.1 (h1.2.1 hp), fun ρ => Nat.le_trans (h2.2.2.1 ρ) (h1.2.2.1 ρ),
    fun rt ctx v hrt hv => h2.2.2.2 rt ctx v hrt (h1.2.2.2 rt ctx v hrt hv)⟩

theorem simplifier.improves_self {e : expr} (hp : e.tame = true) : simplifier.improves e e :=
  ⟨⟨hp, fun _ h => h, fun _ h => h⟩, fun h => h, fun _ => Nat.le_refl _, fun _ _ _ _ h => h⟩

theorem simplifier.improves_add {a b a' b' : expr} (ha : simplifier.improves a a')
    (hb : simplifier.improves b b') : simplifier.improves (.add a b) (.add a' b') := by
  refine ⟨⟨by simp [expr.tame, ha.1.1, hb.1.1], fun t h => ?_, fun t h => ?_⟩,
    fun hp => by
      simp only [expr.plain, Bool.and_eq_true] at hp
      simp [expr.plain, ha.2.1 hp.1, hb.2.1 hp.2],
    fun ρ => by simp only [expr.cost]; have := ha.2.2.1 ρ; have := hb.2.2.1 ρ; omega,
    fun rt ctx v hrt hv => ?_⟩
  · simp only [expr.binders, List.mem_append] at h ⊢
    rcases h with h | h
    · exact Or.inl (ha.1.2.1 t h)
    · exact Or.inr (hb.1.2.1 t h)
  · simp only [expr.reads, Bool.or_eq_true] at h ⊢
    rcases h with h | h
    · exact Or.inl (ha.1.2.2 t h)
    · exact Or.inr (hb.1.2.2 t h)
  simp only [eval_expr] at hv ⊢
  cases hx : eval_expr rt a ctx with
  | none => simp [hx] at hv
  | some x =>
    cases hy : eval_expr rt b ctx with
    | none => simp [hx, hy] at hv
    | some y =>
      rw [ha.2.2.2 rt ctx x hrt hx, hb.2.2.2 rt ctx y hrt hy]
      simpa [hx, hy] using hv

theorem simplifier.improves_sub {a b a' b' : expr} (ha : simplifier.improves a a')
    (hb : simplifier.improves b b') : simplifier.improves (.sub a b) (.sub a' b') := by
  refine ⟨⟨by simp [expr.tame, ha.1.1, hb.1.1], fun t h => ?_, fun t h => ?_⟩,
    fun hp => by
      simp only [expr.plain, Bool.and_eq_true] at hp
      simp [expr.plain, ha.2.1 hp.1, hb.2.1 hp.2],
    fun ρ => by simp only [expr.cost]; have := ha.2.2.1 ρ; have := hb.2.2.1 ρ; omega,
    fun rt ctx v hrt hv => ?_⟩
  · simp only [expr.binders, List.mem_append] at h ⊢
    rcases h with h | h
    · exact Or.inl (ha.1.2.1 t h)
    · exact Or.inr (hb.1.2.1 t h)
  · simp only [expr.reads, Bool.or_eq_true] at h ⊢
    rcases h with h | h
    · exact Or.inl (ha.1.2.2 t h)
    · exact Or.inr (hb.1.2.2 t h)
  simp only [eval_expr] at hv ⊢
  cases hx : eval_expr rt a ctx with
  | none => simp [hx] at hv
  | some x =>
    cases hy : eval_expr rt b ctx with
    | none => simp [hx, hy] at hv
    | some y =>
      rw [ha.2.2.2 rt ctx x hrt hx, hb.2.2.2 rt ctx y hrt hy]
      simpa [hx, hy] using hv

theorem simplifier.improves_mul {a b a' b' : expr} (ha : simplifier.improves a a')
    (hb : simplifier.improves b b') : simplifier.improves (.mul a b) (.mul a' b') := by
  refine ⟨⟨by simp [expr.tame, ha.1.1, hb.1.1], fun t h => ?_, fun t h => ?_⟩,
    fun hp => by
      simp only [expr.plain, Bool.and_eq_true] at hp
      simp [expr.plain, ha.2.1 hp.1, hb.2.1 hp.2],
    fun ρ => by simp only [expr.cost]; have := ha.2.2.1 ρ; have := hb.2.2.1 ρ; omega,
    fun rt ctx v hrt hv => ?_⟩
  · simp only [expr.binders, List.mem_append] at h ⊢
    rcases h with h | h
    · exact Or.inl (ha.1.2.1 t h)
    · exact Or.inr (hb.1.2.1 t h)
  · simp only [expr.reads, Bool.or_eq_true] at h ⊢
    rcases h with h | h
    · exact Or.inl (ha.1.2.2 t h)
    · exact Or.inr (hb.1.2.2 t h)
  simp only [eval_expr] at hv ⊢
  cases hx : eval_expr rt a ctx with
  | none => simp [hx] at hv
  | some x =>
    cases hy : eval_expr rt b ctx with
    | none => simp [hx, hy] at hv
    | some y =>
      rw [ha.2.2.2 rt ctx x hrt hx, hb.2.2.2 rt ctx y hrt hy]
      simpa [hx, hy] using hv

theorem simplifier.improves_div {a b a' b' : expr} (ha : simplifier.improves a a')
    (hb : simplifier.improves b b') : simplifier.improves (.div a b) (.div a' b') := by
  refine ⟨⟨by simp [expr.tame, ha.1.1, hb.1.1], fun t h => ?_, fun t h => ?_⟩,
    fun hp => by
      simp only [expr.plain, Bool.and_eq_true] at hp
      simp [expr.plain, ha.2.1 hp.1, hb.2.1 hp.2],
    fun ρ => by simp only [expr.cost]; have := ha.2.2.1 ρ; have := hb.2.2.1 ρ; omega,
    fun rt ctx v hrt hv => ?_⟩
  · simp only [expr.binders, List.mem_append] at h ⊢
    rcases h with h | h
    · exact Or.inl (ha.1.2.1 t h)
    · exact Or.inr (hb.1.2.1 t h)
  · simp only [expr.reads, Bool.or_eq_true] at h ⊢
    rcases h with h | h
    · exact Or.inl (ha.1.2.2 t h)
    · exact Or.inr (hb.1.2.2 t h)
  simp only [eval_expr] at hv ⊢
  cases hx : eval_expr rt a ctx with
  | none => simp [hx] at hv
  | some x =>
    cases hy : eval_expr rt b ctx with
    | none => simp [hx, hy] at hv
    | some y =>
      rw [ha.2.2.2 rt ctx x hrt hx, hb.2.2.2 rt ctx y hrt hy]
      simpa [hx, hy] using hv

theorem simplifier.improves_mod {a b a' b' : expr} (ha : simplifier.improves a a')
    (hb : simplifier.improves b b') : simplifier.improves (.mod a b) (.mod a' b') := by
  refine ⟨⟨by simp [expr.tame, ha.1.1, hb.1.1], fun t h => ?_, fun t h => ?_⟩,
    fun hp => by
      simp only [expr.plain, Bool.and_eq_true] at hp
      simp [expr.plain, ha.2.1 hp.1, hb.2.1 hp.2],
    fun ρ => by simp only [expr.cost]; have := ha.2.2.1 ρ; have := hb.2.2.1 ρ; omega,
    fun rt ctx v hrt hv => ?_⟩
  · simp only [expr.binders, List.mem_append] at h ⊢
    rcases h with h | h
    · exact Or.inl (ha.1.2.1 t h)
    · exact Or.inr (hb.1.2.1 t h)
  · simp only [expr.reads, Bool.or_eq_true] at h ⊢
    rcases h with h | h
    · exact Or.inl (ha.1.2.2 t h)
    · exact Or.inr (hb.1.2.2 t h)
  simp only [eval_expr] at hv ⊢
  cases hx : eval_expr rt a ctx with
  | none => simp [hx] at hv
  | some x =>
    cases hy : eval_expr rt b ctx with
    | none => simp [hx, hy] at hv
    | some y =>
      rw [ha.2.2.2 rt ctx x hrt hx, hb.2.2.2 rt ctx y hrt hy]
      simpa [hx, hy] using hv

theorem simplifier.improves_min {a b a' b' : expr} (ha : simplifier.improves a a')
    (hb : simplifier.improves b b') : simplifier.improves (.min a b) (.min a' b') := by
  refine ⟨⟨by simp [expr.tame, ha.1.1, hb.1.1], fun t h => ?_, fun t h => ?_⟩,
    fun hp => by
      simp only [expr.plain, Bool.and_eq_true] at hp
      simp [expr.plain, ha.2.1 hp.1, hb.2.1 hp.2],
    fun ρ => by simp only [expr.cost]; have := ha.2.2.1 ρ; have := hb.2.2.1 ρ; omega,
    fun rt ctx v hrt hv => ?_⟩
  · simp only [expr.binders, List.mem_append] at h ⊢
    rcases h with h | h
    · exact Or.inl (ha.1.2.1 t h)
    · exact Or.inr (hb.1.2.1 t h)
  · simp only [expr.reads, Bool.or_eq_true] at h ⊢
    rcases h with h | h
    · exact Or.inl (ha.1.2.2 t h)
    · exact Or.inr (hb.1.2.2 t h)
  simp only [eval_expr] at hv ⊢
  cases hx : eval_expr rt a ctx with
  | none => simp [hx] at hv
  | some x =>
    cases hy : eval_expr rt b ctx with
    | none => simp [hx, hy] at hv
    | some y =>
      rw [ha.2.2.2 rt ctx x hrt hx, hb.2.2.2 rt ctx y hrt hy]
      simpa [hx, hy] using hv

theorem simplifier.improves_max {a b a' b' : expr} (ha : simplifier.improves a a')
    (hb : simplifier.improves b b') : simplifier.improves (.max a b) (.max a' b') := by
  refine ⟨⟨by simp [expr.tame, ha.1.1, hb.1.1], fun t h => ?_, fun t h => ?_⟩,
    fun hp => by
      simp only [expr.plain, Bool.and_eq_true] at hp
      simp [expr.plain, ha.2.1 hp.1, hb.2.1 hp.2],
    fun ρ => by simp only [expr.cost]; have := ha.2.2.1 ρ; have := hb.2.2.1 ρ; omega,
    fun rt ctx v hrt hv => ?_⟩
  · simp only [expr.binders, List.mem_append] at h ⊢
    rcases h with h | h
    · exact Or.inl (ha.1.2.1 t h)
    · exact Or.inr (hb.1.2.1 t h)
  · simp only [expr.reads, Bool.or_eq_true] at h ⊢
    rcases h with h | h
    · exact Or.inl (ha.1.2.2 t h)
    · exact Or.inr (hb.1.2.2 t h)
  simp only [eval_expr] at hv ⊢
  cases hx : eval_expr rt a ctx with
  | none => simp [hx] at hv
  | some x =>
    cases hy : eval_expr rt b ctx with
    | none => simp [hx, hy] at hv
    | some y =>
      rw [ha.2.2.2 rt ctx x hrt hx, hb.2.2.2 rt ctx y hrt hy]
      simpa [hx, hy] using hv

theorem simplifier.improves_equal {a b a' b' : expr} (ha : simplifier.improves a a')
    (hb : simplifier.improves b b') : simplifier.improves (.equal a b) (.equal a' b') := by
  refine ⟨⟨by simp [expr.tame, ha.1.1, hb.1.1], fun t h => ?_, fun t h => ?_⟩,
    fun hp => by
      simp only [expr.plain, Bool.and_eq_true] at hp
      simp [expr.plain, ha.2.1 hp.1, hb.2.1 hp.2],
    fun ρ => by simp only [expr.cost]; have := ha.2.2.1 ρ; have := hb.2.2.1 ρ; omega,
    fun rt ctx v hrt hv => ?_⟩
  · simp only [expr.binders, List.mem_append] at h ⊢
    rcases h with h | h
    · exact Or.inl (ha.1.2.1 t h)
    · exact Or.inr (hb.1.2.1 t h)
  · simp only [expr.reads, Bool.or_eq_true] at h ⊢
    rcases h with h | h
    · exact Or.inl (ha.1.2.2 t h)
    · exact Or.inr (hb.1.2.2 t h)
  simp only [eval_expr] at hv ⊢
  cases hx : eval_expr rt a ctx with
  | none => simp [hx] at hv
  | some x =>
    cases hy : eval_expr rt b ctx with
    | none => simp [hx, hy] at hv
    | some y =>
      rw [ha.2.2.2 rt ctx x hrt hx, hb.2.2.2 rt ctx y hrt hy]
      simpa [hx, hy] using hv

theorem simplifier.improves_not_equal {a b a' b' : expr} (ha : simplifier.improves a a')
    (hb : simplifier.improves b b') : simplifier.improves (.not_equal a b) (.not_equal a' b') := by
  refine ⟨⟨by simp [expr.tame, ha.1.1, hb.1.1], fun t h => ?_, fun t h => ?_⟩,
    fun hp => by
      simp only [expr.plain, Bool.and_eq_true] at hp
      simp [expr.plain, ha.2.1 hp.1, hb.2.1 hp.2],
    fun ρ => by simp only [expr.cost]; have := ha.2.2.1 ρ; have := hb.2.2.1 ρ; omega,
    fun rt ctx v hrt hv => ?_⟩
  · simp only [expr.binders, List.mem_append] at h ⊢
    rcases h with h | h
    · exact Or.inl (ha.1.2.1 t h)
    · exact Or.inr (hb.1.2.1 t h)
  · simp only [expr.reads, Bool.or_eq_true] at h ⊢
    rcases h with h | h
    · exact Or.inl (ha.1.2.2 t h)
    · exact Or.inr (hb.1.2.2 t h)
  simp only [eval_expr] at hv ⊢
  cases hx : eval_expr rt a ctx with
  | none => simp [hx] at hv
  | some x =>
    cases hy : eval_expr rt b ctx with
    | none => simp [hx, hy] at hv
    | some y =>
      rw [ha.2.2.2 rt ctx x hrt hx, hb.2.2.2 rt ctx y hrt hy]
      simpa [hx, hy] using hv

theorem simplifier.improves_less {a b a' b' : expr} (ha : simplifier.improves a a')
    (hb : simplifier.improves b b') : simplifier.improves (.less a b) (.less a' b') := by
  refine ⟨⟨by simp [expr.tame, ha.1.1, hb.1.1], fun t h => ?_, fun t h => ?_⟩,
    fun hp => by
      simp only [expr.plain, Bool.and_eq_true] at hp
      simp [expr.plain, ha.2.1 hp.1, hb.2.1 hp.2],
    fun ρ => by simp only [expr.cost]; have := ha.2.2.1 ρ; have := hb.2.2.1 ρ; omega,
    fun rt ctx v hrt hv => ?_⟩
  · simp only [expr.binders, List.mem_append] at h ⊢
    rcases h with h | h
    · exact Or.inl (ha.1.2.1 t h)
    · exact Or.inr (hb.1.2.1 t h)
  · simp only [expr.reads, Bool.or_eq_true] at h ⊢
    rcases h with h | h
    · exact Or.inl (ha.1.2.2 t h)
    · exact Or.inr (hb.1.2.2 t h)
  simp only [eval_expr] at hv ⊢
  cases hx : eval_expr rt a ctx with
  | none => simp [hx] at hv
  | some x =>
    cases hy : eval_expr rt b ctx with
    | none => simp [hx, hy] at hv
    | some y =>
      rw [ha.2.2.2 rt ctx x hrt hx, hb.2.2.2 rt ctx y hrt hy]
      simpa [hx, hy] using hv

theorem simplifier.improves_less_equal {a b a' b' : expr} (ha : simplifier.improves a a')
    (hb : simplifier.improves b b') : simplifier.improves (.less_equal a b) (.less_equal a' b') := by
  refine ⟨⟨by simp [expr.tame, ha.1.1, hb.1.1], fun t h => ?_, fun t h => ?_⟩,
    fun hp => by
      simp only [expr.plain, Bool.and_eq_true] at hp
      simp [expr.plain, ha.2.1 hp.1, hb.2.1 hp.2],
    fun ρ => by simp only [expr.cost]; have := ha.2.2.1 ρ; have := hb.2.2.1 ρ; omega,
    fun rt ctx v hrt hv => ?_⟩
  · simp only [expr.binders, List.mem_append] at h ⊢
    rcases h with h | h
    · exact Or.inl (ha.1.2.1 t h)
    · exact Or.inr (hb.1.2.1 t h)
  · simp only [expr.reads, Bool.or_eq_true] at h ⊢
    rcases h with h | h
    · exact Or.inl (ha.1.2.2 t h)
    · exact Or.inr (hb.1.2.2 t h)
  simp only [eval_expr] at hv ⊢
  cases hx : eval_expr rt a ctx with
  | none => simp [hx] at hv
  | some x =>
    cases hy : eval_expr rt b ctx with
    | none => simp [hx, hy] at hv
    | some y =>
      rw [ha.2.2.2 rt ctx x hrt hx, hb.2.2.2 rt ctx y hrt hy]
      simpa [hx, hy] using hv

theorem simplifier.improves_logical_and {a b a' b' : expr} (ha : simplifier.improves a a')
    (hb : simplifier.improves b b') : simplifier.improves (.logical_and a b) (.logical_and a' b') := by
  refine ⟨⟨by simp [expr.tame, ha.1.1, hb.1.1], fun t h => ?_, fun t h => ?_⟩,
    fun hp => by
      simp only [expr.plain, Bool.and_eq_true] at hp
      simp [expr.plain, ha.2.1 hp.1, hb.2.1 hp.2],
    fun ρ => by simp only [expr.cost]; have := ha.2.2.1 ρ; have := hb.2.2.1 ρ; omega,
    fun rt ctx v hrt hv => ?_⟩
  · simp only [expr.binders, List.mem_append] at h ⊢
    rcases h with h | h
    · exact Or.inl (ha.1.2.1 t h)
    · exact Or.inr (hb.1.2.1 t h)
  · simp only [expr.reads, Bool.or_eq_true] at h ⊢
    rcases h with h | h
    · exact Or.inl (ha.1.2.2 t h)
    · exact Or.inr (hb.1.2.2 t h)
  simp only [eval_expr] at hv ⊢
  cases hx : eval_expr rt a ctx with
  | none => simp [hx] at hv
  | some x =>
    rw [ha.2.2.2 rt ctx x hrt hx]
    simp only [hx] at hv ⊢
    by_cases h0 : x = 0
    · simpa [h0] using hv
    · simp only [h0, if_false, ne_eq, not_false_eq_true, if_true] at hv ⊢
      first
        | exact hv
        | (cases hy : eval_expr rt b ctx with
           | none => simp [hy] at hv
           | some y =>
             rw [hb.2.2.2 rt ctx y hrt hy]
             simpa [hy] using hv)

theorem simplifier.improves_logical_or {a b a' b' : expr} (ha : simplifier.improves a a')
    (hb : simplifier.improves b b') : simplifier.improves (.logical_or a b) (.logical_or a' b') := by
  refine ⟨⟨by simp [expr.tame, ha.1.1, hb.1.1], fun t h => ?_, fun t h => ?_⟩,
    fun hp => by
      simp only [expr.plain, Bool.and_eq_true] at hp
      simp [expr.plain, ha.2.1 hp.1, hb.2.1 hp.2],
    fun ρ => by simp only [expr.cost]; have := ha.2.2.1 ρ; have := hb.2.2.1 ρ; omega,
    fun rt ctx v hrt hv => ?_⟩
  · simp only [expr.binders, List.mem_append] at h ⊢
    rcases h with h | h
    · exact Or.inl (ha.1.2.1 t h)
    · exact Or.inr (hb.1.2.1 t h)
  · simp only [expr.reads, Bool.or_eq_true] at h ⊢
    rcases h with h | h
    · exact Or.inl (ha.1.2.2 t h)
    · exact Or.inr (hb.1.2.2 t h)
  simp only [eval_expr] at hv ⊢
  cases hx : eval_expr rt a ctx with
  | none => simp [hx] at hv
  | some x =>
    rw [ha.2.2.2 rt ctx x hrt hx]
    simp only [hx] at hv ⊢
    by_cases h0 : x = 0
    · simp only [h0, ne_eq, not_true_eq_false, if_false] at hv ⊢
      cases hy : eval_expr rt b ctx with
      | none => simp [hy] at hv
      | some y =>
        rw [hb.2.2.2 rt ctx y hrt hy]
        simpa [hy] using hv
    · simpa [h0] using hv

theorem simplifier.improves_logical_not {a a' : expr} (ha : simplifier.improves a a') :
    simplifier.improves (.logical_not a) (.logical_not a') := by
  refine ⟨⟨by simp [expr.tame, ha.1.1], fun t h => ?_, fun t h => ?_⟩,
    fun hp => by
      simp only [expr.plain] at hp
      simp [expr.plain, ha.2.1 hp],
    fun ρ => by simp only [expr.cost]; have := ha.2.2.1 ρ; omega, fun rt ctx v hrt hv => ?_⟩
  · simp only [expr.binders] at h ⊢
    exact ha.1.2.1 t h
  · simp only [expr.reads] at h ⊢
    exact ha.1.2.2 t h
  simp only [eval_expr] at hv ⊢
  cases hx : eval_expr rt a ctx with
  | none => simp [hx] at hv
  | some x =>
    rw [ha.2.2.2 rt ctx x hrt hx]
    simpa [hx] using hv

theorem simplifier.improves_select {c t f c' t' f' : expr} (hc : simplifier.improves c c')
    (ht : simplifier.improves t t') (hf : simplifier.improves f f') :
    simplifier.improves (.select c t f) (.select c' t' f') := by
  refine ⟨⟨by simp [expr.tame, hc.1.1, ht.1.1, hf.1.1], fun s h => ?_, fun s h => ?_⟩,
    fun hp => by
      simp only [expr.plain, Bool.and_eq_true] at hp
      simp [expr.plain, hc.2.1 hp.1.1, ht.2.1 hp.1.2, hf.2.1 hp.2],
    fun ρ => by
      simp only [expr.cost]
      have := hc.2.2.1 ρ; have := ht.2.2.1 ρ; have := hf.2.2.1 ρ; omega,
    fun rt ctx v hrt hv => ?_⟩
  · simp only [expr.binders, List.mem_append] at h ⊢
    rcases h with (h | h) | h
    · exact Or.inl (Or.inl (hc.1.2.1 s h))
    · exact Or.inl (Or.inr (ht.1.2.1 s h))
    · exact Or.inr (hf.1.2.1 s h)
  · simp only [expr.reads, Bool.or_eq_true] at h ⊢
    rcases h with (h | h) | h
    · exact Or.inl (Or.inl (hc.1.2.2 s h))
    · exact Or.inl (Or.inr (ht.1.2.2 s h))
    · exact Or.inr (hf.1.2.2 s h)
  simp only [eval_expr] at hv ⊢
  cases hx : eval_expr rt c ctx with
  | none => simp [hx] at hv
  | some x =>
    rw [hc.2.2.2 rt ctx x hrt hx]
    simp only [hx] at hv ⊢
    by_cases h0 : x = 0
    · simp only [h0, ne_eq, not_true_eq_false, if_false] at hv ⊢
      exact hf.2.2.2 rt ctx v hrt hv
    · simp only [h0, ne_eq, not_false_eq_true, if_true] at hv ⊢
      exact ht.2.2.2 rt ctx v hrt hv

theorem simplifier.improves_fold_add (ca cb : Int) :
    simplifier.improves (.add (.constant ca) (.constant cb)) (.constant (wrap (ca + cb))) :=
  ⟨⟨rfl, fun t h => by simp [expr.binders] at h, fun t h => by simp [expr.reads] at h⟩,
    fun _ => rfl, fun ρ => by simp [expr.cost],
    fun rt ctx v _ hv => by simpa [eval_expr] using hv⟩

theorem simplifier.improves_fold_sub (ca cb : Int) :
    simplifier.improves (.sub (.constant ca) (.constant cb)) (.constant (wrap (ca - cb))) :=
  ⟨⟨rfl, fun t h => by simp [expr.binders] at h, fun t h => by simp [expr.reads] at h⟩,
    fun _ => rfl, fun ρ => by simp [expr.cost],
    fun rt ctx v _ hv => by simpa [eval_expr] using hv⟩

theorem simplifier.improves_fold_min (ca cb : Int) :
    simplifier.improves (.min (.constant ca) (.constant cb)) (.constant (Min.min ca cb)) :=
  ⟨⟨rfl, fun t h => by simp [expr.binders] at h, fun t h => by simp [expr.reads] at h⟩,
    fun _ => rfl, fun ρ => by simp [expr.cost],
    fun rt ctx v _ hv => by simpa [eval_expr] using hv⟩

theorem simplifier.improves_fold_max (ca cb : Int) :
    simplifier.improves (.max (.constant ca) (.constant cb)) (.constant (Max.max ca cb)) :=
  ⟨⟨rfl, fun t h => by simp [expr.binders] at h, fun t h => by simp [expr.reads] at h⟩,
    fun _ => rfl, fun ρ => by simp [expr.cost],
    fun rt ctx v _ hv => by simpa [eval_expr] using hv⟩

theorem simplifier.improves_fold_less (ca cb : Int) :
    simplifier.improves (.less (.constant ca) (.constant cb)) (.constant (bool_to_index (decide (ca < cb)))) :=
  ⟨⟨rfl, fun t h => by simp [expr.binders] at h, fun t h => by simp [expr.reads] at h⟩,
    fun _ => rfl, fun ρ => by simp [expr.cost],
    fun rt ctx v _ hv => by simpa [eval_expr] using hv⟩

theorem simplifier.improves_call {fn : intrinsic} {as as' : List expr}
    (hp : expr.tame_list as' = true)
    (hb : ∀ t, t ∈ expr.binders_list as' → t ∈ expr.binders_list as)
    (hr : ∀ t, expr.reads_list t as' = true → expr.reads_list t as = true)
    (hpl : expr.plain_list as = true → expr.plain_list as' = true)
    (hs : ∀ ρ, expr.cost_list as' ρ ≤ expr.cost_list as ρ)
    (hv : ∀ (rt : buffer_runtime) (ctx : eval_context) (vs : List Int), rt.nonempty_dims →
      eval_expr_list rt as ctx = some vs → eval_expr_list rt as' ctx = some vs) :
    simplifier.improves (.call fn as) (.call fn as') := by
  refine ⟨⟨by simpa [expr.tame] using hp, fun t h => by simpa [expr.binders] using hb t (by simpa [expr.binders] using h),
    fun t h => by simpa [expr.reads] using hr t (by simpa [expr.reads] using h)⟩,
    fun h => by simpa [expr.plain] using hpl (by simpa [expr.plain] using h),
    fun ρ => by simp only [expr.cost]; have := hs ρ; omega, fun rt ctx v hrt h => ?_⟩
  simp only [eval_expr] at h ⊢
  cases hx : eval_expr_list rt as ctx with
  | none => simp [hx] at h
  | some vs =>
    rw [hv rt ctx vs hrt hx]
    simpa [hx] using h

theorem simplifier.counted_reads_constant (v : Int) (r r' : symbol_map Int) :
    simplifier.counted (fun s => expr.reads s (.constant v)) r r' := by
  intro s c hm _
  simp [expr.reads] at hm

/-- The counts of the result of a rule table, from the counts of the node it was applied
to, for the symbols that are read. -/
theorem simplifier.counted_reads_rules {e e' : expr} {r r' r'' : symbol_map Int}
    (hk : ∀ s c, r.lookup s = some c → ∃ c', r'.lookup s = some c' ∧ c ≤ c')
    (hc : simplifier.counted (fun s => expr.reads s e) r r')
    (h : (e' = e ∧ r'' = r') ∨ simplifier.counted (fun s => expr.reads s e') r' r'') :
    simplifier.counted (fun s => expr.reads s e') r r'' := by
  rcases h with ⟨h1, h2⟩ | h3
  · rw [h1, h2]; exact hc
  · exact simplifier.counted_after hk h3

theorem expr.budget_pos (e : expr) : 1 ≤ e.budget :=
  expr.cost_pos e (fun _ => 1) (fun _ => Nat.le_refl 1)

theorem simplifier.apply_rules_tame {f : expr → symbol_map Int → mutated} {n : Nat}
    (hf : simplifier.tame_upto f n) :
    ∀ (rules : List rule), (∀ rl ∈ rules, rule.sound rl) → (∀ rl ∈ rules, rule.tame rl) →
      ∀ (e : expr) (r : symbol_map Int), e.tame = true → e.budget ≤ n + 1 →
      ∃ e' r', simplifier.apply_rules f rules e r = some (e', r') ∧ simplifier.improves e e' ∧
        ((e' = e ∧ r' = r) ∨ simplifier.counted (fun s => expr.reads s e') r r')
  | [], _, _, e, r, hp, _ =>
    ⟨e, r, rfl, simplifier.improves_self hp, Or.inl ⟨rfl, rfl⟩⟩
  | rl :: rules, hs, ht, e, r, hp, hn => by
    have ih := simplifier.apply_rules_tame hf rules
      (fun x hx => hs x (List.mem_cons_of_mem _ hx))
      (fun x hx => ht x (List.mem_cons_of_mem _ hx)) e r hp hn
    unfold simplifier.apply_rules
    cases hm : match_ rl.pattern e [] with
    | none => exact ih
    | some mt =>
      simp only
      obtain ⟨hpat, hsound⟩ := hs rl (List.mem_cons_self _ _)
      obtain ⟨_, _, _, hpl, _, hev⟩ := match_sound rl.pattern e [] mt hpat hm
      obtain ⟨_, _, hcost, htm, hbd, hrd⟩ := match_alike rl.pattern e [] mt hpat hm
      obtain ⟨h1, _, _, _, h4⟩ := hsound mt
      obtain ⟨t1, ⟨t2, t3⟩, t4, t5, t6⟩ := ht rl (List.mem_cons_self _ _) mt
      have hPt : (substitute rl.pattern mt).tame = true := by rw [htm]; exact hp
      have hPb : (substitute rl.pattern mt).budget = e.budget := hcost (fun _ => 1)
      have hRt : (substitute rl.replacement mt).tame = true := t1 hPt
      have hRs : (substitute rl.replacement mt).budget ≤ n := by omega
      obtain ⟨e', r', hfe, hgood, hcnt⟩ := hf (substitute rl.replacement mt) r hRt hRs
      have hres : simplifier.improves e e' →
          ∃ e'' r'', f (substitute rl.replacement mt) r = some (e'', r'') ∧
            simplifier.improves e e'' ∧
              ((e'' = e ∧ r'' = r) ∨ simplifier.counted (fun s => expr.reads s e'') r r'') :=
        fun h => ⟨e', r', hfe, h, Or.inr hcnt⟩
      have hbase : (∀ (rt : buffer_runtime) (ctx : eval_context) (v : Int), rt.nonempty_dims →
            eval_expr rt e ctx = some v → eval_expr rt e' ctx = some v) →
          simplifier.improves e e' := fun hv =>
        ⟨⟨hgood.1.1, fun t h => (hbd t).1 (t4 t (hgood.1.2.1 t h)),
            fun t h => by rw [← hrd t]; exact t5 t (hgood.1.2.2 t h)⟩,
          fun hpe => hgood.2.1 (h1 (by rw [hpl]; exact hpe)),
          fun ρ => by have := hgood.2.2.1 ρ; have := t2 ρ; have := hcost ρ; omega, hv⟩
      cases hpr : rl.predicate with
      | none =>
        simp only
        refine hres (hbase fun rt ctx v hrt hv => ?_)
        have hv' : eval_expr rt (substitute rl.pattern mt) ctx = some v := by rw [hev]; exact hv
        have := (h4 rt ctx v hrt hv').2 (fun pr w hq _ => by rw [hpr] at hq; cases hq)
        exact hgood.2.2.2 rt ctx v hrt this
      | some pr =>
        simp only
        have hq : rl.predicate.map (fun pr => substitute pr mt) = some (substitute pr mt) := by
          rw [hpr]; rfl
        obtain ⟨hpf, hps⟩ := t6 _ hq
        obtain ⟨s, rs, hfs, hsgood, _⟩ := hf (substitute pr mt) [] (hpf hPt) (by omega)
        unfold simplifier.can_prove_with
        rw [hfs]
        simp only
        cases hc : is_constant s with
        | none => exact ih
        | some c =>
          simp only
          by_cases hc0 : c = 0
          · simp only [hc0, ne_eq, not_true_eq_false, decide_False]
            exact ih
          · simp only [ne_eq, hc0, not_false_eq_true, decide_True]
            refine hres (hbase fun rt ctx v hrt hv => ?_)
            have hv' : eval_expr rt (substitute rl.pattern mt) ctx = some v := by rw [hev]; exact hv
            have := (h4 rt ctx v hrt hv').2 (fun pr' w hq' hw => by
              rw [hq] at hq'
              simp only [Option.some.injEq] at hq'
              subst hq'
              have := hsgood.2.2.2 rt ctx w hrt hw
              rw [is_constant_some hc, eval_expr_constant] at this
              simp only [Option.some.injEq] at this
              rw [← this]; exact hc0)
            exact hgood.2.2.2 rt ctx v hrt this

theorem simplifier.mutate_pair_tame {f : expr → symbol_map Int → mutated} {n : Nat}
    (hf : simplifier.tame_upto f n) (hk : simplifier.keeps f) (a b : expr) (r : symbol_map Int)
    (hpa : a.tame = true) (hpb : b.tame = true) (ha : a.budget ≤ n) (hb : b.budget ≤ n) :
    ∃ a' b' r', simplifier.mutate_pair f a b r = some (a', b', r') ∧
      simplifier.improves a a' ∧ simplifier.improves b b' ∧
      simplifier.counted (fun s => expr.reads s a' || expr.reads s b') r r' := by
  obtain ⟨a', r1, h1, g1, c1⟩ := hf a r hpa ha
  obtain ⟨b', r2, h2, g2, c2⟩ := hf b r1 hpb hb
  refine ⟨a', b', r2, by simp [simplifier.mutate_pair, h1, h2], g1, g2, ?_⟩
  exact simplifier.counted_or
    (simplifier.counted_before c1 (fun s c hc => hk b r1 _ s c h2 hc))
    (simplifier.counted_after (fun s c hc => hk a r _ s c h1 hc) c2)

theorem simplifier.mutate_list_tame {f : expr → symbol_map Int → mutated} {n : Nat}
    (hf : simplifier.tame_upto f n) (hk : simplifier.keeps f) :
    ∀ (as : List expr) (r : symbol_map Int), expr.tame_list as = true →
      expr.cost_list as (fun _ => 1) ≤ n →
      ∃ as' r', simplifier.mutate_list f as r = some (as', r') ∧
        expr.tame_list as' = true ∧
        (∀ t, t ∈ expr.binders_list as' → t ∈ expr.binders_list as) ∧
        (∀ t, expr.reads_list t as' = true → expr.reads_list t as = true) ∧
        (expr.plain_list as = true → expr.plain_list as' = true) ∧
        (∀ ρ, expr.cost_list as' ρ ≤ expr.cost_list as ρ) ∧
        (∀ (rt : buffer_runtime) (ctx : eval_context) (vs : List Int), rt.nonempty_dims →
          eval_expr_list rt as ctx = some vs → eval_expr_list rt as' ctx = some vs) ∧
        simplifier.counted (fun s => expr.reads_list s as') r r'
  | [], r, _, _ =>
    ⟨[], r, rfl, rfl, fun _ h => h, fun _ h => h, fun h => h, fun _ => Nat.le_refl _,
      fun _ _ _ _ h => h, fun s c hm _ => by simp [expr.reads_list] at hm⟩
  | a :: as, r, hp, hn => by
    simp only [expr.tame_list, Bool.and_eq_true] at hp
    simp only [expr.cost_list] at hn
    have hposa := expr.budget_pos a
    obtain ⟨a', r1, h1, g1, c1⟩ := hf a r hp.1 (by unfold expr.budget; omega)
    obtain ⟨as', r2, h2, g2, g2b, g2r, g2p, g3, g4, c2⟩ :=
      simplifier.mutate_list_tame hf hk as r1 hp.2 (by omega)
    refine ⟨a' :: as', r2, by simp [simplifier.mutate_list, h1, h2], ?_, ?_, ?_, ?_, ?_, ?_, ?_⟩
    · simp [expr.tame_list, g1.1.1, g2]
    · intro t h
      simp only [expr.binders_list, List.mem_append] at h ⊢
      rcases h with h | h
      · exact Or.inl (g1.1.2.1 t h)
      · exact Or.inr (g2b t h)
    · intro t h
      simp only [expr.reads_list, Bool.or_eq_true] at h ⊢
      rcases h with h | h
      · exact Or.inl (g1.1.2.2 t h)
      · exact Or.inr (g2r t h)
    · intro hpl
      simp only [expr.plain_list, Bool.and_eq_true] at hpl
      simp [expr.plain_list, g1.2.1 hpl.1, g2p hpl.2]
    · intro ρ
      simp only [expr.cost_list]; have := g1.2.2.1 ρ; have := g3 ρ; omega
    · intro rt ctx vs hrt hv
      simp only [eval_expr_list] at hv ⊢
      cases hx : eval_expr rt a ctx with
      | none => simp [hx] at hv
      | some x =>
        cases hy : eval_expr_list rt as ctx with
        | none => simp [hx, hy] at hv
        | some ys =>
          rw [g1.2.2.2 rt ctx x hrt hx, g4 rt ctx ys hrt hy]
          simpa [hx, hy] using hv
    · have := simplifier.counted_or
        (simplifier.counted_before c1
          (fun s c hc => simplifier.keeps_list hk as r1 _ s c h2 hc))
        (simplifier.counted_after (fun s c hc => hk a r _ s c h1 hc) c2)
      intro s c hm hc
      exact this s c (by simpa [expr.reads_list] using hm) hc

/-- The simplifier is sound on a tame `let`: the three outcomes (dropped, inlined, kept). -/
theorem simplifier.visit_let_tame {f : expr → symbol_map Int → mutated} {n : Nat}
    (hf : simplifier.tame_upto f n) (hk : simplifier.keeps f) (s : Nat) (V B : expr)
    (r : symbol_map Int) (ht : (expr.let_ s V B).tame = true)
    (hn : (expr.let_ s V B).budget ≤ n + 1) :
    ∃ e' r', simplifier.visit_let f s V B r = some (e', r') ∧
      simplifier.improves (.let_ s V B) e' ∧
      simplifier.counted (fun t => expr.reads t e') r r' := by
  simp only [expr.tame, Bool.and_eq_true, Bool.or_eq_true, List.all_eq_true,
    Bool.not_eq_true'] at ht
  obtain ⟨⟨tV, tB⟩, hcase⟩ := ht
  simp only [expr.budget, expr.cost] at hn
  have hposV : 1 ≤ expr.cost V (fun _ => 1) := expr.cost_pos V _ (fun _ => Nat.le_refl 1)
  have hmonoB : expr.cost B (fun _ => 1) ≤
      expr.cost B (fun x => if x = s then expr.cost V (fun _ => 1) else 1) :=
    expr.cost_mono B _ _ (fun x => by
      by_cases hx : x = s
      · simp only [hx, if_true]; exact hposV
      · simp only [hx, if_false]; exact Nat.le_refl 1)
  obtain ⟨V', r1, h1, gV, cV⟩ := hf V r tV (by unfold expr.budget; omega)
  obtain ⟨B', r2, h2, gB, cB⟩ := hf B (r1.set s (some 0)) tB (by unfold expr.budget; omega)
  obtain ⟨refs, hrefs, hpos⟩ := hk B (r1.set s (some 0)) (B', r2) s 0 h2
    (by simp [symbol_map.lookup_set])
  have hd : ∀ t, t ∈ B'.binders → expr.reads t V' = false := by
    intro t htb
    rcases hcase with hpB | ⟨_, hdis⟩
    · rw [expr.binders_of_plain B' (gB.2.1 hpB)] at htb
      cases htb
    · cases hr : expr.reads t V' with
      | false => rfl
      | true =>
        have := hdis t (gB.1.2.1 t htb)
        rw [gV.1.2.2 t hr] at this
        cases this
  have hcostV : ∀ ρ, expr.cost V' ρ ≤ expr.cost V ρ := gV.2.2.1
  have hcostB : ∀ ρ : Nat → Nat, expr.cost B' (fun x => if x = s then expr.cost V' ρ else ρ x) ≤
      expr.cost B (fun x => if x = s then expr.cost V ρ else ρ x) := fun ρ =>
    Nat.le_trans
      (expr.cost_mono B' _ _ (fun x => by
        by_cases hx : x = s
        · simp only [hx, if_true]; exact hcostV ρ
        · simp only [hx, if_false]; exact Nat.le_refl _))
      (gB.2.2.1 _)
  have hnp : (expr.let_ s V B).plain = true → False := by simp [expr.plain]
  have hcount : ∀ (t : Nat) (c : Int),
      (expr.reads t V' = true ∨ (t ≠ s ∧ expr.reads t B' = true)) → r.lookup t = some c →
      ∃ c', (r2.set s (r1.lookup s)).lookup t = some c' ∧ c < c' := by
    intro t c hor hc
    rcases hor with hv | ⟨hts, hb⟩
    · obtain ⟨c1, hc1, l1⟩ := cV t c hv hc
      by_cases hts : t = s
      · subst hts
        exact ⟨c1, by simp [symbol_map.lookup_set, hc1], l1⟩
      · obtain ⟨c2, hc2, l2⟩ := hk B (r1.set s (some 0)) (B', r2) t c1 h2
          (by simp [symbol_map.lookup_set, hts, hc1])
        exact ⟨c2, by simp [symbol_map.lookup_set, hts, hc2], by omega⟩
    · obtain ⟨c1, hc1, l1⟩ := hk V r (V', r1) t c h1 hc
      obtain ⟨c2, hc2, l2⟩ := cB t c1 hb (by simp [symbol_map.lookup_set, hts, hc1])
      exact ⟨c2, by simp [symbol_map.lookup_set, hts, hc2], by omega⟩
  refine ⟨_, _, simplifier.visit_let_template_eq f f substitute expr.let_ s V B r r1 r2 V' B' refs
    h1 h2 hrefs, ?_⟩
  by_cases h0 : refs = 0
  · simp only [h0, if_true]
    have hm : expr.reads s B' = false := by
      cases hmm : expr.reads s B' with
      | false => rfl
      | true =>
        obtain ⟨c', hc', hlt⟩ := cB s 0 hmm (by simp [symbol_map.lookup_set])
        rw [hrefs, h0] at hc'
        simp only [Option.some.injEq] at hc'
        omega
    have hne : ∀ t, expr.reads t B' = true → t ≠ s := by
      intro t h hts
      rw [hts, hm] at h
      cases h
    refine ⟨⟨⟨gB.1.1, fun t h => ?_, fun t h => ?_⟩, fun h => (hnp h).elim, fun ρ => ?_,
      fun rt ctx v hrt hv => ?_⟩, fun t c hmt hc => hcount t c (Or.inr ⟨hne t hmt, hmt⟩) hc⟩
    · simp only [expr.binders, List.mem_cons, List.mem_append]
      exact Or.inr (Or.inr (gB.1.2.1 t h))
    · simp only [expr.reads, Bool.or_eq_true, Bool.and_eq_true, Bool.not_eq_true',
        decide_eq_false_iff_not]
      exact Or.inr ⟨fun hst => hne t h hst.symm, gB.1.2.2 t h⟩
    · simp only [expr.cost]
      have e1 : expr.cost B' ρ =
          expr.cost B' (fun x => if x = s then expr.cost V' ρ else ρ x) :=
        expr.cost_congr B' _ _ (fun x hx => by
          have := hne x hx
          simp only [this, if_false])
      have := hcostB ρ
      omega
    · simp only [eval_expr] at hv
      cases hx : eval_expr rt V ctx with
      | none => simp [hx] at hv
      | some x =>
        simp only [hx] at hv
        have := gB.2.2.2 rt _ v hrt hv
        rw [eval_expr_set_unread B' rt ctx s (some x) hm] at this
        exact this
  · simp only [h0, if_false]
    split_ifs with hin
    · have hrs : ∀ t, expr.reads t (substitute B' [(s, V')]) = true →
          expr.reads t V' = true ∨ (t ≠ s ∧ expr.reads t B' = true) :=
        fun t h => expr.reads_substitute B' s V' t gB.1.1 h
      have htame : (substitute B' [(s, V')]).tame = true := by
        rcases hcase with hpB | ⟨hpV, _⟩
        · exact expr.tame_substitute_into_plain B' s V' (gB.2.1 hpB) gV.1.1
        · exact expr.tame_substitute_plain B' s V' gB.1.1 (gV.2.1 hpV) hd
      refine ⟨⟨⟨htame, fun t h => ?_, fun t h => ?_⟩, fun h => (hnp h).elim, fun ρ => ?_,
        fun rt ctx v hrt hv => ?_⟩, fun t c hmt hc => hcount t c (hrs t hmt) hc⟩
      · simp only [expr.binders, List.mem_cons, List.mem_append]
        rcases expr.binders_substitute B' s V' t h with h | h
        · exact Or.inr (Or.inr (gB.1.2.1 t h))
        · exact Or.inr (Or.inl (gV.1.2.1 t h))
      · simp only [expr.reads, Bool.or_eq_true, Bool.and_eq_true, Bool.not_eq_true',
          decide_eq_false_iff_not]
        rcases hrs t h with h | ⟨hts, h⟩
        · exact Or.inl (gV.1.2.2 t h)
        · exact Or.inr ⟨fun hst => hts hst.symm, gB.1.2.2 t h⟩
      · simp only [expr.cost]
        have := expr.cost_substitute B' s V' ρ hd
        have := hcostB ρ
        omega
      · simp only [eval_expr] at hv
        cases hx : eval_expr rt V ctx with
        | none => simp [hx] at hv
        | some x =>
          simp only [hx] at hv
          rw [eval_expr_substitute_admits B' rt ctx s V' x
            (expr.admits_of_disjoint B' s V' gB.1.1 hd) (gV.2.2.2 rt ctx x hrt hx)]
          exact gB.2.2.2 rt _ v hrt hv
    · have htame : (expr.let_ s V' B').tame = true := by
        simp only [expr.tame, Bool.and_eq_true, Bool.or_eq_true, List.all_eq_true,
          Bool.not_eq_true']
        refine ⟨⟨gV.1.1, gB.1.1⟩, ?_⟩
        rcases hcase with hpB | ⟨hpV, _⟩
        · exact Or.inl (gB.2.1 hpB)
        · exact Or.inr ⟨gV.2.1 hpV, hd⟩
      have hrs : ∀ t, expr.reads t (expr.let_ s V' B') = true →
          expr.reads t V' = true ∨ (t ≠ s ∧ expr.reads t B' = true) := by
        intro t h
        simp only [expr.reads, Bool.or_eq_true, Bool.and_eq_true, Bool.not_eq_true',
          decide_eq_false_iff_not] at h
        rcases h with h | ⟨hst, h⟩
        · exact Or.inl h
        · exact Or.inr ⟨fun hts => hst hts.symm, h⟩
      refine ⟨⟨⟨htame, fun t h => ?_, fun t h => ?_⟩, fun h => (hnp h).elim, fun ρ => ?_,
        fun rt ctx v hrt hv => ?_⟩, fun t c hmt hc => hcount t c (hrs t hmt) hc⟩
      · simp only [expr.binders, List.mem_cons, List.mem_append] at h ⊢
        rcases h with h | h | h
        · exact Or.inl h
        · exact Or.inr (Or.inl (gV.1.2.1 t h))
        · exact Or.inr (Or.inr (gB.1.2.1 t h))
      · simp only [expr.reads, Bool.or_eq_true, Bool.and_eq_true, Bool.not_eq_true',
          decide_eq_false_iff_not]
        rcases hrs t h with h | ⟨hts, h⟩
        · exact Or.inl (gV.1.2.2 t h)
        · exact Or.inr ⟨fun hst => hts hst.symm, gB.1.2.2 t h⟩
      · simp only [expr.cost]
        have := hcostV ρ
        have := hcostB ρ
        omega
      · simp only [eval_expr] at hv ⊢
        cases hx : eval_expr rt V ctx with
        | none => simp [hx] at hv
        | some x =>
          simp only [hx] at hv
          rw [gV.2.2.2 rt ctx x hrt hx]
          exact gB.2.2.2 rt _ v hrt hv

/-- One visit keeps the simplifier sound on tame expressions, one unit of budget further. -/
theorem simplifier.visit_tame {f : expr → symbol_map Int → mutated} {n : Nat}
    (hf : simplifier.tame_upto f n) (hk : simplifier.keeps f) :
    simplifier.tame_upto (simplifier.visit f) (n + 1) := by
  intro e r hp hn
  cases e with
  | var s =>
    simp only [simplifier.visit]
    cases hl : symbol_map.lookup r s with
    | none =>
      refine ⟨_, _, rfl, simplifier.improves_self hp, fun t c hm hc => ?_⟩
      simp only [expr.reads, decide_eq_true_eq] at hm
      subst hm
      rw [hl] at hc
      cases hc
    | some c0 =>
      refine ⟨_, _, rfl, simplifier.improves_self hp, fun t c hm hc => ?_⟩
      simp only [expr.reads, decide_eq_true_eq] at hm
      subst hm
      rw [hl] at hc
      simp only [Option.some.injEq] at hc
      subst hc
      exact ⟨c0 + 1, by simp [symbol_map.lookup_set], by omega⟩
  | wildcard s => simp [expr.tame] at hp
  | constant v =>
    exact ⟨_, _, rfl, simplifier.improves_self hp, simplifier.counted_reads_constant _ _ _⟩
  | let_ s v b =>
    obtain ⟨e', r', h, g, c⟩ := simplifier.visit_let_tame hf hk s v b r hp hn
    exact ⟨e', r', by simp only [simplifier.visit, h], g, c⟩
  | logical_not a =>
    simp only [expr.tame] at hp
    simp only [expr.budget, expr.cost] at hn
    obtain ⟨a', r', h, g, hc⟩ := hf a r hp (by unfold expr.budget; omega)
    refine ⟨_, r', by simp only [simplifier.visit, h], simplifier.improves_logical_not g, ?_⟩
    simpa only [expr.reads] using hc
  | select c t e =>
    simp only [expr.tame, Bool.and_eq_true] at hp
    simp only [expr.budget, expr.cost] at hn
    obtain ⟨c', r1, h, g, hc⟩ := hf c r hp.1.1 (by unfold expr.budget; omega)
    obtain ⟨t', e', r', hmp, gt, ge, hte⟩ :=
      simplifier.mutate_pair_tame hf hk t e r1 hp.1.2 hp.2 (by unfold expr.budget; omega)
        (by unfold expr.budget; omega)
    refine ⟨_, r', by simp only [simplifier.visit, h, hmp], simplifier.improves_select g gt ge, ?_⟩
    have h1 := simplifier.counted_before hc
      (fun s c hc => simplifier.keeps_pair hk t e r1 _ s c hmp hc)
    have h2 := simplifier.counted_after (fun s k hk0 => hk c r _ s k h hk0) hte
    intro s k hm hk'
    simp only [expr.reads, Bool.or_eq_true] at hm
    rcases hm with (hm | hm) | hm
    · exact h1 s k hm hk'
    · exact h2 s k (by simp [hm]) hk'
    · exact h2 s k (by simp [hm]) hk'
  | call fn args =>
    simp only [expr.tame] at hp
    simp only [expr.budget, expr.cost] at hn
    obtain ⟨as', r', h, g1, g1b, g1r, g2, g3, g4, g5⟩ :=
      simplifier.mutate_list_tame hf hk args r hp (by omega)
    refine ⟨_, r', by simp only [simplifier.visit, h],
      simplifier.improves_call g1 g1b g1r g2 g3 g4, ?_⟩
    simpa only [expr.reads] using g5
  | mul a b =>
    simp only [expr.tame, Bool.and_eq_true] at hp
    simp only [expr.budget, expr.cost] at hn
    obtain ⟨a', b', r', hmp, ga, gb, hc⟩ :=
      simplifier.mutate_pair_tame hf hk a b r hp.1 hp.2 (by unfold expr.budget; omega)
        (by unfold expr.budget; omega)
    refine ⟨_, r', by simp only [simplifier.visit, hmp], simplifier.improves_mul ga gb, ?_⟩
    simpa only [expr.reads] using hc
  | div a b =>
    simp only [expr.tame, Bool.and_eq_true] at hp
    simp only [expr.budget, expr.cost] at hn
    obtain ⟨a', b', r', hmp, ga, gb, hc⟩ :=
      simplifier.mutate_pair_tame hf hk a b r hp.1 hp.2 (by unfold expr.budget; omega)
        (by unfold expr.budget; omega)
    refine ⟨_, r', by simp only [simplifier.visit, hmp], simplifier.improves_div ga gb, ?_⟩
    simpa only [expr.reads] using hc
  | mod a b =>
    simp only [expr.tame, Bool.and_eq_true] at hp
    simp only [expr.budget, expr.cost] at hn
    obtain ⟨a', b', r', hmp, ga, gb, hc⟩ :=
      simplifier.mutate_pair_tame hf hk a b r hp.1 hp.2 (by unfold expr.budget; omega)
        (by unfold expr.budget; omega)
    refine ⟨_, r', by simp only [simplifier.visit, hmp], simplifier.improves_mod ga gb, ?_⟩
    simpa only [expr.reads] using hc
  | equal a b =>
    simp only [expr.tame, Bool.and_eq_true] at hp
    simp only [expr.budget, expr.cost] at hn
    obtain ⟨a', b', r', hmp, ga, gb, hc⟩ :=
      simplifier.mutate_pair_tame hf hk a b r hp.1 hp.2 (by unfold expr.budget; omega)
        (by unfold expr.budget; omega)
    refine ⟨_, r', by simp only [simplifier.visit, hmp], simplifier.improves_equal ga gb, ?_⟩
    simpa only [expr.reads] using hc
  | not_equal a b =>
    simp only [expr.tame, Bool.and_eq_true] at hp
    simp only [expr.budget, expr.cost] at hn
    obtain ⟨a', b', r', hmp, ga, gb, hc⟩ :=
      simplifier.mutate_pair_tame hf hk a b r hp.1 hp.2 (by unfold expr.budget; omega)
        (by unfold expr.budget; omega)
    refine ⟨_, r', by simp only [simplifier.visit, hmp], simplifier.improves_not_equal ga gb, ?_⟩
    simpa only [expr.reads] using hc
  | less_equal a b =>
    simp only [expr.tame, Bool.and_eq_true] at hp
    simp only [expr.budget, expr.cost] at hn
    obtain ⟨a', b', r', hmp, ga, gb, hc⟩ :=
      simplifier.mutate_pair_tame hf hk a b r hp.1 hp.2 (by unfold expr.budget; omega)
        (by unfold expr.budget; omega)
    refine ⟨_, r', by simp only [simplifier.visit, hmp], simplifier.improves_less_equal ga gb, ?_⟩
    simpa only [expr.reads] using hc
  | logical_and a b =>
    simp only [expr.tame, Bool.and_eq_true] at hp
    simp only [expr.budget, expr.cost] at hn
    obtain ⟨a', b', r', hmp, ga, gb, hc⟩ :=
      simplifier.mutate_pair_tame hf hk a b r hp.1 hp.2 (by unfold expr.budget; omega)
        (by unfold expr.budget; omega)
    refine ⟨_, r', by simp only [simplifier.visit, hmp], simplifier.improves_logical_and ga gb, ?_⟩
    simpa only [expr.reads] using hc
  | logical_or a b =>
    simp only [expr.tame, Bool.and_eq_true] at hp
    simp only [expr.budget, expr.cost] at hn
    obtain ⟨a', b', r', hmp, ga, gb, hc⟩ :=
      simplifier.mutate_pair_tame hf hk a b r hp.1 hp.2 (by unfold expr.budget; omega)
        (by unfold expr.budget; omega)
    refine ⟨_, r', by simp only [simplifier.visit, hmp], simplifier.improves_logical_or ga gb, ?_⟩
    simpa only [expr.reads] using hc
  | less a b =>
    simp only [expr.tame, Bool.and_eq_true] at hp
    simp only [expr.budget, expr.cost] at hn
    obtain ⟨a', b', r', hmp, ga, gb, hc⟩ :=
      simplifier.mutate_pair_tame hf hk a b r hp.1 hp.2 (by unfold expr.budget; omega)
        (by unfold expr.budget; omega)
    have hcong := simplifier.improves_less ga gb
    have hcm : simplifier.counted (fun s => expr.reads s (.less a' b')) r r' := by
      simpa only [expr.reads] using hc
    simp only [simplifier.visit, hmp]
    cases hca : is_constant a' with
    | none => exact ⟨_, _, rfl, hcong, hcm⟩
    | some ca =>
      cases hcb : is_constant b' with
      | none => exact ⟨_, _, rfl, hcong, hcm⟩
      | some cb =>
        refine ⟨_, _, rfl, simplifier.improves_trans hcong ?_,
          simplifier.counted_reads_constant _ _ _⟩
        rw [is_constant_some hca, is_constant_some hcb]
        exact simplifier.improves_fold_less ca cb
  | min a b =>
    simp only [expr.tame, Bool.and_eq_true] at hp
    simp only [expr.budget, expr.cost] at hn
    obtain ⟨a', b', r', hmp, ga, gb, hc⟩ :=
      simplifier.mutate_pair_tame hf hk a b r hp.1 hp.2 (by unfold expr.budget; omega)
        (by unfold expr.budget; omega)
    have hcong := simplifier.improves_min ga gb
    have hrules := simplifier.apply_rules_tame hf _ simplifier.min_rules_sound
      simplifier.min_rules_tame (.min a' b') r' hcong.1.1
      (by have := hcong.2.2.1 (fun _ => 1); simp only [expr.budget, expr.cost] at this ⊢; omega)
    obtain ⟨e', r'', h, g, gc⟩ := hrules
    have hcm : simplifier.counted (fun s => expr.reads s e') r r'' := by
      refine simplifier.counted_reads_rules
        (fun s c hc => simplifier.keeps_pair hk a b r _ s c hmp hc) ?_ gc
      simpa only [expr.reads] using hc
    simp only [simplifier.visit, hmp]
    cases hca : is_constant a' with
    | none => exact ⟨e', r'', h, simplifier.improves_trans hcong g, hcm⟩
    | some ca =>
      cases hcb : is_constant b' with
      | none => exact ⟨e', r'', h, simplifier.improves_trans hcong g, hcm⟩
      | some cb =>
        refine ⟨_, _, rfl, simplifier.improves_trans hcong ?_,
          simplifier.counted_reads_constant _ _ _⟩
        rw [is_constant_some hca, is_constant_some hcb]
        exact simplifier.improves_fold_min ca cb
  | max a b =>
    simp only [expr.tame, Bool.and_eq_true] at hp
    simp only [expr.budget, expr.cost] at hn
    obtain ⟨a', b', r', hmp, ga, gb, hc⟩ :=
      simplifier.mutate_pair_tame hf hk a b r hp.1 hp.2 (by unfold expr.budget; omega)
        (by unfold expr.budget; omega)
    have hcong := simplifier.improves_max ga gb
    have hrules := simplifier.apply_rules_tame hf _ simplifier.max_rules_sound
      simplifier.max_rules_tame (.max a' b') r' hcong.1.1
      (by have := hcong.2.2.1 (fun _ => 1); simp only [expr.budget, expr.cost] at this ⊢; omega)
    obtain ⟨e', r'', h, g, gc⟩ := hrules
    have hcm : simplifier.counted (fun s => expr.reads s e') r r'' := by
      refine simplifier.counted_reads_rules
        (fun s c hc => simplifier.keeps_pair hk a b r _ s c hmp hc) ?_ gc
      simpa only [expr.reads] using hc
    simp only [simplifier.visit, hmp]
    cases hca : is_constant a' with
    | none => exact ⟨e', r'', h, simplifier.improves_trans hcong g, hcm⟩
    | some ca =>
      cases hcb : is_constant b' with
      | none => exact ⟨e', r'', h, simplifier.improves_trans hcong g, hcm⟩
      | some cb =>
        refine ⟨_, _, rfl, simplifier.improves_trans hcong ?_,
          simplifier.counted_reads_constant _ _ _⟩
        rw [is_constant_some hca, is_constant_some hcb]
        exact simplifier.improves_fold_max ca cb
  | add a b =>
    simp only [expr.tame, Bool.and_eq_true] at hp
    simp only [expr.budget, expr.cost] at hn
    obtain ⟨a', b', r', hmp, ga, gb, hc⟩ :=
      simplifier.mutate_pair_tame hf hk a b r hp.1 hp.2 (by unfold expr.budget; omega)
        (by unfold expr.budget; omega)
    have hcong := simplifier.improves_add ga gb
    have hrules := simplifier.apply_rules_tame hf _ simplifier.add_rules_sound
      simplifier.add_rules_tame (.add a' b') r' hcong.1.1
      (by have := hcong.2.2.1 (fun _ => 1); simp only [expr.budget, expr.cost] at this ⊢; omega)
    obtain ⟨e', r'', h, g, gc⟩ := hrules
    have hcm : simplifier.counted (fun s => expr.reads s e') r r'' := by
      refine simplifier.counted_reads_rules
        (fun s c hc => simplifier.keeps_pair hk a b r _ s c hmp hc) ?_ gc
      simpa only [expr.reads] using hc
    simp only [simplifier.visit, hmp]
    cases hca : is_constant a' with
    | none => exact ⟨e', r'', h, simplifier.improves_trans hcong g, hcm⟩
    | some ca =>
      cases hcb : is_constant b' with
      | none => exact ⟨e', r'', h, simplifier.improves_trans hcong g, hcm⟩
      | some cb =>
        refine ⟨_, _, rfl, simplifier.improves_trans hcong ?_,
          simplifier.counted_reads_constant _ _ _⟩
        rw [is_constant_some hca, is_constant_some hcb]
        exact simplifier.improves_fold_add ca cb
  | sub a b =>
    simp only [expr.tame, Bool.and_eq_true] at hp
    simp only [expr.budget, expr.cost] at hn
    obtain ⟨a', b', r', hmp, ga, gb, hc⟩ :=
      simplifier.mutate_pair_tame hf hk a b r hp.1 hp.2 (by unfold expr.budget; omega)
        (by unfold expr.budget; omega)
    have hcong := simplifier.improves_sub ga gb
    have hrules := simplifier.apply_rules_tame hf _ simplifier.sub_rules_sound
      simplifier.sub_rules_tame (.sub a' b') r' hcong.1.1
      (by have := hcong.2.2.1 (fun _ => 1); simp only [expr.budget, expr.cost] at this ⊢; omega)
    obtain ⟨e', r'', h, g, gc⟩ := hrules
    have hcm : simplifier.counted (fun s => expr.reads s e') r r'' := by
      refine simplifier.counted_reads_rules
        (fun s c hc => simplifier.keeps_pair hk a b r _ s c hmp hc) ?_ gc
      simpa only [expr.reads] using hc
    simp only [simplifier.visit, hmp]
    cases hca : is_constant a' with
    | none => exact ⟨e', r'', h, simplifier.improves_trans hcong g, hcm⟩
    | some ca =>
      cases hcb : is_constant b' with
      | none => exact ⟨e', r'', h, simplifier.improves_trans hcong g, hcm⟩
      | some cb =>
        refine ⟨_, _, rfl, simplifier.improves_trans hcong ?_,
          simplifier.counted_reads_constant _ _ _⟩
        rw [is_constant_some hca, is_constant_some hcb]
        exact simplifier.improves_fold_sub ca cb

/-- With a budget of at least `expr.budget`, every tame expression is simplified to an
improvement. -/
theorem simplifier.mutate_tame : ∀ (n : Nat), simplifier.tame_upto (simplifier.mutate n) n
  | 0 => by
    intro e r _ hn
    have := expr.budget_pos e
    omega
  | n + 1 => simplifier.visit_tame (simplifier.mutate_tame n) (simplifier.keeps_mutate n)

/-! ## Soundness of `simplify` and `can_prove` on tame lets: proofs -/

/-- C1 (amended): for every tame expression e (no `wildcard` node, and every `let` has a body
without `let`, or a value without `let` that reads no symbol bound by a `let` inside the
body; lets may stand under any operator, in the value of a `let` and in the body of a
`let`), simplify returns one expression e' with any budget of at least `e.budget`, and for
every context and every buffer memory whose dims are non-empty index ranges, whenever
evaluate(e) has a value, evaluate(e') has the same value.  Arithmetic wraps to 64 bits in the
evaluator and in the folding alike, so no side condition on overflow is needed. -/
theorem simplify_sound_on_tame_lets (e : expr) (hp : e.tame = true) :
    ∃ e', (∀ fuel, e.budget ≤ fuel → simplify fuel e = some e') ∧
      ∀ (rt : buffer_runtime) (ctx : eval_context) (v : Int), rt.nonempty_dims →
        evaluate rt e ctx = some v → evaluate rt e' ctx = some v := by
  obtain ⟨e', r', h, g, _⟩ := simplifier.mutate_tame e.budget e [] hp (Nat.le_refl _)
  refine ⟨e', fun fuel hf => ?_, g.2.2.2⟩
  simp [simplify, simplifier.mutate_mono hf e [] _ h]

/-- C1 (amended), at `let v5 = v3 in let v6 = v5 + v4 in min(v6 / 2, v6 / 2) - v5`, a `let`
inside the body of a `let` (so the lets are not flat): with budget 20 simplify inlines v5
under the inner `let`, rewrites the `min`, and returns `let v6 = v3 + v4 in v6 / 2 - v3`; that
expression has the value of the input wherever the input has one. -/
theorem simplify_sound_on_tame_lets_witness :
    expr.flat_lets (.let_ 5 (.var 3) (.let_ 6 (.add (.var 5) (.var 4))
        (.sub (.min (.div (.var 6) (.constant 2)) (.div (.var 6) (.constant 2))) (.var 5))))
      = false ∧
    expr.tame (.let_ 5 (.var 3) (.let_ 6 (.add (.var 5) (.var 4))
        (.sub (.min (.div (.var 6) (.constant 2)) (.div (.var 6) (.constant 2))) (.var 5))))
      = true ∧
    simplify 20 (.let_ 5 (.var 3) (.let_ 6 (.add (.var 5) (.var 4))
        (.sub (.min (.div (.var 6) (.constant 2)) (.div (.var 6) (.constant 2))) (.var 5))))
      = some (.let_ 6 (.add (.var 3) (.var 4))
          (.sub (.div (.var 6) (.constant 2)) (.var 3))) ∧
    ∀ (rt : buffer_runtime) (ctx : eval_context) (v : Int), rt.nonempty_dims →
      evaluate rt (.let_ 5 (.var 3) (.let_ 6 (.add (.var 5) (.var 4))
        (.sub (.min (.div (.var 6) (.constant 2)) (.div (.var 6) (.constant 2))) (.var 5))))
        ctx = some v →
      evaluate rt (.let_ 6 (.add (.var 3) (.var 4))
          (.sub (.div (.var 6) (.constant 2)) (.var 3))) ctx = some v := by
  obtain ⟨e', h1, h2⟩ := simplify_sound_on_tame_lets
    (.let_ 5 (.var 3) (.let_ 6 (.add (.var 5) (.var 4))
      (.sub (.min (.div (.var 6) (.constant 2)) (.div (.var 6) (.constant 2))) (.var 5))))
    (by decide)
  have h3 := h1 20 (by decide)
  have h4 : simplify 20 (.let_ 5 (.var 3) (.let_ 6 (.add (.var 5) (.var 4))
      (.sub (.min (.div (.var 6) (.constant 2)) (.div (.var 6) (.constant 2))) (.var 5))))
      = some (.let_ 6 (.add (.var 3) (.var 4))
          (.sub (.div (.var 6) (.constant 2)) (.var 3))) := by decide
  rw [h4, Option.some.injEq] at h3
  subst h3
  exact ⟨by decide, by decide, h4, h2⟩

/-- C2 (amended): for every tame expression e (no `wildcard` node, and every `let` has a body
without `let`, or a value without `let` that reads no symbol bound by a `let` inside the
body), can_prove returns an answer with any budget of at least `e.budget`, and if the answer
is true then evaluate(e) is not 0 in any context, over any buffer memory whose dims are
non-empty index ranges. -/
theorem can_prove_sound_on_tame_lets (e : expr) (hp : e.tame = true) :
    ∃ b, (∀ fuel, e.budget ≤ fuel → can_prove fuel e = some b) ∧
      (b = true → ∀ (rt : buffer_runtime) (ctx : eval_context), rt.nonempty_dims →
        evaluate rt e ctx ≠ some 0) := by
  obtain ⟨e', r', h, g, _⟩ := simplifier.mutate_tame e.budget e [] hp (Nat.le_refl _)
  cases hc : is_constant e' with
  | none =>
    refine ⟨false, fun fuel hf => ?_, fun hb => by cases hb⟩
    simp [can_prove, simplifier.can_prove_with, simplifier.mutate_mono hf e [] _ h, hc]
  | some c =>
    refine ⟨decide (c ≠ 0), fun fuel hf => ?_, fun hb rt ctx hrt hv => ?_⟩
    · simp [can_prove, simplifier.can_prove_with, simplifier.mutate_mono hf e [] _ h, hc]
    · have := g.2.2.2 rt ctx 0 hrt hv
      rw [is_constant_some hc, eval_expr_constant] at this
      simp only [Option.some.injEq] at this
      simp [this] at hb

/-- C2 (amended), at `(let v1 = 2 in let v2 = v1 in v2) + (v3 - v3) < 3`, with a `let` inside
the body of a `let`: with budget 20 can_prove answers true, and the expression is not 0 in
any context. -/
theorem can_prove_sound_on_tame_lets_witness :
    expr.tame (.less (.add (.let_ 1 (.constant 2) (.let_ 2 (.var 1) (.var 2)))
        (.sub (.var 3) (.var 3))) (.constant 3)) = true ∧
    can_prove 20 (.less (.add (.let_ 1 (.constant 2) (.let_ 2 (.var 1) (.var 2)))
        (.sub (.var 3) (.var 3))) (.constant 3)) = some true ∧
    ∀ (rt : buffer_runtime) (ctx : eval_context), rt.nonempty_dims →
      evaluate rt (.less (.add (.let_ 1 (.constant 2) (.let_ 2 (.var 1) (.var 2)))
        (.sub (.var 3) (.var 3))) (.constant 3)) ctx ≠ some 0 := by
  obtain ⟨b, h1, h2⟩ := can_prove_sound_on_tame_lets
    (.less (.add (.let_ 1 (.constant 2) (.let_ 2 (.var 1) (.var 2)))
      (.sub (.var 3) (.var 3))) (.constant 3)) (by decide)
  have h3 := h1 20 (by decide)
  have h4 : can_prove 20 (.less (.add (.let_ 1 (.constant 2) (.let_ 2 (.var 1) (.var 2)))
      (.sub (.var 3) (.var 3))) (.constant 3)) = some true := by decide
  rw [h4, Option.some.injEq] at h3
  exact ⟨by decide, h4, h2 h3.symm⟩

end slinky
